import Mathlib

/-!
ChorusKit action domain: layout composition.

A shallow embedding of `src/appcore/actions/actiondomain.cpp` (class `LayoutsHelper`,
`ActionDomainPrivate::setLayouts_helper`, `ActionDomain::saveLayouts` / `restoreLayouts`).

Conventions of the embedding

* `QString` is `String` and `isEmpty()` is the comparison with `""`; `QVector<int>` of arena
  indexes is `List Nat`; the arena `QVector<TreeNode>` is `List TreeNode`, `heap.size()` is
  `List.length` and `heap.at(i)` is `heap[i]?`.
* `QHash` / `QMap` / `QMChronoMap` are association lists with unique keys.
* A loop or recursion of the source that is not structurally bounded carries a fuel argument and
  returns `none` when the fuel runs out, so `none` stands for a run that does not return.
* `QMXmlAdaptor::saveData` / `loadData` belong to an external library; the persisted bytes are
  represented by the element tree they encode (`loadData (saveData r) = r`).
-/

namespace Core

/-! ## Data model -/

/-- The enum `ActionObjectInfo::Type`. -/
inductive ActionObjectType where
  | Action
  | Group
  | Menu
  deriving DecidableEq, Repr

/-- The enum `ActionObjectInfo::Mode`; the composer only tests for `Plain`, the values are the
ones the descriptor compiler writes (`tools/aec/parser.cpp`). -/
inductive ActionObjectMode where
  | Plain
  | Unique
  | TopLevel
  | Widget
  deriving DecidableEq, Repr

/-- The fields of `ActionObjectInfo` read by the composer. -/
structure ActionObjectInfo where
  id : String
  type : ActionObjectType
  mode : ActionObjectMode
  categories : List String
  deriving DecidableEq, Repr

/-- The enum `ActionLayoutInfo::Type`. -/
inductive ActionLayoutType where
  | Action
  | Group
  | Menu
  | ExpandedMenu
  | Separator
  | Stretch
  deriving DecidableEq, Repr

/-- A declared layout entry of an extension (`ActionLayoutInfo`): `id()`, `type()`, and the
entries reached by `child(i)` for `i < childCount()`. -/
inductive ActionLayoutInfo where
  | mk (id : String) (type : ActionLayoutType) (children : List ActionLayoutInfo)
  deriving Repr

/-- The enum `ActionBuildRoutine::Anchor`. -/
inductive Anchor where
  | Last
  | First
  | After
  | Before
  deriving DecidableEq, Repr

/-- A build routine of an extension (`ActionBuildRoutine`). -/
structure ActionBuildRoutine where
  anchor : Anchor
  parent : String
  relativeTo : String
  items : List ActionLayoutInfo

/-- An extension record (`ActionExtension`). -/
structure ActionExtension where
  hash : String
  objects : List ActionObjectInfo
  layouts : List ActionLayoutInfo
  buildRoutines : List ActionBuildRoutine

/-- A node of the composed forest (`ActionLayout`): a value with an id, a type and children. -/
inductive ActionLayout where
  | mk (id : String) (type : ActionLayoutType) (children : List ActionLayout)
  deriving Repr

/-- An arena node, `LayoutsHelper::TreeNode`. -/
structure TreeNode where
  id : String
  type : ActionLayoutType
  children : List Nat
  deriving DecidableEq, Repr

namespace ActionLayoutInfo

/-- The accessor `ActionLayoutInfo::id()`. -/
def id : ActionLayoutInfo → String
  | mk i _ _ => i

/-- The accessor `ActionLayoutInfo::type()`. -/
def type : ActionLayoutInfo → ActionLayoutType
  | mk _ t _ => t

/-- The list of `child(i)` for `i < childCount()`. -/
def children : ActionLayoutInfo → List ActionLayoutInfo
  | mk _ _ cs => cs

/-- Number of entries of a declared layout tree. -/
def size : ActionLayoutInfo → Nat
  | mk _ _ cs => sizeList cs + 1
where
  /-- Number of entries of a list of declared layout trees. -/
  sizeList : List ActionLayoutInfo → Nat
  | [] => 0
  | c :: cs => size c + sizeList cs

end ActionLayoutInfo

namespace ActionLayout

/-- The accessor `ActionLayout::id()`. -/
def id : ActionLayout → String
  | mk i _ _ => i

/-- The accessor `ActionLayout::type()`. -/
def type : ActionLayout → ActionLayoutType
  | mk _ t _ => t

/-- The accessor `ActionLayout::children()`. -/
def children : ActionLayout → List ActionLayout
  | mk _ _ cs => cs

/-- Number of nodes of a composed tree. -/
def size : ActionLayout → Nat
  | mk _ _ cs => sizeList cs + 1
where
  /-- Number of nodes of a composed forest. -/
  sizeList : List ActionLayout → Nat
  | [] => 0
  | c :: cs => size c + sizeList cs

/-- Equality of composed trees is decidable. -/
def decEq : (a b : ActionLayout) → Decidable (a = b)
  | mk i t cs, mk j u ds =>
    if h1 : i = j then
      if h2 : t = u then
        match decEqList cs ds with
        | isTrue h3 => isTrue (by rw [h1, h2, h3])
        | isFalse h3 => isFalse (fun h => h3 (by cases h; rfl))
      else isFalse (fun h => h2 (by cases h; rfl))
    else isFalse (fun h => h1 (by cases h; rfl))
where
  /-- Equality of composed forests is decidable. -/
  decEqList : (as bs : List ActionLayout) → Decidable (as = bs)
  | [], [] => isTrue rfl
  | [], _ :: _ => isFalse (fun h => by cases h)
  | _ :: _, [] => isFalse (fun h => by cases h)
  | a :: as, b :: bs =>
    match decEq a b with
    | isTrue h1 =>
      match decEqList as bs with
      | isTrue h2 => isTrue (by rw [h1, h2])
      | isFalse h2 => isFalse (fun h => h2 (by cases h; rfl))
    | isFalse h1 => isFalse (fun h => h1 (by cases h; rfl))

instance : DecidableEq ActionLayout := decEq

end ActionLayout

/-! ## Maps -/

/-- The type `QHash<QString, QVector<int>>` of `idIndexes`: id to the arena indexes carrying it. -/
abbrev IdIndexes := List (String × List Nat)

/-- The statement `idIndexes[key].append(idx)`. -/
def IdIndexes.append : IdIndexes → String → Nat → IdIndexes
  | [], key, idx => [(key, [idx])]
  | (k, v) :: rest, key, idx =>
    if k = key then (k, v ++ [idx]) :: rest else (k, v) :: IdIndexes.append rest key idx

/-- The map `objectInfoMap` (`QMChronoMap<QString, ActionObjectInfo>`). -/
abbrev ObjectInfoMap := List (String × ActionObjectInfo)

/-- The test `type() != Action && mode() != Plain` that makes an object standalone. -/
def ActionObjectInfo.standalone (info : ActionObjectInfo) : Bool :=
  decide (info.type ≠ ActionObjectType.Action) && decide (info.mode ≠ ActionObjectMode.Plain)

/-! ## `LayoutsHelper` -/

namespace LayoutsHelper

/-- The function `LayoutsHelper::layoutInfoToLayout`: copies a declared layout tree into the
arena, children before their parent, and records every node with an id in `idIndexes`. Returns the
index of the node created for the root of the tree. -/
def layoutInfoToLayout :
    ActionLayoutInfo → List TreeNode → IdIndexes → Nat × List TreeNode × IdIndexes
  | .mk id type children, heap, idIndexes =>
    if type = ActionLayoutType.Separator ∨ type = ActionLayoutType.Stretch then
      (heap.length, heap ++ [⟨"", type, []⟩], idIndexes)
    else
      match layoutInfoToLayoutList children heap idIndexes with
      | (cs, heap1, idIndexes1) =>
        (heap1.length, heap1 ++ [⟨id, type, cs⟩], IdIndexes.append idIndexes1 id heap1.length)
where
  /-- The loop `for (i < childCount()) children.append(layoutInfoToLayout(child(i), ...))`. -/
  layoutInfoToLayoutList :
    List ActionLayoutInfo → List TreeNode → IdIndexes → List Nat × List TreeNode × IdIndexes
  | [], heap, idIndexes => ([], heap, idIndexes)
  | c :: cs, heap, idIndexes =>
    match layoutInfoToLayout c heap idIndexes with
    | (i, heap1, idIndexes1) =>
      match layoutInfoToLayoutList cs heap1 idIndexes1 with
      | (is, heap2, idIndexes2) => (i :: is, heap2, idIndexes2)

/-- The value `sharedSeparator` of `applyBuildRoutines`. -/
def sharedSeparator : ActionLayout := .mk "" ActionLayoutType.Separator []

/-- The value `sharedStretch` of `applyBuildRoutines`. -/
def sharedStretch : ActionLayout := .mk "" ActionLayoutType.Stretch []

/-- Collects the results of a list of calls that may each fail to return. -/
def allSome {α : Type} : List (Option α) → Option (List α)
  | [] => some []
  | none :: _ => none
  | some a :: rest =>
    match allSome rest with
    | none => none
    | some as => some (a :: as)

/-- The function `TreeNode::toLayout` applied to `heap.at(idx)`. The recursion follows child
indexes through the arena; `fuel` bounds its depth. -/
def toLayout (heap : List TreeNode) : Nat → Nat → Option ActionLayout
  | 0, _ => none
  | fuel + 1, idx =>
    match heap[idx]? with
    | none => none
    | some node =>
      if node.type = ActionLayoutType.Separator then some sharedSeparator
      else if node.type = ActionLayoutType.Stretch then some sharedStretch
      else
        match allSome (node.children.map (toLayout heap fuel)) with
        | none => none
        | some cs => some (ActionLayout.mk node.id node.type cs)

/-- The read `heap[idx].id` of an arena node. -/
def idAt (heap : List TreeNode) (idx : Nat) : Option String :=
  (heap[idx]?).map TreeNode.id

/-- The search loop of the `After` / `Before` cases: the first position `j` with
`heap[children[j]].id == relativeTo`. -/
def findRelative (heap : List TreeNode) (relativeTo : String) : List Nat → Option Nat
  | [] => none
  | c :: cs =>
    if idAt heap c = some relativeTo then some 0
    else (findRelative heap relativeTo cs).map (· + 1)

/-- The children of one parent after the `switch (routine.anchor())` of `applyBuildRoutines`. -/
def spliceChildren (heap : List TreeNode) (anchor : Anchor) (relativeTo : String)
    (layoutsToInsert : List Nat) (children : List Nat) : List Nat :=
  match anchor with
  | Anchor.Last => children ++ layoutsToInsert
  | Anchor.First => layoutsToInsert ++ children
  | Anchor.After =>
    match findRelative heap relativeTo children with
    | none => children
    | some j => children.take (j + 1) ++ layoutsToInsert ++ children.drop (j + 1)
  | Anchor.Before =>
    match findRelative heap relativeTo children with
    | none => children
    | some j => children.take j ++ layoutsToInsert ++ children.drop j

/-- The body of the loop over `parentIndexes`: the routine applied to `heap[parentIdx]`. -/
def applyToParent (anchor : Anchor) (relativeTo : String) (layoutsToInsert : List Nat)
    (heap : List TreeNode) (parentIdx : Nat) : List TreeNode :=
  match heap[parentIdx]? with
  | none => heap
  | some parentLayout =>
    heap.set parentIdx
      { parentLayout with
        children := spliceChildren heap anchor relativeTo layoutsToInsert parentLayout.children }

/-- The vector `parentIndexes`: the first recorded occurrence when the parent is a registered
object that is neither an Action nor Plain, every recorded occurrence otherwise. -/
def parentIndexes (objectInfoMap : ObjectInfoMap) (parent : String) (occurrences : List Nat) :
    List Nat :=
  match objectInfoMap.lookup parent with
  | some info => if info.standalone then occurrences.take 1 else occurrences
  | none => occurrences

/-- One iteration of the loop over the build routines of an extension. The entry of `idIndexes`
for the parent is looked up first (`continue` when absent); it is read after the items have been
copied into the arena, so it also lists the occurrences of the parent id among the items. -/
def applyRoutine (objectInfoMap : ObjectInfoMap) (st : List TreeNode × IdIndexes)
    (routine : ActionBuildRoutine) : List TreeNode × IdIndexes :=
  match st.2.lookup routine.parent with
  | none => st
  | some _ =>
    match layoutInfoToLayout.layoutInfoToLayoutList routine.items st.1 st.2 with
    | (layoutsToInsert, heap1, idIndexes1) =>
      ((parentIndexes objectInfoMap routine.parent
          ((idIndexes1.lookup routine.parent).getD [])).foldl
        (applyToParent routine.anchor routine.relativeTo layoutsToInsert) heap1, idIndexes1)

/-- The two nested loops of `applyBuildRoutines` over the effective extensions and their
routines. -/
def applyRoutines (objectInfoMap : ObjectInfoMap) (effectiveExtensions : List ActionExtension)
    (st : List TreeNode × IdIndexes) : List TreeNode × IdIndexes :=
  effectiveExtensions.foldl (fun st ext => ext.buildRoutines.foldl (applyRoutine objectInfoMap) st)
    st

/-- The function `LayoutsHelper::applyBuildRoutines`: applies the routines, then converts every
root with `toLayout`. The conversion gets more fuel than the arena has nodes, which is enough
whenever the recursion returns at all. -/
def applyBuildRoutines (objectInfoMap : ObjectInfoMap)
    (effectiveExtensions : List ActionExtension) (heap : List TreeNode) (idIndexes : IdIndexes)
    (rootIndexes : List Nat) : Option (List ActionLayout) :=
  match applyRoutines objectInfoMap effectiveExtensions (heap, idIndexes) with
  | (heap1, _) => allSome (rootIndexes.map (toLayout heap1 (heap1.length + 1)))

/-- The loop "Collect standalone layouts" of `build`: `stack` is the work list (`pop_front`,
`push_back`), `standaloneLayouts` the result so far; one unit of fuel per iteration. -/
def collectStandalone (objectInfoMap : ObjectInfoMap) :
    Nat → List ActionLayoutInfo → List ActionLayoutInfo → Option (List ActionLayoutInfo)
  | _, [], standaloneLayouts => some standaloneLayouts
  | 0, _ :: _, _ => none
  | fuel + 1, layout :: stack, standaloneLayouts =>
    match objectInfoMap.lookup layout.id with
    | none => collectStandalone objectInfoMap fuel stack standaloneLayouts
    | some info =>
      if info.standalone then
        collectStandalone objectInfoMap fuel stack (standaloneLayouts ++ [layout])
      else collectStandalone objectInfoMap fuel (stack ++ layout.children) standaloneLayouts

/-- The loop `for (layout : standaloneLayouts) rootIndexes.append(layoutInfoToLayout(...))`. -/
def appendRoots :
    List ActionLayoutInfo → List Nat × List TreeNode × IdIndexes →
      List Nat × List TreeNode × IdIndexes
  | [], st => st
  | layout :: rest, (rootIndexes, heap, idIndexes) =>
    match layoutInfoToLayout layout heap idIndexes with
    | (idx, heap1, idIndexes1) => appendRoots rest (rootIndexes ++ [idx], heap1, idIndexes1)

/-- The loop of `build` over the layouts of one extension. The work list starts with the layout
root and gets as much fuel as the tree has entries. -/
def buildLayouts (objectInfoMap : ObjectInfoMap) :
    List ActionLayoutInfo → List Nat × List TreeNode × IdIndexes →
      Option (List Nat × List TreeNode × IdIndexes)
  | [], st => some st
  | layout :: rest, st =>
    match collectStandalone objectInfoMap layout.size [layout] [] with
    | none => none
    | some standaloneLayouts => buildLayouts objectInfoMap rest (appendRoots standaloneLayouts st)

/-- The loop of `build` over the registered extensions. -/
def buildExtensions (objectInfoMap : ObjectInfoMap) :
    List ActionExtension → List Nat × List TreeNode × IdIndexes →
      Option (List Nat × List TreeNode × IdIndexes)
  | [], st => some st
  | ext :: rest, st =>
    match buildLayouts objectInfoMap ext.layouts st with
    | none => none
    | some st1 => buildExtensions objectInfoMap rest st1

/-- The function `LayoutsHelper::build`. -/
def build (extensions : List ActionExtension) (objectInfoMap : ObjectInfoMap) :
    Option (List ActionLayout) :=
  match buildExtensions objectInfoMap extensions ([], [], []) with
  | none => none
  | some (rootIndexes, heap, idIndexes) =>
    applyBuildRoutines objectInfoMap extensions heap idIndexes rootIndexes

end LayoutsHelper

/-! ### Persistence -/

/-- An element of the XML adaptor, `QMXmlAdaptorElement`: tag name, attributes, text, children. -/
inductive QMXmlAdaptorElement where
  | mk (name : String) (properties : List (String × String)) (value : String)
      (children : List QMXmlAdaptorElement)
  deriving Repr

namespace QMXmlAdaptorElement

/-- The field `name`. -/
def name : QMXmlAdaptorElement → String
  | mk n _ _ _ => n

/-- The field `properties`. -/
def properties : QMXmlAdaptorElement → List (String × String)
  | mk _ p _ _ => p

/-- The field `children`. -/
def children : QMXmlAdaptorElement → List QMXmlAdaptorElement
  | mk _ _ _ cs => cs

/-- The call `properties.value(key)`: the attribute, or the empty string when it is absent. -/
def property (e : QMXmlAdaptorElement) (key : String) : String :=
  (e.properties.lookup key).getD ""

end QMXmlAdaptorElement

namespace LayoutsHelper

/-- The tag written by the `switch (layout.type())` of `serializeLayout`. -/
def elementName : ActionLayoutType → String
  | ActionLayoutType.Action => "action"
  | ActionLayoutType.Group => "group"
  | ActionLayoutType.Menu => "menu"
  | ActionLayoutType.ExpandedMenu => "menu"
  | ActionLayoutType.Separator => "separator"
  | ActionLayoutType.Stretch => "stretch"

/-- The attributes written by `serializeLayout`: `id` when it is not empty, `flat="true"` for an
expanded menu. -/
def elementProperties (id : String) (type : ActionLayoutType) : List (String × String) :=
  (if id = "" then [] else [("id", id)]) ++
    (if type = ActionLayoutType.ExpandedMenu then [("flat", "true")] else [])

/-- The function `LayoutsHelper::serializeLayout`. -/
def serializeLayout : ActionLayout → QMXmlAdaptorElement
  | .mk id type children =>
    .mk (elementName type) (elementProperties id type) "" (serializeLayoutList children)
where
  /-- The loop `for (child : layout.children()) e->children.append(serializeLayout(child))`. -/
  serializeLayoutList : List ActionLayout → List QMXmlAdaptorElement
  | [] => []
  | c :: cs => serializeLayout c :: serializeLayoutList cs

/-- The function `LayoutsHelper::fromNodeElement`: `none` is the result `false`, otherwise the id
and the type given to `node` (its children are still empty). -/
def fromNodeElement (objectInfoMap : ObjectInfoMap) (e : QMXmlAdaptorElement)
    (standaloneRequired : Bool) : Option TreeNode :=
  if e.name = "separator" then some ⟨"", ActionLayoutType.Separator, []⟩
  else if e.name = "stretch" then some ⟨"", ActionLayoutType.Stretch, []⟩
  else if e.property "id" = "" then none
  else
    match objectInfoMap.lookup (e.property "id") with
    | none => none
    | some info =>
      if standaloneRequired ∧
          (info.type = ActionObjectType.Action ∨ info.mode = ActionObjectMode.Plain) then none
      else
        match info.type with
        | ActionObjectType.Action =>
          if e.name ≠ "action" then none
          else some ⟨e.property "id", ActionLayoutType.Action, []⟩
        | ActionObjectType.Group =>
          if e.name ≠ "group" then none
          else some ⟨e.property "id", ActionLayoutType.Group, []⟩
        | ActionObjectType.Menu =>
          if e.name ≠ "menu" then none
          else some ⟨e.property "id",
            if e.property "flat" = "true" then ActionLayoutType.ExpandedMenu
            else ActionLayoutType.Menu, []⟩

/-- The function `LayoutsHelper::restoreElementHelper`: `none` is the result `-1` (the element is
dropped with everything below it and the arena is untouched). -/
def restoreElementHelper (objectInfoMap : ObjectInfoMap) :
    QMXmlAdaptorElement → List TreeNode → IdIndexes → Bool → Option Nat × List TreeNode × IdIndexes
  | .mk name properties value children, heap, idIndexes, standaloneRequired =>
    match fromNodeElement objectInfoMap (.mk name properties value children)
        standaloneRequired with
    | none => (none, heap, idIndexes)
    | some node =>
      if node.type = ActionLayoutType.Separator ∨ node.type = ActionLayoutType.Stretch then
        (some heap.length, heap ++ [node], idIndexes)
      else
        match restoreChildren objectInfoMap children heap idIndexes with
        | (cs, heap1, idIndexes1) =>
          (some heap1.length, heap1 ++ [{ node with children := cs }],
            IdIndexes.append idIndexes1 node.id heap1.length)
where
  /-- The loop over `e->children` of `restoreElementHelper`; a child that yields `-1` is
  skipped. -/
  restoreChildren (objectInfoMap : ObjectInfoMap) :
    List QMXmlAdaptorElement → List TreeNode → IdIndexes → List Nat × List TreeNode × IdIndexes
  | [], heap, idIndexes => ([], heap, idIndexes)
  | c :: cs, heap, idIndexes =>
    match restoreElementHelper objectInfoMap c heap idIndexes false with
    | (none, heap1, idIndexes1) => restoreChildren objectInfoMap cs heap1 idIndexes1
    | (some i, heap1, idIndexes1) =>
      match restoreChildren objectInfoMap cs heap1 idIndexes1 with
      | (is, heap2, idIndexes2) => (i :: is, heap2, idIndexes2)

/-- The loop of `restore` over the children of a `layouts` element. -/
def restoreRoots (objectInfoMap : ObjectInfoMap) :
    List QMXmlAdaptorElement → List Nat × List TreeNode × IdIndexes →
      List Nat × List TreeNode × IdIndexes
  | [], st => st
  | item :: rest, (rootIndexes, heap, idIndexes) =>
    match restoreElementHelper objectInfoMap item heap idIndexes true with
    | (none, heap1, idIndexes1) => restoreRoots objectInfoMap rest (rootIndexes, heap1, idIndexes1)
    | (some idx, heap1, idIndexes1) =>
      restoreRoots objectInfoMap rest (rootIndexes ++ [idx], heap1, idIndexes1)

/-- The loop of `restore` over the children of an `extensions` element: the non-empty `hash`
attributes are inserted into `extensionHashSet`. -/
def restoreHashes : List QMXmlAdaptorElement → List String → List String
  | [], extensionHashSet => extensionHashSet
  | e :: rest, extensionHashSet =>
    if e.property "hash" = "" then restoreHashes rest extensionHashSet
    else restoreHashes rest (extensionHashSet ++ [e.property "hash"])

/-- The loop of `restore` over `root.children`. -/
def restoreRootChildren (objectInfoMap : ObjectInfoMap) :
    List QMXmlAdaptorElement → List String × List Nat × List TreeNode × IdIndexes →
      List String × List Nat × List TreeNode × IdIndexes
  | [], st => st
  | rootChild :: rest, (extensionHashSet, st) =>
    if rootChild.name = "extensions" then
      restoreRootChildren objectInfoMap rest
        (restoreHashes rootChild.children extensionHashSet, st)
    else if rootChild.name = "layouts" then
      restoreRootChildren objectInfoMap rest
        (extensionHashSet, restoreRoots objectInfoMap rootChild.children st)
    else restoreRootChildren objectInfoMap rest (extensionHashSet, st)

/-- The function `LayoutsHelper::restore`. The argument is what `xml.loadData(data)` yields:
`none` when the bytes are not a document, the root element otherwise. The result pairs the
returned list with the flag `*ok`. -/
def restore (extensions : List ActionExtension) (objectInfoMap : ObjectInfoMap)
    (data : Option QMXmlAdaptorElement) : Option (List ActionLayout × Bool) :=
  match data with
  | none => some ([], false)
  | some root =>
    if root.name ≠ "actionDomain" then some ([], false)
    else
      match restoreRootChildren objectInfoMap root.children ([], [], [], []) with
      | (extensionHashSet, rootIndexes, heap, idIndexes) =>
        match applyBuildRoutines objectInfoMap
            (extensions.filter (fun ext => ¬ ext.hash ∈ extensionHashSet))
            heap idIndexes rootIndexes with
        | none => none
        | some layouts => some (layouts, true)

/-- The `extension` elements written by `serialize`, one per registered extension. -/
def serializeExtensions : List ActionExtension → List QMXmlAdaptorElement
  | [] => []
  | item :: rest => .mk "extension" [("hash", item.hash)] "" [] :: serializeExtensions rest

/-- The function `LayoutsHelper::serialize`: the root element handed to `xml.saveData()`. -/
def serialize (extensions : List ActionExtension) (layouts : List ActionLayout) :
    QMXmlAdaptorElement :=
  .mk "actionDomain" [] ""
    [.mk "extensions" [] "" (serializeExtensions extensions),
     .mk "layouts" [] "" (serializeLayout.serializeLayoutList layouts)]

end LayoutsHelper

/-! ## `setLayouts_helper` and its `TopologicalSorter` -/

/-- Insertion of a fresh key into a `QMap`, whose entries are kept in ascending key order
(strings are compared character by character). -/
def QMap.insertNew {β : Type} : List (String × β) → String → β → List (String × β)
  | [], key, v => [(key, v)]
  | (k, w) :: rest, key, v =>
    if key.data < k.data then (key, v) :: (k, w) :: rest
    else (k, w) :: QMap.insertNew rest key v

/-- The assignment `map[key] = v` on a `QMap`: the value of an existing key is replaced in
place, a new key is inserted at its position in key order. -/
def QMap.set {β : Type} (m : List (String × β)) (key : String) (v : β) : List (String × β) :=
  if (m.lookup key).isSome then m.map (fun e => if e.1 = key then (e.1, v) else e)
  else QMap.insertNew m key v

/-- The read `map.value(key)` with the default value for a missing key. -/
def QMap.value {β : Type} (m : List (String × β)) (key : String) (dflt : β) : β :=
  (m.lookup key).getD dflt

/-- The effect of the non-const `map[key]` on the map: a missing key is inserted with the
default value. -/
def QMap.touch {β : Type} (m : List (String × β)) (key : String) (dflt : β) :
    List (String × β) :=
  if (m.lookup key).isSome then m else QMap.insertNew m key dflt

/-- The local class `TopologicalSorter` of `setLayouts_helper`. The successor sets
(`QSet<QString>`) are lists without repetition, in insertion order; the order in which a `QSet`
is iterated only affects the order of `result` among nodes that are ready at the same time. -/
structure TopologicalSorter where
  graph : List (String × List String)
  inDegree : List (String × Int)
  result : List String
  deriving DecidableEq, Repr

namespace TopologicalSorter

/-- A freshly constructed sorter. -/
def empty : TopologicalSorter := ⟨[], [], []⟩

/-- The function `TopologicalSorter::addEdge`. -/
def addEdge (s : TopologicalSorter) (u v : String) : TopologicalSorter :=
  if v ∈ QMap.value s.graph u [] then { s with graph := QMap.touch s.graph u [] }
  else
    { s with
      graph := QMap.set s.graph u (QMap.value s.graph u [] ++ [v])
      inDegree :=
        QMap.set (QMap.touch s.inDegree u 0) v (QMap.value (QMap.touch s.inDegree u 0) v 0 + 1) }

/-- The loop `for (v : graph[u])` of `sort`: decrements the in-degree of every successor and
enqueues the ones that reach zero. -/
def relax : List String → List (String × Int) × List String → List (String × Int) × List String
  | [], st => st
  | v :: vs, (inDegree, queue) =>
    relax vs
      (QMap.set inDegree v (QMap.value inDegree v 0 - 1),
        if QMap.value inDegree v 0 - 1 = 0 then queue ++ [v] else queue)

/-- The loop `while (!queue.isEmpty())` of `sort`, on the state `(graph, inDegree, sorted)`;
one unit of fuel per iteration. -/
def sortLoop :
    Nat → List String → List (String × List String) × List (String × Int) × List String →
      Option (List (String × List String) × List (String × Int) × List String)
  | _, [], st => some st
  | 0, _ :: _, _ => none
  | fuel + 1, u :: queue, (graph, inDegree, sorted) =>
    match relax (QMap.value graph u []) (inDegree, queue) with
    | (inDegree1, queue1) => sortLoop fuel queue1 (QMap.touch graph u [], inDegree1, sorted ++ [u])

/-- The initial queue of `sort`: the keys of `inDegree` whose value is zero. -/
def initialQueue (inDegree : List (String × Int)) : List String :=
  (inDegree.filter (fun e => e.2 = 0)).map Prod.fst

/-- The function `TopologicalSorter::sort`: the returned flag and the sorter afterwards. The loop
gets one unit of fuel per key of `inDegree`. -/
def sort (s : TopologicalSorter) : Option (Bool × TopologicalSorter) :=
  match sortLoop s.inDegree.length (initialQueue s.inDegree) (s.graph, s.inDegree, []) with
  | none => none
  | some (graph, inDegree, sorted) =>
    if sorted.length ≠ graph.length then
      some (false, { s with graph := graph, inDegree := inDegree })
    else some (true, ⟨graph, inDegree, sorted⟩)

end TopologicalSorter

/-- The class `ActionCatalog`, a value with a name, an id and children. The member `indexes` of
its data is the map from the name of each child to its position, computed by `setChildren`. -/
inductive ActionCatalog where
  | mk (name : String) (id : String) (children : List ActionCatalog)
      (indexes : List (String × Nat))
  deriving Repr

namespace ActionCatalog

/-- The getter `name()`. -/
def name : ActionCatalog → String
  | .mk name _ _ _ => name

/-- The getter `id()`. -/
def id : ActionCatalog → String
  | .mk _ id _ _ => id

/-- The getter `children()`. -/
def children : ActionCatalog → List ActionCatalog
  | .mk _ _ children _ => children

/-- The member `d->indexes`. -/
def indexes : ActionCatalog → List (String × Nat)
  | .mk _ _ _ indexes => indexes

/-- The loop of `setChildren` that fills `indexes`; `none` is the early `return` on a duplicated
child name. -/
def setChildren.loop : List ActionCatalog → Nat → List (String × Nat) → Option (List (String × Nat))
  | [], _, indexes => some indexes
  | item :: rest, i, indexes =>
    if (indexes.lookup item.name).isSome then none
    else setChildren.loop rest (i + 1) (indexes ++ [(item.name, i)])

/-- The function `ActionCatalog::setChildren`: nothing changes when two children have the same
name. -/
def setChildren (c : ActionCatalog) (children : List ActionCatalog) : ActionCatalog :=
  match setChildren.loop children 0 [] with
  | none => c
  | some indexes => .mk c.name c.id children indexes

/-- The function `ActionCatalog::indexOfChild`; `none` is the result `-1`. -/
def indexOfChild (c : ActionCatalog) (name : String) : Option Nat :=
  c.indexes.lookup name

end ActionCatalog

/-- The state of `ActionDomainPrivate` read and written by the registry, catalog and layout
operations. `extensions` lists the registered extensions in registration order (the keys of the
map are their hashes); `objectCategories` is a `QSet`, a list without repetition; `layouts` and
`catalog` are the `std::optional` caches of the composed forest and of the catalog. -/
structure ActionDomainPrivate where
  extensions : List ActionExtension
  objectInfoMap : ObjectInfoMap
  objectCategories : List (List String)
  layouts : Option (List ActionLayout)
  catalog : Option ActionCatalog

namespace ActionDomainPrivate

/-- The loop `for (item : currentLayout.children())` of `setLayouts_helper`: adds the edge
`item.id -> id` for every registered non-Plain menu and pushes the items that have children. -/
def scanChildren (objectInfoMap : ObjectInfoMap) (id : String) :
    List ActionLayout → List ActionLayout × TopologicalSorter →
      List ActionLayout × TopologicalSorter
  | [], st => st
  | item :: rest, (stack, sorter) =>
    if item.id = "" then scanChildren objectInfoMap id rest (stack, sorter)
    else
      match objectInfoMap.lookup item.id with
      | none => scanChildren objectInfoMap id rest (stack, sorter)
      | some info2 =>
        scanChildren objectInfoMap id rest
          (if item.children.isEmpty then stack else stack ++ [item],
            if info2.type = ActionObjectType.Menu ∧ info2.mode ≠ ActionObjectMode.Plain then
              sorter.addEdge item.id id
            else sorter)

/-- The loop `while (!stack.empty())` of `setLayouts_helper` for the root `id`; one unit of fuel
per iteration. -/
def collectEdges (objectInfoMap : ObjectInfoMap) (id : String) :
    Nat → List ActionLayout → TopologicalSorter → Option TopologicalSorter
  | _, [], sorter => some sorter
  | 0, _ :: _, _ => none
  | fuel + 1, currentLayout :: stack, sorter =>
    match scanChildren objectInfoMap id currentLayout.children (stack, sorter) with
    | (stack1, sorter1) => collectEdges objectInfoMap id fuel stack1 sorter1

/-- The loop `for (layout : layouts)` of `setLayouts_helper`: `layoutMap` is represented by its
keys. The result is `none` when a walk does not return, `some none` for the early
`return false` on a duplicated root id, and the sorter otherwise. The walk of a root gets as
much fuel as the root has nodes. -/
def collectRoots (objectInfoMap : ObjectInfoMap) :
    List ActionLayout → List String → TopologicalSorter → Option (Option TopologicalSorter)
  | [], _, sorter => some (some sorter)
  | layout :: rest, layoutMap, sorter =>
    match objectInfoMap.lookup layout.id with
    | none => collectRoots objectInfoMap rest layoutMap sorter
    | some _ =>
      if layout.id ∈ layoutMap then some none
      else
        match collectEdges objectInfoMap layout.id layout.size [layout] sorter with
        | none => none
        | some sorter1 => collectRoots objectInfoMap rest (layoutMap ++ [layout.id]) sorter1

/-- The function `ActionDomainPrivate::setLayouts_helper`: the returned flag and the state
afterwards. On success the member `layouts` is assigned the argument `layouts`. -/
def setLayouts_helper (d : ActionDomainPrivate) (layouts : List ActionLayout) :
    Option (Bool × ActionDomainPrivate) :=
  match collectRoots d.objectInfoMap layouts [] TopologicalSorter.empty with
  | none => none
  | some none => some (false, d)
  | some (some sorter) =>
    match sorter.sort with
    | none => none
    | some (false, _) => some (false, d)
    | some (true, _) => some (true, { d with layouts := some layouts })

/-- The function `ActionDomainPrivate::flushLayouts`. -/
def flushLayouts (d : ActionDomainPrivate) : Option ActionDomainPrivate :=
  match d.layouts with
  | some _ => some d
  | none =>
    match LayoutsHelper.build d.extensions d.objectInfoMap with
    | none => none
    | some built =>
      match d.setLayouts_helper built with
      | none => none
      | some (false, d1) => some { d1 with layouts := some [] }
      | some (true, d1) => some d1

end ActionDomainPrivate

/-! ## `ActionDomain` -/

namespace ActionDomain

/-- The function `ActionDomain::layouts`: the returned forest and the state afterwards. -/
def layouts (d : ActionDomainPrivate) : Option (List ActionLayout × ActionDomainPrivate) :=
  match d.flushLayouts with
  | none => none
  | some d1 => some (d1.layouts.getD [], d1)

/-- The function `ActionDomain::setLayouts`. -/
def setLayouts (d : ActionDomainPrivate) (layouts : List ActionLayout) :
    Option ActionDomainPrivate :=
  match d.setLayouts_helper layouts with
  | none => none
  | some (false, d1) => some { d1 with layouts := some [] }
  | some (true, d1) => some d1

/-- The function `ActionDomain::saveLayouts`: the root element handed to `saveData` and the state
afterwards. -/
def saveLayouts (d : ActionDomainPrivate) : Option (QMXmlAdaptorElement × ActionDomainPrivate) :=
  match d.flushLayouts with
  | none => none
  | some d1 => some (LayoutsHelper.serialize d1.extensions (d1.layouts.getD []), d1)

/-- The function `ActionDomain::restoreLayouts`: the returned flag and the state afterwards. -/
def restoreLayouts (d : ActionDomainPrivate) (data : Option QMXmlAdaptorElement) :
    Option (Bool × ActionDomainPrivate) :=
  match LayoutsHelper.restore d.extensions d.objectInfoMap data with
  | none => none
  | some (_, false) => some (false, d)
  | some (layouts, true) =>
    match d.setLayouts_helper layouts with
    | none => none
    | some (false, d1) => some (false, d1)
    | some (true, d1) => some (true, d1)

end ActionDomain

end Core

namespace Core
namespace LayoutsHelper

/-- Whether arena node `i` is an occurrence of `id`: a node other than Separator/Stretch that
carries the id. -/
def isOccurrence (heap : List TreeNode) (id : String) (i : Nat) : Bool :=
  match heap[i]? with
  | some n =>
    decide (n.id = id) && decide (n.type ≠ ActionLayoutType.Separator) &&
      decide (n.type ≠ ActionLayoutType.Stretch)
  | none => false

/-- The occurrences of `id` in the arena, in construction order (ascending index). -/
def occurrences (heap : List TreeNode) (id : String) : List Nat :=
  (List.range heap.length).filter (isOccurrence heap id)

/-- The map `idIndexes` lists, for every id, exactly the occurrences of the id in the arena, in
construction order, and has no key without an occurrence. -/
def IdIndexesExact (heap : List TreeNode) (idIndexes : IdIndexes) : Prop :=
  ∀ k, idIndexes.lookup k =
    if occurrences heap k = [] then none else some (occurrences heap k)

/-- The id given to the arena node of a declared entry: none for Separator/Stretch. -/
def nodeId (layout : ActionLayoutInfo) : String :=
  if layout.type = ActionLayoutType.Separator ∨ layout.type = ActionLayoutType.Stretch then ""
  else layout.id

end LayoutsHelper
end Core
namespace Core
namespace LayoutsHelper

/-- The id and type of arena node `i`. -/
def headAt (heap : List TreeNode) (i : Nat) : Option (String × ActionLayoutType) :=
  (heap[i]?).map (fun n => (n.id, n.type))

/-- What `layoutInfoToLayout` guarantees about its result `r` on the arena `heap`: the arena was
extended, the returned index is its new last node, that node has the id and
type of the root entry, and `idIndexes` stays exact. -/
def CopySpec (layout : ActionLayoutInfo) (heap : List TreeNode) (idIndexes : IdIndexes)
    (r : Nat × List TreeNode × IdIndexes) : Prop :=
  (∃ ext, r.2.1 = heap ++ ext) ∧
  heap.length ≤ r.1 ∧ r.1 + 1 = r.2.1.length ∧
  headAt r.2.1 r.1 = some (nodeId layout, layout.type) ∧
  (IdIndexesExact heap idIndexes → IdIndexesExact r.2.1 r.2.2)

/-- What `layoutInfoToLayoutList` guarantees about its result. -/
def CopyListSpec (layouts : List ActionLayoutInfo) (heap : List TreeNode) (idIndexes : IdIndexes)
    (r : List Nat × List TreeNode × IdIndexes) : Prop :=
  (∃ ext, r.2.1 = heap ++ ext) ∧
  (∀ i ∈ r.1, heap.length ≤ i ∧ i < r.2.1.length) ∧
  r.1.map (headAt r.2.1) = layouts.map (fun l => some (nodeId l, l.type)) ∧
  (IdIndexesExact heap idIndexes → IdIndexesExact r.2.1 r.2.2)

end LayoutsHelper
end Core
namespace Core
namespace LayoutsHelper

/-- The vector `layoutsToInsert` of a routine applied on the state `(heap, idIndexes)`: the arena
indexes of the copies of its items, in routine order. -/
def layoutsToInsert (routine : ActionBuildRoutine) (heap : List TreeNode) (idIndexes : IdIndexes) :
    List Nat :=
  (layoutInfoToLayout.layoutInfoToLayoutList routine.items heap idIndexes).1

/-- The arena of a routine applied on the state `(heap, idIndexes)` after its items were copied
and before any parent is changed. -/
def heapWithItems (routine : ActionBuildRoutine) (heap : List TreeNode) (idIndexes : IdIndexes) :
    List TreeNode :=
  (layoutInfoToLayout.layoutInfoToLayoutList routine.items heap idIndexes).2.1

/-- The parents a routine is applied to on the state `(heap, idIndexes)`. -/
def targetedParents (objectInfoMap : ObjectInfoMap) (routine : ActionBuildRoutine)
    (heap : List TreeNode) (idIndexes : IdIndexes) : List Nat :=
  parentIndexes objectInfoMap routine.parent
    (occurrences (heapWithItems routine heap idIndexes) routine.parent)

end LayoutsHelper

namespace Examples

/-- The menu `file`, a Unique menu. -/
def fileInfo : ActionObjectInfo := ⟨"file", ActionObjectType.Menu, ActionObjectMode.Unique, ["File"]⟩

/-- The action `open`. -/
def openInfo : ActionObjectInfo :=
  ⟨"open", ActionObjectType.Action, ActionObjectMode.Plain, ["File", "Open"]⟩

/-- The action `save`. -/
def saveInfo : ActionObjectInfo :=
  ⟨"save", ActionObjectType.Action, ActionObjectMode.Plain, ["File", "Save"]⟩

/-- The group `recent`, a Plain group. -/
def recentInfo : ActionObjectInfo :=
  ⟨"recent", ActionObjectType.Group, ActionObjectMode.Plain, ["File", "Recent"]⟩

/-- The registry holding `file`, `open`, `save` and `recent`. -/
def registry : ObjectInfoMap :=
  [("file", fileInfo), ("open", openInfo), ("save", saveInfo), ("recent", recentInfo)]

/-- The declared layout `file[open]`. -/
def fileLayout : ActionLayoutInfo :=
  .mk "file" ActionLayoutType.Menu [.mk "open" ActionLayoutType.Action []]

/-- The routine that inserts `save` at the given anchor of `file`, relative to `relativeTo`. -/
def saveRoutine (anchor : Anchor) (relativeTo : String) : ActionBuildRoutine :=
  ⟨anchor, "file", relativeTo, [.mk "save" ActionLayoutType.Action []]⟩

/-- Extension A declares the menu `file` with the child `open`. -/
def extA : ActionExtension := ⟨"hashA", [fileInfo, openInfo], [fileLayout], []⟩

/-- Extension B inserts `save` at the given anchor of `file`. -/
def extB (anchor : Anchor) (relativeTo : String) : ActionExtension :=
  ⟨"hashB", [saveInfo], [], [saveRoutine anchor relativeTo]⟩

/-- The arena after `file[open]` was copied into it: `open` at index 0, `file` at index 1. -/
def fileHeap : List TreeNode := (LayoutsHelper.layoutInfoToLayout fileLayout [] []).2.1

/-- The map `idIndexes` after `file[open]` was copied into the arena. -/
def fileIdIndexes : IdIndexes := (LayoutsHelper.layoutInfoToLayout fileLayout [] []).2.2

/-- The declared layout `file[recent, recent]`, with two occurrences of the Plain group. -/
def recentLayout : ActionLayoutInfo :=
  .mk "file" ActionLayoutType.Menu
    [.mk "recent" ActionLayoutType.Group [], .mk "recent" ActionLayoutType.Group []]

/-- The routine that appends `save` to `recent`. -/
def recentRoutine : ActionBuildRoutine :=
  ⟨Anchor.Last, "recent", "", [.mk "save" ActionLayoutType.Action []]⟩

/-- The arena after `file[recent, recent]` was copied into it. -/
def recentHeap : List TreeNode := (LayoutsHelper.layoutInfoToLayout recentLayout [] []).2.1

/-- The map `idIndexes` after `file[recent, recent]` was copied into the arena. -/
def recentIdIndexes : IdIndexes := (LayoutsHelper.layoutInfoToLayout recentLayout [] []).2.2

/-- Extension B with two routines: the first one has an anchor target that does not exist. -/
def extMissing : ActionExtension :=
  ⟨"hashB", [saveInfo], [], [saveRoutine Anchor.After "missing", saveRoutine Anchor.Last ""]⟩

end Examples
end Core
namespace Core
namespace LayoutsHelper

/-- The first standalone entries of a declared layout tree, in the words of the specification:
descend from the root through registered entries that are not standalone; an entry whose id is
not registered is skipped with everything below it, and the descent stops at a standalone
entry. The entries are listed depth first. -/
def firstStandalone (objectInfoMap : ObjectInfoMap) : ActionLayoutInfo → List ActionLayoutInfo
  | .mk id type children =>
    match objectInfoMap.lookup id with
    | none => []
    | some info =>
      if info.standalone then [.mk id type children]
      else firstStandaloneList objectInfoMap children
where
  /-- The first standalone entries of a list of declared layout trees. -/
  firstStandaloneList (objectInfoMap : ObjectInfoMap) :
    List ActionLayoutInfo → List ActionLayoutInfo
  | [] => []
  | c :: cs => firstStandalone objectInfoMap c ++ firstStandaloneList objectInfoMap cs

/-- The entry `n` is reached from `t` by a chain of child steps on which every entry above `n`
is registered and not standalone, and `n` itself is registered and standalone. -/
inductive FirstStandalone (objectInfoMap : ObjectInfoMap) :
    ActionLayoutInfo → ActionLayoutInfo → Prop where
  | stop (t : ActionLayoutInfo) (info : ActionObjectInfo) :
      objectInfoMap.lookup t.id = some info → info.standalone = true →
      FirstStandalone objectInfoMap t t
  | step (t c n : ActionLayoutInfo) (info : ActionObjectInfo) :
      objectInfoMap.lookup t.id = some info → info.standalone = false → c ∈ t.children →
      FirstStandalone objectInfoMap c n → FirstStandalone objectInfoMap t n

/-- The list `standaloneLayouts` that `build` collects for one declared layout tree. -/
def standaloneLayouts (objectInfoMap : ObjectInfoMap) (layout : ActionLayoutInfo) :
    List ActionLayoutInfo :=
  (collectStandalone objectInfoMap layout.size [layout] []).getD []

/-- The declared layout trees of the registered extensions, in registration order and, within
an extension, in declaration order. -/
def declaredLayouts : List ActionExtension → List ActionLayoutInfo
  | [] => []
  | ext :: rest => ext.layouts ++ declaredLayouts rest

/-- The entries that become roots: the collected lists of all declared layout trees, in order. -/
def rootLayouts (objectInfoMap : ObjectInfoMap) : List ActionLayoutInfo → List ActionLayoutInfo
  | [] => []
  | layout :: rest => standaloneLayouts objectInfoMap layout ++ rootLayouts objectInfoMap rest

end LayoutsHelper
end Core
namespace Core
namespace Examples

/-- A fresh domain (no cached layouts) with the given extensions and registry. -/
def domain (extensions : List ActionExtension) (objectInfoMap : ObjectInfoMap) :
    ActionDomainPrivate :=
  ⟨extensions, objectInfoMap, [], none, none⟩

/-- The menu `export`, a Unique menu. -/
def exportInfo : ActionObjectInfo :=
  ⟨"export", ActionObjectType.Menu, ActionObjectMode.Unique, ["File", "Export"]⟩

/-- The registry holding the standalone menus `file` and `export` and the action `save`. -/
def menuRegistry : ObjectInfoMap :=
  [("file", fileInfo), ("export", exportInfo), ("save", saveInfo)]

/-- An extension that declares `file[export]` first and `export[save]` second: the standalone
menu `export` is nested inside the root `file`. -/
def nestedExt : ActionExtension :=
  ⟨"hashN", [fileInfo, exportInfo, saveInfo],
    [.mk "file" ActionLayoutType.Menu [.mk "export" ActionLayoutType.Menu []],
     .mk "export" ActionLayoutType.Menu [.mk "save" ActionLayoutType.Action []]], []⟩

/-- An extension that declares `file[export]` and `export[file]`: the two standalone menus nest
each other. -/
def cycleExt : ActionExtension :=
  ⟨"hashC", [fileInfo, exportInfo],
    [.mk "file" ActionLayoutType.Menu [.mk "export" ActionLayoutType.Menu []],
     .mk "export" ActionLayoutType.Menu [.mk "file" ActionLayoutType.Menu []]], []⟩

/-- An extension that declares the standalone menu `file` twice. -/
def duplicateExt : ActionExtension :=
  ⟨"hashD", [fileInfo, openInfo], [fileLayout, fileLayout], []⟩

/-- An extension whose layout `file[ghost]` refers to the id `ghost`, which no registered
extension declares. -/
def ghostExt : ActionExtension :=
  ⟨"hashG", [fileInfo],
    [.mk "file" ActionLayoutType.Menu [.mk "ghost" ActionLayoutType.Action []]], []⟩

/-- Extension B with an empty hash: it appends `save` to `file`. -/
def emptyHashExt : ActionExtension :=
  ⟨"", [saveInfo], [], [saveRoutine Anchor.Last ""]⟩

end Examples
end Core

namespace Core
namespace Examples

/-- An extension whose root entry has type Group although the object `file` is a menu. -/
def mismatchExt : ActionExtension :=
  ⟨"hashM", [fileInfo], [.mk "file" ActionLayoutType.Group []], []⟩

/-- The composed tree `file[open, save]`. -/
def fileOpenSave : ActionLayout :=
  .mk "file" ActionLayoutType.Menu
    [.mk "open" ActionLayoutType.Action [], .mk "save" ActionLayoutType.Action []]

end Examples
end Core
namespace Core
namespace TopologicalSorter

/-- The number of edges into `v` whose source has not been sorted yet. -/
def pending (graph : List (String × List String)) (sorted : List String) (v : String) : Nat :=
  ((graph.filter (fun e => decide (e.1 ∉ sorted))).map (fun e => e.2.count v)).sum

/-- The invariant of a sorter that was filled by `addEdge` only: the keys of both maps are
unique, successor sets have no repetition, every edge target is a key of `inDegree`, and
`inDegree` counts the edges into each node. -/
structure GraphInv (s : TopologicalSorter) : Prop where
  graphKeys : (s.graph.map Prod.fst).Nodup
  degreeKeys : (s.inDegree.map Prod.fst).Nodup
  succNodup : ∀ e ∈ s.graph, e.2.Nodup
  targets : ∀ e ∈ s.graph, ∀ v ∈ e.2, v ∈ s.inDegree.map Prod.fst
  degree : ∀ v, QMap.value s.inDegree v 0 = (pending s.graph [] v : Int)

/-- The invariant of the loop of `sort` on the state `(graph, inDegree, sorted)` with the queue
`queue`; `n` is the number of keys of `inDegree`. -/
structure LoopInv (n : Nat) (queue : List String)
    (st : List (String × List String) × List (String × Int) × List String) : Prop where
  graphKeys : (st.1.map Prod.fst).Nodup
  degreeKeys : (st.2.1.map Prod.fst).Nodup
  succNodup : ∀ e ∈ st.1, e.2.Nodup
  targets : ∀ e ∈ st.1, ∀ v ∈ e.2, v ∈ st.2.1.map Prod.fst
  degree : ∀ v, QMap.value st.2.1 v 0 = (pending st.1 st.2.2 v : Int)
  nodup : (queue ++ st.2.2).Nodup
  zero : ∀ v ∈ queue ++ st.2.2, QMap.value st.2.1 v 0 = 0
  inKeys : ∀ v ∈ queue ++ st.2.2, v ∈ st.2.1.map Prod.fst
  sortedKeys : ∀ u ∈ st.2.2, u ∈ st.1.map Prod.fst
  size : st.2.1.length = n

/-- A set of nodes each of which has an edge from a node of the set: the nodes of a cycle, or
of several cycles. -/
def Blocked (graph : List (String × List String)) (nodes : List String) : Prop :=
  ∀ v ∈ nodes, ∃ u ∈ nodes, v ∈ QMap.value graph u []

end TopologicalSorter
end Core
namespace Core
namespace ActionDomainPrivate

/-- The id `target` is carried by a node strictly below `t` that the walk of
`setLayouts_helper` reaches: the node and every node between it and `t` carry a non-empty,
registered id. -/
inductive NestedIn (objectInfoMap : ObjectInfoMap) : ActionLayout → String → Prop where
  | child (t c : ActionLayout) :
      c ∈ t.children → c.id ≠ "" → (objectInfoMap.lookup c.id).isSome = true →
      NestedIn objectInfoMap t c.id
  | deeper (t c : ActionLayout) (target : String) :
      c ∈ t.children → c.id ≠ "" → (objectInfoMap.lookup c.id).isSome = true →
      NestedIn objectInfoMap c target → NestedIn objectInfoMap t target

/-- The id names a registered menu that is not Plain: the objects for which `setLayouts_helper`
adds dependency edges. -/
def StandaloneMenu (objectInfoMap : ObjectInfoMap) (id : String) : Prop :=
  ∃ info, objectInfoMap.lookup id = some info ∧ info.type = ActionObjectType.Menu ∧
    info.mode ≠ ActionObjectMode.Plain

/-- The children pushed on the work list by `scanChildren`. -/
def pushedChildren (objectInfoMap : ObjectInfoMap) (items : List ActionLayout) :
    List ActionLayout :=
  items.filter (fun item =>
    decide (item.id ≠ "") && (objectInfoMap.lookup item.id).isSome && !item.children.isEmpty)

end ActionDomainPrivate
end Core
namespace Core

/-- Whether some node strictly below `t` carries the id `target`. -/
def ActionLayout.occursBelow (target : String) : ActionLayout → Bool
  | .mk _ _ children => occursBelowList target children
where
  /-- Whether some node of the forest `ts` carries the id `target`. -/
  occursBelowList (target : String) : List ActionLayout → Bool
  | [] => false
  | c :: cs => decide (c.id = target) || occursBelow target c || occursBelowList target cs

namespace Examples

/-- The forest `file[ghost[export]]`, `export[file]`: the two standalone menus nest each other,
and `export` sits below the node `ghost`, whose id is not registered. -/
def hiddenCycleForest : List ActionLayout :=
  [.mk "file" ActionLayoutType.Menu
      [.mk "ghost" ActionLayoutType.Group [.mk "export" ActionLayoutType.Menu []]],
   .mk "export" ActionLayoutType.Menu [.mk "file" ActionLayoutType.Menu []]]

/-- The forest `file[export]`, `export[file]`: the two standalone menus nest each other. -/
def cycleForest : List ActionLayout :=
  [.mk "file" ActionLayoutType.Menu [.mk "export" ActionLayoutType.Menu []],
   .mk "export" ActionLayoutType.Menu [.mk "file" ActionLayoutType.Menu []]]

end Examples
end Core
namespace Core
namespace LayoutsHelper

/-- Whether a node of type `layoutType` may carry the id of an object of type `objectType`:
Action for an action, Group for a group, Menu or ExpandedMenu for a menu. -/
def typeMatches : ActionObjectType → ActionLayoutType → Bool
  | ActionObjectType.Action, ActionLayoutType.Action => true
  | ActionObjectType.Group, ActionLayoutType.Group => true
  | ActionObjectType.Menu, ActionLayoutType.Menu => true
  | ActionObjectType.Menu, ActionLayoutType.ExpandedMenu => true
  | _, _ => false

/-- A composed tree that `restore` accepts node by node: a Separator or Stretch is the shared
value (no id, no children); any other node carries a non-empty registered id whose object type
matches the node type, a root (`standaloneRequired`) names a standalone object, and the same
holds below. -/
def restorable (objectInfoMap : ObjectInfoMap) : Bool → ActionLayout → Bool
  | standaloneRequired, .mk id type children =>
    if type = ActionLayoutType.Separator ∨ type = ActionLayoutType.Stretch then
      decide (id = "") && children.isEmpty
    else
      decide (id ≠ "") &&
        (match objectInfoMap.lookup id with
          | none => false
          | some info => (!standaloneRequired || info.standalone) && typeMatches info.type type) &&
        restorableList objectInfoMap false children
where
  /-- Every tree of the forest is restorable. -/
  restorableList (objectInfoMap : ObjectInfoMap) : Bool → List ActionLayout → Bool
  | _, [] => true
  | standaloneRequired, c :: cs =>
    restorable objectInfoMap standaloneRequired c &&
      restorableList objectInfoMap standaloneRequired cs

end LayoutsHelper
end Core
namespace Core

/-! ## Registry: `addExtension`, `removeExtension` and the catalog -/

/-- The order in which a `QHash<QString, ActionObjectInfo>` is iterated. Qt leaves it unspecified:
it is some arrangement of the entries, fixed by the hash function and its seed. -/
structure QHashOrder where
  iterate : List (String × ActionObjectInfo) → List (String × ActionObjectInfo)
  perm : ∀ m, (iterate m).Perm m

/-- The iteration order that follows the order of insertion. -/
def QHashOrder.insertion : QHashOrder := ⟨fun m => m, fun m => List.Perm.refl m⟩

/-- The iteration order opposite to the order of insertion. -/
def QHashOrder.reversed : QHashOrder := ⟨fun m => m.reverse, fun m => List.reverse_perm m⟩

/-- The function `QHash::insert`: the value of a key that is present is replaced. -/
def QHash.insert {β : Type} (m : List (String × β)) (key : String) (v : β) : List (String × β) :=
  if (m.lookup key).isSome then m.map (fun p => if p.1 = key then (key, v) else p)
  else m ++ [(key, v)]

/-- The function `QSet::insert`. -/
def QSet.insert {α : Type} [DecidableEq α] (s : List α) (a : α) : List α :=
  if a ∈ s then s else s ++ [a]

/-- The operator `QSet::operator+=` (union). -/
def QSet.unite {α : Type} [DecidableEq α] (s other : List α) : List α :=
  other.foldl QSet.insert s

/-- The function `QSet::remove` (also `QMChronoMap::remove` on the keys of a map). -/
def QSet.remove {α : Type} [DecidableEq α] (s : List α) (a : α) : List α :=
  s.filter (fun x => x ≠ a)

/-- The function `QMChronoMap::remove`: the entry of the key is dropped, the order of the others
is kept. -/
def QMChronoMap.remove {β : Type} (m : List (String × β)) (key : String) : List (String × β) :=
  m.filter (fun p => p.1 ≠ key)

namespace ActionDomainPrivate

/-- The state of a freshly constructed `ActionDomainPrivate`. -/
def init : ActionDomainPrivate := ⟨[], [], [], none, none⟩

end ActionDomainPrivate

namespace ActionDomain

/-- The loop `// Check duplication` of `addExtension` over the objects of the extension: `none` is
the early `return` on an id or a category path that the registry already holds, otherwise the
local `objectInfoMapTemp` and `objectCategories`. -/
def addExtension.checkDuplication (d : ActionDomainPrivate) :
    List ActionObjectInfo → List (String × ActionObjectInfo) → List (List String) →
      Option (List (String × ActionObjectInfo) × List (List String))
  | [], objectInfoMapTemp, objectCategories => some (objectInfoMapTemp, objectCategories)
  | obj :: rest, objectInfoMapTemp, objectCategories =>
    if (d.objectInfoMap.lookup obj.id).isSome then none
    else if obj.categories ∈ d.objectCategories then none
    else
      addExtension.checkDuplication d rest (QHash.insert objectInfoMapTemp obj.id obj)
        (QSet.insert objectCategories obj.categories)

/-- The function `ActionDomain::addExtension`; `order` is the iteration order of the local
`objectInfoMapTemp`. -/
def addExtension (order : QHashOrder) (d : ActionDomainPrivate) (extension : ActionExtension) :
    ActionDomainPrivate :=
  if d.extensions.any (fun e => e.hash = extension.hash) then d
  else
    match addExtension.checkDuplication d extension.objects [] [] with
    | none => d
    | some (objectInfoMapTemp, objectCategories) =>
      { extensions := d.extensions ++ [extension]
        objectInfoMap := d.objectInfoMap ++ order.iterate objectInfoMapTemp
        objectCategories := QSet.unite d.objectCategories objectCategories
        layouts := none
        catalog := none }

/-- The loop of `removeExtension` over the objects of the extension. -/
def removeExtension.loop :
    List ActionObjectInfo → ObjectInfoMap × List (List String) →
      ObjectInfoMap × List (List String)
  | [], st => st
  | obj :: rest, (objectInfoMap, objectCategories) =>
    removeExtension.loop rest
      (QMChronoMap.remove objectInfoMap obj.id, QSet.remove objectCategories obj.categories)

/-- The function `ActionDomain::removeExtension`. -/
def removeExtension (d : ActionDomainPrivate) (extension : ActionExtension) :
    ActionDomainPrivate :=
  match removeExtension.loop extension.objects (d.objectInfoMap, d.objectCategories) with
  | (objectInfoMap, objectCategories) =>
    { extensions := d.extensions.filter (fun e => e.hash ≠ extension.hash)
      objectInfoMap := objectInfoMap
      objectCategories := objectCategories
      layouts := none
      catalog := none }

end ActionDomain

namespace ActionDomainPrivate

namespace flushCatalog

/-- The local struct `TreeNode` of `flushCatalog`; `children` is a `QMChronoMap` from the name of
a child to its arena index, in insertion order. -/
structure TreeNode where
  name : String
  id : String
  children : List (String × Nat)
  deriving DecidableEq, Repr

/-- The function `TreeNode::toCatalog`. The recursion follows arena indexes, so it carries fuel;
`none` stands for a run that does not return (or reads outside the arena). -/
def TreeNode.toCatalog (heap : List TreeNode) : Nat → TreeNode → Option ActionCatalog
  | 0, _ => none
  | fuel + 1, node =>
    match LayoutsHelper.allSome (node.children.map (fun c =>
        match heap[c.2]? with
        | none => none
        | some child => TreeNode.toCatalog heap fuel child)) with
    | none => none
    | some children1 =>
      some ((ActionCatalog.mk node.name node.id [] []).setChildren children1)

/-- The body of the loop `for (c : item.categories())`. The state is `root1`, the arena and the
pointer `p`, where `none` is `root` and `some idx` is `&heap[idx]`. -/
def step (c : String) :
    TreeNode × List TreeNode × Option Nat → TreeNode × List TreeNode × Option Nat
  | (root, heap, none) =>
    match root.children.lookup c with
    | some idx => (root, heap, some idx)
    | none =>
      ({ root with children := root.children ++ [(c, heap.length)] }, heap ++ [⟨c, "", []⟩],
        some heap.length)
  | (root, heap, some i) =>
    match heap[i]? with
    | none => (root, heap, some i)
    | some node =>
      match node.children.lookup c with
      | some idx => (root, heap, some idx)
      | none =>
        (root,
          heap.set i { node with children := node.children ++ [(c, heap.length)] } ++
            [⟨c, "", []⟩],
          some heap.length)

/-- The assignment `p->id = item.id()`. -/
def setId (id : String) : TreeNode × List TreeNode × Option Nat → TreeNode × List TreeNode
  | (root, heap, none) => ({ root with id := id }, heap)
  | (root, heap, some i) =>
    match heap[i]? with
    | none => (root, heap)
    | some node => (root, heap.set i { node with id := id })

/-- The loop `for (item : objectInfoMap)`, entries in the order of registration. -/
def insertAll : List (String × ActionObjectInfo) → TreeNode × List TreeNode →
    TreeNode × List TreeNode
  | [], st => st
  | item :: rest, (root, heap) =>
    insertAll rest (setId item.2.id (item.2.categories.foldl (fun st c => step c st)
      (root, heap, none)))

end flushCatalog

/-- The function `ActionDomainPrivate::flushCatalog`. -/
def flushCatalog (d : ActionDomainPrivate) : Option ActionDomainPrivate :=
  match d.catalog with
  | some _ => some d
  | none =>
    match flushCatalog.insertAll d.objectInfoMap (⟨"", "", []⟩, []) with
    | (root, heap) =>
      match flushCatalog.TreeNode.toCatalog heap (heap.length + 1) root with
      | none => none
      | some catalog => some { d with catalog := some catalog }

end ActionDomainPrivate

namespace ActionDomain

/-- The function `ActionDomain::catalog`: the returned catalog and the state afterwards. -/
def catalog (d : ActionDomainPrivate) : Option (ActionCatalog × ActionDomainPrivate) :=
  match d.flushCatalog with
  | none => none
  | some d1 =>
    match d1.catalog with
    | none => none
    | some c => some (c, d1)

end ActionDomain

namespace ActionCatalog

/-- The node reached from a catalog by looking up the given names one after the other with
`indexOfChild`. -/
def descend : ActionCatalog → List String → Option ActionCatalog
  | c, [] => some c
  | c, name :: rest =>
    match c.indexOfChild name with
    | none => none
    | some i =>
      match c.children[i]? with
      | none => none
      | some child => descend child rest

end ActionCatalog

namespace Examples

/-- An action `open` with the category path `[File]`. -/
def openInFile : ActionObjectInfo :=
  ⟨"open", ActionObjectType.Action, ActionObjectMode.Plain, ["File"]⟩

/-- An action `save` with the same category path `[File]`. -/
def saveInFile : ActionObjectInfo :=
  ⟨"save", ActionObjectType.Action, ActionObjectMode.Plain, ["File"]⟩

/-- One record that declares `open` and `save`, both under `[File]`. -/
def samePathExt : ActionExtension := ⟨"hashP", [openInFile, saveInFile], [], []⟩

end Examples

end Core
namespace Core

/-- A call of the registry interface: `addExtension` (with the iteration order its local `QHash`
happens to have) or `removeExtension`. -/
inductive RegistryCall where
  | add (order : QHashOrder) (extension : ActionExtension)
  | remove (extension : ActionExtension)

/-- The state after one call. -/
def RegistryCall.apply (d : ActionDomainPrivate) : RegistryCall → ActionDomainPrivate
  | .add order extension => ActionDomain.addExtension order d extension
  | .remove extension => ActionDomain.removeExtension d extension

/-- The state after a sequence of calls, starting from the empty registry. -/
def runCalls (calls : List RegistryCall) : ActionDomainPrivate :=
  calls.foldl RegistryCall.apply ActionDomainPrivate.init

/-- The registry invariant on ids: the keys of the object map are pairwise distinct and every
entry is keyed by the id of its object. -/
def IdsUnique (d : ActionDomainPrivate) : Prop :=
  (d.objectInfoMap.map Prod.fst).Nodup ∧ ∀ p ∈ d.objectInfoMap, p.1 = p.2.id

/-- Two object maps that hold the same object under every id (they may list their entries in a
different order). -/
def SameLookup (m1 m2 : ObjectInfoMap) : Prop :=
  ∀ id, m1.lookup id = m2.lookup id

/-- Two call sequences that issue the same calls with the same records; only the iteration
orders of the temporary maps may differ. -/
inductive SameCalls : List RegistryCall → List RegistryCall → Prop where
  | nil : SameCalls [] []
  | add (order1 order2 : QHashOrder) (extension : ActionExtension) {cs1 cs2 : List RegistryCall} :
      SameCalls cs1 cs2 →
      SameCalls (RegistryCall.add order1 extension :: cs1)
        (RegistryCall.add order2 extension :: cs2)
  | remove (extension : ActionExtension) {cs1 cs2 : List RegistryCall} :
      SameCalls cs1 cs2 →
      SameCalls (RegistryCall.remove extension :: cs1) (RegistryCall.remove extension :: cs2)

/-- No two registered objects have the same category path. -/
def CategoryPathsUnique (d : ActionDomainPrivate) : Prop :=
  ∀ p ∈ d.objectInfoMap, ∀ q ∈ d.objectInfoMap, p.2.categories = q.2.categories → p = q

namespace Examples

/-- The registry after extension B (which declares `save`) was added to the empty registry. -/
def saveDomain : ActionDomainPrivate :=
  ActionDomain.addExtension QHashOrder.insertion ActionDomainPrivate.init (extB Anchor.Last "")

/-- A second extension that declares the id `save` again, with another hash and another
category path. -/
def secondSaveExt : ActionExtension :=
  ⟨"hashS", [⟨"save", ActionObjectType.Action, ActionObjectMode.Plain, ["Edit", "Save"]⟩], [], []⟩

end Examples

end Core
namespace Core
namespace LayoutsHelper

/-- The tree a persisted layout element stands for, read off the element itself: nothing when
`fromNodeElement` rejects the element, the shared Separator or Stretch for those tags, and
otherwise the node named by the element above the trees of its children, rejected children left
out. -/
def deserializeElement (objectInfoMap : ObjectInfoMap) :
    Bool → QMXmlAdaptorElement → Option ActionLayout
  | standaloneRequired, .mk name properties value children =>
    match fromNodeElement objectInfoMap (.mk name properties value children)
        standaloneRequired with
    | none => none
    | some node =>
      if node.type = ActionLayoutType.Separator then some sharedSeparator
      else if node.type = ActionLayoutType.Stretch then some sharedStretch
      else some (.mk node.id node.type (deserializeList objectInfoMap children))
where
  /-- The trees of a list of child elements. -/
  deserializeList (objectInfoMap : ObjectInfoMap) : List QMXmlAdaptorElement → List ActionLayout
  | [] => []
  | c :: cs =>
    match deserializeElement objectInfoMap false c with
    | none => deserializeList objectInfoMap cs
    | some l => l :: deserializeList objectInfoMap cs

/-- The trees of the children of a `layouts` element; each must name a standalone object. -/
def deserializeRoots (objectInfoMap : ObjectInfoMap) :
    List QMXmlAdaptorElement → List ActionLayout
  | [] => []
  | c :: cs =>
    match deserializeElement objectInfoMap true c with
    | none => deserializeRoots objectInfoMap cs
    | some l => l :: deserializeRoots objectInfoMap cs

/-- The forest deserialized from a persisted document: the trees of all children of its
`layouts` elements, in document order. -/
def deserializedForest (objectInfoMap : ObjectInfoMap) : List QMXmlAdaptorElement →
    List ActionLayout
  | [] => []
  | rootChild :: rest =>
    if rootChild.name = "layouts" then
      deserializeRoots objectInfoMap rootChild.children ++ deserializedForest objectInfoMap rest
    else deserializedForest objectInfoMap rest

/-- The hashes listed in a persisted document: the `hash` attribute of every child of its
`extensions` elements. -/
def listedHashes : List QMXmlAdaptorElement → List String
  | [] => []
  | rootChild :: rest =>
    if rootChild.name = "extensions" then
      rootChild.children.map (fun e => e.property "hash") ++ listedHashes rest
    else listedHashes rest

/-- The registered extensions whose routines `restore` replays: those with an empty hash and
those whose hash the document does not list, in registration order. -/
def replayedExtensions (extensions : List ActionExtension) (root : QMXmlAdaptorElement) :
    List ActionExtension :=
  extensions.filter (fun ext => ext.hash = "" ∨ ¬ ext.hash ∈ listedHashes root.children)

end LayoutsHelper
end Core

namespace Core
namespace Examples

/-- The composed tree `file[open]`. -/
def fileOpen : ActionLayout :=
  .mk "file" ActionLayoutType.Menu [.mk "open" ActionLayoutType.Action []]

/-- A persisted document that holds the forest `file[open]` and lists the hash of extension A
only. -/
def savedByA : QMXmlAdaptorElement := LayoutsHelper.serialize [extA] [fileOpen]

/-- A persisted document that holds the forest `file[open]` and lists the hash of extension A
and the empty hash of `emptyHashExt`. -/
def savedWithEmptyHash : QMXmlAdaptorElement :=
  LayoutsHelper.serialize [extA, emptyHashExt] [fileOpen]

end Examples
end Core
/-! ## Variable substitution: `parseExpression`

The function exists twice with the same text, in `tools/aec/parser.cpp` and in
`appcore/actions/actiondomain.cpp`. Both use the regular expression
`(?<!\$)(?:\$\$)*\$\{(\w+)\}`, which is embedded as a matcher on the characters of the subject
(namespace `reg`). A `QString` is handled as its list of characters, and the variable map
`QHash<QString, QString>` is an association list. -/

namespace reg

/-- The class `\w` of the pattern: an ASCII letter, a digit or the underscore (the pattern is
compiled without the Unicode-properties option). -/
def isWord (c : Char) : Bool :=
  c.isAlphanum || c = '_'

/-- The part `\$\{(\w+)\}` of the pattern at the start of the text: the captured name and the
text after the match. `\w+` is greedy and what follows it, `}`, is not a word character, so the
longest run of word characters is the only candidate. -/
def token : List Char → Option (List Char × List Char)
  | c1 :: c2 :: t =>
    if c1 = '$' ∧ c2 = '{' then
      match t.dropWhile isWord with
      | c3 :: rest =>
        if c3 = '}' ∧ t.takeWhile isWord ≠ [] then some (t.takeWhile isWord, rest) else none
      | [] => none
    else none
  | _ => none

/-- The part `(?:\$\$)*\$\{(\w+)\}` of the pattern at the start of the text. The group is
greedy: another `$$` is consumed when there is one, and the shorter repetition is tried when the
rest of the pattern then fails. -/
def pairsThenToken : List Char → Option (List Char × List Char)
  | c1 :: c2 :: t =>
    if c1 = '$' ∧ c2 = '$' then
      match pairsThenToken t with
      | some r => some r
      | none => token (c1 :: c2 :: t)
    else token (c1 :: c2 :: t)
  | s => token s

/-- The whole pattern at one position: `prev` is the character before the position (`none` at
the start of the subject), which the lookbehind `(?<!\$)` inspects. -/
def matchAt (prev : Option Char) (s : List Char) : Option (List Char × List Char) :=
  if prev = some '$' then none else pairsThenToken s

/-- The call `s.indexOf(reg, index, &match)`: `s` is the text from `index` on and `prev` the
character before it. The result is the text skipped before the first match, `match.captured(1)`
and the text after the match; `none` is the result `-1`. -/
def indexOf : Option Char → List Char → Option (List Char × List Char × List Char)
  | prev, [] =>
    match matchAt prev [] with
    | some (name, rest) => some ([], name, rest)
    | none => none
  | prev, c :: t =>
    match matchAt prev (c :: t) with
    | some (name, rest) => some ([], name, rest)
    | none =>
      match indexOf (some c) t with
      | some (skipped, name, rest) => some (c :: skipped, name, rest)
      | none => none

end reg

/-- The call `s.replace("$$", "$")` of `QString`: the occurrences are replaced from left to
right and do not overlap. -/
def QString.replaceEscapes : List Char → List Char
  | [] => []
  | [c] => [c]
  | c1 :: c2 :: t =>
    if c1 = '$' ∧ c2 = '$' then '$' :: QString.replaceEscapes t
    else c1 :: QString.replaceEscapes (c2 :: t)

namespace Aec

/-- The inner loop `while ((index = s.indexOf(reg, index, &match)) != -1)` of `parseExpression`
in `tools/aec/parser.cpp`. The state is the character before `index`, the text from `index` on
(`lastIndex` equals `index` whenever the condition is evaluated), `hasMatch` and `result`; the
value is `hasMatch` and `result` after the final `result += s.mid(lastIndex)`. Every round
consumes at least one character, so the loop gets as many rounds as the text has characters. -/
def parseExpression.substitute (vars : List (String × String)) :
    Nat → Option Char → List Char → Bool → List Char → Bool × List Char
  | 0, _, s, hasMatch, result => (hasMatch, result ++ s)
  | fuel + 1, prev, s, hasMatch, result =>
    match reg.indexOf prev s with
    | none => (hasMatch, result ++ s)
    | some (skipped, name, rest) =>
      parseExpression.substitute vars fuel (some '}') rest true
        (result ++ skipped ++
          (match vars.lookup (String.mk name) with
            | none => name
            | some val => val.data))

/-- The loop `do ... while (hasMatch)` of `parseExpression`; one unit of fuel per pass, `none`
when the fuel runs out. -/
def parseExpression.loop (vars : List (String × String)) : Nat → List Char → Option (List Char)
  | 0, _ => none
  | fuel + 1, s =>
    match parseExpression.substitute vars s.length none s false [] with
    | (true, result) => parseExpression.loop vars fuel result
    | (false, result) => some result

/-- The function `parseExpression` of `tools/aec/parser.cpp`. The passes are not bounded by the
source, so they carry fuel; `none` stands for a call that does not return. -/
def parseExpression (fuel : Nat) (s : String) (vars : List (String × String)) : Option String :=
  match parseExpression.loop vars fuel s.data with
  | none => none
  | some result => some (String.mk (QString.replaceEscapes result))

end Aec

namespace Core

/-- The inner loop `while ((index = s.indexOf(reg, index, &match)) != -1)` of `parseExpression`
in `appcore/actions/actiondomain.cpp`; see `Aec.parseExpression.substitute`. -/
def parseExpression.substitute (vars : List (String × String)) :
    Nat → Option Char → List Char → Bool → List Char → Bool × List Char
  | 0, _, s, hasMatch, result => (hasMatch, result ++ s)
  | fuel + 1, prev, s, hasMatch, result =>
    match reg.indexOf prev s with
    | none => (hasMatch, result ++ s)
    | some (skipped, name, rest) =>
      parseExpression.substitute vars fuel (some '}') rest true
        (result ++ skipped ++
          (match vars.lookup (String.mk name) with
            | none => name
            | some val => val.data))

/-- The loop `do ... while (hasMatch)` of `parseExpression` in `actiondomain.cpp`. -/
def parseExpression.loop (vars : List (String × String)) : Nat → List Char → Option (List Char)
  | 0, _ => none
  | fuel + 1, s =>
    match parseExpression.substitute vars s.length none s false [] with
    | (true, result) => parseExpression.loop vars fuel result
    | (false, result) => some result

/-- The function `parseExpression` of `appcore/actions/actiondomain.cpp`, which the icon
configuration parser calls through `IconConfigParser::resolve`. -/
def parseExpression (fuel : Nat) (s : String) (vars : List (String × String)) : Option String :=
  match parseExpression.loop vars fuel s.data with
  | none => none
  | some result => some (String.mk (QString.replaceEscapes result))

end Core
/-- A name as the pattern `\w+` accepts it: a non-empty sequence of word characters. -/
def IsName (n : String) : Prop :=
  n.data ≠ [] ∧ ∀ c ∈ n.data, reg.isWord c = true

/-- A piece of an expression: literal text, or the token `${name}`. -/
inductive Segment where
  | text (s : String)
  | token (name : String)

namespace Segment

/-- The characters a piece is written with. -/
def source : Segment → List Char
  | text s => s.data
  | token name => '$' :: '{' :: (name.data ++ ['}'])

/-- The characters a piece stands for under a variable map: literal text stands for itself, a
token for the value of its name, or for the bare name when the map does not define it. -/
def value (vars : List (String × String)) : Segment → List Char
  | text s => s.data
  | token name =>
    match vars.lookup name with
    | none => name.data
    | some val => val.data

/-- Whether the piece is a token. -/
def isToken : Segment → Bool
  | text _ => false
  | token _ => true

/-- A piece free of stray dollars: literal text without `$`, or a token whose name is a name and
whose value, if the map defines one, is without `$`. -/
def Plain (vars : List (String × String)) : Segment → Prop
  | text s => ¬ '$' ∈ s.data
  | token name => IsName name ∧ ∀ val, vars.lookup name = some val → ¬ '$' ∈ val.data

end Segment

/-- The expression written with the given pieces. -/
def Segment.render (segs : List Segment) : String :=
  String.mk (segs.flatMap Segment.source)

/-- The text the given pieces stand for under a variable map. -/
def Segment.expand (vars : List (String × String)) (segs : List Segment) : String :=
  String.mk (segs.flatMap (Segment.value vars))

/-- The text the given pieces stand for when every token is replaced by the value the map gives
to its name. -/
def Segment.resolve (vars : List (String × String)) (segs : List Segment) : String :=
  String.mk (segs.flatMap (fun seg =>
    match seg with
    | Segment.text s => s.data
    | Segment.token name => ((vars.lookup name).getD "").data))
/-! ## The descriptor compiler: `tools/aec/parser.cpp`

`std::exit(1)` after a diagnostic is the failure `Failure.exit` with the text of the diagnostic;
a call of `resolve` whose expansion does not return is the failure `Failure.noReturn`. The
argument `fuel` of the parser functions is the number of passes each call of `parseExpression`
may make. `QChar::isUpper`, `QChar::isDigit` and `QString::toLower` are taken on ASCII;
`QString::number` is the decimal numeral. The member `fileName` only occurs in diagnostics and
is left out. -/

namespace Core.QMXmlAdaptorElement

/-- The field `value`. -/
def value : QMXmlAdaptorElement → String
  | mk _ _ v _ => v

end Core.QMXmlAdaptorElement

namespace Aec

open Core (QMXmlAdaptorElement)

/-- Why a compilation did not produce a record. -/
inductive Failure where
  | exit (message : String)
  | noReturn
  | outOfRange
  deriving DecidableEq, Repr

/-- The enum `ActionObjectInfoMessage::Type`. -/
inductive MessageType where
  | Action
  | Group
  | Menu
  | ExpandedMenu
  | Separator
  | Stretch
  deriving DecidableEq, Repr

/-- The enum `ActionObjectInfoMessage::Mode`. -/
inductive MessageMode where
  | Plain
  | Unique
  | TopLevel
  | Widget
  deriving DecidableEq, Repr

/-- The struct `ActionObjectInfoMessage`. -/
structure ActionObjectInfoMessage where
  id : String
  type : MessageType
  mode : MessageMode
  text : String
  commandClass : String
  shortcutTokens : List String
  categories : List String
  tag : String
  deriving DecidableEq, Repr

/-- The struct `ActionLayoutEntryMessage`. -/
structure ActionLayoutEntryMessage where
  id : String
  type : MessageType
  childIndexes : List Nat
  deriving DecidableEq, Repr

/-- The struct `ActionBuildRoutineMessage`. -/
structure ActionBuildRoutineMessage where
  anchorToken : String
  parent : String
  relativeTo : String
  entryIndexes : List Nat
  deriving DecidableEq, Repr

/-- The struct `ActionExtensionMessage`, the compiled record. -/
structure ActionExtensionMessage where
  version : String
  hash : String
  objects : List ActionObjectInfoMessage
  layouts : List ActionLayoutEntryMessage
  layoutRootIndexes : List Nat
  buildRoutines : List ActionBuildRoutineMessage
  deriving DecidableEq, Repr

/-- The function `QString::number` on a container size. -/
def QString.number (n : Nat) : String :=
  String.mk (Nat.toDigits 10 n)

/-- The loop of `objIdToText` that splits the id before every upper-case character. -/
def objIdToText.split : List Char → List (List Char) → List Char → List (List Char)
  | [], parts, currentPart => if currentPart = [] then parts else parts ++ [currentPart]
  | ch :: rest, parts, currentPart =>
    if ch.isUpper ∧ currentPart ≠ [] then objIdToText.split rest (parts ++ [currentPart]) [ch]
    else objIdToText.split rest parts (currentPart ++ [ch])

/-- The set `specialWords` of `objIdToText`; its last element is written with a trailing
blank. -/
def objIdToText.specialWords : List String :=
  ["and", "but", "or", "nor", "for", "yet", "so", "as", "at", "by", "in", "of", "on", "to", "up",
    "a", "an", "the "]

/-- The function `objIdToText`. -/
def objIdToText (id : String) : String :=
  String.mk (List.intercalate [' ']
    ((objIdToText.split id.data [] []).map (fun part =>
      if String.mk (part.map Char.toLower) ∈ objIdToText.specialWords then part.map Char.toLower
      else part)))

/-- The loop of `simplifyActionText`: an ampersand is dropped and the character after it is
kept. -/
def simplifyActionText.loop : List Char → List Char
  | [] => []
  | [ch] => if ch = '&' then [] else [ch]
  | ch :: next :: rest =>
    if ch = '&' then next :: simplifyActionText.loop rest
    else ch :: simplifyActionText.loop (next :: rest)

/-- The function `simplifyActionText`. -/
def simplifyActionText (s : String) : String :=
  String.mk
    (if ['.', '.', '.'].isSuffixOf (simplifyActionText.loop s.data) then
      (simplifyActionText.loop s.data).take ((simplifyActionText.loop s.data).length - 3)
    else simplifyActionText.loop s.data)

/-- The loop of `parseStringList`: a backslash keeps the next character, a semicolon ends a
part. -/
def parseStringList.loop : List Char → List String → List Char → List String
  | [], parts, currentPart => parts ++ [String.mk currentPart]
  | [ch], parts, currentPart =>
    if ch = '\\' then parts ++ [String.mk currentPart]
    else if ch = ';' then parts ++ [String.mk currentPart, ""]
    else parts ++ [String.mk (currentPart ++ [ch])]
  | ch :: next :: rest, parts, currentPart =>
    if ch = '\\' then parseStringList.loop rest parts (currentPart ++ [next])
    else if ch = ';' then parseStringList.loop (next :: rest) (parts ++ [String.mk currentPart]) []
    else parseStringList.loop (next :: rest) parts (currentPart ++ [ch])

/-- The function `parseStringList`. -/
def parseStringList (s : String) : List String :=
  parseStringList.loop s.data [] []

/-- The function `isStringDigits`. -/
def isStringDigits (s : String) : Bool :=
  s.data.all Char.isDigit

/-- The function `fixCategories`: the empty elements before the last one are dropped, and the
simplified label is appended when the last element is empty. -/
def fixCategories (info : ActionObjectInfoMessage) : ActionObjectInfoMessage :=
  { info with
    categories :=
      info.categories.dropLast.filter (fun c => c ≠ "") ++
        (if info.categories.getLast? = some "" then [simplifyActionText info.text] else []) }

/-- The members of `ParserPrivate` that the compilation reads and writes; `vars` is the member
`variables`. `objSeqMap` maps an id to its sequence keys with the index of the entry each one
declared, in insertion order; an id without an entry has no keys. -/
structure ParserPrivate where
  vars : List (String × String)
  defaultCategory : List String
  objInfoMap : List (String × ActionObjectInfoMessage)
  objSeqMap : List (String × List (String × Nat))
  result : ActionExtensionMessage
  deriving Repr

/-- The function `QHash::insert` and the assignment through `operator[]`: the value of the key
is replaced or added. -/
def QHash.set {β : Type} (m : List (String × β)) (key : String) (v : β) : List (String × β) :=
  if (m.lookup key).isSome then m.map (fun p => if p.1 = key then (key, v) else p)
  else m ++ [(key, v)]

namespace ParserPrivate

/-- The function `ParserPrivate::resolve`. -/
def resolve (fuel : Nat) (p : ParserPrivate) (s : String) : Except Failure String :=
  match parseExpression fuel s p.vars with
  | none => .error Failure.noReturn
  | some r => .ok r

/-- The call `entries.append(entry)` on `result.layouts`. -/
def appendEntry (p : ParserPrivate) (entry : ActionLayoutEntryMessage) : ParserPrivate :=
  { p with result := { p.result with layouts := p.result.layouts ++ [entry] } }

/-- The call `seqs.append(seq, entryIndex)` on `objSeqMap[id]`. -/
def appendSeq (p : ParserPrivate) (id seq : String) (entryIndex : Nat) : ParserPrivate :=
  { p with objSeqMap :=
      QHash.set p.objSeqMap id (((p.objSeqMap.lookup id).getD []) ++ [(seq, entryIndex)]) }

/-- The assignment `entries[entryIndex].childIndexes = childIndexes`. -/
def setChildIndexes (p : ParserPrivate) (entryIndex : Nat) (childIndexes : List Nat) :
    ParserPrivate :=
  { p with result := { p.result with
      layouts := p.result.layouts.modify (fun entry => { entry with childIndexes := childIndexes })
        entryIndex } }

/-- The function `ParserPrivate::determineObjectType`: the mode, the type and the tag of `info`
are set from the tag of the element and its `mode` attribute. -/
def determineObjectType (fuel : Nat) (p : ParserPrivate) (e : QMXmlAdaptorElement)
    (info : ActionObjectInfoMessage) : Except Failure ActionObjectInfoMessage :=
  if e.name = "action" then
    match p.resolve fuel (e.property "mode") with
    | .error f => .error f
    | .ok mode =>
      .ok { info with
        mode := if mode = "widget" then MessageMode.Widget else MessageMode.Plain
        type := MessageType.Action
        tag := e.name }
  else if e.name = "widget" then
    .ok { info with type := MessageType.Action, mode := MessageMode.Widget, tag := e.name }
  else if e.name = "group" then
    match p.resolve fuel (e.property "mode") with
    | .error f => .error f
    | .ok _ =>
      .ok { info with mode := MessageMode.Unique, type := MessageType.Group, tag := e.name }
  else if e.name = "menuBar" ∨ e.name = "toolBar" then
    .ok { info with mode := MessageMode.TopLevel, type := MessageType.Menu, tag := e.name }
  else if e.name = "menu" then
    match p.resolve fuel (e.property "mode") with
    | .error f => .error f
    | .ok mode =>
      .ok { info with
        mode :=
          if mode = "plain" then MessageMode.Plain
          else if mode = "top" then MessageMode.TopLevel
          else MessageMode.Unique
        type := MessageType.Menu
        tag := e.name }
  else .error (Failure.exit "unknown object tag")

/-- The category path given to an object that has none: the current path followed by the `_cat`
attribute, or by the simplified label when the attribute is empty. -/
def inferredCategories (categories : List String) (maybeCategory text : String) : List String :=
  categories ++ [if maybeCategory = "" then simplifyActionText text else maybeCategory]

/-- The function `ParserPrivate::findOrInsertObjectInfo`: the object the element refers to and
the state afterwards. An object that is known gets the current category path when it has none;
an unknown one is created from the tag of the element. -/
def findOrInsertObjectInfo (fuel : Nat) (p : ParserPrivate) (e : QMXmlAdaptorElement)
    (categories : List String) : Except Failure (ActionObjectInfoMessage × ParserPrivate) :=
  match p.resolve fuel (e.property "id") with
  | .error f => .error f
  | .ok id =>
    if id = "" then .error (Failure.exit "element doesn't have an \"id\" field")
    else
      match p.resolve fuel (e.property "_cat") with
      | .error f => .error f
      | .ok maybeCategory =>
        match p.objInfoMap.lookup id with
        | some info =>
          if info.tag ≠ e.name ∧ info.tag ≠ "object" then
            .error (Failure.exit "element has inconsistent tag with the object element")
          else if info.categories = [] then
            .ok ({ info with
                categories := (inferredCategories categories maybeCategory info.text) },
              { p with
                objInfoMap := (QHash.set p.objInfoMap id { info with
                  categories := (inferredCategories categories maybeCategory info.text) }) })
          else .ok (info, p)
        | none =>
          match p.determineObjectType fuel e ⟨id, MessageType.Action, MessageMode.Plain, "", "",
              [], [], ""⟩ with
          | .error f => .error f
          | .ok info =>
            .ok ({ info with
                text := objIdToText id
                categories := (inferredCategories categories maybeCategory (objIdToText id)) },
              { p with
                objInfoMap := (p.objInfoMap ++ [(id, { info with
                  text := objIdToText id
                  categories :=
                    (inferredCategories categories maybeCategory (objIdToText id)) })]) })

end ParserPrivate

end Aec
namespace Aec

open Core (QMXmlAdaptorElement)

namespace ParserPrivate

/-- The type given to the entry of a menu or group element in `parseLayoutRecursively` and
`parseRoutine`: a menu is expanded when its `flat` attribute resolves to `true`. -/
def entryType (fuel : Nat) (p : ParserPrivate) (e : QMXmlAdaptorElement)
    (info : ActionObjectInfoMessage) : Except Failure MessageType :=
  if info.type = MessageType.Action then .ok MessageType.Action
  else if info.type = MessageType.Menu then
    match p.resolve fuel (e.property "flat") with
    | .error f => .error f
    | .ok flat => .ok (if flat = "true" then MessageType.ExpandedMenu else MessageType.Menu)
  else .ok MessageType.Group

/-- The block "Read or create the sequence id for each menu or group" of
`parseLayoutRecursively`; `seqs` is `objSeqMap[id]`. -/
def sequenceKey (fuel : Nat) (p : ParserPrivate) (e : QMXmlAdaptorElement)
    (seqs : List (String × Nat)) : Except Failure String :=
  match e.properties.lookup "_seq" with
  | none =>
    .ok (match seqs with
      | first :: _ => if e.children.isEmpty then first.1 else QString.number seqs.length
      | [] => QString.number seqs.length)
  | some v =>
    match p.resolve fuel v with
    | .error f => .error f
    | .ok specifiedSeq =>
      .ok (if (seqs.lookup specifiedSeq).isNone ∧ isStringDigits specifiedSeq = true then
        QString.number seqs.length
      else specifiedSeq)

/-- What `parseLayoutRecursively` does with the entry of a menu or group once the sequence key
is known. -/
inductive Declared where
  | placeholder (p : ParserPrivate)
  | finished (p : ParserPrivate)

/-- The block of `parseLayoutRecursively` after the sequence key is known: a first key or a new
key of a Plain object appends a placeholder whose children are still to be parsed; a new key of
another object appends the entry when the element has no children and aborts otherwise; a known
key appends a copy of the entry that declared it, with the type of this element. -/
def declare (p : ParserPrivate) (e : QMXmlAdaptorElement) (info : ActionObjectInfoMessage)
    (type : MessageType) (seq : String) : Except Failure Declared :=
  match (p.objSeqMap.lookup info.id).getD [] with
  | [] =>
    .ok (Declared.placeholder
      ((p.appendSeq info.id seq p.result.layouts.length).appendEntry ⟨info.id, type, []⟩))
  | first :: others =>
    match (first :: others).lookup seq with
    | none =>
      if info.mode ≠ MessageMode.Plain then
        if e.children.isEmpty then .ok (Declared.finished (p.appendEntry ⟨info.id, type, []⟩))
        else
          .error (Failure.exit
            "layout element has multiple defined structures while it's not plain")
      else
        .ok (Declared.placeholder
          ((p.appendSeq info.id seq p.result.layouts.length).appendEntry ⟨info.id, type, []⟩))
    | some idx =>
      match p.result.layouts[idx]? with
      | none => .error Failure.outOfRange
      | some entry => .ok (Declared.finished (p.appendEntry { entry with type := type }))

/-- How the part of `parseLayoutRecursively` before the loop over the children ends: with the
`return entryIndex` of an element that is complete, or with a placeholder for an element whose
children are parsed next, under the category path and behind the id of the object `info`. -/
inductive Entered where
  | finished (entryIndex : Nat) (p : ParserPrivate)
  | descend (info : ActionObjectInfoMessage) (p : ParserPrivate)

/-- The part of `parseLayoutRecursively` before the loop over the children: separator and
stretch, the object of the element, the check "recursive", the type of the entry, the sequence
key and the declaration. -/
def parseLayoutRecursively.enter (fuel : Nat) (p : ParserPrivate) (e : QMXmlAdaptorElement)
    (categories path : List String) : Except Failure Entered :=
  if e.name = "separator" then
    if ¬ e.children.isEmpty then
      .error (Failure.exit "layout element separator shouldn't have children")
    else
      .ok (Entered.finished p.result.layouts.length
        (p.appendEntry ⟨"", MessageType.Separator, []⟩))
  else if e.name = "stretch" then
    if ¬ e.children.isEmpty then
      .error (Failure.exit "layout element stretch shouldn't have children")
    else
      .ok (Entered.finished p.result.layouts.length (p.appendEntry ⟨"", MessageType.Stretch, []⟩))
  else
    match p.findOrInsertObjectInfo fuel e categories with
    | .error f => .error f
    | .ok (info, p1) =>
      if info.id ∈ path then .error (Failure.exit "recursive chain in layout")
      else if info.type = MessageType.Action then
        if ¬ e.children.isEmpty then
          .error (Failure.exit "layout element shouldn't have children")
        else
          .ok (Entered.finished p.result.layouts.length
            (p1.appendEntry ⟨info.id, MessageType.Action, []⟩))
      else
        match p1.entryType fuel e info with
        | .error f => .error f
        | .ok type =>
          match p1.sequenceKey fuel e ((p1.objSeqMap.lookup info.id).getD []) with
          | .error f => .error f
          | .ok seq =>
            match p1.declare e info type seq with
            | .error f => .error f
            | .ok (Declared.finished p2) => .ok (Entered.finished p.result.layouts.length p2)
            | .ok (Declared.placeholder p2) =>
              if e.children.isEmpty then .ok (Entered.finished p.result.layouts.length p2)
              else .ok (Entered.descend info p2)

/-- The function `ParserPrivate::parseLayoutRecursively`: the index of the entry made for the
element and the state afterwards. `categories` and `path` are passed by reference in the source
and have their old value again whenever the function returns. -/
def parseLayoutRecursively (fuel : Nat) :
    QMXmlAdaptorElement → ParserPrivate → List String → List String →
      Except Failure (Nat × ParserPrivate)
  | .mk name properties value children, p, categories, path =>
    match parseLayoutRecursively.enter fuel p (.mk name properties value children) categories
        path with
    | .error f => .error f
    | .ok (Entered.finished entryIndex p2) => .ok (entryIndex, p2)
    | .ok (Entered.descend info p2) =>
      match parseChildren fuel children p2 info.categories (path ++ [info.id]) with
      | .error f => .error f
      | .ok (childIndexes, p3) =>
        .ok (p.result.layouts.length, p3.setChildIndexes p.result.layouts.length childIndexes)
where
  /-- The loop `for (child : e->children)` of `parseLayoutRecursively`. -/
  parseChildren (fuel : Nat) :
    List QMXmlAdaptorElement → ParserPrivate → List String → List String →
      Except Failure (List Nat × ParserPrivate)
  | [], p, _, _ => .ok ([], p)
  | c :: cs, p, categories, path =>
    match parseLayoutRecursively fuel c p categories path with
    | .error f => .error f
    | .ok (idx, p1) =>
      match parseChildren fuel cs p1 categories path with
      | .error f => .error f
      | .ok (idxs, p2) => .ok (idx :: idxs, p2)

end ParserPrivate

end Aec
namespace Aec

open Core (QMXmlAdaptorElement)

namespace ParserPrivate

/-- The loop over the children of a `vars` element in `parseParserConfig`: each non-empty
resolved key is inserted into `variables` with its resolved value. -/
def parseParserConfig.vars (fuel : Nat) :
    List QMXmlAdaptorElement → ParserPrivate → Except Failure ParserPrivate
  | [], p => .ok p
  | subItem :: rest, p =>
    match p.resolve fuel (subItem.property "key") with
    | .error f => .error f
    | .ok key =>
      match p.resolve fuel (subItem.property "value") with
      | .error f => .error f
      | .ok value =>
        parseParserConfig.vars fuel rest
          (if key = "" then p else { p with vars := (QHash.set p.vars key value) })

/-- The function `ParserPrivate::parseParserConfig`: the returned `conf.defaultCategory` and the
state afterwards; `conf` is the configuration read so far. -/
def parseParserConfig (fuel : Nat) :
    List QMXmlAdaptorElement → List String → ParserPrivate →
      Except Failure (List String × ParserPrivate)
  | [], conf, p => .ok (conf, p)
  | item :: rest, conf, p =>
    if item.name = "defaultCategory" then
      match p.resolve fuel item.value with
      | .error f => .error f
      | .ok v => parseParserConfig fuel rest (parseStringList v) p
    else if item.name = "vars" then
      match parseParserConfig.vars fuel item.children p with
      | .error f => .error f
      | .ok p1 => parseParserConfig fuel rest conf p1
    else parseParserConfig fuel rest conf p

/-- The function `ParserPrivate::parseObject`. -/
def parseObject (fuel : Nat) (p : ParserPrivate) (e : QMXmlAdaptorElement) :
    Except Failure ActionObjectInfoMessage :=
  match p.resolve fuel (e.property "id") with
  | .error f => .error f
  | .ok id =>
    if id = "" then .error (Failure.exit "object element doesn't have an \"id\" field")
    else
      match p.determineObjectType fuel e ⟨id, MessageType.Action, MessageMode.Plain, "", "", [],
          [], ""⟩ with
      | .error f => .error f
      | .ok info1 =>
        match p.resolve fuel (e.property "text") with
        | .error f => .error f
        | .ok text =>
          match p.resolve fuel (e.property "class") with
          | .error f => .error f
          | .ok commandClass =>
            match p.resolve fuel (e.property "shortcuts") with
            | .error f => .error f
            | .ok shortcuts =>
              match (if shortcuts = "" then p.resolve fuel (e.property "shortcut")
                  else .ok shortcuts) with
              | .error f => .error f
              | .ok shortcuts1 =>
                match p.resolve fuel (e.property "categories") with
                | .error f => .error f
                | .ok categories =>
                  match (if categories = "" then p.resolve fuel (e.property "category")
                      else .ok categories) with
                  | .error f => .error f
                  | .ok categories1 =>
                    if ¬ e.children.isEmpty then
                      .error (Failure.exit "object declaration element shouldn't have children")
                    else
                      .ok ((fun (info : ActionObjectInfoMessage) =>
                          if categories1 = "" then info
                          else fixCategories
                            { info with categories := (parseStringList categories1) })
                        { info1 with
                          text := (if text = "" then objIdToText id else text)
                          commandClass := commandClass
                          shortcutTokens :=
                            (if shortcuts1 = "" then [] else parseStringList shortcuts1) })

/-- The loop "Parse objects" of `parse`. -/
def parseObjects (fuel : Nat) :
    List QMXmlAdaptorElement → ParserPrivate → Except Failure ParserPrivate
  | [], p => .ok p
  | item :: rest, p =>
    match p.parseObject fuel item with
    | .error f => .error f
    | .ok entity =>
      if (p.objInfoMap.lookup entity.id).isSome then .error (Failure.exit "duplicated object id")
      else parseObjects fuel rest { p with objInfoMap := (p.objInfoMap ++ [(entity.id, entity)]) }

/-- The loop "Parse layouts" of `parse`. -/
def parseLayouts (fuel : Nat) :
    List QMXmlAdaptorElement → ParserPrivate → Except Failure ParserPrivate
  | [], p => .ok p
  | item :: rest, p =>
    match p.parseLayoutRecursively fuel item p.defaultCategory [] with
    | .error f => .error f
    | .ok (idx, p1) =>
      parseLayouts fuel rest
        { p1 with result := { p1.result with
            layoutRootIndexes := (p1.result.layoutRootIndexes ++ [idx]) } }

/-- The anchor written for the `anchor` attribute of a routine and whether a relative sibling is
needed; `none` for an unknown token. -/
def parseRoutine.anchor (anchor : String) : Option (String × Bool) :=
  if anchor = "last" ∨ anchor = "back" then some ("Last", false)
  else if anchor = "first" ∨ anchor = "front" then some ("First", false)
  else if anchor = "before" then some ("Before", true)
  else if anchor = "" ∨ anchor = "after" then some ("After", true)
  else none

/-- The entry made for one item of a routine, before it is appended. -/
def parseRoutine.item (fuel : Nat) (p : ParserPrivate) (e : QMXmlAdaptorElement) :
    Except Failure (ActionLayoutEntryMessage × ParserPrivate) :=
  if e.name = "separator" then .ok (⟨"", MessageType.Separator, []⟩, p)
  else if e.name = "stretch" then .ok (⟨"", MessageType.Stretch, []⟩, p)
  else
    match p.findOrInsertObjectInfo fuel e p.defaultCategory with
    | .error f => .error f
    | .ok (info, p1) =>
      if ¬ e.children.isEmpty then
        .error (Failure.exit "routine element shouldn't have children")
      else
        match p1.entryType fuel e info with
        | .error f => .error f
        | .ok type =>
          match (p1.objSeqMap.lookup info.id).getD [] with
          | [] => .ok (⟨info.id, type, []⟩, p1)
          | first :: others =>
            match e.properties.lookup "_seq" with
            | none =>
              match p1.result.layouts[first.2]? with
              | none => .error Failure.outOfRange
              | some entry => .ok ({ entry with type := type }, p1)
            | some v =>
              match p1.resolve fuel v with
              | .error f => .error f
              | .ok seq =>
                match (first :: others).lookup seq with
                | none => .ok (⟨info.id, type, []⟩, p1)
                | some idx =>
                  match p1.result.layouts[idx]? with
                  | none => .error Failure.outOfRange
                  | some entry => .ok ({ entry with type := type }, p1)

/-- The loop over the items of a routine in `parseRoutine`. -/
def parseRoutine.items (fuel : Nat) :
    List QMXmlAdaptorElement → ParserPrivate → List Nat → Except Failure (List Nat × ParserPrivate)
  | [], p, entryIndexes => .ok (entryIndexes, p)
  | item :: rest, p, entryIndexes =>
    match parseRoutine.item fuel p item with
    | .error f => .error f
    | .ok (entry, p1) =>
      parseRoutine.items fuel rest (p1.appendEntry entry)
        (entryIndexes ++ [p.result.layouts.length])

/-- The function `ParserPrivate::parseRoutine`. -/
def parseRoutine (fuel : Nat) (p : ParserPrivate) (root : QMXmlAdaptorElement) :
    Except Failure (ActionBuildRoutineMessage × ParserPrivate) :=
  if root.name ≠ "buildRoutine" then
    .error (Failure.exit "unknown build routine element tag")
  else
    match p.resolve fuel (root.property "parent") with
    | .error f => .error f
    | .ok parent =>
      if parent = "" then .error (Failure.exit "build routine doesn't have a parent")
      else
        match parseRoutine.anchor (root.property "anchor") with
        | none => .error (Failure.exit "unknown build routine anchor")
        | some (anchorToken, needRelative) =>
          match p.resolve fuel (root.property "relativeTo") with
          | .error f => .error f
          | .ok relative =>
            if needRelative = true ∧ relative = "" then
              .error (Failure.exit "build routine with anchor must have a relative sibling")
            else if root.children.isEmpty then .error (Failure.exit "empty routine")
            else
              match parseRoutine.items fuel root.children p [] with
              | .error f => .error f
              | .ok (entryIndexes, p1) => .ok (⟨anchorToken, parent, relative, entryIndexes⟩, p1)

/-- The loop "Parse build routines" of `parse`. -/
def parseRoutines (fuel : Nat) :
    List QMXmlAdaptorElement → ParserPrivate → Except Failure ParserPrivate
  | [], p => .ok p
  | item :: rest, p =>
    match p.parseRoutine fuel item with
    | .error f => .error f
    | .ok (entity, p1) =>
      parseRoutines fuel rest
        { p1 with result := { p1.result with
            buildRoutines := (p1.result.buildRoutines ++ [entity]) } }

/-- What the loop "Collect elements and attributes" of `parse` has gathered. -/
structure Collected where
  objElements : List QMXmlAdaptorElement
  layoutElements : List QMXmlAdaptorElement
  routineElements : List QMXmlAdaptorElement
  version : String
  hasParserConfig : Bool

/-- The loop "Collect elements and attributes" of `parse` over the children of the root. -/
def collect (fuel : Nat) :
    List QMXmlAdaptorElement → Collected → ParserPrivate →
      Except Failure (Collected × ParserPrivate)
  | [], c, p => .ok (c, p)
  | item :: rest, c, p =>
    if item.name = "objects" then
      collect fuel rest { c with objElements := (c.objElements ++ item.children) } p
    else if item.name = "layouts" then
      collect fuel rest { c with layoutElements := (c.layoutElements ++ item.children) } p
    else if item.name = "buildRoutines" then
      collect fuel rest { c with routineElements := (c.routineElements ++ item.children) } p
    else if item.name = "version" then
      if c.version ≠ "" then .error (Failure.exit "duplicated version value")
      else collect fuel rest { c with version := item.value } p
    else if item.name = "parserConfig" then
      if c.hasParserConfig = true then .error (Failure.exit "duplicated parser config elements")
      else
        match parseParserConfig fuel item.children [] p with
        | .error f => .error f
        | .ok (defaultCategory, p1) =>
          collect fuel rest { c with hasParserConfig := true }
            { p1 with defaultCategory := defaultCategory }
    else collect fuel rest c p

/-- The loop "Collect elements and attributes" of `parse` run on the children of the root from
the state the parser is constructed with. -/
def collected (fuel : Nat) (vars : List (String × String)) (root : QMXmlAdaptorElement) :
    Except Failure (Collected × ParserPrivate) :=
  collect fuel root.children ⟨[], [], [], "", false⟩ ⟨vars, [], [], [], ⟨"", "", [], [], [], []⟩⟩

/-- The function `ParserPrivate::parse` on a document that `xml.loadData` accepted (`none` is a
document it rejected): the compiled record. `vars` is the member `variables` the parser was
constructed with and `hash` is `calculateContentSha256(data)`. -/
def parse (fuel : Nat) (vars : List (String × String)) (hash : String)
    (data : Option QMXmlAdaptorElement) : Except Failure ActionExtensionMessage :=
  match data with
  | none => .error (Failure.exit "invalid format")
  | some root =>
    if root.name ≠ "actionExtension" then .error (Failure.exit "unknown root element tag")
    else
      match collected fuel vars root with
      | .error f => .error f
      | .ok (c, p0) =>
        match parseObjects fuel c.objElements
            { p0 with result := { p0.result with version := c.version, hash := hash } } with
        | .error f => .error f
        | .ok p1 =>
          match parseLayouts fuel c.layoutElements p1 with
          | .error f => .error f
          | .ok p2 =>
            match parseRoutines fuel c.routineElements p2 with
            | .error f => .error f
            | .ok p3 =>
              .ok { p3.result with objects := (p3.objInfoMap.map (fun item => item.2)) }

end ParserPrivate

/-- The function `Parser::parse`. -/
def Parser.parse (fuel : Nat) (vars : List (String × String)) (hash : String)
    (data : Option QMXmlAdaptorElement) : Except Failure ActionExtensionMessage :=
  ParserPrivate.parse fuel vars hash data

end Aec
namespace Aec

open Core (QMXmlAdaptorElement)

/-- No numeral of a number from the current count on is a sequence key yet, so the automatic key
`QString::number(seqs.size())` is always new. -/
def SeqKeysFresh (seqs : List (String × Nat)) : Prop :=
  ∀ m, seqs.length ≤ m → seqs.lookup (QString.number m) = none

/-- What holds of the parser state whenever a layout is parsed: every known object is stored
under its own id, and the automatic sequence key of every id is new. -/
structure ParserPrivate.Inv (p : ParserPrivate) : Prop where
  ids : ∀ k info, p.objInfoMap.lookup k = some info → info.id = k
  seqs : ∀ id seqs, p.objSeqMap.lookup id = some seqs → SeqKeysFresh seqs

/-- The element `inner` lies inside the element `outer`, at any depth. -/
inductive Inside : QMXmlAdaptorElement → QMXmlAdaptorElement → Prop where
  | child {inner outer : QMXmlAdaptorElement} : inner ∈ outer.children → Inside inner outer
  | deeper {inner mid outer : QMXmlAdaptorElement} :
      mid ∈ outer.children → Inside inner mid → Inside inner outer

/-- The element holds, itself or at some depth, a layout element (not a separator or stretch)
whose id resolves to `id`, and no element above that one carries a `_seq` attribute. -/
inductive HoldsId (fuel : Nat) (vars : List (String × String)) (id : String) :
    QMXmlAdaptorElement → Prop where
  | here {e : QMXmlAdaptorElement} :
      e.name ≠ "separator" → e.name ≠ "stretch" →
      parseExpression fuel (e.property "id") vars = some id → HoldsId fuel vars id e
  | under {e c : QMXmlAdaptorElement} :
      e.properties.lookup "_seq" = none → c ∈ e.children → HoldsId fuel vars id c →
      HoldsId fuel vars id e

/-- The element is or holds a recursive chain on the path that is parsed: itself or at some depth
below elements without `_seq` attribute there is a layout element without `_seq` attribute whose
id resolves to some `id` and which has a child that holds a layout element with the same id
(`HoldsId`). -/
inductive HoldsChain (fuel : Nat) (vars : List (String × String)) :
    QMXmlAdaptorElement → Prop where
  | here {e c : QMXmlAdaptorElement} {id : String} :
      parseExpression fuel (e.property "id") vars = some id →
      e.properties.lookup "_seq" = none → c ∈ e.children → HoldsId fuel vars id c →
      HoldsChain fuel vars e
  | under {e c : QMXmlAdaptorElement} :
      e.properties.lookup "_seq" = none → c ∈ e.children → HoldsChain fuel vars c →
      HoldsChain fuel vars e

/-- The entry at index `j` is reached from the entry at index `i` by following child indexes,
in one step or more. -/
inductive Descendant (layouts : List ActionLayoutEntryMessage) : Nat → Nat → Prop where
  | child {i j : Nat} {entry : ActionLayoutEntryMessage} :
      layouts[i]? = some entry → j ∈ entry.childIndexes → Descendant layouts i j
  | deeper {i j k : Nat} {entry : ActionLayoutEntryMessage} :
      layouts[i]? = some entry → j ∈ entry.childIndexes → Descendant layouts j k →
      Descendant layouts i k

namespace Examples

open Core (QMXmlAdaptorElement)

/-- A childless layout element `<menu id=X/>`. -/
def menuX : QMXmlAdaptorElement := .mk "menu" [("id", "X")] "" []

/-- The layout `<menu id=X><menu id=X/></menu>`. -/
def menuXinX : QMXmlAdaptorElement := .mk "menu" [("id", "X")] "" [menuX]

/-- A descriptor whose only layout nests `X` directly inside `X`. -/
def directChain : QMXmlAdaptorElement :=
  .mk "actionExtension" [] "" [.mk "layouts" [] "" [menuXinX]]

/-- A descriptor whose only layout is the menu bar `bar` around `<menu id=X>` around
`<menu id=X/>`. -/
def nestedChain : QMXmlAdaptorElement :=
  .mk "actionExtension" [] ""
    [.mk "layouts" [] "" [.mk "menuBar" [("id", "bar")] "" [menuXinX]]]

/-- A descriptor that declares `Z[a]` and then `<menu id=Z _seq=0>` around `<menu id=X>` around
`<menu id=X/>`. -/
def reusedAroundChain : QMXmlAdaptorElement :=
  .mk "actionExtension" [] ""
    [.mk "layouts" [] ""
      [.mk "menu" [("id", "Z")] "" [.mk "action" [("id", "a")] "" []],
       .mk "menu" [("id", "Z"), ("_seq", "0")] "" [menuXinX]]]

/-- The layout `<menu id=X _seq=0><menu id=X/></menu>`. -/
def reusedXinX : QMXmlAdaptorElement := .mk "menu" [("id", "X"), ("_seq", "0")] "" [menuX]

/-- A descriptor that declares `X[a]` and then `<menu id=X _seq=0>` around another `X`. -/
def reusedChain : QMXmlAdaptorElement :=
  .mk "actionExtension" [] ""
    [.mk "layouts" [] ""
      [.mk "menu" [("id", "X")] "" [.mk "action" [("id", "a")] "" []], reusedXinX]]

/-- A descriptor that declares the Plain menu `Y`, then the layouts `X[Y]` and `Y[X]`. -/
def plainChain : QMXmlAdaptorElement :=
  .mk "actionExtension" [] ""
    [.mk "objects" [] "" [.mk "menu" [("id", "Y"), ("mode", "plain")] "" []],
     .mk "layouts" [] ""
      [.mk "menu" [("id", "X")] "" [.mk "menu" [("id", "Y")] "" []],
       .mk "menu" [("id", "Y")] "" [menuX]]]

end Examples

end Aec
namespace Aec

open Core (QMXmlAdaptorElement)

/-- The two records differ in their layout entries at most. -/
structure SameButLayouts (r r1 : ActionExtensionMessage) : Prop where
  version : r1.version = r.version
  hash : r1.hash = r.hash
  objects : r1.objects = r.objects
  layoutRootIndexes : r1.layoutRootIndexes = r.layoutRootIndexes
  buildRoutines : r1.buildRoutines = r.buildRoutines

/-- The build routine `r` is what `parseRoutine` returns for the element `e` under the
variables `vars`: the checks of `parseRoutine` have passed and the fields are the resolved
attributes. -/
structure RoutineOf (fuel : Nat) (vars : List (String × String)) (e : QMXmlAdaptorElement)
    (r : ActionBuildRoutineMessage) : Prop where
  name : e.name = "buildRoutine"
  parent : parseExpression fuel (e.property "parent") vars = some r.parent
  parentNonEmpty : r.parent ≠ ""
  anchor : ∃ needRelative,
    ParserPrivate.parseRoutine.anchor (e.property "anchor") = some (r.anchorToken, needRelative) ∧
      (needRelative = true → r.relativeTo ≠ "")
  relative : parseExpression fuel (e.property "relativeTo") vars = some r.relativeTo
  items : r.entryIndexes.length = e.children.length
  nonEmpty : e.children ≠ []

/-- The anchor tokens as the amended claim C21 lists them: the value of the `anchor` attribute
(empty when the attribute is absent) and the anchor it stands for. -/
inductive AnchorTokenSpec : String → String → Prop where
  | first : AnchorTokenSpec "first" "First"
  | front : AnchorTokenSpec "front" "First"
  | last : AnchorTokenSpec "last" "Last"
  | back : AnchorTokenSpec "back" "Last"
  | before : AnchorTokenSpec "before" "Before"
  | after : AnchorTokenSpec "after" "After"
  | absent : AnchorTokenSpec "" "After"

namespace Examples

/-- A descriptor with one build routine `<buildRoutine parent=File anchor=.. relativeTo=..>`
around the action `a`; an empty `relativeTo` leaves the attribute out. -/
def routineWith (anchor relativeTo : String) : QMXmlAdaptorElement :=
  .mk "actionExtension" [] ""
    [.mk "buildRoutines" [] ""
      [.mk "buildRoutine"
        ([("parent", "File"), ("anchor", anchor)] ++
          (if relativeTo = "" then [] else [("relativeTo", relativeTo)])) ""
        [.mk "action" [("id", "a")] "" []]]]

/-- A descriptor with one build routine that has no `anchor` attribute. -/
def routineWithoutAnchor : QMXmlAdaptorElement :=
  .mk "actionExtension" [] ""
    [.mk "buildRoutines" [] ""
      [.mk "buildRoutine" [("parent", "File"), ("relativeTo", "Open")] ""
        [.mk "action" [("id", "a")] "" []]]]

/-- A descriptor with one build routine `<buildRoutine parent=File anchor=last/>` that has no
items. -/
def emptyRoutine : QMXmlAdaptorElement :=
  .mk "actionExtension" [] ""
    [.mk "buildRoutines" [] "" [.mk "buildRoutine" [("parent", "File"), ("anchor", "last")] "" []]]

end Examples

end Aec
namespace Aec

open Core (QMXmlAdaptorElement)

/-- A category path once assigned is kept: every object that has a category path in the state
`p` is the same object in the state `p1`. -/
def CategoriesKept (p p1 : ParserPrivate) : Prop :=
  ∀ id info, p.objInfoMap.lookup id = some info → info.categories ≠ [] →
    p1.objInfoMap.lookup id = some info

/-- In the state `pa` the element `e` is handed to `findOrInsertObjectInfo` with the inherited
path `categories`: the call made in `pa` succeeds, and the object it returns is the object
stored under its id in the state `p1`. -/
def LookedUpAt (fuel : Nat) (pa p1 : ParserPrivate) (e : QMXmlAdaptorElement)
    (categories : List String) : Prop :=
  ∃ info pc1, pa.findOrInsertObjectInfo fuel e categories = .ok (info, pc1) ∧
    p1.objInfoMap.lookup info.id = some info

namespace Examples

/-- A descriptor with the default category `Main`, the object `open` with the label `&Open...`
and no category, and the layout `File[open, SaveAs _cat=Saving]`. -/
def inferredPaths : QMXmlAdaptorElement :=
  .mk "actionExtension" [] ""
    [.mk "parserConfig" [] "" [.mk "defaultCategory" [] "Main" []],
     .mk "objects" [] "" [.mk "action" [("id", "open"), ("text", "&Open...")] "" []],
     .mk "layouts" [] ""
      [.mk "menu" [("id", "File")] ""
        [.mk "action" [("id", "open")] "" [],
         .mk "action" [("id", "SaveAs"), ("_cat", "Saving")] "" []]]]

end Examples

end Aec
namespace Aec

open Core (QMXmlAdaptorElement)

namespace Examples

/-- A descriptor that declares the menu `X` with the action `a` and then declares `X` again,
without children and with the attribute `_seq=1`. -/
def laterKey : QMXmlAdaptorElement :=
  .mk "actionExtension" [] ""
    [.mk "layouts" [] ""
      [.mk "menu" [("id", "X")] "" [.mk "action" [("id", "a")] "" []],
       .mk "menu" [("id", "X"), ("_seq", "1")] "" []]]

/-- A descriptor that declares the menu `X` with the action `a` and then declares `X` again
twice without children, once without `_seq` and once with `_seq=0`. -/
def laterReuse : QMXmlAdaptorElement :=
  .mk "actionExtension" [] ""
    [.mk "layouts" [] ""
      [.mk "menu" [("id", "X")] "" [.mk "action" [("id", "a")] "" []],
       .mk "menu" [("id", "X")] "" [],
       .mk "menu" [("id", "X"), ("_seq", "0")] "" []]]

/-- The state of the parser after the layout `X[a]` of `laterKey` and `laterReuse`. -/
def afterFirstX : ParserPrivate :=
  { vars := []
    defaultCategory := []
    objInfoMap :=
      [("X", ⟨"X", MessageType.Menu, MessageMode.Unique, "X", "", [], ["X"], "menu"⟩),
       ("a", ⟨"a", MessageType.Action, MessageMode.Plain, "a", "", [], ["X", "a"], "action"⟩)]
    objSeqMap := [("X", [("0", 0)])]
    result := ⟨"", "h", [], [⟨"X", MessageType.Menu, [1]⟩, ⟨"a", MessageType.Action, []⟩], [0],
      []⟩ }

end Examples

end Aec
namespace Aec

/-- Some entry of the array has the index `x` among its child indexes. -/
def Refd (layouts : List ActionLayoutEntryMessage) (x : Nat) : Prop :=
  ∃ (i : Nat) (entry : ActionLayoutEntryMessage),
    layouts[i]? = some entry ∧ x ∈ entry.childIndexes

/-- Every child index is a valid index into the array. -/
def ValidArena (layouts : List ActionLayoutEntryMessage) : Prop :=
  ∀ x, Refd layouts x → x < layouts.length

/-- The function `h` ranks the entries: every child has a smaller rank than its parent, so a
traversal along child indexes from an entry `i` takes at most `h i` steps downwards. -/
def Ranked (layouts : List ActionLayoutEntryMessage) (h : Nat → Nat) : Prop :=
  ∀ (i : Nat) (entry : ActionLayoutEntryMessage),
    layouts[i]? = some entry → ∀ c ∈ entry.childIndexes, h c < h i

/-- How the array of entries changes between two states of the compilation: entries are
appended, the new child indexes refer to entries that were referred to before or to new
entries, and a ranking of the old array gives a ranking of the new one. -/
structure ArenaStep (l l1 : List ActionLayoutEntryMessage) : Prop where
  grow : ∃ new, l1 = l ++ new
  refs : ∀ x, Refd l1 x → Refd l x ∨ (l.length < x ∧ x < l1.length)
  rank : ValidArena l → (∃ h, Ranked l h) → ∃ h1, Ranked l1 h1

end Aec

namespace Aec.Examples

/-- The record compiled from `plainChain`. -/
def plainChainRecord : ActionExtensionMessage :=
  { version := ""
    hash := "h"
    objects :=
      [⟨"Y", MessageType.Menu, MessageMode.Plain, "Y", "", [], ["X", "Y"], "menu"⟩,
       ⟨"X", MessageType.Menu, MessageMode.Unique, "X", "", [], ["X"], "menu"⟩]
    layouts :=
      [⟨"X", MessageType.Menu, [1]⟩, ⟨"Y", MessageType.Menu, []⟩, ⟨"Y", MessageType.Menu, [3]⟩,
       ⟨"X", MessageType.Menu, [1]⟩]
    layoutRootIndexes := [0, 2]
    buildRoutines := [] }

end Aec.Examples
namespace Core

/-! ## Icons: `addIcon`, `removeIcon`, `addIconConfiguration`, `flushIcons`, `icon`

The header `actiondomain_p.h` is not among the sources, so the types of the members `iconChange`
and `iconStorage` of `ActionDomainPrivate` are read off their uses in `actiondomain.cpp`:
`iconChange.items` is a `QMChronoMap` from a key list to a `std::variant` of a single change and
a configuration change, `iconStorage.singles` and `iconStorage.storage` map a theme to a map from
id to path, `iconStorage.configFiles` maps a file name to such a map, and `iconStorage.items` is a
`QMChronoSet` of key lists. What `QFileInfo` and the configuration parser read from the disk is
the parameter `IconFiles`. -/

/-- The type `QHash<QString, QHash<QString, QString>>`: theme, id, path. -/
abbrev IconMap := List (String × List (String × String))

namespace IconMap

/-- The call `map.value(theme).value(id)`: the path, or the empty string when there is none. -/
def path (m : IconMap) (theme id : String) : String :=
  (((List.lookup theme m).getD []).lookup id).getD ""

/-- The entry of `(theme, id)`, when there is one. -/
def find (m : IconMap) (theme id : String) : Option String :=
  ((List.lookup theme m).getD []).lookup id

/-- The assignment `map[theme][id] = path`. -/
def set (m : IconMap) (theme id path : String) : IconMap :=
  QHash.insert m theme (QHash.insert ((List.lookup theme m).getD []) id path)

end IconMap

/-- What the disk says: `QFileInfo(fileName).isFile()`, `QFileInfo(fileName).canonicalFilePath()`
and the result of `IconConfigParser{fileName, {}}.parse()`, `none` when that call does not
return. -/
structure IconFiles where
  isFile : String → Bool
  canonicalFilePath : String → String
  parse : String → Option IconMap

/-- The alternatives `IconChange::Single` and `IconChange::Config` of an entry of
`iconChange.items`. -/
inductive IconChange where
  | single (theme id fileName : String) (remove : Bool)
  | config (fileName : String) (remove : Bool)
  deriving DecidableEq

/-- The member `iconStorage`. -/
structure IconStorage where
  singles : IconMap
  configFiles : List (String × IconMap)
  items : List (List String)
  storage : IconMap

/-- The members `iconChange.items` and `iconStorage` of `ActionDomainPrivate`. -/
structure Icons where
  changes : List (List String × IconChange)
  iconStorage : IconStorage

/-- The members of a freshly constructed `ActionDomainPrivate`. -/
def Icons.init : Icons := ⟨[], ⟨[], [], [], []⟩⟩

/-- The calls `items.remove(keys); items.append(keys, item)` on `iconChange.items`. -/
def IconChange.replace (items : List (List String × IconChange)) (keys : List String)
    (item : IconChange) : List (List String × IconChange) :=
  items.filter (fun c => c.1 ≠ keys) ++ [(keys, item)]

namespace ActionDomain

/-- The function `ActionDomain::addIcon`. -/
def addIcon (fs : IconFiles) (d : Icons) (theme id fileName : String) : Icons :=
  if ¬ fs.isFile fileName = true then d
  else
    { d with changes :=
        IconChange.replace d.changes [theme, id] (IconChange.single theme id fileName false) }

/-- The function `ActionDomain::addIconConfiguration`. -/
def addIconConfiguration (fs : IconFiles) (d : Icons) (fileName : String) : Icons :=
  if ¬ fs.isFile fileName = true then d
  else
    { d with changes :=
        IconChange.replace d.changes [fileName] (IconChange.config fileName false) }

/-- The function `ActionDomain::removeIcon`. -/
def removeIcon (d : Icons) (theme id : String) : Icons :=
  { d with changes :=
      IconChange.replace d.changes [theme, id] (IconChange.single theme id "" true) }

/-- The function `ActionDomain::removeIconConfiguration`. -/
def removeIconConfiguration (d : Icons) (fileName : String) : Icons :=
  { d with changes :=
      IconChange.replace d.changes [fileName] (IconChange.config fileName true) }

end ActionDomain

namespace ActionDomainPrivate

/-- The body of the loop over the changes in `flushIcons`, for one change; `none` when the
configuration parser does not return. -/
def flushIcons.change (fs : IconFiles) (s : IconStorage) : IconChange → Option IconStorage
  | IconChange.single theme id fileName remove =>
    if remove = true then
      match List.lookup theme s.singles with
      | none => some s
      | some map0 =>
        if (map0.lookup id).isSome then
          some { s with
            singles :=
              (if (map0.filter (fun e => e.1 ≠ id)).isEmpty then
                s.singles.filter (fun e => e.1 ≠ theme)
              else QHash.insert s.singles theme (map0.filter (fun e => e.1 ≠ id)))
            items := QSet.remove s.items [theme, id] }
        else some s
    else if fs.isFile fileName = true then
      some { s with
        singles := IconMap.set s.singles theme id (fs.canonicalFilePath fileName)
        items := QSet.remove s.items [theme, id] ++ [[theme, id]] }
    else some s
  | IconChange.config fileName remove =>
    if remove = true then
      if (s.configFiles.lookup fileName).isSome then
        some { s with
          configFiles := s.configFiles.filter (fun e => e.1 ≠ fileName)
          items := QSet.remove s.items [fileName] }
      else some s
    else
      match fs.parse fileName with
      | none => none
      | some iconsFromFile =>
        if ¬ iconsFromFile.isEmpty = true then
          some { s with
            configFiles := QHash.insert s.configFiles fileName ([] : IconMap)
            items := QSet.remove s.items [fileName] ++ [[fileName]] }
        else some s

/-- The loop `for (const auto &c : changes)` of `flushIcons`. -/
def flushIcons.changes (fs : IconFiles) :
    List (List String × IconChange) → IconStorage → Option IconStorage
  | [], s => some s
  | c :: rest, s =>
    match flushIcons.change fs s c.2 with
    | none => none
    | some s1 => flushIcons.changes fs rest s1

/-- The two inner loops of "Build map" for the map of one configuration file: every theme of the
file gets an entry in `map`, into which the icons of the theme are inserted. -/
def flushIcons.merge (map configMap : IconMap) : IconMap :=
  List.foldl
    (fun (m : IconMap) (theme : String × List (String × String)) =>
      QHash.insert m theme.1
        (theme.2.foldl (fun target icon => QHash.insert target icon.1 icon.2)
          ((List.lookup theme.1 m).getD [])))
    map configMap

/-- The part "Build map" of `flushIcons`: `storage` is cleared and filled again from `items`, in
their order. A key list of one element is a configuration file, a longer one is a single icon
(`keys[0]` and `keys[1]`); an empty key list never occurs. -/
def flushIcons.build (s : IconStorage) : IconMap :=
  List.foldl
    (fun (map : IconMap) (keys : List String) =>
      match keys with
      | [] => map
      | [k0] => flushIcons.merge map ((s.configFiles.lookup k0).getD ([] : IconMap))
      | k0 :: k1 :: _ => IconMap.set map k0 k1 (IconMap.path s.singles k0 k1))
    ([] : IconMap) s.items

/-- The function `ActionDomainPrivate::flushIcons`; `none` when it does not return. -/
def flushIcons (fs : IconFiles) (d : Icons) : Option Icons :=
  if d.changes.isEmpty then some d
  else
    match flushIcons.changes fs d.changes d.iconStorage with
    | none => none
    | some s => some { changes := [], iconStorage := { s with storage := flushIcons.build s } }

end ActionDomainPrivate

/-- A `QIcon`, as far as `icon` distinguishes icons: the file it was made from. The default
constructed icon has no file. -/
structure QIcon where
  fileName : String
  deriving DecidableEq

/-- The function `QIcon::isNull`: `QIcon(fileName)` adds the file unless the name is empty, and
an icon with a file is not null. -/
def QIcon.isNull (icon : QIcon) : Bool :=
  icon.fileName = ""

namespace ActionDomain

/-- The function `ActionDomain::iconThemes`: the themes and the state after the flush. -/
def iconThemes (fs : IconFiles) (d : Icons) : Option (List String × Icons) :=
  match ActionDomainPrivate.flushIcons fs d with
  | none => none
  | some d1 => some (List.map Prod.fst d1.iconStorage.storage, d1)

/-- The function `ActionDomain::iconIds`. -/
def iconIds (fs : IconFiles) (d : Icons) (theme : String) : Option (List String × Icons) :=
  match ActionDomainPrivate.flushIcons fs d with
  | none => none
  | some d1 =>
    some (List.map Prod.fst ((List.lookup theme d1.iconStorage.storage).getD []), d1)

/-- The function `ActionDomain::icon(theme, iconId)`: the icon and the state after the flush. -/
def icon (fs : IconFiles) (d : Icons) (theme iconId : String) : Option (QIcon × Icons) :=
  match ActionDomainPrivate.flushIcons fs d with
  | none => none
  | some d1 =>
    if ¬ (QIcon.mk (IconMap.path d1.iconStorage.storage theme iconId)).isNull = true then
      some (⟨""⟩, d1)
    else some (⟨IconMap.path d1.iconStorage.storage "" iconId⟩, d1)

end ActionDomain

namespace Examples

/-- A disk on which the names under `/icons/` are files with themselves as canonical path, and
on which the configuration `/icons/dark.xml` parses to the theme `dark` with the icon `open`;
every other configuration parses to the empty map. -/
def iconDisk : IconFiles :=
  { isFile := fun f => "/icons/".data.isPrefixOf f.data
    canonicalFilePath := fun f => f
    parse := fun f =>
      if f = "/icons/dark.xml" then some [("dark", [("open", "/icons/dark/open.svg")])]
      else some [] }

end Examples

end Core
namespace Core

/-- A call of `addIcon` with a file name or of `removeIcon`, for a theme and an id that are
fixed. -/
inductive IconCall where
  | add (fileName : String)
  | remove
  deriving DecidableEq

namespace IconCall

/-- The call changes something: `addIcon` returns at once for a name that is no file. -/
def accepted (fs : IconFiles) : IconCall → Bool
  | add fileName => fs.isFile fileName
  | remove => true

/-- The entry that an accepted call leaves in `iconChange.items`. -/
def change (theme id : String) : IconCall → IconChange
  | add fileName => IconChange.single theme id fileName false
  | remove => IconChange.single theme id "" true

/-- The call made on the state `d`. -/
def run (fs : IconFiles) (theme id : String) (d : Icons) : IconCall → Icons
  | add fileName => ActionDomain.addIcon fs d theme id fileName
  | remove => ActionDomain.removeIcon d theme id

end IconCall

/-- A sequence of calls of `addIcon` and `removeIcon` for one theme and id. -/
def runIconCalls (fs : IconFiles) (theme id : String) (calls : List IconCall) (d : Icons) : Icons :=
  calls.foldl (IconCall.run fs theme id) d

/-- The last call of the sequence that was accepted. -/
def lastAccepted (fs : IconFiles) (calls : List IconCall) : Option IconCall :=
  (calls.filter (IconCall.accepted fs)).getLast?

end Core
namespace Core

/-! ## Materialization: `ActionDomainPrivate::buildLayoutsRecursively`

The controls are Qt widgets. A widget is identified by where it comes from: the standalone
widget of an action item, or the n-th menu made by a menu factory during the build. What a
control holds is the list of the actions added to it, in order. The class `ActionItem` is not
among the sources (only `ActionItem_p.h` is); its accessors are taken by their names:
`isAction()`, `isWidget()`, `isMenu()` and `isStandalone()` test the type of the item,
`standalone()` is the widget of a standalone item and null otherwise, and `requestMenu(parent)`
returns a new menu or null. -/

/-- A `QWidget *` that is not null. -/
inductive Widget where
  | standalone (itemId : String)
  | created (n : Nat)
  deriving DecidableEq, Repr

/-- An action in the list `QWidget::actions()` of a control. -/
inductive MenuEntry where
  | action (id : String)
  | widgetAction (id : String)
  | menuAction (menu : Widget)
  | separator
  | stretch
  deriving DecidableEq, Repr

/-- The enum `ActionItem::Type`. -/
inductive ActionItemType where
  | Action
  | Widget
  | Menu
  | Standalone
  deriving DecidableEq, Repr

/-- An `ActionItem` of the window: `standaloneIsMenu` says whether
`qobject_cast<QMenu *>(standalone())` succeeds, `menuFactory` whether `requestMenu(parent)`
returns a menu. -/
structure ActionItem where
  id : String
  type : ActionItemType
  standaloneIsMenu : Bool
  menuFactory : Bool
  deriving DecidableEq, Repr

/-- What `buildLayoutsRecursively` reads and does not change: the argument `itemMap`, the member
`objectInfoMap`, and whether `sharedMenuItem->requestMenu(parent)` returns a menu. -/
structure BuildContext where
  itemMap : List (String × ActionItem × ActionObjectInfo)
  objectInfoMap : ObjectInfoMap
  sharedMenuFactory : Bool

/-- The enumerator `Action` of the local `enum LastMenuItem`: the first one, so its value is the
default `0` that `QHash<QWidget *, int>::value` returns for a control without entry. -/
def LastMenuItem.Action : Nat := 0

/-- The enumerator `Separator` of the local `enum LastMenuItem`. -/
def LastMenuItem.Separator : Nat := 1

/-- The enumerator `Stretch` of the local `enum LastMenuItem`. -/
def LastMenuItem.Stretch : Nat := 2

/-- What `buildLayoutsRecursively` changes: the actions of the controls, the arguments
`lastMenuItems`, `autoCreatedStandaloneMenus` and `standaloneLayouts`, and the number of menus
the factories have made. -/
structure BuildState where
  actions : List (Widget × List MenuEntry)
  lastMenuItems : List (Widget × Nat)
  autoCreatedStandaloneMenus : List (String × Widget)
  standaloneLayouts : List (String × ActionLayout)
  created : Nat

namespace BuildState

/-- The state at the start of `buildLayouts`: empty controls and empty maps. -/
def init : BuildState := ⟨[], [], [], [], 0⟩

/-- The assignment `map[key] = value` on a map keyed by widgets (the order of a `QHash` is
not specified; the entry written last is kept in front). -/
def put {β : Type} (m : List (Widget × β)) (key : Widget) (v : β) : List (Widget × β) :=
  (key, v) :: m.filter (fun p => p.1 ≠ key)

/-- The list `w->actions()`. -/
def actionsOf (st : BuildState) (w : Widget) : List MenuEntry :=
  (st.actions.lookup w).getD []

/-- The call `lastMenuItems.value(parent)`: `0` for a control without entry. -/
def lastMenuItem (st : BuildState) (w : Widget) : Nat :=
  (st.lastMenuItems.lookup w).getD 0

/-- The statements `parent->addAction(a); lastMenuItems[parent] = Action;`. -/
def addAction (st : BuildState) (parent : Widget) (a : MenuEntry) : BuildState :=
  { st with
    actions := put st.actions parent (st.actionsOf parent ++ [a])
    lastMenuItems := put st.lastMenuItems parent LastMenuItem.Action }

/-- The case `ActionLayoutInfo::Separator` for a parent that is not null. -/
def addSeparator (st : BuildState) (parent : Widget) : BuildState :=
  if st.lastMenuItem parent = LastMenuItem.Action then
    { st with
      actions := put st.actions parent (st.actionsOf parent ++ [MenuEntry.separator])
      lastMenuItems := put st.lastMenuItems parent LastMenuItem.Separator }
  else st

/-- The case `ActionLayoutInfo::Stretch` for a parent that is not null: after a separator the
last action of the control is removed first. -/
def addStretch (st : BuildState) (parent : Widget) : BuildState :=
  if st.lastMenuItem parent = LastMenuItem.Action then
    { st with
      actions := put st.actions parent (st.actionsOf parent ++ [MenuEntry.stretch])
      lastMenuItems := put st.lastMenuItems parent LastMenuItem.Stretch }
  else if st.lastMenuItem parent = LastMenuItem.Separator then
    { st with
      actions := put st.actions parent ((st.actionsOf parent).dropLast ++ [MenuEntry.stretch])
      lastMenuItems := put st.lastMenuItems parent LastMenuItem.Stretch }
  else st

/-- A call of `requestMenu(parent)` that returns a menu: the new menu and the state. -/
def newMenu (st : BuildState) : Widget × BuildState :=
  (Widget.created st.created, { st with created := st.created + 1 })

end BuildState

namespace ActionDomainPrivate

/-- A loop `for (childLayoutItem : children) buildLayoutsRecursively(childLayoutItem, parent,
...)`; `recurse` is the recursive call. -/
def buildLayoutsRecursively.children
    (recurse : ActionLayout → Option Widget → BuildState → Option BuildState)
    (parent : Option Widget) : List ActionLayout → BuildState → Option BuildState
  | [], st => some st
  | c :: cs, st =>
    match recurse c parent st with
    | none => none
    | some st1 => buildLayoutsRecursively.children recurse parent cs st1

/-- The `case ActionLayoutInfo::Action`. -/
def buildLayoutsRecursively.action (ctx : BuildContext) (layout : ActionLayout)
    (parent : Option Widget) (st : BuildState) : Option BuildState :=
  match parent with
  | none => some st
  | some w =>
    match ctx.itemMap.lookup layout.id with
    | none => some st
    | some (actionItem, info) =>
      if info.type ≠ ActionObjectType.Action then some st
      else if actionItem.type = ActionItemType.Action then
        some (st.addAction w (MenuEntry.action layout.id))
      else if actionItem.type = ActionItemType.Widget then
        some (st.addAction w (MenuEntry.widgetAction layout.id))
      else some st

/-- The `case ActionLayoutInfo::ExpandedMenu`. -/
def buildLayoutsRecursively.expandedMenu (ctx : BuildContext)
    (recurse : ActionLayout → Option Widget → BuildState → Option BuildState)
    (layout : ActionLayout) (parent : Option Widget) (st : BuildState) : Option BuildState :=
  match parent with
  | none => some st
  | some w =>
    match ctx.objectInfoMap.lookup layout.id with
    | none => some st
    | some info =>
      if info.type ≠ ActionObjectType.Menu then some st
      else if info.mode ≠ ActionObjectMode.Plain then
        match st.standaloneLayouts.lookup layout.id with
        | some cached => buildLayoutsRecursively.children recurse (some w) cached.children st
        | none =>
          match ctx.itemMap.lookup layout.id with
          | some (actionItem, _) =>
            match buildLayoutsRecursively.children recurse
                (if actionItem.type = ActionItemType.Standalone then
                  some (Widget.standalone actionItem.id)
                else none)
                layout.children st with
            | none => none
            | some st1 =>
              buildLayoutsRecursively.children recurse (some w) layout.children
                { st1 with
                  standaloneLayouts := QHash.insert st1.standaloneLayouts layout.id layout }
          | none =>
            match st.autoCreatedStandaloneMenus.lookup layout.id with
            | some menu =>
              match buildLayoutsRecursively.children recurse (some menu) layout.children st with
              | none => none
              | some st1 =>
                buildLayoutsRecursively.children recurse (some w) layout.children
                  { st1 with
                    standaloneLayouts := QHash.insert st1.standaloneLayouts layout.id layout }
            | none =>
              if ctx.sharedMenuFactory = false then some st
              else
                match buildLayoutsRecursively.children recurse (some st.newMenu.1)
                    layout.children
                    { st.newMenu.2 with
                      autoCreatedStandaloneMenus :=
                        QHash.insert st.autoCreatedStandaloneMenus layout.id st.newMenu.1 } with
                | none => none
                | some st1 =>
                  buildLayoutsRecursively.children recurse (some w) layout.children
                    { st1 with
                      standaloneLayouts := QHash.insert st1.standaloneLayouts layout.id layout }
      else buildLayoutsRecursively.children recurse (some w) layout.children st

/-- The `case ActionLayoutInfo::Group`. -/
def buildLayoutsRecursively.group (ctx : BuildContext)
    (recurse : ActionLayout → Option Widget → BuildState → Option BuildState)
    (layout : ActionLayout) (parent : Option Widget) (st : BuildState) : Option BuildState :=
  match parent with
  | none => some st
  | some w =>
    match ctx.objectInfoMap.lookup layout.id with
    | none => some st
    | some info =>
      if info.type ≠ ActionObjectType.Group then some st
      else if info.mode ≠ ActionObjectMode.Plain then
        match st.standaloneLayouts.lookup layout.id with
        | some cached => buildLayoutsRecursively.children recurse (some w) cached.children st
        | none =>
          buildLayoutsRecursively.children recurse (some w) layout.children
            { st with standaloneLayouts := QHash.insert st.standaloneLayouts layout.id layout }
      else buildLayoutsRecursively.children recurse (some w) layout.children st

/-- How the `case ActionLayoutInfo::Menu` goes on after its first part: with a `break`, or with
the loop over the children for the control `nextParent`. -/
inductive MenuCase where
  | stop (st : BuildState)
  | descend (nextParent : Widget) (st : BuildState)

/-- The `case ActionLayoutInfo::Menu` up to the loop over the children. -/
def buildLayoutsRecursively.menu (ctx : BuildContext) (layout : ActionLayout)
    (parent : Option Widget) (st : BuildState) : MenuCase :=
  match ctx.itemMap.lookup layout.id with
  | none =>
    match parent with
    | none => MenuCase.stop st
    | some w =>
      match ctx.objectInfoMap.lookup layout.id with
      | none => MenuCase.stop st
      | some info =>
        if info.type ≠ ActionObjectType.Menu then MenuCase.stop st
        else if info.mode ≠ ActionObjectMode.Plain then
          match st.autoCreatedStandaloneMenus.lookup layout.id with
          | some menu => MenuCase.stop (st.addAction w (MenuEntry.menuAction menu))
          | none =>
            if ctx.sharedMenuFactory = false then MenuCase.stop st
            else
              MenuCase.descend st.newMenu.1
                (({ st.newMenu.2 with
                  autoCreatedStandaloneMenus :=
                    QHash.insert st.autoCreatedStandaloneMenus layout.id st.newMenu.1 }).addAction
                  w (MenuEntry.menuAction st.newMenu.1))
        else if ctx.sharedMenuFactory = false then MenuCase.stop st
        else
          MenuCase.descend st.newMenu.1
            (st.newMenu.2.addAction w (MenuEntry.menuAction st.newMenu.1))
  | some (actionItem, info) =>
    if info.type ≠ ActionObjectType.Menu then MenuCase.stop st
    else if actionItem.type = ActionItemType.Standalone then
      (fun (st1 : BuildState) =>
        if (st1.standaloneLayouts.lookup layout.id).isSome then MenuCase.stop st1
        else
          MenuCase.descend (Widget.standalone actionItem.id)
            { st1 with
              standaloneLayouts := QHash.insert st1.standaloneLayouts layout.id layout })
        (match parent with
          | some w =>
            if actionItem.standaloneIsMenu = true then
              st.addAction w (MenuEntry.menuAction (Widget.standalone actionItem.id))
            else st
          | none => st)
    else if actionItem.type = ActionItemType.Menu then
      match parent with
      | none => MenuCase.stop st
      | some w =>
        if actionItem.menuFactory = false then MenuCase.stop st
        else
          MenuCase.descend st.newMenu.1
            (st.newMenu.2.addAction w (MenuEntry.menuAction st.newMenu.1))
    else MenuCase.stop st

/-- The body of `buildLayoutsRecursively`; `recurse` is the recursive call. `none` stands for a
run that does not return: a recursion that does not end, or the dereference of a null parent in
the cases `Separator` and `Stretch`. -/
def buildLayoutsRecursively.step (ctx : BuildContext)
    (recurse : ActionLayout → Option Widget → BuildState → Option BuildState)
    (layout : ActionLayout) (parent : Option Widget) (st : BuildState) : Option BuildState :=
  match layout.type with
  | ActionLayoutType.Action => buildLayoutsRecursively.action ctx layout parent st
  | ActionLayoutType.ExpandedMenu =>
    buildLayoutsRecursively.expandedMenu ctx recurse layout parent st
  | ActionLayoutType.Group => buildLayoutsRecursively.group ctx recurse layout parent st
  | ActionLayoutType.Menu =>
    match buildLayoutsRecursively.menu ctx layout parent st with
    | MenuCase.stop st1 => some st1
    | MenuCase.descend nextParent st1 =>
      buildLayoutsRecursively.children recurse (some nextParent) layout.children st1
  | ActionLayoutType.Separator =>
    match parent with
    | none => none
    | some w => some (st.addSeparator w)
  | ActionLayoutType.Stretch =>
    match parent with
    | none => none
    | some w => some (st.addStretch w)

/-- The function `ActionDomainPrivate::buildLayoutsRecursively`, with fuel for the depth of the
recursion. -/
def buildLayoutsRecursively (ctx : BuildContext) :
    Nat → ActionLayout → Option Widget → BuildState → Option BuildState
  | 0 => fun _ _ _ => none
  | fuel + 1 => buildLayoutsRecursively.step ctx (buildLayoutsRecursively ctx fuel)

end ActionDomainPrivate

namespace Examples

/-- A window with the standalone tool bar `tb` and the action `a`. -/
def toolBarContext : BuildContext :=
  { itemMap :=
      [("tb", ⟨"tb", ActionItemType.Standalone, false, false⟩,
          ⟨"tb", ActionObjectType.Menu, ActionObjectMode.TopLevel, ["tb"]⟩),
       ("a", ⟨"a", ActionItemType.Action, false, false⟩,
          ⟨"a", ActionObjectType.Action, ActionObjectMode.Plain, ["tb", "a"]⟩)]
    objectInfoMap :=
      [("tb", ⟨"tb", ActionObjectType.Menu, ActionObjectMode.TopLevel, ["tb"]⟩),
       ("a", ⟨"a", ActionObjectType.Action, ActionObjectMode.Plain, ["tb", "a"]⟩)]
    sharedMenuFactory := true }

/-- The composed layout of the tool bar `tb`: a separator, the action `a`, two separators and
the action `a` again. -/
def toolBarLayout : ActionLayout :=
  .mk "tb" ActionLayoutType.Menu
    [.mk "" ActionLayoutType.Separator [], .mk "a" ActionLayoutType.Action [],
     .mk "" ActionLayoutType.Separator [], .mk "" ActionLayoutType.Separator [],
     .mk "a" ActionLayoutType.Action []]

end Examples

end Core

namespace Core

/-- No separator of the list comes immediately after another separator. -/
def NoAdjacentSeparators (entries : List MenuEntry) : Prop :=
  List.Chain' (fun a b => ¬ (a = MenuEntry.separator ∧ b = MenuEntry.separator)) entries

/-- What the build keeps true of every control: no separator follows a separator, and a control
whose last recorded item is `Action` does not end with a separator. -/
def BuildState.SeparatorsKept (st : BuildState) : Prop :=
  ∀ w, NoAdjacentSeparators (st.actionsOf w) ∧
    (st.lastMenuItem w = LastMenuItem.Action →
      (st.actionsOf w).getLast? ≠ some MenuEntry.separator)

end Core
namespace Core

/-- The nodes of a composed tree: the tree itself and every node below it. -/
def ActionLayout.nodes : ActionLayout → List ActionLayout
  | .mk id type children => .mk id type children :: nodesList children
where
  /-- The nodes of a composed forest. -/
  nodesList : List ActionLayout → List ActionLayout
  | [] => []
  | c :: cs => nodes c ++ nodesList cs

/-- Every Separator node of the tree is the value `sharedSeparator` and every Stretch node is
the value `sharedStretch`. -/
def ActionLayout.SharedEnds (t : ActionLayout) : Prop :=
  ∀ n ∈ t.nodes,
    (n.type = ActionLayoutType.Separator → n = LayoutsHelper.sharedSeparator) ∧
    (n.type = ActionLayoutType.Stretch → n = LayoutsHelper.sharedStretch)

namespace Examples

/-- An extension whose layout of the menu `file` declares a separator with the id `line` and a
child, and a stretch with the id `gap` and a child. -/
def decoratedExt : ActionExtension :=
  ⟨"hashD", [fileInfo, openInfo],
    [.mk "file" ActionLayoutType.Menu
      [.mk "open" ActionLayoutType.Action [],
       .mk "line" ActionLayoutType.Separator [.mk "open" ActionLayoutType.Action []],
       .mk "gap" ActionLayoutType.Stretch [.mk "open" ActionLayoutType.Action []]]], []⟩

/-- A persisted document whose `separator` and `stretch` elements carry an `id` attribute and
a child element. -/
def decoratedDocument : QMXmlAdaptorElement :=
  .mk "actionDomain" [] ""
    [.mk "extensions" [] "" [.mk "extension" [("hash", "hashD")] "" []],
     .mk "layouts" [] ""
       [.mk "menu" [("id", "file")] ""
         [.mk "action" [("id", "open")] "" [],
          .mk "separator" [("id", "open")] "" [.mk "action" [("id", "open")] "" []],
          .mk "stretch" [("id", "open")] "" [.mk "action" [("id", "open")] "" []]]]]

end Examples
end Core
namespace Core
namespace TopologicalSorter

/-- The sorter after the calls `addEdge(u, v)` for the pairs of `edges`, in their order, on a
freshly constructed sorter. -/
def addEdges (edges : List (String × String)) : TopologicalSorter :=
  edges.foldl (fun s e => s.addEdge e.1 e.2) empty

/-- The directed graph of the edges contains a cycle: some node reaches itself along one or more
edges (a self-loop is the case of one edge). -/
def HasCycle (edges : List (String × String)) : Prop :=
  ∃ u, Relation.TransGen (fun a b => (a, b) ∈ edges) u u

/-- The node `u` occurs before the node `v` in the list. -/
def OccursBefore (l : List String) (u v : String) : Prop :=
  ∃ a b c, l = a ++ u :: b ++ v :: c

/-- The invariant of the loop of `sort` that carries the order of the result: every key whose
in-degree is zero is waiting or sorted, every node of `sorted` comes after all the sources of
its edges, and every key of `graph` is a key of `inDegree`. -/
structure OrderInv (queue : List String)
    (st : List (String × List String) × List (String × Int) × List String) : Prop where
  complete : ∀ v ∈ st.2.1.map Prod.fst, QMap.value st.2.1 v 0 = 0 → v ∈ queue ++ st.2.2
  ordered : ∀ s1 v s2, st.2.2 = s1 ++ v :: s2 → ∀ u, v ∈ QMap.value st.1 u [] → u ∈ s1
  covered : ∀ u ∈ st.1.map Prod.fst, u ∈ st.2.1.map Prod.fst

end TopologicalSorter

namespace Examples

/-- The edges `a -> b`, `b -> c`, `a -> c`, with the first one added twice. -/
def chainEdges : List (String × String) := [("a", "b"), ("b", "c"), ("a", "b"), ("a", "c")]

/-- The edges `a -> b`, `b -> a`, and `c -> d` beside the cycle. -/
def loopEdges : List (String × String) := [("a", "b"), ("b", "a"), ("c", "d")]

end Examples
end Core
namespace Core
namespace Examples

/-- The group `recentFiles`, a Unique group, as the compiler emits every group. -/
def recentFilesInfo : ActionObjectInfo :=
  ⟨"recentFiles", ActionObjectType.Group, ActionObjectMode.Unique, ["File", "Recent Files"]⟩

/-- The group `pinnedFiles`, a Unique group. -/
def pinnedFilesInfo : ActionObjectInfo :=
  ⟨"pinnedFiles", ActionObjectType.Group, ActionObjectMode.Unique, ["File", "Pinned Files"]⟩

/-- The registry holding the two standalone groups. -/
def groupRegistry : ObjectInfoMap :=
  [("recentFiles", recentFilesInfo), ("pinnedFiles", pinnedFilesInfo)]

/-- The forest `recentFiles[pinnedFiles]`, `pinnedFiles[recentFiles]`: the two standalone groups
nest each other. -/
def groupCycleForest : List ActionLayout :=
  [.mk "recentFiles" ActionLayoutType.Group [.mk "pinnedFiles" ActionLayoutType.Group []],
   .mk "pinnedFiles" ActionLayoutType.Group [.mk "recentFiles" ActionLayoutType.Group []]]

/-- An extension that declares `recentFiles[pinnedFiles]` and `pinnedFiles[recentFiles]`. -/
def groupCycleExt : ActionExtension :=
  ⟨"hashGC", [recentFilesInfo, pinnedFilesInfo],
    [.mk "recentFiles" ActionLayoutType.Group [.mk "pinnedFiles" ActionLayoutType.Group []],
     .mk "pinnedFiles" ActionLayoutType.Group [.mk "recentFiles" ActionLayoutType.Group []]],
    []⟩

end Examples
end Core
namespace Core
namespace Examples

/-- The menu `history`, a Plain menu (declared with `mode="plain"`). -/
def historyInfo : ActionObjectInfo :=
  ⟨"history", ActionObjectType.Menu, ActionObjectMode.Plain, ["File", "History"]⟩

/-- The registry holding the standalone menu `file` and the Plain menu `history`. -/
def historyRegistry : ObjectInfoMap :=
  [("file", fileInfo), ("history", historyInfo)]

/-- An extension that declares `file[history]` and a routine that appends an entry `history`
to the parent `history`. -/
def selfRoutineExt : ActionExtension :=
  ⟨"hashH", [fileInfo, historyInfo],
    [.mk "file" ActionLayoutType.Menu [.mk "history" ActionLayoutType.Menu []]],
    [⟨Anchor.Last, "history", "", [.mk "history" ActionLayoutType.Menu []]⟩]⟩

/-- The arena that the routine of `selfRoutineExt` leaves behind: the entry copied for the item
(index 2) was appended to every occurrence of the parent, itself included. -/
def selfRoutineHeap : List TreeNode :=
  [⟨"history", ActionLayoutType.Menu, [2]⟩, ⟨"file", ActionLayoutType.Menu, [0]⟩,
   ⟨"history", ActionLayoutType.Menu, [2]⟩]

/-- The same extension with a routine that appends an action instead. -/
def plainRoutineExt : ActionExtension :=
  ⟨"hashH", [fileInfo, historyInfo],
    [.mk "file" ActionLayoutType.Menu [.mk "history" ActionLayoutType.Menu []]],
    [⟨Anchor.Last, "history", "", [.mk "open" ActionLayoutType.Action []]⟩]⟩

end Examples
end Core
namespace Core

/-- The registry is consistent: an id is a key of the object map exactly when a registered
extension declares an object with it, and a path is in the set of category paths exactly when
a registered extension declares an object with it. -/
def RegistryConsistent (d : ActionDomainPrivate) : Prop :=
  (∀ id, id ∈ d.objectInfoMap.map Prod.fst ↔
    ∃ ext ∈ d.extensions, ∃ obj ∈ ext.objects, obj.id = id) ∧
  (∀ path, path ∈ d.objectCategories ↔
    ∃ ext ∈ d.extensions, ∃ obj ∈ ext.objects, obj.categories = path)

/-- Every `removeExtension` of the sequence is given a record that is registered when the call
is made. -/
def RemovesRegistered (calls : List RegistryCall) : Prop :=
  ∀ (before : List RegistryCall) (extension : ActionExtension) (after : List RegistryCall),
    calls = before ++ RegistryCall.remove extension :: after →
    extension ∈ (runCalls before).extensions

/-- What holds of the registry after calls that remove registered records only: registered
extensions with the same hash are the same record, the registry is consistent, and two
different registered extensions declare no common id and no common category path. -/
structure RegistryInv (d : ActionDomainPrivate) : Prop where
  hashes : ∀ e1 ∈ d.extensions, ∀ e2 ∈ d.extensions, e1.hash = e2.hash → e1 = e2
  consistent : RegistryConsistent d
  ids : ∀ e1 ∈ d.extensions, ∀ e2 ∈ d.extensions, e1 ≠ e2 →
    ∀ o1 ∈ e1.objects, ∀ o2 ∈ e2.objects, o1.id ≠ o2.id
  paths : ∀ e1 ∈ d.extensions, ∀ e2 ∈ d.extensions, e1 ≠ e2 →
    ∀ o1 ∈ e1.objects, ∀ o2 ∈ e2.objects, o1.categories ≠ o2.categories

namespace Examples

/-- The calls that register extension B (which declares `save`), try to register a second
record that declares `save` again, and remove that second record. -/
def rejectedThenRemoved : List RegistryCall :=
  [RegistryCall.add QHashOrder.insertion (extB Anchor.Last ""),
   RegistryCall.add QHashOrder.insertion secondSaveExt,
   RegistryCall.remove secondSaveExt]

/-- A record with another hash that declares the action `store` under the category path of
`save`, `[File, Save]`. -/
def pathTwinExt : ActionExtension :=
  ⟨"hashT", [⟨"store", ActionObjectType.Action, ActionObjectMode.Plain, ["File", "Save"]⟩], [], []⟩

/-- The calls that register extension B (which declares `save` under `[File, Save]`), try to
register the record with the same path, remove that record, and try to register it again. -/
def rejectedRemovedAdded : List RegistryCall :=
  [RegistryCall.add QHashOrder.insertion (extB Anchor.Last ""),
   RegistryCall.add QHashOrder.insertion pathTwinExt,
   RegistryCall.remove pathTwinExt,
   RegistryCall.add QHashOrder.insertion pathTwinExt]

end Examples
end Core
namespace Aec.Examples

open Core (QMXmlAdaptorElement)

/-- A descriptor that declares the action `open` with `categories="File;Open"`, the action
`save` with `categories="File;"` and the action `quit` with `category="Quit"`. -/
def explicitPaths : QMXmlAdaptorElement :=
  .mk "actionExtension" [] ""
    [.mk "objects" [] ""
      [.mk "action" [("id", "open"), ("categories", "File;Open")] "" [],
       .mk "action" [("id", "save"), ("categories", "File;")] "" [],
       .mk "action" [("id", "quit"), ("category", "Quit")] "" []]]

end Aec.Examples
namespace Core

/-! ## The icon configuration parser: `IconConfigParser`

What `QMXmlAdaptor::load(fileName)` and `QFileInfo(fileName).absolutePath()` read from the disk
is the parameter `IconDocuments`. The argument `fuel` is the number of passes each call of
`parseExpression` may make and `rounds` the number of iterations the work-list loop of `parse`
may make; `none` stands for a call that does not return. -/

/-- What the disk says to the parser: the document `xml.load(fileName)` reads (`none` when the
load fails) and `QFileInfo(fileName).absolutePath()`. -/
structure IconDocuments where
  load : String → Option QMXmlAdaptorElement
  absolutePath : String → String

/-- The call `file.replace(":/", baseDirectory)` of `QString`: the occurrences are replaced from
left to right and do not overlap. -/
def QString.replaceResourceRoot (baseDirectory : List Char) : List Char → List Char
  | [] => []
  | [c] => [c]
  | c1 :: c2 :: t =>
    if c1 = ':' ∧ c2 = '/' then baseDirectory ++ QString.replaceResourceRoot baseDirectory t
    else c1 :: QString.replaceResourceRoot baseDirectory (c2 :: t)

/-- The members of the class `IconConfigParser`; `vars` is the member `variables`. -/
structure IconConfigParser where
  fileName : String
  vars : List (String × String)

namespace IconConfigParser

/-- The function `IconConfigParser::resolve`. -/
def resolve (fuel : Nat) (p : IconConfigParser) (s : String) : Option String :=
  parseExpression fuel s p.vars

/-- The loop over the children of a `vars` element in `parseParserConfig`. -/
def parseParserConfig.vars (fuel : Nat) :
    List QMXmlAdaptorElement → IconConfigParser → Option IconConfigParser
  | [], p => some p
  | subItem :: rest, p =>
    match p.resolve fuel (subItem.property "key") with
    | none => none
    | some key =>
      match p.resolve fuel (subItem.property "value") with
      | none => none
      | some value =>
        parseParserConfig.vars fuel rest
          (if key = "" then p else { p with vars := QHash.insert p.vars key value })

/-- The function `IconConfigParser::parseParserConfig` on the children of the element:
`baseDirectory` is the field of the local `result`, which starts empty. -/
def parseParserConfig (fuel : Nat) :
    List QMXmlAdaptorElement → String → IconConfigParser → Option (String × IconConfigParser)
  | [], baseDirectory, p => some (baseDirectory, p)
  | item :: rest, baseDirectory, p =>
    if item.name = "baseDirectory" then
      match p.resolve fuel item.value with
      | none => none
      | some v => parseParserConfig fuel rest v p
    else if item.name = "vars" then
      match parseParserConfig.vars fuel item.children p with
      | none => none
      | some p1 => parseParserConfig fuel rest baseDirectory p1
    else parseParserConfig fuel rest baseDirectory p

/-- What the first loop of `parse` over the children of the root has gathered. -/
structure Gathered where
  iconsElements : List QMXmlAdaptorElement
  hasParserConfig : Bool
  baseDirectory : String

/-- The first loop of `parse` over the children of the root: `none` when a call does not
return, `some none` for the early `return {}` on a second `parserConfig` element. -/
def parse.gather (fuel : Nat) :
    List QMXmlAdaptorElement → Gathered → IconConfigParser →
      Option (Option (Gathered × IconConfigParser))
  | [], g, p => some (some (g, p))
  | item :: rest, g, p =>
    if item.name = "icons" then
      parse.gather fuel rest { g with iconsElements := g.iconsElements ++ [item] } p
    else if item.name = "parserConfig" then
      if g.hasParserConfig = true then some none
      else
        match parseParserConfig fuel item.children "" p with
        | none => none
        | some (baseDirectory, p1) =>
          parse.gather fuel rest
            { g with hasParserConfig := true, baseDirectory := baseDirectory } p1
    else parse.gather fuel rest g p

/-- The part of the body of the work-list loop that reads the element `e`: an entry is made
when the resolved `id` and the resolved `file` are not empty. -/
def parse.read (fuel : Nat) (p : IconConfigParser) (baseDirectory theme : String)
    (e : QMXmlAdaptorElement) (result : IconMap) : Option IconMap :=
  match p.resolve fuel (e.property "id") with
  | none => none
  | some id =>
    if id = "" then some result
    else
      match p.resolve fuel (e.property "file") with
      | none => none
      | some file =>
        if file = "" then some result
        else
          some (result.set theme id
            (String.mk (QString.replaceResourceRoot baseDirectory.data file.data)))

/-- The loop `while (!stack.empty())` of `parse` for the `icons` element `item`: the front of
the work list is read, and the children of `item` are pushed to its back. -/
def parse.loop (fuel : Nat) (p : IconConfigParser) (baseDirectory theme : String)
    (item : QMXmlAdaptorElement) : Nat → List QMXmlAdaptorElement → IconMap → Option IconMap
  | _, [], result => some result
  | 0, _ :: _, _ => none
  | rounds + 1, e :: stack, result =>
    match parse.read fuel p baseDirectory theme e result with
    | none => none
    | some result1 =>
      parse.loop fuel p baseDirectory theme item rounds (stack ++ item.children) result1

/-- The loop "Get results" of `parse` over the `icons` elements; `result[theme]` makes the entry
of the theme before the work list is read. -/
def parse.icons (fuel rounds : Nat) (p : IconConfigParser) (baseDirectory : String) :
    List QMXmlAdaptorElement → IconMap → Option IconMap
  | [], result => some result
  | item :: rest, result =>
    match parse.loop fuel p baseDirectory (item.property "theme") item rounds item.children
        (QHash.insert result (item.property "theme")
          ((List.lookup (item.property "theme") result).getD [])) with
    | none => none
    | some result1 => parse.icons fuel rounds p baseDirectory rest result1

/-- The function `IconConfigParser::parse`. -/
def parse (disk : IconDocuments) (fuel rounds : Nat) (p : IconConfigParser) : Option IconMap :=
  match disk.load p.fileName with
  | none => some []
  | some root =>
    if root.name ≠ "iconConfiguration" then some []
    else
      match parse.gather fuel root.children ⟨[], false, disk.absolutePath p.fileName⟩ p with
      | none => none
      | some none => some []
      | some (some (g, p1)) => parse.icons fuel rounds p1 g.baseDirectory g.iconsElements []

end IconConfigParser

/-- The disk as `flushIcons` sees it when the configuration files are read by
`IconConfigParser{fileName, {}}.parse()`. -/
def IconDocuments.files (disk : IconDocuments) (isFile : String → Bool)
    (canonicalFilePath : String → String) (fuel rounds : Nat) : IconFiles :=
  { isFile := isFile
    canonicalFilePath := canonicalFilePath
    parse := fun fileName => IconConfigParser.parse disk fuel rounds ⟨fileName, []⟩ }

namespace Examples

/-- The icon configuration `/icons/dark.xml`: one `icons` element of the theme `dark` with the
icon `open`. -/
def darkConfiguration : QMXmlAdaptorElement :=
  .mk "iconConfiguration" [] ""
    [.mk "icons" [("theme", "dark")] ""
      [.mk "icon" [("id", "open"), ("file", ":/dark/open.svg")] "" []]]

/-- An icon configuration whose `icons` element has no child. -/
def emptyConfiguration : QMXmlAdaptorElement :=
  .mk "iconConfiguration" [] "" [.mk "icons" [("theme", "dark")] "" []]

/-- A disk with the two configurations in the directory `/icons`. -/
def iconDocuments : IconDocuments :=
  { load := fun fileName =>
      if fileName = "/icons/dark.xml" then some darkConfiguration
      else if fileName = "/icons/empty.xml" then some emptyConfiguration
      else none
    absolutePath := fun _ => "/icons" }

end Examples
end Core
namespace Aec

/-- The type of an entry agrees with the type of the object it names: an Action entry for an
Action object, a Menu or ExpandedMenu entry for a Menu object, a Group entry for a Group
object. -/
def typeAgrees : MessageType → MessageType → Bool
  | MessageType.Action, MessageType.Action => true
  | MessageType.Menu, MessageType.Menu => true
  | MessageType.Menu, MessageType.ExpandedMenu => true
  | MessageType.Group, MessageType.Group => true
  | _, _ => false

/-- An entry is consistent with a list of objects: an entry with an id names an object of the
list whose type agrees with the type of the entry, an Action, Separator or Stretch entry has no
children, and a Separator or Stretch entry has no id. -/
def EntryConsistent (objects : List ActionObjectInfoMessage) (entry : ActionLayoutEntryMessage) :
    Prop :=
  (entry.id ≠ "" →
    ∃ obj ∈ objects, obj.id = entry.id ∧ typeAgrees obj.type entry.type = true) ∧
  (entry.type = MessageType.Action ∨ entry.type = MessageType.Separator ∨
      entry.type = MessageType.Stretch → entry.childIndexes = []) ∧
  (entry.type = MessageType.Separator ∨ entry.type = MessageType.Stretch → entry.id = "")

/-- A compiled record is consistent: the ids of its objects are pairwise distinct and every
entry of its array is consistent with its objects. -/
def RecordConsistent (r : ActionExtensionMessage) : Prop :=
  (r.objects.map (fun obj => obj.id)).Nodup ∧ ∀ entry ∈ r.layouts, EntryConsistent r.objects entry

/-- An entry of the array during the compilation: a Separator or Stretch without id and
children, or an entry whose id is a key of `objInfoMap` with an object of an agreeing type,
without children when it is an Action. -/
def EntryOk (objInfoMap : List (String × ActionObjectInfoMessage))
    (entry : ActionLayoutEntryMessage) : Prop :=
  (entry.id = "" ∧ (entry.type = MessageType.Separator ∨ entry.type = MessageType.Stretch) ∧
    entry.childIndexes = []) ∨
  (entry.id ≠ "" ∧ ∃ info, objInfoMap.lookup entry.id = some info ∧
    typeAgrees info.type entry.type = true ∧
    (entry.type = MessageType.Action → entry.childIndexes = []))

/-- Every object that `m` holds is still held by `m1` under the same key with the same type. -/
def TypesKept (m m1 : List (String × ActionObjectInfoMessage)) : Prop :=
  ∀ k info, m.lookup k = some info → ∃ info1, m1.lookup k = some info1 ∧ info1.type = info.type

/-- What holds of the state of the parser between two steps of the compilation: the keys of
`objInfoMap` are distinct and not empty, every object is stored under its own id and is an
Action, a Group or a Menu, every entry of the array is well formed, and every sequence key
recorded for an id refers to an entry with that id whose object is not an Action. -/
structure ParserPrivate.Consistent (p : ParserPrivate) : Prop where
  keys : (p.objInfoMap.map Prod.fst).Nodup
  objects : ∀ x ∈ p.objInfoMap, x.2.id = x.1 ∧ x.1 ≠ "" ∧
    (x.2.type = MessageType.Action ∨ x.2.type = MessageType.Group ∨ x.2.type = MessageType.Menu)
  entries : ∀ entry ∈ p.result.layouts, EntryOk p.objInfoMap entry
  seqs : ∀ id seqs, p.objSeqMap.lookup id = some seqs → ∀ s ∈ seqs,
    ∃ entry info, p.result.layouts[s.2]? = some entry ∧ entry.id = id ∧
      p.objInfoMap.lookup id = some info ∧ info.type ≠ MessageType.Action

end Aec

namespace Aec.Examples

open Core (QMXmlAdaptorElement)

/-- A descriptor with declared and undeclared objects, a flat menu, a repeated menu, a
separator, a stretch and a routine. -/
def mixedDescriptor : QMXmlAdaptorElement :=
  .mk "actionExtension" [] ""
    [.mk "objects" [] ""
      [.mk "action" [("id", "open")] "" [], .mk "menu" [("id", "file")] "" []],
     .mk "layouts" [] ""
      [.mk "menuBar" [("id", "bar")] ""
        [.mk "menu" [("id", "file")] ""
          [.mk "action" [("id", "open")] "" [], .mk "separator" [] "" [],
           .mk "group" [("id", "recent")] "" [.mk "action" [("id", "clear")] "" []]],
         .mk "stretch" [] "" [],
         .mk "menu" [("id", "file"), ("flat", "true")] "" []]],
     .mk "buildRoutines" [] ""
      [.mk "buildRoutine" [("parent", "bar"), ("anchor", "last")] ""
        [.mk "menu" [("id", "file")] "" [], .mk "action" [("id", "quit")] "" [],
         .mk "separator" [] "" []]]]

end Aec.Examples
namespace Core
namespace Examples

/-- A registry with the top-level menu `bar`, the Unique menus `file`, `edit` and `view`, the
Plain menu `tools`, the Plain group `recent` and some actions. -/
def selectionRegistry : ObjectInfoMap :=
  [("bar", ⟨"bar", ActionObjectType.Menu, ActionObjectMode.TopLevel, ["Bar"]⟩),
   ("file", ⟨"file", ActionObjectType.Menu, ActionObjectMode.Unique, ["File"]⟩),
   ("edit", ⟨"edit", ActionObjectType.Menu, ActionObjectMode.Unique, ["Edit"]⟩),
   ("view", ⟨"view", ActionObjectType.Menu, ActionObjectMode.Unique, ["View"]⟩),
   ("tools", ⟨"tools", ActionObjectType.Menu, ActionObjectMode.Plain, ["Tools"]⟩),
   ("recent", ⟨"recent", ActionObjectType.Group, ActionObjectMode.Plain, ["Recent"]⟩),
   ("open", ⟨"open", ActionObjectType.Action, ActionObjectMode.Plain, ["Open"]⟩),
   ("copy", ⟨"copy", ActionObjectType.Action, ActionObjectMode.Plain, ["Copy"]⟩)]

/-- An action entry without children. -/
def actionEntry (id : String) : ActionLayoutInfo := .mk id ActionLayoutType.Action []

/-- The first extension of the parent-selection example. It declares the layouts
`bar[file[open], recent]` and `file[recent]`, so that the Unique menu `file` and the Plain group
`recent` both occur twice, and the routines that append `clear` to `recent` and `close` to
`file`. -/
def selectionFirstExt : ActionExtension :=
  ⟨"hash1", [],
    [.mk "bar" ActionLayoutType.Menu
      [.mk "file" ActionLayoutType.Menu [actionEntry "open"],
       .mk "recent" ActionLayoutType.Group []],
     .mk "file" ActionLayoutType.Menu [.mk "recent" ActionLayoutType.Group []]],
    [⟨Anchor.Last, "recent", "", [actionEntry "clear"]⟩,
     ⟨Anchor.Last, "file", "", [actionEntry "close"]⟩]⟩

/-- The second extension of the parent-selection example: two routines that append `save` and
then `quit` to `file`. -/
def selectionSecondExt : ActionExtension :=
  ⟨"hash2", [], [],
    [⟨Anchor.Last, "file", "", [actionEntry "save"]⟩,
     ⟨Anchor.Last, "file", "", [actionEntry "quit"]⟩]⟩

/-- The first extension of the root-collection example. Its first layout has the Plain menu
`tools` at the root; below it are the Unique menu `file` (which holds the Unique menu `edit`),
the unregistered `ghost` (which holds the Unique menu `view`) and the Plain group `recent` with
an action. Its second layout is `bar[file]`. -/
def rootsFirstExt : ActionExtension :=
  ⟨"hash1", [],
    [.mk "tools" ActionLayoutType.Menu
      [.mk "file" ActionLayoutType.Menu
        [actionEntry "open", .mk "edit" ActionLayoutType.Menu [actionEntry "copy"]],
       .mk "ghost" ActionLayoutType.Menu [.mk "view" ActionLayoutType.Menu []],
       .mk "recent" ActionLayoutType.Group [actionEntry "open"]],
     .mk "bar" ActionLayoutType.Menu [.mk "file" ActionLayoutType.Menu []]],
    []⟩

/-- The second extension of the root-collection example: the layout `edit[copy]`. -/
def rootsSecondExt : ActionExtension :=
  ⟨"hash2", [], [.mk "edit" ActionLayoutType.Menu [actionEntry "copy"]], []⟩

end Examples
end Core
namespace Core
namespace ActionLayoutInfo

/-- Reference definition, written directly and not translated from a function of the source:
the composed tree that a declared layout tree stands for when no routine touches it. A Separator
or Stretch entry becomes the value without id and children, every other entry keeps its id, its
type and its children in their order. -/
def composed : ActionLayoutInfo → ActionLayout
  | .mk id type children =>
    if type = ActionLayoutType.Separator ∨ type = ActionLayoutType.Stretch then .mk "" type []
    else .mk id type (composedList children)
where
  /-- The composed trees of a list of declared layout trees. -/
  composedList : List ActionLayoutInfo → List ActionLayout
  | [] => []
  | c :: cs => composed c :: composedList cs

end ActionLayoutInfo
end Core
namespace Core
open LayoutsHelper

theorem findRelative_eq_none (heap : List TreeNode) (rel : String) (cs : List Nat) :
    findRelative heap rel cs = none ↔ ∀ x ∈ cs, idAt heap x ≠ some rel := by
  induction cs with
  | nil => simp [findRelative]
  | cons c cs ih =>
    by_cases h : idAt heap c = some rel
    · simp [findRelative, h]
    · simp [findRelative, h, ih]

theorem findRelative_first (heap : List TreeNode) (rel : String) (pre post : List Nat) (c : Nat)
    (hpre : ∀ x ∈ pre, idAt heap x ≠ some rel) (hc : idAt heap c = some rel) :
    findRelative heap rel (pre ++ c :: post) = some pre.length := by
  induction pre with
  | nil => simp [findRelative, hc]
  | cons a pre ih =>
    have ha : idAt heap a ≠ some rel := hpre a (by simp)
    have := ih (fun x hx => hpre x (by simp [hx]))
    simp [findRelative, ha, this]

theorem applyToParent_self (a : Anchor) (rel : String) (items : List Nat) (heap : List TreeNode)
    (p : Nat) (node : TreeNode) (hp : heap[p]? = some node) :
    (applyToParent a rel items heap p)[p]? =
      some { node with children := spliceChildren heap a rel items node.children } := by
  have hlt : p < heap.length := by
    rcases List.getElem?_eq_some_iff.1 hp with ⟨h, _⟩
    exact h
  simp [applyToParent, hp, List.getElem?_set, hlt]

theorem applyToParent_other (a : Anchor) (rel : String) (items : List Nat) (heap : List TreeNode)
    (p q : Nat) (hq : q ≠ p) : (applyToParent a rel items heap p)[q]? = heap[q]? := by
  unfold applyToParent
  cases h : heap[p]? with
  | none => rfl
  | some node => simp [List.getElem?_set, Ne.symm hq]

theorem applyToParent_length (a : Anchor) (rel : String) (items : List Nat)
    (heap : List TreeNode) (p : Nat) : (applyToParent a rel items heap p).length = heap.length := by
  unfold applyToParent
  cases h : heap[p]? with
  | none => rfl
  | some node => simp

theorem idAt_applyToParent (a : Anchor) (rel : String) (items : List Nat)
    (heap : List TreeNode) (p q : Nat) : idAt (applyToParent a rel items heap p) q = idAt heap q := by
  by_cases hq : q = p
  · subst hq
    cases h : heap[q]? with
    | none => simp [idAt, applyToParent, h]
    | some node => simp [idAt, applyToParent_self a rel items heap q node h, h]
  · simp [idAt, applyToParent_other a rel items heap p q hq]

end Core
namespace Core
open LayoutsHelper

theorem spliceChildren_congr (h1 h2 : List TreeNode) (hid : ∀ q, idAt h1 q = idAt h2 q)
    (a : Anchor) (rel : String) (items cs : List Nat) :
    spliceChildren h1 a rel items cs = spliceChildren h2 a rel items cs := by
  have hf : ∀ l : List Nat, findRelative h1 rel l = findRelative h2 rel l := by
    intro l
    induction l with
    | nil => rfl
    | cons c l ih => simp [findRelative, hid, ih]
  cases a <;> simp [spliceChildren, hf]

theorem foldl_applyToParent (a : Anchor) (rel : String) (items : List Nat) (ps : List Nat) :
    ∀ (heap : List TreeNode), ps.Nodup → ∀ q,
      (ps.foldl (applyToParent a rel items) heap)[q]? =
        if q ∈ ps then
          (heap[q]?).map
            (fun n => { n with children := spliceChildren heap a rel items n.children })
        else heap[q]? := by
  induction ps with
  | nil => intro heap _ q; simp
  | cons p ps ih =>
    intro heap hnd q
    have hnd' := List.nodup_cons.1 hnd
    rw [List.foldl_cons, ih _ hnd'.2 q]
    have hsp : ∀ cs, spliceChildren (applyToParent a rel items heap p) a rel items cs =
        spliceChildren heap a rel items cs :=
      fun cs => spliceChildren_congr _ _ (idAt_applyToParent a rel items heap p) a rel items cs
    by_cases hq : q ∈ ps
    · have hqp : q ≠ p := fun h => hnd'.1 (h ▸ hq)
      simp [hq, hsp, applyToParent_other a rel items heap p q hqp]
    · by_cases hqp : q = p
      · subst hqp
        cases h : heap[q]? with
        | none => simp [hq, applyToParent, h]
        | some node => simp [hq, applyToParent_self a rel items heap q node h]
      · simp [hq, hqp, applyToParent_other a rel items heap p q hqp]

theorem lookup_cons_ite {β : Type} (k k' : String) (v : β) (m : List (String × β)) :
    List.lookup k' ((k, v) :: m) = if k' = k then some v else List.lookup k' m := by
  by_cases h : k' = k
  · simp [List.lookup, h]
  · have : (k' == k) = false := by simpa using h
    simp [List.lookup, h, this]

theorem IdIndexes.lookup_append (m : IdIndexes) (k : String) (i : Nat) (k' : String) :
    (IdIndexes.append m k i).lookup k' =
      if k' = k then some ((m.lookup k).getD [] ++ [i]) else m.lookup k' := by
  induction m with
  | nil =>
    by_cases h : k' = k <;> simp [IdIndexes.append, lookup_cons_ite, h]
  | cons e m ih =>
    obtain ⟨ke, ve⟩ := e
    by_cases hke : ke = k
    · subst hke
      by_cases h : k' = ke <;> simp [IdIndexes.append, lookup_cons_ite, h]
    · by_cases h : k' = k
      · subst h
        simp [IdIndexes.append, lookup_cons_ite, hke, Ne.symm hke, ih]
      · by_cases h2 : k' = ke <;> simp [IdIndexes.append, lookup_cons_ite, hke, h, h2, ih]

theorem isOccurrence_append (heap ext : List TreeNode) (id : String) (i : Nat)
    (hi : i < heap.length) : isOccurrence (heap ++ ext) id i = isOccurrence heap id i := by
  simp [isOccurrence, List.getElem?_append_left hi]

theorem occurrences_snoc (heap : List TreeNode) (n : TreeNode) (id : String) :
    occurrences (heap ++ [n]) id =
      occurrences heap id ++ (if isOccurrence (heap ++ [n]) id heap.length then [heap.length] else []) := by
  unfold occurrences
  rw [List.length_append, List.length_singleton, List.range_succ, List.filter_append]
  congr 1
  · apply List.filter_congr
    intro i hi
    exact isOccurrence_append heap [n] id i (List.mem_range.1 hi)
  · simp [List.filter]
    split <;> simp_all

theorem occurrences_lt (heap : List TreeNode) (id : String) (i : Nat)
    (h : i ∈ occurrences heap id) : i < heap.length := by
  unfold occurrences at h
  exact List.mem_range.1 (List.mem_filter.1 h).1

theorem occurrences_nodup (heap : List TreeNode) (id : String) : (occurrences heap id).Nodup :=
  List.Nodup.filter _ (List.nodup_range _)

end Core
namespace Core
open LayoutsHelper

theorem headAt_append (heap ext : List TreeNode) (i : Nat) (hi : i < heap.length) :
    headAt (heap ++ ext) i = headAt heap i := by
  simp [headAt, List.getElem?_append_left hi]

theorem headAt_snoc (heap : List TreeNode) (n : TreeNode) :
    headAt (heap ++ [n]) heap.length = some (n.id, n.type) := by
  simp [headAt]

theorem idIndexesExact_snoc_plain (heap : List TreeNode) (idx : IdIndexes) (n : TreeNode)
    (hn : n.type = ActionLayoutType.Separator ∨ n.type = ActionLayoutType.Stretch)
    (h : IdIndexesExact heap idx) : IdIndexesExact (heap ++ [n]) idx := by
  intro k
  have : isOccurrence (heap ++ [n]) k heap.length = false := by
    rcases hn with hn | hn <;> simp [isOccurrence, hn]
  rw [occurrences_snoc, this]
  simpa using h k

theorem idIndexesExact_snoc_id (heap : List TreeNode) (idx : IdIndexes) (n : TreeNode)
    (hn : ¬ (n.type = ActionLayoutType.Separator ∨ n.type = ActionLayoutType.Stretch))
    (h : IdIndexesExact heap idx) :
    IdIndexesExact (heap ++ [n]) (IdIndexes.append idx n.id heap.length) := by
  intro k
  rw [occurrences_snoc, IdIndexes.lookup_append]
  have hn' : n.type ≠ ActionLayoutType.Separator ∧ n.type ≠ ActionLayoutType.Stretch := by
    constructor <;> intro h' <;> simp [h'] at hn
  by_cases hk : k = n.id
  · subst hk
    have : isOccurrence (heap ++ [n]) n.id heap.length = true := by
      simp [isOccurrence, hn'.1, hn'.2]
    rw [this, h n.id]
    by_cases ho : occurrences heap n.id = [] <;> simp [ho]
  · have : isOccurrence (heap ++ [n]) k heap.length = false := by
      simp [isOccurrence, Ne.symm hk]
    rw [this]
    simpa [hk] using h k

theorem layoutInfoToLayout_sep (id : String) (type : ActionLayoutType)
    (children : List ActionLayoutInfo) (heap : List TreeNode) (idx : IdIndexes)
    (hs : type = ActionLayoutType.Separator ∨ type = ActionLayoutType.Stretch) :
    layoutInfoToLayout (.mk id type children) heap idx =
      (heap.length, heap ++ [⟨"", type, []⟩], idx) := by
  simp [layoutInfoToLayout, hs]

theorem layoutInfoToLayout_node (id : String) (type : ActionLayoutType)
    (children : List ActionLayoutInfo) (heap : List TreeNode) (idx : IdIndexes)
    (hs : ¬ (type = ActionLayoutType.Separator ∨ type = ActionLayoutType.Stretch)) :
    layoutInfoToLayout (.mk id type children) heap idx =
      ((layoutInfoToLayout.layoutInfoToLayoutList children heap idx).2.1.length,
        (layoutInfoToLayout.layoutInfoToLayoutList children heap idx).2.1 ++
          [⟨id, type, (layoutInfoToLayout.layoutInfoToLayoutList children heap idx).1⟩],
        IdIndexes.append (layoutInfoToLayout.layoutInfoToLayoutList children heap idx).2.2 id
          (layoutInfoToLayout.layoutInfoToLayoutList children heap idx).2.1.length) := by
  simp [layoutInfoToLayout, hs]

theorem layoutInfoToLayoutList_cons (c : ActionLayoutInfo) (cs : List ActionLayoutInfo)
    (heap : List TreeNode) (idx : IdIndexes) :
    layoutInfoToLayout.layoutInfoToLayoutList (c :: cs) heap idx =
      ((layoutInfoToLayout c heap idx).1 ::
          (layoutInfoToLayout.layoutInfoToLayoutList cs (layoutInfoToLayout c heap idx).2.1
            (layoutInfoToLayout c heap idx).2.2).1,
        (layoutInfoToLayout.layoutInfoToLayoutList cs (layoutInfoToLayout c heap idx).2.1
            (layoutInfoToLayout c heap idx).2.2).2.1,
        (layoutInfoToLayout.layoutInfoToLayoutList cs (layoutInfoToLayout c heap idx).2.1
            (layoutInfoToLayout c heap idx).2.2).2.2) := by
  simp [layoutInfoToLayout.layoutInfoToLayoutList]

mutual

theorem layoutInfoToLayout_spec :
    ∀ (layout : ActionLayoutInfo) (heap : List TreeNode) (idx : IdIndexes),
      CopySpec layout heap idx (layoutInfoToLayout layout heap idx)
  | .mk id type children, heap, idx => by
    by_cases hs : type = ActionLayoutType.Separator ∨ type = ActionLayoutType.Stretch
    · rw [layoutInfoToLayout_sep id type children heap idx hs]
      refine ⟨⟨[⟨"", type, []⟩], rfl⟩, le_refl _, by simp, ?_, ?_⟩
      · simp [headAt, nodeId, ActionLayoutInfo.type, hs]
      · exact idIndexesExact_snoc_plain heap idx _ hs
    · have ih := layoutInfoToLayoutList_spec children heap idx
      rw [layoutInfoToLayout_node id type children heap idx hs]
      generalize layoutInfoToLayout.layoutInfoToLayoutList children heap idx = r at ih
      obtain ⟨is, heap1, idx1⟩ := r
      obtain ⟨⟨ext, hext⟩, -, -, hinv⟩ := ih
      simp only at hext hinv
      subst hext
      refine ⟨⟨ext ++ [⟨id, type, is⟩], by simp⟩, by simp, by simp [Nat.add_assoc], ?_, ?_⟩
      · rw [headAt_snoc]
        simp [nodeId, ActionLayoutInfo.type, ActionLayoutInfo.id, hs]
      · intro h
        exact idIndexesExact_snoc_id _ _ ⟨id, type, is⟩ hs (hinv h)

theorem layoutInfoToLayoutList_spec :
    ∀ (layouts : List ActionLayoutInfo) (heap : List TreeNode) (idx : IdIndexes),
      CopyListSpec layouts heap idx (layoutInfoToLayout.layoutInfoToLayoutList layouts heap idx)
  | [], heap, idx => by
    refine ⟨⟨[], by simp [layoutInfoToLayout.layoutInfoToLayoutList]⟩, ?_, ?_, ?_⟩ <;>
      simp [layoutInfoToLayout.layoutInfoToLayoutList]
  | c :: cs, heap, idx => by
    have ih1 := layoutInfoToLayout_spec c heap idx
    have ih2 := layoutInfoToLayoutList_spec cs (layoutInfoToLayout c heap idx).2.1
      (layoutInfoToLayout c heap idx).2.2
    rw [layoutInfoToLayoutList_cons]
    generalize layoutInfoToLayout c heap idx = r1 at ih1 ih2
    obtain ⟨i1, heap1, idx1⟩ := r1
    simp only at ih1 ih2 ⊢
    generalize layoutInfoToLayout.layoutInfoToLayoutList cs heap1 idx1 = r2 at ih2
    obtain ⟨is, heap2, idx2⟩ := r2
    obtain ⟨⟨e1, he1⟩, hge, hlast, hhead, hinv1⟩ := ih1
    obtain ⟨⟨e2, he2⟩, hrange, hheads, hinv2⟩ := ih2
    simp only at he1 he2 hge hlast hhead hinv1 hrange hheads hinv2 ⊢
    subst he1
    subst he2
    refine ⟨⟨e1 ++ e2, by simp⟩, ?_, ?_, fun h => hinv2 (hinv1 h)⟩
    · intro i hi
      rcases List.mem_cons.1 hi with h | h
      · subst h
        simp only [List.length_append] at hlast ⊢
        omega
      · have := hrange i h
        simp only [List.length_append] at this ⊢
        omega
    · simp only [List.map_cons, hheads]
      congr 1
      rw [headAt_append _ _ _ (by omega)]
      exact hhead

end

end Core
namespace Core
open LayoutsHelper

theorem headAt_applyToParent (a : Anchor) (rel : String) (items : List Nat)
    (heap : List TreeNode) (p q : Nat) :
    headAt (applyToParent a rel items heap p) q = headAt heap q := by
  by_cases hq : q = p
  · subst hq
    cases h : heap[q]? with
    | none => simp [headAt, applyToParent, h]
    | some node => simp [headAt, applyToParent_self a rel items heap q node h, h]
  · simp [headAt, applyToParent_other a rel items heap p q hq]

theorem isOccurrence_eq_headAt (heap : List TreeNode) (id : String) (i : Nat) :
    isOccurrence heap id i =
      match headAt heap i with
      | some (j, t) =>
        decide (j = id) && decide (t ≠ ActionLayoutType.Separator) &&
          decide (t ≠ ActionLayoutType.Stretch)
      | none => false := by
  unfold isOccurrence headAt
  cases heap[i]? <;> rfl

theorem occurrences_congr (h1 h2 : List TreeNode) (hlen : h1.length = h2.length)
    (hh : ∀ q, headAt h1 q = headAt h2 q) (id : String) :
    occurrences h1 id = occurrences h2 id := by
  unfold occurrences
  rw [hlen]
  apply List.filter_congr
  intro i _
  rw [isOccurrence_eq_headAt, isOccurrence_eq_headAt, hh]

theorem foldl_applyToParent_length (a : Anchor) (rel : String) (items : List Nat)
    (ps : List Nat) : ∀ heap : List TreeNode,
      (ps.foldl (applyToParent a rel items) heap).length = heap.length := by
  induction ps with
  | nil => intro heap; rfl
  | cons p ps ih => intro heap; rw [List.foldl_cons, ih, applyToParent_length]

theorem foldl_applyToParent_headAt (a : Anchor) (rel : String) (items : List Nat)
    (ps : List Nat) : ∀ (heap : List TreeNode) (q : Nat),
      headAt (ps.foldl (applyToParent a rel items) heap) q = headAt heap q := by
  induction ps with
  | nil => intro heap q; rfl
  | cons p ps ih => intro heap q; rw [List.foldl_cons, ih, headAt_applyToParent]

theorem idIndexesExact_foldl (a : Anchor) (rel : String) (items : List Nat) (ps : List Nat)
    (heap : List TreeNode) (idx : IdIndexes) (h : IdIndexesExact heap idx) :
    IdIndexesExact (ps.foldl (applyToParent a rel items) heap) idx := by
  intro k
  rw [occurrences_congr _ heap (foldl_applyToParent_length a rel items ps heap)
    (foldl_applyToParent_headAt a rel items ps heap) k]
  exact h k

theorem occurrences_append (heap ext : List TreeNode) (id : String) :
    ∃ l, occurrences (heap ++ ext) id = occurrences heap id ++ l ∧ ∀ i ∈ l, heap.length ≤ i := by
  induction ext using List.reverseRecOn with
  | nil => exact ⟨[], by simp, by simp⟩
  | append_singleton ext n ih =>
    obtain ⟨l, hl, hge⟩ := ih
    rw [← List.append_assoc, occurrences_snoc, hl]
    refine ⟨l ++ (if isOccurrence (heap ++ ext ++ [n]) id (heap ++ ext).length then
      [(heap ++ ext).length] else []), by simp, ?_⟩
    intro i hi
    rcases List.mem_append.1 hi with h | h
    · exact hge i h
    · split at h
      · simp at h; omega
      · simp at h

theorem parentIndexes_nodup (om : ObjectInfoMap) (heap : List TreeNode) (parent : String) :
    (parentIndexes om parent (occurrences heap parent)).Nodup := by
  unfold parentIndexes
  have h := occurrences_nodup heap parent
  have h1 : ((occurrences heap parent).take 1).Nodup := List.Nodup.sublist (List.take_sublist _ _) h
  cases om.lookup parent with
  | none => exact h
  | some info => by_cases hs : info.standalone <;> simp [hs, h, h1]

theorem applyRoutine_eq (om : ObjectInfoMap) (heap : List TreeNode) (idx : IdIndexes)
    (r : ActionBuildRoutine) (hinv : IdIndexesExact heap idx)
    (hfound : occurrences heap r.parent ≠ []) :
    applyRoutine om (heap, idx) r =
      ((parentIndexes om r.parent
          (occurrences (layoutInfoToLayout.layoutInfoToLayoutList r.items heap idx).2.1
            r.parent)).foldl
        (applyToParent r.anchor r.relativeTo
          (layoutInfoToLayout.layoutInfoToLayoutList r.items heap idx).1)
        (layoutInfoToLayout.layoutInfoToLayoutList r.items heap idx).2.1,
        (layoutInfoToLayout.layoutInfoToLayoutList r.items heap idx).2.2) := by
  have hspec := layoutInfoToLayoutList_spec r.items heap idx
  unfold applyRoutine
  simp only
  rw [hinv r.parent]
  simp only [hfound, if_false]
  generalize layoutInfoToLayout.layoutInfoToLayoutList r.items heap idx = c at hspec
  obtain ⟨items, heap1, idx1⟩ := c
  obtain ⟨⟨ext, hext⟩, -, -, hinv1⟩ := hspec
  simp only at hext hinv1 ⊢
  have h1 := hinv1 hinv r.parent
  have hne : occurrences heap1 r.parent ≠ [] := by
    obtain ⟨l, hl, -⟩ := occurrences_append heap ext r.parent
    rw [hext, hl]
    simp [hfound]
  rw [h1]
  simp [hne]

theorem applyRoutine_skip (om : ObjectInfoMap) (heap : List TreeNode) (idx : IdIndexes)
    (r : ActionBuildRoutine) (hinv : IdIndexesExact heap idx)
    (hfound : occurrences heap r.parent = []) :
    applyRoutine om (heap, idx) r = (heap, idx) := by
  unfold applyRoutine
  simp only
  rw [hinv r.parent]
  simp [hfound]

end Core
namespace Core
open LayoutsHelper

theorem idIndexesExact_nil : IdIndexesExact [] [] := by
  intro k
  simp [occurrences]

theorem applyRoutine_getElem? (om : ObjectInfoMap) (heap : List TreeNode) (idx : IdIndexes)
    (r : ActionBuildRoutine) (hinv : IdIndexesExact heap idx)
    (hfound : occurrences heap r.parent ≠ []) (q : Nat) :
    (applyRoutine om (heap, idx) r).1[q]? =
      if q ∈ targetedParents om r heap idx then
        ((heapWithItems r heap idx)[q]?).map
          (fun n => { n with children := (spliceChildren (heapWithItems r heap idx) r.anchor
            r.relativeTo (layoutsToInsert r heap idx) n.children) })
      else (heapWithItems r heap idx)[q]? := by
  rw [applyRoutine_eq om heap idx r hinv hfound]
  exact foldl_applyToParent _ _ _ _ _ (parentIndexes_nodup om _ r.parent) q

theorem take_drop_at (pre post : List Nat) (c : Nat) (items : List Nat) :
    (pre ++ c :: post).take (pre.length + 1) ++ items ++ (pre ++ c :: post).drop (pre.length + 1) =
      pre ++ c :: (items ++ post) ∧
    (pre ++ c :: post).take pre.length ++ items ++ (pre ++ c :: post).drop pre.length =
      pre ++ (items ++ c :: post) := by
  induction pre with
  | nil => simp
  | cons a pre ih => simpa using ih

end Core
namespace Core
open LayoutsHelper

theorem fileState_exact : IdIndexesExact Examples.fileHeap Examples.fileIdIndexes :=
  (layoutInfoToLayout_spec Examples.fileLayout [] []).2.2.2.2 idIndexesExact_nil

theorem layoutsToInsert_heads (r : ActionBuildRoutine) (heap : List TreeNode) (idx : IdIndexes) :
    (layoutsToInsert r heap idx).map (headAt (heapWithItems r heap idx)) =
      r.items.map (fun l => some (nodeId l, l.type)) :=
  (layoutInfoToLayoutList_spec r.items heap idx).2.2.1

/-- C2. Anchor semantics of Before/After. Let a routine be applied on a state whose `idIndexes`
is exact and in which the parent id occurs, and let `q` be a targeted parent whose current
children are `pre ++ c :: post`, where `c` is the first child whose id equals `relativeTo`. The
copies of the routine items are in routine order; with anchor After the children of `q` become
`pre ++ c :: items ++ post`, with anchor Before they become `pre ++ items ++ c :: post`. -/
theorem anchor_after_before_semantics (om : ObjectInfoMap) (heap : List TreeNode)
    (idx : IdIndexes) (r : ActionBuildRoutine) (hinv : IdIndexesExact heap idx)
    (hfound : occurrences heap r.parent ≠ []) (q : Nat) (node : TreeNode)
    (pre post : List Nat) (c : Nat) (hq : q ∈ targetedParents om r heap idx)
    (hnode : (heapWithItems r heap idx)[q]? = some node)
    (hch : node.children = pre ++ c :: post)
    (hpre : ∀ x ∈ pre, idAt (heapWithItems r heap idx) x ≠ some r.relativeTo)
    (hc : idAt (heapWithItems r heap idx) c = some r.relativeTo) :
    (layoutsToInsert r heap idx).map (headAt (heapWithItems r heap idx)) =
        r.items.map (fun l => some (nodeId l, l.type)) ∧
      (r.anchor = Anchor.After →
        (applyRoutine om (heap, idx) r).1[q]? =
          some { node with children := pre ++ c :: (layoutsToInsert r heap idx ++ post) }) ∧
      (r.anchor = Anchor.Before →
        (applyRoutine om (heap, idx) r).1[q]? =
          some { node with children := pre ++ (layoutsToInsert r heap idx ++ c :: post) }) := by
  have hfr := findRelative_first (heapWithItems r heap idx) r.relativeTo pre post c hpre hc
  have htd := take_drop_at pre post c (layoutsToInsert r heap idx)
  refine ⟨layoutsToInsert_heads r heap idx, ?_, ?_⟩
  · intro ha
    rw [applyRoutine_getElem? om heap idx r hinv hfound q, if_pos hq, hnode]
    simp only [Option.map_some', spliceChildren, ha, hch, hfr, htd.1]
  · intro ha
    rw [applyRoutine_getElem? om heap idx r hinv hfound q, if_pos hq, hnode]
    simp only [Option.map_some', spliceChildren, ha, hch, hfr, htd.2]

/-- Witness of C2: the example of the specification. Menu `file` with children `[open]` and the
routine (after, relativeTo `open`, item `save`) give `[open, save]`, in the arena and in the
composed forest. -/
theorem anchor_after_before_semantics_witness :
    (applyRoutine Examples.registry (Examples.fileHeap, Examples.fileIdIndexes)
        (Examples.saveRoutine Anchor.After "open")).1[1]? =
      some ⟨"file", ActionLayoutType.Menu, [0, 2]⟩ ∧
    build [Examples.extA, Examples.extB Anchor.After "open"] Examples.registry =
      some [.mk "file" ActionLayoutType.Menu
        [.mk "open" ActionLayoutType.Action [], .mk "save" ActionLayoutType.Action []]] :=
  ⟨(anchor_after_before_semantics Examples.registry Examples.fileHeap Examples.fileIdIndexes
      (Examples.saveRoutine Anchor.After "open") fileState_exact (by decide) 1
      ⟨"file", ActionLayoutType.Menu, [0]⟩ [] [] 0 (by decide) (by decide) (by decide)
      (by simp) (by decide)).2.1 rfl, by decide⟩

end Core
namespace Core
open LayoutsHelper

theorem recentState_exact : IdIndexesExact Examples.recentHeap Examples.recentIdIndexes :=
  (layoutInfoToLayout_spec Examples.recentLayout [] []).2.2.2.2 idIndexesExact_nil

theorem spliceChildren_no_match (heap : List TreeNode) (a : Anchor) (rel : String)
    (items cs : List Nat) (ha : a = Anchor.After ∨ a = Anchor.Before)
    (hno : ∀ x ∈ cs, idAt heap x ≠ some rel) : spliceChildren heap a rel items cs = cs := by
  have := (findRelative_eq_none heap rel cs).2 hno
  rcases ha with ha | ha <;> simp [spliceChildren, ha, this]

/-- C4. Anchor semantics of First/Last. For a routine applied on a state whose `idIndexes` is
exact and in which the parent id occurs, and for every targeted parent `q`: the copies of the
routine items are in routine order; anchor First makes the children of `q` the items followed by
the old children, anchor Last makes them the old children followed by the items. -/
theorem anchor_first_last_semantics (om : ObjectInfoMap) (heap : List TreeNode)
    (idx : IdIndexes) (r : ActionBuildRoutine) (hinv : IdIndexesExact heap idx)
    (hfound : occurrences heap r.parent ≠ []) (q : Nat) (node : TreeNode)
    (hq : q ∈ targetedParents om r heap idx)
    (hnode : (heapWithItems r heap idx)[q]? = some node) :
    (layoutsToInsert r heap idx).map (headAt (heapWithItems r heap idx)) =
        r.items.map (fun l => some (nodeId l, l.type)) ∧
      (r.anchor = Anchor.First →
        (applyRoutine om (heap, idx) r).1[q]? =
          some { node with children := layoutsToInsert r heap idx ++ node.children }) ∧
      (r.anchor = Anchor.Last →
        (applyRoutine om (heap, idx) r).1[q]? =
          some { node with children := node.children ++ layoutsToInsert r heap idx }) := by
  refine ⟨layoutsToInsert_heads r heap idx, ?_, ?_⟩
  · intro ha
    rw [applyRoutine_getElem? om heap idx r hinv hfound q, if_pos hq, hnode]
    simp only [Option.map_some', spliceChildren, ha]
  · intro ha
    rw [applyRoutine_getElem? om heap idx r hinv hfound q, if_pos hq, hnode]
    simp only [Option.map_some', spliceChildren, ha]

/-- Witness of C4: on `file[open]`, inserting `save` First gives `[save, open]` and inserting it
Last gives `[open, save]`. -/
theorem anchor_first_last_semantics_witness :
    (applyRoutine Examples.registry (Examples.fileHeap, Examples.fileIdIndexes)
        (Examples.saveRoutine Anchor.First "")).1[1]? =
      some ⟨"file", ActionLayoutType.Menu, [2, 0]⟩ ∧
    build [Examples.extA, Examples.extB Anchor.Last ""] Examples.registry =
      some [.mk "file" ActionLayoutType.Menu
        [.mk "open" ActionLayoutType.Action [], .mk "save" ActionLayoutType.Action []]] :=
  ⟨(anchor_first_last_semantics Examples.registry Examples.fileHeap Examples.fileIdIndexes
      (Examples.saveRoutine Anchor.First "") fileState_exact (by decide) 1
      ⟨"file", ActionLayoutType.Menu, [0]⟩ (by decide) (by decide)).2.1 rfl, by decide⟩

end Core
namespace Core
open LayoutsHelper

theorem occurrences_pairwise (heap : List TreeNode) (id : String) :
    (occurrences heap id).Pairwise (· < ·) :=
  List.Pairwise.filter _ (List.pairwise_lt_range _)

theorem applyRoutines_append (om : ObjectInfoMap) (es1 es2 : List ActionExtension)
    (st : List TreeNode × IdIndexes) :
    applyRoutines om (es1 ++ es2) st = applyRoutines om es2 (applyRoutines om es1 st) := by
  simp [applyRoutines, List.foldl_append]

end Core
namespace Core
open LayoutsHelper

theorem sizeList_append (l1 l2 : List ActionLayoutInfo) :
    ActionLayoutInfo.size.sizeList (l1 ++ l2) =
      ActionLayoutInfo.size.sizeList l1 + ActionLayoutInfo.size.sizeList l2 := by
  induction l1 with
  | nil => simp [ActionLayoutInfo.size.sizeList]
  | cons a l1 ih => simp [ActionLayoutInfo.size.sizeList, ih, Nat.add_assoc]

theorem firstStandaloneList_append (om : ObjectInfoMap) (l1 l2 : List ActionLayoutInfo) :
    firstStandalone.firstStandaloneList om (l1 ++ l2) =
      firstStandalone.firstStandaloneList om l1 ++ firstStandalone.firstStandaloneList om l2 := by
  induction l1 with
  | nil => simp [firstStandalone.firstStandaloneList]
  | cons a l1 ih => simp [firstStandalone.firstStandaloneList, ih]

theorem collectStandalone_spec (om : ObjectInfoMap) :
    ∀ (fuel : Nat) (stack acc : List ActionLayoutInfo),
      ActionLayoutInfo.size.sizeList stack ≤ fuel →
      ∃ res, collectStandalone om fuel stack acc = some res ∧
        res.Perm (acc ++ firstStandalone.firstStandaloneList om stack) := by
  intro fuel
  induction fuel with
  | zero =>
    intro stack acc h
    cases stack with
    | nil => exact ⟨acc, by simp [collectStandalone], by simp [firstStandalone.firstStandaloneList]⟩
    | cons t stack =>
      cases t
      simp [ActionLayoutInfo.size.sizeList, ActionLayoutInfo.size] at h
  | succ fuel ih =>
    intro stack acc h
    cases stack with
    | nil => exact ⟨acc, by simp [collectStandalone], by simp [firstStandalone.firstStandaloneList]⟩
    | cons t stack =>
      obtain ⟨id, type, children⟩ := t
      simp only [ActionLayoutInfo.size.sizeList, ActionLayoutInfo.size] at h
      cases hl : om.lookup id with
      | none =>
        obtain ⟨res, h1, h2⟩ := ih stack acc (by omega)
        refine ⟨res, by simp [collectStandalone, ActionLayoutInfo.id, hl, h1], ?_⟩
        simpa [firstStandalone.firstStandaloneList, firstStandalone, hl] using h2
      | some info =>
        by_cases hs : info.standalone = true
        · obtain ⟨res, h1, h2⟩ := ih stack (acc ++ [.mk id type children]) (by omega)
          refine ⟨res, by simp [collectStandalone, ActionLayoutInfo.id, hl, hs, h1], ?_⟩
          simpa [firstStandalone.firstStandaloneList, firstStandalone, hl, hs] using h2
        · obtain ⟨res, h1, h2⟩ := ih (stack ++ children) acc (by rw [sizeList_append]; omega)
          refine ⟨res, by
            simp [collectStandalone, ActionLayoutInfo.id, ActionLayoutInfo.children, hl, hs, h1],
            ?_⟩
          rw [firstStandaloneList_append] at h2
          simp only [firstStandalone.firstStandaloneList, firstStandalone, hl, hs]
          exact h2.trans (List.Perm.append_left acc List.perm_append_comm)

theorem collectStandalone_root (om : ObjectInfoMap) (t : ActionLayoutInfo) :
    collectStandalone om t.size [t] [] = some (standaloneLayouts om t) ∧
      (standaloneLayouts om t).Perm (firstStandalone om t) := by
  obtain ⟨res, h1, h2⟩ := collectStandalone_spec om t.size [t] []
    (by simp [ActionLayoutInfo.size.sizeList])
  simp only [standaloneLayouts, h1, Option.getD_some, true_and]
  simpa [firstStandalone.firstStandaloneList] using h2

mutual

theorem mem_firstStandalone (om : ObjectInfoMap) :
    ∀ (t n : ActionLayoutInfo), n ∈ firstStandalone om t → FirstStandalone om t n
  | .mk id type children, n, h => by
    cases hl : om.lookup id with
    | none => simp [firstStandalone, hl] at h
    | some info =>
      by_cases hs : info.standalone = true
      · simp [firstStandalone, hl, hs] at h
        subst h
        exact FirstStandalone.stop _ info hl hs
      · simp [firstStandalone, hl, hs] at h
        obtain ⟨c, hc, hn⟩ := mem_firstStandaloneList om children n h
        exact FirstStandalone.step _ c n info hl (by simpa using hs) hc hn

theorem mem_firstStandaloneList (om : ObjectInfoMap) :
    ∀ (ts : List ActionLayoutInfo) (n : ActionLayoutInfo),
      n ∈ firstStandalone.firstStandaloneList om ts → ∃ c ∈ ts, FirstStandalone om c n
  | [], n, h => by simp [firstStandalone.firstStandaloneList] at h
  | c :: cs, n, h => by
    simp only [firstStandalone.firstStandaloneList, List.mem_append] at h
    rcases h with h | h
    · exact ⟨c, by simp, mem_firstStandalone om c n h⟩
    · obtain ⟨c', hc', hn⟩ := mem_firstStandaloneList om cs n h
      exact ⟨c', by simp [hc'], hn⟩

end

theorem mem_firstStandaloneList_of (om : ObjectInfoMap) (n : ActionLayoutInfo) :
    ∀ (ts : List ActionLayoutInfo) (c : ActionLayoutInfo), c ∈ ts → n ∈ firstStandalone om c →
      n ∈ firstStandalone.firstStandaloneList om ts := by
  intro ts
  induction ts with
  | nil => intro c hc; simp at hc
  | cons a ts ih =>
    intro c hc hn
    simp only [firstStandalone.firstStandaloneList, List.mem_append]
    rcases List.mem_cons.1 hc with h | h
    · subst h; exact Or.inl hn
    · exact Or.inr (ih c h hn)

theorem firstStandalone_of (om : ObjectInfoMap) (t n : ActionLayoutInfo)
    (h : FirstStandalone om t n) : n ∈ firstStandalone om t := by
  induction h with
  | stop t info hl hs =>
    obtain ⟨id, type, children⟩ := t
    simp [ActionLayoutInfo.id] at hl
    simp [firstStandalone, hl, hs]
  | step t c n info hl hs hc _ ih =>
    obtain ⟨id, type, children⟩ := t
    simp [ActionLayoutInfo.id] at hl
    simp only [firstStandalone, hl, hs]
    exact mem_firstStandaloneList_of om n children c hc ih

end Core
namespace Core
open LayoutsHelper

theorem appendRoots_cons (layout : ActionLayoutInfo) (rest : List ActionLayoutInfo)
    (roots : List Nat) (heap : List TreeNode) (idx : IdIndexes) :
    appendRoots (layout :: rest) (roots, heap, idx) =
      appendRoots rest (roots ++ [(layoutInfoToLayout layout heap idx).1],
        (layoutInfoToLayout layout heap idx).2.1, (layoutInfoToLayout layout heap idx).2.2) := by
  simp [appendRoots]

theorem appendRoots_append (l1 l2 : List ActionLayoutInfo) :
    ∀ st : List Nat × List TreeNode × IdIndexes,
      appendRoots (l1 ++ l2) st = appendRoots l2 (appendRoots l1 st) := by
  induction l1 with
  | nil => intro st; simp [appendRoots]
  | cons a l1 ih =>
    intro st
    obtain ⟨roots, heap, idx⟩ := st
    rw [List.cons_append, appendRoots_cons, appendRoots_cons, ih]

theorem appendRoots_spec (ls : List ActionLayoutInfo) :
    ∀ (roots : List Nat) (heap : List TreeNode) (idx : IdIndexes),
      ∃ new ext, (appendRoots ls (roots, heap, idx)).1 = roots ++ new ∧
        (appendRoots ls (roots, heap, idx)).2.1 = heap ++ ext ∧
        new.map (headAt (appendRoots ls (roots, heap, idx)).2.1) =
          ls.map (fun l => some (nodeId l, l.type)) ∧
        (∀ i ∈ new, heap.length ≤ i ∧ i < (appendRoots ls (roots, heap, idx)).2.1.length) ∧
        (IdIndexesExact heap idx →
          IdIndexesExact (appendRoots ls (roots, heap, idx)).2.1
            (appendRoots ls (roots, heap, idx)).2.2) := by
  induction ls with
  | nil => intro roots heap idx; exact ⟨[], [], by simp [appendRoots]⟩
  | cons l ls ih =>
    intro roots heap idx
    rw [appendRoots_cons]
    have h1 := layoutInfoToLayout_spec l heap idx
    generalize layoutInfoToLayout l heap idx = r1 at h1
    obtain ⟨i1, heap1, idx1⟩ := r1
    obtain ⟨⟨e1, he1⟩, hge, hlast, hhead, hinv1⟩ := h1
    simp only at he1 hge hlast hhead hinv1 ⊢
    obtain ⟨new, ext, hr, hh, hheads, hrange, hinv2⟩ := ih (roots ++ [i1]) heap1 idx1
    subst he1
    refine ⟨i1 :: new, e1 ++ ext, by simp [hr], by simp [hh], ?_, ?_, fun h => hinv2 (hinv1 h)⟩
    · simp only [List.map_cons, hheads]
      congr 1
      rw [hh, headAt_append _ _ _ (by omega)]
      exact hhead
    · intro i hi
      rcases List.mem_cons.1 hi with h | h
      · subst h
        rw [hh]
        simp only [List.length_append] at hlast ⊢
        omega
      · have := hrange i h
        simp only [List.length_append] at this ⊢
        omega

theorem buildLayouts_eq (om : ObjectInfoMap) (layouts : List ActionLayoutInfo) :
    ∀ st : List Nat × List TreeNode × IdIndexes,
      buildLayouts om layouts st = some (appendRoots (rootLayouts om layouts) st) := by
  induction layouts with
  | nil => intro st; simp [buildLayouts, rootLayouts, appendRoots]
  | cons l ls ih =>
    intro st
    simp only [buildLayouts, (collectStandalone_root om l).1, rootLayouts, appendRoots_append, ih]

theorem rootLayouts_append (om : ObjectInfoMap) (l1 l2 : List ActionLayoutInfo) :
    rootLayouts om (l1 ++ l2) = rootLayouts om l1 ++ rootLayouts om l2 := by
  induction l1 with
  | nil => simp [rootLayouts]
  | cons a l1 ih => simp [rootLayouts, ih]

theorem buildExtensions_eq (om : ObjectInfoMap) (exts : List ActionExtension) :
    ∀ st : List Nat × List TreeNode × IdIndexes,
      buildExtensions om exts st =
        some (appendRoots (rootLayouts om (declaredLayouts exts)) st) := by
  induction exts with
  | nil => intro st; simp [buildExtensions, declaredLayouts, rootLayouts, appendRoots]
  | cons e es ih =>
    intro st
    simp only [buildExtensions, buildLayouts_eq, ih, declaredLayouts, rootLayouts_append,
      appendRoots_append]

end Core
namespace Core

/-! ### Association-list lemmas -/

theorem lookup_isSome_iff_mem_keys {β : Type} (m : List (String × β)) (k : String) :
    (m.lookup k).isSome = true ↔ k ∈ m.map Prod.fst := by
  induction m with
  | nil => simp
  | cons e m ih =>
    obtain ⟨k0, v0⟩ := e
    rw [lookup_cons_ite]
    by_cases h : k = k0
    · simp [h]
    · simp [h, ih]

theorem lookup_eq_none_iff_not_mem_keys {β : Type} (m : List (String × β)) (k : String) :
    m.lookup k = none ↔ k ∉ m.map Prod.fst := by
  rw [← lookup_isSome_iff_mem_keys]
  cases m.lookup k <;> simp

theorem QMap.insertNew_perm {β : Type} (m : List (String × β)) (k : String) (v : β) :
    (QMap.insertNew m k v).Perm ((k, v) :: m) := by
  induction m with
  | nil => simp [QMap.insertNew]
  | cons e m ih =>
    obtain ⟨k0, v0⟩ := e
    by_cases h : k.data < k0.data
    · simp [QMap.insertNew, h]
    · simp only [QMap.insertNew, h, if_false]
      exact (List.Perm.cons _ ih).trans (List.Perm.swap _ _ _)

theorem QMap.lookup_insertNew {β : Type} (m : List (String × β)) (k : String) (v : β)
    (hk : m.lookup k = none) (k' : String) :
    (QMap.insertNew m k v).lookup k' = if k' = k then some v else m.lookup k' := by
  induction m with
  | nil => simp [QMap.insertNew, lookup_cons_ite]
  | cons e m ih =>
    obtain ⟨k0, v0⟩ := e
    rw [lookup_cons_ite] at hk
    by_cases hk0 : k = k0
    · simp [hk0] at hk
    · simp only [hk0, if_false] at hk
      by_cases h : k.data < k0.data
      · simp [QMap.insertNew, h, lookup_cons_ite]
      · simp only [QMap.insertNew, h, if_false, lookup_cons_ite, ih hk]
        by_cases h1 : k' = k0
        · have : k' ≠ k := fun h2 => hk0 (h2 ▸ h1)
          simp [h1, Ne.symm hk0]
        · simp [h1]

theorem QMap.lookup_update {β : Type} (m : List (String × β)) (k : String) (v : β)
    (k' : String) :
    (m.map (fun e => if e.1 = k then (e.1, v) else e)).lookup k' =
      if k' = k then (m.lookup k).map (fun _ => v) else m.lookup k' := by
  induction m with
  | nil => simp
  | cons e m ih =>
    obtain ⟨k0, v0⟩ := e
    by_cases h0 : k0 = k
    · subst h0
      by_cases h1 : k' = k0 <;> simp [lookup_cons_ite, h1, ih]
    · by_cases h1 : k' = k0
      · have : k' ≠ k := fun h2 => h0 (h1 ▸ h2)
        simp [lookup_cons_ite, h0, h1, this]
      · have h2 : k ≠ k0 := Ne.symm h0
        simp [lookup_cons_ite, h0, h1, h2, ih]

theorem QMap.lookup_set {β : Type} (m : List (String × β)) (k : String) (v : β) (k' : String) :
    (QMap.set m k v).lookup k' = if k' = k then some v else m.lookup k' := by
  unfold QMap.set
  cases h : m.lookup k with
  | none => simpa using QMap.lookup_insertNew m k v h k'
  | some w => simp [QMap.lookup_update, h]

theorem QMap.lookup_touch {β : Type} (m : List (String × β)) (k : String) (d : β)
    (k' : String) :
    (QMap.touch m k d).lookup k' =
      if k' = k then some ((m.lookup k).getD d) else m.lookup k' := by
  unfold QMap.touch
  cases h : m.lookup k with
  | none => simpa using QMap.lookup_insertNew m k d h k'
  | some w => by_cases h1 : k' = k <;> simp [h1, h]

theorem QMap.value_set {β : Type} (m : List (String × β)) (k : String) (v d : β)
    (k' : String) :
    QMap.value (QMap.set m k v) k' d = if k' = k then v else QMap.value m k' d := by
  unfold QMap.value
  rw [QMap.lookup_set]
  by_cases h : k' = k <;> simp [h]

theorem QMap.value_touch {β : Type} (m : List (String × β)) (k : String) (d : β)
    (k' : String) : QMap.value (QMap.touch m k d) k' d = QMap.value m k' d := by
  unfold QMap.value
  rw [QMap.lookup_touch]
  by_cases h : k' = k <;> simp [h]

theorem QMap.keys_update {β : Type} (m : List (String × β)) (k : String) (v : β) :
    (m.map (fun e => if e.1 = k then (e.1, v) else e)).map Prod.fst = m.map Prod.fst := by
  induction m with
  | nil => rfl
  | cons e m ih =>
    by_cases h : e.1 = k <;> simp [h, ih]

theorem QMap.keys_set_perm {β : Type} (m : List (String × β)) (k : String) (v : β) :
    ((QMap.set m k v).map Prod.fst).Perm
      (if (m.lookup k).isSome then m.map Prod.fst else k :: m.map Prod.fst) := by
  unfold QMap.set
  cases h : m.lookup k with
  | none => simpa using (QMap.insertNew_perm m k v).map Prod.fst
  | some w =>
    rw [if_pos (by simp), QMap.keys_update]
    simp

theorem QMap.keys_touch_perm {β : Type} (m : List (String × β)) (k : String) (d : β) :
    ((QMap.touch m k d).map Prod.fst).Perm
      (if (m.lookup k).isSome then m.map Prod.fst else k :: m.map Prod.fst) := by
  unfold QMap.touch
  cases h : m.lookup k with
  | none => simpa using (QMap.insertNew_perm m k d).map Prod.fst
  | some w => simp

theorem QMap.keys_nodup_set {β : Type} (m : List (String × β)) (k : String) (v : β)
    (h : (m.map Prod.fst).Nodup) : ((QMap.set m k v).map Prod.fst).Nodup := by
  rw [(QMap.keys_set_perm m k v).nodup_iff]
  cases hl : m.lookup k with
  | none =>
    simp only [Option.isSome_none, Bool.false_eq_true, if_false, List.nodup_cons]
    exact ⟨(lookup_eq_none_iff_not_mem_keys m k).1 hl, h⟩
  | some w => simpa using h

theorem QMap.keys_nodup_touch {β : Type} (m : List (String × β)) (k : String) (d : β)
    (h : (m.map Prod.fst).Nodup) : ((QMap.touch m k d).map Prod.fst).Nodup := by
  rw [(QMap.keys_touch_perm m k d).nodup_iff]
  cases hl : m.lookup k with
  | none =>
    simp only [Option.isSome_none, Bool.false_eq_true, if_false, List.nodup_cons]
    exact ⟨(lookup_eq_none_iff_not_mem_keys m k).1 hl, h⟩
  | some w => simpa using h

end Core
namespace Core
open TopologicalSorter

/-! ### The dependency sorter -/

theorem pending_cons (u : String) (succ : List String) (g : List (String × List String))
    (sorted : List String) (v : String) :
    pending ((u, succ) :: g) sorted v =
      (if u ∈ sorted then 0 else succ.count v) + pending g sorted v := by
  unfold pending
  by_cases h : u ∈ sorted <;> simp [List.filter_cons, h]

theorem pending_perm (g1 g2 : List (String × List String)) (h : g1.Perm g2)
    (sorted : List String) (v : String) : pending g1 sorted v = pending g2 sorted v := by
  unfold pending
  exact ((h.filter _).map _).sum_eq

theorem pending_touch (g : List (String × List String)) (u : String) (sorted : List String)
    (v : String) : pending (QMap.touch g u []) sorted v = pending g sorted v := by
  unfold QMap.touch
  cases h : g.lookup u with
  | some w => simp
  | none =>
    simp only [Option.isSome_none, Bool.false_eq_true, if_false]
    rw [pending_perm _ _ (QMap.insertNew_perm g u []), pending_cons]
    simp

theorem pending_not_key (g : List (String × List String)) (u : String) (sorted : List String)
    (v : String) (hu : u ∉ g.map Prod.fst) :
    pending g (sorted ++ [u]) v = pending g sorted v := by
  induction g with
  | nil => rfl
  | cons e g ih =>
    obtain ⟨k, succ⟩ := e
    simp only [List.map_cons, List.mem_cons, not_or] at hu
    rw [pending_cons, pending_cons, ih hu.2]
    have : k ≠ u := fun h => hu.1 h.symm
    simp [this]

theorem value_of_not_key {β : Type} (m : List (String × β)) (k : String) (d : β)
    (h : k ∉ m.map Prod.fst) : QMap.value m k d = d := by
  unfold QMap.value
  rw [(lookup_eq_none_iff_not_mem_keys m k).2 h]
  rfl

theorem pending_sorted_snoc (g : List (String × List String)) (u : String)
    (sorted : List String) (v : String) (hk : (g.map Prod.fst).Nodup) (hu : u ∉ sorted) :
    pending g (sorted ++ [u]) v + (QMap.value g u []).count v = pending g sorted v := by
  induction g with
  | nil => simp [pending, QMap.value]
  | cons e g ih =>
    obtain ⟨k, succ⟩ := e
    simp only [List.map_cons, List.nodup_cons] at hk
    rw [pending_cons, pending_cons]
    by_cases hku : k = u
    · subst hku
      rw [pending_not_key g k sorted v hk.1]
      simp [QMap.value, lookup_cons_ite, hu]
      omega
    · have h1 : QMap.value ((k, succ) :: g) u [] = QMap.value g u [] := by
        simp [QMap.value, lookup_cons_ite, Ne.symm hku]
      rw [h1]
      have := ih hk.2
      by_cases hks : k ∈ sorted
      · simp [hks, this]
      · simp [hks, hku]
        omega

theorem value_mem_graph (g : List (String × List String)) (u : String) (v : String)
    (h : v ∈ QMap.value g u []) : ∃ e ∈ g, e.1 = u ∧ e.2 = QMap.value g u [] := by
  induction g with
  | nil => simp [QMap.value] at h
  | cons e g ih =>
    obtain ⟨k, succ⟩ := e
    by_cases hk : u = k
    · exact ⟨(k, succ), by simp, hk.symm, by simp [QMap.value, lookup_cons_ite, hk]⟩
    · have h1 : QMap.value ((k, succ) :: g) u [] = QMap.value g u [] := by
        simp [QMap.value, lookup_cons_ite, hk]
      rw [h1] at h ⊢
      obtain ⟨e, he, h2⟩ := ih h
      exact ⟨e, by simp [he], h2⟩

theorem value_of_mem {β : Type} (m : List (String × β)) (e : String × β) (d : β)
    (hk : (m.map Prod.fst).Nodup) (he : e ∈ m) : QMap.value m e.1 d = e.2 := by
  induction m with
  | nil => simp at he
  | cons e0 m ih =>
    obtain ⟨k0, v0⟩ := e0
    simp only [List.map_cons, List.nodup_cons] at hk
    rcases List.mem_cons.1 he with h | h
    · subst h
      simp [QMap.value, lookup_cons_ite]
    · have hne : e.1 ≠ k0 := by
        intro h1
        exact hk.1 (h1 ▸ List.mem_map_of_mem Prod.fst h)
      simpa [QMap.value, lookup_cons_ite, hne] using ih hk.2 h

end Core
namespace Core
open TopologicalSorter

theorem QMap.mem_set {β : Type} (m : List (String × β)) (k : String) (v : β) (e : String × β)
    (h : e ∈ QMap.set m k v) : e = (k, v) ∨ e ∈ m := by
  unfold QMap.set at h
  cases hl : m.lookup k with
  | none =>
    simp only [hl, Option.isSome_none, Bool.false_eq_true, if_false] at h
    have := (QMap.insertNew_perm m k v).mem_iff.1 h
    simpa using this
  | some w =>
    simp only [hl, Option.isSome_some, if_true, List.mem_map] at h
    obtain ⟨e0, he0, h1⟩ := h
    by_cases h2 : e0.1 = k
    · left
      rw [if_pos h2] at h1
      rw [← h1, h2]
    · right
      rw [if_neg h2] at h1
      exact h1 ▸ he0

theorem QMap.mem_keys_set {β : Type} (m : List (String × β)) (k : String) (v : β)
    (k' : String) : k' ∈ (QMap.set m k v).map Prod.fst ↔ k' = k ∨ k' ∈ m.map Prod.fst := by
  rw [← lookup_isSome_iff_mem_keys, QMap.lookup_set, ← lookup_isSome_iff_mem_keys]
  by_cases h : k' = k <;> simp [h]

theorem QMap.mem_keys_touch {β : Type} (m : List (String × β)) (k : String) (d : β)
    (k' : String) : k' ∈ (QMap.touch m k d).map Prod.fst ↔ k' = k ∨ k' ∈ m.map Prod.fst := by
  rw [← lookup_isSome_iff_mem_keys, QMap.lookup_touch, ← lookup_isSome_iff_mem_keys]
  by_cases h : k' = k <;> simp [h]

theorem QMap.mem_touch {β : Type} (m : List (String × β)) (k : String) (d : β)
    (e : String × β) (h : e ∈ QMap.touch m k d) : e = (k, d) ∨ e ∈ m := by
  unfold QMap.touch at h
  cases hl : m.lookup k with
  | none =>
    simp only [hl, Option.isSome_none, Bool.false_eq_true, if_false] at h
    have := (QMap.insertNew_perm m k d).mem_iff.1 h
    simpa using this
  | some w =>
    simp only [hl, Option.isSome_some, if_true] at h
    exact Or.inr h

theorem map_update_of_not_key {β : Type} (m : List (String × β)) (k : String) (v : β)
    (h : k ∉ m.map Prod.fst) : m.map (fun e => if e.1 = k then (e.1, v) else e) = m := by
  induction m with
  | nil => rfl
  | cons e m ih =>
    simp only [List.map_cons, List.mem_cons, not_or] at h
    have : e.1 ≠ k := fun h1 => h.1 h1.symm
    simp [this, ih h.2]

theorem pending_update (g : List (String × List String)) (u : String) (old new : List String)
    (w : String) (hk : (g.map Prod.fst).Nodup) (hl : g.lookup u = some old) :
    pending (g.map (fun e => if e.1 = u then (e.1, new) else e)) [] w + old.count w =
      pending g [] w + new.count w := by
  induction g with
  | nil => simp at hl
  | cons e g ih =>
    obtain ⟨k, succ⟩ := e
    simp only [List.map_cons, List.nodup_cons] at hk
    rw [lookup_cons_ite] at hl
    by_cases hku : u = k
    · subst hku
      simp only [if_true, Option.some.injEq] at hl
      subst hl
      rw [List.map_cons, map_update_of_not_key g u new hk.1]
      simp only [if_true, pending_cons, List.not_mem_nil, if_false]
      omega
    · simp only [hku, if_false] at hl
      have := ih hk.2 hl
      rw [List.map_cons]
      simp only [Ne.symm hku, if_false, pending_cons, List.not_mem_nil]
      omega

theorem pending_set_snoc (g : List (String × List String)) (u v w : String)
    (hk : (g.map Prod.fst).Nodup) (hv : v ∉ QMap.value g u []) :
    pending (QMap.set g u (QMap.value g u [] ++ [v])) [] w =
      pending g [] w + (if w = v then 1 else 0) := by
  unfold QMap.set
  cases hl : g.lookup u with
  | none =>
    simp only [Option.isSome_none, Bool.false_eq_true, if_false]
    rw [pending_perm _ _ (QMap.insertNew_perm g u _), pending_cons]
    by_cases hw : w = v
    · subst hw; simp [QMap.value, hl]; omega
    · simp [QMap.value, hl, hw, Ne.symm hw]
  | some old =>
    simp only [Option.isSome_some, if_true]
    have hval : QMap.value g u [] = old := by simp [QMap.value, hl]
    rw [hval] at hv ⊢
    have := pending_update g u old (old ++ [v]) w hk hl
    by_cases hw : w = v
    · subst hw
      simp [List.count_append] at this
      simp
      omega
    · simp [List.count_append, hw, Ne.symm hw] at this
      simp [hw]
      omega

theorem graphInv_empty : GraphInv TopologicalSorter.empty where
  graphKeys := by simp [TopologicalSorter.empty]
  degreeKeys := by simp [TopologicalSorter.empty]
  succNodup := by simp [TopologicalSorter.empty]
  targets := by simp [TopologicalSorter.empty]
  degree := by simp [TopologicalSorter.empty, QMap.value, pending]

theorem value_nodup_of_graph (g : List (String × List String)) (u : String)
    (h : ∀ e ∈ g, e.2.Nodup) : (QMap.value g u []).Nodup := by
  by_cases hv : QMap.value g u [] = []
  · rw [hv]; exact List.nodup_nil
  · obtain ⟨x, hx⟩ := List.exists_mem_of_ne_nil _ hv
    obtain ⟨e, he, -, h2⟩ := value_mem_graph g u x hx
    exact h2 ▸ h e he

theorem value_targets_of_graph (g : List (String × List String)) (u v : String)
    (keys : List String) (h : ∀ e ∈ g, ∀ v ∈ e.2, v ∈ keys) (hv : v ∈ QMap.value g u []) :
    v ∈ keys := by
  obtain ⟨e, he, -, h2⟩ := value_mem_graph g u v hv
  exact h e he v (h2 ▸ hv)

theorem graphInv_addEdge (s : TopologicalSorter) (u v : String) (h : GraphInv s) :
    GraphInv (s.addEdge u v) := by
  unfold addEdge
  by_cases hv : v ∈ QMap.value s.graph u []
  · simp only [hv, if_true]
    refine ⟨QMap.keys_nodup_touch _ _ _ h.graphKeys, h.degreeKeys, ?_, ?_, ?_⟩
    · intro e he
      rcases QMap.mem_touch _ _ _ _ he with h1 | h1
      · rw [h1]; exact List.nodup_nil
      · exact h.succNodup e h1
    · intro e he x hx
      rcases QMap.mem_touch _ _ _ _ he with h1 | h1
      · rw [h1] at hx; simp at hx
      · exact h.targets e h1 x hx
    · intro w
      simp only [pending_touch]
      exact h.degree w
  · simp only [hv, if_false]
    refine ⟨QMap.keys_nodup_set _ _ _ h.graphKeys,
      QMap.keys_nodup_set _ _ _ (QMap.keys_nodup_touch _ _ _ h.degreeKeys), ?_, ?_, ?_⟩
    · intro e he
      rcases QMap.mem_set _ _ _ _ he with h1 | h1
      · rw [h1]
        simp only
        rw [List.nodup_append]
        refine ⟨value_nodup_of_graph _ _ h.succNodup, List.nodup_singleton _, ?_⟩
        intro a ha hb
        simp at hb
        exact hv (hb ▸ ha)
      · exact h.succNodup e h1
    · intro e he x hx
      rw [QMap.mem_keys_set, QMap.mem_keys_touch]
      rcases QMap.mem_set _ _ _ _ he with h1 | h1
      · rw [h1] at hx
        simp only [List.mem_append, List.mem_singleton] at hx
        rcases hx with hx | hx
        · exact Or.inr (Or.inr (value_targets_of_graph _ _ _ _ h.targets hx))
        · exact Or.inl hx
      · exact Or.inr (Or.inr (h.targets e h1 x hx))
    · intro w
      simp only
      rw [pending_set_snoc _ _ _ _ h.graphKeys hv, QMap.value_set, QMap.value_touch,
        QMap.value_touch, h.degree w]
      by_cases hw : w = v
      · subst hw; simp [h.degree w]
      · simp [hw]

theorem addEdge_value_mono (s : TopologicalSorter) (u v u' v' : String)
    (h : v' ∈ QMap.value s.graph u' []) : v' ∈ QMap.value (s.addEdge u v).graph u' [] := by
  unfold addEdge
  by_cases hv : v ∈ QMap.value s.graph u []
  · simp only [hv, if_true, QMap.value_touch]
    exact h
  · simp only [hv, if_false, QMap.value_set]
    by_cases hu : u' = u
    · subst hu; simp [h]
    · simp [hu, h]

theorem addEdge_value_self (s : TopologicalSorter) (u v : String) :
    v ∈ QMap.value (s.addEdge u v).graph u [] := by
  unfold addEdge
  by_cases hv : v ∈ QMap.value s.graph u []
  · simp only [hv, if_true, QMap.value_touch]
  · simp only [hv, if_false, QMap.value_set]
    simp

end Core
namespace Core
open TopologicalSorter

theorem QMap.keys_set_of_mem (m : List (String × Int)) (k : String) (v : Int)
    (h : k ∈ m.map Prod.fst) : (QMap.set m k v).map Prod.fst = m.map Prod.fst := by
  unfold QMap.set
  rw [if_pos ((lookup_isSome_iff_mem_keys m k).2 h), QMap.keys_update]

theorem relax_cons (v : String) (vs : List String) (d : List (String × Int))
    (q : List String) :
    relax (v :: vs) (d, q) =
      relax vs (QMap.set d v (QMap.value d v 0 - 1),
        if QMap.value d v 0 - 1 = 0 then q ++ [v] else q) := rfl

theorem relax_spec (succ : List String) :
    ∀ (d : List (String × Int)) (q : List String), succ.Nodup → (∀ v ∈ succ, v ∈ d.map Prod.fst) →
      (relax succ (d, q)).2 = q ++ succ.filter (fun v => decide (QMap.value d v 0 = 1)) ∧
      (∀ w, QMap.value (relax succ (d, q)).1 w 0 =
        QMap.value d w 0 - (if w ∈ succ then 1 else 0)) ∧
      (relax succ (d, q)).1.map Prod.fst = d.map Prod.fst := by
  induction succ with
  | nil => intro d q _ _; simp [relax]
  | cons v vs ih =>
    intro d q hnd hkeys
    have hnd' := List.nodup_cons.1 hnd
    have hv : v ∈ d.map Prod.fst := hkeys v (by simp)
    have hk1 : (QMap.set d v (QMap.value d v 0 - 1)).map Prod.fst = d.map Prod.fst :=
      QMap.keys_set_of_mem d v _ hv
    obtain ⟨h1, h2, h3⟩ := ih (QMap.set d v (QMap.value d v 0 - 1))
      (if QMap.value d v 0 - 1 = 0 then q ++ [v] else q) hnd'.2
      (fun x hx => hk1 ▸ hkeys x (by simp [hx]))
    rw [relax_cons]
    refine ⟨?_, ?_, h3.trans hk1⟩
    · rw [h1]
      have hf : vs.filter (fun x => decide (QMap.value (QMap.set d v (QMap.value d v 0 - 1)) x 0 = 1)) =
          vs.filter (fun x => decide (QMap.value d x 0 = 1)) := by
        apply List.filter_congr
        intro x hx
        have : x ≠ v := fun h => hnd'.1 (h ▸ hx)
        simp [QMap.value_set, this]
      rw [hf]
      by_cases h0 : QMap.value d v 0 = 1
      · simp [h0, List.filter_cons]
      · have : ¬ (QMap.value d v 0 - 1 = 0) := fun h => h0 (by omega)
        simp [h0, this, List.filter_cons]
    · intro w
      rw [h2 w, QMap.value_set]
      by_cases hw : w = v
      · subst hw
        simp [hnd'.1]
      · simp [hw]

theorem count_of_nodup (l : List String) (v : String) (h : l.Nodup) :
    l.count v = if v ∈ l then 1 else 0 := by
  by_cases hv : v ∈ l
  · simp [hv, List.count_eq_one_of_mem h hv]
  · simp [hv, List.count_eq_zero_of_not_mem hv]

theorem length_lt_of_nodup_subset (l keys : List String) (x : String) (hl : l.Nodup)
    (hsub : ∀ v ∈ l, v ∈ keys) (hx : x ∈ keys) (hxl : x ∉ l) : l.length < keys.length := by
  have hnd : (x :: l).Nodup := List.nodup_cons.2 ⟨hxl, hl⟩
  have hs : x :: l ⊆ keys := by
    intro v hv
    rcases List.mem_cons.1 hv with h | h
    · exact h ▸ hx
    · exact hsub v h
  have := (List.subperm_of_subset hnd hs).length_le
  simpa using this

theorem loopInv_step (n : Nat) (u : String) (q : List String)
    (g : List (String × List String)) (d : List (String × Int)) (s : List String)
    (h : LoopInv n (u :: q) (g, d, s)) :
    LoopInv n (relax (QMap.value g u []) (d, q)).2
      (QMap.touch g u [], (relax (QMap.value g u []) (d, q)).1, s ++ [u]) := by
  have hsn : (QMap.value g u []).Nodup := value_nodup_of_graph g u h.succNodup
  have hst : ∀ v ∈ QMap.value g u [], v ∈ d.map Prod.fst :=
    fun v hv => value_targets_of_graph g u v _ h.targets hv
  obtain ⟨hq, hval, hkeys⟩ := relax_spec (QMap.value g u []) d q hsn hst
  have hnd := h.nodup
  simp only [List.cons_append, List.nodup_cons, List.mem_append, not_or] at hnd
  have hus : u ∉ s := hnd.1.2
  have hpend : ∀ w, pending g (s ++ [u]) w + (if w ∈ QMap.value g u [] then 1 else 0) =
      pending g s w := by
    intro w
    rw [← count_of_nodup _ w hsn]
    exact pending_sorted_snoc g u s w h.graphKeys hus
  have hdeg : ∀ w, QMap.value d w 0 = (pending g s w : Int) := h.degree
  have hzero : ∀ v, v = u ∨ v ∈ q ∨ v ∈ s → QMap.value d v 0 = 0 := by
    intro v hv
    apply h.zero
    simp only [List.cons_append, List.mem_cons, List.mem_append]
    tauto
  have hnew : ∀ v ∈ (QMap.value g u []).filter (fun v => decide (QMap.value d v 0 = 1)),
      v ∈ QMap.value g u [] ∧ QMap.value d v 0 = 1 := by
    intro v hv
    simpa using List.mem_filter.1 hv
  refine ⟨QMap.keys_nodup_touch _ _ _ h.graphKeys, ?_, ?_, ?_, ?_, ?_, ?_, ?_, ?_, ?_⟩
  · simp only [hkeys]; exact h.degreeKeys
  · intro e he
    rcases QMap.mem_touch _ _ _ _ he with h1 | h1
    · rw [h1]; exact List.nodup_nil
    · exact h.succNodup e h1
  · intro e he x hx
    simp only [hkeys]
    rcases QMap.mem_touch _ _ _ _ he with h1 | h1
    · rw [h1] at hx; simp at hx
    · exact h.targets e h1 x hx
  · intro w
    simp only [pending_touch]
    rw [hval w, hdeg w]
    have := hpend w
    by_cases hw : w ∈ QMap.value g u []
    · simp only [hw, if_true] at this ⊢
      omega
    · simp only [hw, if_false] at this ⊢
      omega
  · simp only [hq]
    have hperm : (q ++ (QMap.value g u []).filter (fun v => decide (QMap.value d v 0 = 1)) ++
        (s ++ [u])).Perm
        ((QMap.value g u []).filter (fun v => decide (QMap.value d v 0 = 1)) ++ (u :: (q ++ s))) := by
      have h1 : (q ++ (QMap.value g u []).filter (fun v => decide (QMap.value d v 0 = 1))).Perm
          ((QMap.value g u []).filter (fun v => decide (QMap.value d v 0 = 1)) ++ q) :=
        List.perm_append_comm
      have h2 : (s ++ [u]).Perm (u :: s) := List.perm_append_comm
      have h3 : (q ++ u :: s).Perm (u :: (q ++ s)) := List.perm_middle
      refine (List.Perm.append h1 h2).trans ?_
      rw [List.append_assoc]
      exact List.Perm.append_left _ h3
    rw [hperm.nodup_iff, List.nodup_append]
    refine ⟨List.Nodup.filter _ hsn, h.nodup, ?_⟩
    intro v hv1 hv2
    have h1 : QMap.value d v 0 = 1 := (hnew v hv1).2
    have h0 : QMap.value d v 0 = 0 := h.zero v (by simpa using hv2)
    omega
  · intro v hv
    simp only [hq, List.mem_append, List.mem_singleton] at hv
    rw [hval v]
    have hcases : (v = u ∨ v ∈ q ∨ v ∈ s) ∨
        v ∈ (QMap.value g u []).filter (fun v => decide (QMap.value d v 0 = 1)) := by tauto
    rcases hcases with hold | hn
    · have h0 := hzero v hold
      have hp := hpend v
      have hd := hdeg v
      by_cases hw : v ∈ QMap.value g u []
      · simp only [hw, if_true] at hp
        omega
      · simp [hw, h0]
    · obtain ⟨h1, h2⟩ := hnew v hn
      simp [h1, h2]
  · intro v hv
    simp only [hq, List.mem_append, List.mem_singleton] at hv
    simp only [hkeys]
    have hcases : (v = u ∨ v ∈ q ∨ v ∈ s) ∨
        v ∈ (QMap.value g u []).filter (fun v => decide (QMap.value d v 0 = 1)) := by tauto
    rcases hcases with hold | hn
    · apply h.inKeys
      simp only [List.cons_append, List.mem_cons, List.mem_append]
      tauto
    · exact hst v (hnew v hn).1
  · intro x hx
    rw [QMap.mem_keys_touch]
    simp only [List.mem_append, List.mem_singleton] at hx
    rcases hx with hx | hx
    · exact Or.inr (h.sortedKeys x hx)
    · exact Or.inl hx
  · have := congrArg List.length hkeys
    simp only [List.length_map] at this
    simp only [this]
    exact h.size

end Core
namespace Core
open TopologicalSorter

theorem blocked_touch (g : List (String × List String)) (u : String) (c : List String)
    (h : Blocked g c) : Blocked (QMap.touch g u []) c := by
  intro v hv
  obtain ⟨u', hu', hm⟩ := h v hv
  exact ⟨u', hu', by rw [QMap.value_touch]; exact hm⟩

theorem pending_ge_two (g : List (String × List String)) (s : List String) (u u' v : String)
    (hk : (g.map Prod.fst).Nodup) (hsn : ∀ e ∈ g, e.2.Nodup) (hu : u ∉ s) (hu' : u' ∉ s)
    (hne : u' ≠ u) (hv : v ∈ QMap.value g u []) (hv' : v ∈ QMap.value g u' []) :
    2 ≤ pending g s v := by
  have h1 := pending_sorted_snoc g u s v hk hu
  have h2 := pending_sorted_snoc g u' (s ++ [u]) v hk (by simp [hu', hne])
  rw [count_of_nodup _ v (value_nodup_of_graph g u hsn), if_pos hv] at h1
  rw [count_of_nodup _ v (value_nodup_of_graph g u' hsn), if_pos hv'] at h2
  omega

theorem pending_ge_one (g : List (String × List String)) (s : List String) (u v : String)
    (hk : (g.map Prod.fst).Nodup) (hsn : ∀ e ∈ g, e.2.Nodup) (hu : u ∉ s)
    (hv : v ∈ QMap.value g u []) : 1 ≤ pending g s v := by
  have h1 := pending_sorted_snoc g u s v hk hu
  rw [count_of_nodup _ v (value_nodup_of_graph g u hsn), if_pos hv] at h1
  omega

theorem sortLoop_spec (n : Nat) (c : List String) :
    ∀ (fuel : Nat) (q : List String) (g : List (String × List String))
      (d : List (String × Int)) (s : List String),
      LoopInv n q (g, d, s) → n ≤ fuel + s.length → Blocked g c → (∀ v ∈ c, v ∉ q ++ s) →
      ∃ g' d' s', sortLoop fuel q (g, d, s) = some (g', d', s') ∧ LoopInv n [] (g', d', s') ∧
        Blocked g' c ∧ ∀ v ∈ c, v ∉ s' := by
  intro fuel
  induction fuel with
  | zero =>
    intro q g d s h hfuel hb hav
    cases q with
    | nil =>
      exact ⟨g, d, s, by simp [sortLoop], h, hb, fun v hv => by simpa using hav v hv⟩
    | cons u q =>
      exfalso
      have hsub : (u :: q ++ s) ⊆ d.map Prod.fst := fun v hv => h.inKeys v hv
      have hlen := (List.subperm_of_subset h.nodup hsub).length_le
      have hsz : d.length = n := h.size
      simp only [List.length_append, List.length_cons, List.length_map] at hlen
      omega
  | succ fuel ih =>
    intro q g d s h hfuel hb hav
    cases q with
    | nil =>
      exact ⟨g, d, s, by simp [sortLoop], h, hb, fun v hv => by simpa using hav v hv⟩
    | cons u q =>
      have hstep := loopInv_step n u q g d s h
      have hsn : (QMap.value g u []).Nodup := value_nodup_of_graph g u h.succNodup
      have hst : ∀ v ∈ QMap.value g u [], v ∈ d.map Prod.fst :=
        fun v hv => value_targets_of_graph g u v _ h.targets hv
      obtain ⟨hq, -, -⟩ := relax_spec (QMap.value g u []) d q hsn hst
      have hnd := h.nodup
      simp only [List.cons_append, List.nodup_cons, List.mem_append, not_or] at hnd
      have huc : u ∉ c := fun hu => hav u hu (by simp)
      have hav' : ∀ v ∈ c, v ∉ (relax (QMap.value g u []) (d, q)).2 ++ (s ++ [u]) := by
        intro v hv hmem
        have hvold := hav v hv
        simp only [List.cons_append, List.mem_cons, List.mem_append, not_or] at hvold
        rw [hq] at hmem
        simp only [List.mem_append, List.mem_singleton, List.mem_filter,
          decide_eq_true_eq] at hmem
        rcases hmem with (hm | ⟨hm1, hm2⟩) | hm | hm
        · exact hvold.2.1 hm
        · obtain ⟨u', hu'c, hu'v⟩ := hb v hv
          have hu's : u' ∉ s := fun hx => hav u' hu'c (by simp [hx])
          have hne : u' ≠ u := fun hx => huc (hx ▸ hu'c)
          have h2 := pending_ge_two g s u u' v h.graphKeys h.succNodup hnd.1.2 hu's hne hm1 hu'v
          have hd : QMap.value d v 0 = (pending g s v : Int) := h.degree v
          omega
        · exact hvold.2.2 hm
        · exact hvold.1 hm
      obtain ⟨g', d', s', h1, h2, h3, h4⟩ := ih _ _ _ _ hstep
        (by simp only [List.length_append, List.length_singleton]; omega)
        (blocked_touch g u c hb) hav'
      exact ⟨g', d', s', by simpa [sortLoop] using h1, h2, h3, h4⟩

theorem loopInv_initial (s : TopologicalSorter) (h : GraphInv s) :
    LoopInv s.inDegree.length (initialQueue s.inDegree) (s.graph, s.inDegree, []) := by
  have hmem : ∀ v ∈ initialQueue s.inDegree, (v, (0 : Int)) ∈ s.inDegree := by
    intro v hv
    simp only [initialQueue, List.mem_map, List.mem_filter, decide_eq_true_eq] at hv
    obtain ⟨e, ⟨he, h0⟩, h1⟩ := hv
    obtain ⟨k, x⟩ := e
    simp only at h0 h1
    subst h0 h1
    exact he
  refine ⟨h.graphKeys, h.degreeKeys, h.succNodup, h.targets, h.degree, ?_, ?_, ?_, ?_, rfl⟩
  · simp only [List.append_nil, initialQueue]
    exact List.Nodup.sublist (List.Sublist.map _ (List.filter_sublist _)) h.degreeKeys
  · intro v hv
    simp only [List.append_nil] at hv
    exact value_of_mem s.inDegree (v, 0) 0 h.degreeKeys (hmem v hv)
  · intro v hv
    simp only [List.append_nil] at hv
    exact List.mem_map_of_mem Prod.fst (hmem v hv)
  · intro u hu
    simp at hu

theorem sort_spec (s : TopologicalSorter) (c : List String) (h : GraphInv s)
    (hb : Blocked s.graph c) :
    ∃ r, s.sort = some r ∧ (c ≠ [] → r.1 = false) := by
  have hav : ∀ v ∈ c, v ∉ initialQueue s.inDegree ++ [] := by
    intro v hv hmem
    simp only [List.append_nil, initialQueue, List.mem_map, List.mem_filter,
      decide_eq_true_eq] at hmem
    obtain ⟨e, ⟨he, h0⟩, h1⟩ := hmem
    have hval := value_of_mem s.inDegree e 0 h.degreeKeys he
    obtain ⟨u, -, huv⟩ := hb v hv
    have h1' := pending_ge_one s.graph [] u v h.graphKeys h.succNodup (by simp) huv
    have hz : QMap.value s.inDegree v 0 = 0 := by rw [← h1, hval, h0]
    have hd : QMap.value s.inDegree v 0 = (pending s.graph [] v : Int) := h.degree v
    omega
  obtain ⟨g', d', s', h1, h2, h3, h4⟩ := sortLoop_spec s.inDegree.length c s.inDegree.length
    (initialQueue s.inDegree) s.graph s.inDegree [] (loopInv_initial s h) (by simp) hb hav
  unfold TopologicalSorter.sort
  rw [h1]
  by_cases hlen : s'.length ≠ g'.length
  · exact ⟨(false, { s with graph := g', inDegree := d' }),
      by simp only [hlen, if_true, not_false_eq_true, ne_eq], fun _ => rfl⟩
  · refine ⟨(true, ⟨g', d', s'⟩), by simp only [hlen, if_false], ?_⟩
    intro hc
    exfalso
    obtain ⟨v, hv⟩ := List.exists_mem_of_ne_nil c hc
    obtain ⟨u, huc, huv⟩ := h3 v hv
    obtain ⟨e, he, he1, -⟩ := value_mem_graph g' u v huv
    have hukey : u ∈ g'.map Prod.fst := he1 ▸ List.mem_map_of_mem Prod.fst he
    have hnd : s'.Nodup := by simpa using h2.nodup
    have := length_lt_of_nodup_subset s' (g'.map Prod.fst) u hnd h2.sortedKeys hukey (h4 u huc)
    simp only [List.length_map] at this
    omega

end Core
namespace Core
open TopologicalSorter ActionDomainPrivate

/-! ### The walk of `setLayouts_helper` -/

theorem layout_sizeList_append (l1 l2 : List ActionLayout) :
    ActionLayout.size.sizeList (l1 ++ l2) =
      ActionLayout.size.sizeList l1 + ActionLayout.size.sizeList l2 := by
  induction l1 with
  | nil => simp [ActionLayout.size.sizeList]
  | cons a l1 ih => simp [ActionLayout.size.sizeList, ih, Nat.add_assoc]

theorem layout_sizeList_filter_le (p : ActionLayout → Bool) (l : List ActionLayout) :
    ActionLayout.size.sizeList (l.filter p) ≤ ActionLayout.size.sizeList l := by
  induction l with
  | nil => simp
  | cons a l ih =>
    by_cases h : p a = true
    · simp only [List.filter_cons, h, if_true, ActionLayout.size.sizeList]; omega
    · simp only [List.filter_cons, h, ActionLayout.size.sizeList]; simp; omega

theorem scanChildren_spec (om : ObjectInfoMap) (id : String) (items : List ActionLayout) :
    ∀ (stack : List ActionLayout) (sorter : TopologicalSorter),
      (scanChildren om id items (stack, sorter)).1 = stack ++ pushedChildren om items ∧
      (GraphInv sorter → GraphInv (scanChildren om id items (stack, sorter)).2) ∧
      (∀ u v, v ∈ QMap.value sorter.graph u [] →
        v ∈ QMap.value (scanChildren om id items (stack, sorter)).2.graph u []) ∧
      (∀ item ∈ items, item.id ≠ "" → StandaloneMenu om item.id →
        id ∈ QMap.value (scanChildren om id items (stack, sorter)).2.graph item.id []) := by
  induction items with
  | nil =>
    intro stack sorter
    simp [scanChildren, pushedChildren]
  | cons item rest ih =>
    intro stack sorter
    by_cases he : item.id = ""
    · obtain ⟨h1, h2, h3, h4⟩ := ih stack sorter
      simp only [scanChildren, he, if_true]
      refine ⟨?_, h2, h3, ?_⟩
      · rw [h1]; simp [pushedChildren, List.filter_cons, he]
      · intro x hx hne hsm
        rcases List.mem_cons.1 hx with h | h
        · exact absurd (h ▸ he) hne
        · exact h4 x h hne hsm
    · cases hl : om.lookup item.id with
      | none =>
        obtain ⟨h1, h2, h3, h4⟩ := ih stack sorter
        simp only [scanChildren, he, if_false, hl]
        refine ⟨?_, h2, h3, ?_⟩
        · rw [h1]; simp [pushedChildren, List.filter_cons, hl]
        · intro x hx hne hsm
          rcases List.mem_cons.1 hx with h | h
          · obtain ⟨info, hinfo, -⟩ := hsm
            rw [h, hl] at hinfo
            cases hinfo
          · exact h4 x h hne hsm
      | some info2 =>
        obtain ⟨h1, h2, h3, h4⟩ := ih (if item.children.isEmpty then stack else stack ++ [item])
          (if info2.type = ActionObjectType.Menu ∧ info2.mode ≠ ActionObjectMode.Plain then
            sorter.addEdge item.id id else sorter)
        simp only [scanChildren, he, if_false, hl]
        refine ⟨?_, ?_, ?_, ?_⟩
        · rw [h1]
          by_cases hc : item.children.isEmpty = true
          · simp [pushedChildren, List.filter_cons, hl, hc]
          · simp [pushedChildren, List.filter_cons, hl, hc, he]
        · intro hg
          apply h2
          split
          · exact graphInv_addEdge _ _ _ hg
          · exact hg
        · intro u v huv
          apply h3
          split
          · exact addEdge_value_mono _ _ _ _ _ huv
          · exact huv
        · intro x hx hne hsm
          rcases List.mem_cons.1 hx with h | h
          · subst h
            obtain ⟨info, hinfo, ht, hm⟩ := hsm
            rw [hl] at hinfo
            cases hinfo
            apply h3
            rw [if_pos ⟨ht, hm⟩]
            exact addEdge_value_self _ _ _
          · exact h4 x h hne hsm

end Core
namespace Core
open TopologicalSorter ActionDomainPrivate

theorem nestedIn_children_ne_nil (om : ObjectInfoMap) (t : ActionLayout) (target : String)
    (h : NestedIn om t target) : t.children.isEmpty = false := by
  cases h with
  | child _ c hc _ _ => cases hch : t.children <;> simp_all
  | deeper _ c _ hc _ _ _ => cases hch : t.children <;> simp_all

theorem collectEdges_spec (om : ObjectInfoMap) (id : String) :
    ∀ (fuel : Nat) (stack : List ActionLayout) (sorter : TopologicalSorter),
      ActionLayout.size.sizeList stack ≤ fuel →
      ∃ s', collectEdges om id fuel stack sorter = some s' ∧
        (GraphInv sorter → GraphInv s') ∧
        (∀ u v, v ∈ QMap.value sorter.graph u [] → v ∈ QMap.value s'.graph u []) ∧
        (∀ t ∈ stack, ∀ target, NestedIn om t target → StandaloneMenu om target →
          id ∈ QMap.value s'.graph target []) := by
  intro fuel
  induction fuel with
  | zero =>
    intro stack sorter h
    cases stack with
    | nil => exact ⟨sorter, by simp [collectEdges], fun hg => hg, fun _ _ h => h, by simp⟩
    | cons t stack =>
      cases t
      simp [ActionLayout.size.sizeList, ActionLayout.size] at h
  | succ fuel ih =>
    intro stack sorter h
    cases stack with
    | nil => exact ⟨sorter, by simp [collectEdges], fun hg => hg, fun _ _ h => h, by simp⟩
    | cons t stack =>
      obtain ⟨h1, h2, h3, h4⟩ := scanChildren_spec om id t.children stack sorter
      have hsz : ActionLayout.size.sizeList (stack ++ pushedChildren om t.children) ≤ fuel := by
        rw [layout_sizeList_append]
        have := layout_sizeList_filter_le (fun item =>
          decide (item.id ≠ "") && (om.lookup item.id).isSome && !item.children.isEmpty)
          t.children
        obtain ⟨i, ty, cs⟩ := t
        simp only [ActionLayout.size.sizeList, ActionLayout.size, ActionLayout.children,
          pushedChildren] at h this ⊢
        omega
      obtain ⟨s', e1, e2, e3, e4⟩ := ih (scanChildren om id t.children (stack, sorter)).1
        (scanChildren om id t.children (stack, sorter)).2 (by rw [h1]; exact hsz)
      refine ⟨s', ?_, fun hg => e2 (h2 hg), fun u v huv => e3 u v (h3 u v huv), ?_⟩
      · simp only [collectEdges]
        exact e1
      · intro x hx target hn hsm
        rcases List.mem_cons.1 hx with hxt | hxs
        · subst hxt
          cases hn with
          | child _ c hc hne hreg =>
            exact e3 _ _ (h4 c hc hne hsm)
          | deeper _ c _ hc hne hreg hnc =>
            apply e4 c _ target hnc hsm
            rw [h1]
            apply List.mem_append_right
            simp only [pushedChildren, List.mem_filter, Bool.and_eq_true, decide_eq_true_eq,
              Bool.not_eq_true']
            exact ⟨hc, ⟨hne, hreg⟩, nestedIn_children_ne_nil om c target hnc⟩
        · apply e4 x _ target hn hsm
          rw [h1]
          exact List.mem_append_left _ hxs

/-- The roots that `collectRoots` does not skip: the ones whose id is registered. -/
theorem collectRoots_spec (om : ObjectInfoMap) :
    ∀ (layouts : List ActionLayout) (layoutMap : List String) (sorter : TopologicalSorter),
      ∃ r, collectRoots om layouts layoutMap sorter = some r ∧
        (∀ s', r = some s' →
          (GraphInv sorter → GraphInv s') ∧
          (∀ u v, v ∈ QMap.value sorter.graph u [] → v ∈ QMap.value s'.graph u []) ∧
          (∀ t ∈ layouts, (om.lookup t.id).isSome = true → ∀ target, NestedIn om t target →
            StandaloneMenu om target → t.id ∈ QMap.value s'.graph target []) ∧
          (∀ t ∈ layouts, (om.lookup t.id).isSome = true → t.id ∉ layoutMap) ∧
          ((layouts.filter (fun t => (om.lookup t.id).isSome)).map ActionLayout.id).Nodup) := by
  intro layouts
  induction layouts with
  | nil =>
    intro layoutMap sorter
    exact ⟨some sorter, by simp [collectRoots], fun s' hs' => by
      cases hs'
      exact ⟨id, fun _ _ h => h, by simp, by simp, by simp⟩⟩
  | cons t rest ih =>
    intro layoutMap sorter
    cases hl : om.lookup t.id with
    | none =>
      obtain ⟨r, hr, hspec⟩ := ih layoutMap sorter
      refine ⟨r, by simp [collectRoots, hl, hr], ?_⟩
      intro s' hs'
      obtain ⟨g1, g2, g3, g4, g5⟩ := hspec s' hs'
      refine ⟨g1, g2, ?_, ?_, ?_⟩
      · intro x hx hreg
        rcases List.mem_cons.1 hx with h | h
        · rw [h, hl] at hreg; simp at hreg
        · exact g3 x h hreg
      · intro x hx hreg
        rcases List.mem_cons.1 hx with h | h
        · rw [h, hl] at hreg; simp at hreg
        · exact g4 x h hreg
      · simpa [List.filter_cons, hl] using g5
    | some info =>
      by_cases hmem : t.id ∈ layoutMap
      · exact ⟨none, by simp [collectRoots, hl, hmem], fun s' hs' => by cases hs'⟩
      · obtain ⟨s1, e1, e2, e3, e4⟩ := collectEdges_spec om t.id t.size [t] sorter
          (by simp [ActionLayout.size.sizeList])
        obtain ⟨r, hr, hspec⟩ := ih (layoutMap ++ [t.id]) s1
        refine ⟨r, by simp [collectRoots, hl, hmem, e1, hr], ?_⟩
        intro s' hs'
        obtain ⟨g1, g2, g3, g4, g5⟩ := hspec s' hs'
        refine ⟨fun hg => g1 (e2 hg), fun u v huv => g2 u v (e3 u v huv), ?_, ?_, ?_⟩
        · intro x hx hreg target hn hsm
          rcases List.mem_cons.1 hx with h | h
          · subst h
            exact g2 _ _ (e4 x (by simp) target hn hsm)
          · exact g3 x h hreg target hn hsm
        · intro x hx hreg
          rcases List.mem_cons.1 hx with h | h
          · subst h; exact hmem
          · intro hxm
            exact g4 x h hreg (by simp [hxm])
        · simp only [List.filter_cons, hl, Option.isSome_some, if_true, List.map_cons,
            List.nodup_cons]
          refine ⟨?_, g5⟩
          intro hin
          simp only [List.mem_map, List.mem_filter] at hin
          obtain ⟨x, ⟨hx, hreg⟩, hid⟩ := hin
          exact g4 x hx hreg (by simp [hid])

theorem setLayouts_helper_total (d : ActionDomainPrivate) (layouts : List ActionLayout) :
    d.setLayouts_helper layouts = some (false, d) ∨
      d.setLayouts_helper layouts = some (true, { d with layouts := some layouts }) := by
  obtain ⟨r, hr, hspec⟩ := collectRoots_spec d.objectInfoMap layouts [] TopologicalSorter.empty
  unfold setLayouts_helper
  rw [hr]
  cases r with
  | none => exact Or.inl rfl
  | some sorter =>
    obtain ⟨hg, -⟩ := hspec sorter rfl
    obtain ⟨res, hres, -⟩ := sort_spec sorter [] (hg graphInv_empty) (by intro v hv; simp at hv)
    simp only [hres]
    obtain ⟨b, s'⟩ := res
    cases b
    · exact Or.inl rfl
    · exact Or.inr rfl

theorem setLayouts_helper_cycle (d : ActionDomainPrivate) (layouts : List ActionLayout)
    (a b : ActionLayout) (ha : a ∈ layouts) (hb : b ∈ layouts)
    (hA : StandaloneMenu d.objectInfoMap a.id) (hB : StandaloneMenu d.objectInfoMap b.id)
    (hab : NestedIn d.objectInfoMap a b.id) (hba : NestedIn d.objectInfoMap b a.id) :
    d.setLayouts_helper layouts = some (false, d) := by
  obtain ⟨r, hr, hspec⟩ := collectRoots_spec d.objectInfoMap layouts [] TopologicalSorter.empty
  unfold setLayouts_helper
  rw [hr]
  cases r with
  | none => rfl
  | some sorter =>
    obtain ⟨hg, -, hedges, -, -⟩ := hspec sorter rfl
    have hregA : (d.objectInfoMap.lookup a.id).isSome = true := by
      obtain ⟨info, h, -⟩ := hA; simp [h]
    have hregB : (d.objectInfoMap.lookup b.id).isSome = true := by
      obtain ⟨info, h, -⟩ := hB; simp [h]
    have e1 : a.id ∈ QMap.value sorter.graph b.id [] := hedges a ha hregA b.id hab hB
    have e2 : b.id ∈ QMap.value sorter.graph a.id [] := hedges b hb hregB a.id hba hA
    have hblocked : Blocked sorter.graph [a.id, b.id] := by
      intro v hv
      simp only [List.mem_cons, List.mem_singleton, List.not_mem_nil, or_false] at hv
      rcases hv with h | h
      · exact ⟨b.id, by simp, h ▸ e1⟩
      · exact ⟨a.id, by simp, h ▸ e2⟩
    obtain ⟨res, hres, hfalse⟩ := sort_spec sorter [a.id, b.id] (hg graphInv_empty) hblocked
    simp only [hres]
    obtain ⟨bb, s'⟩ := res
    have : bb = false := hfalse (by simp)
    subst this
    rfl

end Core
namespace Core
open TopologicalSorter ActionDomainPrivate LayoutsHelper

/-- C7 (as amended). Cycle detection. If the forest contains two roots `a` and `b` that are
registered menus other than Plain, and each one's id is carried by a node below the other that
the walk reaches (that node and every node above it up to the root carry non-empty registered
ids), then `setLayouts_helper` reports failure and leaves the state unchanged, `setLayouts`
leaves the composed layouts empty, and so does build-on-read when the built forest is that
forest. -/
theorem cycle_detection (d : ActionDomainPrivate) (layouts : List ActionLayout)
    (a b : ActionLayout) (ha : a ∈ layouts) (hb : b ∈ layouts)
    (hA : StandaloneMenu d.objectInfoMap a.id) (hB : StandaloneMenu d.objectInfoMap b.id)
    (hab : NestedIn d.objectInfoMap a b.id) (hba : NestedIn d.objectInfoMap b a.id) :
    d.setLayouts_helper layouts = some (false, d) ∧
      ActionDomain.setLayouts d layouts = some { d with layouts := some [] } ∧
      (d.layouts = none → build d.extensions d.objectInfoMap = some layouts →
        d.flushLayouts = some { d with layouts := some [] }) := by
  have h := setLayouts_helper_cycle d layouts a b ha hb hA hB hab hba
  refine ⟨h, by simp [ActionDomain.setLayouts, h], ?_⟩
  intro hnone hbuild
  simp [flushLayouts, hnone, hbuild, h]

/-- Witness of C7: the extension that declares `file[export]` and `export[file]`. Its built
forest is rejected and reading the layouts gives the empty list. -/
theorem cycle_detection_witness :
    (Examples.domain [Examples.cycleExt] Examples.menuRegistry).setLayouts_helper
        Examples.cycleForest =
      some (false, Examples.domain [Examples.cycleExt] Examples.menuRegistry) ∧
    (Examples.domain [Examples.cycleExt] Examples.menuRegistry).flushLayouts =
      some { Examples.domain [Examples.cycleExt] Examples.menuRegistry with layouts := some [] } :=
  have h := cycle_detection (Examples.domain [Examples.cycleExt] Examples.menuRegistry)
    Examples.cycleForest
    (.mk "file" ActionLayoutType.Menu [.mk "export" ActionLayoutType.Menu []])
    (.mk "export" ActionLayoutType.Menu [.mk "file" ActionLayoutType.Menu []])
    (by simp [Examples.cycleForest]) (by simp [Examples.cycleForest])
    ⟨Examples.fileInfo, rfl, rfl, by decide⟩ ⟨Examples.exportInfo, rfl, rfl, by decide⟩
    (NestedIn.child _ (.mk "export" ActionLayoutType.Menu []) (by simp [ActionLayout.children])
      (by decide) (by decide))
    (NestedIn.child _ (.mk "file" ActionLayoutType.Menu []) (by simp [ActionLayout.children])
      (by decide) (by decide))
  ⟨h.1, h.2.2 rfl (by decide)⟩

/-- Counterexample to C7 as stated: in the forest `file[ghost[export]]`, `export[file]` the
registered standalone menus `file` and `export` occur in each other's subtree, but `export` lies
below `ghost`, whose id is not registered, so the walk never reaches it: `setLayouts_helper`
reports success and `setLayouts` installs the forest instead of the empty list. -/
theorem cycle_hidden_below_unregistered_node :
    (Examples.hiddenCycleForest.map ActionLayout.id = ["file", "export"] ∧
      Examples.menuRegistry.lookup "file" = some Examples.fileInfo ∧
      Examples.menuRegistry.lookup "export" = some Examples.exportInfo ∧
      Examples.menuRegistry.lookup "ghost" = none ∧
      Examples.hiddenCycleForest.map (ActionLayout.occursBelow "export") = [true, false] ∧
      Examples.hiddenCycleForest.map (ActionLayout.occursBelow "file") = [false, true]) ∧
    (Examples.domain [] Examples.menuRegistry).setLayouts_helper Examples.hiddenCycleForest =
      some (true, { Examples.domain [] Examples.menuRegistry with
        layouts := some Examples.hiddenCycleForest }) ∧
    (ActionDomain.setLayouts (Examples.domain [] Examples.menuRegistry)
        Examples.hiddenCycleForest).map ActionDomainPrivate.layouts =
      some (some Examples.hiddenCycleForest) := by
  refine ⟨by decide, ?_, ?_⟩
  · rfl
  · rfl

end Core
namespace Core
open TopologicalSorter ActionDomainPrivate LayoutsHelper

/-- C8 (the code at the failing input). The extension declares `file[export]` first and
`export[save]` second. The standalone menu `export` is nested in the root `file`, the sorter of
`setLayouts_helper` puts it first (`export` before `file`), but the list installed and returned
by `layouts()` keeps the declaration order: `file` comes before `export`. -/
theorem final_order_is_declaration_order :
    (ActionDomain.layouts (Examples.domain [Examples.nestedExt] Examples.menuRegistry)).map
        Prod.fst =
      some [.mk "file" ActionLayoutType.Menu [.mk "export" ActionLayoutType.Menu []],
        .mk "export" ActionLayoutType.Menu [.mk "save" ActionLayoutType.Action []]] ∧
    (((collectRoots Examples.menuRegistry
        [.mk "file" ActionLayoutType.Menu [.mk "export" ActionLayoutType.Menu []],
          .mk "export" ActionLayoutType.Menu [.mk "save" ActionLayoutType.Action []]] []
        TopologicalSorter.empty).bind (fun r => r)).bind TopologicalSorter.sort).map
        (fun r => (r.1, r.2.result)) =
      some (true, ["export", "file"]) := by
  constructor
  · rfl
  · rfl

/-- C10 (the code at the failing input). The layout `file[ghost]` refers to the id `ghost`,
which is not registered. `build` keeps the entry: the composed forest is `file[ghost]`. -/
theorem unregistered_nested_entry_is_kept :
    Examples.menuRegistry.lookup "ghost" = none ∧
    build [Examples.ghostExt] Examples.menuRegistry =
      some [.mk "file" ActionLayoutType.Menu [.mk "ghost" ActionLayoutType.Action []]] ∧
    (ActionDomain.layouts (Examples.domain [Examples.ghostExt] Examples.menuRegistry)).map
        Prod.fst =
      some [.mk "file" ActionLayoutType.Menu [.mk "ghost" ActionLayoutType.Action []]] := by
  refine ⟨rfl, rfl, rfl⟩

end Core
namespace Core
open TopologicalSorter ActionDomainPrivate LayoutsHelper

theorem allSome_eq_some {α : Type} (l : List (Option α)) (r : List α) :
    allSome l = some r ↔ l = r.map some := by
  induction l generalizing r with
  | nil => cases r <;> simp [allSome]
  | cons a l ih =>
    cases a with
    | none => cases r <;> simp [allSome]
    | some x =>
      cases h : allSome l with
      | none =>
        have hne : ∀ r' : List α, l ≠ r'.map some := fun r' hr => by
          have := (ih r').2 hr
          rw [h] at this
          cases this
        cases r with
        | nil => simp [allSome, h]
        | cons y r =>
          simp only [allSome, h, List.map_cons, List.cons.injEq]
          constructor
          · intro h'; cases h'
          · intro h'; exact absurd h'.2 (hne r)
      | some r' =>
        have hl := (ih r').1 h
        cases r with
        | nil => simp [allSome, h]
        | cons y r =>
          simp only [allSome, h, Option.some.injEq, List.cons.injEq, List.map_cons]
          constructor
          · rintro ⟨rfl, rfl⟩
            exact ⟨rfl, hl⟩
          · rintro ⟨rfl, h2⟩
            refine ⟨rfl, ?_⟩
            have := (ih r).2 h2
            rw [h] at this
            exact Option.some.inj this

theorem toLayout_head (heap : List TreeNode) (fuel i : Nat) (t : ActionLayout) (id : String)
    (ty : ActionLayoutType) (h : toLayout heap fuel i = some t)
    (hh : headAt heap i = some (id, ty)) (h1 : ty ≠ ActionLayoutType.Separator)
    (h2 : ty ≠ ActionLayoutType.Stretch) : t.id = id ∧ t.type = ty := by
  cases fuel with
  | zero => simp [toLayout] at h
  | succ fuel =>
    unfold headAt at hh
    cases hn : heap[i]? with
    | none => simp [hn] at hh
    | some node =>
      simp only [hn, Option.map_some', Option.some.injEq, Prod.mk.injEq] at hh
      obtain ⟨hid, hty⟩ := hh
      simp only [toLayout, hn, hty, h1, h2, if_false] at h
      cases hc : allSome (node.children.map (toLayout heap fuel)) with
      | none => simp [hc] at h
      | some cs =>
        simp only [hc, Option.some.injEq] at h
        rw [← h]
        exact ⟨hid, rfl⟩

theorem applyRoutine_headAt (om : ObjectInfoMap) (st : List TreeNode × IdIndexes)
    (r : ActionBuildRoutine) :
    st.1.length ≤ (applyRoutine om st r).1.length ∧
      ∀ q, q < st.1.length → headAt (applyRoutine om st r).1 q = headAt st.1 q := by
  unfold applyRoutine
  cases hl : st.2.lookup r.parent with
  | none => simp
  | some l =>
    simp only
    have hspec := layoutInfoToLayoutList_spec r.items st.1 st.2
    generalize layoutInfoToLayout.layoutInfoToLayoutList r.items st.1 st.2 = c at hspec
    obtain ⟨items, heap1, idx1⟩ := c
    obtain ⟨⟨ext, hext⟩, -⟩ := hspec
    simp only at hext ⊢
    subst hext
    constructor
    · rw [foldl_applyToParent_length]
      simp
    · intro q hq
      rw [foldl_applyToParent_headAt, headAt_append _ _ _ hq]

theorem foldl_applyRoutine_headAt (om : ObjectInfoMap) (rs : List ActionBuildRoutine) :
    ∀ st : List TreeNode × IdIndexes,
      st.1.length ≤ (rs.foldl (applyRoutine om) st).1.length ∧
        ∀ q, q < st.1.length → headAt (rs.foldl (applyRoutine om) st).1 q = headAt st.1 q := by
  induction rs with
  | nil => intro st; simp
  | cons r rs ih =>
    intro st
    obtain ⟨h1, h2⟩ := applyRoutine_headAt om st r
    obtain ⟨h3, h4⟩ := ih (applyRoutine om st r)
    rw [List.foldl_cons]
    exact ⟨le_trans h1 h3, fun q hq => (h4 q (lt_of_lt_of_le hq h1)).trans (h2 q hq)⟩

theorem applyRoutines_headAt (om : ObjectInfoMap) (exts : List ActionExtension) :
    ∀ st : List TreeNode × IdIndexes,
      st.1.length ≤ (applyRoutines om exts st).1.length ∧
        ∀ q, q < st.1.length → headAt (applyRoutines om exts st).1 q = headAt st.1 q := by
  induction exts with
  | nil => intro st; simp [applyRoutines]
  | cons e es ih =>
    intro st
    obtain ⟨h1, h2⟩ := foldl_applyRoutine_headAt om e.buildRoutines st
    obtain ⟨h3, h4⟩ := ih (e.buildRoutines.foldl (applyRoutine om) st)
    simp only [applyRoutines, List.foldl_cons] at h3 h4 ⊢
    exact ⟨le_trans h1 h3, fun q hq => (h4 q (lt_of_lt_of_le hq h1)).trans (h2 q hq)⟩

theorem firstStandalone_registered (om : ObjectInfoMap) (t n : ActionLayoutInfo)
    (h : FirstStandalone om t n) : (om.lookup n.id).isSome = true := by
  induction h with
  | stop t info hl hs => simp [hl]
  | step t c n info hl hs hc _ ih => exact ih

theorem rootLayouts_registered (om : ObjectInfoMap) (ls : List ActionLayoutInfo)
    (n : ActionLayoutInfo) (h : n ∈ rootLayouts om ls) : (om.lookup n.id).isSome = true := by
  induction ls with
  | nil => simp [rootLayouts] at h
  | cons l ls ih =>
    simp only [rootLayouts, List.mem_append] at h
    rcases h with h | h
    · rw [(collectStandalone_root om l).2.mem_iff] at h
      exact firstStandalone_registered om l n (mem_firstStandalone om l n h)
    · exact ih h

theorem not_nodup_of_duplicate {α β : Type} (p : α → Bool) (f : α → β) (l : List α) :
    ∀ (i j : Nat) (x y : α), i < j → l[i]? = some x → l[j]? = some y → p x = true →
      p y = true → f x = f y → ¬ ((l.filter p).map f).Nodup := by
  induction l with
  | nil => intro i j x y _ hx; simp at hx
  | cons a l ih =>
    intro i j x y hij hx hy hpx hpy hf hnd
    cases j with
    | zero => omega
    | succ j =>
      simp only [List.getElem?_cons_succ] at hy
      cases i with
      | zero =>
        simp only [List.getElem?_cons_zero, Option.some.injEq] at hx
        subst hx
        simp only [List.filter_cons, hpx, if_true, List.map_cons, List.nodup_cons] at hnd
        apply hnd.1
        rw [hf]
        have hmem : y ∈ l := by
          obtain ⟨hlt, he⟩ := List.getElem?_eq_some_iff.1 hy
          exact he ▸ List.getElem_mem hlt
        exact List.mem_map_of_mem f (List.mem_filter.2 ⟨hmem, hpy⟩)
      | succ i =>
        simp only [List.getElem?_cons_succ] at hx
        apply ih i j x y (by omega) hx hy hpx hpy hf
        by_cases hpa : p a = true
        · simp only [List.filter_cons, hpa, if_true, List.map_cons, List.nodup_cons] at hnd
          exact hnd.2
        · simpa [List.filter_cons, hpa] using hnd

end Core
namespace Core
open TopologicalSorter ActionDomainPrivate LayoutsHelper

theorem build_root_ids (exts : List ActionExtension) (om : ObjectInfoMap)
    (built : List ActionLayout) (hb : build exts om = some built) (k : Nat)
    (l : ActionLayoutInfo) (hl : (rootLayouts om (declaredLayouts exts))[k]? = some l)
    (h1 : l.type ≠ ActionLayoutType.Separator) (h2 : l.type ≠ ActionLayoutType.Stretch) :
    ∃ t, built[k]? = some t ∧ t.id = l.id := by
  unfold build at hb
  rw [buildExtensions_eq] at hb
  obtain ⟨new, ext, hr, hh, hheads, hrange, -⟩ :=
    appendRoots_spec (rootLayouts om (declaredLayouts exts)) [] [] []
  generalize appendRoots (rootLayouts om (declaredLayouts exts)) ([], [], []) = st at *
  obtain ⟨roots, heap, idx⟩ := st
  simp only [List.nil_append] at hr hh hheads hrange hb
  subst hr
  unfold applyBuildRoutines at hb
  obtain ⟨hlen, hhead⟩ := applyRoutines_headAt om exts (heap, idx)
  generalize applyRoutines om exts (heap, idx) = st1 at *
  obtain ⟨heap1, idx1⟩ := st1
  simp only at hb hlen hhead
  rw [allSome_eq_some] at hb
  have e1 := congrArg (fun x => x[k]?) hheads
  simp only [List.getElem?_map, hl, Option.map_some'] at e1
  cases hrk : roots[k]? with
  | none => simp [hrk] at e1
  | some r =>
    simp only [hrk, Option.map_some', Option.some.injEq] at e1
    have hrmem : r ∈ roots := by
      obtain ⟨hlt, he⟩ := List.getElem?_eq_some_iff.1 hrk
      exact he ▸ List.getElem_mem hlt
    have hrlt : r < heap.length := (hrange r hrmem).2
    have e2 := congrArg (fun x => x[k]?) hb
    simp only [List.getElem?_map, hrk, Option.map_some'] at e2
    cases hbk : built[k]? with
    | none => simp [hbk] at e2
    | some t =>
      simp only [hbk, Option.map_some', Option.some.injEq] at e2
      refine ⟨t, rfl, ?_⟩
      have hnid : nodeId l = l.id := by simp [nodeId, h1, h2]
      have hh1 : headAt heap1 r = some (l.id, l.type) := by
        rw [hhead r hrlt, e1, hnid]
      exact (toLayout_head heap1 _ r t l.id l.type e2 hh1 h1 h2).1

/-- C9 (as amended). When the same id is reached as a first standalone entry from two declared
layout trees (two positions of the list of root entries, neither of type Separator or Stretch),
the forest that `build` returns is rejected by `setLayouts_helper` and `layouts()` returns the
empty list: the duplicate declaration is not merged. -/
theorem duplicate_roots_rejected (d : ActionDomainPrivate) (built : List ActionLayout)
    (hnone : d.layouts = none) (hb : build d.extensions d.objectInfoMap = some built)
    (i j : Nat) (l1 l2 : ActionLayoutInfo) (hij : i < j)
    (h1 : (rootLayouts d.objectInfoMap (declaredLayouts d.extensions))[i]? = some l1)
    (h2 : (rootLayouts d.objectInfoMap (declaredLayouts d.extensions))[j]? = some l2)
    (hid : l1.id = l2.id)
    (ht1 : l1.type ≠ ActionLayoutType.Separator ∧ l1.type ≠ ActionLayoutType.Stretch)
    (ht2 : l2.type ≠ ActionLayoutType.Separator ∧ l2.type ≠ ActionLayoutType.Stretch) :
    d.setLayouts_helper built = some (false, d) ∧
      ActionDomain.layouts d = some ([], { d with layouts := some [] }) := by
  obtain ⟨t1, hb1, hid1⟩ := build_root_ids _ _ built hb i l1 h1 ht1.1 ht1.2
  obtain ⟨t2, hb2, hid2⟩ := build_root_ids _ _ built hb j l2 h2 ht2.1 ht2.2
  have mem_of : ∀ (k : Nat) (l : ActionLayoutInfo),
      (rootLayouts d.objectInfoMap (declaredLayouts d.extensions))[k]? = some l →
      l ∈ rootLayouts d.objectInfoMap (declaredLayouts d.extensions) := by
    intro k l hk
    obtain ⟨hlt, he⟩ := List.getElem?_eq_some_iff.1 hk
    exact he ▸ List.getElem_mem hlt
  have hreg1 : (d.objectInfoMap.lookup t1.id).isSome = true := by
    rw [hid1]; exact rootLayouts_registered _ _ l1 (mem_of i l1 h1)
  have hreg2 : (d.objectInfoMap.lookup t2.id).isSome = true := by
    rw [hid2]; exact rootLayouts_registered _ _ l2 (mem_of j l2 h2)
  have hhelper : d.setLayouts_helper built = some (false, d) := by
    obtain ⟨r, hr, hspec⟩ := collectRoots_spec d.objectInfoMap built [] TopologicalSorter.empty
    unfold setLayouts_helper
    rw [hr]
    cases r with
    | none => rfl
    | some sorter =>
      exfalso
      obtain ⟨-, -, -, -, hnd⟩ := hspec sorter rfl
      exact not_nodup_of_duplicate (fun t => (d.objectInfoMap.lookup t.id).isSome)
        ActionLayout.id built i j t1 t2 hij hb1 hb2 hreg1 hreg2
        (by rw [hid1, hid2, hid]) hnd
  refine ⟨hhelper, ?_⟩
  simp [ActionDomain.layouts, flushLayouts, hnone, hb, hhelper]

/-- Witness of C9 (as amended): the extension that declares `file[open]` twice. -/
theorem duplicate_roots_rejected_witness :
    (Examples.domain [Examples.duplicateExt] Examples.registry).setLayouts_helper
        [.mk "file" ActionLayoutType.Menu [.mk "open" ActionLayoutType.Action []],
          .mk "file" ActionLayoutType.Menu [.mk "open" ActionLayoutType.Action []]] =
      some (false, Examples.domain [Examples.duplicateExt] Examples.registry) ∧
    ActionDomain.layouts (Examples.domain [Examples.duplicateExt] Examples.registry) =
      some ([], { Examples.domain [Examples.duplicateExt] Examples.registry with
        layouts := some [] }) :=
  duplicate_roots_rejected (Examples.domain [Examples.duplicateExt] Examples.registry)
    [.mk "file" ActionLayoutType.Menu [.mk "open" ActionLayoutType.Action []],
      .mk "file" ActionLayoutType.Menu [.mk "open" ActionLayoutType.Action []]]
    rfl (by decide) 0 1 Examples.fileLayout Examples.fileLayout (by decide) (by rfl) (by rfl)
    rfl (by decide) (by decide)

/-- Counterexample to C9 as stated: the standalone menu `file` is the first standalone entry of
two declared layout trees; `build` returns two roots `file`, `setLayouts_helper` rejects them,
and the forest returned by `layouts()` is empty, so it contains the root `file` zero times. -/
theorem duplicate_root_is_not_merged :
    Examples.registry.lookup "file" = some Examples.fileInfo ∧
    Examples.fileInfo.standalone = true ∧
    rootLayouts Examples.registry (declaredLayouts [Examples.duplicateExt]) =
      [Examples.fileLayout, Examples.fileLayout] ∧
    (build [Examples.duplicateExt] Examples.registry).map (List.map ActionLayout.id) =
      some ["file", "file"] ∧
    (ActionDomain.layouts (Examples.domain [Examples.duplicateExt] Examples.registry)).map
        Prod.fst = some [] := by
  refine ⟨rfl, rfl, ?_, ?_, ?_⟩
  · rfl
  · decide
  · decide

end Core
namespace Core
open TopologicalSorter ActionDomainPrivate LayoutsHelper

/-! ### Persistence round trip -/

theorem elementName_ne_sep (type : ActionLayoutType)
    (h : ¬ (type = ActionLayoutType.Separator ∨ type = ActionLayoutType.Stretch)) :
    elementName type ≠ "separator" ∧ elementName type ≠ "stretch" := by
  cases type <;> simp [elementName] at h ⊢

theorem property_id (id : String) (type : ActionLayoutType) (name value : String)
    (cs : List QMXmlAdaptorElement) (h : id ≠ "") :
    (QMXmlAdaptorElement.mk name (elementProperties id type) value cs).property "id" = id := by
  simp [QMXmlAdaptorElement.property, QMXmlAdaptorElement.properties, elementProperties, h,
    lookup_cons_ite]

theorem property_flat (id : String) (type : ActionLayoutType) (name value : String)
    (cs : List QMXmlAdaptorElement) (h : id ≠ "") :
    ((QMXmlAdaptorElement.mk name (elementProperties id type) value cs).property "flat" = "true") ↔
      type = ActionLayoutType.ExpandedMenu := by
  by_cases ht : type = ActionLayoutType.ExpandedMenu
  · simp [QMXmlAdaptorElement.property, QMXmlAdaptorElement.properties, elementProperties, h,
      lookup_cons_ite, ht]
  · simp [QMXmlAdaptorElement.property, QMXmlAdaptorElement.properties, elementProperties, h,
      lookup_cons_ite, ht]

theorem fromNodeElement_serialize (om : ObjectInfoMap) (id : String) (type : ActionLayoutType)
    (value : String) (cs : List QMXmlAdaptorElement) (sr : Bool) (info : ActionObjectInfo)
    (hs : ¬ (type = ActionLayoutType.Separator ∨ type = ActionLayoutType.Stretch))
    (hid : id ≠ "") (hl : om.lookup id = some info)
    (hsr : (!sr || info.standalone) = true) (htm : typeMatches info.type type = true) :
    fromNodeElement om (.mk (elementName type) (elementProperties id type) value cs) sr =
      some ⟨id, type, []⟩ := by
  have hn := elementName_ne_sep type hs
  have hpid := property_id id type (elementName type) value cs hid
  have hflat := fun n => property_flat id type n value cs hid
  have hname : (QMXmlAdaptorElement.mk (elementName type) (elementProperties id type) value
      cs).name = elementName type := rfl
  have hsr' : ¬ (sr = true ∧
      (info.type = ActionObjectType.Action ∨ info.mode = ActionObjectMode.Plain)) := by
    intro ⟨h1, h2⟩
    simp only [h1, Bool.not_true, Bool.false_or, ActionObjectInfo.standalone, Bool.and_eq_true,
      decide_eq_true_eq] at hsr
    rcases h2 with h2 | h2
    · exact hsr.1 h2
    · exact hsr.2 h2
  unfold fromNodeElement
  rw [hname, hpid]
  simp only [hn.1, hn.2, if_false, hid, hl, hsr']
  cases hit : info.type <;> cases type <;> simp [hit, typeMatches] at htm hs ⊢ <;>
    simp [elementName, hflat]

end Core
namespace Core
open TopologicalSorter ActionDomainPrivate LayoutsHelper

theorem restoreElementHelper_node (om : ObjectInfoMap) (name : String)
    (props : List (String × String)) (value : String) (cs : List QMXmlAdaptorElement)
    (heap : List TreeNode) (idx : IdIndexes) (sr : Bool) (id : String) (type : ActionLayoutType)
    (hf : fromNodeElement om (.mk name props value cs) sr = some ⟨id, type, []⟩)
    (hs : ¬ (type = ActionLayoutType.Separator ∨ type = ActionLayoutType.Stretch)) :
    restoreElementHelper om (.mk name props value cs) heap idx sr =
      (some (restoreElementHelper.restoreChildren om cs heap idx).2.1.length,
        (restoreElementHelper.restoreChildren om cs heap idx).2.1 ++
          [⟨id, type, (restoreElementHelper.restoreChildren om cs heap idx).1⟩],
        IdIndexes.append (restoreElementHelper.restoreChildren om cs heap idx).2.2 id
          (restoreElementHelper.restoreChildren om cs heap idx).2.1.length) := by
  simp [restoreElementHelper, hf, hs]

theorem restoreElementHelper_sep (om : ObjectInfoMap) (name : String)
    (props : List (String × String)) (value : String) (cs : List QMXmlAdaptorElement)
    (heap : List TreeNode) (idx : IdIndexes) (sr : Bool) (type : ActionLayoutType)
    (hf : fromNodeElement om (.mk name props value cs) sr = some ⟨"", type, []⟩)
    (hs : type = ActionLayoutType.Separator ∨ type = ActionLayoutType.Stretch) :
    restoreElementHelper om (.mk name props value cs) heap idx sr =
      (some heap.length, heap ++ [⟨"", type, []⟩], idx) := by
  simp [restoreElementHelper, hf, hs]

theorem restoreChildren_cons_some (om : ObjectInfoMap) (c : QMXmlAdaptorElement)
    (cs : List QMXmlAdaptorElement) (heap heap1 : List TreeNode) (idx idx1 : IdIndexes) (i : Nat)
    (h : restoreElementHelper om c heap idx false = (some i, heap1, idx1)) :
    restoreElementHelper.restoreChildren om (c :: cs) heap idx =
      (i :: (restoreElementHelper.restoreChildren om cs heap1 idx1).1,
        (restoreElementHelper.restoreChildren om cs heap1 idx1).2.1,
        (restoreElementHelper.restoreChildren om cs heap1 idx1).2.2) := by
  simp [restoreElementHelper.restoreChildren, h]

theorem toLayout_node (heap : List TreeNode) (fuel i : Nat) (node : TreeNode)
    (cs : List ActionLayout) (hn : heap[i]? = some node)
    (hs : ¬ (node.type = ActionLayoutType.Separator ∨ node.type = ActionLayoutType.Stretch))
    (hc : allSome (node.children.map (toLayout heap fuel)) = some cs) :
    toLayout heap (fuel + 1) i = some (.mk node.id node.type cs) := by
  have h1 : node.type ≠ ActionLayoutType.Separator := fun h => hs (Or.inl h)
  have h2 : node.type ≠ ActionLayoutType.Stretch := fun h => hs (Or.inr h)
  simp [toLayout, hn, h1, h2, hc]

theorem toLayout_shared (heap : List TreeNode) (fuel i : Nat) (node : TreeNode)
    (hn : heap[i]? = some node) :
    (node.type = ActionLayoutType.Separator → toLayout heap (fuel + 1) i = some sharedSeparator) ∧
      (node.type = ActionLayoutType.Stretch → toLayout heap (fuel + 1) i = some sharedStretch) := by
  constructor
  · intro h
    simp [toLayout, hn, h]
  · intro h
    simp [toLayout, hn, h]

theorem getElem?_middle (heap ext2 : List TreeNode) (n : TreeNode) :
    (heap ++ [n] ++ ext2)[heap.length]? = some n := by
  rw [List.append_assoc, List.getElem?_append_right (le_refl _)]
  simp

mutual

theorem restore_serialize (om : ObjectInfoMap) :
    ∀ (t : ActionLayout) (heap : List TreeNode) (idx : IdIndexes) (sr : Bool),
      restorable om sr t = true →
      ∃ i ext idx', restoreElementHelper om (serializeLayout t) heap idx sr =
          (some i, heap ++ ext, idx') ∧ ext.length = t.size ∧
        ∀ ext2 fuel, t.size ≤ fuel → toLayout (heap ++ ext ++ ext2) fuel i = some t
  | .mk id type children, heap, idx, sr, h => by
    by_cases hs : type = ActionLayoutType.Separator ∨ type = ActionLayoutType.Stretch
    · simp only [restorable, hs, if_true, Bool.and_eq_true, decide_eq_true_eq,
        List.isEmpty_iff] at h
      obtain ⟨hid, hch⟩ := h
      subst hid hch
      have hf : fromNodeElement om (serializeLayout (.mk "" type [])) sr = some ⟨"", type, []⟩ := by
        rcases hs with hs | hs <;> subst hs <;> rfl
      refine ⟨heap.length, [⟨"", type, []⟩], idx, ?_, ?_, ?_⟩
      · exact restoreElementHelper_sep om _ _ _ _ heap idx sr type hf hs
      · simp [ActionLayout.size, ActionLayout.size.sizeList]
      · intro ext2 fuel hfuel
        cases fuel with
        | zero => simp [ActionLayout.size] at hfuel
        | succ fuel =>
          have hsh := toLayout_shared (heap ++ [⟨"", type, []⟩] ++ ext2) fuel heap.length
            ⟨"", type, []⟩ (getElem?_middle heap ext2 _)
          rcases hs with hs | hs
          · subst hs; exact hsh.1 rfl
          · subst hs; exact hsh.2 rfl
    · simp only [restorable, hs, if_false, Bool.and_eq_true, decide_eq_true_eq] at h
      obtain ⟨⟨hid, hinfo⟩, hlist⟩ := h
      cases hl : om.lookup id with
      | none => simp [hl] at hinfo
      | some info =>
        simp only [hl, Bool.and_eq_true] at hinfo
        obtain ⟨hsr, htm⟩ := hinfo
        obtain ⟨is, ext, idx1, hrc, hlen, hall⟩ := restore_serializeList om children heap idx hlist
        have hf := fromNodeElement_serialize om id type ""
          (serializeLayout.serializeLayoutList children) sr info hs hid hl hsr htm
        have hr := restoreElementHelper_node om _ _ _ _ heap idx sr id type hf hs
        rw [hrc] at hr
        simp only at hr
        refine ⟨(heap ++ ext).length, ext ++ [⟨id, type, is⟩],
          IdIndexes.append idx1 id (heap ++ ext).length, ?_, ?_, ?_⟩
        · rw [← List.append_assoc]
          exact hr
        · simp [hlen, ActionLayout.size]
        · intro ext2 fuel hfuel
          cases fuel with
          | zero => simp [ActionLayout.size] at hfuel
          | succ fuel =>
            have hget : (heap ++ (ext ++ [⟨id, type, is⟩]) ++ ext2)[(heap ++ ext).length]? =
                some ⟨id, type, is⟩ := by
              rw [← List.append_assoc]
              exact getElem?_middle (heap ++ ext) ext2 _
            have hc := hall ([⟨id, type, is⟩] ++ ext2) fuel (by
              simp only [ActionLayout.size] at hfuel
              omega)
            have heq : heap ++ ext ++ ([⟨id, type, is⟩] ++ ext2) =
                heap ++ (ext ++ [⟨id, type, is⟩]) ++ ext2 := by simp
            rw [heq] at hc
            exact toLayout_node _ fuel _ ⟨id, type, is⟩ children hget hs hc

theorem restore_serializeList (om : ObjectInfoMap) :
    ∀ (ts : List ActionLayout) (heap : List TreeNode) (idx : IdIndexes),
      restorable.restorableList om false ts = true →
      ∃ is ext idx', restoreElementHelper.restoreChildren om
          (serializeLayout.serializeLayoutList ts) heap idx = (is, heap ++ ext, idx') ∧
        ext.length = ActionLayout.size.sizeList ts ∧
        ∀ ext2 fuel, ActionLayout.size.sizeList ts ≤ fuel →
          allSome (is.map (toLayout (heap ++ ext ++ ext2) fuel)) = some ts
  | [], heap, idx, _ => by
    refine ⟨[], [], idx, by simp [serializeLayout.serializeLayoutList,
      restoreElementHelper.restoreChildren], by simp [ActionLayout.size.sizeList], ?_⟩
    intro ext2 fuel _
    simp [allSome]
  | t :: ts, heap, idx, h => by
    simp only [restorable.restorableList, Bool.and_eq_true] at h
    obtain ⟨i, e1, idx1, hr1, hl1, ht1⟩ := restore_serialize om t heap idx false h.1
    obtain ⟨is, e2, idx2, hr2, hl2, ht2⟩ := restore_serializeList om ts (heap ++ e1) idx1 h.2
    have hcons := restoreChildren_cons_some om (serializeLayout t)
      (serializeLayout.serializeLayoutList ts) heap (heap ++ e1) idx idx1 i hr1
    rw [hr2] at hcons
    simp only at hcons
    refine ⟨i :: is, e1 ++ e2, idx2, ?_, ?_, ?_⟩
    · simp only [serializeLayout.serializeLayoutList]
      rw [← List.append_assoc]
      exact hcons
    · simp [hl1, hl2, ActionLayout.size.sizeList]
    · intro ext2 fuel hfuel
      simp only [ActionLayout.size.sizeList] at hfuel
      have a1 := ht1 (e2 ++ ext2) fuel (by omega)
      have a2 := ht2 ext2 fuel (by omega)
      have heq : heap ++ e1 ++ (e2 ++ ext2) = heap ++ (e1 ++ e2) ++ ext2 := by simp
      have heq2 : heap ++ e1 ++ e2 ++ ext2 = heap ++ (e1 ++ e2) ++ ext2 := by simp
      rw [heq] at a1
      rw [heq2] at a2
      rw [List.map_cons, a1]
      simp only [allSome, a2]

end

end Core
namespace Core
open TopologicalSorter ActionDomainPrivate LayoutsHelper

theorem restoreRoots_serialize (om : ObjectInfoMap) :
    ∀ (ts : List ActionLayout) (roots : List Nat) (heap : List TreeNode) (idx : IdIndexes),
      restorable.restorableList om true ts = true →
      ∃ is ext idx', restoreRoots om (serializeLayout.serializeLayoutList ts) (roots, heap, idx) =
          (roots ++ is, heap ++ ext, idx') ∧
        ext.length = ActionLayout.size.sizeList ts ∧
        ∀ ext2 fuel, ActionLayout.size.sizeList ts ≤ fuel →
          allSome (is.map (toLayout (heap ++ ext ++ ext2) fuel)) = some ts := by
  intro ts
  induction ts with
  | nil =>
    intro roots heap idx _
    exact ⟨[], [], idx, by simp [serializeLayout.serializeLayoutList, restoreRoots],
      by simp [ActionLayout.size.sizeList], fun _ _ _ => by simp [allSome]⟩
  | cons t ts ih =>
    intro roots heap idx h
    simp only [restorable.restorableList, Bool.and_eq_true] at h
    obtain ⟨i, e1, idx1, hr1, hl1, ht1⟩ := restore_serialize om t heap idx true h.1
    obtain ⟨is, e2, idx2, hr2, hl2, ht2⟩ := ih (roots ++ [i]) (heap ++ e1) idx1 h.2
    refine ⟨i :: is, e1 ++ e2, idx2, ?_, ?_, ?_⟩
    · simp only [serializeLayout.serializeLayoutList, restoreRoots, hr1, hr2]
      simp
    · simp [hl1, hl2, ActionLayout.size.sizeList]
    · intro ext2 fuel hfuel
      simp only [ActionLayout.size.sizeList] at hfuel
      have a1 := ht1 (e2 ++ ext2) fuel (by omega)
      have a2 := ht2 ext2 fuel (by omega)
      have heq : heap ++ e1 ++ (e2 ++ ext2) = heap ++ (e1 ++ e2) ++ ext2 := by simp
      have heq2 : heap ++ e1 ++ e2 ++ ext2 = heap ++ (e1 ++ e2) ++ ext2 := by simp
      rw [heq] at a1
      rw [heq2] at a2
      rw [List.map_cons, a1]
      simp only [allSome, a2]

theorem restoreHashes_serialize (exts : List ActionExtension) :
    ∀ acc : List String, (∀ e ∈ exts, e.hash ≠ "") →
      restoreHashes (serializeExtensions exts) acc = acc ++ exts.map ActionExtension.hash := by
  induction exts with
  | nil => intro acc _; simp [serializeExtensions, restoreHashes]
  | cons e es ih =>
    intro acc h
    have he : e.hash ≠ "" := h e (by simp)
    have hp : (QMXmlAdaptorElement.mk "extension" [("hash", e.hash)] "" []).property "hash" =
        e.hash := by
      simp [QMXmlAdaptorElement.property, QMXmlAdaptorElement.properties, lookup_cons_ite]
    simp only [serializeExtensions, restoreHashes, hp, he, if_false]
    rw [ih _ (fun x hx => h x (by simp [hx]))]
    simp

theorem restore_serialize_forest (exts : List ActionExtension) (om : ObjectInfoMap)
    (forest : List ActionLayout) (hhash : ∀ e ∈ exts, e.hash ≠ "")
    (hres : restorable.restorableList om true forest = true) :
    restore exts om (some (serialize exts forest)) = some (forest, true) := by
  obtain ⟨is, ext, idx', hr, hlen, hall⟩ := restoreRoots_serialize om forest [] [] [] hres
  have hfilter : exts.filter
      (fun e => decide (¬ e.hash ∈ ([] : List String) ++ exts.map ActionExtension.hash)) = [] := by
    rw [List.filter_eq_nil_iff]
    intro e he
    simp only [List.nil_append, decide_not, Bool.not_eq_true', decide_eq_false_iff_not,
      not_not, Bool.not_eq_true, decide_eq_true_eq]
    exact List.mem_map_of_mem ActionExtension.hash he
  have hroot : restoreRootChildren om (serialize exts forest).children ([], [], [], []) =
      ([] ++ exts.map ActionExtension.hash, [] ++ is, [] ++ ext, idx') := by
    simp only [serialize, QMXmlAdaptorElement.children, restoreRootChildren,
      QMXmlAdaptorElement.name, if_true, restoreHashes_serialize exts [] hhash, hr]
    simp
  have hname : (serialize exts forest).name = "actionDomain" := rfl
  unfold restore
  simp only [hname, ne_eq, not_true_eq_false, if_false, hroot, hfilter]
  have h1 := hall [] (([] ++ ext : List TreeNode).length + 1) (by simp [hlen])
  simp only [List.nil_append, List.append_nil] at h1 ⊢
  simp only [applyBuildRoutines, applyRoutines, List.foldl_nil, h1]

end Core
namespace Core
open TopologicalSorter ActionDomainPrivate LayoutsHelper

theorem setLayouts_helper_congr (d d2 : ActionDomainPrivate) (layouts : List ActionLayout)
    (hom : d2.objectInfoMap = d.objectInfoMap)
    (h : d.setLayouts_helper layouts = some (true, { d with layouts := some layouts })) :
    d2.setLayouts_helper layouts = some (true, { d2 with layouts := some layouts }) := by
  unfold setLayouts_helper at h ⊢
  rw [hom]
  cases hc : collectRoots d.objectInfoMap layouts [] TopologicalSorter.empty with
  | none => simp [hc] at h
  | some r =>
    cases r with
    | none => simp [hc] at h
    | some sorter =>
      simp only [hc] at h ⊢
      cases hs : sorter.sort with
      | none => simp [hs] at h
      | some res =>
        obtain ⟨b, s'⟩ := res
        cases b
        · simp [hs] at h
        · rfl

theorem setLayouts_helper_nil (d : ActionDomainPrivate) :
    d.setLayouts_helper [] = some (true, { d with layouts := some [] }) := rfl

theorem flushLayouts_spec (d d1 : ActionDomainPrivate) (hf : d.flushLayouts = some d1)
    (hcache : ∀ cached, d.layouts = some cached → d.setLayouts_helper cached = some (true, d)) :
    d1.extensions = d.extensions ∧ d1.objectInfoMap = d.objectInfoMap ∧
      ∃ forest, d1.layouts = some forest ∧ d1.setLayouts_helper forest = some (true, d1) := by
  unfold flushLayouts at hf
  cases hl : d.layouts with
  | some cached =>
    simp only [hl, Option.some.injEq] at hf
    subst hf
    exact ⟨rfl, rfl, cached, hl, hcache cached hl⟩
  | none =>
    simp only [hl] at hf
    cases hb : build d.extensions d.objectInfoMap with
    | none => simp [hb] at hf
    | some built =>
      simp only [hb] at hf
      rcases setLayouts_helper_total d built with hh | hh
      · simp only [hh, Option.some.injEq] at hf
        subst hf
        exact ⟨rfl, rfl, [], rfl, setLayouts_helper_nil _⟩
      · simp only [hh, Option.some.injEq] at hf
        subst hf
        exact ⟨rfl, rfl, built, rfl, setLayouts_helper_congr d _ built rfl hh⟩

/-- C1 (as amended). Round trip. Take a state whose cached forest, if there is one, is one that
`setLayouts_helper` accepts (the only forests the domain ever caches), in which every registered
extension has a non-empty hash, and whose composed forest is restorable: every node other than
Separator/Stretch carries a non-empty registered id whose object type matches the node type, and
every root names a standalone object. Then feeding the result of `saveLayouts` back into
`restoreLayouts` succeeds and leaves the state, and so the forest returned by `layouts()`,
exactly as it was. -/
theorem save_restore_round_trip (d d1 : ActionDomainPrivate) (data : QMXmlAdaptorElement)
    (hsave : ActionDomain.saveLayouts d = some (data, d1))
    (hcache : ∀ cached, d.layouts = some cached → d.setLayouts_helper cached = some (true, d))
    (hhash : ∀ e ∈ d.extensions, e.hash ≠ "")
    (hres : restorable.restorableList d.objectInfoMap true (d1.layouts.getD []) = true) :
    ∃ forest, ActionDomain.layouts d = some (forest, d1) ∧
      ActionDomain.restoreLayouts d1 (some data) = some (true, d1) ∧
      ActionDomain.layouts d1 = some (forest, d1) := by
  unfold ActionDomain.saveLayouts at hsave
  cases hf : d.flushLayouts with
  | none => simp [hf] at hsave
  | some d' =>
    simp only [hf, Option.some.injEq, Prod.mk.injEq] at hsave
    obtain ⟨hdata, hd'⟩ := hsave
    subst hd'
    obtain ⟨hext, hom, forest, hforest, hhelper⟩ := flushLayouts_spec d d' hf hcache
    rw [hforest] at hres hdata
    simp only [Option.getD_some] at hres hdata
    have hrestore := restore_serialize_forest d'.extensions d'.objectInfoMap forest
      (by rw [hext]; exact hhash) (by rw [hom]; exact hres)
    refine ⟨forest, ?_, ?_, ?_⟩
    · simp [ActionDomain.layouts, hf, hforest]
    · simp [ActionDomain.restoreLayouts, ← hdata, hrestore, hhelper]
    · simp [ActionDomain.layouts, flushLayouts, hforest]

/-- Witness of C1 (as amended): extension A declares `file[open]` and extension B inserts `save`
after `open`; saving and restoring leaves the state with the forest `file[open, save]`. -/
theorem save_restore_round_trip_witness :
    ∃ forest,
      ActionDomain.layouts
          (Examples.domain [Examples.extA, Examples.extB Anchor.After "open"]
            Examples.registry) =
        some (forest,
          { Examples.domain [Examples.extA, Examples.extB Anchor.After "open"]
              Examples.registry with layouts := some [Examples.fileOpenSave] }) ∧
      ActionDomain.restoreLayouts
          { Examples.domain [Examples.extA, Examples.extB Anchor.After "open"]
              Examples.registry with layouts := some [Examples.fileOpenSave] }
          (some (serialize [Examples.extA, Examples.extB Anchor.After "open"]
            [Examples.fileOpenSave])) =
        some (true,
          { Examples.domain [Examples.extA, Examples.extB Anchor.After "open"]
              Examples.registry with layouts := some [Examples.fileOpenSave] }) ∧
      ActionDomain.layouts
          { Examples.domain [Examples.extA, Examples.extB Anchor.After "open"]
              Examples.registry with layouts := some [Examples.fileOpenSave] } =
        some (forest,
          { Examples.domain [Examples.extA, Examples.extB Anchor.After "open"]
              Examples.registry with layouts := some [Examples.fileOpenSave] }) :=
  save_restore_round_trip
    (Examples.domain [Examples.extA, Examples.extB Anchor.After "open"] Examples.registry)
    { Examples.domain [Examples.extA, Examples.extB Anchor.After "open"]
        Examples.registry with layouts := some [Examples.fileOpenSave] }
    (serialize [Examples.extA, Examples.extB Anchor.After "open"] [Examples.fileOpenSave])
    rfl (fun cached h => by cases h) (by decide) (by decide)

/-- Counterexample to C1 as stated, on three registries. (1) Extension B has an empty hash:
`restore` ignores the empty `hash` attribute, replays B's routine, and the forest
`file[open, save]` comes back as `file[open, save, save]`. (2) The root entry `file` has type
Group while the object `file` is a menu: the composed forest has the root `file`, the restored
forest is empty. (3) The composed forest `file[ghost]` holds the unregistered id `ghost`, which
`restore` drops. In all three cases `restoreLayouts` returns `true`. -/
theorem round_trip_changes_forest :
    ((ActionDomain.layouts
          (Examples.domain [Examples.extA, Examples.emptyHashExt] Examples.registry)).map
        Prod.fst = some [Examples.fileOpenSave] ∧
      ((ActionDomain.saveLayouts
          (Examples.domain [Examples.extA, Examples.emptyHashExt] Examples.registry)).bind
        (fun p => ActionDomain.restoreLayouts p.2 (some p.1))).map
        (fun p => (p.1, p.2.layouts)) =
        some (true, some [.mk "file" ActionLayoutType.Menu
          [.mk "open" ActionLayoutType.Action [], .mk "save" ActionLayoutType.Action [],
            .mk "save" ActionLayoutType.Action []]])) ∧
    ((ActionDomain.layouts
          (Examples.domain [Examples.mismatchExt] Examples.menuRegistry)).map Prod.fst =
        some [.mk "file" ActionLayoutType.Group []] ∧
      ((ActionDomain.saveLayouts
          (Examples.domain [Examples.mismatchExt] Examples.menuRegistry)).bind
        (fun p => ActionDomain.restoreLayouts p.2 (some p.1))).map
        (fun p => (p.1, p.2.layouts)) = some (true, some [])) ∧
    ((ActionDomain.layouts
          (Examples.domain [Examples.ghostExt] Examples.menuRegistry)).map Prod.fst =
        some [.mk "file" ActionLayoutType.Menu [.mk "ghost" ActionLayoutType.Action []]] ∧
      ((ActionDomain.saveLayouts
          (Examples.domain [Examples.ghostExt] Examples.menuRegistry)).bind
        (fun p => ActionDomain.restoreLayouts p.2 (some p.1))).map
        (fun p => (p.1, p.2.layouts)) =
        some (true, some [.mk "file" ActionLayoutType.Menu []])) := by
  refine ⟨⟨?_, ?_⟩, ⟨?_, ?_⟩, ⟨?_, ?_⟩⟩ <;> decide

end Core
namespace Core
open TopologicalSorter ActionDomainPrivate LayoutsHelper

/-! ### Stability of the conversion and of the index map -/

theorem toLayout_append (heap ext : List TreeNode) :
    ∀ (fuel i : Nat) (t : ActionLayout), toLayout heap fuel i = some t →
      toLayout (heap ++ ext) fuel i = some t := by
  intro fuel
  induction fuel with
  | zero => intro i t h; simp [toLayout] at h
  | succ fuel ih =>
    intro i t h
    cases hn : heap[i]? with
    | none => simp [toLayout, hn] at h
    | some node =>
      have hlt : i < heap.length := (List.getElem?_eq_some_iff.1 hn).1
      have hn' : (heap ++ ext)[i]? = some node := by
        rw [List.getElem?_append_left hlt]; exact hn
      by_cases h1 : node.type = ActionLayoutType.Separator
      · rw [(toLayout_shared heap fuel i node hn).1 h1] at h
        rw [(toLayout_shared (heap ++ ext) fuel i node hn').1 h1]
        exact h
      · by_cases h2 : node.type = ActionLayoutType.Stretch
        · rw [(toLayout_shared heap fuel i node hn).2 h2] at h
          rw [(toLayout_shared (heap ++ ext) fuel i node hn').2 h2]
          exact h
        · simp only [toLayout, hn, h1, h2, if_false] at h
          cases hc : allSome (node.children.map (toLayout heap fuel)) with
          | none => simp [hc] at h
          | some cs =>
            simp only [hc, Option.some.injEq] at h
            have hmap := (allSome_eq_some _ cs).1 hc
            have hc' : allSome (node.children.map (toLayout (heap ++ ext) fuel)) = some cs := by
              rw [allSome_eq_some, ← hmap]
              apply List.map_congr_left
              intro c hcm
              have hsome : ∃ tc, toLayout heap fuel c = some tc := by
                have hmem : toLayout heap fuel c ∈ node.children.map (toLayout heap fuel) :=
                  List.mem_map_of_mem _ hcm
                rw [hmap] at hmem
                obtain ⟨tc, -, htc⟩ := List.mem_map.1 hmem
                exact ⟨tc, htc.symm⟩
              obtain ⟨tc, htc⟩ := hsome
              rw [htc, ih c tc htc]
            rw [← h]
            exact toLayout_node (heap ++ ext) fuel i node cs hn' (by simp [h1, h2]) hc'

theorem toLayout_fuel_succ (heap : List TreeNode) :
    ∀ (fuel i : Nat) (t : ActionLayout), toLayout heap fuel i = some t →
      toLayout heap (fuel + 1) i = some t := by
  intro fuel
  induction fuel with
  | zero => intro i t h; simp [toLayout] at h
  | succ fuel ih =>
    intro i t h
    cases hn : heap[i]? with
    | none => simp [toLayout, hn] at h
    | some node =>
      by_cases h1 : node.type = ActionLayoutType.Separator
      · rw [(toLayout_shared heap fuel i node hn).1 h1] at h
        rw [(toLayout_shared heap (fuel + 1) i node hn).1 h1]
        exact h
      · by_cases h2 : node.type = ActionLayoutType.Stretch
        · rw [(toLayout_shared heap fuel i node hn).2 h2] at h
          rw [(toLayout_shared heap (fuel + 1) i node hn).2 h2]
          exact h
        · simp only [toLayout, hn, h1, h2, if_false] at h
          cases hc : allSome (node.children.map (toLayout heap fuel)) with
          | none => simp [hc] at h
          | some cs =>
            simp only [hc, Option.some.injEq] at h
            have hmap := (allSome_eq_some _ cs).1 hc
            have hc' : allSome (node.children.map (toLayout heap (fuel + 1))) = some cs := by
              rw [allSome_eq_some, ← hmap]
              apply List.map_congr_left
              intro c hcm
              have hmem : toLayout heap fuel c ∈ node.children.map (toLayout heap fuel) :=
                List.mem_map_of_mem _ hcm
              rw [hmap] at hmem
              obtain ⟨tc, -, htc⟩ := List.mem_map.1 hmem
              rw [← htc, ih c tc htc.symm]
            rw [← h]
            exact toLayout_node heap (fuel + 1) i node cs hn (by simp [h1, h2]) hc'

theorem toLayout_fuel_mono (heap : List TreeNode) (fuel fuel' i : Nat) (t : ActionLayout)
    (h : toLayout heap fuel i = some t) (hle : fuel ≤ fuel') :
    toLayout heap fuel' i = some t := by
  induction hle with
  | refl => exact h
  | step _ ih => exact toLayout_fuel_succ heap _ i t ih

theorem applyRoutine_exact (om : ObjectInfoMap) (heap : List TreeNode) (idx : IdIndexes)
    (r : ActionBuildRoutine) (hinv : IdIndexesExact heap idx) :
    IdIndexesExact (applyRoutine om (heap, idx) r).1 (applyRoutine om (heap, idx) r).2 := by
  by_cases hfound : occurrences heap r.parent = []
  · rw [applyRoutine_skip om heap idx r hinv hfound]
    exact hinv
  · rw [applyRoutine_eq om heap idx r hinv hfound]
    exact idIndexesExact_foldl _ _ _ _ _ _
      ((layoutInfoToLayoutList_spec r.items heap idx).2.2.2 hinv)

theorem foldl_applyRoutine_exact (om : ObjectInfoMap) (rs : List ActionBuildRoutine) :
    ∀ st : List TreeNode × IdIndexes, IdIndexesExact st.1 st.2 →
      IdIndexesExact (rs.foldl (applyRoutine om) st).1 (rs.foldl (applyRoutine om) st).2 := by
  induction rs with
  | nil => intro st h; exact h
  | cons r rs ih =>
    intro st h
    rw [List.foldl_cons]
    exact ih _ (applyRoutine_exact om st.1 st.2 r h)

theorem applyRoutines_exact (om : ObjectInfoMap) (exts : List ActionExtension) :
    ∀ st : List TreeNode × IdIndexes, IdIndexesExact st.1 st.2 →
      IdIndexesExact (applyRoutines om exts st).1 (applyRoutines om exts st).2 := by
  induction exts with
  | nil => intro st h; exact h
  | cons e es ih =>
    intro st h
    simp only [applyRoutines, List.foldl_cons]
    exact ih _ (foldl_applyRoutine_exact om e.buildRoutines st h)

theorem buildExtensions_exact (om : ObjectInfoMap) (exts : List ActionExtension)
    (roots : List Nat) (heap : List TreeNode) (idx : IdIndexes)
    (h : buildExtensions om exts ([], [], []) = some (roots, heap, idx)) :
    IdIndexesExact heap idx := by
  rw [buildExtensions_eq] at h
  obtain ⟨-, -, -, -, -, -, hinv⟩ :=
    appendRoots_spec (rootLayouts om (declaredLayouts exts)) [] [] []
  simp only [Option.some.injEq] at h
  rw [h] at hinv
  exact hinv idIndexesExact_nil

end Core
namespace Core
open TopologicalSorter ActionDomainPrivate LayoutsHelper

theorem restoreChildren_cons_state (om : ObjectInfoMap) (c : QMXmlAdaptorElement)
    (cs : List QMXmlAdaptorElement) (heap : List TreeNode) (idx : IdIndexes) :
    (restoreElementHelper.restoreChildren om (c :: cs) heap idx).2 =
      (restoreElementHelper.restoreChildren om cs (restoreElementHelper om c heap idx false).2.1
        (restoreElementHelper om c heap idx false).2.2).2 := by
  generalize hr : restoreElementHelper om c heap idx false = r1
  obtain ⟨o, heap1, idx1⟩ := r1
  cases o <;> simp [restoreElementHelper.restoreChildren, hr]

mutual

theorem restoreElementHelper_exact (om : ObjectInfoMap) :
    ∀ (e : QMXmlAdaptorElement) (heap : List TreeNode) (idx : IdIndexes) (sr : Bool),
      IdIndexesExact heap idx →
      IdIndexesExact (restoreElementHelper om e heap idx sr).2.1
        (restoreElementHelper om e heap idx sr).2.2
  | .mk name props value cs, heap, idx, sr, h => by
    cases hf : fromNodeElement om (.mk name props value cs) sr with
    | none =>
      simp only [restoreElementHelper, hf]
      exact h
    | some node =>
      by_cases hs : node.type = ActionLayoutType.Separator ∨ node.type = ActionLayoutType.Stretch
      · simp only [restoreElementHelper, hf, hs, if_true]
        exact idIndexesExact_snoc_plain heap idx node hs h
      · have ih := restoreChildren_exact om cs heap idx h
        simp only [restoreElementHelper, hf, hs, if_false]
        exact idIndexesExact_snoc_id _ _
          { node with children := (restoreElementHelper.restoreChildren om cs heap idx).1 } hs ih

theorem restoreChildren_exact (om : ObjectInfoMap) :
    ∀ (cs : List QMXmlAdaptorElement) (heap : List TreeNode) (idx : IdIndexes),
      IdIndexesExact heap idx →
      IdIndexesExact (restoreElementHelper.restoreChildren om cs heap idx).2.1
        (restoreElementHelper.restoreChildren om cs heap idx).2.2
  | [], heap, idx, h => by
    simp only [restoreElementHelper.restoreChildren]
    exact h
  | c :: cs, heap, idx, h => by
    have ih1 := restoreElementHelper_exact om c heap idx false h
    have ih2 := restoreChildren_exact om cs (restoreElementHelper om c heap idx false).2.1
      (restoreElementHelper om c heap idx false).2.2 ih1
    have hst := restoreChildren_cons_state om c cs heap idx
    have h1 : (restoreElementHelper.restoreChildren om (c :: cs) heap idx).2.1 =
        (restoreElementHelper.restoreChildren om cs (restoreElementHelper om c heap idx false).2.1
          (restoreElementHelper om c heap idx false).2.2).2.1 := congrArg Prod.fst hst
    have h2 : (restoreElementHelper.restoreChildren om (c :: cs) heap idx).2.2 =
        (restoreElementHelper.restoreChildren om cs (restoreElementHelper om c heap idx false).2.1
          (restoreElementHelper om c heap idx false).2.2).2.2 := congrArg Prod.snd hst
    rw [h1, h2]
    exact ih2

end

theorem restoreRoots_exact (om : ObjectInfoMap) :
    ∀ (items : List QMXmlAdaptorElement) (roots : List Nat) (heap : List TreeNode)
      (idx : IdIndexes), IdIndexesExact heap idx →
      IdIndexesExact (restoreRoots om items (roots, heap, idx)).2.1
        (restoreRoots om items (roots, heap, idx)).2.2 := by
  intro items
  induction items with
  | nil => intro roots heap idx h; exact h
  | cons item rest ih =>
    intro roots heap idx h
    have h1 := restoreElementHelper_exact om item heap idx true h
    generalize hr : restoreElementHelper om item heap idx true = r1 at h1
    obtain ⟨o, heap1, idx1⟩ := r1
    cases o with
    | none =>
      simp only [restoreRoots, hr]
      exact ih roots heap1 idx1 h1
    | some i =>
      simp only [restoreRoots, hr]
      exact ih (roots ++ [i]) heap1 idx1 h1

theorem restoreRootChildren_exact (om : ObjectInfoMap) :
    ∀ (children : List QMXmlAdaptorElement) (hashes : List String) (roots : List Nat)
      (heap : List TreeNode) (idx : IdIndexes), IdIndexesExact heap idx →
      IdIndexesExact (restoreRootChildren om children (hashes, roots, heap, idx)).2.2.1
        (restoreRootChildren om children (hashes, roots, heap, idx)).2.2.2 := by
  intro children
  induction children with
  | nil => intro hashes roots heap idx h; exact h
  | cons c rest ih =>
    intro hashes roots heap idx h
    by_cases h1 : c.name = "extensions"
    · simp only [restoreRootChildren, h1, if_true]
      exact ih _ roots heap idx h
    · by_cases h2 : c.name = "layouts"
      · simp only [restoreRootChildren, h1, h2, if_true, if_false]
        have := restoreRoots_exact om c.children roots heap idx h
        generalize restoreRoots om c.children (roots, heap, idx) = st at this
        obtain ⟨roots1, heap1, idx1⟩ := st
        exact ih hashes roots1 heap1 idx1 this
      · simp only [restoreRootChildren, h1, h2, if_false]
        exact ih hashes roots heap idx h

end Core
namespace Core
open TopologicalSorter ActionDomainPrivate LayoutsHelper

/-! ### The fuel of the conversion is enough -/

theorem allSome_eq_none {α : Type} (l : List (Option α)) : allSome l = none ↔ none ∈ l := by
  induction l with
  | nil => simp [allSome]
  | cons a l ih =>
    cases a with
    | none => simp [allSome]
    | some x =>
      cases h : allSome l with
      | none => simp [allSome, h, ih.1 h]
      | some r =>
        have : none ∉ l := fun hn => by
          rw [ih.2 hn] at h
          cases h
        simp [allSome, h, this]

theorem toLayout_lt (heap : List TreeNode) (fuel i : Nat) (h : toLayout heap fuel i ≠ none) :
    i < heap.length := by
  cases fuel with
  | zero => simp [toLayout] at h
  | succ fuel =>
    cases hn : heap[i]? with
    | none => simp [toLayout, hn] at h
    | some node => exact (List.getElem?_eq_some_iff.1 hn).1

theorem toLayout_ne_none_succ (heap : List TreeNode) (fuel i : Nat)
    (h : toLayout heap fuel i ≠ none) : toLayout heap (fuel + 1) i ≠ none := by
  cases ht : toLayout heap fuel i with
  | none => exact absurd ht h
  | some t =>
    rw [toLayout_fuel_succ heap fuel i t ht]
    simp

theorem toLayout_succ (heap : List TreeNode) (fuel i : Nat) (node : TreeNode)
    (hn : heap[i]? = some node) (h1 : node.type ≠ ActionLayoutType.Separator)
    (h2 : node.type ≠ ActionLayoutType.Stretch) :
    toLayout heap (fuel + 1) i =
      (allSome (node.children.map (toLayout heap fuel))).map
        (ActionLayout.mk node.id node.type) := by
  cases hc : allSome (node.children.map (toLayout heap fuel)) with
  | none => simp only [toLayout, hn, h1, h2, if_false, hc, Option.map_none']
  | some cs => simp only [toLayout, hn, h1, h2, if_false, hc, Option.map_some']

theorem toLayout_failing_child (heap : List TreeNode) (m j : Nat)
    (hs : toLayout heap (m + 2) j ≠ none) (hn : toLayout heap (m + 1) j = none) :
    ∃ c, toLayout heap (m + 1) c ≠ none ∧ toLayout heap m c = none := by
  cases hj : heap[j]? with
  | none => simp [toLayout, hj] at hs
  | some node =>
    by_cases h1 : node.type = ActionLayoutType.Separator
    · rw [(toLayout_shared heap m j node hj).1 h1] at hn
      cases hn
    · by_cases h2 : node.type = ActionLayoutType.Stretch
      · rw [(toLayout_shared heap m j node hj).2 h2] at hn
        cases hn
      · rw [toLayout_succ heap (m + 1) j node hj h1 h2] at hs
        rw [toLayout_succ heap m j node hj h1 h2] at hn
        cases hc2 : allSome (node.children.map (toLayout heap (m + 1))) with
        | none => simp [hc2] at hs
        | some cs =>
          cases hc1 : allSome (node.children.map (toLayout heap m)) with
          | some cs1 => simp [hc1] at hn
          | none =>
            have hmem := (allSome_eq_none _).1 hc1
            obtain ⟨c, hc, hcn⟩ := List.mem_map.1 hmem
            refine ⟨c, ?_, hcn⟩
            have hmap := (allSome_eq_some _ cs).1 hc2
            have hmem2 : toLayout heap (m + 1) c ∈ node.children.map (toLayout heap (m + 1)) :=
              List.mem_map_of_mem _ hc
            rw [hmap] at hmem2
            obtain ⟨tc, -, htc⟩ := List.mem_map.1 hmem2
            rw [← htc]
            simp

theorem toLayout_chain (heap : List TreeNode) :
    ∀ (m j : Nat), toLayout heap (m + 1) j ≠ none → toLayout heap m j = none →
      ∃ l : List Nat, l.length = m + 1 ∧ l.Nodup ∧ (∀ x ∈ l, x < heap.length) ∧
        ∀ x ∈ l, toLayout heap (m + 1) x ≠ none := by
  intro m
  induction m with
  | zero =>
    intro j hs _
    exact ⟨[j], rfl, List.nodup_singleton j,
      fun x hx => by
        rw [List.mem_singleton.1 hx]
        exact toLayout_lt heap 1 j hs,
      fun x hx => by
        rw [List.mem_singleton.1 hx]
        exact hs⟩
  | succ m ih =>
    intro j hs hn
    obtain ⟨c, hc1, hc2⟩ := toLayout_failing_child heap m j hs hn
    obtain ⟨l, hlen, hnd, hlt, hall⟩ := ih c hc1 hc2
    refine ⟨j :: l, by simp [hlen], ?_, ?_, ?_⟩
    · rw [List.nodup_cons]
      exact ⟨fun hj => hall j hj hn, hnd⟩
    · intro x hx
      rcases List.mem_cons.1 hx with h | h
      · rw [h]; exact toLayout_lt heap (m + 2) j hs
      · exact hlt x h
    · intro x hx
      rcases List.mem_cons.1 hx with h | h
      · rw [h]; exact hs
      · exact toLayout_ne_none_succ heap (m + 1) x (hall x h)

theorem toLayout_rank_le (heap : List TreeNode) (m j : Nat)
    (hs : toLayout heap (m + 1) j ≠ none) (hn : toLayout heap m j = none) :
    m + 1 ≤ heap.length := by
  obtain ⟨l, hlen, hnd, hlt, -⟩ := toLayout_chain heap m j hs hn
  have hsub : l ⊆ List.range heap.length := fun x hx => List.mem_range.2 (hlt x hx)
  have := (List.subperm_of_subset hnd hsub).length_le
  rw [hlen, List.length_range] at this
  exact this

/-- The conversion of a root returns with the fuel `heap.length` whenever it returns with any
fuel: running out of the fuel given by `applyBuildRoutines` means that no amount of fuel is
enough, that is, the recursion of the source does not return. -/
theorem toLayout_adequate (heap : List TreeNode) (i : Nat) :
    ∀ (fuel : Nat) (t : ActionLayout), toLayout heap fuel i = some t →
      toLayout heap heap.length i = some t := by
  intro fuel
  induction fuel with
  | zero => intro t h; simp [toLayout] at h
  | succ fuel ih =>
    intro t h
    cases hp : toLayout heap fuel i with
    | some t' =>
      have := toLayout_fuel_succ heap fuel i t' hp
      rw [h] at this
      cases this
      exact ih t hp
    | none =>
      have hle := toLayout_rank_le heap fuel i (by rw [h]; simp) hp
      exact toLayout_fuel_mono heap (fuel + 1) heap.length i t h hle

theorem toLayout_none_of_out_of_fuel (heap : List TreeNode) (i : Nat)
    (h : toLayout heap (heap.length + 1) i = none) : ∀ fuel, toLayout heap fuel i = none := by
  intro fuel
  cases hf : toLayout heap fuel i with
  | none => rfl
  | some t =>
    have h1 := toLayout_adequate heap i fuel t hf
    have h2 := toLayout_fuel_succ heap heap.length i t h1
    rw [h] at h2
    cases h2

end Core
namespace Core
open TopologicalSorter ActionDomainPrivate LayoutsHelper

theorem heapWithItems_extends (r : ActionBuildRoutine) (heap : List TreeNode) (idx : IdIndexes) :
    ∃ ext, heapWithItems r heap idx = heap ++ ext :=
  (layoutInfoToLayoutList_spec r.items heap idx).1

/-- C3. Anchor fallback. For a routine with anchor After or Before, applied on a state whose
`idIndexes` is exact and in which the parent id occurs: a node none of whose current children
has the id `relativeTo` is left exactly as it was; every targeted parent is still given the
splice of its own children (so the other occurrences are processed); the loop goes on with the
remaining routines on the resulting state; and when no targeted parent has such a child, the
arena is the one with the items copied and no parent changed, so every root converts to the
same tree as before. -/
theorem anchor_fallback (om : ObjectInfoMap) (heap : List TreeNode) (idx : IdIndexes)
    (r : ActionBuildRoutine) (hinv : IdIndexesExact heap idx)
    (hfound : occurrences heap r.parent ≠ [])
    (ha : r.anchor = Anchor.After ∨ r.anchor = Anchor.Before) :
    (∀ (q : Nat) (node : TreeNode), (heapWithItems r heap idx)[q]? = some node →
        (∀ x ∈ node.children, idAt (heapWithItems r heap idx) x ≠ some r.relativeTo) →
        (applyRoutine om (heap, idx) r).1[q]? = some node) ∧
      (∀ q ∈ targetedParents om r heap idx,
        (applyRoutine om (heap, idx) r).1[q]? =
          ((heapWithItems r heap idx)[q]?).map
            (fun n => { n with children := (spliceChildren (heapWithItems r heap idx) r.anchor
              r.relativeTo (layoutsToInsert r heap idx) n.children) })) ∧
      (∀ rs : List ActionBuildRoutine,
        (r :: rs).foldl (applyRoutine om) (heap, idx) =
          rs.foldl (applyRoutine om) (applyRoutine om (heap, idx) r)) ∧
      ((∀ q ∈ targetedParents om r heap idx, ∀ node : TreeNode,
          (heapWithItems r heap idx)[q]? = some node →
          ∀ x ∈ node.children, idAt (heapWithItems r heap idx) x ≠ some r.relativeTo) →
        (applyRoutine om (heap, idx) r).1 = heapWithItems r heap idx ∧
        ∀ (fuel root : Nat) (t : ActionLayout), toLayout heap fuel root = some t →
          toLayout (applyRoutine om (heap, idx) r).1 fuel root = some t) := by
  have hunchanged : ∀ (q : Nat) (node : TreeNode), (heapWithItems r heap idx)[q]? = some node →
      (∀ x ∈ node.children, idAt (heapWithItems r heap idx) x ≠ some r.relativeTo) →
      (applyRoutine om (heap, idx) r).1[q]? = some node := by
    intro q node hnode hno
    rw [applyRoutine_getElem? om heap idx r hinv hfound q, hnode]
    by_cases hq : q ∈ targetedParents om r heap idx
    · rw [if_pos hq]
      simp only [Option.map_some', spliceChildren_no_match _ _ _ _ _ ha hno]
    · rw [if_neg hq]
  refine ⟨hunchanged, ?_, fun rs => rfl, ?_⟩
  · intro q hq
    rw [applyRoutine_getElem? om heap idx r hinv hfound q, if_pos hq]
  · intro hno
    have heq : (applyRoutine om (heap, idx) r).1 = heapWithItems r heap idx := by
      apply List.ext_getElem?
      intro q
      cases hn : (heapWithItems r heap idx)[q]? with
      | none =>
        rw [applyRoutine_getElem? om heap idx r hinv hfound q, hn]
        simp
      | some node =>
        by_cases hq : q ∈ targetedParents om r heap idx
        · exact hunchanged q node hn (hno q hq node hn)
        · rw [applyRoutine_getElem? om heap idx r hinv hfound q, if_neg hq, hn]
    refine ⟨heq, ?_⟩
    intro fuel root t ht
    obtain ⟨ext, hext⟩ := heapWithItems_extends r heap idx
    rw [heq, hext]
    exact toLayout_append heap ext fuel root t ht

/-- Witness of C3: the routine (after, relativeTo `missing`, item `save`) leaves `file` with the
children `[open]`, and the composition of an extension whose second routine appends `save`
succeeds with `file[open, save]`. -/
theorem anchor_fallback_witness :
    (applyRoutine Examples.registry (Examples.fileHeap, Examples.fileIdIndexes)
        (Examples.saveRoutine Anchor.After "missing")).1[1]? =
      some ⟨"file", ActionLayoutType.Menu, [0]⟩ ∧
    (ActionDomain.layouts ⟨[Examples.extA, Examples.extMissing], Examples.registry, [], none, none⟩).map
        Prod.fst =
      some [.mk "file" ActionLayoutType.Menu
        [.mk "open" ActionLayoutType.Action [], .mk "save" ActionLayoutType.Action []]] :=
  ⟨(anchor_fallback Examples.registry Examples.fileHeap Examples.fileIdIndexes
      (Examples.saveRoutine Anchor.After "missing") fileState_exact (by decide)
      (Or.inl rfl)).1 1 ⟨"file", ActionLayoutType.Menu, [0]⟩ (by decide) (by decide),
    by decide⟩

end Core
namespace Core
open TopologicalSorter ActionDomainPrivate LayoutsHelper

/-- The conversion of an arena node mirrors the node: a Separator or Stretch node gives the
shared value, every other node gives a tree with the id and the type of the node whose children
are the conversions of the children of the node, in their order. -/
theorem toLayout_mirrors (heap : List TreeNode) (fuel i : Nat) (t : ActionLayout)
    (h : toLayout heap fuel i = some t) :
    ∃ node, heap[i]? = some node ∧
      (node.type = ActionLayoutType.Separator → t = sharedSeparator) ∧
      (node.type = ActionLayoutType.Stretch → t = sharedStretch) ∧
      (node.type ≠ ActionLayoutType.Separator → node.type ≠ ActionLayoutType.Stretch →
        ∃ cs, allSome (node.children.map (toLayout heap (fuel - 1))) = some cs ∧
          t = ActionLayout.mk node.id node.type cs) := by
  cases fuel with
  | zero => simp [toLayout] at h
  | succ fuel =>
    cases hn : heap[i]? with
    | none => simp [toLayout, hn] at h
    | some node =>
      refine ⟨node, rfl, ?_, ?_, ?_⟩
      · intro hs
        simp only [toLayout, hn, hs, if_true, Option.some.injEq] at h
        exact h.symm
      · intro hs
        simp [toLayout, hn, hs] at h
        exact h.symm
      · intro h1 h2
        simp only [toLayout, hn, h1, h2, if_false] at h
        cases hc : allSome (node.children.map (toLayout heap fuel)) with
        | none => simp [hc] at h
        | some cs =>
          simp only [hc, Option.some.injEq] at h
          exact ⟨cs, by simpa using hc, h.symm⟩

/-- C5. Parent selection of a build routine, applied on a state whose `idIndexes` is exact and
in which the parent id occurs. If the parent id names a Plain object, the targeted parents are
all occurrences of the id in the arena; if it names a non-Plain menu or group, the only targeted
parent is the first occurrence in construction order (the least index). Every targeted parent
gets the splice of its children and every other node is unchanged. Extensions are processed in
list order and the routines of an extension in list order, and the state after the routine has
an exact `idIndexes` again, as have the states on which `build` and `restore` start to apply
routines. What `applyBuildRoutines` and `build` return is the conversion of the roots in the
arena that the routines of all extensions have been applied to, and the conversion mirrors the
arena node by node. -/
theorem parent_selection (om : ObjectInfoMap) (heap : List TreeNode) (idx : IdIndexes)
    (r : ActionBuildRoutine) (hinv : IdIndexesExact heap idx)
    (hfound : occurrences heap r.parent ≠ []) :
    (∀ info, om.lookup r.parent = some info → info.mode = ActionObjectMode.Plain →
        targetedParents om r heap idx = occurrences (heapWithItems r heap idx) r.parent) ∧
      (∀ info, om.lookup r.parent = some info → info.type ≠ ActionObjectType.Action →
        info.mode ≠ ActionObjectMode.Plain →
        ∃ p rest, occurrences (heapWithItems r heap idx) r.parent = p :: rest ∧
          (∀ i ∈ rest, p < i) ∧ p < heap.length ∧ targetedParents om r heap idx = [p]) ∧
      (∀ q : Nat, (applyRoutine om (heap, idx) r).1[q]? =
        if q ∈ targetedParents om r heap idx then
          ((heapWithItems r heap idx)[q]?).map
            (fun n => { n with children := (spliceChildren (heapWithItems r heap idx) r.anchor
              r.relativeTo (layoutsToInsert r heap idx) n.children) })
        else (heapWithItems r heap idx)[q]?) ∧
      (∀ (es1 es2 : List ActionExtension) (st : List TreeNode × IdIndexes),
        applyRoutines om (es1 ++ es2) st = applyRoutines om es2 (applyRoutines om es1 st)) ∧
      (∀ (e : ActionExtension) (rs1 rs2 : List ActionBuildRoutine)
          (st : List TreeNode × IdIndexes), e.buildRoutines = rs1 ++ rs2 →
        applyRoutines om [e] st =
          rs2.foldl (applyRoutine om) (rs1.foldl (applyRoutine om) st)) ∧
      IdIndexesExact (applyRoutine om (heap, idx) r).1 (applyRoutine om (heap, idx) r).2 ∧
      (∀ (exts : List ActionExtension) (roots : List Nat) (heap0 : List TreeNode)
          (idx0 : IdIndexes), buildExtensions om exts ([], [], []) = some (roots, heap0, idx0) →
        IdIndexesExact heap0 idx0) ∧
      (∀ children : List QMXmlAdaptorElement,
        IdIndexesExact (restoreRootChildren om children ([], [], [], [])).2.2.1
          (restoreRootChildren om children ([], [], [], [])).2.2.2) ∧
      (∀ (exts : List ActionExtension) (heap0 : List TreeNode) (idx0 : IdIndexes)
          (roots : List Nat) (built : List ActionLayout),
        applyBuildRoutines om exts heap0 idx0 roots = some built →
        built.length = roots.length ∧
          ∀ (k root : Nat), roots[k]? = some root →
            ∃ (t : ActionLayout) (fuel : Nat), built[k]? = some t ∧
              toLayout (applyRoutines om exts (heap0, idx0)).1 fuel root = some t) ∧
      (∀ (exts : List ActionExtension) (built : List ActionLayout),
        build exts om = some built →
        ∃ roots heap0 idx0, buildExtensions om exts ([], [], []) = some (roots, heap0, idx0) ∧
          applyBuildRoutines om exts heap0 idx0 roots = some built) ∧
      (∀ (arena : List TreeNode) (fuel i : Nat) (t : ActionLayout),
        toLayout arena fuel i = some t →
        ∃ node, arena[i]? = some node ∧
          (node.type = ActionLayoutType.Separator → t = sharedSeparator) ∧
          (node.type = ActionLayoutType.Stretch → t = sharedStretch) ∧
          (node.type ≠ ActionLayoutType.Separator → node.type ≠ ActionLayoutType.Stretch →
            ∃ cs, allSome (node.children.map (toLayout arena (fuel - 1))) = some cs ∧
              t = ActionLayout.mk node.id node.type cs)) := by
  refine ⟨?_, ?_, applyRoutine_getElem? om heap idx r hinv hfound,
    applyRoutines_append om, ?_, applyRoutine_exact om heap idx r hinv,
    fun exts roots heap0 idx0 h => buildExtensions_exact om exts roots heap0 idx0 h,
    fun children => restoreRootChildren_exact om children [] [] [] [] idIndexesExact_nil,
    ?_, ?_, toLayout_mirrors⟩
  · intro info hinfo hplain
    simp [targetedParents, parentIndexes, hinfo, ActionObjectInfo.standalone, hplain]
  · intro info hinfo htype hmode
    obtain ⟨⟨ext, hext⟩, -⟩ := layoutInfoToLayoutList_spec r.items heap idx
    obtain ⟨l, hl, -⟩ := occurrences_append heap ext r.parent
    cases hocc : occurrences heap r.parent with
    | nil => exact absurd hocc hfound
    | cons p rest0 =>
      have hp : p < heap.length := occurrences_lt heap r.parent p (by simp [hocc])
      have hall : occurrences (heapWithItems r heap idx) r.parent = p :: (rest0 ++ l) := by
        unfold heapWithItems
        rw [hext, hl, hocc]
        rfl
      refine ⟨p, rest0 ++ l, hall, ?_, hp, ?_⟩
      · have hpw := occurrences_pairwise (heapWithItems r heap idx) r.parent
        rw [hall] at hpw
        exact (List.pairwise_cons.1 hpw).1
      · simp [targetedParents, parentIndexes, hinfo, ActionObjectInfo.standalone, htype, hmode,
          hall]
  · intro e rs1 rs2 st he
    simp [applyRoutines, he, List.foldl_append]
  · intro exts heap0 idx0 roots built hb
    unfold applyBuildRoutines at hb
    simp only at hb
    rw [allSome_eq_some] at hb
    have hlen := congrArg List.length hb
    simp only [List.length_map] at hlen
    refine ⟨hlen.symm, ?_⟩
    intro k root hk
    have e2 := congrArg (fun x => x[k]?) hb
    simp only [List.getElem?_map, hk, Option.map_some'] at e2
    cases hbk : built[k]? with
    | none => simp [hbk] at e2
    | some t =>
      simp only [hbk, Option.map_some', Option.some.injEq] at e2
      exact ⟨t, _, rfl, e2⟩
  · intro exts built hb
    unfold build at hb
    cases hbe : buildExtensions om exts ([], [], []) with
    | none => simp [hbe] at hb
    | some st =>
      obtain ⟨roots, heap0, idx0⟩ := st
      simp only [hbe] at hb
      exact ⟨roots, heap0, idx0, rfl, hb⟩

/-- Witness of C5: in `file[recent, recent]` a routine on the Plain group `recent` targets both
occurrences (arena nodes 0 and 1), and in `file[open]` a routine on the Unique menu `file`
targets its single first occurrence (arena node 1). Through `build`: with the layouts
`bar[file[open], recent]` and `file[recent]`, the routine on the Plain group `recent` reaches
both occurrences, the routines on the Unique menu `file` reach only its first occurrence, the
one inside `bar`, while the root `file` keeps its children, and the items arrive in the order of
the extensions and, within an extension, of its routines. -/
theorem parent_selection_witness :
    targetedParents Examples.registry Examples.recentRoutine Examples.recentHeap
        Examples.recentIdIndexes = [0, 1] ∧
      (applyRoutine Examples.registry (Examples.recentHeap, Examples.recentIdIndexes)
        Examples.recentRoutine).1 =
        [⟨"recent", ActionLayoutType.Group, [3]⟩, ⟨"recent", ActionLayoutType.Group, [3]⟩,
          ⟨"file", ActionLayoutType.Menu, [0, 1]⟩, ⟨"save", ActionLayoutType.Action, []⟩] ∧
      targetedParents Examples.registry (Examples.saveRoutine Anchor.Last "") Examples.fileHeap
        Examples.fileIdIndexes = [1] ∧
      build [Examples.selectionFirstExt, Examples.selectionSecondExt]
          Examples.selectionRegistry =
        some [.mk "bar" ActionLayoutType.Menu
            [.mk "file" ActionLayoutType.Menu
              [.mk "open" ActionLayoutType.Action [], .mk "close" ActionLayoutType.Action [],
               .mk "save" ActionLayoutType.Action [], .mk "quit" ActionLayoutType.Action []],
             .mk "recent" ActionLayoutType.Group [.mk "clear" ActionLayoutType.Action []]],
          .mk "file" ActionLayoutType.Menu
            [.mk "recent" ActionLayoutType.Group [.mk "clear" ActionLayoutType.Action []]]] ∧
      (∃ roots heap0 idx0,
        buildExtensions Examples.selectionRegistry
          [Examples.selectionFirstExt, Examples.selectionSecondExt] ([], [], []) =
            some (roots, heap0, idx0) ∧
        (applyRoutines Examples.selectionRegistry
          [Examples.selectionFirstExt, Examples.selectionSecondExt] (heap0, idx0)).1 =
          [⟨"open", ActionLayoutType.Action, []⟩, ⟨"file", ActionLayoutType.Menu, [0, 7, 8, 9]⟩,
           ⟨"recent", ActionLayoutType.Group, [6]⟩, ⟨"bar", ActionLayoutType.Menu, [1, 2]⟩,
           ⟨"recent", ActionLayoutType.Group, [6]⟩, ⟨"file", ActionLayoutType.Menu, [4]⟩,
           ⟨"clear", ActionLayoutType.Action, []⟩, ⟨"close", ActionLayoutType.Action, []⟩,
           ⟨"save", ActionLayoutType.Action, []⟩, ⟨"quit", ActionLayoutType.Action, []⟩]) :=
  have hbuild : build [Examples.selectionFirstExt, Examples.selectionSecondExt]
      Examples.selectionRegistry =
        some [.mk "bar" ActionLayoutType.Menu
            [.mk "file" ActionLayoutType.Menu
              [.mk "open" ActionLayoutType.Action [], .mk "close" ActionLayoutType.Action [],
               .mk "save" ActionLayoutType.Action [], .mk "quit" ActionLayoutType.Action []],
             .mk "recent" ActionLayoutType.Group [.mk "clear" ActionLayoutType.Action []]],
          .mk "file" ActionLayoutType.Menu
            [.mk "recent" ActionLayoutType.Group [.mk "clear" ActionLayoutType.Action []]]] := by
    decide
  ⟨((parent_selection Examples.registry Examples.recentHeap Examples.recentIdIndexes
      Examples.recentRoutine recentState_exact (by decide)).1 Examples.recentInfo rfl rfl).trans
      (by decide),
    by decide,
    by
      obtain ⟨p, rest, h1, -, -, h2⟩ :=
        (parent_selection Examples.registry Examples.fileHeap Examples.fileIdIndexes
          (Examples.saveRoutine Anchor.Last "") fileState_exact (by decide)).2.1
          Examples.fileInfo rfl (by decide) (by decide)
      rw [h2]
      have : occurrences (heapWithItems (Examples.saveRoutine Anchor.Last "") Examples.fileHeap
          Examples.fileIdIndexes) (Examples.saveRoutine Anchor.Last "").parent = [1] := by
        decide
      rw [this] at h1
      simp at h1
      simp [h1.1],
    hbuild,
    by
      obtain ⟨roots, heap0, idx0, hbe, -⟩ :=
        (parent_selection Examples.selectionRegistry Examples.fileHeap Examples.fileIdIndexes
          (Examples.saveRoutine Anchor.Last "") fileState_exact (by decide)).2.2.2.2.2.2.2.2.2.1
          _ _ hbuild
      refine ⟨roots, heap0, idx0, hbe, ?_⟩
      have hev : buildExtensions Examples.selectionRegistry
          [Examples.selectionFirstExt, Examples.selectionSecondExt] ([], [], []) =
          some ([3, 5],
            [⟨"open", ActionLayoutType.Action, []⟩, ⟨"file", ActionLayoutType.Menu, [0]⟩,
             ⟨"recent", ActionLayoutType.Group, []⟩, ⟨"bar", ActionLayoutType.Menu, [1, 2]⟩,
             ⟨"recent", ActionLayoutType.Group, []⟩, ⟨"file", ActionLayoutType.Menu, [4]⟩],
            [("open", [0]), ("file", [1, 5]), ("recent", [2, 4]), ("bar", [3])]) := by
        decide
      rw [hev] at hbe
      simp only [Option.some.injEq, Prod.mk.injEq] at hbe
      obtain ⟨-, rfl, rfl⟩ := hbe
      decide⟩

end Core
namespace Core
open TopologicalSorter ActionDomainPrivate LayoutsHelper

/-- The roots of the forest that `build` returns are the conversions of the copies of the
collected entries, one for each and in their order: the root at position `k` has the id and the
type of the collected entry at position `k` (a collected entry of type Separator or Stretch
gives the shared value). -/
theorem build_roots (exts : List ActionExtension) (om : ObjectInfoMap)
    (built : List ActionLayout) (hb : build exts om = some built) :
    built.length = (rootLayouts om (declaredLayouts exts)).length ∧
      ∀ (k : Nat) (l : ActionLayoutInfo),
        (rootLayouts om (declaredLayouts exts))[k]? = some l →
        l.type ≠ ActionLayoutType.Separator → l.type ≠ ActionLayoutType.Stretch →
        ∃ t, built[k]? = some t ∧ t.id = l.id ∧ t.type = l.type := by
  unfold build at hb
  rw [buildExtensions_eq] at hb
  obtain ⟨new, ext, hr, hh, hheads, hrange, -⟩ :=
    appendRoots_spec (rootLayouts om (declaredLayouts exts)) [] [] []
  generalize appendRoots (rootLayouts om (declaredLayouts exts)) ([], [], []) = st at *
  obtain ⟨roots, heap, idx⟩ := st
  simp only [List.nil_append] at hr hh hheads hrange hb
  subst hr
  unfold applyBuildRoutines at hb
  obtain ⟨hlen, hhead⟩ := applyRoutines_headAt om exts (heap, idx)
  generalize applyRoutines om exts (heap, idx) = st1 at *
  obtain ⟨heap1, idx1⟩ := st1
  simp only at hb hlen hhead
  rw [allSome_eq_some] at hb
  constructor
  · have h1 := congrArg List.length hb
    have h2 := congrArg List.length hheads
    simp only [List.length_map] at h1 h2
    omega
  · intro k l hl h1 h2
    have e1 := congrArg (fun x => x[k]?) hheads
    simp only [List.getElem?_map, hl, Option.map_some'] at e1
    cases hrk : roots[k]? with
    | none => simp [hrk] at e1
    | some r =>
      simp only [hrk, Option.map_some', Option.some.injEq] at e1
      have hrmem : r ∈ roots := by
        obtain ⟨hlt, he⟩ := List.getElem?_eq_some_iff.1 hrk
        exact he ▸ List.getElem_mem hlt
      have hrlt : r < heap.length := (hrange r hrmem).2
      have e2 := congrArg (fun x => x[k]?) hb
      simp only [List.getElem?_map, hrk, Option.map_some'] at e2
      cases hbk : built[k]? with
      | none => simp [hbk] at e2
      | some t =>
        simp only [hbk, Option.map_some', Option.some.injEq] at e2
        refine ⟨t, rfl, ?_⟩
        have hnid : nodeId l = l.id := by simp [nodeId, h1, h2]
        have hh1 : headAt heap1 r = some (l.id, l.type) := by
          rw [hhead r hrlt, e1, hnid]
        exact toLayout_head heap1 _ r t l.id l.type e2 hh1 h1 h2

theorem rootLayouts_flatMap (om : ObjectInfoMap) (exts : List ActionExtension) :
    rootLayouts om (declaredLayouts exts) =
      exts.flatMap (fun ext => ext.layouts.flatMap (standaloneLayouts om)) := by
  have hr : ∀ ls : List ActionLayoutInfo,
      rootLayouts om ls = ls.flatMap (standaloneLayouts om) := by
    intro ls
    induction ls with
    | nil => rfl
    | cons l ls ih => simp [rootLayouts, ih]
  induction exts with
  | nil => rfl
  | cons e es ih =>
    have hd : declaredLayouts (e :: es) = e.layouts ++ declaredLayouts es := by
      simp [declaredLayouts]
    rw [hd, rootLayouts_append, ih, List.flatMap_cons, hr]

mutual

/-- The copy of a declared layout tree converts to its composed tree, in every arena that
extends the one the copy was made in. -/
theorem copy_composed :
    ∀ (l : ActionLayoutInfo) (heap : List TreeNode) (idx : IdIndexes),
      ∃ i ext idx', layoutInfoToLayout l heap idx = (i, heap ++ ext, idx') ∧
        ∀ ext2 fuel, ext.length ≤ fuel → toLayout (heap ++ ext ++ ext2) fuel i = some l.composed
  | .mk id type children, heap, idx => by
    by_cases hs : type = ActionLayoutType.Separator ∨ type = ActionLayoutType.Stretch
    · refine ⟨heap.length, [⟨"", type, []⟩], idx, by simp [layoutInfoToLayout, hs], ?_⟩
      intro ext2 fuel hfuel
      cases fuel with
      | zero => simp at hfuel
      | succ fuel =>
        have hsh := toLayout_shared (heap ++ [⟨"", type, []⟩] ++ ext2) fuel heap.length
          ⟨"", type, []⟩ (getElem?_middle heap ext2 _)
        simp only [ActionLayoutInfo.composed, hs, if_true]
        rcases hs with hs | hs
        · subst hs; exact hsh.1 rfl
        · subst hs; exact hsh.2 rfl
    · obtain ⟨is, ext, idx1, hrc, hall⟩ := copyList_composed children heap idx
      refine ⟨(heap ++ ext).length, ext ++ [⟨id, type, is⟩],
        IdIndexes.append idx1 id (heap ++ ext).length, ?_, ?_⟩
      · simp only [layoutInfoToLayout, hs, if_false, hrc, List.append_assoc]
      · intro ext2 fuel hfuel
        cases fuel with
        | zero => simp at hfuel
        | succ fuel =>
          have hget : (heap ++ (ext ++ [⟨id, type, is⟩]) ++ ext2)[(heap ++ ext).length]? =
              some ⟨id, type, is⟩ := by
            rw [← List.append_assoc]
            exact getElem?_middle (heap ++ ext) ext2 _
          have hc := hall ([⟨id, type, is⟩] ++ ext2) fuel (by
            simp only [List.length_append, List.length_singleton] at hfuel
            omega)
          have heq : heap ++ ext ++ ([⟨id, type, is⟩] ++ ext2) =
              heap ++ (ext ++ [⟨id, type, is⟩]) ++ ext2 := by simp
          rw [heq] at hc
          simp only [ActionLayoutInfo.composed, hs, if_false]
          exact toLayout_node _ fuel _ ⟨id, type, is⟩ _ hget hs hc

/-- The copies of a list of declared layout trees convert to their composed trees. -/
theorem copyList_composed :
    ∀ (ls : List ActionLayoutInfo) (heap : List TreeNode) (idx : IdIndexes),
      ∃ is ext idx', layoutInfoToLayout.layoutInfoToLayoutList ls heap idx =
          (is, heap ++ ext, idx') ∧
        ∀ ext2 fuel, ext.length ≤ fuel →
          allSome (is.map (toLayout (heap ++ ext ++ ext2) fuel)) =
            some (ActionLayoutInfo.composed.composedList ls)
  | [], heap, idx => by
    refine ⟨[], [], idx, by simp [layoutInfoToLayout.layoutInfoToLayoutList], ?_⟩
    intro ext2 fuel _
    simp [allSome, ActionLayoutInfo.composed.composedList]
  | l :: ls, heap, idx => by
    obtain ⟨i, e1, idx1, hr1, ht1⟩ := copy_composed l heap idx
    obtain ⟨is, e2, idx2, hr2, ht2⟩ := copyList_composed ls (heap ++ e1) idx1
    refine ⟨i :: is, e1 ++ e2, idx2, ?_, ?_⟩
    · simp only [layoutInfoToLayout.layoutInfoToLayoutList, hr1, hr2, List.append_assoc]
    · intro ext2 fuel hfuel
      simp only [List.length_append] at hfuel
      have a1 := ht1 (e2 ++ ext2) fuel (by omega)
      have a2 := ht2 ext2 fuel (by omega)
      have heq : heap ++ e1 ++ (e2 ++ ext2) = heap ++ (e1 ++ e2) ++ ext2 := by simp
      have heq2 : heap ++ e1 ++ e2 ++ ext2 = heap ++ (e1 ++ e2) ++ ext2 := by simp
      rw [heq] at a1
      rw [heq2] at a2
      rw [List.map_cons, a1]
      simp only [allSome, a2, ActionLayoutInfo.composed.composedList]

end

/-- The roots appended for a list of collected entries convert to the composed trees of the
entries. -/
theorem appendRoots_composed (ls : List ActionLayoutInfo) :
    ∀ (roots : List Nat) (heap : List TreeNode) (idx : IdIndexes),
      ∃ new ext idx', appendRoots ls (roots, heap, idx) = (roots ++ new, heap ++ ext, idx') ∧
        ∀ ext2 fuel, ext.length ≤ fuel →
          allSome (new.map (toLayout (heap ++ ext ++ ext2) fuel)) =
            some (ls.map ActionLayoutInfo.composed) := by
  induction ls with
  | nil =>
    intro roots heap idx
    exact ⟨[], [], idx, by simp [appendRoots], fun _ _ _ => by simp [allSome]⟩
  | cons l ls ih =>
    intro roots heap idx
    obtain ⟨i, e1, idx1, hr1, ht1⟩ := copy_composed l heap idx
    obtain ⟨new, e2, idx2, hr2, ht2⟩ := ih (roots ++ [i]) (heap ++ e1) idx1
    refine ⟨i :: new, e1 ++ e2, idx2, ?_, ?_⟩
    · rw [appendRoots_cons, hr1]
      simp only
      rw [hr2]
      simp
    · intro ext2 fuel hfuel
      simp only [List.length_append] at hfuel
      have a1 := ht1 (e2 ++ ext2) fuel (by omega)
      have a2 := ht2 ext2 fuel (by omega)
      have heq : heap ++ e1 ++ (e2 ++ ext2) = heap ++ (e1 ++ e2) ++ ext2 := by simp
      have heq2 : heap ++ e1 ++ e2 ++ ext2 = heap ++ (e1 ++ e2) ++ ext2 := by simp
      rw [heq] at a1
      rw [heq2] at a2
      rw [List.map_cons, a1]
      simp only [allSome, a2, List.map_cons]

theorem applyRoutines_of_no_routine (om : ObjectInfoMap) (exts : List ActionExtension)
    (h : ∀ ext ∈ exts, ext.buildRoutines = []) (st : List TreeNode × IdIndexes) :
    applyRoutines om exts st = st := by
  induction exts with
  | nil => rfl
  | cons e es ih =>
    simp only [applyRoutines, List.foldl_cons, h e (List.mem_cons_self _ _), List.foldl_nil]
    exact ih (fun ext hext => h ext (List.mem_cons_of_mem _ hext))

/-- Without build routines `build` returns the composed trees of the collected entries. -/
theorem build_of_no_routine (om : ObjectInfoMap) (exts : List ActionExtension)
    (h : ∀ ext ∈ exts, ext.buildRoutines = []) :
    build exts om =
      some ((rootLayouts om (declaredLayouts exts)).map ActionLayoutInfo.composed) := by
  obtain ⟨new, ext, idx', hr, hall⟩ :=
    appendRoots_composed (rootLayouts om (declaredLayouts exts)) [] [] []
  unfold build
  rw [buildExtensions_eq, hr]
  simp only [List.nil_append, applyBuildRoutines, applyRoutines_of_no_routine om exts h]
  have := hall [] (ext.length + 1) (Nat.le_succ _)
  simpa using this

/-- C6. Root collection in `build`. For every declared layout tree the collecting loop returns,
and its result lists exactly the first standalone entries of the tree (each as often as the
depth-first description of the specification lists it): the entries reached from the root
through registered, not standalone entries only. The roots of the arena are the copies of these
entries for all declared layout trees, in extension registration order and then layout order.
The forest that `build` returns has one root for each of them, in this order, with the id and
the type of the entry; when no extension has a build routine, `build` returns, and the forest
consists of the composed trees of these entries. -/
theorem root_collection (om : ObjectInfoMap) (exts : List ActionExtension) :
    (∀ t, collectStandalone om t.size [t] [] = some (standaloneLayouts om t)) ∧
      (∀ t, (standaloneLayouts om t).Perm (firstStandalone om t)) ∧
      (∀ t n, n ∈ standaloneLayouts om t ↔ FirstStandalone om t n) ∧
      (∃ roots heap idx, buildExtensions om exts ([], [], []) = some (roots, heap, idx) ∧
        roots.map (headAt heap) =
          (rootLayouts om (declaredLayouts exts)).map (fun l => some (nodeId l, l.type))) ∧
      rootLayouts om (declaredLayouts exts) =
        exts.flatMap (fun ext => ext.layouts.flatMap (standaloneLayouts om)) ∧
      (∀ built, build exts om = some built →
        built.length = (rootLayouts om (declaredLayouts exts)).length ∧
          ∀ (k : Nat) (l : ActionLayoutInfo),
            (rootLayouts om (declaredLayouts exts))[k]? = some l →
            l.type ≠ ActionLayoutType.Separator → l.type ≠ ActionLayoutType.Stretch →
            ∃ t, built[k]? = some t ∧ t.id = l.id ∧ t.type = l.type) ∧
      ((∀ ext ∈ exts, ext.buildRoutines = []) →
        build exts om =
          some ((rootLayouts om (declaredLayouts exts)).map ActionLayoutInfo.composed)) := by
  refine ⟨fun t => (collectStandalone_root om t).1, fun t => (collectStandalone_root om t).2,
    ?_, ?_, rootLayouts_flatMap om exts, fun built hb => build_roots exts om built hb,
    build_of_no_routine om exts⟩
  · intro t n
    rw [(collectStandalone_root om t).2.mem_iff]
    exact ⟨mem_firstStandalone om t n, firstStandalone_of om t n⟩
  · obtain ⟨new, ext, hr, hh, hheads, -, -⟩ :=
      appendRoots_spec (rootLayouts om (declaredLayouts exts)) [] [] []
    refine ⟨_, _, _, buildExtensions_eq om exts ([], [], []), ?_⟩
    rw [hr]
    simpa using hheads

/-- Witness of C6: with the layouts `tools[file[open, edit[copy]], ghost[view], recent[open]]`,
`bar[file]` and, in a second extension, `edit[copy]`, where `tools` and `recent` are Plain,
`ghost` is not registered and the other menus are standalone, the collected entries are `file`,
`bar` and `edit`: `edit` below `file` and `view` below `ghost` are no roots, and the chain
through `recent` gives none. `build` returns these three trees in this order. -/
theorem root_collection_witness :
    (rootLayouts Examples.selectionRegistry
        (declaredLayouts [Examples.rootsFirstExt, Examples.rootsSecondExt])).map
          ActionLayoutInfo.id = ["file", "bar", "edit"] ∧
    build [Examples.rootsFirstExt, Examples.rootsSecondExt] Examples.selectionRegistry =
      some [.mk "file" ActionLayoutType.Menu
          [.mk "open" ActionLayoutType.Action [],
           .mk "edit" ActionLayoutType.Menu [.mk "copy" ActionLayoutType.Action []]],
        .mk "bar" ActionLayoutType.Menu [.mk "file" ActionLayoutType.Menu []],
        .mk "edit" ActionLayoutType.Menu [.mk "copy" ActionLayoutType.Action []]] ∧
    build [Examples.rootsFirstExt, Examples.rootsSecondExt] Examples.selectionRegistry =
      some ((rootLayouts Examples.selectionRegistry
        (declaredLayouts [Examples.rootsFirstExt, Examples.rootsSecondExt])).map
          ActionLayoutInfo.composed) :=
  ⟨by decide, by decide,
    (root_collection Examples.selectionRegistry
      [Examples.rootsFirstExt, Examples.rootsSecondExt]).2.2.2.2.2.2 (by
        intro ext hext
        simp only [List.mem_cons, List.mem_singleton, List.not_mem_nil, or_false] at hext
        rcases hext with rfl | rfl <;> rfl)⟩

end Core
namespace Core
open ActionDomain ActionDomainPrivate

theorem checkDuplication_none (d : ActionDomainPrivate) (objs : List ActionObjectInfo)
    (h : ∃ obj ∈ objs, obj.id ∈ d.objectInfoMap.map Prod.fst ∨
      obj.categories ∈ d.objectCategories) :
    ∀ temp cats, addExtension.checkDuplication d objs temp cats = none := by
  induction objs with
  | nil => obtain ⟨obj, hmem, _⟩ := h; cases hmem
  | cons o rest ih =>
    intro temp cats
    obtain ⟨obj, hmem, hobj⟩ := h
    unfold addExtension.checkDuplication
    by_cases h1 : (d.objectInfoMap.lookup o.id).isSome
    · simp [h1]
    · by_cases h2 : o.categories ∈ d.objectCategories
      · simp [h2]
      · simp only [h1, h2, if_false, Bool.false_eq_true]
        apply ih
        rcases List.mem_cons.mp hmem with rfl | hr
        · exfalso
          rcases hobj with hid | hc
          · exact h1 ((lookup_isSome_iff_mem_keys _ _).mpr hid)
          · exact h2 hc
        · exact ⟨obj, hr, hobj⟩

end Core
namespace Core
open ActionDomain ActionDomainPrivate

theorem QHash.insert_keys {β : Type} (m : List (String × β)) (k : String) (v : β) :
    (QHash.insert m k v).map Prod.fst =
      if k ∈ m.map Prod.fst then m.map Prod.fst else m.map Prod.fst ++ [k] := by
  unfold QHash.insert
  by_cases h : (m.lookup k).isSome = true
  · rw [if_pos h, if_pos ((lookup_isSome_iff_mem_keys _ _).mp h)]
    rw [List.map_map]
    apply List.map_congr_left
    intro p _
    by_cases hp : p.1 = k <;> simp [hp]
  · rw [if_neg h, if_neg (fun hk => h ((lookup_isSome_iff_mem_keys _ _).mpr hk))]
    simp

theorem QHash.insert_mem {β : Type} (m : List (String × β)) (k : String) (v : β)
    (p : String × β) (hp : p ∈ QHash.insert m k v) : p = (k, v) ∨ (p ∈ m ∧ p.1 ≠ k) := by
  unfold QHash.insert at hp
  by_cases h : (m.lookup k).isSome = true
  · rw [if_pos h] at hp
    obtain ⟨q, hq, rfl⟩ := List.mem_map.mp hp
    by_cases hqk : q.1 = k
    · left; simp [hqk]
    · right; simp [hqk, hq]
  · rw [if_neg h] at hp
    rcases List.mem_append.mp hp with hm | hm
    · right
      refine ⟨hm, fun hk => h ((lookup_isSome_iff_mem_keys _ _).mpr ?_)⟩
      exact List.mem_map.mpr ⟨p, hm, hk⟩
    · left; simpa using hm

theorem QHash.insert_keys_nodup {β : Type} (m : List (String × β)) (k : String) (v : β)
    (h : (m.map Prod.fst).Nodup) : ((QHash.insert m k v).map Prod.fst).Nodup := by
  rw [QHash.insert_keys]
  split
  · exact h
  · next hk =>
    rw [List.nodup_append]
    refine ⟨h, List.nodup_singleton _, ?_⟩
    intro a ha hb
    rw [List.mem_singleton] at hb
    exact hk (hb ▸ ha)

/-- What `checkDuplication` establishes about a successful run: the keys of the temporary map
are pairwise distinct, none is a key of the registry, and each entry is keyed by its own id. -/
theorem checkDuplication_spec (d : ActionDomainPrivate) (objs : List ActionObjectInfo) :
    ∀ temp cats temp1 cats1,
      addExtension.checkDuplication d objs temp cats = some (temp1, cats1) →
      (temp.map Prod.fst).Nodup →
      (∀ p ∈ temp, p.1 = p.2.id ∧ p.1 ∉ d.objectInfoMap.map Prod.fst) →
      (temp1.map Prod.fst).Nodup ∧
        (∀ p ∈ temp1, p.1 = p.2.id ∧ p.1 ∉ d.objectInfoMap.map Prod.fst) := by
  induction objs with
  | nil =>
    intro temp cats temp1 cats1 h hn hk
    simp only [addExtension.checkDuplication, Option.some.injEq, Prod.mk.injEq] at h
    obtain ⟨rfl, rfl⟩ := h
    exact ⟨hn, hk⟩
  | cons o rest ih =>
    intro temp cats temp1 cats1 h hn hk
    unfold addExtension.checkDuplication at h
    by_cases h1 : (d.objectInfoMap.lookup o.id).isSome
    · simp [h1] at h
    · by_cases h2 : o.categories ∈ d.objectCategories
      · simp [h2] at h
      · simp only [h1, h2, if_false, Bool.false_eq_true] at h
        refine ih _ _ _ _ h (QHash.insert_keys_nodup _ _ _ hn) ?_
        intro p hp
        rcases QHash.insert_mem _ _ _ _ hp with rfl | ⟨hm, _⟩
        · exact ⟨rfl, fun hk2 => h1 ((lookup_isSome_iff_mem_keys _ _).mpr hk2)⟩
        · exact hk p hm

theorem idsUnique_addExtension (order : QHashOrder) (d : ActionDomainPrivate)
    (extension : ActionExtension) (h : IdsUnique d) :
    IdsUnique (addExtension order d extension) := by
  unfold addExtension
  split
  · exact h
  · cases hc : addExtension.checkDuplication d extension.objects [] [] with
    | none => exact h
    | some r =>
      obtain ⟨temp, cats⟩ := r
      obtain ⟨hn, hk⟩ := checkDuplication_spec d _ _ _ _ _ hc List.nodup_nil (by simp)
      have hperm := order.perm temp
      constructor
      · show ((d.objectInfoMap ++ order.iterate temp).map Prod.fst).Nodup
        rw [List.map_append, List.nodup_append]
        refine ⟨h.1, (hperm.map Prod.fst).nodup_iff.mpr hn, ?_⟩
        intro a ha hb
        obtain ⟨p, hp, rfl⟩ := List.mem_map.mp hb
        exact (hk p (hperm.subset hp)).2 ha
      · intro p hp
        rcases List.mem_append.mp hp with hm | hm
        · exact h.2 p hm
        · exact (hk p (hperm.subset hm)).1

theorem removeExtension_loop_spec (objs : List ActionObjectInfo) :
    ∀ (m : ObjectInfoMap) (cats : List (List String)),
      (removeExtension.loop objs (m, cats)).1.Sublist m := by
  induction objs with
  | nil => intro m cats; exact List.Sublist.refl _
  | cons o rest ih =>
    intro m cats
    unfold removeExtension.loop
    exact (ih _ _).trans (List.filter_sublist _)

theorem idsUnique_removeExtension (d : ActionDomainPrivate) (extension : ActionExtension)
    (h : IdsUnique d) : IdsUnique (removeExtension d extension) := by
  have hs := removeExtension_loop_spec extension.objects d.objectInfoMap d.objectCategories
  unfold removeExtension
  constructor
  · exact (hs.map Prod.fst).nodup h.1
  · intro p hp
    exact h.2 p (hs.subset hp)

theorem idsUnique_runCalls (calls : List RegistryCall) : IdsUnique (runCalls calls) := by
  unfold runCalls
  have : ∀ d, IdsUnique d → IdsUnique (calls.foldl RegistryCall.apply d) := by
    induction calls with
    | nil => intro d h; exact h
    | cons c rest ih =>
      intro d h
      apply ih
      cases c with
      | add order e => exact idsUnique_addExtension order d e h
      | remove e => exact idsUnique_removeExtension d e h
  exact this _ ⟨List.nodup_nil, by simp [ActionDomainPrivate.init]⟩

theorem mem_addExtension_samePathExt (order : QHashOrder) (p : String × ActionObjectInfo) :
    p ∈ (runCalls [RegistryCall.add order Examples.samePathExt]).objectInfoMap ↔
      p = ("open", Examples.openInFile) ∨ p = ("save", Examples.saveInFile) := by
  have h : (runCalls [RegistryCall.add order Examples.samePathExt]).objectInfoMap =
      order.iterate [("open", Examples.openInFile), ("save", Examples.saveInFile)] := rfl
  rw [h, (order.perm _).mem_iff]
  simp

/-- C13: after every sequence of `addExtension` and `removeExtension` calls the ids of the
registered objects are pairwise distinct, but category paths are not: one `addExtension` of a
record whose objects `open` and `save` both have the path `[File]` registers both objects,
whatever the iteration order of the temporary map. -/
theorem registry_admits_equal_category_paths :
    (∀ calls : List RegistryCall, IdsUnique (runCalls calls)) ∧
      ∀ order : QHashOrder,
        ¬ CategoryPathsUnique (runCalls [RegistryCall.add order Examples.samePathExt]) := by
  refine ⟨idsUnique_runCalls, fun order h => ?_⟩
  have h1 := (mem_addExtension_samePathExt order ("open", Examples.openInFile)).mpr (Or.inl rfl)
  have h2 := (mem_addExtension_samePathExt order ("save", Examples.saveInFile)).mpr (Or.inr rfl)
  have := h _ h1 _ h2 rfl
  exact absurd this (by decide)

end Core
namespace Core
open ActionDomain ActionDomainPrivate

theorem perm_pair {α : Type} (a b : α) (l : List α) (h : l.Perm [a, b]) :
    l = [a, b] ∨ l = [b, a] := by
  have hl := h.length_eq
  match l, hl with
  | [x, y], _ =>
    have hx : x ∈ [a, b] := h.subset (by simp)
    have hy : y ∈ [a, b] := h.subset (by simp)
    have ha : a ∈ [x, y] := h.symm.subset (by simp)
    have hb : b ∈ [x, y] := h.symm.subset (by simp)
    simp only [List.mem_cons, List.mem_singleton, List.not_mem_nil, or_false] at hx hy ha hb
    rcases hx with rfl | rfl <;> rcases hy with rfl | rfl
    · rcases hb with rfl | rfl <;> simp
    · simp
    · simp
    · rcases ha with rfl | rfl <;> simp

/-- C14: with the record whose objects `open` and `save` share the category path `[File]`
registered, `catalog()` returns a catalog in which the chain of one of the two registered objects
ends in a node that carries the id of the other one, whatever the iteration order was. -/
theorem catalog_keeps_one_id_per_path (order : QHashOrder) :
    ∃ c d1,
      ActionDomain.catalog (runCalls [RegistryCall.add order Examples.samePathExt]) =
        some (c, d1) ∧
      ∃ p ∈ d1.objectInfoMap, ∃ node,
        c.descend p.2.categories = some node ∧ node.id ≠ p.2.id := by
  have h : (runCalls [RegistryCall.add order Examples.samePathExt]) =
      ⟨[Examples.samePathExt],
        order.iterate [("open", Examples.openInFile), ("save", Examples.saveInFile)],
        [["File"]], none, none⟩ := rfl
  rw [h]
  rcases perm_pair _ _ _ (order.perm [("open", Examples.openInFile),
    ("save", Examples.saveInFile)]) with hp | hp <;> rw [hp]
  · exact ⟨_, _, rfl, ("open", Examples.openInFile), by decide, _, rfl, by decide⟩
  · exact ⟨_, _, rfl, ("save", Examples.saveInFile), by decide, _, rfl, by decide⟩

end Core
namespace Core
open TopologicalSorter ActionDomainPrivate LayoutsHelper

theorem parentIndexes_sameLookup {m1 m2 : ObjectInfoMap} (h : SameLookup m1 m2)
    (parent : String) (occ : List Nat) :
    parentIndexes m1 parent occ = parentIndexes m2 parent occ := by
  unfold parentIndexes
  rw [h parent]

theorem applyRoutine_sameLookup {m1 m2 : ObjectInfoMap} (h : SameLookup m1 m2) :
    applyRoutine m1 = applyRoutine m2 := by
  funext st routine
  unfold applyRoutine
  simp only [parentIndexes_sameLookup h]

theorem applyBuildRoutines_sameLookup {m1 m2 : ObjectInfoMap} (h : SameLookup m1 m2) :
    applyBuildRoutines m1 = applyBuildRoutines m2 := by
  funext exts heap idIndexes rootIndexes
  unfold applyBuildRoutines applyRoutines
  rw [applyRoutine_sameLookup h]

theorem collectStandalone_sameLookup {m1 m2 : ObjectInfoMap} (h : SameLookup m1 m2) :
    ∀ (fuel : Nat) (stack acc : List ActionLayoutInfo),
      collectStandalone m1 fuel stack acc = collectStandalone m2 fuel stack acc := by
  intro fuel
  induction fuel with
  | zero =>
    intro stack acc
    cases stack <;> rfl
  | succ n ih =>
    intro stack acc
    cases stack with
    | nil => rfl
    | cons layout rest =>
      simp only [collectStandalone, h layout.id, ih]

theorem buildLayouts_sameLookup {m1 m2 : ObjectInfoMap} (h : SameLookup m1 m2) :
    ∀ (layouts : List ActionLayoutInfo) (st : List Nat × List TreeNode × IdIndexes),
      buildLayouts m1 layouts st = buildLayouts m2 layouts st := by
  intro layouts
  induction layouts with
  | nil => intro st; rfl
  | cons layout rest ih =>
    intro st
    simp only [buildLayouts, collectStandalone_sameLookup h, ih]

theorem buildExtensions_sameLookup {m1 m2 : ObjectInfoMap} (h : SameLookup m1 m2) :
    ∀ (exts : List ActionExtension) (st : List Nat × List TreeNode × IdIndexes),
      buildExtensions m1 exts st = buildExtensions m2 exts st := by
  intro exts
  induction exts with
  | nil => intro st; rfl
  | cons ext rest ih =>
    intro st
    simp only [buildExtensions, buildLayouts_sameLookup h, ih]

theorem build_sameLookup {m1 m2 : ObjectInfoMap} (h : SameLookup m1 m2)
    (exts : List ActionExtension) : build exts m1 = build exts m2 := by
  unfold build
  rw [buildExtensions_sameLookup h, applyBuildRoutines_sameLookup h]

theorem scanChildren_sameLookup {m1 m2 : ObjectInfoMap} (h : SameLookup m1 m2) (id : String) :
    ∀ (items : List ActionLayout) (st : List ActionLayout × TopologicalSorter),
      scanChildren m1 id items st = scanChildren m2 id items st := by
  intro items
  induction items with
  | nil => intro st; rfl
  | cons item rest ih =>
    intro st
    obtain ⟨stack, sorter⟩ := st
    simp only [scanChildren, h item.id, ih]

theorem collectEdges_sameLookup {m1 m2 : ObjectInfoMap} (h : SameLookup m1 m2) (id : String) :
    ∀ (fuel : Nat) (stack : List ActionLayout) (sorter : TopologicalSorter),
      collectEdges m1 id fuel stack sorter = collectEdges m2 id fuel stack sorter := by
  intro fuel
  induction fuel with
  | zero => intro stack sorter; cases stack <;> rfl
  | succ n ih =>
    intro stack sorter
    cases stack with
    | nil => rfl
    | cons l rest => simp only [collectEdges, scanChildren_sameLookup h, ih]

theorem collectRoots_sameLookup {m1 m2 : ObjectInfoMap} (h : SameLookup m1 m2) :
    ∀ (layouts : List ActionLayout) (layoutMap : List String) (sorter : TopologicalSorter),
      collectRoots m1 layouts layoutMap sorter = collectRoots m2 layouts layoutMap sorter := by
  intro layouts
  induction layouts with
  | nil => intro layoutMap sorter; rfl
  | cons l rest ih =>
    intro layoutMap sorter
    simp only [collectRoots, h l.id, collectEdges_sameLookup h, ih]

/-- The state after `setLayouts_helper`: unchanged when the flag is `false`, the given forest
cached when it is `true`. -/
theorem setLayouts_helper_state (d d1 : ActionDomainPrivate) (layouts : List ActionLayout)
    (b : Bool) (h : d.setLayouts_helper layouts = some (b, d1)) :
    d1 = if b then { d with layouts := some layouts } else d := by
  unfold setLayouts_helper at h
  cases hc : collectRoots d.objectInfoMap layouts [] TopologicalSorter.empty with
  | none => simp [hc] at h
  | some r =>
    cases r with
    | none =>
      simp only [hc, Option.some.injEq, Prod.mk.injEq] at h
      obtain ⟨rfl, rfl⟩ := h
      rfl
    | some sorter =>
      simp only [hc] at h
      cases hs : sorter.sort with
      | none => simp [hs] at h
      | some res =>
        obtain ⟨b', s'⟩ := res
        cases b' <;>
        · simp only [hs, Option.some.injEq, Prod.mk.injEq] at h
          obtain ⟨rfl, rfl⟩ := h
          rfl

/-- The flag returned by `setLayouts_helper` depends on the state only through the lookups in
the object map. -/
theorem setLayouts_helper_sameLookup (d1 d2 : ActionDomainPrivate)
    (h : SameLookup d1.objectInfoMap d2.objectInfoMap) (layouts : List ActionLayout) :
    (d1.setLayouts_helper layouts).map Prod.fst = (d2.setLayouts_helper layouts).map Prod.fst := by
  unfold setLayouts_helper
  rw [collectRoots_sameLookup h]
  cases collectRoots d2.objectInfoMap layouts [] TopologicalSorter.empty with
  | none => rfl
  | some r =>
    cases r with
    | none => rfl
    | some sorter =>
      cases hs : sorter.sort with
      | none => simp only [hs]
      | some res =>
        obtain ⟨b', s'⟩ := res
        cases b' <;> simp only [hs, Option.map_some']

/-- The forest returned by `layouts()` when nothing is cached: the composed forest when
`setLayouts_helper` accepts it, the empty forest otherwise. -/
theorem layouts_of_empty_cache (d : ActionDomainPrivate) (hl : d.layouts = none) :
    (ActionDomain.layouts d).map Prod.fst =
      (build d.extensions d.objectInfoMap).bind (fun built =>
        ((d.setLayouts_helper built).map Prod.fst).map (fun b => if b then built else [])) := by
  unfold ActionDomain.layouts flushLayouts
  rw [hl]
  cases hb : build d.extensions d.objectInfoMap with
  | none => rfl
  | some built =>
    cases hh : d.setLayouts_helper built with
    | none => simp [hh]
    | some r =>
      obtain ⟨b, d1⟩ := r
      have hs := setLayouts_helper_state d d1 built b hh
      cases b
      · simp [hh]
      · simp only [if_true] at hs
        subst hs
        simp [hh]

/-- Two states with the same extension list, the same objects under every id and no cached
forest return the same forest from `layouts()`. -/
theorem layouts_sameLookup (d1 d2 : ActionDomainPrivate) (he : d1.extensions = d2.extensions)
    (h : SameLookup d1.objectInfoMap d2.objectInfoMap) (h1 : d1.layouts = none)
    (h2 : d2.layouts = none) :
    (ActionDomain.layouts d1).map Prod.fst = (ActionDomain.layouts d2).map Prod.fst := by
  rw [layouts_of_empty_cache d1 h1, layouts_of_empty_cache d2 h2, he, build_sameLookup h]
  congr 1
  funext built
  rw [setLayouts_helper_sameLookup d1 d2 h]

/-- A second call of `layouts()` returns the same forest and the same state; the first call
changes nothing but the cache `layouts`. -/
theorem layouts_twice (d d1 : ActionDomainPrivate) (forest : List ActionLayout)
    (h : ActionDomain.layouts d = some (forest, d1)) :
    ActionDomain.layouts d1 = some (forest, d1) ∧ d1.extensions = d.extensions ∧
      d1.objectInfoMap = d.objectInfoMap ∧ d1.objectCategories = d.objectCategories ∧
      d1.catalog = d.catalog := by
  unfold ActionDomain.layouts at h
  cases hf : d.flushLayouts with
  | none => simp [hf] at h
  | some d' =>
    simp only [hf, Option.some.injEq, Prod.mk.injEq] at h
    obtain ⟨hforest, rfl⟩ := h
    unfold flushLayouts at hf
    cases hl : d.layouts with
    | some cached =>
      simp only [hl, Option.some.injEq] at hf
      subst hf
      refine ⟨?_, rfl, rfl, rfl, rfl⟩
      simp [ActionDomain.layouts, flushLayouts, hl, ← hforest]
    | none =>
      simp only [hl] at hf
      cases hb : build d.extensions d.objectInfoMap with
      | none => simp [hb] at hf
      | some built =>
        simp only [hb] at hf
        cases hh : d.setLayouts_helper built with
        | none => simp [hh] at hf
        | some r =>
          obtain ⟨b, d2⟩ := r
          have hs := setLayouts_helper_state d d2 built b hh
          cases b
          · simp only [hh, Option.some.injEq, Bool.false_eq_true, if_false] at hf hs
            subst hs
            subst hf
            subst hforest
            exact ⟨rfl, rfl, rfl, rfl, rfl⟩
          · simp only [hh, Option.some.injEq, if_true] at hf hs
            subst hs
            subst hf
            subst hforest
            exact ⟨rfl, rfl, rfl, rfl, rfl⟩

end Core
namespace Core
open TopologicalSorter ActionDomainPrivate LayoutsHelper ActionDomain

theorem lookup_append_map {β : Type} (m t : List (String × β)) (k : String) :
    (m ++ t).lookup k = match m.lookup k with
      | some v => some v
      | none => t.lookup k := by
  induction m with
  | nil => rfl
  | cons e m ih =>
    obtain ⟨k0, v0⟩ := e
    rw [List.cons_append, lookup_cons_ite, lookup_cons_ite]
    by_cases h : k = k0
    · simp [h]
    · simp [h, ih]

theorem lookup_eq_of_perm {β : Type} {l1 l2 : List (String × β)} (hp : l1.Perm l2)
    (hn : (l1.map Prod.fst).Nodup) (k : String) : l1.lookup k = l2.lookup k := by
  induction hp with
  | nil => rfl
  | cons x _ ih =>
    obtain ⟨k0, v0⟩ := x
    rw [lookup_cons_ite, lookup_cons_ite, ih (List.nodup_cons.mp hn).2]
  | swap x y l =>
    obtain ⟨kx, vx⟩ := x
    obtain ⟨ky, vy⟩ := y
    simp only [lookup_cons_ite]
    have hne : ky ≠ kx := by
      intro h
      simp [h] at hn
    by_cases h1 : k = ky
    · subst h1
      simp [hne]
    · simp [h1]
  | trans h1 _ ih1 ih2 =>
    rw [ih1 hn, ih2 ((h1.map Prod.fst).nodup_iff.mp hn)]

theorem lookup_remove {β : Type} (m : List (String × β)) (key k : String) :
    (QMChronoMap.remove m key).lookup k = if k = key then none else m.lookup k := by
  unfold QMChronoMap.remove
  induction m with
  | nil => simp
  | cons e m ih =>
    obtain ⟨k0, v0⟩ := e
    by_cases h0 : k0 = key
    · subst h0
      rw [List.filter_cons_of_neg (by simp), ih, lookup_cons_ite]
      by_cases h : k = k0 <;> simp [h]
    · rw [List.filter_cons_of_pos (by simpa using h0), lookup_cons_ite, lookup_cons_ite, ih]
      by_cases h : k = k0
      · subst h
        simp [h0]
      · simp [h]

theorem checkDuplication_sameLookup (d1 d2 : ActionDomainPrivate)
    (h : SameLookup d1.objectInfoMap d2.objectInfoMap)
    (hc : d1.objectCategories = d2.objectCategories) :
    ∀ (objs : List ActionObjectInfo) (temp : List (String × ActionObjectInfo))
      (cats : List (List String)),
      addExtension.checkDuplication d1 objs temp cats =
        addExtension.checkDuplication d2 objs temp cats := by
  intro objs
  induction objs with
  | nil => intro temp cats; rfl
  | cons o rest ih =>
    intro temp cats
    simp only [addExtension.checkDuplication, h o.id, hc, ih]

theorem removeExtension_loop_sameLookup (objs : List ActionObjectInfo) :
    ∀ (m1 m2 : ObjectInfoMap) (cats : List (List String)), SameLookup m1 m2 →
      SameLookup (removeExtension.loop objs (m1, cats)).1 (removeExtension.loop objs (m2, cats)).1 ∧
      (removeExtension.loop objs (m1, cats)).2 = (removeExtension.loop objs (m2, cats)).2 := by
  induction objs with
  | nil => intro m1 m2 cats h; exact ⟨h, rfl⟩
  | cons o rest ih =>
    intro m1 m2 cats h
    unfold removeExtension.loop
    apply ih
    intro k
    rw [lookup_remove, lookup_remove, h k]

/-- The relation kept by two runs of the same calls: same extension list, same objects under
every id, same category set, nothing cached. -/
theorem sameCalls_invariant (calls1 calls2 : List RegistryCall) (hs : SameCalls calls1 calls2) :
    ∀ d1 d2 : ActionDomainPrivate, d1.extensions = d2.extensions →
      SameLookup d1.objectInfoMap d2.objectInfoMap →
      d1.objectCategories = d2.objectCategories → d1.layouts = none → d2.layouts = none →
      (calls1.foldl RegistryCall.apply d1).extensions =
          (calls2.foldl RegistryCall.apply d2).extensions ∧
        SameLookup (calls1.foldl RegistryCall.apply d1).objectInfoMap
          (calls2.foldl RegistryCall.apply d2).objectInfoMap ∧
        (calls1.foldl RegistryCall.apply d1).objectCategories =
          (calls2.foldl RegistryCall.apply d2).objectCategories ∧
        (calls1.foldl RegistryCall.apply d1).layouts = none ∧
        (calls2.foldl RegistryCall.apply d2).layouts = none := by
  induction hs with
  | nil => intro d1 d2 he hl hc h1 h2; exact ⟨he, hl, hc, h1, h2⟩
  | add order1 order2 extension _ ih =>
    intro d1 d2 he hl hc h1 h2
    simp only [List.foldl_cons, RegistryCall.apply]
    unfold addExtension
    rw [he, checkDuplication_sameLookup d1 d2 hl hc]
    by_cases hh : (d2.extensions.any fun e => decide (e.hash = extension.hash)) = true
    · simp only [hh, if_true]
      exact ih d1 d2 he hl hc h1 h2
    · simp only [hh, if_false, Bool.false_eq_true]
      cases hcd : addExtension.checkDuplication d2 extension.objects [] [] with
      | none => exact ih d1 d2 he hl hc h1 h2
      | some r =>
        obtain ⟨temp, cats⟩ := r
        obtain ⟨hn, _⟩ := checkDuplication_spec d2 _ _ _ _ _ hcd List.nodup_nil (by simp)
        apply ih
        · rfl
        · intro k
          show (d1.objectInfoMap ++ order1.iterate temp).lookup k =
            (d2.objectInfoMap ++ order2.iterate temp).lookup k
          rw [lookup_append_map, lookup_append_map, hl k,
            lookup_eq_of_perm (order1.perm temp)
              ((((order1.perm temp).map Prod.fst).nodup_iff).mpr hn),
            lookup_eq_of_perm (order2.perm temp)
              ((((order2.perm temp).map Prod.fst).nodup_iff).mpr hn)]
        · show QSet.unite d1.objectCategories cats = QSet.unite d2.objectCategories cats
          rw [hc]
        · rfl
        · rfl
  | remove extension _ ih =>
    intro d1 d2 he hl hc h1 h2
    simp only [List.foldl_cons, RegistryCall.apply]
    unfold removeExtension
    obtain ⟨hl', hc'⟩ := removeExtension_loop_sameLookup extension.objects d1.objectInfoMap
      d2.objectInfoMap d1.objectCategories hl
    rw [← hc]
    apply ih
    · show d1.extensions.filter _ = d2.extensions.filter _
      rw [he]
    · exact hl'
    · exact hc'
    · rfl
    · rfl

/-- C15. Composition is deterministic and idempotent. (1) Two runs of the same registry calls
with the same records return the same forest from `layouts()`, whatever the iteration orders of
the hash maps were. (2) More generally `layouts()` depends only on the list of registered
extensions and on the object found under each id. (3) A call of `layouts()` changes nothing but
the cache, and a second call returns the same forest and leaves the state as it is. -/
theorem composition_deterministic :
    (∀ calls1 calls2 : List RegistryCall, SameCalls calls1 calls2 →
      (ActionDomain.layouts (runCalls calls1)).map Prod.fst =
        (ActionDomain.layouts (runCalls calls2)).map Prod.fst) ∧
    (∀ d1 d2 : ActionDomainPrivate, d1.extensions = d2.extensions →
      SameLookup d1.objectInfoMap d2.objectInfoMap → d1.layouts = none → d2.layouts = none →
      (ActionDomain.layouts d1).map Prod.fst = (ActionDomain.layouts d2).map Prod.fst) ∧
    (∀ (d d1 : ActionDomainPrivate) (forest : List ActionLayout),
      ActionDomain.layouts d = some (forest, d1) →
      ActionDomain.layouts d1 = some (forest, d1) ∧ d1.extensions = d.extensions ∧
        d1.objectInfoMap = d.objectInfoMap ∧ d1.objectCategories = d.objectCategories ∧
        d1.catalog = d.catalog) := by
  refine ⟨fun calls1 calls2 hs => ?_, layouts_sameLookup, layouts_twice⟩
  obtain ⟨he, hl, _, h1, h2⟩ := sameCalls_invariant calls1 calls2 hs ActionDomainPrivate.init
    ActionDomainPrivate.init rfl (fun _ => rfl) rfl rfl rfl
  exact layouts_sameLookup _ _ he hl h1 h2

end Core
namespace Core
open TopologicalSorter ActionDomainPrivate LayoutsHelper

theorem fromNodeElement_children (om : ObjectInfoMap) (e : QMXmlAdaptorElement) (sr : Bool)
    (node : TreeNode) (h : fromNodeElement om e sr = some node) :
    node.children = [] ∧
      ((node.type = ActionLayoutType.Separator ∨ node.type = ActionLayoutType.Stretch) →
        node.id = "") := by
  unfold fromNodeElement at h
  split at h
  · simp only [Option.some.injEq] at h; subst h; simp
  · split at h
    · simp only [Option.some.injEq] at h; subst h; simp
    · split at h
      · cases h
      · split at h
        · cases h
        · split at h
          · cases h
          · split at h <;> split at h <;> cases h <;> refine ⟨rfl, ?_⟩ <;> intro hc <;>
              exfalso <;> dsimp only at hc
            · simp at hc
            · simp at hc
            · split at hc <;> simp at hc

end Core
namespace Core
open TopologicalSorter ActionDomainPrivate LayoutsHelper

mutual

theorem restore_deserialize (om : ObjectInfoMap) :
    ∀ (e : QMXmlAdaptorElement) (heap : List TreeNode) (idx : IdIndexes) (sr : Bool),
      (deserializeElement om sr e = none ∧
        restoreElementHelper om e heap idx sr = (none, heap, idx)) ∨
      ∃ l i ext idx', deserializeElement om sr e = some l ∧
        restoreElementHelper om e heap idx sr = (some i, heap ++ ext, idx') ∧
        ext.length = l.size ∧
        ∀ ext2 fuel, l.size ≤ fuel → toLayout (heap ++ ext ++ ext2) fuel i = some l
  | .mk name props value cs, heap, idx, sr => by
    cases hf : fromNodeElement om (.mk name props value cs) sr with
    | none =>
      left
      simp [deserializeElement, restoreElementHelper, hf]
    | some node =>
      right
      obtain ⟨id, type, children⟩ := node
      obtain ⟨hch, hid⟩ := fromNodeElement_children om _ sr _ hf
      simp only at hch hid
      subst hch
      by_cases hs : type = ActionLayoutType.Separator ∨ type = ActionLayoutType.Stretch
      · have hid' := hid hs
        subst hid'
        refine ⟨if type = ActionLayoutType.Separator then sharedSeparator else sharedStretch,
          heap.length, [⟨"", type, []⟩], idx, ?_, ?_, ?_, ?_⟩
        · rcases hs with hs | hs <;> subst hs <;> simp [deserializeElement, hf]
        · exact restoreElementHelper_sep om _ _ _ _ heap idx sr type hf hs
        · rcases hs with hs | hs <;> subst hs <;>
            simp [ActionLayout.size, ActionLayout.size.sizeList, sharedSeparator, sharedStretch]
        · intro ext2 fuel hfuel
          cases fuel with
          | zero =>
            rcases hs with hs | hs <;> subst hs <;>
              simp [ActionLayout.size, sharedSeparator, sharedStretch] at hfuel
          | succ fuel =>
            have hsh := toLayout_shared (heap ++ [⟨"", type, []⟩] ++ ext2) fuel heap.length
              ⟨"", type, []⟩ (getElem?_middle heap ext2 _)
            rcases hs with hs | hs
            · subst hs; simpa using hsh.1 rfl
            · subst hs; simpa using hsh.2 rfl
      · have h1 : type ≠ ActionLayoutType.Separator := fun h => hs (Or.inl h)
        have h2 : type ≠ ActionLayoutType.Stretch := fun h => hs (Or.inr h)
        obtain ⟨is, ext, idx1, hrc, hlen, hall⟩ := restore_deserializeList om cs heap idx
        have hr := restoreElementHelper_node om _ _ _ _ heap idx sr id type hf hs
        rw [hrc] at hr
        simp only at hr
        refine ⟨.mk id type (deserializeElement.deserializeList om cs), (heap ++ ext).length,
          ext ++ [⟨id, type, is⟩], IdIndexes.append idx1 id (heap ++ ext).length, ?_, ?_, ?_, ?_⟩
        · simp [deserializeElement, hf, h1, h2]
        · rw [← List.append_assoc]
          exact hr
        · simp [hlen, ActionLayout.size]
        · intro ext2 fuel hfuel
          cases fuel with
          | zero => simp [ActionLayout.size] at hfuel
          | succ fuel =>
            have hget : (heap ++ (ext ++ [⟨id, type, is⟩]) ++ ext2)[(heap ++ ext).length]? =
                some ⟨id, type, is⟩ := by
              rw [← List.append_assoc]
              exact getElem?_middle (heap ++ ext) ext2 _
            have hc := hall ([⟨id, type, is⟩] ++ ext2) fuel (by
              simp only [ActionLayout.size] at hfuel
              omega)
            have heq : heap ++ ext ++ ([⟨id, type, is⟩] ++ ext2) =
                heap ++ (ext ++ [⟨id, type, is⟩]) ++ ext2 := by simp
            rw [heq] at hc
            exact toLayout_node _ fuel _ ⟨id, type, is⟩ _ hget hs hc

theorem restore_deserializeList (om : ObjectInfoMap) :
    ∀ (cs : List QMXmlAdaptorElement) (heap : List TreeNode) (idx : IdIndexes),
      ∃ is ext idx', restoreElementHelper.restoreChildren om cs heap idx =
          (is, heap ++ ext, idx') ∧
        ext.length = ActionLayout.size.sizeList (deserializeElement.deserializeList om cs) ∧
        ∀ ext2 fuel, ActionLayout.size.sizeList (deserializeElement.deserializeList om cs) ≤ fuel →
          allSome (is.map (toLayout (heap ++ ext ++ ext2) fuel)) =
            some (deserializeElement.deserializeList om cs)
  | [], heap, idx => by
    refine ⟨[], [], idx, by simp [restoreElementHelper.restoreChildren],
      by simp [deserializeElement.deserializeList, ActionLayout.size.sizeList], ?_⟩
    intro ext2 fuel _
    simp [allSome, deserializeElement.deserializeList]
  | c :: cs, heap, idx => by
    rcases restore_deserialize om c heap idx false with ⟨hd, hr⟩ | ⟨l, i, e1, idx1, hd, hr1, hl1, ht1⟩
    · obtain ⟨is, e2, idx2, hr2, hl2, ht2⟩ := restore_deserializeList om cs heap idx
      refine ⟨is, e2, idx2, ?_, ?_, ?_⟩
      · simp only [restoreElementHelper.restoreChildren, hr, hr2]
      · simp only [deserializeElement.deserializeList, hd, hl2]
      · simp only [deserializeElement.deserializeList, hd]
        exact ht2
    · obtain ⟨is, e2, idx2, hr2, hl2, ht2⟩ := restore_deserializeList om cs (heap ++ e1) idx1
      have hcons := restoreChildren_cons_some om c cs heap (heap ++ e1) idx idx1 i hr1
      rw [hr2] at hcons
      simp only at hcons
      refine ⟨i :: is, e1 ++ e2, idx2, ?_, ?_, ?_⟩
      · rw [← List.append_assoc]
        exact hcons
      · simp [deserializeElement.deserializeList, hd, hl1, hl2, ActionLayout.size.sizeList]
      · intro ext2 fuel hfuel
        simp only [deserializeElement.deserializeList, hd, ActionLayout.size.sizeList] at hfuel ⊢
        have a1 := ht1 (e2 ++ ext2) fuel (by omega)
        have a2 := ht2 ext2 fuel (by omega)
        have heq : heap ++ e1 ++ (e2 ++ ext2) = heap ++ (e1 ++ e2) ++ ext2 := by simp
        have heq2 : heap ++ e1 ++ e2 ++ ext2 = heap ++ (e1 ++ e2) ++ ext2 := by simp
        rw [heq] at a1
        rw [heq2] at a2
        rw [List.map_cons, a1]
        simp only [allSome, a2]

end

end Core
namespace Core
open TopologicalSorter ActionDomainPrivate LayoutsHelper

theorem allSome_append {α : Type} (xs ys : List (Option α)) (as bs : List α)
    (h1 : allSome xs = some as) (h2 : allSome ys = some bs) :
    allSome (xs ++ ys) = some (as ++ bs) := by
  induction xs generalizing as with
  | nil =>
    simp only [allSome, Option.some.injEq] at h1
    subst h1
    simpa using h2
  | cons x xs ih =>
    cases x with
    | none => simp [allSome] at h1
    | some a =>
      cases hx : allSome xs with
      | none => simp [allSome, hx] at h1
      | some as' =>
        simp only [allSome, hx, Option.some.injEq] at h1
        subst h1
        simp [allSome, ih as' hx]

/-- The loop of `restore` over the children of a `layouts` element appends to the arena, and the
new roots convert to the trees of the elements. -/
theorem restoreRoots_deserialize (om : ObjectInfoMap) :
    ∀ (items : List QMXmlAdaptorElement) (roots : List Nat) (heap : List TreeNode)
      (idx : IdIndexes),
      ∃ is ext idx', restoreRoots om items (roots, heap, idx) =
          (roots ++ is, heap ++ ext, idx') ∧
        ext.length = ActionLayout.size.sizeList (deserializeRoots om items) ∧
        ∀ ext2 fuel, ActionLayout.size.sizeList (deserializeRoots om items) ≤ fuel →
          allSome (is.map (toLayout (heap ++ ext ++ ext2) fuel)) =
            some (deserializeRoots om items) := by
  intro items
  induction items with
  | nil =>
    intro roots heap idx
    exact ⟨[], [], idx, by simp [restoreRoots],
      by simp [deserializeRoots, ActionLayout.size.sizeList],
      fun _ _ _ => by simp [allSome, deserializeRoots]⟩
  | cons c cs ih =>
    intro roots heap idx
    rcases restore_deserialize om c heap idx true with
      ⟨hd, hr⟩ | ⟨l, i, e1, idx1, hd, hr1, hl1, ht1⟩
    · obtain ⟨is, e2, idx2, hr2, hl2, ht2⟩ := ih roots heap idx
      refine ⟨is, e2, idx2, ?_, ?_, ?_⟩
      · simp only [restoreRoots, hr, hr2]
      · simp only [deserializeRoots, hd, hl2]
      · simp only [deserializeRoots, hd]
        exact ht2
    · obtain ⟨is, e2, idx2, hr2, hl2, ht2⟩ := ih (roots ++ [i]) (heap ++ e1) idx1
      refine ⟨i :: is, e1 ++ e2, idx2, ?_, ?_, ?_⟩
      · simp only [restoreRoots, hr1, hr2]
        simp
      · simp [deserializeRoots, hd, hl1, hl2, ActionLayout.size.sizeList]
      · intro ext2 fuel hfuel
        simp only [deserializeRoots, hd, ActionLayout.size.sizeList] at hfuel ⊢
        have a1 := ht1 (e2 ++ ext2) fuel (by omega)
        have a2 := ht2 ext2 fuel (by omega)
        have heq : heap ++ e1 ++ (e2 ++ ext2) = heap ++ (e1 ++ e2) ++ ext2 := by simp
        have heq2 : heap ++ e1 ++ e2 ++ ext2 = heap ++ (e1 ++ e2) ++ ext2 := by simp
        rw [heq] at a1
        rw [heq2] at a2
        rw [List.map_cons, a1]
        simp only [allSome, a2]

theorem restoreHashes_eq (es : List QMXmlAdaptorElement) (acc : List String) :
    restoreHashes es acc =
      acc ++ (es.map (fun e => e.property "hash")).filter (fun h => h ≠ "") := by
  induction es generalizing acc with
  | nil => simp [restoreHashes]
  | cons e es ih =>
    by_cases h : e.property "hash" = ""
    · simp [restoreHashes, h, ih]
    · simp [restoreHashes, h, ih]

/-- The loop of `restore` over the children of the root collects the non-empty listed hashes and
an arena whose new roots convert to the deserialized forest. -/
theorem restoreRootChildren_deserialize (om : ObjectInfoMap) :
    ∀ (children : List QMXmlAdaptorElement) (hashes : List String) (roots : List Nat)
      (heap : List TreeNode) (idx : IdIndexes),
      ∃ is ext idx', restoreRootChildren om children (hashes, roots, heap, idx) =
          (hashes ++ (listedHashes children).filter (fun h => h ≠ ""), roots ++ is,
            heap ++ ext, idx') ∧
        ext.length = ActionLayout.size.sizeList (deserializedForest om children) ∧
        ∀ ext2 fuel, ActionLayout.size.sizeList (deserializedForest om children) ≤ fuel →
          allSome (is.map (toLayout (heap ++ ext ++ ext2) fuel)) =
            some (deserializedForest om children) := by
  intro children
  induction children with
  | nil =>
    intro hashes roots heap idx
    exact ⟨[], [], idx, by simp [restoreRootChildren, listedHashes],
      by simp [deserializedForest, ActionLayout.size.sizeList],
      fun _ _ _ => by simp [allSome, deserializedForest]⟩
  | cons c cs ih =>
    intro hashes roots heap idx
    by_cases h1 : c.name = "extensions"
    · have h2 : c.name ≠ "layouts" := by rw [h1]; decide
      obtain ⟨is, ext, idx', hr, hl, ht⟩ := ih (restoreHashes c.children hashes) roots heap idx
      refine ⟨is, ext, idx', ?_, ?_, ?_⟩
      · simp only [restoreRootChildren, h1, if_true, hr, listedHashes]
        rw [restoreHashes_eq]
        simp only [List.filter_append, List.append_assoc]
      · simp only [deserializedForest, h2, if_false, hl]
      · simp only [deserializedForest, h2, if_false]
        exact ht
    · by_cases h2 : c.name = "layouts"
      · obtain ⟨is1, e1, idx1, hr1, hl1, ht1⟩ := restoreRoots_deserialize om c.children roots
          heap idx
        obtain ⟨is2, e2, idx2, hr2, hl2, ht2⟩ := ih hashes (roots ++ is1) (heap ++ e1) idx1
        refine ⟨is1 ++ is2, e1 ++ e2, idx2, ?_, ?_, ?_⟩
        · have h3 : ¬ ("layouts" = "extensions") := by decide
          simp only [restoreRootChildren, h2, h3, if_true, if_false, hr1, hr2, listedHashes]
          simp only [List.append_assoc]
        · simp only [deserializedForest, h2, if_true, List.length_append, hl1, hl2]
          rw [layout_sizeList_append]
        · intro ext2 fuel hfuel
          simp only [deserializedForest, h2, if_true] at hfuel ⊢
          rw [layout_sizeList_append] at hfuel
          have a1 := ht1 (e2 ++ ext2) fuel (by omega)
          have a2 := ht2 ext2 fuel (by omega)
          have heq : heap ++ e1 ++ (e2 ++ ext2) = heap ++ (e1 ++ e2) ++ ext2 := by simp
          have heq2 : heap ++ e1 ++ e2 ++ ext2 = heap ++ (e1 ++ e2) ++ ext2 := by simp
          rw [heq] at a1
          rw [heq2] at a2
          rw [List.map_append]
          exact allSome_append _ _ _ _ a1 a2
      · obtain ⟨is, ext, idx', hr, hl, ht⟩ := ih hashes roots heap idx
        refine ⟨is, ext, idx', ?_, ?_, ?_⟩
        · simp only [restoreRootChildren, h1, h2, if_false, hr, listedHashes]
        · simp only [deserializedForest, h2, if_false, hl]
        · simp only [deserializedForest, h2, if_false]
          exact ht

end Core
namespace Core
open TopologicalSorter ActionDomainPrivate LayoutsHelper

theorem filter_not_listed (extensions : List ActionExtension) (root : QMXmlAdaptorElement) :
    extensions.filter (fun ext =>
        decide (¬ ext.hash ∈ ([] : List String) ++
          (listedHashes root.children).filter (fun h => h ≠ ""))) =
      replayedExtensions extensions root := by
  unfold replayedExtensions
  apply List.filter_congr
  intro ext _
  by_cases h : ext.hash = "" <;> simp [h, List.mem_filter]

/-- C11 (as amended). For a document with the root tag `actionDomain`, `restore` first builds an
arena that represents the forest deserialized from the document (its entries for every id are
exact, and its roots convert to that forest), then applies to this arena the build routines of
the replayed extensions, which are the registered extensions whose hash is empty or is not
listed in the `extensions` elements, in registration order. When no extension is replayed the
result is the deserialized forest itself. -/
theorem selective_replay (extensions : List ActionExtension) (om : ObjectInfoMap)
    (root : QMXmlAdaptorElement) (hroot : root.name = "actionDomain") :
    ∃ heap idIndexes rootIndexes,
      IdIndexesExact heap idIndexes ∧
      (∀ ext2 fuel, heap.length ≤ fuel →
        allSome (rootIndexes.map (toLayout (heap ++ ext2) fuel)) =
          some (deserializedForest om root.children)) ∧
      restore extensions om (some root) =
        (applyBuildRoutines om (replayedExtensions extensions root) heap idIndexes
          rootIndexes).map (fun layouts => (layouts, true)) ∧
      (replayedExtensions extensions root = [] →
        restore extensions om (some root) = some (deserializedForest om root.children, true)) := by
  obtain ⟨is, ext, idx', hr, hlen, hall⟩ :=
    restoreRootChildren_deserialize om root.children [] [] [] []
  have hexact := restoreRootChildren_exact om root.children [] [] [] [] idIndexesExact_nil
  rw [hr] at hexact
  simp only [List.nil_append] at hexact hr hall
  have hrestore : restore extensions om (some root) =
      (applyBuildRoutines om (replayedExtensions extensions root) ext idx' is).map
        (fun layouts => (layouts, true)) := by
    unfold restore
    simp only [hroot, ne_eq, not_true_eq_false, if_false, hr]
    have := filter_not_listed extensions root
    simp only [List.nil_append] at this
    rw [this]
    cases applyBuildRoutines om (replayedExtensions extensions root) ext idx' is <;> rfl
  refine ⟨ext, idx', is, hexact, ?_, hrestore, ?_⟩
  · intro ext2 fuel hfuel
    exact hall ext2 fuel (by omega)
  · intro hnone
    rw [hrestore, hnone]
    have h1 := hall [] (ext.length + 1) (by omega)
    simp only [List.append_nil] at h1
    simp only [applyBuildRoutines, applyRoutines, List.foldl_nil, h1, Option.map_some']

/-- Witness of C11 (as amended): extensions A and B are registered and the document lists the
hash of A only, so the routine of B is applied to the deserialized forest `file[open]` and the
result is `file[open, save]`. -/
theorem selective_replay_witness :
    Examples.savedByA.name = "actionDomain" ∧
      replayedExtensions [Examples.extA, Examples.extB Anchor.After "open"] Examples.savedByA =
        [Examples.extB Anchor.After "open"] ∧
      deserializedForest Examples.registry Examples.savedByA.children = [Examples.fileOpen] ∧
      restore [Examples.extA, Examples.extB Anchor.After "open"] Examples.registry
        (some Examples.savedByA) = some ([Examples.fileOpenSave], true) ∧
      ∃ heap idIndexes rootIndexes,
        IdIndexesExact heap idIndexes ∧
        (∀ ext2 fuel, heap.length ≤ fuel →
          allSome (rootIndexes.map (toLayout (heap ++ ext2) fuel)) =
            some (deserializedForest Examples.registry Examples.savedByA.children)) ∧
        restore [Examples.extA, Examples.extB Anchor.After "open"] Examples.registry
            (some Examples.savedByA) =
          (applyBuildRoutines Examples.registry
            (replayedExtensions [Examples.extA, Examples.extB Anchor.After "open"]
              Examples.savedByA) heap idIndexes rootIndexes).map
            (fun layouts => (layouts, true)) ∧
        (replayedExtensions [Examples.extA, Examples.extB Anchor.After "open"]
            Examples.savedByA = [] →
          restore [Examples.extA, Examples.extB Anchor.After "open"] Examples.registry
            (some Examples.savedByA) =
            some (deserializedForest Examples.registry Examples.savedByA.children, true)) :=
  ⟨rfl, rfl, by decide, by decide,
    selective_replay [Examples.extA, Examples.extB Anchor.After "open"] Examples.registry
      Examples.savedByA rfl⟩

/-- Counterexample to C11 as stated: extension A and an extension with the empty hash are
registered and the document lists both hashes, yet `restore` replays the routine of the second
extension, so the result `file[open, save]` is not the deserialized forest `file[open]`. -/
theorem listed_empty_hash_is_replayed :
    (∀ ext ∈ [Examples.extA, Examples.emptyHashExt],
        ext.hash ∈ listedHashes Examples.savedWithEmptyHash.children) ∧
      deserializedForest Examples.registry Examples.savedWithEmptyHash.children =
        [Examples.fileOpen] ∧
      restore [Examples.extA, Examples.emptyHashExt] Examples.registry
        (some Examples.savedWithEmptyHash) = some ([Examples.fileOpenSave], true) := by
  refine ⟨by decide, by decide, by decide⟩

end Core
namespace reg

theorem isWord_not_dollar {c : Char} (h : isWord c = true) : c ≠ '$' := by
  intro hc
  subst hc
  revert h
  decide

theorem token_of_ne_dollar (c : Char) (t : List Char) (h : c ≠ '$') : token (c :: t) = none := by
  cases t with
  | nil => rfl
  | cons c2 t => simp [token, h]

theorem pairsThenToken_of_ne_dollar (c : Char) (t : List Char) (h : c ≠ '$') :
    pairsThenToken (c :: t) = none := by
  cases t with
  | nil => simp [pairsThenToken, token]
  | cons c2 t => simp [pairsThenToken, token, h]

theorem matchAt_of_ne_dollar (prev : Option Char) (c : Char) (t : List Char) (h : c ≠ '$') :
    matchAt prev (c :: t) = none := by
  unfold matchAt
  split
  · rfl
  · exact pairsThenToken_of_ne_dollar c t h

theorem matchAt_nil (prev : Option Char) : matchAt prev [] = none := by
  unfold matchAt
  split <;> rfl

theorem matchAt_after_dollar (s : List Char) : matchAt (some '$') s = none := by
  simp [matchAt]

theorem indexOf_nil (prev : Option Char) : indexOf prev [] = none := by
  simp [indexOf, matchAt_nil]

/-- Text without a dollar holds no match. -/
theorem indexOf_of_no_dollar (s : List Char) (h : ¬ '$' ∈ s) :
    ∀ prev, indexOf prev s = none := by
  induction s with
  | nil => intro prev; exact indexOf_nil prev
  | cons c t ih =>
    intro prev
    have hc : c ≠ '$' := fun hc => h (by simp [hc])
    have ht : ¬ '$' ∈ t := fun ht => h (by simp [ht])
    simp [indexOf, matchAt_of_ne_dollar prev c t hc, ih ht]

/-- The character before the position reached after the text `lit`. -/
theorem indexOf_skip (lit : List Char) (h : ¬ '$' ∈ lit) :
    ∀ (prev : Option Char) (s : List Char),
      indexOf prev (lit ++ s) =
        (indexOf (match lit.getLast? with
            | none => prev
            | some c => some c) s).map (fun r => (lit ++ r.1, r.2)) := by
  induction lit with
  | nil =>
    intro prev s
    simp
  | cons c t ih =>
    intro prev s
    have hc : c ≠ '$' := fun hc => h (by simp [hc])
    have ht : ¬ '$' ∈ t := fun ht => h (by simp [ht])
    rw [List.cons_append]
    simp only [indexOf, matchAt_of_ne_dollar prev c (t ++ s) hc]
    rw [ih ht (some c) s]
    have hlast : (match (c :: t).getLast? with
        | none => prev
        | some c => some c) = (match t.getLast? with
        | none => some c
        | some c => some c) := by
      cases t with
      | nil => rfl
      | cons c2 t2 =>
        rw [List.getLast?_cons_cons]
        cases hl : (c2 :: t2).getLast? with
        | none => simp at hl
        | some x => rfl
    rw [hlast]
    cases indexOf (match t.getLast? with
        | none => some c
        | some c => some c) s with
    | none => rfl
    | some r => obtain ⟨a, b, d⟩ := r; rfl

theorem takeWhile_name (n rest : List Char) (h : ∀ c ∈ n, isWord c = true) :
    (n ++ '}' :: rest).takeWhile isWord = n ∧ (n ++ '}' :: rest).dropWhile isWord = '}' :: rest := by
  induction n with
  | nil =>
    have : isWord '}' = false := by decide
    simp [List.takeWhile, List.dropWhile, this]
  | cons c t ih =>
    have hc : isWord c = true := h c (by simp)
    have := ih (fun x hx => h x (by simp [hx]))
    simp [List.takeWhile, List.dropWhile, hc, this.1, this.2]

theorem token_name (n rest : List Char) (hne : n ≠ []) (h : ∀ c ∈ n, isWord c = true) :
    token ('$' :: '{' :: (n ++ '}' :: rest)) = some (n, rest) := by
  obtain ⟨h1, h2⟩ := takeWhile_name n rest h
  simp [token, h1, h2, hne]

theorem pairsThenToken_name (n rest : List Char) (hne : n ≠ []) (h : ∀ c ∈ n, isWord c = true) :
    pairsThenToken ('$' :: '{' :: (n ++ '}' :: rest)) = some (n, rest) := by
  have : ¬ ('$' = '$' ∧ '{' = '$') := by decide
  simp only [pairsThenToken, this, if_false]
  exact token_name n rest hne h

/-- A token that does not follow a dollar is matched where it starts. -/
theorem indexOf_name (prev : Option Char) (n rest : List Char) (hp : prev ≠ some '$')
    (hne : n ≠ []) (h : ∀ c ∈ n, isWord c = true) :
    indexOf prev ('$' :: '{' :: (n ++ '}' :: rest)) = some ([], n, rest) := by
  simp [indexOf, matchAt, hp, pairsThenToken_name n rest hne h]

end reg
theorem QString.replaceEscapes_of_no_dollar (s : List Char) (h : ¬ '$' ∈ s) :
    QString.replaceEscapes s = s := by
  induction s with
  | nil => rfl
  | cons c t ih =>
    have hc : c ≠ '$' := fun hc => h (by simp [hc])
    have ht : ¬ '$' ∈ t := fun ht => h (by simp [ht])
    cases t with
    | nil => rfl
    | cons c2 t2 =>
      simp only [QString.replaceEscapes, hc, false_and, if_false]
      rw [ih ht]

namespace Core

theorem parseExpression.substitute_eq (vars : List (String × String)) :
    ∀ (fuel : Nat) (prev : Option Char) (s : List Char) (hasMatch : Bool) (result : List Char),
      Core.parseExpression.substitute vars fuel prev s hasMatch result =
        Aec.parseExpression.substitute vars fuel prev s hasMatch result := by
  intro fuel
  induction fuel with
  | zero => intro prev s hasMatch result; rfl
  | succ n ih =>
    intro prev s hasMatch result
    simp only [Core.parseExpression.substitute, Aec.parseExpression.substitute, ih]

theorem parseExpression.loop_eq (vars : List (String × String)) :
    ∀ (fuel : Nat) (s : List Char),
      Core.parseExpression.loop vars fuel s = Aec.parseExpression.loop vars fuel s := by
  intro fuel
  induction fuel with
  | zero => intro s; rfl
  | succ n ih =>
    intro s
    simp only [Core.parseExpression.loop, Aec.parseExpression.loop,
      Core.parseExpression.substitute_eq, ih]

/-- The copy of `parseExpression` in `actiondomain.cpp` computes the same function as the one
in `parser.cpp`. -/
theorem parseExpression_eq : Core.parseExpression = Aec.parseExpression := by
  funext fuel s vars
  simp only [Core.parseExpression, Aec.parseExpression, Core.parseExpression.loop_eq]

end Core

namespace Aec
open reg

theorem substitute_of_no_match (vars : List (String × String)) (fuel : Nat)
    (prev : Option Char) (s : List Char) (hasMatch : Bool) (result : List Char)
    (h : indexOf prev s = none) :
    parseExpression.substitute vars fuel prev s hasMatch result = (hasMatch, result ++ s) := by
  cases fuel with
  | zero => rfl
  | succ n => simp [parseExpression.substitute, h]

/-- Literal text without a dollar is copied to the result. -/
theorem substitute_skip (vars : List (String × String)) (lit : List Char) (h : ¬ '$' ∈ lit)
    (fuel : Nat) (prev : Option Char) (s : List Char) (hasMatch : Bool) (result : List Char) :
    parseExpression.substitute vars fuel prev (lit ++ s) hasMatch result =
      parseExpression.substitute vars fuel
        (match lit.getLast? with
          | none => prev
          | some c => some c) s hasMatch (result ++ lit) := by
  cases fuel with
  | zero => simp [parseExpression.substitute]
  | succ n =>
    simp only [parseExpression.substitute, indexOf_skip lit h prev s]
    cases indexOf (match lit.getLast? with
        | none => prev
        | some c => some c) s with
    | none => simp
    | some r =>
      obtain ⟨sk, name, rest⟩ := r
      simp [List.append_assoc]

theorem prev_after_text (lit : List Char) (h : ¬ '$' ∈ lit) (prev : Option Char)
    (hp : prev ≠ some '$') :
    (match lit.getLast? with
      | none => prev
      | some c => some c) ≠ some '$' := by
  cases hl : lit.getLast? with
  | none => exact hp
  | some c =>
    intro hc
    simp only [Option.some.injEq] at hc
    subst hc
    exact h (List.mem_of_getLast?_eq_some hl)

theorem value_no_dollar (vars : List (String × String)) (seg : Segment)
    (h : seg.Plain vars) : ¬ '$' ∈ seg.value vars := by
  cases seg with
  | text s => exact h
  | token name =>
    obtain ⟨⟨_, hw⟩, hv⟩ := h
    simp only [Segment.value]
    cases hl : vars.lookup name with
    | none =>
      intro hc
      exact isWord_not_dollar (hw _ hc) rfl
    | some val => exact hv val hl

theorem expand_no_dollar (vars : List (String × String)) (segs : List Segment)
    (h : ∀ seg ∈ segs, seg.Plain vars) : ¬ '$' ∈ segs.flatMap (Segment.value vars) := by
  intro hc
  obtain ⟨seg, hs, hm⟩ := List.mem_flatMap.mp hc
  exact value_no_dollar vars seg (h seg hs) hm

/-- One pass over an expression made of plain pieces replaces every token by its value and
reports whether there was a token. -/
theorem substitute_template (vars : List (String × String)) :
    ∀ (segs : List Segment) (fuel : Nat) (prev : Option Char) (hasMatch : Bool)
      (result : List Char),
      prev ≠ some '$' → (∀ seg ∈ segs, seg.Plain vars) →
      segs.countP Segment.isToken ≤ fuel →
      parseExpression.substitute vars fuel prev (segs.flatMap Segment.source) hasMatch result =
        (hasMatch || segs.any Segment.isToken, result ++ segs.flatMap (Segment.value vars)) := by
  intro segs
  induction segs with
  | nil =>
    intro fuel prev hasMatch result _ _ _
    simp [substitute_of_no_match vars fuel prev [] hasMatch result (indexOf_nil prev)]
  | cons seg rest ih =>
    intro fuel prev hasMatch result hp hplain hfuel
    have hrest : ∀ s ∈ rest, s.Plain vars := fun s hs => hplain s (by simp [hs])
    cases seg with
    | text s =>
      have hs : ¬ '$' ∈ s.data := hplain (Segment.text s) (by simp)
      simp only [List.flatMap_cons, Segment.source, Segment.value]
      rw [substitute_skip vars s.data hs,
        ih fuel _ hasMatch _ (prev_after_text s.data hs prev hp) hrest
          (by simpa [List.countP_cons, Segment.isToken] using hfuel)]
      simp [Segment.isToken, List.append_assoc]
    | token name =>
      obtain ⟨⟨hne, hw⟩, _⟩ := hplain (Segment.token name) (by simp)
      cases fuel with
      | zero => simp [List.countP_cons, Segment.isToken] at hfuel
      | succ n =>
        have hsrc : (Segment.token name :: rest).flatMap Segment.source =
            '$' :: '{' :: (name.data ++ '}' :: rest.flatMap Segment.source) := by
          simp [Segment.source]
        rw [hsrc]
        simp only [parseExpression.substitute, indexOf_name prev name.data _ hp hne hw]
        rw [ih n (some '}') true _ (by decide) hrest
          (by simpa [List.countP_cons, Segment.isToken] using hfuel)]
        simp [Segment.isToken, Segment.value, List.append_assoc]

theorem countP_le_source (segs : List Segment) :
    segs.countP Segment.isToken ≤ (segs.flatMap Segment.source).length := by
  induction segs with
  | nil => simp
  | cons seg rest ih =>
    cases seg with
    | text s =>
      rw [List.flatMap_cons, List.length_append, List.countP_cons]
      simp only [Segment.isToken, Bool.false_eq_true, if_false]
      omega
    | token name =>
      rw [List.flatMap_cons, List.length_append, List.countP_cons]
      simp only [Segment.isToken, if_true, Segment.source, List.length_cons]
      omega

/-- The passes over an expression made of plain pieces: the first replaces the tokens, the
second finds nothing left, and the final replacement of `$$` has nothing to do. -/
theorem parseExpression_template (vars : List (String × String)) (segs : List Segment)
    (h : ∀ seg ∈ segs, seg.Plain vars) (fuel : Nat) (hfuel : 2 ≤ fuel) :
    parseExpression fuel (Segment.render segs) vars = some (Segment.expand vars segs) := by
  have hno := expand_no_dollar vars segs h
  have hpass := substitute_template vars segs (segs.flatMap Segment.source).length none false []
    (by simp) h (countP_le_source segs)
  have hsecond : ∀ n, parseExpression.loop vars (n + 1) (segs.flatMap (Segment.value vars)) =
      some (segs.flatMap (Segment.value vars)) := by
    intro n
    simp [parseExpression.loop, substitute_of_no_match vars _ none _ false []
      (indexOf_of_no_dollar _ hno none)]
  obtain ⟨n, rfl⟩ : ∃ n, fuel = n + 2 := ⟨fuel - 2, by omega⟩
  have hloop : parseExpression.loop vars (n + 2) (segs.flatMap Segment.source) =
      some (segs.flatMap (Segment.value vars)) := by
    rw [parseExpression.loop, hpass]
    simp only [Bool.false_or, List.nil_append]
    cases segs.any Segment.isToken with
    | true => exact hsecond n
    | false => rfl
  simp only [parseExpression, Segment.render, hloop, Segment.expand,
    QString.replaceEscapes_of_no_dollar _ hno]

end Aec
namespace reg

theorem token_rest_length (s name rest : List Char) (h : token s = some (name, rest)) :
    rest.length < s.length := by
  match s, h with
  | c1 :: c2 :: t, h =>
    simp only [token] at h
    split at h
    · split at h
      · next c3 r hd =>
        split at h
        · simp only [Option.some.injEq, Prod.mk.injEq] at h
          obtain ⟨_, rfl⟩ := h
          have := (List.dropWhile_sublist isWord (l := t)).length_le
          rw [hd] at this
          simp only [List.length_cons] at this ⊢
          omega
        · cases h
      · cases h
    · cases h

theorem pairsThenToken_rest_length :
    ∀ (n : Nat) (s name rest : List Char), s.length ≤ n →
      pairsThenToken s = some (name, rest) → rest.length < s.length := by
  intro n
  induction n with
  | zero =>
    intro s name rest hn h
    have hs : s = [] := List.length_eq_zero.mp (by omega)
    subst hs
    simp [pairsThenToken, token] at h
  | succ k ih =>
    intro s name rest hn h
    match s, h with
    | [], h => simp [pairsThenToken, token] at h
    | [c], h => simp [pairsThenToken, token] at h
    | c1 :: c2 :: t, h =>
      simp only [pairsThenToken] at h
      split at h
      · cases hp : pairsThenToken t with
        | some r =>
          obtain ⟨a, b⟩ := r
          simp only [hp, Option.some.injEq, Prod.mk.injEq] at h
          obtain ⟨rfl, rfl⟩ := h
          have := ih t _ _ (by simp only [List.length_cons] at hn; omega) hp
          simp only [List.length_cons]
          omega
        | none =>
          simp only [hp] at h
          exact token_rest_length _ _ _ h
      · exact token_rest_length _ _ _ h

/-- The text after a match is shorter than the text searched. -/
theorem indexOf_rest_length (s : List Char) :
    ∀ (prev : Option Char) (skipped name rest : List Char),
      indexOf prev s = some (skipped, name, rest) → rest.length < s.length := by
  induction s with
  | nil =>
    intro prev skipped name rest h
    rw [indexOf_nil] at h
    cases h
  | cons c t ih =>
    intro prev skipped name rest h
    simp only [indexOf] at h
    cases hm : matchAt prev (c :: t) with
    | some r =>
      obtain ⟨a, b⟩ := r
      simp only [hm, Option.some.injEq, Prod.mk.injEq] at h
      obtain ⟨_, rfl, rfl⟩ := h
      unfold matchAt at hm
      split at hm
      · cases hm
      · exact pairsThenToken_rest_length _ _ _ _ (Nat.le_refl _) hm
    | none =>
      simp only [hm] at h
      cases hi : indexOf (some c) t with
      | none => simp [hi] at h
      | some r =>
        obtain ⟨a, b, d⟩ := r
        simp only [hi, Option.some.injEq, Prod.mk.injEq] at h
        obtain ⟨_, rfl, rfl⟩ := h
        have := ih (some c) a b d hi
        simp only [List.length_cons]
        omega

end reg

namespace Aec

/-- The rounds given to the inner loop are enough: with at least as many rounds as the text has
characters, the result does not depend on their number. -/
theorem substitute_fuel (vars : List (String × String)) :
    ∀ (fuel : Nat) (prev : Option Char) (s : List Char) (hasMatch : Bool) (result : List Char),
      s.length ≤ fuel →
      parseExpression.substitute vars fuel prev s hasMatch result =
        parseExpression.substitute vars s.length prev s hasMatch result := by
  intro fuel
  induction fuel using Nat.strong_induction_on with
  | _ fuel ih =>
    intro prev s hasMatch result hle
    cases hi : reg.indexOf prev s with
    | none =>
      rw [substitute_of_no_match vars fuel prev s hasMatch result hi,
        substitute_of_no_match vars s.length prev s hasMatch result hi]
    | some r =>
      obtain ⟨sk, name, rest⟩ := r
      have hlt := reg.indexOf_rest_length s prev sk name rest hi
      obtain ⟨k, rfl⟩ : ∃ k, fuel = k + 1 := ⟨fuel - 1, by omega⟩
      obtain ⟨m, hm⟩ : ∃ m, s.length = m + 1 := ⟨s.length - 1, by omega⟩
      rw [hm]
      simp only [parseExpression.substitute, hi]
      rw [ih k (by omega) _ rest true _ (by omega), ih m (by omega) _ rest true _ (by omega)]

end Aec
namespace Aec
open reg

theorem substitute_true (vars : List (String × String)) :
    ∀ (fuel : Nat) (prev : Option Char) (s result : List Char),
      (parseExpression.substitute vars fuel prev s true result).1 = true := by
  intro fuel
  induction fuel with
  | zero => intro prev s result; rfl
  | succ n ih =>
    intro prev s result
    simp only [parseExpression.substitute]
    cases reg.indexOf prev s with
    | none => rfl
    | some r => exact ih _ _ _

/-- A pass that reports no substitution found no match and returns its input. -/
theorem substitute_false (vars : List (String × String)) (s r : List Char)
    (h : parseExpression.substitute vars s.length none s false [] = (false, r)) :
    reg.indexOf none s = none ∧ r = s := by
  cases hl : s.length with
  | zero =>
    have hs : s = [] := List.length_eq_zero.mp hl
    subst hs
    simp only [List.length_nil, parseExpression.substitute, List.append_nil, Prod.mk.injEq,
      true_and] at h
    exact ⟨indexOf_nil none, h.symm⟩
  | succ n =>
    rw [hl] at h
    simp only [parseExpression.substitute] at h
    cases hi : reg.indexOf none s with
    | none =>
      simp only [hi, List.nil_append, Prod.mk.injEq, true_and] at h
      exact ⟨rfl, h.symm⟩
    | some m =>
      obtain ⟨sk, name, rest⟩ := m
      simp only [hi] at h
      have := congrArg Prod.fst h
      rw [substitute_true] at this
      cases this

/-- The text that leaves the loop of passes holds no match. -/
theorem loop_result_stable (vars : List (String × String)) :
    ∀ (fuel : Nat) (s t : List Char), parseExpression.loop vars fuel s = some t →
      reg.indexOf none t = none := by
  intro fuel
  induction fuel with
  | zero => intro s t h; cases h
  | succ n ih =>
    intro s t h
    simp only [parseExpression.loop] at h
    cases hp : parseExpression.substitute vars s.length none s false [] with
    | mk b r =>
      rw [hp] at h
      cases b with
      | true => exact ih r t h
      | false =>
        simp only [Option.some.injEq] at h
        subst h
        obtain ⟨hi, hr⟩ := substitute_false vars s r hp
        rw [hr]
        exact hi

/-- C16 (as amended): for an expression built from literal pieces without `$` and tokens `${n}`
whose names are non-empty runs of word characters (`\w+`: ASCII letters, digits, underscore)
that the variable map defines with values without `$`, `parseExpression`
returns, given fuel for two passes, the text in which every token is replaced by the value of
its name and every literal piece is unchanged. This holds for the function of `parser.cpp` and
for its copy in `actiondomain.cpp`, which the icon configuration parser uses. -/
theorem variable_substitution (vars : List (String × String)) (segs : List Segment)
    (fuel : Nat) (hfuel : 2 ≤ fuel)
    (htext : ∀ s, Segment.text s ∈ segs → ¬ '$' ∈ s.data)
    (htoken : ∀ name, Segment.token name ∈ segs →
      IsName name ∧ ∃ val, vars.lookup name = some val ∧ ¬ '$' ∈ val.data) :
    Aec.parseExpression fuel (Segment.render segs) vars = some (Segment.resolve vars segs) ∧
      Core.parseExpression fuel (Segment.render segs) vars =
        some (Segment.resolve vars segs) := by
  have hplain : ∀ seg ∈ segs, seg.Plain vars := by
    intro seg hs
    cases seg with
    | text s => exact htext s hs
    | token name =>
      obtain ⟨hn, val, hl, hv⟩ := htoken name hs
      refine ⟨hn, fun v hv' => ?_⟩
      rw [hl] at hv'
      cases hv'
      exact hv
  have heq : Segment.expand vars segs = Segment.resolve vars segs := by
    unfold Segment.expand Segment.resolve
    congr 1
    apply List.flatMap_congr
    intro seg hs
    cases seg with
    | text s => rfl
    | token name =>
      obtain ⟨_, val, hl, _⟩ := htoken name hs
      simp [Segment.value, hl]
  rw [Core.parseExpression_eq, ← heq]
  exact ⟨Aec.parseExpression_template vars segs hplain fuel hfuel,
    Aec.parseExpression_template vars segs hplain fuel hfuel⟩

/-- Witness of C16 (as amended): `${dir}/icons/${name}.png` with `dir = assets` and
`name = open` gives `assets/icons/open.png`. -/
theorem variable_substitution_witness :
    Aec.parseExpression 2 "${dir}/icons/${name}.png" [("dir", "assets"), ("name", "open")] =
        some "assets/icons/open.png" ∧
      Core.parseExpression 2 "${dir}/icons/${name}.png" [("dir", "assets"), ("name", "open")] =
        some "assets/icons/open.png" :=
  variable_substitution [("dir", "assets"), ("name", "open")]
    [Segment.token "dir", Segment.text "/icons/", Segment.token "name", Segment.text ".png"]
    2 (Nat.le_refl 2) (by
      intro s h
      simp only [List.mem_cons, Segment.text.injEq, reduceCtorEq, false_or, or_false,
        List.mem_singleton, List.not_mem_nil] at h
      rcases h with rfl | rfl <;> decide) (by
      intro name h
      simp only [List.mem_cons, Segment.token.injEq, reduceCtorEq, false_or, or_false,
        List.mem_singleton, List.not_mem_nil] at h
      rcases h with rfl | rfl
      · exact ⟨⟨by decide, by decide⟩, "assets", rfl, by decide⟩
      · exact ⟨⟨by decide, by decide⟩, "open", rfl, by decide⟩)

end Aec
namespace Aec
open reg

theorem indexOf_cons_of_no_match (prev : Option Char) (c : Char) (t : List Char)
    (h : reg.matchAt prev (c :: t) = none) :
    reg.indexOf prev (c :: t) = (reg.indexOf (some c) t).map (fun r => (c :: r.1, r.2)) := by
  simp only [reg.indexOf, h]
  cases reg.indexOf (some c) t with
  | none => rfl
  | some r => obtain ⟨a, b, d⟩ := r; rfl

theorem indexOf_escaped (t : List Char) (h : ¬ '$' ∈ t) :
    reg.indexOf none ('$' :: '$' :: '{' :: t) = none := by
  have h0 : reg.matchAt none ('$' :: '$' :: '{' :: t) = none := by
    have hp : reg.pairsThenToken ('{' :: t) = none :=
      pairsThenToken_of_ne_dollar '{' t (by decide)
    have ht : reg.token ('$' :: '$' :: '{' :: t) = none := by
      have : ('$' : Char) ≠ '{' := by decide
      simp [reg.token, this]
    simp [reg.matchAt, reg.pairsThenToken, hp, ht]
  have h2 : reg.indexOf (some '$') ('{' :: t) = none :=
    indexOf_of_no_dollar ('{' :: t) (by
      intro hc
      rcases List.mem_cons.mp hc with hc | hc
      · revert hc; decide
      · exact h hc) _
  rw [indexOf_cons_of_no_match none _ _ h0,
    indexOf_cons_of_no_match (some '$') _ _ (matchAt_after_dollar _), h2]
  rfl

/-- C17: for every text `n` without `$` (in particular for every name) and every variable map,
whether or not it defines `n`, `parseExpression` applied to `$$` followed by `{n}` returns,
given fuel for one pass, the literal text `${n}`. No pass finds a token; the escaped dollar
becomes a single `$` in the final replacement. -/
theorem dollar_escape (vars : List (String × String)) (n : String) (hn : ¬ '$' ∈ n.data)
    (fuel : Nat) (hfuel : 1 ≤ fuel) :
    Aec.parseExpression fuel ("$$\x7b" ++ n ++ "\x7d") vars = some ("$\x7b" ++ n ++ "\x7d") ∧
      Core.parseExpression fuel ("$$\x7b" ++ n ++ "\x7d") vars = some ("$\x7b" ++ n ++ "\x7d") := by
  have hno : ¬ '$' ∈ n.data ++ ['}'] := by
    intro hc
    rcases List.mem_append.mp hc with hc | hc
    · exact hn hc
    · revert hc; decide
  have hdata : ("$$\x7b" ++ n ++ "\x7d").data = '$' :: '$' :: '{' :: (n.data ++ ['}']) := by
    simp [String.data_append]
  have hres : ("$\x7b" ++ n ++ "\x7d") = String.mk ('$' :: '{' :: (n.data ++ ['}'])) := by
    apply String.ext
    simp [String.data_append]
  obtain ⟨k, rfl⟩ : ∃ k, fuel = k + 1 := ⟨fuel - 1, by omega⟩
  have hloop : Aec.parseExpression.loop vars (k + 1) ('$' :: '$' :: '{' :: (n.data ++ ['}'])) =
      some ('$' :: '$' :: '{' :: (n.data ++ ['}'])) := by
    simp [Aec.parseExpression.loop, Aec.substitute_of_no_match vars _ none _ false []
      (Aec.indexOf_escaped _ hno)]
  have hrep : QString.replaceEscapes ('$' :: '$' :: '{' :: (n.data ++ ['}'])) =
      '$' :: '{' :: (n.data ++ ['}']) := by
    have hno2 : ¬ '$' ∈ '{' :: (n.data ++ ['}']) := by
      intro hc
      rcases List.mem_cons.mp hc with hc | hc
      · revert hc; decide
      · exact hno hc
    simp only [QString.replaceEscapes, and_self, if_true,
      QString.replaceEscapes_of_no_dollar _ hno2]
  rw [Core.parseExpression_eq]
  have : Aec.parseExpression (k + 1) ("$$\x7b" ++ n ++ "\x7d") vars =
      some ("$\x7b" ++ n ++ "\x7d") := by
    simp only [Aec.parseExpression, hdata, hloop, hrep, hres]
  exact ⟨this, this⟩

/-- Witness of C17: `$${dir}` gives `${dir}`, here with a map that defines `dir`. -/
theorem dollar_escape_witness :
    Aec.parseExpression 1 "$${dir}" [("dir", "assets")] = some "${dir}" ∧
      Core.parseExpression 1 "$${dir}" [("dir", "assets")] = some "${dir}" :=
  dollar_escape [("dir", "assets")] "dir" (by decide) 1 (Nat.le_refl 1)

/-- C18 (as amended): in an expression built from literal pieces without `$` and tokens whose
names are non-empty runs of word characters (`\w+`), a token whose name the variable map does
not define is replaced by the bare name (and a token whose name it defines, with a value without
`$`, by that value); `parseExpression`
returns this text given fuel for two passes, so substitution does not fail. -/
theorem unresolved_name_passes_through (vars : List (String × String)) (segs : List Segment)
    (fuel : Nat) (hfuel : 2 ≤ fuel) (hplain : ∀ seg ∈ segs, seg.Plain vars) :
    (∀ name, vars.lookup name = none →
        Segment.value vars (Segment.token name) = name.data) ∧
      Aec.parseExpression fuel (Segment.render segs) vars = some (Segment.expand vars segs) ∧
      Core.parseExpression fuel (Segment.render segs) vars = some (Segment.expand vars segs) := by
  refine ⟨fun name h => by simp [Segment.value, h], ?_⟩
  rw [Core.parseExpression_eq]
  exact ⟨Aec.parseExpression_template vars segs hplain fuel hfuel,
    Aec.parseExpression_template vars segs hplain fuel hfuel⟩

/-- Witness of C18 (as amended): with the empty map `a${x}b` gives `axb`. -/
theorem unresolved_name_passes_through_witness :
    Aec.parseExpression 2 "a${x}b" [] = some "axb" ∧
      Core.parseExpression 2 "a${x}b" [] = some "axb" :=
  (unresolved_name_passes_through []
    [Segment.text "a", Segment.token "x", Segment.text "b"] 2 (Nat.le_refl 2) (by
      intro seg h
      simp only [List.mem_cons, List.mem_singleton, List.not_mem_nil, or_false] at h
      rcases h with rfl | rfl | rfl
      · show ¬ '$' ∈ "a".data
        decide
      · exact ⟨⟨by decide, by decide⟩, fun val hv => by cases hv⟩
      · show ¬ '$' ∈ "b".data
        decide)).2

/-- C19: the passes are repeated until one performs no substitution: whenever `parseExpression`
returns, the text handed to the final replacement of `$$` holds no match of the pattern. In
particular `${a}` with `a = ${b}` and `b = v` gives `v`, and so does `${${a}}` with `a = b` and
`b = v`, where the inner token assembles the name of the outer one. -/
theorem expansion_repeats_until_stable :
    (∀ (vars : List (String × String)) (fuel : Nat) (s r : String),
      Aec.parseExpression fuel s vars = some r →
        ∃ t, Aec.parseExpression.loop vars fuel s.data = some t ∧ reg.indexOf none t = none ∧
          r = String.mk (QString.replaceEscapes t)) ∧
    (∀ (vars : List (String × String)) (fuel : Nat) (s r : String),
      Core.parseExpression fuel s vars = some r →
        ∃ t, Core.parseExpression.loop vars fuel s.data = some t ∧ reg.indexOf none t = none ∧
          r = String.mk (QString.replaceEscapes t)) ∧
    Aec.parseExpression 3 "${a}" [("a", "${b}"), ("b", "v")] = some "v" ∧
    Aec.parseExpression 3 "${${a}}" [("a", "b"), ("b", "v")] = some "v" ∧
    Core.parseExpression 3 "${a}" [("a", "${b}"), ("b", "v")] = some "v" ∧
    Core.parseExpression 3 "${${a}}" [("a", "b"), ("b", "v")] = some "v" := by
  have h1 : ∀ (vars : List (String × String)) (fuel : Nat) (s r : String),
      Aec.parseExpression fuel s vars = some r →
        ∃ t, Aec.parseExpression.loop vars fuel s.data = some t ∧ reg.indexOf none t = none ∧
          r = String.mk (QString.replaceEscapes t) := by
    intro vars fuel s r h
    unfold Aec.parseExpression at h
    cases hl : Aec.parseExpression.loop vars fuel s.data with
    | none => simp [hl] at h
    | some t =>
      simp only [hl, Option.some.injEq] at h
      exact ⟨t, rfl, Aec.loop_result_stable vars fuel s.data t hl, h.symm⟩
  refine ⟨h1, ?_, by decide, by decide, by decide, by decide⟩
  intro vars fuel s r h
  rw [Core.parseExpression_eq] at h
  obtain ⟨t, ht, hi, hr⟩ := h1 vars fuel s r h
  exact ⟨t, by rw [Core.parseExpression.loop_eq]; exact ht, hi, hr⟩

end Aec
namespace Aec
open reg

/-- A text without a match of the pattern is returned after one pass, with `$$` replaced. -/
theorem parseExpression_of_no_match (vars : List (String × String)) (s : String) (fuel : Nat)
    (hfuel : 1 ≤ fuel) (h : reg.indexOf none s.data = none) :
    Aec.parseExpression fuel s vars = some (String.mk (QString.replaceEscapes s.data)) ∧
      Core.parseExpression fuel s vars = some (String.mk (QString.replaceEscapes s.data)) := by
  obtain ⟨k, rfl⟩ : ∃ k, fuel = k + 1 := ⟨fuel - 1, by omega⟩
  have hloop : Aec.parseExpression.loop vars (k + 1) s.data = some s.data := by
    simp [Aec.parseExpression.loop, Aec.substitute_of_no_match vars _ none _ false [] h]
  rw [Core.parseExpression_eq]
  have : Aec.parseExpression (k + 1) s vars =
      some (String.mk (QString.replaceEscapes s.data)) := by
    simp only [Aec.parseExpression, hloop]
  exact ⟨this, this⟩

/-- Counterexample to C16 as stated: a name with a character outside `\w` is no token. The text
`${app-name}` is returned unchanged for every variable map, also for the map that defines the
key `app-name` with the value `editor`, by the function of `parser.cpp` and by its copy in
`actiondomain.cpp`. -/
theorem hyphenated_token_is_not_substituted :
    ¬ IsName "app-name" ∧
    [("app-name", "editor")].lookup "app-name" = some "editor" ∧
    (∀ (vars : List (String × String)) (fuel : Nat), 1 ≤ fuel →
      Aec.parseExpression fuel "${app-name}" vars = some "${app-name}" ∧
        Core.parseExpression fuel "${app-name}" vars = some "${app-name}") ∧
    Aec.parseExpression 2 "${app-name}" [("app-name", "editor")] = some "${app-name}" := by
  refine ⟨?_, by decide, ?_, by decide⟩
  · intro h
    exact absurd (h.2 '-' (by decide)) (by decide)
  · intro vars fuel hfuel
    exact parseExpression_of_no_match vars "${app-name}" fuel hfuel (by decide)

/-- Counterexample to C18 as stated: `${a-b}` is no token of the pattern, because `-` is no word
character, and the text is returned as it is where the claim gives `a-b`; and the token `${x}`
behind a `$` is not substituted either, `$${x}` gives `${x}`. Both hold for every variable map,
in particular for the empty one, and for both copies of the function. -/
theorem unresolved_hyphenated_name_is_kept :
    ¬ IsName "a-b" ∧
    (∀ (vars : List (String × String)) (fuel : Nat), 1 ≤ fuel →
      Aec.parseExpression fuel "${a-b}" vars = some "${a-b}" ∧
        Core.parseExpression fuel "${a-b}" vars = some "${a-b}") ∧
    (∀ (vars : List (String × String)) (fuel : Nat), 1 ≤ fuel →
      Aec.parseExpression fuel "$${x}" vars = some "${x}" ∧
        Core.parseExpression fuel "$${x}" vars = some "${x}") ∧
    Aec.parseExpression 2 "${a-b}" [] = some "${a-b}" := by
  refine ⟨?_, ?_, ?_, by decide⟩
  · intro h
    exact absurd (h.2 '-' (by decide)) (by decide)
  · intro vars fuel hfuel
    exact parseExpression_of_no_match vars "${a-b}" fuel hfuel (by decide)
  · intro vars fuel hfuel
    exact parseExpression_of_no_match vars "$${x}" fuel hfuel (by decide)

end Aec
namespace Aec

theorem digitChar_value (k : Nat) (h : k < 10) :
    (Nat.digitChar k).toNat - 48 = k ∧ (Nat.digitChar k).isDigit = true := by
  interval_cases k <;> decide

theorem toDigitsCore_value :
    ∀ (fuel n : Nat) (ds : List Char), n < fuel →
      (Nat.toDigitsCore 10 fuel n ds).foldl (fun a c => 10 * a + (c.toNat - 48)) 0 =
        ds.foldl (fun a c => 10 * a + (c.toNat - 48)) n := by
  intro fuel
  induction fuel with
  | zero => intro n ds h; omega
  | succ k ih =>
    intro n ds h
    simp only [Nat.toDigitsCore]
    have hd := (digitChar_value (n % 10) (Nat.mod_lt n (by decide))).1
    split
    · next h0 =>
      simp only [List.foldl_cons, Nat.mul_zero, Nat.zero_add, hd]
      have : n % 10 = n := by omega
      rw [this]
    · next h0 =>
      rw [ih (n / 10) _ (by omega)]
      simp only [List.foldl_cons, hd]
      have : 10 * (n / 10) + n % 10 = n := Nat.div_add_mod n 10
      rw [this]

theorem toDigitsCore_isDigit :
    ∀ (fuel n : Nat) (ds : List Char), (∀ c ∈ ds, c.isDigit = true) →
      ∀ c ∈ Nat.toDigitsCore 10 fuel n ds, c.isDigit = true := by
  intro fuel
  induction fuel with
  | zero => intro n ds h; simpa [Nat.toDigitsCore] using h
  | succ k ih =>
    intro n ds h
    simp only [Nat.toDigitsCore]
    have hd := (digitChar_value (n % 10) (Nat.mod_lt n (by decide))).2
    have hds : ∀ c ∈ Nat.digitChar (n % 10) :: ds, c.isDigit = true := by
      intro c hc
      rcases List.mem_cons.mp hc with rfl | hc
      · exact hd
      · exact h c hc
    split
    · exact hds
    · exact ih _ _ hds

/-- The numeral of a number determines the number. -/
theorem QString.number_inj (m n : Nat) (h : QString.number m = QString.number n) : m = n := by
  have h1 := toDigitsCore_value (m + 1) m [] (by omega)
  have h2 := toDigitsCore_value (n + 1) n [] (by omega)
  simp only [List.foldl_nil] at h1 h2
  have hd : Nat.toDigits 10 m = Nat.toDigits 10 n := by
    have := congrArg String.data h
    simpa [QString.number] using this
  unfold Nat.toDigits at hd
  rw [hd] at h1
  omega

theorem QString.number_isDigits (n : Nat) : isStringDigits (QString.number n) = true := by
  unfold isStringDigits QString.number
  simp only [List.all_eq_true]
  exact toDigitsCore_isDigit (n + 1) n [] (by simp)

end Aec
namespace Aec
open Core (QMXmlAdaptorElement)
open ParserPrivate

theorem QHash.lookup_after_set {β : Type} (m : List (String × β)) (key : String) (v : β)
    (k : String) : (QHash.set m key v).lookup k = if k = key then some v else m.lookup k := by
  unfold QHash.set
  by_cases hm : (m.lookup key).isSome = true
  · rw [if_pos hm]
    induction m with
    | nil => simp at hm
    | cons e m ih =>
      obtain ⟨k0, v0⟩ := e
      rw [List.map_cons]
      by_cases h0 : k0 = key
      · subst h0
        simp only [if_true, Core.lookup_cons_ite]
        by_cases hk : k = k0
        · simp [hk]
        · simp only [hk, if_false]
          by_cases hm' : (m.lookup k0).isSome = true
          · have := ih hm'
            simp only [hk, if_false] at this
            exact this
          · have hnot : k0 ∉ m.map Prod.fst := fun hk0 =>
              hm' ((Core.lookup_isSome_iff_mem_keys m k0).mpr hk0)
            have hmap : m.map (fun p => if p.1 = k0 then (k0, v) else p) = m := by
              conv_rhs => rw [← List.map_id m]
              apply List.map_congr_left
              intro p hp
              have : p.1 ≠ k0 := fun h => hnot (h ▸ List.mem_map_of_mem Prod.fst hp)
              simp [this]
            rw [hmap]
      · simp only [h0, if_false, Core.lookup_cons_ite]
        have hm' : (m.lookup key).isSome = true := by
          rw [Core.lookup_cons_ite] at hm
          have : key ≠ k0 := fun h => h0 h.symm
          simpa [this] using hm
        by_cases hk : k = k0
        · subst hk
          have : k ≠ key := h0
          simp [this]
        · simp only [hk, if_false]
          exact ih hm'
  · rw [if_neg hm, Core.lookup_append_map]
    by_cases hk : k = key
    · subst hk
      have : m.lookup k = none := by
        cases h : m.lookup k with
        | none => rfl
        | some x => simp [h] at hm
      simp [this, Core.lookup_cons_ite]
    · simp only [hk, if_false, Core.lookup_cons_ite]
      cases m.lookup k <;> simp [List.lookup]

theorem resolve_eq (fuel : Nat) (p : ParserPrivate) (s r : String)
    (h : p.resolve fuel s = .ok r) : parseExpression fuel s p.vars = some r := by
  unfold resolve at h
  cases hp : parseExpression fuel s p.vars with
  | none => simp [hp] at h
  | some x =>
    simp only [hp, Except.ok.injEq] at h
    rw [h]

theorem determineObjectType_id (fuel : Nat) (p : ParserPrivate) (e : QMXmlAdaptorElement)
    (info info1 : ActionObjectInfoMessage) (h : p.determineObjectType fuel e info = .ok info1) :
    info1.id = info.id := by
  unfold determineObjectType at h
  split at h
  · split at h
    · cases h
    · simp only [Except.ok.injEq] at h; subst h; rfl
  · split at h
    · simp only [Except.ok.injEq] at h; subst h; rfl
    · split at h
      · split at h
        · cases h
        · simp only [Except.ok.injEq] at h; subst h; rfl
      · split at h
        · simp only [Except.ok.injEq] at h; subst h; rfl
        · split at h
          · split at h
            · cases h
            · simp only [Except.ok.injEq] at h; subst h; rfl
          · cases h

/-- What a successful `findOrInsertObjectInfo` returns: an object with the resolved id of the
element; the state keeps its variables, sequence keys and entries, and its invariant. -/
theorem findOrInsertObjectInfo_spec (fuel : Nat) (p p1 : ParserPrivate)
    (e : QMXmlAdaptorElement) (categories : List String) (info : ActionObjectInfoMessage)
    (hinv : p.Inv) (h : p.findOrInsertObjectInfo fuel e categories = .ok (info, p1)) :
    parseExpression fuel (e.property "id") p.vars = some info.id ∧ p1.vars = p.vars ∧
      p1.defaultCategory = p.defaultCategory ∧
      p1.objSeqMap = p.objSeqMap ∧ p1.result = p.result ∧ p1.Inv := by
  unfold findOrInsertObjectInfo at h
  cases hid : p.resolve fuel (e.property "id") with
  | error f => simp [hid] at h
  | ok id =>
    simp only [hid] at h
    have hres := resolve_eq fuel p _ _ hid
    split at h
    · cases h
    · cases hcat : p.resolve fuel (e.property "_cat") with
      | error f => simp [hcat] at h
      | ok maybeCategory =>
        simp only [hcat] at h
        cases hl : p.objInfoMap.lookup id with
        | some found =>
          simp only [hl] at h
          have hfid : found.id = id := hinv.ids id found hl
          split at h
          · cases h
          · split at h
            · simp only [Except.ok.injEq, Prod.mk.injEq] at h
              obtain ⟨rfl, rfl⟩ := h
              refine ⟨by rw [hres]; exact congrArg some hfid.symm, rfl, rfl, rfl, rfl, ?_⟩
              constructor
              · intro k info' hk
                simp only [QHash.lookup_after_set] at hk
                split at hk
                · next hkid =>
                  simp only [Option.some.injEq] at hk
                  subst hk
                  rw [hkid]
                  exact hfid
                · exact hinv.ids k info' hk
              · exact hinv.seqs
            · simp only [Except.ok.injEq, Prod.mk.injEq] at h
              obtain ⟨rfl, rfl⟩ := h
              exact ⟨by rw [hres]; exact congrArg some hfid.symm, rfl, rfl, rfl, rfl, hinv⟩
        | none =>
          simp only [hl] at h
          cases hd : p.determineObjectType fuel e ⟨id, MessageType.Action, MessageMode.Plain, "",
              "", [], [], ""⟩ with
          | error f => simp [hd] at h
          | ok info1 =>
            simp only [hd, Except.ok.injEq, Prod.mk.injEq] at h
            obtain ⟨rfl, rfl⟩ := h
            have hid1 : info1.id = id := determineObjectType_id fuel p e _ info1 hd
            refine ⟨by rw [hres]; exact congrArg some hid1.symm, rfl, rfl, rfl, rfl, ?_⟩
            constructor
            · intro k info' hk
              rw [Core.lookup_append_map] at hk
              cases hk0 : p.objInfoMap.lookup k with
              | some x =>
                simp only [hk0, Option.some.injEq] at hk
                subst hk
                exact hinv.ids k x hk0
              | none =>
                simp only [hk0, Core.lookup_cons_ite] at hk
                split at hk
                · next hkid =>
                  simp only [Option.some.injEq] at hk
                  subst hk
                  rw [hkid]
                  exact hid1
                · simp [List.lookup] at hk
            · exact hinv.seqs

end Aec
namespace Aec
open Core (QMXmlAdaptorElement)
open ParserPrivate

theorem seqKeysFresh_of_lookup (p : ParserPrivate) (hinv : p.Inv) (id : String) :
    SeqKeysFresh ((p.objSeqMap.lookup id).getD []) := by
  cases h : p.objSeqMap.lookup id with
  | none => intro m _; rfl
  | some seqs => exact hinv.seqs id seqs h

/-- The key chosen by `sequenceKey` is the automatic key, or is not a digit string, or is a key
already. -/
theorem sequenceKey_spec (fuel : Nat) (p : ParserPrivate) (e : QMXmlAdaptorElement)
    (seqs : List (String × Nat)) (seq : String) (h : p.sequenceKey fuel e seqs = .ok seq) :
    seq = QString.number seqs.length ∨ isStringDigits seq = false ∨
      (seqs.lookup seq).isSome = true := by
  unfold sequenceKey at h
  split at h
  · simp only [Except.ok.injEq] at h
    subst h
    split
    · next first rest =>
      split
      · right; right
        obtain ⟨k, v⟩ := first
        simp [Core.lookup_cons_ite]
      · left; rfl
    · left; rfl
  · split at h
    · cases h
    · next spec hs =>
      simp only [Except.ok.injEq] at h
      subst h
      split
      · left; rfl
      · next hc =>
        right
        by_cases hd : isStringDigits spec = true
        · right
          cases hl : seqs.lookup spec with
          | none => exact absurd ⟨by simp [hl], hd⟩ hc
          | some x => rfl
        · left
          simpa using hd

theorem sequenceKey_auto (fuel : Nat) (p : ParserPrivate) (e : QMXmlAdaptorElement)
    (seqs : List (String × Nat)) (hseq : e.properties.lookup "_seq" = none)
    (hc : e.children.isEmpty = false) :
    p.sequenceKey fuel e seqs = .ok (QString.number seqs.length) := by
  unfold sequenceKey
  rw [hseq]
  cases seqs with
  | nil => rfl
  | cons first rest => simp [hc]

theorem inv_appendEntry (p : ParserPrivate) (entry : ActionLayoutEntryMessage) (h : p.Inv) :
    (p.appendEntry entry).Inv :=
  ⟨h.ids, h.seqs⟩

theorem inv_setChildIndexes (p : ParserPrivate) (i : Nat) (cs : List Nat) (h : p.Inv) :
    (p.setChildIndexes i cs).Inv :=
  ⟨h.ids, h.seqs⟩

theorem inv_appendSeq (p : ParserPrivate) (id seq : String) (idx : Nat) (h : p.Inv)
    (hok : seq = QString.number ((p.objSeqMap.lookup id).getD []).length ∨
      isStringDigits seq = false ∨ (((p.objSeqMap.lookup id).getD []).lookup seq).isSome = true)
    (hnew : ((p.objSeqMap.lookup id).getD []).lookup seq = none) :
    (p.appendSeq id seq idx).Inv := by
  constructor
  · exact h.ids
  · intro id' seqs' hl
    simp only [appendSeq, QHash.lookup_after_set] at hl
    split at hl
    · simp only [Option.some.injEq] at hl
      subst hl
      intro m hm
      simp only [List.length_append, List.length_singleton] at hm
      rw [Core.lookup_append_map, seqKeysFresh_of_lookup p h id m (by omega)]
      simp only [Core.lookup_cons_ite]
      have hne : QString.number m ≠ seq := by
        rcases hok with hok | hok | hok
        · intro heq
          rw [hok] at heq
          have := QString.number_inj _ _ heq
          omega
        · intro heq
          rw [← heq, QString.number_isDigits] at hok
          cases hok
        · rw [hnew] at hok
          cases hok
      simp [hne, List.lookup]
    · exact h.seqs id' seqs' hl

/-- A successful `declare` keeps the invariant, the variables and the default category. -/
theorem declare_spec (p : ParserPrivate) (e : QMXmlAdaptorElement)
    (info : ActionObjectInfoMessage) (type : MessageType) (seq : String) (d : Declared)
    (hinv : p.Inv)
    (hok : seq = QString.number ((p.objSeqMap.lookup info.id).getD []).length ∨
      isStringDigits seq = false ∨
      (((p.objSeqMap.lookup info.id).getD []).lookup seq).isSome = true)
    (h : p.declare e info type seq = .ok d) :
    ∃ p2, (d = Declared.placeholder p2 ∨ d = Declared.finished p2) ∧ p2.Inv ∧
      p2.vars = p.vars ∧ p2.defaultCategory = p.defaultCategory := by
  unfold declare at h
  split at h
  · next hnil =>
    simp only [Except.ok.injEq] at h
    subst h
    refine ⟨_, Or.inl rfl, inv_appendEntry _ _ (inv_appendSeq p _ _ _ hinv hok ?_), rfl, rfl⟩
    rw [hnil]
    rfl
  · next first others hcons =>
    split at h
    · next hnone =>
      split at h
      · split at h
        · simp only [Except.ok.injEq] at h
          subst h
          exact ⟨_, Or.inr rfl, inv_appendEntry _ _ hinv, rfl, rfl⟩
        · cases h
      · simp only [Except.ok.injEq] at h
        subst h
        refine ⟨_, Or.inl rfl, inv_appendEntry _ _ (inv_appendSeq p _ _ _ hinv hok ?_), rfl, rfl⟩
        rw [hcons]
        exact hnone
    · split at h
      · cases h
      · simp only [Except.ok.injEq] at h
        subst h
        exact ⟨_, Or.inr rfl, inv_appendEntry _ _ hinv, rfl, rfl⟩

/-- With the automatic key and children to parse, `declare` aborts or leaves a placeholder. -/
theorem declare_auto (p : ParserPrivate) (e : QMXmlAdaptorElement)
    (info : ActionObjectInfoMessage) (type : MessageType) (hinv : p.Inv)
    (hc : e.children.isEmpty = false) :
    (∃ f, p.declare e info type
        (QString.number ((p.objSeqMap.lookup info.id).getD []).length) = .error f) ∨
      ∃ p2, p.declare e info type
        (QString.number ((p.objSeqMap.lookup info.id).getD []).length) =
          .ok (Declared.placeholder p2) := by
  have hfresh := seqKeysFresh_of_lookup p hinv info.id
    ((p.objSeqMap.lookup info.id).getD []).length (Nat.le_refl _)
  unfold declare
  split
  · exact Or.inr ⟨_, rfl⟩
  · next first others hcons =>
    rw [hcons] at hfresh
    rw [hcons, hfresh]
    simp only
    split
    · left
      simp [hc]
    · exact Or.inr ⟨_, rfl⟩

end Aec
namespace Aec
open Core (QMXmlAdaptorElement)
open ParserPrivate

/-- What a successful `enter` leaves: a state with the invariant, the same variables and the
same default category; when the children are to be parsed, the object has the resolved id of
the element and that id is not on the path. -/
theorem enter_spec (fuel : Nat) (p : ParserPrivate) (e : QMXmlAdaptorElement)
    (categories path : List String) (d : Entered) (hinv : p.Inv)
    (h : parseLayoutRecursively.enter fuel p e categories path = .ok d) :
    (∀ idx p2, d = Entered.finished idx p2 →
        p2.Inv ∧ p2.vars = p.vars ∧ p2.defaultCategory = p.defaultCategory) ∧
      (∀ info p2, d = Entered.descend info p2 →
        p2.Inv ∧ p2.vars = p.vars ∧ p2.defaultCategory = p.defaultCategory ∧
          parseExpression fuel (e.property "id") p.vars = some info.id) := by
  unfold parseLayoutRecursively.enter at h
  split at h
  · split at h
    · cases h
    · simp only [Except.ok.injEq] at h
      subst h
      constructor
      · intro idx p2 hd
        cases hd
        exact ⟨inv_appendEntry _ _ hinv, rfl, rfl⟩
      · intro info p2 hd
        cases hd
  · split at h
    · split at h
      · cases h
      · simp only [Except.ok.injEq] at h
        subst h
        constructor
        · intro idx p2 hd
          cases hd
          exact ⟨inv_appendEntry _ _ hinv, rfl, rfl⟩
        · intro info p2 hd
          cases hd
    · cases hf : p.findOrInsertObjectInfo fuel e categories with
      | error f => simp [hf] at h
      | ok r =>
        obtain ⟨info, p1⟩ := r
        simp only [hf] at h
        obtain ⟨hid, hv1, hd1, _, _, hinv1⟩ :=
          findOrInsertObjectInfo_spec fuel p p1 _ categories info hinv hf
        split at h
        · cases h
        · split at h
          · split at h
            · cases h
            · simp only [Except.ok.injEq] at h
              subst h
              constructor
              · intro idx p2 hd
                cases hd
                exact ⟨inv_appendEntry _ _ hinv1, hv1, hd1⟩
              · intro info p2 hd
                cases hd
          · cases ht : p1.entryType fuel e info with
            | error f => simp [ht] at h
            | ok type =>
              simp only [ht] at h
              cases hs : p1.sequenceKey fuel e ((p1.objSeqMap.lookup info.id).getD []) with
              | error f => simp [hs] at h
              | ok seq =>
                simp only [hs] at h
                have hok := sequenceKey_spec fuel p1 _ _ seq hs
                cases hdec : p1.declare e info type seq with
                | error f => simp [hdec] at h
                | ok dd =>
                  obtain ⟨p2, hd, hinv2, hv2, hd2⟩ :=
                    declare_spec p1 _ info type seq dd hinv1 hok hdec
                  rcases hd with rfl | rfl
                  · simp only [hdec] at h
                    split at h
                    · simp only [Except.ok.injEq] at h
                      subst h
                      constructor
                      · intro idx p2' hd
                        cases hd
                        exact ⟨hinv2, hv2.trans hv1, hd2.trans hd1⟩
                      · intro info p2' hd
                        cases hd
                    · simp only [Except.ok.injEq] at h
                      subst h
                      constructor
                      · intro idx p2' hd
                        cases hd
                      · intro info' p2' hd
                        cases hd
                        exact ⟨hinv2, hv2.trans hv1, hd2.trans hd1, hid⟩
                  · simp only [hdec, Except.ok.injEq] at h
                    subst h
                    constructor
                    · intro idx p2' hd
                      cases hd
                      exact ⟨hinv2, hv2.trans hv1, hd2.trans hd1⟩
                    · intro info p2' hd
                      cases hd

mutual

/-- A successful `parseLayoutRecursively` keeps the invariant, the variables and the default
category. -/
theorem parseLayoutRecursively_inv (fuel : Nat) :
    ∀ (e : QMXmlAdaptorElement) (p : ParserPrivate) (categories path : List String) (idx : Nat)
      (p' : ParserPrivate), p.Inv →
      parseLayoutRecursively fuel e p categories path = .ok (idx, p') →
      p'.Inv ∧ p'.vars = p.vars ∧ p'.defaultCategory = p.defaultCategory
  | .mk name properties value children, p, categories, path, idx, p', hinv, h => by
    simp only [parseLayoutRecursively] at h
    cases he : parseLayoutRecursively.enter fuel p (.mk name properties value children)
        categories path with
    | error f => simp [he] at h
    | ok d =>
      obtain ⟨hfin, hdesc⟩ := enter_spec fuel p _ categories path d hinv he
      cases d with
      | finished idx2 p2 =>
        simp only [he, Except.ok.injEq, Prod.mk.injEq] at h
        obtain ⟨_, rfl⟩ := h
        exact hfin idx2 p2 rfl
      | descend info p2 =>
        simp only [he] at h
        obtain ⟨hinv2, hv2, hd2, _⟩ := hdesc info p2 rfl
        cases hch : parseLayoutRecursively.parseChildren fuel children p2 info.categories
            (path ++ [info.id]) with
        | error f => simp [hch] at h
        | ok r3 =>
          obtain ⟨childIndexes, p3⟩ := r3
          simp only [hch, Except.ok.injEq, Prod.mk.injEq] at h
          obtain ⟨_, rfl⟩ := h
          obtain ⟨hinv3, hv3, hd3⟩ := parseChildren_inv fuel children p2
            info.categories (path ++ [info.id]) childIndexes p3 hinv2 hch
          exact ⟨inv_setChildIndexes _ _ _ hinv3, hv3.trans hv2, hd3.trans hd2⟩

theorem parseChildren_inv (fuel : Nat) :
    ∀ (cs : List QMXmlAdaptorElement) (p : ParserPrivate) (categories path : List String)
      (idxs : List Nat) (p' : ParserPrivate), p.Inv →
      parseLayoutRecursively.parseChildren fuel cs p categories path = .ok (idxs, p') →
      p'.Inv ∧ p'.vars = p.vars ∧ p'.defaultCategory = p.defaultCategory
  | [], p, categories, path, idxs, p', hinv, h => by
    simp only [parseLayoutRecursively.parseChildren, Except.ok.injEq, Prod.mk.injEq] at h
    obtain ⟨_, rfl⟩ := h
    exact ⟨hinv, rfl, rfl⟩
  | c :: cs, p, categories, path, idxs, p', hinv, h => by
    simp only [parseLayoutRecursively.parseChildren] at h
    cases hc : parseLayoutRecursively fuel c p categories path with
    | error f => simp [hc] at h
    | ok r =>
      obtain ⟨idx, p1⟩ := r
      simp only [hc] at h
      obtain ⟨hinv1, hv1, hd1⟩ := parseLayoutRecursively_inv fuel c p categories path idx p1
        hinv hc
      cases hcs : parseLayoutRecursively.parseChildren fuel cs p1 categories path with
      | error f => simp [hcs] at h
      | ok r2 =>
        obtain ⟨idxs2, p2⟩ := r2
        simp only [hcs, Except.ok.injEq, Prod.mk.injEq] at h
        obtain ⟨_, rfl⟩ := h
        obtain ⟨hinv2, hv2, hd2⟩ := parseChildren_inv fuel cs p1 categories path idxs2 p2
          hinv1 hcs
        exact ⟨hinv2, hv2.trans hv1, hd2.trans hd1⟩

end

end Aec
namespace Aec
open Core (QMXmlAdaptorElement)
open ParserPrivate

/-- The check "recursive": an element whose id is on the path makes `enter` fail. -/
theorem enter_fails_on_path (fuel : Nat) (p : ParserPrivate) (e : QMXmlAdaptorElement)
    (categories path : List String) (id : String) (hinv : p.Inv)
    (h1 : e.name ≠ "separator") (h2 : e.name ≠ "stretch")
    (hid : parseExpression fuel (e.property "id") p.vars = some id) (hpath : id ∈ path) :
    ∃ f, parseLayoutRecursively.enter fuel p e categories path = .error f := by
  unfold parseLayoutRecursively.enter
  rw [if_neg h1, if_neg h2]
  cases hf : p.findOrInsertObjectInfo fuel e categories with
  | error f => exact ⟨f, rfl⟩
  | ok r =>
    obtain ⟨info, p1⟩ := r
    obtain ⟨hid1, _⟩ := findOrInsertObjectInfo_spec fuel p p1 _ categories info hinv hf
    rw [hid] at hid1
    simp only [Option.some.injEq] at hid1
    subst hid1
    simp only [hpath, if_true]
    exact ⟨_, rfl⟩

/-- An element without `_seq` attribute that has children is never finished by `enter`: either
`enter` fails or the children are parsed next. -/
theorem enter_with_children (fuel : Nat) (p : ParserPrivate) (e : QMXmlAdaptorElement)
    (categories path : List String) (hinv : p.Inv)
    (hseq : e.properties.lookup "_seq" = none) (hc : e.children.isEmpty = false) :
    (∃ f, parseLayoutRecursively.enter fuel p e categories path = .error f) ∨
      ∃ info p2, parseLayoutRecursively.enter fuel p e categories path =
        .ok (Entered.descend info p2) := by
  unfold parseLayoutRecursively.enter
  split
  · left
    simp [hc]
  · split
    · left
      simp [hc]
    · cases hf : p.findOrInsertObjectInfo fuel e categories with
      | error f => exact Or.inl ⟨f, rfl⟩
      | ok r =>
        obtain ⟨info, p1⟩ := r
        obtain ⟨_, _, _, _, _, hinv1⟩ :=
          findOrInsertObjectInfo_spec fuel p p1 _ categories info hinv hf
        simp only
        split
        · exact Or.inl ⟨_, rfl⟩
        · split
          · left
            simp [hc]
          · cases ht : p1.entryType fuel e info with
            | error f => exact Or.inl ⟨f, rfl⟩
            | ok type =>
              simp only [sequenceKey_auto fuel p1 e _ hseq hc]
              rcases declare_auto p1 e info type hinv1 hc with ⟨f, hd⟩ | ⟨p2, hd⟩
              · rw [hd]
                exact Or.inl ⟨f, rfl⟩
              · rw [hd]
                right
                simp [hc]

theorem isEmpty_false_of_mem {α : Type} {c : α} {l : List α} (h : c ∈ l) :
    l.isEmpty = false := by
  cases l with
  | nil => cases h
  | cons a t => rfl

/-- The loop over the children fails when one child fails from every state. -/
theorem parseChildren_fails (fuel : Nat) (vars : List (String × String))
    (c : QMXmlAdaptorElement) (path : List String)
    (hfail : ∀ (p : ParserPrivate) (categories : List String), p.Inv → p.vars = vars →
      ∃ f, parseLayoutRecursively fuel c p categories path = .error f) :
    ∀ (cs : List QMXmlAdaptorElement), c ∈ cs →
      ∀ (p : ParserPrivate) (categories : List String), p.Inv → p.vars = vars →
        ∃ f, parseLayoutRecursively.parseChildren fuel cs p categories path = .error f := by
  intro cs
  induction cs with
  | nil => intro h; cases h
  | cons c0 rest ih =>
    intro hmem p categories hinv hv
    simp only [parseLayoutRecursively.parseChildren]
    cases h0 : parseLayoutRecursively fuel c0 p categories path with
    | error f => exact ⟨f, rfl⟩
    | ok r =>
      obtain ⟨idx, p1⟩ := r
      obtain ⟨hinv1, hv1, _⟩ := parseLayoutRecursively_inv fuel c0 p categories path idx p1
        hinv h0
      rcases List.mem_cons.mp hmem with rfl | hr
      · obtain ⟨f, hf⟩ := hfail p categories hinv hv
        rw [hf] at h0
        cases h0
      · obtain ⟨f, hf⟩ := ih hr p1 categories hinv1 (hv1.trans hv)
        simp only [hf]
        exact ⟨f, rfl⟩

/-- An element that holds the id `id` below elements without `_seq` attribute fails to parse
when `id` is on the path. -/
theorem parseLayoutRecursively_fails_on_path (fuel : Nat) (vars : List (String × String))
    (id : String) (e : QMXmlAdaptorElement) (h : HoldsId fuel vars id e) :
    ∀ (p : ParserPrivate) (categories path : List String), p.Inv → p.vars = vars →
      id ∈ path → ∃ f, parseLayoutRecursively fuel e p categories path = .error f := by
  induction h with
  | @here e h1 h2 hid =>
    intro p categories path hinv hv hpath
    obtain ⟨name, properties, value, children⟩ := e
    simp only [parseLayoutRecursively]
    obtain ⟨f, hf⟩ := enter_fails_on_path fuel p _ categories path id hinv h1 h2
      (by rw [hv]; exact hid) hpath
    rw [hf]
    exact ⟨f, rfl⟩
  | @under e c hseq hc _ ih =>
    intro p categories path hinv hv hpath
    obtain ⟨name, properties, value, children⟩ := e
    simp only [parseLayoutRecursively]
    rcases enter_with_children fuel p _ categories path hinv hseq
      (isEmpty_false_of_mem hc) with ⟨f, hf⟩ | ⟨info, p2, hd⟩
    · rw [hf]
      exact ⟨f, rfl⟩
    · rw [hd]
      obtain ⟨hinv2, hv2, _, _⟩ := (enter_spec fuel p _ categories path _ hinv hd).2 info p2 rfl
      obtain ⟨f, hf⟩ := parseChildren_fails fuel vars c (path ++ [info.id])
        (fun p' cat' hinv' hv' => ih p' cat' (path ++ [info.id]) hinv' hv'
          (List.mem_append_left _ hpath))
        children hc p2 info.categories hinv2 (hv2.trans hv)
      simp only [hf]
      exact ⟨f, rfl⟩

/-- A layout element without `_seq` attribute whose id resolves to `id` fails to parse when one
of its children holds the same id below elements without `_seq` attribute. -/
theorem parseLayoutRecursively_fails_on_chain (fuel : Nat) (e c : QMXmlAdaptorElement)
    (id : String) (p : ParserPrivate) (categories path : List String) (hinv : p.Inv)
    (hid : parseExpression fuel (e.property "id") p.vars = some id)
    (hseq : e.properties.lookup "_seq" = none) (hc : c ∈ e.children)
    (hchain : HoldsId fuel p.vars id c) :
    ∃ f, parseLayoutRecursively fuel e p categories path = .error f := by
  obtain ⟨name, properties, value, children⟩ := e
  simp only [parseLayoutRecursively]
  rcases enter_with_children fuel p _ categories path hinv hseq
    (isEmpty_false_of_mem hc) with ⟨f, hf⟩ | ⟨info, p2, hd⟩
  · rw [hf]
    exact ⟨f, rfl⟩
  · rw [hd]
    obtain ⟨hinv2, hv2, _, hid2⟩ := (enter_spec fuel p _ categories path _ hinv hd).2 info p2 rfl
    rw [hid] at hid2
    simp only [Option.some.injEq] at hid2
    obtain ⟨f, hf⟩ := parseChildren_fails fuel p.vars c (path ++ [info.id])
      (fun p' cat' hinv' hv' => parseLayoutRecursively_fails_on_path fuel p.vars id c hchain
        p' cat' (path ++ [info.id]) hinv' hv'
        (List.mem_append_right _ (List.mem_singleton.mpr hid2)))
      children hc p2 info.categories hinv2 hv2
    simp only [hf]
    exact ⟨f, rfl⟩

/-- An element that is or holds a recursive chain below elements without `_seq` attribute fails
to parse from every state, under every inherited path and every path of ids. -/
theorem parseLayoutRecursively_fails_on_nested (fuel : Nat) (vars : List (String × String))
    (e : QMXmlAdaptorElement) (h : HoldsChain fuel vars e) :
    ∀ (p : ParserPrivate) (categories path : List String), p.Inv → p.vars = vars →
      ∃ f, parseLayoutRecursively fuel e p categories path = .error f := by
  induction h with
  | @here e c id hid hseq hc hchain =>
    intro p categories path hinv hv
    exact parseLayoutRecursively_fails_on_chain fuel e c id p categories path hinv
      (by rw [hv]; exact hid) hseq hc (by rw [hv]; exact hchain)
  | @under e c hseq hc _ ih =>
    intro p categories path hinv hv
    obtain ⟨name, properties, value, children⟩ := e
    simp only [parseLayoutRecursively]
    rcases enter_with_children fuel p _ categories path hinv hseq
      (isEmpty_false_of_mem hc) with ⟨f, hf⟩ | ⟨info, p2, hd⟩
    · rw [hf]
      exact ⟨f, rfl⟩
    · rw [hd]
      obtain ⟨hinv2, hv2, _, _⟩ := (enter_spec fuel p _ categories path _ hinv hd).2 info p2 rfl
      obtain ⟨f, hf⟩ := parseChildren_fails fuel vars c (path ++ [info.id])
        (fun p' cat' hinv' hv' => ih p' cat' (path ++ [info.id]) hinv' hv')
        children hc p2 info.categories hinv2 (hv2.trans hv)
      simp only [hf]
      exact ⟨f, rfl⟩

end Aec
namespace Aec
open Core (QMXmlAdaptorElement)
open ParserPrivate

theorem parseParserConfig_vars_maps (fuel : Nat) (items : List QMXmlAdaptorElement) :
    ∀ (p p1 : ParserPrivate), parseParserConfig.vars fuel items p = .ok p1 →
      p1.objInfoMap = p.objInfoMap ∧ p1.objSeqMap = p.objSeqMap := by
  induction items with
  | nil =>
    intro p p1 h
    simp only [parseParserConfig.vars, Except.ok.injEq] at h
    subst h
    exact ⟨rfl, rfl⟩
  | cons item rest ih =>
    intro p p1 h
    simp only [parseParserConfig.vars] at h
    split at h
    · cases h
    · split at h
      · cases h
      · obtain ⟨h1, h2⟩ := ih _ _ h
        split at h1 <;> split at h2 <;> exact ⟨h1, h2⟩

theorem parseParserConfig_maps (fuel : Nat) (items : List QMXmlAdaptorElement) :
    ∀ (conf conf1 : List String) (p p1 : ParserPrivate),
      parseParserConfig fuel items conf p = .ok (conf1, p1) →
      p1.objInfoMap = p.objInfoMap ∧ p1.objSeqMap = p.objSeqMap := by
  induction items with
  | nil =>
    intro conf conf1 p p1 h
    simp only [parseParserConfig, Except.ok.injEq, Prod.mk.injEq] at h
    obtain ⟨_, rfl⟩ := h
    exact ⟨rfl, rfl⟩
  | cons item rest ih =>
    intro conf conf1 p p1 h
    simp only [parseParserConfig] at h
    split at h
    · split at h
      · cases h
      · exact ih _ _ _ _ h
    · split at h
      · split at h
        · cases h
        · rename_i p2 hv
          obtain ⟨h1, h2⟩ := parseParserConfig_vars_maps fuel _ _ _ hv
          obtain ⟨h3, h4⟩ := ih _ _ _ _ h
          exact ⟨h3.trans h1, h4.trans h2⟩
      · exact ih _ _ _ _ h

theorem collect_maps (fuel : Nat) (items : List QMXmlAdaptorElement) :
    ∀ (c c1 : Collected) (p p1 : ParserPrivate), collect fuel items c p = .ok (c1, p1) →
      p1.objInfoMap = p.objInfoMap ∧ p1.objSeqMap = p.objSeqMap := by
  induction items with
  | nil =>
    intro c c1 p p1 h
    simp only [collect, Except.ok.injEq, Prod.mk.injEq] at h
    obtain ⟨_, rfl⟩ := h
    exact ⟨rfl, rfl⟩
  | cons item rest ih =>
    intro c c1 p p1 h
    simp only [collect] at h
    split at h
    · exact ih _ _ _ _ h
    · split at h
      · exact ih _ _ _ _ h
      · split at h
        · exact ih _ _ _ _ h
        · split at h
          · split at h
            · cases h
            · exact ih _ _ _ _ h
          · split at h
            · split at h
              · cases h
              · split at h
                · cases h
                · rename_i dc p2 hv
                  obtain ⟨h1, h2⟩ := parseParserConfig_maps fuel _ _ _ _ _ hv
                  obtain ⟨h3, h4⟩ := ih _ _ _ _ h
                  exact ⟨h3.trans h1, h4.trans h2⟩
            · exact ih _ _ _ _ h

theorem lookup_append_single {β : Type} (l : List (String × β)) (k key : String) (v w : β)
    (hnone : l.lookup key = none) (h : (l ++ [(key, v)]).lookup k = some w) :
    l.lookup k = some w ∨ (k = key ∧ w = v) := by
  induction l with
  | nil =>
    simp only [List.nil_append, List.lookup_cons, List.lookup_nil] at h
    split at h
    · rename_i hb
      simp only [Option.some.injEq] at h
      exact Or.inr ⟨by simpa using hb, h.symm⟩
    · cases h
  | cons a t ih =>
    obtain ⟨a1, a2⟩ := a
    simp only [List.cons_append, List.lookup_cons] at h hnone ⊢
    split at h
    · rename_i hb
      exact Or.inl h
    · cases hk : key == a1 with
      | true => rw [hk] at hnone; cases hnone
      | false =>
        rw [hk] at hnone
        exact ih hnone h

/-- The loop "Parse objects": the objects are stored under their own ids, and neither the
variables nor the sequences change. -/
theorem parseObjects_inv (fuel : Nat) (items : List QMXmlAdaptorElement) :
    ∀ (p p1 : ParserPrivate), p.Inv → parseObjects fuel items p = .ok p1 →
      p1.Inv ∧ p1.vars = p.vars := by
  induction items with
  | nil =>
    intro p p1 hinv h
    simp only [parseObjects, Except.ok.injEq] at h
    subst h
    exact ⟨hinv, rfl⟩
  | cons item rest ih =>
    intro p p1 hinv h
    simp only [parseObjects] at h
    split at h
    · cases h
    · rename_i entity he
      split at h
      · cases h
      · rename_i hl
        have hinv2 : ParserPrivate.Inv
            { p with objInfoMap := (p.objInfoMap ++ [(entity.id, entity)]) } := by
          refine ⟨?_, fun id seqs hs => hinv.seqs id seqs hs⟩
          intro k info hk
          have hnone : p.objInfoMap.lookup entity.id = none := by
            cases hx : p.objInfoMap.lookup entity.id with
            | none => rfl
            | some x => rw [hx] at hl; simp at hl
          rcases lookup_append_single _ _ _ _ _ hnone hk with h1 | ⟨rfl, rfl⟩
          · exact hinv.ids k info h1
          · rfl
        obtain ⟨hinv1, hv1⟩ := ih _ p1 hinv2 h
        exact ⟨hinv1, hv1⟩

/-- The loop "Parse layouts" fails when one of the layouts fails from every state. -/
theorem parseLayouts_fails (fuel : Nat) (vars : List (String × String))
    (e : QMXmlAdaptorElement)
    (hfail : ∀ (p : ParserPrivate), p.Inv → p.vars = vars →
      ∃ f, parseLayoutRecursively fuel e p p.defaultCategory [] = .error f) :
    ∀ (items : List QMXmlAdaptorElement), e ∈ items →
      ∀ (p : ParserPrivate), p.Inv → p.vars = vars →
        ∃ f, parseLayouts fuel items p = .error f := by
  intro items
  induction items with
  | nil => intro h; cases h
  | cons item rest ih =>
    intro hmem p hinv hv
    simp only [parseLayouts]
    cases h0 : parseLayoutRecursively fuel item p p.defaultCategory [] with
    | error f => exact ⟨f, rfl⟩
    | ok r =>
      obtain ⟨idx, p1⟩ := r
      obtain ⟨hinv1, hv1, _⟩ := parseLayoutRecursively_inv fuel item p _ _ idx p1 hinv h0
      rcases List.mem_cons.mp hmem with rfl | hr
      · obtain ⟨f, hf⟩ := hfail p hinv hv
        rw [hf] at h0
        cases h0
      · exact ih hr _ ⟨hinv1.ids, hinv1.seqs⟩ (hv1.trans hv)

end Aec
namespace Aec
open Core (QMXmlAdaptorElement)
open ParserPrivate

theorem Except.ok_of_toOption {ε α : Type} {x : Except ε α} {a : α}
    (h : x.toOption = some a) : x = .ok a := by
  cases x with
  | error e => cases h
  | ok b =>
    simp only [Except.toOption, Option.some.injEq] at h
    rw [h]

/-- C20 (amended): compilation of a descriptor yields no record whenever a layout root is or
holds, below elements without `_seq` attribute, a layout element without `_seq` attribute whose
id resolves to `id` and that has a child which holds, itself or at any depth below elements
without `_seq` attribute, a layout element whose id resolves to the same `id`; the ids are
resolved with the variables in force after the parser configuration is read. -/
theorem recursive_chain_is_fatal (fuel : Nat) (vars : List (String × String)) (hash : String)
    (root top : QMXmlAdaptorElement) (col : Collected) (p0 : ParserPrivate)
    (hcol : ParserPrivate.collected fuel vars root = .ok (col, p0))
    (htop : top ∈ col.layoutElements)
    (hchain : HoldsChain fuel p0.vars top) :
    ∃ f, Parser.parse fuel vars hash (some root) = .error f := by
  have hmaps := collect_maps fuel root.children _ col _ p0 hcol
  simp only [Parser.parse, ParserPrivate.parse]
  split
  · exact ⟨_, rfl⟩
  · rw [hcol]
    simp only
    cases ho : parseObjects fuel col.objElements
        { p0 with result := { p0.result with version := col.version, hash := hash } } with
    | error f => exact ⟨f, rfl⟩
    | ok p1 =>
      have hinv0 : ParserPrivate.Inv
          { p0 with result := { p0.result with version := col.version, hash := hash } } := by
        constructor
        · intro k info hk
          simp only [hmaps.1] at hk
          cases hk
        · intro k seqs hk
          simp only [hmaps.2] at hk
          cases hk
      obtain ⟨hinv1, hv1⟩ := parseObjects_inv fuel _ _ p1 hinv0 ho
      obtain ⟨f, hf⟩ := parseLayouts_fails fuel p0.vars top
        (fun p hinv hv => parseLayoutRecursively_fails_on_nested fuel p0.vars top hchain p
          p.defaultCategory [] hinv hv)
        col.layoutElements htop p1 hinv1 hv1
      simp only [hf]
      exact ⟨f, rfl⟩

/-- Witness of C20 (amended): the descriptor whose only layout nests `X` directly inside `X`
yields no record, and neither does the descriptor in which that layout lies inside the menu bar
`bar`. -/
theorem recursive_chain_is_fatal_witness :
    (ParserPrivate.collected 1 [] Examples.directChain =
        .ok (⟨[], [Examples.menuXinX], [], "", false⟩,
          ⟨[], [], [], [], ⟨"", "", [], [], [], []⟩⟩) ∧
      HoldsChain 1 [] Examples.menuXinX ∧
      Parser.parse 1 [] "h" (some Examples.directChain) =
        .error (Failure.exit "recursive chain in layout") ∧
      ∃ f, Parser.parse 1 [] "h" (some Examples.directChain) = .error f) ∧
    (Parser.parse 1 [] "h" (some Examples.nestedChain) =
        .error (Failure.exit "recursive chain in layout") ∧
      ∃ f, Parser.parse 1 [] "h" (some Examples.nestedChain) = .error f) :=
  have hx : HoldsChain 1 [] Examples.menuXinX :=
    @HoldsChain.here 1 [] Examples.menuXinX Examples.menuX "X" rfl rfl
      (List.mem_singleton.mpr rfl) (HoldsId.here (by decide) (by decide) rfl)
  ⟨⟨rfl, hx, rfl,
      recursive_chain_is_fatal 1 [] "h" Examples.directChain Examples.menuXinX
        ⟨[], [Examples.menuXinX], [], "", false⟩ ⟨[], [], [], [], ⟨"", "", [], [], [], []⟩⟩
        rfl (List.mem_singleton.mpr rfl) hx⟩,
    rfl,
    recursive_chain_is_fatal 1 [] "h" Examples.nestedChain
      (.mk "menuBar" [("id", "bar")] "" [Examples.menuXinX])
      ⟨[], [.mk "menuBar" [("id", "bar")] "" [Examples.menuXinX]], [], "", false⟩
      ⟨[], [], [], [], ⟨"", "", [], [], [], []⟩⟩
      rfl (List.mem_singleton.mpr rfl)
      (HoldsChain.under rfl (List.mem_singleton.mpr rfl) hx)⟩

/-- Counterexample to C20 as stated, in both readings. The descriptor `reusedChain` compiles
although its layout element `<menu id=X _seq=0>` contains a layout element with the same id `X`:
the outer declaration reuses the sequence key `0`, so the earlier entry is copied and the
children are never visited. For the same reason `reusedAroundChain` compiles, in which the
chain `X` inside `X` without any `_seq` attribute lies inside a declaration `<menu id=Z _seq=0>`
that reuses a key. The descriptor `plainChain` compiles to a record whose layout entry 2 (id
`Y`) has the descendant entry 1 with the same id `Y`, reached through the copied entry 3. -/
theorem recursive_chain_not_always_fatal :
    (Inside Examples.menuXinX Examples.reusedAroundChain ∧
      HoldsChain 1 [] Examples.menuXinX ∧
      (Parser.parse 1 [] "h" (some Examples.reusedAroundChain)).toOption.map
          (fun r => r.layouts) =
        some [⟨"Z", MessageType.Menu, [1]⟩, ⟨"a", MessageType.Action, []⟩,
          ⟨"Z", MessageType.Menu, [1]⟩]) ∧
    (Inside Examples.reusedXinX Examples.reusedChain ∧
      Inside Examples.menuX Examples.reusedXinX ∧
      parseExpression 1 (Examples.reusedXinX.property "id") [] = some "X" ∧
      parseExpression 1 (Examples.menuX.property "id") [] = some "X" ∧
      Parser.parse 1 [] "h" (some Examples.reusedChain) =
        .ok ⟨"", "h",
          [⟨"X", MessageType.Menu, MessageMode.Unique, "X", "", [], ["X"], "menu"⟩,
           ⟨"a", MessageType.Action, MessageMode.Plain, "a", "", [], ["X", "a"], "action"⟩],
          [⟨"X", MessageType.Menu, [1]⟩, ⟨"a", MessageType.Action, []⟩,
           ⟨"X", MessageType.Menu, [1]⟩],
          [0, 2], []⟩) ∧
    ∃ record, Parser.parse 1 [] "h" (some Examples.plainChain) = .ok record ∧
      record.layouts = [⟨"X", MessageType.Menu, [1]⟩, ⟨"Y", MessageType.Menu, []⟩,
        ⟨"Y", MessageType.Menu, [3]⟩, ⟨"X", MessageType.Menu, [1]⟩] ∧
      Descendant record.layouts 2 1 := by
  refine ⟨⟨?_, ?_, by decide!⟩, ⟨?_, ?_, ?_, ?_, ?_⟩, ?_⟩
  · exact Inside.deeper (List.mem_singleton.mpr rfl)
      (Inside.deeper (List.mem_cons_of_mem _ (List.mem_singleton.mpr rfl))
        (Inside.child (List.mem_singleton.mpr rfl)))
  · exact @HoldsChain.here 1 [] Examples.menuXinX Examples.menuX "X" rfl rfl
      (List.mem_singleton.mpr rfl) (HoldsId.here (by decide) (by decide) rfl)
  · exact Inside.deeper (List.mem_singleton.mpr rfl)
      (Inside.child (List.mem_cons_of_mem _ (List.mem_singleton.mpr rfl)))
  · exact Inside.child (List.mem_singleton.mpr rfl)
  · rfl
  · rfl
  · apply Except.ok_of_toOption
    decide!
  · have h : (Parser.parse 1 [] "h" (some Examples.plainChain)).toOption.map
        (fun r => r.layouts) = some [⟨"X", MessageType.Menu, [1]⟩, ⟨"Y", MessageType.Menu, []⟩,
          ⟨"Y", MessageType.Menu, [3]⟩, ⟨"X", MessageType.Menu, [1]⟩] := by decide!
    cases hp : Parser.parse 1 [] "h" (some Examples.plainChain) with
    | error f =>
      rw [hp] at h
      cases h
    | ok record =>
      rw [hp] at h
      simp only [Except.toOption, Option.map_some', Option.some.injEq] at h
      refine ⟨record, rfl, h, ?_⟩
      rw [h]
      exact @Descendant.deeper _ 2 3 1 ⟨"Y", MessageType.Menu, [3]⟩ rfl
        (List.mem_singleton.mpr rfl)
        (@Descendant.child _ 3 1 ⟨"X", MessageType.Menu, [1]⟩ rfl
          (List.mem_singleton.mpr rfl))

end Aec
namespace Aec
open Core (QMXmlAdaptorElement)
open ParserPrivate

/-- A successful `findOrInsertObjectInfo` changes the object table only. -/
theorem findOrInsertObjectInfo_frame (fuel : Nat) (p p1 : ParserPrivate)
    (e : QMXmlAdaptorElement) (categories : List String) (info : ActionObjectInfoMessage)
    (h : p.findOrInsertObjectInfo fuel e categories = .ok (info, p1)) :
    p1.vars = p.vars ∧ p1.defaultCategory = p.defaultCategory ∧
      p1.objSeqMap = p.objSeqMap ∧ p1.result = p.result := by
  unfold findOrInsertObjectInfo at h
  repeat' split at h
  all_goals
    cases h
    try exact ⟨rfl, rfl, rfl, rfl⟩

theorem SameButLayouts.same_refl (r : ActionExtensionMessage) : SameButLayouts r r :=
  ⟨rfl, rfl, rfl, rfl, rfl⟩

theorem SameButLayouts.same_trans {r r1 r2 : ActionExtensionMessage} (h1 : SameButLayouts r r1)
    (h2 : SameButLayouts r1 r2) : SameButLayouts r r2 :=
  ⟨h2.version.trans h1.version, h2.hash.trans h1.hash, h2.objects.trans h1.objects,
    h2.layoutRootIndexes.trans h1.layoutRootIndexes, h2.buildRoutines.trans h1.buildRoutines⟩

/-- A successful `declare` changes the sequence keys and the layout entries only. -/
theorem declare_frame (p : ParserPrivate) (e : QMXmlAdaptorElement)
    (info : ActionObjectInfoMessage) (type : MessageType) (seq : String) (d : Declared)
    (h : p.declare e info type seq = .ok d) :
    ∀ p2, (d = Declared.finished p2 ∨ d = Declared.placeholder p2) →
      p2.vars = p.vars ∧ p2.defaultCategory = p.defaultCategory ∧
        p2.objInfoMap = p.objInfoMap ∧ SameButLayouts p.result p2.result := by
  unfold declare at h
  repeat' split at h
  all_goals
    cases h
    try (intro p2 hd
         rcases hd with hd | hd <;> cases hd
         exact ⟨rfl, rfl, rfl, rfl, rfl, rfl, rfl, rfl⟩)

/-- A successful `enter` changes the object table, the sequence keys and the layout entries
only. -/
theorem enter_frame (fuel : Nat) (p : ParserPrivate) (e : QMXmlAdaptorElement)
    (categories path : List String) (d : Entered)
    (h : parseLayoutRecursively.enter fuel p e categories path = .ok d) :
    ∀ p2, ((∃ idx, d = Entered.finished idx p2) ∨ (∃ info, d = Entered.descend info p2)) →
      p2.vars = p.vars ∧ p2.defaultCategory = p.defaultCategory ∧
        SameButLayouts p.result p2.result := by
  unfold parseLayoutRecursively.enter at h
  split at h
  · split at h
    · cases h
    · cases h
      rintro p2 (⟨idx, hd⟩ | ⟨info, hd⟩) <;> cases hd
      exact ⟨rfl, rfl, rfl, rfl, rfl, rfl, rfl⟩
  · split at h
    · split at h
      · cases h
      · cases h
        rintro p2 (⟨idx, hd⟩ | ⟨info, hd⟩) <;> cases hd
        exact ⟨rfl, rfl, rfl, rfl, rfl, rfl, rfl⟩
    · cases hf : p.findOrInsertObjectInfo fuel e categories with
      | error f => simp [hf] at h
      | ok r =>
        obtain ⟨info, p1⟩ := r
        simp only [hf] at h
        obtain ⟨hv1, hd1, _, hr1⟩ := findOrInsertObjectInfo_frame fuel p p1 _ categories info hf
        split at h
        · cases h
        · split at h
          · split at h
            · cases h
            · cases h
              rintro p2 (⟨idx, hd⟩ | ⟨info, hd⟩) <;> cases hd
              refine ⟨hv1, hd1, ?_⟩
              simp only [appendEntry, hr1]
              exact ⟨rfl, rfl, rfl, rfl, rfl⟩
          · cases ht : p1.entryType fuel e info with
            | error f => simp [ht] at h
            | ok type =>
              simp only [ht] at h
              cases hs : p1.sequenceKey fuel e ((p1.objSeqMap.lookup info.id).getD []) with
              | error f => simp [hs] at h
              | ok seq =>
                simp only [hs] at h
                cases hdc : p1.declare e info type seq with
                | error f => simp [hdc] at h
                | ok dd =>
                  have hfr := declare_frame p1 e info type seq dd hdc
                  rw [hr1.symm]
                  cases dd with
                  | finished p2 =>
                    simp only [hdc] at h
                    cases h
                    rintro p3 (⟨idx, hd⟩ | ⟨info, hd⟩) <;> cases hd
                    obtain ⟨a, b, _, c⟩ := hfr _ (Or.inl rfl)
                    exact ⟨a.trans hv1, b.trans hd1, c⟩
                  | placeholder p2 =>
                    simp only [hdc] at h
                    split at h
                    · cases h
                      rintro p3 (⟨idx, hd⟩ | ⟨info, hd⟩) <;> cases hd
                      obtain ⟨a, b, _, c⟩ := hfr _ (Or.inr rfl)
                      exact ⟨a.trans hv1, b.trans hd1, c⟩
                    · cases h
                      rintro p3 (⟨idx, hd⟩ | ⟨info, hd⟩) <;> cases hd
                      obtain ⟨a, b, _, c⟩ := hfr _ (Or.inr rfl)
                      exact ⟨a.trans hv1, b.trans hd1, c⟩

mutual

/-- A successful `parseLayoutRecursively` changes the object table, the sequence keys and the
layout entries only. -/
theorem parseLayoutRecursively_frame (fuel : Nat) :
    ∀ (e : QMXmlAdaptorElement) (p : ParserPrivate) (categories path : List String) (idx : Nat)
      (p' : ParserPrivate),
      parseLayoutRecursively fuel e p categories path = .ok (idx, p') →
      p'.vars = p.vars ∧ p'.defaultCategory = p.defaultCategory ∧
        SameButLayouts p.result p'.result
  | .mk name properties value children, p, categories, path, idx, p', h => by
    simp only [parseLayoutRecursively] at h
    cases he : parseLayoutRecursively.enter fuel p (.mk name properties value children)
        categories path with
    | error f => simp [he] at h
    | ok d =>
      have hfr := enter_frame fuel p _ categories path d he
      cases d with
      | finished idx2 p2 =>
        simp only [he, Except.ok.injEq, Prod.mk.injEq] at h
        obtain ⟨_, rfl⟩ := h
        exact hfr p2 (Or.inl ⟨idx2, rfl⟩)
      | descend info p2 =>
        simp only [he] at h
        obtain ⟨hv2, hd2, hs2⟩ := hfr p2 (Or.inr ⟨info, rfl⟩)
        cases hch : parseLayoutRecursively.parseChildren fuel children p2 info.categories
            (path ++ [info.id]) with
        | error f => simp [hch] at h
        | ok r3 =>
          obtain ⟨childIndexes, p3⟩ := r3
          simp only [hch, Except.ok.injEq, Prod.mk.injEq] at h
          obtain ⟨_, rfl⟩ := h
          obtain ⟨hv3, hd3, hs3⟩ := parseChildren_frame fuel children p2
            info.categories (path ++ [info.id]) childIndexes p3 hch
          exact ⟨hv3.trans hv2, hd3.trans hd2,
            hs2.same_trans ⟨hs3.version, hs3.hash, hs3.objects, hs3.layoutRootIndexes,
              hs3.buildRoutines⟩⟩

theorem parseChildren_frame (fuel : Nat) :
    ∀ (cs : List QMXmlAdaptorElement) (p : ParserPrivate) (categories path : List String)
      (idxs : List Nat) (p' : ParserPrivate),
      parseLayoutRecursively.parseChildren fuel cs p categories path = .ok (idxs, p') →
      p'.vars = p.vars ∧ p'.defaultCategory = p.defaultCategory ∧
        SameButLayouts p.result p'.result
  | [], p, categories, path, idxs, p', h => by
    simp only [parseLayoutRecursively.parseChildren, Except.ok.injEq, Prod.mk.injEq] at h
    obtain ⟨_, rfl⟩ := h
    exact ⟨rfl, rfl, SameButLayouts.same_refl _⟩
  | c :: cs, p, categories, path, idxs, p', h => by
    simp only [parseLayoutRecursively.parseChildren] at h
    cases hc : parseLayoutRecursively fuel c p categories path with
    | error f => simp [hc] at h
    | ok r =>
      obtain ⟨idx, p1⟩ := r
      simp only [hc] at h
      obtain ⟨hv1, hd1, hs1⟩ := parseLayoutRecursively_frame fuel c p categories path idx p1 hc
      cases hcs : parseLayoutRecursively.parseChildren fuel cs p1 categories path with
      | error f => simp [hcs] at h
      | ok r2 =>
        obtain ⟨idxs2, p2⟩ := r2
        simp only [hcs, Except.ok.injEq, Prod.mk.injEq] at h
        obtain ⟨_, rfl⟩ := h
        obtain ⟨hv2, hd2, hs2⟩ := parseChildren_frame fuel cs p1 categories path idxs2 p2 hcs
        exact ⟨hv2.trans hv1, hd2.trans hd1, hs1.same_trans hs2⟩

end

/-- The loop "Parse layouts" keeps the variables, the default category and the build
routines. -/
theorem parseLayouts_frame (fuel : Nat) (items : List QMXmlAdaptorElement) :
    ∀ (p p1 : ParserPrivate), parseLayouts fuel items p = .ok p1 →
      p1.vars = p.vars ∧ p1.defaultCategory = p.defaultCategory ∧
        p1.result.buildRoutines = p.result.buildRoutines ∧
        p1.result.version = p.result.version ∧ p1.result.hash = p.result.hash := by
  induction items with
  | nil =>
    intro p p1 h
    simp only [parseLayouts, Except.ok.injEq] at h
    subst h
    exact ⟨rfl, rfl, rfl, rfl, rfl⟩
  | cons item rest ih =>
    intro p p1 h
    simp only [parseLayouts] at h
    cases h0 : parseLayoutRecursively fuel item p p.defaultCategory [] with
    | error f => simp [h0] at h
    | ok r =>
      obtain ⟨idx, p2⟩ := r
      simp only [h0] at h
      obtain ⟨hv, hd, hs⟩ := parseLayoutRecursively_frame fuel item p _ _ idx p2 h0
      obtain ⟨a, b, c, d, e⟩ := ih _ _ h
      exact ⟨a.trans hv, b.trans hd, c.trans hs.buildRoutines, d.trans hs.version,
        e.trans hs.hash⟩

theorem parseParserConfig_vars_result (fuel : Nat) (items : List QMXmlAdaptorElement) :
    ∀ (p p1 : ParserPrivate), parseParserConfig.vars fuel items p = .ok p1 →
      p1.result = p.result := by
  induction items with
  | nil =>
    intro p p1 h
    simp only [parseParserConfig.vars, Except.ok.injEq] at h
    subst h
    rfl
  | cons item rest ih =>
    intro p p1 h
    simp only [parseParserConfig.vars] at h
    repeat' split at h
    all_goals first
      | cases h
      | (have h1 := ih _ _ h
         exact h1)

theorem parseParserConfig_result (fuel : Nat) (items : List QMXmlAdaptorElement) :
    ∀ (conf conf1 : List String) (p p1 : ParserPrivate),
      parseParserConfig fuel items conf p = .ok (conf1, p1) → p1.result = p.result := by
  induction items with
  | nil =>
    intro conf conf1 p p1 h
    simp only [parseParserConfig, Except.ok.injEq, Prod.mk.injEq] at h
    obtain ⟨_, rfl⟩ := h
    rfl
  | cons item rest ih =>
    intro conf conf1 p p1 h
    simp only [parseParserConfig] at h
    split at h
    · split at h
      · cases h
      · exact ih _ _ _ _ h
    · split at h
      · split at h
        · cases h
        · rename_i p2 hv
          exact (ih _ _ _ _ h).trans (parseParserConfig_vars_result fuel _ _ _ hv)
      · exact ih _ _ _ _ h

theorem collect_result (fuel : Nat) (items : List QMXmlAdaptorElement) :
    ∀ (c c1 : Collected) (p p1 : ParserPrivate), collect fuel items c p = .ok (c1, p1) →
      p1.result = p.result := by
  induction items with
  | nil =>
    intro c c1 p p1 h
    simp only [collect, Except.ok.injEq, Prod.mk.injEq] at h
    obtain ⟨_, rfl⟩ := h
    rfl
  | cons item rest ih =>
    intro c c1 p p1 h
    simp only [collect] at h
    split at h
    · exact ih _ _ _ _ h
    · split at h
      · exact ih _ _ _ _ h
      · split at h
        · exact ih _ _ _ _ h
        · split at h
          · split at h
            · cases h
            · exact ih _ _ _ _ h
          · split at h
            · split at h
              · cases h
              · split at h
                · cases h
                · rename_i dc p2 hv
                  have h1 := ih _ _ _ _ h
                  have h2 := parseParserConfig_result fuel _ _ _ _ _ hv
                  exact h1.trans h2
            · exact ih _ _ _ _ h

/-- The loop "Parse objects" changes the object table only. -/
theorem parseObjects_frame (fuel : Nat) (items : List QMXmlAdaptorElement) :
    ∀ (p p1 : ParserPrivate), parseObjects fuel items p = .ok p1 →
      p1.vars = p.vars ∧ p1.defaultCategory = p.defaultCategory ∧
        p1.objSeqMap = p.objSeqMap ∧ p1.result = p.result := by
  induction items with
  | nil =>
    intro p p1 h
    simp only [parseObjects, Except.ok.injEq] at h
    subst h
    exact ⟨rfl, rfl, rfl, rfl⟩
  | cons item rest ih =>
    intro p p1 h
    simp only [parseObjects] at h
    repeat' split at h
    all_goals first
      | cases h
      | (have h1 := ih _ _ h
         exact h1)

end Aec
namespace Aec
open Core (QMXmlAdaptorElement)
open ParserPrivate

/-- A successful `parseRoutine.item` changes the object table only. -/
theorem parseRoutine_item_frame (fuel : Nat) (p p1 : ParserPrivate) (e : QMXmlAdaptorElement)
    (entry : ActionLayoutEntryMessage) (h : parseRoutine.item fuel p e = .ok (entry, p1)) :
    p1.vars = p.vars ∧ p1.defaultCategory = p.defaultCategory ∧
      p1.objSeqMap = p.objSeqMap ∧ p1.result = p.result := by
  unfold parseRoutine.item at h
  split at h
  · cases h
    exact ⟨rfl, rfl, rfl, rfl⟩
  · split at h
    · cases h
      exact ⟨rfl, rfl, rfl, rfl⟩
    · cases hf : p.findOrInsertObjectInfo fuel e p.defaultCategory with
      | error f => simp [hf] at h
      | ok r =>
        obtain ⟨info, p2⟩ := r
        have hfr := findOrInsertObjectInfo_frame fuel p p2 e _ info hf
        simp only [hf] at h
        repeat' split at h
        all_goals
          cases h
          try exact hfr

/-- The loop over the items of a routine appends one entry and one index for every item. -/
theorem parseRoutine_items_spec (fuel : Nat) (items : List QMXmlAdaptorElement) :
    ∀ (p p1 : ParserPrivate) (acc idxs : List Nat),
      parseRoutine.items fuel items p acc = .ok (idxs, p1) →
      p1.vars = p.vars ∧ p1.defaultCategory = p.defaultCategory ∧
        SameButLayouts p.result p1.result ∧ idxs.length = acc.length + items.length := by
  induction items with
  | nil =>
    intro p p1 acc idxs h
    simp only [parseRoutine.items, Except.ok.injEq, Prod.mk.injEq] at h
    obtain ⟨rfl, rfl⟩ := h
    exact ⟨rfl, rfl, SameButLayouts.same_refl _, rfl⟩
  | cons item rest ih =>
    intro p p1 acc idxs h
    simp only [parseRoutine.items] at h
    cases hi : parseRoutine.item fuel p item with
    | error f => simp [hi] at h
    | ok r =>
      obtain ⟨entry, p2⟩ := r
      simp only [hi] at h
      obtain ⟨hv, hd, _, hr⟩ := parseRoutine_item_frame fuel p p2 item entry hi
      obtain ⟨a, b, c, d⟩ := ih _ _ _ _ h
      refine ⟨a.trans hv, b.trans hd, ?_, ?_⟩
      · refine SameButLayouts.same_trans ?_ c
        simp only [appendEntry, hr]
        exact ⟨rfl, rfl, rfl, rfl, rfl⟩
      · rw [d]
        simp only [List.length_append, List.length_cons, List.length_nil]
        omega

/-- What a successful `parseRoutine` returns. -/
theorem parseRoutine_spec (fuel : Nat) (p p1 : ParserPrivate) (root : QMXmlAdaptorElement)
    (r : ActionBuildRoutineMessage) (h : p.parseRoutine fuel root = .ok (r, p1)) :
    RoutineOf fuel p.vars root r ∧ p1.vars = p.vars ∧ p1.defaultCategory = p.defaultCategory ∧
      SameButLayouts p.result p1.result := by
  unfold parseRoutine at h
  split at h
  · cases h
  · rename_i hname
    cases hp : p.resolve fuel (root.property "parent") with
    | error f => simp [hp] at h
    | ok parent =>
      simp only [hp] at h
      split at h
      · cases h
      · rename_i hparent
        cases ha : parseRoutine.anchor (root.property "anchor") with
        | none => simp [ha] at h
        | some tok =>
          obtain ⟨anchorToken, needRelative⟩ := tok
          simp only [ha] at h
          cases hr : p.resolve fuel (root.property "relativeTo") with
          | error f => simp [hr] at h
          | ok relative =>
            simp only [hr] at h
            split at h
            · cases h
            · rename_i hrel
              split at h
              · cases h
              · rename_i hne
                cases hi : parseRoutine.items fuel root.children p [] with
                | error f => simp [hi] at h
                | ok ri =>
                  obtain ⟨entryIndexes, p2⟩ := ri
                  simp only [hi, Except.ok.injEq, Prod.mk.injEq] at h
                  obtain ⟨rfl, rfl⟩ := h
                  obtain ⟨hv, hd, hs, hl⟩ := parseRoutine_items_spec fuel _ _ _ _ _ hi
                  refine ⟨⟨?_, resolve_eq fuel p _ _ hp, hparent, ⟨needRelative, ha, ?_⟩,
                    resolve_eq fuel p _ _ hr, by simpa using hl, ?_⟩, hv, hd, hs⟩
                  · exact not_not.mp hname
                  · intro hn hrl
                    exact hrel ⟨hn, hrl⟩
                  · intro hnil
                    rw [hnil] at hne
                    exact hne rfl

/-- The loop "Parse build routines" appends one build routine for every element, each made by
`parseRoutine` under the same variables. -/
theorem parseRoutines_spec (fuel : Nat) (items : List QMXmlAdaptorElement) :
    ∀ (p p1 : ParserPrivate), parseRoutines fuel items p = .ok p1 →
      ∃ rs, p1.result.buildRoutines = p.result.buildRoutines ++ rs ∧
        List.Forall₂ (RoutineOf fuel p.vars) items rs := by
  induction items with
  | nil =>
    intro p p1 h
    simp only [parseRoutines, Except.ok.injEq] at h
    subst h
    exact ⟨[], by simp, List.Forall₂.nil⟩
  | cons item rest ih =>
    intro p p1 h
    simp only [parseRoutines] at h
    cases hr : p.parseRoutine fuel item with
    | error f => simp [hr] at h
    | ok r =>
      obtain ⟨entity, p2⟩ := r
      simp only [hr] at h
      obtain ⟨hof, hv, _, hs⟩ := parseRoutine_spec fuel p p2 item entity hr
      obtain ⟨rs, hrs, hall⟩ := ih _ _ h
      refine ⟨entity :: rs, ?_, List.Forall₂.cons hof ?_⟩
      · rw [hrs]
        simp only [hs.buildRoutines, List.append_assoc, List.singleton_append]
      · have hv2 : ({ p2 with result := { p2.result with
            buildRoutines := (p2.result.buildRoutines ++ [entity]) } } : ParserPrivate).vars =
            p.vars := hv
        rw [hv2] at hall
        exact hall

/-- The loop "Parse build routines" fails when `parseRoutine` fails on one of the elements from
every state. -/
theorem parseRoutines_fails (fuel : Nat) (e : QMXmlAdaptorElement)
    (hfail : ∀ (p : ParserPrivate), ∃ f, p.parseRoutine fuel e = .error f) :
    ∀ (items : List QMXmlAdaptorElement), e ∈ items →
      ∀ (p : ParserPrivate), ∃ f, parseRoutines fuel items p = .error f := by
  intro items
  induction items with
  | nil => intro h; cases h
  | cons item rest ih =>
    intro hmem p
    simp only [parseRoutines]
    cases h0 : p.parseRoutine fuel item with
    | error f => exact ⟨f, rfl⟩
    | ok r =>
      obtain ⟨entity, p1⟩ := r
      rcases List.mem_cons.mp hmem with rfl | hr
      · obtain ⟨f, hf⟩ := hfail p
        rw [hf] at h0
        cases h0
      · exact ih hr _

/-- What a compiled record says about the build routines: the phases before the routines have
succeeded, and the build routines are made by `parseRoutine`, one for every routine element in
order, under the variables in force after the parser configuration is read. -/
theorem parse_buildRoutines (fuel : Nat) (vars : List (String × String)) (hash : String)
    (root : QMXmlAdaptorElement) (record : ActionExtensionMessage)
    (h : Parser.parse fuel vars hash (some root) = .ok record) :
    ∃ col p0, ParserPrivate.collected fuel vars root = .ok (col, p0) ∧
      List.Forall₂ (RoutineOf fuel p0.vars) col.routineElements record.buildRoutines := by
  simp only [Parser.parse, ParserPrivate.parse] at h
  split at h
  · cases h
  · cases hc : ParserPrivate.collected fuel vars root with
    | error f => simp [hc] at h
    | ok r =>
      obtain ⟨col, p0⟩ := r
      simp only [hc] at h
      have hres : p0.result = ⟨"", "", [], [], [], []⟩ := collect_result fuel _ _ _ _ _ hc
      cases ho : parseObjects fuel col.objElements
          { p0 with result := { p0.result with version := col.version, hash := hash } } with
      | error f => simp [ho] at h
      | ok p1 =>
        simp only [ho] at h
        obtain ⟨hv1, _, _, hr1⟩ := parseObjects_frame fuel _ _ _ ho
        cases hl : parseLayouts fuel col.layoutElements p1 with
        | error f => simp [hl] at h
        | ok p2 =>
          simp only [hl] at h
          obtain ⟨hv2, _, hb2, _, _⟩ := parseLayouts_frame fuel _ _ _ hl
          cases hrt : parseRoutines fuel col.routineElements p2 with
          | error f => simp [hrt] at h
          | ok p3 =>
            simp only [hrt, Except.ok.injEq] at h
            subst h
            obtain ⟨rs, hrs, hall⟩ := parseRoutines_spec fuel _ _ _ hrt
            refine ⟨col, p0, rfl, ?_⟩
            have hnil : p2.result.buildRoutines = [] := by
              rw [hb2, hr1]
              simp only [hres]
            rw [hnil, List.nil_append] at hrs
            have hvv : p2.vars = p0.vars := hv2.trans hv1
            rw [hvv] at hall
            simp only [hrs]
            exact hall

/-- The compilation yields no record when `parseRoutine` fails on one of the routine elements
from every state. -/
theorem parse_fails_of_routine (fuel : Nat) (vars : List (String × String)) (hash : String)
    (root e : QMXmlAdaptorElement) (col : Collected) (p0 : ParserPrivate)
    (hcol : ParserPrivate.collected fuel vars root = .ok (col, p0))
    (he : e ∈ col.routineElements)
    (hfail : ∀ (p : ParserPrivate), ∃ f, p.parseRoutine fuel e = .error f) :
    ∃ f, Parser.parse fuel vars hash (some root) = .error f := by
  simp only [Parser.parse, ParserPrivate.parse]
  split
  · exact ⟨_, rfl⟩
  · rw [hcol]
    simp only
    cases ho : parseObjects fuel col.objElements
        { p0 with result := { p0.result with version := col.version, hash := hash } } with
    | error f => exact ⟨f, rfl⟩
    | ok p1 =>
      simp only
      cases hl : parseLayouts fuel col.layoutElements p1 with
      | error f => exact ⟨f, rfl⟩
      | ok p2 =>
        obtain ⟨f, hf⟩ := parseRoutines_fails fuel e hfail col.routineElements he p2
        simp only [hf]
        exact ⟨f, rfl⟩

end Aec
namespace Aec
open Core (QMXmlAdaptorElement)
open ParserPrivate

/-- The anchors `parseRoutine.anchor` accepts are those of `AnchorTokenSpec`. -/
theorem anchor_some (a t : String) (n : Bool) (h : parseRoutine.anchor a = some (t, n)) :
    AnchorTokenSpec a t := by
  unfold parseRoutine.anchor at h
  split at h
  · rename_i ha
    cases h
    rcases ha with rfl | rfl
    · exact AnchorTokenSpec.last
    · exact AnchorTokenSpec.back
  · split at h
    · rename_i ha
      cases h
      rcases ha with rfl | rfl
      · exact AnchorTokenSpec.first
      · exact AnchorTokenSpec.front
    · split at h
      · rename_i ha
        cases h
        subst ha
        exact AnchorTokenSpec.before
      · split at h
        · rename_i ha
          cases h
          rcases ha with rfl | rfl
          · exact AnchorTokenSpec.absent
          · exact AnchorTokenSpec.after
        · cases h

theorem anchor_none (a : String)
    (h : a ∉ ["first", "front", "last", "back", "before", "after", ""]) :
    parseRoutine.anchor a = none := by
  simp only [List.mem_cons, List.mem_singleton, List.not_mem_nil, or_false, not_or] at h
  obtain ⟨h1, h2, h3, h4, h5, h6, h7⟩ := h
  simp [parseRoutine.anchor, h1, h2, h3, h4, h5, h6, h7]

/-- With an anchor that is not accepted `parseRoutine` fails from every state. -/
theorem parseRoutine_fails_of_anchor (fuel : Nat) (e : QMXmlAdaptorElement)
    (h : e.property "anchor" ∉ ["first", "front", "last", "back", "before", "after", ""])
    (p : ParserPrivate) : ∃ f, p.parseRoutine fuel e = .error f := by
  unfold parseRoutine
  rw [anchor_none _ h]
  repeat' split
  all_goals first
    | exact ⟨_, rfl⟩
    | contradiction

/-- C21 (amended): in every compiled record the anchor of each build routine is the one its
`anchor` attribute stands for, where `first` and `front` stand for First, `last` and `back` for
Last, `before` for Before, and `after` and an absent or empty attribute for After; the
compilation of a descriptor with a routine whose anchor token is none of these yields no
record, and `parseRoutine` itself aborts with "unknown build routine anchor" on such a routine
once its tag and its parent are accepted. -/
theorem anchor_tokens (fuel : Nat) (vars : List (String × String)) (hash : String)
    (root : QMXmlAdaptorElement) :
    (∀ record, Parser.parse fuel vars hash (some root) = .ok record →
      ∃ col p0, ParserPrivate.collected fuel vars root = .ok (col, p0) ∧
        List.Forall₂ (fun e r => AnchorTokenSpec (e.property "anchor") r.anchorToken)
          col.routineElements record.buildRoutines) ∧
    (∀ col p0 e, ParserPrivate.collected fuel vars root = .ok (col, p0) →
      e ∈ col.routineElements →
      e.property "anchor" ∉ ["first", "front", "last", "back", "before", "after", ""] →
      ∃ f, Parser.parse fuel vars hash (some root) = .error f) ∧
    (∀ (p : ParserPrivate) (e : QMXmlAdaptorElement) (parent : String),
      e.name = "buildRoutine" → p.resolve fuel (e.property "parent") = .ok parent →
      parent ≠ "" →
      e.property "anchor" ∉ ["first", "front", "last", "back", "before", "after", ""] →
      p.parseRoutine fuel e = .error (Failure.exit "unknown build routine anchor")) := by
  refine ⟨?_, ?_, ?_⟩
  · intro record h
    obtain ⟨col, p0, hcol, hall⟩ := parse_buildRoutines fuel vars hash root record h
    refine ⟨col, p0, hcol, ?_⟩
    refine List.Forall₂.imp ?_ hall
    intro e r hr
    obtain ⟨n, hn, _⟩ := hr.anchor
    exact anchor_some _ _ n hn
  · intro col p0 e hcol he ha
    exact parse_fails_of_routine fuel vars hash root e col p0 hcol he
      (parseRoutine_fails_of_anchor fuel e ha)
  · intro p e parent hname hp hne ha
    unfold parseRoutine
    simp only [hname, ne_eq, not_true_eq_false, if_false, hp, hne, anchor_none _ ha]

/-- C21 (amended) at concrete descriptors: the routine with anchor `back` compiles to the
anchor Last, and the routine with anchor `middle` makes the compilation abort. -/
theorem anchor_tokens_witness :
    (∃ col p0, ParserPrivate.collected 1 [] (Examples.routineWith "back" "") = .ok (col, p0) ∧
      List.Forall₂ (fun (e : QMXmlAdaptorElement) (r : ActionBuildRoutineMessage) =>
          AnchorTokenSpec (e.property "anchor") r.anchorToken)
        col.routineElements [⟨"Last", "File", "", [0]⟩]) ∧
    Parser.parse 1 [] "h" (some (Examples.routineWith "middle" "")) =
      .error (Failure.exit "unknown build routine anchor") :=
  ⟨(anchor_tokens 1 [] "h" (Examples.routineWith "back" "")).1
      ⟨"", "h", [⟨"a", MessageType.Action, MessageMode.Plain, "a", "", [], ["a"], "action"⟩],
        [⟨"a", MessageType.Action, []⟩], [], [⟨"Last", "File", "", [0]⟩]⟩
      (Except.ok_of_toOption (by decide!)),
    rfl⟩

/-- Counterexample to C21 as stated: the anchor token `front` and an absent anchor are none of
first, last, back, before, after, and the descriptors that use them compile, to the anchors
First and After. -/
theorem front_and_absent_anchor_compile :
    "front" ∉ ["first", "last", "back", "before", "after"] ∧
    (Parser.parse 1 [] "h" (some (Examples.routineWith "front" ""))).toOption.map
      (fun r => r.buildRoutines) = some [⟨"First", "File", "", [0]⟩] ∧
    "" ∉ ["first", "last", "back", "before", "after"] ∧
    (Parser.parse 1 [] "h" (some Examples.routineWithoutAnchor)).toOption.map
      (fun r => r.buildRoutines) = some [⟨"After", "File", "Open", [0]⟩] := by
  refine ⟨by decide, by decide!, by decide, by decide!⟩

end Aec
namespace Aec
open Core (QMXmlAdaptorElement)
open ParserPrivate

theorem forall₂_mem_right {α β : Type} {R : α → β → Prop} {l1 : List α} {l2 : List β}
    (h : List.Forall₂ R l1 l2) : ∀ b ∈ l2, ∃ a, a ∈ l1 ∧ R a b := by
  induction h with
  | nil => intro b hb; cases hb
  | cons hab _ ih =>
    intro b hb
    rcases List.mem_cons.mp hb with rfl | hb
    · exact ⟨_, List.mem_cons_self _ _, hab⟩
    · obtain ⟨a, ha, hr⟩ := ih b hb
      exact ⟨a, List.mem_cons_of_mem _ ha, hr⟩

theorem anchor_needs_relative (a t : String) (n : Bool)
    (h : parseRoutine.anchor a = some (t, n)) (ht : t = "Before" ∨ t = "After") :
    n = true := by
  unfold parseRoutine.anchor at h
  repeat' split at h
  all_goals
    cases h
    try first
      | rfl
      | (rcases ht with ht | ht <;> exact absurd ht (by decide))

theorem anchor_of_spec (a t : String) (h : AnchorTokenSpec a t) :
    ∃ n, parseRoutine.anchor a = some (t, n) := by
  cases h <;> exact ⟨_, rfl⟩

theorem parseExpression_empty (fuel : Nat) (vars : List (String × String)) (r : String)
    (h : parseExpression fuel "" vars = some r) : r = "" := by
  cases fuel with
  | zero => cases h
  | succ k =>
    have h1 : parseExpression (k + 1) "" vars = some "" := rfl
    rw [h1] at h
    cases h
    rfl

/-- A routine with the anchor Before or After and without `relativeTo` makes `parseRoutine` fail
from every state. -/
theorem parseRoutine_fails_of_relative (fuel : Nat) (e : QMXmlAdaptorElement)
    (ha : AnchorTokenSpec (e.property "anchor") "Before" ∨
      AnchorTokenSpec (e.property "anchor") "After")
    (hr : e.property "relativeTo" = "") (p : ParserPrivate) :
    ∃ f, p.parseRoutine fuel e = .error f := by
  cases h : p.parseRoutine fuel e with
  | error f => exact ⟨f, rfl⟩
  | ok res =>
    exfalso
    obtain ⟨r, p1⟩ := res
    obtain ⟨hof, _⟩ := parseRoutine_spec fuel p p1 e r h
    obtain ⟨n, hn, hrel⟩ := hof.anchor
    have hrl := hof.relative
    rw [hr] at hrl
    have hempty := parseExpression_empty fuel _ _ hrl
    have htok : r.anchorToken = "Before" ∨ r.anchorToken = "After" := by
      rcases ha with ha | ha
      · obtain ⟨m, hm⟩ := anchor_of_spec _ _ ha
        rw [hm] at hn
        simp only [Option.some.injEq, Prod.mk.injEq] at hn
        exact Or.inl hn.1.symm
      · obtain ⟨m, hm⟩ := anchor_of_spec _ _ ha
        rw [hm] at hn
        simp only [Option.some.injEq, Prod.mk.injEq] at hn
        exact Or.inr hn.1.symm
    exact hrel (anchor_needs_relative _ _ n hn htok) hempty

/-- A routine without items makes `parseRoutine` fail from every state. -/
theorem parseRoutine_fails_of_empty (fuel : Nat) (e : QMXmlAdaptorElement)
    (hc : e.children = []) (p : ParserPrivate) : ∃ f, p.parseRoutine fuel e = .error f := by
  cases h : p.parseRoutine fuel e with
  | error f => exact ⟨f, rfl⟩
  | ok res =>
    obtain ⟨r, p1⟩ := res
    obtain ⟨hof, _⟩ := parseRoutine_spec fuel p p1 e r h
    exact absurd hc hof.nonEmpty

/-- C22: in every compiled record each build routine has a non-empty parent, at least one item
and, when its anchor is Before or After, a non-empty `relativeTo`; the compilation of a
descriptor yields no record when one of its routines has the anchor Before or After and no or an
empty `relativeTo`, or has no items; and `parseRoutine` itself aborts on such a routine, with
"build routine with anchor must have a relative sibling" or "empty routine", once the checks
before are passed. -/
theorem build_routine_well_formed (fuel : Nat) (vars : List (String × String)) (hash : String)
    (root : QMXmlAdaptorElement) :
    (∀ record, Parser.parse fuel vars hash (some root) = .ok record →
      ∀ r ∈ record.buildRoutines, r.parent ≠ "" ∧ r.entryIndexes ≠ [] ∧
        ((r.anchorToken = "Before" ∨ r.anchorToken = "After") → r.relativeTo ≠ "")) ∧
    (∀ col p0 e, ParserPrivate.collected fuel vars root = .ok (col, p0) →
      e ∈ col.routineElements →
      (((AnchorTokenSpec (e.property "anchor") "Before" ∨
          AnchorTokenSpec (e.property "anchor") "After") ∧ e.property "relativeTo" = "") ∨
        e.children = []) →
      ∃ f, Parser.parse fuel vars hash (some root) = .error f) ∧
    (∀ (p : ParserPrivate) (e : QMXmlAdaptorElement) (parent : String),
      e.name = "buildRoutine" → p.resolve fuel (e.property "parent") = .ok parent →
      parent ≠ "" →
      (AnchorTokenSpec (e.property "anchor") "Before" ∨
        AnchorTokenSpec (e.property "anchor") "After") →
      p.resolve fuel (e.property "relativeTo") = .ok "" →
      p.parseRoutine fuel e =
        .error (Failure.exit "build routine with anchor must have a relative sibling")) ∧
    (∀ (p : ParserPrivate) (e : QMXmlAdaptorElement) (parent relative token : String),
      e.name = "buildRoutine" → p.resolve fuel (e.property "parent") = .ok parent →
      parent ≠ "" → AnchorTokenSpec (e.property "anchor") token →
      p.resolve fuel (e.property "relativeTo") = .ok relative → relative ≠ "" →
      e.children = [] →
      p.parseRoutine fuel e = .error (Failure.exit "empty routine")) := by
  refine ⟨?_, ?_, ?_, ?_⟩
  · intro record h r hr
    obtain ⟨col, p0, _, hall⟩ := parse_buildRoutines fuel vars hash root record h
    obtain ⟨e, _, hof⟩ := forall₂_mem_right hall r hr
    refine ⟨hof.parentNonEmpty, ?_, ?_⟩
    · intro hnil
      have hl := hof.items
      rw [hnil] at hl
      exact hof.nonEmpty (List.length_eq_zero.mp hl.symm)
    · intro ht
      obtain ⟨n, hn, hrel⟩ := hof.anchor
      exact hrel (anchor_needs_relative _ _ n hn ht)
  · intro col p0 e hcol he hbad
    rcases hbad with ⟨ha, hr⟩ | hc
    · exact parse_fails_of_routine fuel vars hash root e col p0 hcol he
        (parseRoutine_fails_of_relative fuel e ha hr)
    · exact parse_fails_of_routine fuel vars hash root e col p0 hcol he
        (parseRoutine_fails_of_empty fuel e hc)
  · intro p e parent hname hp hne ha hr
    have hanchor : ∃ t, parseRoutine.anchor (e.property "anchor") = some (t, true) := by
      rcases ha with ha | ha
      · obtain ⟨n, hn⟩ := anchor_of_spec _ _ ha
        exact ⟨_, by rw [hn, anchor_needs_relative _ _ n hn (Or.inl rfl)]⟩
      · obtain ⟨n, hn⟩ := anchor_of_spec _ _ ha
        exact ⟨_, by rw [hn, anchor_needs_relative _ _ n hn (Or.inr rfl)]⟩
    obtain ⟨t, ht⟩ := hanchor
    unfold parseRoutine
    simp only [hname, ne_eq, not_true_eq_false, if_false, hp, hne, ht, hr, and_self, if_true]
  · intro p e parent relative token hname hp hne ha hr hrne hc
    obtain ⟨n, hn⟩ := anchor_of_spec _ _ ha
    unfold parseRoutine
    simp only [hname, ne_eq, not_true_eq_false, if_false, hp, hne, hn, hr, hrne, and_false, hc,
      List.isEmpty_nil, if_true]

/-- C22 at concrete descriptors: the routine `anchor=after relativeTo=Open` with one item
compiles to a well-formed build routine; the routine `anchor=before` without `relativeTo` and
the routine without items make the compilation abort. -/
theorem build_routine_well_formed_witness :
    (∀ r ∈ [(⟨"After", "File", "Open", [0]⟩ : ActionBuildRoutineMessage)],
      r.parent ≠ "" ∧ r.entryIndexes ≠ [] ∧
        ((r.anchorToken = "Before" ∨ r.anchorToken = "After") → r.relativeTo ≠ "")) ∧
    Parser.parse 1 [] "h" (some (Examples.routineWith "before" "")) =
      .error (Failure.exit "build routine with anchor must have a relative sibling") ∧
    Parser.parse 1 [] "h" (some Examples.emptyRoutine) = .error (Failure.exit "empty routine") :=
  ⟨(build_routine_well_formed 1 [] "h" (Examples.routineWith "after" "Open")).1
      ⟨"", "h", [⟨"a", MessageType.Action, MessageMode.Plain, "a", "", [], ["a"], "action"⟩],
        [⟨"a", MessageType.Action, []⟩], [], [⟨"After", "File", "Open", [0]⟩]⟩
      (Except.ok_of_toOption (by decide!)),
    rfl, rfl⟩

end Aec
namespace Aec

/-- C26: the default label of `CopyAndPaste` is `Copy and Paste`, but the default label of
`ShowTheGrid` is `Show The Grid`: the connector word is written `"the "`, with a trailing blank,
in the set `specialWords`, so the word `The` of an id is never lower-cased, while `the` itself
is not in the set. -/
theorem objIdToText_keeps_the_capitalised :
    objIdToText "CopyAndPaste" = "Copy and Paste" ∧
    objIdToText "ShowTheGrid" = "Show The Grid" ∧
    "the" ∉ objIdToText.specialWords ∧ "the " ∈ objIdToText.specialWords := by
  refine ⟨by decide, by decide, by decide, by decide⟩

end Aec
namespace Aec
open Core (QMXmlAdaptorElement)
open ParserPrivate

theorem CategoriesKept.kept_refl (p : ParserPrivate) : CategoriesKept p p :=
  fun _ _ h _ => h

theorem CategoriesKept.kept_trans {p p1 p2 : ParserPrivate} (h1 : CategoriesKept p p1)
    (h2 : CategoriesKept p1 p2) : CategoriesKept p p2 :=
  fun id info h hc => h2 id info (h1 id info h hc) hc

theorem CategoriesKept.of_eq {p p1 : ParserPrivate} (h : p1.objInfoMap = p.objInfoMap) :
    CategoriesKept p p1 := by
  intro id info hl _
  rw [h]
  exact hl

/-- The rule of `findOrInsertObjectInfo`: the returned object is stored under the resolved id of
the element and has a category path; an object that had a category path is returned unchanged,
and otherwise the path is the inherited path followed by the resolved `_cat` attribute, or by
the simplified label when that is empty. The label of a new object is `objIdToText` of its
id. -/
theorem findOrInsertObjectInfo_rule (fuel : Nat) (p p1 : ParserPrivate)
    (e : QMXmlAdaptorElement) (categories : List String) (info : ActionObjectInfoMessage)
    (h : p.findOrInsertObjectInfo fuel e categories = .ok (info, p1)) :
    ∃ id cat, parseExpression fuel (e.property "id") p.vars = some id ∧
      parseExpression fuel (e.property "_cat") p.vars = some cat ∧
      p1.objInfoMap.lookup id = some info ∧ info.categories ≠ [] ∧
      (∀ old, p.objInfoMap.lookup id = some old → old.categories ≠ [] →
        info = old ∧ p1 = p) ∧
      (∀ old, p.objInfoMap.lookup id = some old → old.categories = [] →
        info.text = old.text ∧
          info.categories =
            categories ++ [if cat = "" then simplifyActionText info.text else cat]) ∧
      (p.objInfoMap.lookup id = none →
        info.text = objIdToText id ∧
          info.categories =
            categories ++ [if cat = "" then simplifyActionText info.text else cat]) := by
  unfold findOrInsertObjectInfo at h
  cases hid : p.resolve fuel (e.property "id") with
  | error f => simp [hid] at h
  | ok id =>
    simp only [hid] at h
    split at h
    · cases h
    · cases hcat : p.resolve fuel (e.property "_cat") with
      | error f => simp [hcat] at h
      | ok cat =>
        simp only [hcat] at h
        refine ⟨id, cat, resolve_eq fuel p _ _ hid, resolve_eq fuel p _ _ hcat, ?_⟩
        cases hl : p.objInfoMap.lookup id with
        | some found =>
          simp only [hl] at h
          split at h
          · cases h
          · split at h
            · rename_i hempty
              cases h
              refine ⟨?_, ?_, ?_, ?_, ?_⟩
              · simp only [QHash.lookup_after_set, if_true]
              · simp [inferredCategories]
              · intro old ho hne
                cases ho
                exact absurd hempty hne
              · intro old ho _
                cases ho
                exact ⟨rfl, rfl⟩
              · intro hn
                cases hn
            · rename_i hne
              cases h
              refine ⟨hl, hne, ?_, ?_, ?_⟩
              · intro old ho _
                cases ho
                exact ⟨rfl, rfl⟩
              · intro old ho hempty
                cases ho
                exact absurd hempty hne
              · intro hn
                cases hn
        | none =>
          simp only [hl] at h
          cases hd : p.determineObjectType fuel e ⟨id, MessageType.Action, MessageMode.Plain, "",
              "", [], [], ""⟩ with
          | error f => simp [hd] at h
          | ok info1 =>
            simp only [hd, Except.ok.injEq, Prod.mk.injEq] at h
            obtain ⟨rfl, rfl⟩ := h
            refine ⟨?_, ?_, ?_, ?_, ?_⟩
            · rw [Core.lookup_append_map, hl]
              simp [Core.lookup_cons_ite]
            · simp [inferredCategories]
            · intro old ho
              cases ho
            · intro old ho
              cases ho
            · intro _
              exact ⟨rfl, rfl⟩

/-- A successful `findOrInsertObjectInfo` keeps every category path that is assigned. -/
theorem findOrInsertObjectInfo_kept (fuel : Nat) (p p1 : ParserPrivate)
    (e : QMXmlAdaptorElement) (categories : List String) (info : ActionObjectInfoMessage)
    (h : p.findOrInsertObjectInfo fuel e categories = .ok (info, p1)) :
    CategoriesKept p p1 := by
  unfold findOrInsertObjectInfo at h
  cases hid : p.resolve fuel (e.property "id") with
  | error f => simp [hid] at h
  | ok id =>
    simp only [hid] at h
    split at h
    · cases h
    · cases hcat : p.resolve fuel (e.property "_cat") with
      | error f => simp [hcat] at h
      | ok cat =>
        simp only [hcat] at h
        cases hl : p.objInfoMap.lookup id with
        | some found =>
          simp only [hl] at h
          split at h
          · cases h
          · split at h
            · rename_i hempty
              cases h
              intro k info' hk hne
              simp only [QHash.lookup_after_set]
              split
              · rename_i hkid
                subst hkid
                rw [hl] at hk
                cases hk
                exact absurd hempty hne
              · exact hk
            · cases h
              exact CategoriesKept.kept_refl _
        | none =>
          simp only [hl] at h
          cases hd : p.determineObjectType fuel e ⟨id, MessageType.Action, MessageMode.Plain, "",
              "", [], [], ""⟩ with
          | error f => simp [hd] at h
          | ok info1 =>
            simp only [hd, Except.ok.injEq, Prod.mk.injEq] at h
            obtain ⟨rfl, rfl⟩ := h
            intro k info' hk _
            simp only [Core.lookup_append_map, hk]

end Aec
namespace Aec
open Core (QMXmlAdaptorElement)
open ParserPrivate

/-- The state of a result of `enter`. -/
theorem Entered.state_cases (d : Entered) :
    ∃ p2, (∃ idx, d = Entered.finished idx p2) ∨ (∃ info, d = Entered.descend info p2) := by
  cases d with
  | finished idx p2 => exact ⟨p2, Or.inl ⟨idx, rfl⟩⟩
  | descend info p2 => exact ⟨p2, Or.inr ⟨info, rfl⟩⟩

/-- A successful `enter` on a separator or stretch leaves the object table alone; on another
element it calls `findOrInsertObjectInfo` with the inherited path, leaves the object table as
that call made it, and descends with the object that the call returned. -/
theorem enter_lookup (fuel : Nat) (p : ParserPrivate) (e : QMXmlAdaptorElement)
    (categories path : List String) (d : Entered)
    (h : parseLayoutRecursively.enter fuel p e categories path = .ok d) :
    ∀ p2, ((∃ idx, d = Entered.finished idx p2) ∨ (∃ info, d = Entered.descend info p2)) →
      ((e.name = "separator" ∨ e.name = "stretch") ∧ p2.objInfoMap = p.objInfoMap) ∨
      ∃ info p1, e.name ≠ "separator" ∧ e.name ≠ "stretch" ∧
        p.findOrInsertObjectInfo fuel e categories = .ok (info, p1) ∧
        p2.objInfoMap = p1.objInfoMap ∧ ∀ info2, d = Entered.descend info2 p2 → info2 = info := by
  unfold parseLayoutRecursively.enter at h
  split at h
  · rename_i hsep
    split at h
    · cases h
    · cases h
      rintro p2 (⟨idx, hd⟩ | ⟨info, hd⟩) <;> cases hd
      exact Or.inl ⟨Or.inl hsep, rfl⟩
  · rename_i hsep
    split at h
    · rename_i hstr
      split at h
      · cases h
      · cases h
        rintro p2 (⟨idx, hd⟩ | ⟨info, hd⟩) <;> cases hd
        exact Or.inl ⟨Or.inr hstr, rfl⟩
    · rename_i hstr
      cases hf : p.findOrInsertObjectInfo fuel e categories with
      | error f => simp [hf] at h
      | ok r =>
        obtain ⟨info, p1⟩ := r
        simp only [hf] at h
        intro p2 hd
        refine Or.inr ⟨info, p1, hsep, hstr, rfl, ?_⟩
        split at h
        · cases h
        · split at h
          · split at h
            · cases h
            · cases h
              rcases hd with ⟨idx, hd⟩ | ⟨info2, hd⟩ <;> cases hd
              exact ⟨rfl, fun _ hx => by cases hx⟩
          · cases ht : p1.entryType fuel e info with
            | error f => simp [ht] at h
            | ok type =>
              simp only [ht] at h
              cases hs : p1.sequenceKey fuel e ((p1.objSeqMap.lookup info.id).getD []) with
              | error f => simp [hs] at h
              | ok seq =>
                simp only [hs] at h
                cases hdc : p1.declare e info type seq with
                | error f => simp [hdc] at h
                | ok dd =>
                  have hfr := declare_frame p1 e info type seq dd hdc
                  cases dd with
                  | finished p3 =>
                    simp only [hdc] at h
                    cases h
                    rcases hd with ⟨idx, hd⟩ | ⟨info2, hd⟩ <;> cases hd
                    exact ⟨(hfr _ (Or.inl rfl)).2.2.1, fun _ hx => by cases hx⟩
                  | placeholder p3 =>
                    simp only [hdc] at h
                    split at h
                    · cases h
                      rcases hd with ⟨idx, hd⟩ | ⟨info2, hd⟩ <;> cases hd
                      exact ⟨(hfr _ (Or.inr rfl)).2.2.1, fun _ hx => by cases hx⟩
                    · cases h
                      rcases hd with ⟨idx, hd⟩ | ⟨info2, hd⟩ <;> cases hd
                      exact ⟨(hfr _ (Or.inr rfl)).2.2.1, fun _ hx => by cases hx; rfl⟩

/-- A successful `enter` keeps every category path that is assigned. -/
theorem enter_kept (fuel : Nat) (p : ParserPrivate) (e : QMXmlAdaptorElement)
    (categories path : List String) (d : Entered)
    (h : parseLayoutRecursively.enter fuel p e categories path = .ok d) :
    ∀ p2, ((∃ idx, d = Entered.finished idx p2) ∨ (∃ info, d = Entered.descend info p2)) →
      CategoriesKept p p2 := by
  intro p2 hd
  rcases enter_lookup fuel p e categories path d h p2 hd with ⟨_, hm⟩ | ⟨info, p1, _, _, hf, hm, _⟩
  · exact CategoriesKept.of_eq hm
  · exact (findOrInsertObjectInfo_kept fuel p p1 e categories info hf).kept_trans
      (CategoriesKept.of_eq hm)

mutual

/-- A successful `parseLayoutRecursively` keeps every category path that is assigned. -/
theorem parseLayoutRecursively_kept (fuel : Nat) :
    ∀ (e : QMXmlAdaptorElement) (p : ParserPrivate) (categories path : List String) (idx : Nat)
      (p' : ParserPrivate),
      parseLayoutRecursively fuel e p categories path = .ok (idx, p') → CategoriesKept p p'
  | .mk name properties value children, p, categories, path, idx, p', h => by
    simp only [parseLayoutRecursively] at h
    cases he : parseLayoutRecursively.enter fuel p (.mk name properties value children)
        categories path with
    | error f => simp [he] at h
    | ok d =>
      have hk := enter_kept fuel p _ categories path d he
      cases d with
      | finished idx2 p2 =>
        simp only [he, Except.ok.injEq, Prod.mk.injEq] at h
        obtain ⟨_, rfl⟩ := h
        exact hk p2 (Or.inl ⟨idx2, rfl⟩)
      | descend info p2 =>
        simp only [he] at h
        cases hch : parseLayoutRecursively.parseChildren fuel children p2 info.categories
            (path ++ [info.id]) with
        | error f => simp [hch] at h
        | ok r3 =>
          obtain ⟨childIndexes, p3⟩ := r3
          simp only [hch, Except.ok.injEq, Prod.mk.injEq] at h
          obtain ⟨_, rfl⟩ := h
          have h3 := parseChildren_kept fuel children p2 info.categories (path ++ [info.id])
            childIndexes p3 hch
          exact ((hk p2 (Or.inr ⟨info, rfl⟩)).kept_trans h3).kept_trans
            (CategoriesKept.of_eq rfl)

theorem parseChildren_kept (fuel : Nat) :
    ∀ (cs : List QMXmlAdaptorElement) (p : ParserPrivate) (categories path : List String)
      (idxs : List Nat) (p' : ParserPrivate),
      parseLayoutRecursively.parseChildren fuel cs p categories path = .ok (idxs, p') →
      CategoriesKept p p'
  | [], p, categories, path, idxs, p', h => by
    simp only [parseLayoutRecursively.parseChildren, Except.ok.injEq, Prod.mk.injEq] at h
    obtain ⟨_, rfl⟩ := h
    exact CategoriesKept.kept_refl _
  | c :: cs, p, categories, path, idxs, p', h => by
    simp only [parseLayoutRecursively.parseChildren] at h
    cases hc : parseLayoutRecursively fuel c p categories path with
    | error f => simp [hc] at h
    | ok r =>
      obtain ⟨idx, p1⟩ := r
      simp only [hc] at h
      cases hcs : parseLayoutRecursively.parseChildren fuel cs p1 categories path with
      | error f => simp [hcs] at h
      | ok r2 =>
        obtain ⟨idxs2, p2⟩ := r2
        simp only [hcs, Except.ok.injEq, Prod.mk.injEq] at h
        obtain ⟨_, rfl⟩ := h
        exact (parseLayoutRecursively_kept fuel c p categories path idx p1 hc).kept_trans
          (parseChildren_kept fuel cs p1 categories path idxs2 p2 hcs)

end

/-- Every element handed to `parseLayoutRecursively`, other than a separator or stretch, is
looked up in the state of the call with the inherited path of the call, and the object that the
look-up returns is the object stored under its id when the function returns. -/
theorem parseLayoutRecursively_lookup (fuel : Nat) (e : QMXmlAdaptorElement)
    (p p' : ParserPrivate) (categories path : List String) (idx : Nat) (hinv : p.Inv)
    (h : parseLayoutRecursively fuel e p categories path = .ok (idx, p'))
    (h1 : e.name ≠ "separator") (h2 : e.name ≠ "stretch") :
    LookedUpAt fuel p p' e categories := by
  obtain ⟨name, properties, value, children⟩ := e
  have hk := parseLayoutRecursively_kept fuel _ p categories path idx p' h
  simp only [parseLayoutRecursively] at h
  cases he : parseLayoutRecursively.enter fuel p (.mk name properties value children)
      categories path with
  | error f => simp [he] at h
  | ok d =>
    obtain ⟨p2, hd⟩ := Entered.state_cases d
    rcases enter_lookup fuel p _ categories path d he p2 hd with
      ⟨hs | hs, _⟩ | ⟨info, p1, _, _, hf, hm, _⟩
    · exact absurd hs h1
    · exact absurd hs h2
    · obtain ⟨id, cat, hid, _, hl1, hne, _⟩ :=
        findOrInsertObjectInfo_rule fuel p p1 _ categories info hf
      have hinv1 := (findOrInsertObjectInfo_spec fuel p p1 _ categories info hinv hf).2.2.2.2.2
      have hiid : info.id = id := hinv1.ids id info hl1
      have hl2 : p2.objInfoMap.lookup id = some info := by rw [hm]; exact hl1
      refine ⟨info, p1, hf, ?_⟩
      rw [hiid]
      rcases hd with ⟨idx2, rfl⟩ | ⟨info2, rfl⟩
      · simp only [he, Except.ok.injEq, Prod.mk.injEq] at h
        obtain ⟨_, rfl⟩ := h
        exact hl2
      · simp only [he] at h
        cases hch : parseLayoutRecursively.parseChildren fuel children p2 info2.categories
            (path ++ [info2.id]) with
        | error f => simp [hch] at h
        | ok r3 =>
          obtain ⟨childIndexes, p3⟩ := r3
          simp only [hch, Except.ok.injEq, Prod.mk.injEq] at h
          obtain ⟨_, rfl⟩ := h
          exact parseChildren_kept fuel _ _ _ _ _ _ hch id info hl2 hne

theorem LookedUpAt.widen {fuel : Nat} {p p1 q1 : ParserPrivate} {e : QMXmlAdaptorElement}
    {categories : List String} (h : LookedUpAt fuel p p1 e categories)
    (hq1 : CategoriesKept p1 q1) : LookedUpAt fuel p q1 e categories := by
  obtain ⟨info, pc1, hf, hl⟩ := h
  obtain ⟨id, cat, _, _, _, hne, _⟩ := findOrInsertObjectInfo_rule fuel p pc1 e categories info hf
  exact ⟨info, pc1, hf, hq1 _ info hl hne⟩

/-- The loop over the children run on `pre ++ c :: post` is the loop on `pre`, the call for `c`
in the state that leaves, and the loop on `post`. -/
theorem parseChildren_split (fuel : Nat) (categories path : List String)
    (c : QMXmlAdaptorElement) (post : List QMXmlAdaptorElement) :
    ∀ (pre : List QMXmlAdaptorElement) (p p' : ParserPrivate) (idxs : List Nat),
      parseLayoutRecursively.parseChildren fuel (pre ++ c :: post) p categories path =
        .ok (idxs, p') →
      ∃ i1 pa ic pb i2,
        parseLayoutRecursively.parseChildren fuel pre p categories path = .ok (i1, pa) ∧
        parseLayoutRecursively fuel c pa categories path = .ok (ic, pb) ∧
        parseLayoutRecursively.parseChildren fuel post pb categories path = .ok (i2, p') := by
  intro pre
  induction pre with
  | nil =>
    intro p p' idxs h
    rw [List.nil_append] at h
    simp only [parseLayoutRecursively.parseChildren] at h
    cases h0 : parseLayoutRecursively fuel c p categories path with
    | error f => simp [h0] at h
    | ok r =>
      obtain ⟨idx, p1⟩ := r
      simp only [h0] at h
      cases hcs : parseLayoutRecursively.parseChildren fuel post p1 categories path with
      | error f => simp [hcs] at h
      | ok r2 =>
        obtain ⟨idxs2, p2⟩ := r2
        simp only [hcs, Except.ok.injEq, Prod.mk.injEq] at h
        obtain ⟨_, rfl⟩ := h
        exact ⟨[], p, idx, p1, idxs2, by simp [parseLayoutRecursively.parseChildren], h0, hcs⟩
  | cons c0 rest ih =>
    intro p p' idxs h
    rw [List.cons_append] at h
    simp only [parseLayoutRecursively.parseChildren] at h
    cases h0 : parseLayoutRecursively fuel c0 p categories path with
    | error f => simp [h0] at h
    | ok r =>
      obtain ⟨idx, p1⟩ := r
      simp only [h0] at h
      cases hcs : parseLayoutRecursively.parseChildren fuel (rest ++ c :: post) p1 categories
          path with
      | error f => simp [hcs] at h
      | ok r2 =>
        obtain ⟨idxs2, p2⟩ := r2
        simp only [hcs, Except.ok.injEq, Prod.mk.injEq] at h
        obtain ⟨_, rfl⟩ := h
        obtain ⟨i1, pa, ic, pb, i2, ha, hb, hc⟩ := ih p1 p2 idxs2 hcs
        exact ⟨idx :: i1, pa, ic, pb, i2,
          by simp [parseLayoutRecursively.parseChildren, h0, ha], hb, hc⟩

end Aec
namespace Aec
open Core (QMXmlAdaptorElement)
open ParserPrivate

/-- The loop "Parse layouts" keeps the invariant and every category path that is assigned. -/
theorem parseLayouts_kept (fuel : Nat) (items : List QMXmlAdaptorElement) :
    ∀ (p p' : ParserPrivate), p.Inv → parseLayouts fuel items p = .ok p' →
      p'.Inv ∧ CategoriesKept p p' := by
  induction items with
  | nil =>
    intro p p' hinv h
    simp only [parseLayouts, Except.ok.injEq] at h
    subst h
    exact ⟨hinv, CategoriesKept.kept_refl _⟩
  | cons item rest ih =>
    intro p p' hinv h
    simp only [parseLayouts] at h
    cases h0 : parseLayoutRecursively fuel item p p.defaultCategory [] with
    | error f => simp [h0] at h
    | ok r =>
      obtain ⟨idx, p1⟩ := r
      simp only [h0] at h
      obtain ⟨hinv1, _, _⟩ := parseLayoutRecursively_inv fuel item p _ _ idx p1 hinv h0
      have hk1 := parseLayoutRecursively_kept fuel item p _ _ idx p1 h0
      have hinvx : ParserPrivate.Inv { p1 with result := { p1.result with
          layoutRootIndexes := (p1.result.layoutRootIndexes ++ [idx]) } } :=
        ⟨hinv1.ids, hinv1.seqs⟩
      obtain ⟨hinv2, hk2⟩ := ih _ p' hinvx h
      exact ⟨hinv2, hk1.kept_trans ((CategoriesKept.of_eq rfl).kept_trans hk2)⟩

/-- The loop "Parse layouts" run on `pre ++ e :: post` is the loop on `pre`, the call for `e`
with the default category and the empty path in the state that leaves, and the loop on
`post`. -/
theorem parseLayouts_split (fuel : Nat) (e : QMXmlAdaptorElement)
    (post : List QMXmlAdaptorElement) :
    ∀ (pre : List QMXmlAdaptorElement) (p p' : ParserPrivate),
      parseLayouts fuel (pre ++ e :: post) p = .ok p' →
      ∃ pa idx pb, parseLayouts fuel pre p = .ok pa ∧
        parseLayoutRecursively fuel e pa pa.defaultCategory [] = .ok (idx, pb) ∧
        parseLayouts fuel post { pb with result := { pb.result with
          layoutRootIndexes := (pb.result.layoutRootIndexes ++ [idx]) } } = .ok p' := by
  intro pre
  induction pre with
  | nil =>
    intro p p' h
    rw [List.nil_append] at h
    simp only [parseLayouts] at h
    cases h0 : parseLayoutRecursively fuel e p p.defaultCategory [] with
    | error f => simp [h0] at h
    | ok r =>
      obtain ⟨idx, p1⟩ := r
      simp only [h0] at h
      exact ⟨p, idx, p1, by simp [parseLayouts], h0, h⟩
  | cons item rest ih =>
    intro p p' h
    rw [List.cons_append] at h
    simp only [parseLayouts] at h
    cases h0 : parseLayoutRecursively fuel item p p.defaultCategory [] with
    | error f => simp [h0] at h
    | ok r =>
      obtain ⟨idx, p1⟩ := r
      simp only [h0] at h
      obtain ⟨pa, i, pb, ha, hb, hc⟩ := ih _ p' h
      exact ⟨pa, i, pb, by simp [parseLayouts, h0, ha], hb, hc⟩

/-- Every layout root, other than a separator or stretch, is looked up with the default
category, in the state that the roots before it leave. -/
theorem parseLayouts_roots (fuel : Nat) (pre : List QMXmlAdaptorElement)
    (e : QMXmlAdaptorElement) (post : List QMXmlAdaptorElement) (p p' : ParserPrivate)
    (hinv : p.Inv) (h : parseLayouts fuel (pre ++ e :: post) p = .ok p') :
    ∃ pa idx pb, parseLayouts fuel pre p = .ok pa ∧
      parseLayoutRecursively fuel e pa p.defaultCategory [] = .ok (idx, pb) ∧
      CategoriesKept pb p' ∧
      (e.name ≠ "separator" → e.name ≠ "stretch" → LookedUpAt fuel pa p' e p.defaultCategory) := by
  obtain ⟨pa, idx, pb, ha, hb, hc⟩ := parseLayouts_split fuel e post pre p p' h
  obtain ⟨hinva, _⟩ := parseLayouts_kept fuel pre p pa hinv ha
  have hda : pa.defaultCategory = p.defaultCategory := (parseLayouts_frame fuel pre p pa ha).2.1
  rw [hda] at hb
  obtain ⟨hinvb, _, _⟩ := parseLayoutRecursively_inv fuel e pa _ _ idx pb hinva hb
  have hinvx : ParserPrivate.Inv { pb with result := { pb.result with
      layoutRootIndexes := (pb.result.layoutRootIndexes ++ [idx]) } } :=
    ⟨hinvb.ids, hinvb.seqs⟩
  have hk : CategoriesKept pb p' :=
    (CategoriesKept.of_eq rfl).kept_trans (parseLayouts_kept fuel post _ p' hinvx hc).2
  refine ⟨pa, idx, pb, ha, hb, hk, ?_⟩
  intro h1 h2
  exact (parseLayoutRecursively_lookup fuel e pa pb _ _ idx hinva hb h1 h2).widen hk

/-- What `parseRoutine.item` does with the object table: an item that is no separator or stretch
is looked up with the default category. -/
theorem parseRoutine_item_lookup (fuel : Nat) (p p1 : ParserPrivate) (e : QMXmlAdaptorElement)
    (entry : ActionLayoutEntryMessage) (h : parseRoutine.item fuel p e = .ok (entry, p1)) :
    ((e.name = "separator" ∨ e.name = "stretch") ∧ p1 = p) ∨
      ∃ info, e.name ≠ "separator" ∧ e.name ≠ "stretch" ∧
        p.findOrInsertObjectInfo fuel e p.defaultCategory = .ok (info, p1) := by
  unfold parseRoutine.item at h
  split at h
  · rename_i hs
    cases h
    exact Or.inl ⟨Or.inl hs, rfl⟩
  · rename_i hs
    split at h
    · rename_i ht
      cases h
      exact Or.inl ⟨Or.inr ht, rfl⟩
    · rename_i ht
      cases hf : p.findOrInsertObjectInfo fuel e p.defaultCategory with
      | error f => simp [hf] at h
      | ok r =>
        obtain ⟨info, p2⟩ := r
        simp only [hf] at h
        refine Or.inr ⟨info, hs, ht, ?_⟩
        repeat' split at h
        all_goals
          cases h
          try rfl

theorem parseRoutine_item_inv (fuel : Nat) (p p1 : ParserPrivate) (e : QMXmlAdaptorElement)
    (entry : ActionLayoutEntryMessage) (hinv : p.Inv)
    (h : parseRoutine.item fuel p e = .ok (entry, p1)) : p1.Inv ∧ CategoriesKept p p1 := by
  rcases parseRoutine_item_lookup fuel p p1 e entry h with ⟨_, rfl⟩ | ⟨info, _, _, hf⟩
  · exact ⟨hinv, CategoriesKept.kept_refl _⟩
  · exact ⟨(findOrInsertObjectInfo_spec fuel p p1 e _ info hinv hf).2.2.2.2.2,
      findOrInsertObjectInfo_kept fuel p p1 e _ info hf⟩

/-- The loop over the items of a routine keeps the invariant, the variables, the default
category and the category paths. -/
theorem parseRoutine_items_kept (fuel : Nat) (items : List QMXmlAdaptorElement) :
    ∀ (p p' : ParserPrivate) (acc idxs : List Nat), p.Inv →
      parseRoutine.items fuel items p acc = .ok (idxs, p') →
      p'.Inv ∧ CategoriesKept p p' ∧ p'.defaultCategory = p.defaultCategory := by
  induction items with
  | nil =>
    intro p p' acc idxs hinv h
    simp only [parseRoutine.items, Except.ok.injEq, Prod.mk.injEq] at h
    obtain ⟨_, rfl⟩ := h
    exact ⟨hinv, CategoriesKept.kept_refl _, rfl⟩
  | cons item rest ih =>
    intro p p' acc idxs hinv h
    simp only [parseRoutine.items] at h
    cases hi : parseRoutine.item fuel p item with
    | error f => simp [hi] at h
    | ok r =>
      obtain ⟨entry, p1⟩ := r
      simp only [hi] at h
      obtain ⟨_, hd1, _, _⟩ := parseRoutine_item_frame fuel p p1 item entry hi
      obtain ⟨hinv1, hk1⟩ := parseRoutine_item_inv fuel p p1 item entry hinv hi
      obtain ⟨hinv2, hk2, hd2⟩ := ih _ p' _ _ (inv_appendEntry _ entry hinv1) h
      have hd : (p1.appendEntry entry).defaultCategory = p.defaultCategory := hd1
      exact ⟨hinv2, hk1.kept_trans ((CategoriesKept.of_eq rfl).kept_trans hk2), hd2.trans hd⟩

/-- The loop over the items of a routine run on `pre ++ e :: post` is the loop on `pre`, the
step for `e` in the state that leaves, and the loop on `post`. -/
theorem parseRoutine_items_split (fuel : Nat) (e : QMXmlAdaptorElement)
    (post : List QMXmlAdaptorElement) :
    ∀ (pre : List QMXmlAdaptorElement) (p p' : ParserPrivate) (acc idxs : List Nat),
      parseRoutine.items fuel (pre ++ e :: post) p acc = .ok (idxs, p') →
      ∃ i1 pa entry pb, parseRoutine.items fuel pre p acc = .ok (i1, pa) ∧
        parseRoutine.item fuel pa e = .ok (entry, pb) ∧
        parseRoutine.items fuel post (pb.appendEntry entry)
          (i1 ++ [pa.result.layouts.length]) = .ok (idxs, p') := by
  intro pre
  induction pre with
  | nil =>
    intro p p' acc idxs h
    rw [List.nil_append] at h
    simp only [parseRoutine.items] at h
    cases hi : parseRoutine.item fuel p e with
    | error f => simp [hi] at h
    | ok r =>
      obtain ⟨entry, p1⟩ := r
      simp only [hi] at h
      exact ⟨acc, p, entry, p1, by simp [parseRoutine.items], hi, h⟩
  | cons item rest ih =>
    intro p p' acc idxs h
    rw [List.cons_append] at h
    simp only [parseRoutine.items] at h
    cases hi : parseRoutine.item fuel p item with
    | error f => simp [hi] at h
    | ok r =>
      obtain ⟨entry, p1⟩ := r
      simp only [hi] at h
      obtain ⟨i1, pa, en, pb, ha, hb, hc⟩ := ih _ p' _ idxs h
      exact ⟨i1, pa, en, pb, by simp [parseRoutine.items, hi, ha], hb, hc⟩

/-- A successful `parseRoutine` is a successful loop over the children of the routine, from the
state of the call and the empty list of entry indexes. -/
theorem parseRoutine_items (fuel : Nat) (p p1 : ParserPrivate) (root : QMXmlAdaptorElement)
    (entity : ActionBuildRoutineMessage) (hr : p.parseRoutine fuel root = .ok (entity, p1)) :
    ∃ idxs, parseRoutine.items fuel root.children p [] = .ok (idxs, p1) := by
  unfold parseRoutine at hr
  repeat' split at hr
  all_goals
    cases hr
    try exact ⟨_, by assumption⟩

/-- The loop "Parse build routines" keeps the invariant, the default category and the category
paths. -/
theorem parseRoutines_kept (fuel : Nat) (items : List QMXmlAdaptorElement) :
    ∀ (p p' : ParserPrivate), p.Inv → parseRoutines fuel items p = .ok p' →
      p'.Inv ∧ CategoriesKept p p' ∧ p'.defaultCategory = p.defaultCategory := by
  induction items with
  | nil =>
    intro p p' hinv h
    simp only [parseRoutines, Except.ok.injEq] at h
    subst h
    exact ⟨hinv, CategoriesKept.kept_refl _, rfl⟩
  | cons item rest ih =>
    intro p p' hinv h
    simp only [parseRoutines] at h
    cases hr : p.parseRoutine fuel item with
    | error f => simp [hr] at h
    | ok res =>
      obtain ⟨entity, p1⟩ := res
      simp only [hr] at h
      obtain ⟨idxs, hi⟩ := parseRoutine_items fuel p p1 item entity hr
      obtain ⟨hinv1, hk1, hd1⟩ := parseRoutine_items_kept fuel _ p p1 [] idxs hinv hi
      have hinvx : ParserPrivate.Inv { p1 with result := { p1.result with
          buildRoutines := (p1.result.buildRoutines ++ [entity]) } } :=
        ⟨hinv1.ids, hinv1.seqs⟩
      obtain ⟨hinv2, hk2, hd2⟩ := ih _ p' hinvx h
      exact ⟨hinv2, hk1.kept_trans ((CategoriesKept.of_eq rfl).kept_trans hk2), hd2.trans hd1⟩

/-- The loop "Parse build routines" run on `pre ++ r :: post` is the loop on `pre`, the call
for `r` in the state that leaves, and the loop on `post`. -/
theorem parseRoutines_split (fuel : Nat) (r : QMXmlAdaptorElement)
    (post : List QMXmlAdaptorElement) :
    ∀ (pre : List QMXmlAdaptorElement) (p p' : ParserPrivate),
      parseRoutines fuel (pre ++ r :: post) p = .ok p' →
      ∃ pr entity pb, parseRoutines fuel pre p = .ok pr ∧
        pr.parseRoutine fuel r = .ok (entity, pb) ∧
        parseRoutines fuel post { pb with result := { pb.result with
          buildRoutines := (pb.result.buildRoutines ++ [entity]) } } = .ok p' := by
  intro pre
  induction pre with
  | nil =>
    intro p p' h
    rw [List.nil_append] at h
    simp only [parseRoutines] at h
    cases hr : p.parseRoutine fuel r with
    | error f => simp [hr] at h
    | ok res =>
      obtain ⟨entity, p1⟩ := res
      simp only [hr] at h
      exact ⟨p, entity, p1, by simp [parseRoutines], hr, h⟩
  | cons item rest ih =>
    intro p p' h
    rw [List.cons_append] at h
    simp only [parseRoutines] at h
    cases hr : p.parseRoutine fuel item with
    | error f => simp [hr] at h
    | ok res =>
      obtain ⟨entity, p1⟩ := res
      simp only [hr] at h
      obtain ⟨pr, en, pb, ha, hb, hc⟩ := ih _ p' h
      exact ⟨pr, en, pb, by simp [parseRoutines, hr, ha], hb, hc⟩

/-- Every item of every build routine, other than a separator or stretch, is looked up with the
default category, in the state that the routines and the items before it leave. -/
theorem parseRoutines_items (fuel : Nat) (rpre : List QMXmlAdaptorElement)
    (r : QMXmlAdaptorElement) (rpost pre : List QMXmlAdaptorElement) (e : QMXmlAdaptorElement)
    (post : List QMXmlAdaptorElement) (p p' : ParserPrivate) (hinv : p.Inv)
    (h : parseRoutines fuel (rpre ++ r :: rpost) p = .ok p') (hr : r.children = pre ++ e :: post)
    (h1 : e.name ≠ "separator") (h2 : e.name ≠ "stretch") :
    ∃ pr idxs pa, parseRoutines fuel rpre p = .ok pr ∧
      parseRoutine.items fuel pre pr [] = .ok (idxs, pa) ∧
      LookedUpAt fuel pa p' e p.defaultCategory := by
  obtain ⟨pr, entity, pb, ha, hb, hc⟩ := parseRoutines_split fuel r rpost rpre p p' h
  obtain ⟨hinvr, _, hdr⟩ := parseRoutines_kept fuel rpre p pr hinv ha
  obtain ⟨idxs, hi⟩ := parseRoutine_items fuel pr pb r entity hb
  rw [hr] at hi
  obtain ⟨i1, pa, entry, pc, hia, hib, hic⟩ := parseRoutine_items_split fuel e post pre pr pb [] idxs hi
  obtain ⟨hinva, _, hda⟩ := parseRoutine_items_kept fuel pre pr pa [] i1 hinvr hia
  obtain ⟨hinvc, _⟩ := parseRoutine_item_inv fuel pa pc e entry hinva hib
  obtain ⟨hinvb, hkb, _⟩ := parseRoutine_items_kept fuel post _ pb _ idxs
    (inv_appendEntry _ entry hinvc) hic
  have hinvx : ParserPrivate.Inv { pb with result := { pb.result with
      buildRoutines := (pb.result.buildRoutines ++ [entity]) } } :=
    ⟨hinvb.ids, hinvb.seqs⟩
  have hk : CategoriesKept pc p' :=
    ((CategoriesKept.of_eq rfl).kept_trans hkb).kept_trans
      ((CategoriesKept.of_eq rfl).kept_trans (parseRoutines_kept fuel rpost _ p' hinvx hc).2.1)
  refine ⟨pr, i1, pa, ha, hia, ?_⟩
  rcases parseRoutine_item_lookup fuel pa pc e entry hib with ⟨hs | hs, _⟩ | ⟨info, _, _, hf⟩
  · exact absurd hs h1
  · exact absurd hs h2
  · obtain ⟨id, cat, _, _, hl1, hne, _⟩ := findOrInsertObjectInfo_rule fuel pa pc e _ info hf
    have hiid : info.id = id := hinvc.ids id info hl1
    rw [hda, hdr] at hf
    refine ⟨info, pc, hf, ?_⟩
    rw [hiid]
    exact hk id info hl1 hne

end Aec
namespace Aec
open Core (QMXmlAdaptorElement)
open ParserPrivate

/-- The object of a layout element after `parseLayoutRecursively`, and the inherited path of its
children: the element is looked up in the state of the call with the inherited path of the
call; unless its entry is complete before the loop over the children (a reused or childless
declaration), every child `c` is handed to `parseLayoutRecursively` with the category path of
the object of the element and the path extended by its id, in the state that the loop over the
children before `c` leaves. -/
theorem parseLayoutRecursively_children (fuel : Nat) (e : QMXmlAdaptorElement)
    (p p' : ParserPrivate) (categories path : List String) (idx : Nat) (hinv : p.Inv)
    (h : parseLayoutRecursively fuel e p categories path = .ok (idx, p'))
    (h1 : e.name ≠ "separator") (h2 : e.name ≠ "stretch") :
    ∃ info p1, p.findOrInsertObjectInfo fuel e categories = .ok (info, p1) ∧
      p'.objInfoMap.lookup info.id = some info ∧
      ((∃ pf, parseLayoutRecursively.enter fuel p e categories path =
          .ok (Entered.finished idx pf)) ∨
        ∃ p2, parseLayoutRecursively.enter fuel p e categories path =
            .ok (Entered.descend info p2) ∧
          ∀ pre c post, e.children = pre ++ c :: post →
            ∃ i1 pa ic pb,
              parseLayoutRecursively.parseChildren fuel pre p2 info.categories
                (path ++ [info.id]) = .ok (i1, pa) ∧
              parseLayoutRecursively fuel c pa info.categories (path ++ [info.id]) =
                .ok (ic, pb) ∧
              CategoriesKept pb p' ∧
              (c.name ≠ "separator" → c.name ≠ "stretch" →
                LookedUpAt fuel pa p' c info.categories)) := by
  obtain ⟨info, p1, hf, hl⟩ :=
    parseLayoutRecursively_lookup fuel e p p' categories path idx hinv h h1 h2
  refine ⟨info, p1, hf, hl, ?_⟩
  obtain ⟨name, properties, value, children⟩ := e
  simp only [parseLayoutRecursively] at h
  cases he : parseLayoutRecursively.enter fuel p (.mk name properties value children)
      categories path with
  | error f => simp [he] at h
  | ok d =>
    obtain ⟨p2, hd⟩ := Entered.state_cases d
    rcases enter_lookup fuel p _ categories path d he p2 hd with
      ⟨hs | hs, _⟩ | ⟨info0, p10, _, _, hf0, hm, hsame⟩
    · exact absurd hs h1
    · exact absurd hs h2
    · rw [hf] at hf0
      simp only [Except.ok.injEq, Prod.mk.injEq] at hf0
      obtain ⟨rfl, rfl⟩ := hf0
      rcases hd with ⟨idx2, rfl⟩ | ⟨info2, rfl⟩
      · simp only [he, Except.ok.injEq, Prod.mk.injEq] at h
        obtain ⟨rfl, rfl⟩ := h
        exact Or.inl ⟨_, rfl⟩
      · have hi := hsame info2 rfl
        subst hi
        simp only [he] at h
        cases hch : parseLayoutRecursively.parseChildren fuel children p2 info2.categories
            (path ++ [info2.id]) with
        | error f => simp [hch] at h
        | ok r3 =>
          obtain ⟨childIndexes, p3⟩ := r3
          simp only [hch, Except.ok.injEq, Prod.mk.injEq] at h
          obtain ⟨_, rfl⟩ := h
          obtain ⟨hinv2, _, _, _⟩ := (enter_spec fuel p _ categories path _ hinv he).2 info2 p2
            rfl
          refine Or.inr ⟨p2, rfl, ?_⟩
          intro pre c post hsplit
          simp only [QMXmlAdaptorElement.children] at hsplit
          subst hsplit
          obtain ⟨i1, pa, ic, pb, i2, ha, hb, hc⟩ :=
            parseChildren_split fuel _ _ c post pre p2 p3 childIndexes hch
          obtain ⟨hinva, _, _⟩ := parseChildren_inv fuel pre p2 _ _ i1 pa hinv2 ha
          have hk : CategoriesKept pb (p3.setChildIndexes p.result.layouts.length childIndexes) :=
            (parseChildren_kept fuel post pb _ _ i2 p3 hc).kept_trans (CategoriesKept.of_eq rfl)
          refine ⟨i1, pa, ic, pb, ha, hb, hk, ?_⟩
          intro hc1 hc2
          exact (parseLayoutRecursively_lookup fuel c pa pb _ _ ic hinva hb hc1 hc2).widen hk

/-- The states of a successful `Parser.parse`: the three loops run one after the other from the
state that the loop "Collect elements and attributes" leaves, each in a state with the invariant
and the default category of the parser configuration, and the objects of the record are the
objects of the last state. -/
theorem parse_states (fuel : Nat) (vars : List (String × String)) (hash : String)
    (root : QMXmlAdaptorElement) (record : ActionExtensionMessage)
    (h : Parser.parse fuel vars hash (some root) = .ok record) :
    ∃ col p0 p1 p2 p3, collected fuel vars root = .ok (col, p0) ∧
      parseObjects fuel col.objElements
        { p0 with result := { p0.result with version := col.version, hash := hash } } =
          .ok p1 ∧
      parseLayouts fuel col.layoutElements p1 = .ok p2 ∧
      parseRoutines fuel col.routineElements p2 = .ok p3 ∧
      p1.Inv ∧ p2.Inv ∧ p1.defaultCategory = p0.defaultCategory ∧
      p2.defaultCategory = p0.defaultCategory ∧
      record.objects = p3.objInfoMap.map (fun item => item.2) := by
  simp only [Parser.parse, ParserPrivate.parse] at h
  split at h
  · cases h
  · cases hc : ParserPrivate.collected fuel vars root with
    | error f => simp [hc] at h
    | ok r =>
      obtain ⟨col, p0⟩ := r
      simp only [hc] at h
      obtain ⟨hm1, hm2⟩ := collect_maps fuel root.children _ col _ p0 hc
      have hinv0 : ParserPrivate.Inv
          { p0 with result := { p0.result with version := col.version, hash := hash } } := by
        refine ⟨?_, ?_⟩
        · intro k info hk
          simp only [hm1] at hk
          cases hk
        · intro id seqs hs
          simp only [hm2] at hs
          cases hs
      cases ho : parseObjects fuel col.objElements
          { p0 with result := { p0.result with version := col.version, hash := hash } } with
      | error f => simp [ho] at h
      | ok p1 =>
        simp only [ho] at h
        obtain ⟨hinv1, _⟩ := parseObjects_inv fuel _ _ p1 hinv0 ho
        have hd1 := (parseObjects_frame fuel _ _ _ ho).2.1
        cases hl : parseLayouts fuel col.layoutElements p1 with
        | error f => simp [hl] at h
        | ok p2 =>
          simp only [hl] at h
          obtain ⟨hinv2, _⟩ := parseLayouts_kept fuel _ p1 p2 hinv1 hl
          have hd2 := (parseLayouts_frame fuel _ _ _ hl).2.1
          cases hr : parseRoutines fuel col.routineElements p2 with
          | error f => simp [hr] at h
          | ok p3 =>
            simp only [hr, Except.ok.injEq] at h
            subst h
            exact ⟨col, p0, p1, p2, p3, rfl, ho, hl, hr, hinv1, hinv2, hd1, hd2.trans hd1, rfl⟩

/-- C25: category inference. (1) Whenever `findOrInsertObjectInfo` looks an element up with an
inherited path, an object that has a category path already is returned unchanged, and an object
that has none (it is new, or declared under `objects` without a category) gets the inherited
path followed by one element, the resolved `_cat` attribute when that is non-empty and
`simplifyActionText` of the label of the object otherwise. (2) A layout element is looked up in
the state of its call with the inherited path of the call, and unless its entry is complete
before the loop over its children, each child is handed to `parseLayoutRecursively` with the
category path of the object of the element, in the state that the children before it leave, and
is looked up there with that path. (3) Each layout root is handed to `parseLayoutRecursively`
with the default category, in the state that the roots before it leave, and (4) each item of a
build routine is looked up with the default category, in the state that the routines and the
items before it leave. (5) In a successful `Parser.parse` the loops of (3) and (4) run one after
the other with the default category of the parser configuration, and the objects of the record
are those of the last state. In all of these the object that a look-up returns is still stored
under its id at the end (`LookedUpAt`), because a path once assigned is kept. -/
theorem category_inference (fuel : Nat) :
    (∀ (p p1 : ParserPrivate) (e : QMXmlAdaptorElement) (categories : List String)
        (info : ActionObjectInfoMessage),
      p.findOrInsertObjectInfo fuel e categories = .ok (info, p1) →
      ∃ id cat, parseExpression fuel (e.property "id") p.vars = some id ∧
        parseExpression fuel (e.property "_cat") p.vars = some cat ∧
        p1.objInfoMap.lookup id = some info ∧ info.categories ≠ [] ∧
        (∀ old, p.objInfoMap.lookup id = some old → old.categories ≠ [] →
          info = old ∧ p1 = p) ∧
        (∀ old, p.objInfoMap.lookup id = some old → old.categories = [] →
          info.text = old.text ∧
            info.categories =
              categories ++ [if cat = "" then simplifyActionText info.text else cat]) ∧
        (p.objInfoMap.lookup id = none →
          info.text = objIdToText id ∧
            info.categories =
              categories ++ [if cat = "" then simplifyActionText info.text else cat])) ∧
    (∀ (e : QMXmlAdaptorElement) (p p' : ParserPrivate) (categories path : List String)
        (idx : Nat), p.Inv →
      parseLayoutRecursively fuel e p categories path = .ok (idx, p') →
      e.name ≠ "separator" → e.name ≠ "stretch" →
      ∃ info p1, p.findOrInsertObjectInfo fuel e categories = .ok (info, p1) ∧
        p'.objInfoMap.lookup info.id = some info ∧
        ((∃ pf, parseLayoutRecursively.enter fuel p e categories path =
            .ok (Entered.finished idx pf)) ∨
          ∃ p2, parseLayoutRecursively.enter fuel p e categories path =
              .ok (Entered.descend info p2) ∧
            ∀ pre c post, e.children = pre ++ c :: post →
              ∃ i1 pa ic pb,
                parseLayoutRecursively.parseChildren fuel pre p2 info.categories
                  (path ++ [info.id]) = .ok (i1, pa) ∧
                parseLayoutRecursively fuel c pa info.categories (path ++ [info.id]) =
                  .ok (ic, pb) ∧
                CategoriesKept pb p' ∧
                (c.name ≠ "separator" → c.name ≠ "stretch" →
                  LookedUpAt fuel pa p' c info.categories))) ∧
    (∀ (items : List QMXmlAdaptorElement) (p p' : ParserPrivate), p.Inv →
      parseLayouts fuel items p = .ok p' →
      CategoriesKept p p' ∧
        ∀ pre e post, items = pre ++ e :: post →
          ∃ pa idx pb, parseLayouts fuel pre p = .ok pa ∧
            parseLayoutRecursively fuel e pa p.defaultCategory [] = .ok (idx, pb) ∧
            CategoriesKept pb p' ∧
            (e.name ≠ "separator" → e.name ≠ "stretch" →
              LookedUpAt fuel pa p' e p.defaultCategory)) ∧
    (∀ (items : List QMXmlAdaptorElement) (p p' : ParserPrivate), p.Inv →
      parseRoutines fuel items p = .ok p' →
      CategoriesKept p p' ∧
        ∀ rpre r rpost pre e post, items = rpre ++ r :: rpost →
          r.children = pre ++ e :: post → e.name ≠ "separator" → e.name ≠ "stretch" →
          ∃ pr idxs pa, parseRoutines fuel rpre p = .ok pr ∧
            parseRoutine.items fuel pre pr [] = .ok (idxs, pa) ∧
            LookedUpAt fuel pa p' e p.defaultCategory) ∧
    (∀ (vars : List (String × String)) (hash : String) (root : QMXmlAdaptorElement)
        (record : ActionExtensionMessage),
      Parser.parse fuel vars hash (some root) = .ok record →
      ∃ col p0 p1 p2 p3, collected fuel vars root = .ok (col, p0) ∧
        parseObjects fuel col.objElements
          { p0 with result := { p0.result with version := col.version, hash := hash } } =
            .ok p1 ∧
        parseLayouts fuel col.layoutElements p1 = .ok p2 ∧
        parseRoutines fuel col.routineElements p2 = .ok p3 ∧
        p1.Inv ∧ p2.Inv ∧ p1.defaultCategory = p0.defaultCategory ∧
        p2.defaultCategory = p0.defaultCategory ∧
        record.objects = p3.objInfoMap.map (fun item => item.2)) := by
  refine ⟨?_, ?_, ?_, ?_, ?_⟩
  · intro p p1 e categories info h
    exact findOrInsertObjectInfo_rule fuel p p1 e categories info h
  · intro e p p' categories path idx hinv h h1 h2
    exact parseLayoutRecursively_children fuel e p p' categories path idx hinv h h1 h2
  · intro items p p' hinv h
    refine ⟨(parseLayouts_kept fuel _ p p' hinv h).2, ?_⟩
    intro pre e post hsplit
    subst hsplit
    exact parseLayouts_roots fuel pre e post p p' hinv h
  · intro items p p' hinv h
    refine ⟨(parseRoutines_kept fuel _ p p' hinv h).2.1, ?_⟩
    intro rpre r rpost pre e post hsplit hr h1 h2
    subst hsplit
    exact parseRoutines_items fuel rpre r rpost pre e post p p' hinv h hr h1 h2
  · intro vars hash root record h
    exact parse_states fuel vars hash root record h

/-- C25 at a concrete descriptor: with the default category `Main`, the object `open` declared
with the label `&Open...` and no category, and the layout `File[open, SaveAs _cat=Saving]`, the
compiled objects have the paths `Main/File/Open`, `Main/File` and `Main/File/Saving`; the rule
itself gives the last one for the look-up of `SaveAs` with the inherited path `Main/File`. -/
theorem category_inference_witness :
    (Parser.parse 1 [] "h" (some Examples.inferredPaths)).toOption.map
        (fun r => r.objects.map (fun o => (o.id, o.text, o.categories))) =
      some [("open", "&Open...", ["Main", "File", "Open"]), ("File", "File", ["Main", "File"]),
        ("SaveAs", "Save as", ["Main", "File", "Saving"])] ∧
    ∃ id cat, parseExpression 1 "SaveAs" [] = some id ∧ parseExpression 1 "Saving" [] = some cat ∧
      ["Main", "File", "Saving"] =
        ["Main", "File"] ++ [if cat = "" then simplifyActionText "Save as" else cat] := by
  refine ⟨by decide!, ?_⟩
  obtain ⟨id, cat, hid, hcat, _, _, _, _, hnew⟩ := (category_inference 1).1
    ⟨[], [], [], [], ⟨"", "", [], [], [], []⟩⟩ _
    (.mk "action" [("id", "SaveAs"), ("_cat", "Saving")] "" []) ["Main", "File"] _ rfl
  exact ⟨id, cat, hid, hcat, (hnew (by cases hid; rfl)).2⟩

end Aec
namespace Aec
open Core (QMXmlAdaptorElement)
open ParserPrivate

/-- The object returned for a known id has the id, the mode and the type of the stored one. -/
theorem findOrInsertObjectInfo_known (fuel : Nat) (p p1 : ParserPrivate)
    (e : QMXmlAdaptorElement) (categories : List String) (info old : ActionObjectInfoMessage)
    (id : String) (hid : parseExpression fuel (e.property "id") p.vars = some id)
    (hold : p.objInfoMap.lookup id = some old)
    (h : p.findOrInsertObjectInfo fuel e categories = .ok (info, p1)) :
    info.id = old.id ∧ info.mode = old.mode ∧ info.type = old.type := by
  obtain ⟨id', cat, hid', _, _, _, h1, h2, _⟩ :=
    findOrInsertObjectInfo_rule fuel p p1 e categories info h
  rw [hid] at hid'
  cases hid'
  unfold findOrInsertObjectInfo at h
  have hr : p.resolve fuel (e.property "id") = .ok id := by
    unfold resolve
    rw [hid]
  rw [hr] at h
  simp only [hold] at h
  repeat' split at h
  all_goals
    cases h
    try exact ⟨rfl, rfl, rfl⟩

/-- A declaration of an object that is not Plain and has a sequence key already is complete
without children: it copies the entry that declared the key it names, or, when it names no key
in use and has no children, it appends an entry without children; no key is added. -/
theorem declare_later (p : ParserPrivate) (e : QMXmlAdaptorElement)
    (info : ActionObjectInfoMessage) (type : MessageType) (seq : String) (d : Declared)
    (first : String × Nat) (others : List (String × Nat))
    (hseqs : p.objSeqMap.lookup info.id = some (first :: others))
    (hmode : info.mode ≠ MessageMode.Plain) (h : p.declare e info type seq = .ok d) :
    ∃ p2 entry, d = Declared.finished p2 ∧ p2.objSeqMap = p.objSeqMap ∧
      p2.result.layouts = p.result.layouts ++ [entry] ∧
      ((∃ j old, (first :: others).lookup seq = some j ∧ p.result.layouts[j]? = some old ∧
          entry = { old with type := type }) ∨
        ((first :: others).lookup seq = none ∧ e.children.isEmpty = true ∧
          entry = ⟨info.id, type, []⟩)) := by
  unfold declare at h
  simp only [hseqs, Option.getD_some] at h
  cases hl : (first :: others).lookup seq with
  | none =>
    simp only [hl, hmode, ne_eq, not_false_eq_true, if_true] at h
    split at h
    · rename_i hc
      cases h
      exact ⟨_, _, rfl, rfl, rfl, Or.inr ⟨rfl, hc, rfl⟩⟩
    · cases h
  | some j =>
    simp only [hl] at h
    cases ho : p.result.layouts[j]? with
    | none => simp [ho] at h
    | some old =>
      simp only [ho, Except.ok.injEq] at h
      subst h
      exact ⟨_, _, rfl, rfl, rfl, Or.inl ⟨j, old, rfl, ho, rfl⟩⟩

/-- C23 (amended): a declaration of a menu or group id that is not Plain and has been declared
before (the id has the sequence keys `(s0, i0) :: rest`, the entry `i0` being that of the first
declaration), when it compiles, appends exactly one layout entry and adds no sequence key.
Without `_seq` attribute the declaration has no children and the child list of its entry is
identical to the one of the first declaration; with a `_seq` attribute that names a key in use
the child list is identical to the one of the entry that declared that key, the first
declaration for the key `s0`; with a `_seq` attribute that names no key in use the declaration
has no children and its entry has an empty child list. -/
theorem later_declaration_reuses_named_key (fuel : Nat) (p p' : ParserPrivate)
    (e : QMXmlAdaptorElement) (categories path : List String) (idx : Nat)
    (info : ActionObjectInfoMessage) (id s0 : String) (i0 : Nat) (rest : List (String × Nat))
    (first : ActionLayoutEntryMessage) (hinv : p.Inv)
    (h1 : e.name ≠ "separator") (h2 : e.name ≠ "stretch")
    (hid : parseExpression fuel (e.property "id") p.vars = some id)
    (hinfo : p.objInfoMap.lookup id = some info)
    (hmode : info.mode ≠ MessageMode.Plain) (htype : info.type ≠ MessageType.Action)
    (hseqs : p.objSeqMap.lookup id = some ((s0, i0) :: rest))
    (hfirst : p.result.layouts[i0]? = some first)
    (h : parseLayoutRecursively fuel e p categories path = .ok (idx, p')) :
    ∃ entry, p'.result.layouts = p.result.layouts ++ [entry] ∧ idx = p.result.layouts.length ∧
      p'.objSeqMap = p.objSeqMap ∧
      (e.properties.lookup "_seq" = none →
        e.children = [] ∧ entry.childIndexes = first.childIndexes) ∧
      (∀ v r, e.properties.lookup "_seq" = some v → parseExpression fuel v p.vars = some r →
        (r = s0 → entry.childIndexes = first.childIndexes) ∧
        (∀ j old, ((s0, i0) :: rest).lookup r = some j → p.result.layouts[j]? = some old →
          entry.childIndexes = old.childIndexes) ∧
        (((s0, i0) :: rest).lookup r = none → e.children = [] ∧ entry.childIndexes = [])) := by
  obtain ⟨name, properties, value, children⟩ := e
  simp only [parseLayoutRecursively] at h
  cases he : parseLayoutRecursively.enter fuel p (.mk name properties value children) categories
      path with
  | error f => simp [he] at h
  | ok d =>
    simp only [he] at h
    unfold parseLayoutRecursively.enter at he
    rw [if_neg h1, if_neg h2] at he
    cases hf : p.findOrInsertObjectInfo fuel (.mk name properties value children)
        categories with
    | error f => simp [hf] at he
    | ok r =>
      obtain ⟨info1, p1⟩ := r
      simp only [hf] at he
      obtain ⟨hkid, hkmode, hktype⟩ := findOrInsertObjectInfo_known fuel p p1 _ categories info1
        info id hid hinfo hf
      obtain ⟨hv1, _, hs1, hr1, hinv1⟩ :=
        (findOrInsertObjectInfo_spec fuel p p1 _ categories info1 hinv hf).2
      have hid1 : info1.id = id := by
        have := (findOrInsertObjectInfo_spec fuel p p1 _ categories info1 hinv hf).1
        rw [hid] at this
        cases this
        rfl
      have hseqs1 : p1.objSeqMap.lookup info1.id = some ((s0, i0) :: rest) := by
        rw [hs1, hid1]
        exact hseqs
      have hmode1 : info1.mode ≠ MessageMode.Plain := by rw [hkmode]; exact hmode
      have htype1 : info1.type ≠ MessageType.Action := by rw [hktype]; exact htype
      by_cases hp : info1.id ∈ path
      · simp only [hp, if_true] at he
        cases he
      · simp only [hp, if_false, htype1] at he
        cases ht : p1.entryType fuel (.mk name properties value children) info1 with
        | error f => simp [ht] at he
        | ok type =>
          simp only [ht] at he
          cases hsk : p1.sequenceKey fuel (.mk name properties value children)
              ((p1.objSeqMap.lookup info1.id).getD []) with
          | error f => simp [hsk] at he
          | ok seq =>
            simp only [hsk] at he
            cases hdc : p1.declare (.mk name properties value children) info1 type seq with
            | error f => simp [hdc] at he
            | ok dd =>
              simp only [hdc] at he
              obtain ⟨p2, entry, rfl, hs2, hl2, hcase⟩ := declare_later p1 _ info1 type seq dd
                (s0, i0) rest hseqs1 hmode1 hdc
              simp only [Except.ok.injEq] at he
              subst he
              simp only [Except.ok.injEq, Prod.mk.injEq] at h
              obtain ⟨rfl, rfl⟩ := h
              refine ⟨entry, by rw [hl2, hr1], rfl, by rw [hs2, hs1], ?_, ?_⟩
              · intro hnone
                have hfresh := seqKeysFresh_of_lookup p1 hinv1 info1.id
                rw [hseqs1] at hsk hfresh
                simp only [Option.getD_some] at hsk hfresh
                unfold sequenceKey at hsk
                simp only [hnone] at hsk
                cases hch : children with
                | nil =>
                  simp only [Core.QMXmlAdaptorElement.children, hch, List.isEmpty_nil,
                    if_true, Except.ok.injEq] at hsk
                  subst hsk
                  refine ⟨rfl, ?_⟩
                  rcases hcase with ⟨j, old, hj, hold, rfl⟩ | ⟨hn, _, _⟩
                  · simp only [List.lookup, beq_self_eq_true, Option.some.injEq] at hj
                    subst hj
                    rw [hr1, hfirst] at hold
                    cases hold
                    rfl
                  · simp [List.lookup] at hn
                | cons c cs =>
                  exfalso
                  simp only [Core.QMXmlAdaptorElement.children, hch, List.isEmpty_cons,
                    Bool.false_eq_true, if_false, Except.ok.injEq] at hsk
                  subst hsk
                  rcases hcase with ⟨j, old, hj, _, _⟩ | ⟨_, hc, _⟩
                  · rw [hfresh _ (Nat.le_refl _)] at hj
                    cases hj
                  · simp [Core.QMXmlAdaptorElement.children, hch] at hc
              · intro v r hv hr
                have hfresh := seqKeysFresh_of_lookup p1 hinv1 info1.id
                rw [hseqs1] at hsk hfresh
                simp only [Option.getD_some] at hsk hfresh
                unfold sequenceKey at hsk
                have hres : p1.resolve fuel v = .ok r := by
                  unfold resolve
                  rw [hv1, hr]
                simp only [hv, hres, Except.ok.injEq] at hsk
                have hkey : ∀ j old, ((s0, i0) :: rest).lookup r = some j →
                    p.result.layouts[j]? = some old →
                    entry.childIndexes = old.childIndexes := by
                  intro j old hj hold
                  have hseq : seq = r := by
                    rw [← hsk, hj]
                    simp
                  subst hseq
                  rcases hcase with ⟨j2, old2, hj2, hold2, rfl⟩ | ⟨hn, _, _⟩
                  · rw [hj] at hj2
                    cases hj2
                    rw [hr1, hold] at hold2
                    cases hold2
                    rfl
                  · rw [hj] at hn
                    cases hn
                refine ⟨?_, hkey, ?_⟩
                · intro hrs
                  subst hrs
                  exact hkey i0 first (by simp [List.lookup]) hfirst
                · intro hnone
                  have hseqnone : ((s0, i0) :: rest).lookup seq = none := by
                    rw [← hsk, hnone]
                    by_cases hdig : isStringDigits r = true
                    · simp only [Option.isNone_none, hdig, and_self, if_true]
                      exact hfresh _ (Nat.le_refl _)
                    · simp only [Option.isNone_none, hdig, and_false, if_false]
                      exact hnone
                  rcases hcase with ⟨j2, old2, hj2, _, _⟩ | ⟨_, hc, rfl⟩
                  · rw [hseqnone] at hj2
                    cases hj2
                  · refine ⟨?_, rfl⟩
                    simpa [Core.QMXmlAdaptorElement.children] using hc

end Aec
namespace Aec
open Core (QMXmlAdaptorElement)
open ParserPrivate

theorem afterFirstX_inv : Examples.afterFirstX.Inv := by
  constructor
  · intro k info hk
    simp only [Examples.afterFirstX, Core.lookup_cons_ite, List.lookup_nil] at hk
    split at hk
    · rename_i hx
      cases hk
      exact hx.symm
    · split at hk
      · rename_i hx
        cases hk
        exact hx.symm
      · cases hk
  · intro id seqs hs
    simp only [Examples.afterFirstX, Core.lookup_cons_ite, List.lookup_nil] at hs
    split at hs
    · cases hs
      intro m hm
      simp only [Core.lookup_cons_ite, List.lookup_nil]
      split
      · rename_i hx
        have h0 : QString.number m = QString.number 0 := hx
        have := QString.number_inj m 0 h0
        subst this
        simp at hm
      · rfl
    · cases hs

/-- Witness of C23 (amended): after the layout `X[a]`, the declaration `<menu id=X/>` of the
menu `X`, which is not Plain, appends one entry whose child list is that of the first
declaration. -/
theorem later_declaration_reuses_named_key_witness :
    parseLayoutRecursively 1 (.mk "menu" [("id", "X")] "" []) Examples.afterFirstX [] [] =
      .ok (2, Examples.afterFirstX.appendEntry ⟨"X", MessageType.Menu, [1]⟩) ∧
    ∃ entry, (Examples.afterFirstX.appendEntry ⟨"X", MessageType.Menu, [1]⟩).result.layouts =
        Examples.afterFirstX.result.layouts ++ [entry] ∧
      entry.childIndexes = [1] := by
  refine ⟨rfl, ?_⟩
  obtain ⟨entry, hl, _, _, hnone, _⟩ := later_declaration_reuses_named_key 1
    Examples.afterFirstX (Examples.afterFirstX.appendEntry ⟨"X", MessageType.Menu, [1]⟩)
    (.mk "menu" [("id", "X")] "" []) [] [] 2
    ⟨"X", MessageType.Menu, MessageMode.Unique, "X", "", [], ["X"], "menu"⟩ "X" "0" 0 []
    ⟨"X", MessageType.Menu, [1]⟩ afterFirstX_inv (by decide) (by decide) rfl rfl (by decide)
    (by decide) rfl rfl rfl
  exact ⟨entry, hl, (hnone rfl).2⟩

/-- Counterexample to C23 as stated: the menu `X` is not Plain, its first declaration has the
child list `[1]`, and its second declaration, which carries `_seq=1`, yields the entry 2 with an
empty child list. -/
theorem later_declaration_with_new_key_is_empty :
    (Parser.parse 1 [] "h" (some Examples.laterKey)).toOption.map
        (fun r => (r.objects.map (fun o => (o.id, o.mode)), r.layouts)) =
      some ([("X", MessageMode.Unique), ("a", MessageMode.Plain)],
        [⟨"X", MessageType.Menu, [1]⟩, ⟨"a", MessageType.Action, []⟩,
          ⟨"X", MessageType.Menu, []⟩]) := by
  decide!

end Aec
namespace Aec
open Core (QMXmlAdaptorElement)
open ParserPrivate

theorem ArenaStep.step_refl (l : List ActionLayoutEntryMessage) : ArenaStep l l :=
  ⟨⟨[], by simp⟩, fun _ h => Or.inl h, fun _ h => h⟩

theorem ArenaStep.length_le {l l1 : List ActionLayoutEntryMessage} (h : ArenaStep l l1) :
    l.length ≤ l1.length := by
  obtain ⟨new, rfl⟩ := h.grow
  simp

theorem ArenaStep.valid {l l1 : List ActionLayoutEntryMessage} (h : ArenaStep l l1)
    (hv : ValidArena l) : ValidArena l1 := by
  intro x hx
  rcases h.refs x hx with hr | ⟨_, hlt⟩
  · exact Nat.lt_of_lt_of_le (hv x hr) h.length_le
  · exact hlt

theorem ArenaStep.step_trans {l l1 l2 : List ActionLayoutEntryMessage} (h1 : ArenaStep l l1)
    (h2 : ArenaStep l1 l2) : ArenaStep l l2 := by
  refine ⟨?_, ?_, ?_⟩
  · obtain ⟨n1, rfl⟩ := h1.grow
    obtain ⟨n2, rfl⟩ := h2.grow
    exact ⟨n1 ++ n2, by simp⟩
  · intro x hx
    have hle1 := h1.length_le
    have hle2 := h2.length_le
    rcases h2.refs x hx with hr | ⟨ha, hb⟩
    · rcases h1.refs x hr with hr1 | ⟨ha, hb⟩
      · exact Or.inl hr1
      · exact Or.inr ⟨ha, by omega⟩
    · exact Or.inr ⟨by omega, hb⟩
  · intro hv hr
    exact h2.rank (h1.valid hv) (h1.rank hv hr)

/-- Appending an entry whose child list is empty or is the child list of an entry of the array
is a step of the arena. -/
theorem ArenaStep.append_entry (l : List ActionLayoutEntryMessage)
    (entry : ActionLayoutEntryMessage)
    (h : entry.childIndexes = [] ∨
      ∃ (j : Nat) (old : ActionLayoutEntryMessage),
        l[j]? = some old ∧ entry.childIndexes = old.childIndexes) :
    ArenaStep l (l ++ [entry]) := by
  have hget : ∀ i e, (l ++ [entry])[i]? = some e → l[i]? = some e ∨ (i = l.length ∧ e = entry) := by
    intro i e hi
    rw [List.getElem?_append] at hi
    split at hi
    · exact Or.inl hi
    · rename_i hge
      right
      cases hk : i - l.length with
      | zero =>
        rw [hk] at hi
        simp only [List.getElem?_cons_zero, Option.some.injEq] at hi
        exact ⟨by omega, hi.symm⟩
      | succ k =>
        rw [hk] at hi
        simp at hi
  refine ⟨⟨[entry], rfl⟩, ?_, ?_⟩
  · rintro x ⟨i, e, hi, hx⟩
    rcases hget i e hi with hl | ⟨_, rfl⟩
    · exact Or.inl ⟨i, e, hl, hx⟩
    · rcases h with hnil | ⟨j, old, hj, hc⟩
      · rw [hnil] at hx
        cases hx
      · rw [hc] at hx
        exact Or.inl ⟨j, old, hj, hx⟩
  · rintro hv ⟨hr, hranked⟩
    rcases h with hnil | ⟨j, old, hj, hc⟩
    · refine ⟨hr, ?_⟩
      intro i e hi c hcm
      rcases hget i e hi with hl | ⟨_, rfl⟩
      · exact hranked i e hl c hcm
      · rw [hnil] at hcm
        cases hcm
    · refine ⟨fun i => if i = l.length then hr j else hr i, ?_⟩
      intro i e hi c hcm
      have hclt : c < l.length := by
        rcases hget i e hi with hl | ⟨_, rfl⟩
        · exact hv c ⟨i, e, hl, hcm⟩
        · rw [hc] at hcm
          exact hv c ⟨j, old, hj, hcm⟩
      have hcne : c ≠ l.length := Nat.ne_of_lt hclt
      simp only [hcne, if_false]
      rcases hget i e hi with hl | ⟨hil, rfl⟩
      · have hilt : i < l.length := by
          by_contra hge
          rw [List.getElem?_eq_none (by omega)] at hl
          cases hl
        simp only [Nat.ne_of_lt hilt, if_false]
        exact hranked i e hl c hcm
      · simp only [hil, if_true]
        rw [hc] at hcm
        exact hranked j old hj c hcm

theorem modify_append_at_length {α : Type} (f : α → α) (l t : List α) :
    (l ++ t).modify f l.length = l ++ t.modify f 0 := by
  induction l with
  | nil => rfl
  | cons a l ih =>
    simp only [List.cons_append, List.length_cons, List.modify_succ_cons, ih]

theorem mem_le_sum_map (f : Nat → Nat) (cs : List Nat) (c : Nat) (h : c ∈ cs) :
    f c ≤ (cs.map f).sum := by
  induction cs with
  | nil => cases h
  | cons a t ih =>
    simp only [List.map_cons, List.sum_cons]
    rcases List.mem_cons.mp h with rfl | ht
    · omega
    · have := ih ht
      omega

/-- The step of a declaration with children: a placeholder without children is appended at the
index `l.length`, the children are parsed, which is a step of the arena, and the placeholder
gets the indexes of the children, all of them behind it. -/
theorem ArenaStep.with_children (l l3 : List ActionLayoutEntryMessage)
    (placeholder : ActionLayoutEntryMessage) (cs : List Nat)
    (hph : placeholder.childIndexes = [])
    (hstep : ArenaStep (l ++ [placeholder]) l3)
    (hcs : ∀ c ∈ cs, l.length + 1 ≤ c ∧ c < l3.length) :
    ArenaStep l (l3.modify (fun entry => { entry with childIndexes := cs }) l.length) := by
  have h2 : ArenaStep l (l ++ [placeholder]) := ArenaStep.append_entry l placeholder (Or.inl hph)
  have h13 : ArenaStep l l3 := h2.step_trans hstep
  obtain ⟨new, hnew⟩ := hstep.grow
  have hget : ∀ i e, (l3.modify (fun entry => { entry with childIndexes := cs }) l.length)[i]? =
      some e → (i ≠ l.length ∧ l3[i]? = some e) ∨ (i = l.length ∧ e.childIndexes = cs) := by
    intro i e hi
    rw [List.getElem?_modify] at hi
    cases h3 : l3[i]? with
    | none => simp [h3] at hi
    | some e3 =>
      simp only [h3, Option.map_eq_map, Option.map_some', Option.some.injEq] at hi
      by_cases hil : l.length = i
      · simp only [hil, if_true] at hi
        subst hi
        exact Or.inr ⟨hil.symm, rfl⟩
      · simp only [hil, if_false] at hi
        subst hi
        exact Or.inl ⟨fun hx => hil hx.symm, rfl⟩
  refine ⟨?_, ?_, ?_⟩
  · rw [hnew]
    refine ⟨(([placeholder] ++ new).modify (fun entry => { entry with childIndexes := cs }) 0), ?_⟩
    rw [List.append_assoc]
    exact modify_append_at_length _ l _
  · rintro x ⟨i, e, hi, hx⟩
    rw [List.length_modify]
    rcases hget i e hi with ⟨_, h3⟩ | ⟨_, hc⟩
    · exact h13.refs x ⟨i, e, h3, hx⟩
    · rw [hc] at hx
      obtain ⟨ha, hb⟩ := hcs x hx
      exact Or.inr ⟨by omega, hb⟩
  · intro hv hr
    obtain ⟨h3, hranked3⟩ := h13.rank hv hr
    have hnoref : ¬ Refd l3 l.length := by
      intro href
      rcases h13.refs _ href with hr0 | ⟨hlt, _⟩
      · exact absurd (hv _ hr0) (Nat.lt_irrefl _)
      · exact absurd hlt (Nat.lt_irrefl _)
    refine ⟨fun i => if i = l.length then 1 + (cs.map h3).sum else h3 i, ?_⟩
    intro i e hi c hcm
    rcases hget i e hi with ⟨hne, hl3⟩ | ⟨hil, hc⟩
    · have hcne : c ≠ l.length := by
        intro hx
        subst hx
        exact hnoref ⟨i, e, hl3, hcm⟩
      simp only [hcne, hne, if_false]
      exact hranked3 i e hl3 c hcm
    · rw [hc] at hcm
      have hcne : c ≠ l.length := by
        have := (hcs c hcm).1
        omega
      simp only [hcne, hil, if_false, if_true]
      have := mem_le_sum_map h3 cs c hcm
      omega

end Aec
namespace Aec
open Core (QMXmlAdaptorElement)
open ParserPrivate

/-- The entry appended by a successful `declare`: one entry, without children or with the child
list of an entry of the array; a placeholder has no children. -/
theorem declare_shape (p : ParserPrivate) (e : QMXmlAdaptorElement)
    (info : ActionObjectInfoMessage) (type : MessageType) (seq : String) (d : Declared)
    (h : p.declare e info type seq = .ok d) :
    (∀ p2, d = Declared.finished p2 →
      ∃ entry, p2.result.layouts = p.result.layouts ++ [entry] ∧
        (entry.childIndexes = [] ∨
          ∃ (j : Nat) (old : ActionLayoutEntryMessage),
            p.result.layouts[j]? = some old ∧ entry.childIndexes = old.childIndexes)) ∧
    (∀ p2, d = Declared.placeholder p2 →
      ∃ entry, p2.result.layouts = p.result.layouts ++ [entry] ∧ entry.childIndexes = []) := by
  unfold declare at h
  split at h
  · cases h
    refine ⟨fun _ hd => ?_, fun _ hd => ?_⟩ <;> cases hd
    exact ⟨⟨info.id, type, []⟩, rfl, rfl⟩
  · split at h
    · split at h
      · split at h
        · cases h
          refine ⟨fun _ hd => ?_, fun _ hd => ?_⟩ <;> cases hd
          exact ⟨⟨info.id, type, []⟩, rfl, Or.inl rfl⟩
        · cases h
      · cases h
        refine ⟨fun _ hd => ?_, fun _ hd => ?_⟩ <;> cases hd
        exact ⟨⟨info.id, type, []⟩, rfl, rfl⟩
    · split at h
      · cases h
      · rename_i entry hentry
        cases h
        refine ⟨fun _ hd => ?_, fun _ hd => ?_⟩ <;> cases hd
        exact ⟨{ entry with type := type }, rfl, Or.inr ⟨_, entry, hentry, rfl⟩⟩

/-- The entry appended by a successful `enter`. -/
theorem enter_shape (fuel : Nat) (p : ParserPrivate) (e : QMXmlAdaptorElement)
    (categories path : List String) (d : Entered)
    (h : parseLayoutRecursively.enter fuel p e categories path = .ok d) :
    (∀ idx p2, d = Entered.finished idx p2 →
      idx = p.result.layouts.length ∧
      ∃ entry, p2.result.layouts = p.result.layouts ++ [entry] ∧
        (entry.childIndexes = [] ∨
          ∃ (j : Nat) (old : ActionLayoutEntryMessage),
            p.result.layouts[j]? = some old ∧ entry.childIndexes = old.childIndexes)) ∧
    (∀ info p2, d = Entered.descend info p2 →
      ∃ entry, p2.result.layouts = p.result.layouts ++ [entry] ∧ entry.childIndexes = []) := by
  unfold parseLayoutRecursively.enter at h
  split at h
  · split at h
    · cases h
    · cases h
      refine ⟨fun _ _ hd => ?_, fun _ _ hd => ?_⟩ <;> cases hd
      exact ⟨rfl, ⟨"", MessageType.Separator, []⟩, rfl, Or.inl rfl⟩
  · split at h
    · split at h
      · cases h
      · cases h
        refine ⟨fun _ _ hd => ?_, fun _ _ hd => ?_⟩ <;> cases hd
        exact ⟨rfl, ⟨"", MessageType.Stretch, []⟩, rfl, Or.inl rfl⟩
    · cases hf : p.findOrInsertObjectInfo fuel e categories with
      | error f => simp [hf] at h
      | ok r =>
        obtain ⟨info, p1⟩ := r
        simp only [hf] at h
        obtain ⟨_, _, _, hr1⟩ := findOrInsertObjectInfo_frame fuel p p1 _ categories info hf
        split at h
        · cases h
        · split at h
          · split at h
            · cases h
            · cases h
              refine ⟨fun _ _ hd => ?_, fun _ _ hd => ?_⟩ <;> cases hd
              exact ⟨rfl, ⟨info.id, MessageType.Action, []⟩,
                by simp only [appendEntry, hr1], Or.inl rfl⟩
          · cases ht : p1.entryType fuel e info with
            | error f => simp [ht] at h
            | ok type =>
              simp only [ht] at h
              cases hs : p1.sequenceKey fuel e ((p1.objSeqMap.lookup info.id).getD []) with
              | error f => simp [hs] at h
              | ok seq =>
                simp only [hs] at h
                cases hdc : p1.declare e info type seq with
                | error f => simp [hdc] at h
                | ok dd =>
                  obtain ⟨hfin, hph⟩ := declare_shape p1 e info type seq dd hdc
                  rw [hr1] at hfin hph
                  cases dd with
                  | finished p3 =>
                    simp only [hdc] at h
                    cases h
                    refine ⟨fun _ _ hd => ?_, fun _ _ hd => ?_⟩ <;> cases hd
                    exact ⟨rfl, hfin _ rfl⟩
                  | placeholder p3 =>
                    simp only [hdc] at h
                    split at h
                    · cases h
                      refine ⟨fun _ _ hd => ?_, fun _ _ hd => ?_⟩ <;> cases hd
                      obtain ⟨entry, hl, hc⟩ := hph _ rfl
                      exact ⟨rfl, entry, hl, Or.inl hc⟩
                    · cases h
                      refine ⟨fun _ _ hd => ?_, fun _ _ hd => ?_⟩ <;> cases hd
                      exact hph _ rfl

theorem length_append_singleton_lt {α : Type} (l : List α) (a : α) :
    l.length < (l ++ [a]).length := by
  simp

mutual

/-- A successful `parseLayoutRecursively` returns the index of the first entry it appends and
is a step of the arena. -/
theorem parseLayoutRecursively_arena (fuel : Nat) :
    ∀ (e : QMXmlAdaptorElement) (p : ParserPrivate) (categories path : List String) (idx : Nat)
      (p' : ParserPrivate),
      parseLayoutRecursively fuel e p categories path = .ok (idx, p') →
      idx = p.result.layouts.length ∧ p.result.layouts.length < p'.result.layouts.length ∧
        ArenaStep p.result.layouts p'.result.layouts
  | .mk name properties value children, p, categories, path, idx, p', h => by
    simp only [parseLayoutRecursively] at h
    cases he : parseLayoutRecursively.enter fuel p (.mk name properties value children)
        categories path with
    | error f => simp [he] at h
    | ok d =>
      obtain ⟨hfin, hdesc⟩ := enter_shape fuel p _ categories path d he
      cases d with
      | finished idx2 p2 =>
        simp only [he, Except.ok.injEq, Prod.mk.injEq] at h
        obtain ⟨rfl, rfl⟩ := h
        obtain ⟨hidx, entry, hl, hc⟩ := hfin _ _ rfl
        rw [hl]
        exact ⟨hidx, length_append_singleton_lt _ _, ArenaStep.append_entry _ entry hc⟩
      | descend info p2 =>
        simp only [he] at h
        obtain ⟨entry, hl2, hc2⟩ := hdesc info p2 rfl
        cases hch : parseLayoutRecursively.parseChildren fuel children p2 info.categories
            (path ++ [info.id]) with
        | error f => simp [hch] at h
        | ok r3 =>
          obtain ⟨childIndexes, p3⟩ := r3
          simp only [hch, Except.ok.injEq, Prod.mk.injEq] at h
          obtain ⟨rfl, rfl⟩ := h
          obtain ⟨hstep3, hidxs⟩ := parseChildren_arena fuel children p2
            info.categories (path ++ [info.id]) childIndexes p3 hch
          rw [hl2] at hstep3 hidxs
          have hlen3 := hstep3.length_le
          simp only [List.length_append, List.length_singleton] at hlen3 hidxs
          refine ⟨rfl, ?_, ?_⟩
          · simp only [setChildIndexes, List.length_modify]
            omega
          · exact ArenaStep.with_children p.result.layouts p3.result.layouts entry childIndexes
              hc2 hstep3 hidxs

theorem parseChildren_arena (fuel : Nat) :
    ∀ (cs : List QMXmlAdaptorElement) (p : ParserPrivate) (categories path : List String)
      (idxs : List Nat) (p' : ParserPrivate),
      parseLayoutRecursively.parseChildren fuel cs p categories path = .ok (idxs, p') →
      ArenaStep p.result.layouts p'.result.layouts ∧
        ∀ c ∈ idxs, p.result.layouts.length ≤ c ∧ c < p'.result.layouts.length
  | [], p, categories, path, idxs, p', h => by
    simp only [parseLayoutRecursively.parseChildren, Except.ok.injEq, Prod.mk.injEq] at h
    obtain ⟨rfl, rfl⟩ := h
    exact ⟨ArenaStep.step_refl _, fun c hc => by cases hc⟩
  | c :: cs, p, categories, path, idxs, p', h => by
    simp only [parseLayoutRecursively.parseChildren] at h
    cases hc : parseLayoutRecursively fuel c p categories path with
    | error f => simp [hc] at h
    | ok r =>
      obtain ⟨idx, p1⟩ := r
      simp only [hc] at h
      obtain ⟨hidx, hlt, hstep1⟩ := parseLayoutRecursively_arena fuel c p categories path idx p1
        hc
      cases hcs : parseLayoutRecursively.parseChildren fuel cs p1 categories path with
      | error f => simp [hcs] at h
      | ok r2 =>
        obtain ⟨idxs2, p2⟩ := r2
        simp only [hcs, Except.ok.injEq, Prod.mk.injEq] at h
        obtain ⟨rfl, rfl⟩ := h
        obtain ⟨hstep2, hidxs2⟩ := parseChildren_arena fuel cs p1 categories path idxs2 p2 hcs
        have hle2 := hstep2.length_le
        refine ⟨hstep1.step_trans hstep2, ?_⟩
        intro x hx
        rcases List.mem_cons.mp hx with rfl | hx2
        · omega
        · have := hidxs2 x hx2
          omega

end

end Aec
namespace Aec
open Core (QMXmlAdaptorElement)
open ParserPrivate

/-- The loop "Parse layouts" is a step of the arena and appends valid root indexes. -/
theorem parseLayouts_arena (fuel : Nat) (items : List QMXmlAdaptorElement) :
    ∀ (p p' : ParserPrivate), parseLayouts fuel items p = .ok p' →
      ArenaStep p.result.layouts p'.result.layouts ∧
      ((∀ r ∈ p.result.layoutRootIndexes, r < p.result.layouts.length) →
        ∀ r ∈ p'.result.layoutRootIndexes, r < p'.result.layouts.length) := by
  induction items with
  | nil =>
    intro p p' h
    simp only [parseLayouts, Except.ok.injEq] at h
    subst h
    exact ⟨ArenaStep.step_refl _, fun h => h⟩
  | cons item rest ih =>
    intro p p' h
    simp only [parseLayouts] at h
    cases h0 : parseLayoutRecursively fuel item p p.defaultCategory [] with
    | error f => simp [h0] at h
    | ok r =>
      obtain ⟨idx, p1⟩ := r
      simp only [h0] at h
      obtain ⟨hidx, hlt, hstep⟩ := parseLayoutRecursively_arena fuel item p _ _ idx p1 h0
      obtain ⟨_, _, hs⟩ := parseLayoutRecursively_frame fuel item p _ _ idx p1 h0
      obtain ⟨hstep2, hroots⟩ := ih _ _ h
      refine ⟨hstep.step_trans hstep2, ?_⟩
      intro hold
      apply hroots
      intro r hr
      simp only [List.mem_append, List.mem_singleton, hs.layoutRootIndexes] at hr
      rcases hr with hr | rfl
      · exact Nat.lt_trans (hold r hr) hlt
      · rw [hidx]
        exact hlt

/-- The entry made by `parseRoutine.item` has no children or the children of an entry of the
array. -/
theorem parseRoutine_item_shape (fuel : Nat) (p p1 : ParserPrivate) (e : QMXmlAdaptorElement)
    (entry : ActionLayoutEntryMessage) (h : parseRoutine.item fuel p e = .ok (entry, p1)) :
    entry.childIndexes = [] ∨
      ∃ (j : Nat) (old : ActionLayoutEntryMessage),
        p.result.layouts[j]? = some old ∧ entry.childIndexes = old.childIndexes := by
  unfold parseRoutine.item at h
  split at h
  · cases h
    exact Or.inl rfl
  · split at h
    · cases h
      exact Or.inl rfl
    · cases hf : p.findOrInsertObjectInfo fuel e p.defaultCategory with
      | error f => simp [hf] at h
      | ok r =>
        obtain ⟨info, p2⟩ := r
        obtain ⟨_, _, _, hr⟩ := findOrInsertObjectInfo_frame fuel p p2 e _ info hf
        simp only [hf] at h
        rw [hr] at h
        split at h
        · cases h
        · cases ht : p2.entryType fuel e info with
          | error f => simp [ht] at h
          | ok type =>
            simp only [ht] at h
            split at h
            · cases h
              exact Or.inl rfl
            · split at h
              · split at h
                · cases h
                · rename_i old hold
                  cases h
                  exact Or.inr ⟨_, old, hold, rfl⟩
              · split at h
                · cases h
                · split at h
                  · cases h
                    exact Or.inl rfl
                  · split at h
                    · cases h
                    · rename_i old hold
                      cases h
                      exact Or.inr ⟨_, old, hold, rfl⟩

/-- The loop over the items of a routine is a step of the arena and returns valid indexes. -/
theorem parseRoutine_items_arena (fuel : Nat) (items : List QMXmlAdaptorElement) :
    ∀ (p p' : ParserPrivate) (acc idxs : List Nat),
      parseRoutine.items fuel items p acc = .ok (idxs, p') →
      ArenaStep p.result.layouts p'.result.layouts ∧
      ((∀ k ∈ acc, k < p.result.layouts.length) → ∀ k ∈ idxs, k < p'.result.layouts.length) := by
  induction items with
  | nil =>
    intro p p' acc idxs h
    simp only [parseRoutine.items, Except.ok.injEq, Prod.mk.injEq] at h
    obtain ⟨rfl, rfl⟩ := h
    exact ⟨ArenaStep.step_refl _, fun h => h⟩
  | cons item rest ih =>
    intro p p' acc idxs h
    simp only [parseRoutine.items] at h
    cases hi : parseRoutine.item fuel p item with
    | error f => simp [hi] at h
    | ok r =>
      obtain ⟨entry, p1⟩ := r
      simp only [hi] at h
      obtain ⟨_, _, _, hr⟩ := parseRoutine_item_frame fuel p p1 item entry hi
      have hshape := parseRoutine_item_shape fuel p p1 item entry hi
      obtain ⟨hstep2, hidx⟩ := ih _ _ _ _ h
      have hl : (p1.appendEntry entry).result.layouts = p.result.layouts ++ [entry] := by
        simp only [appendEntry, hr]
      rw [hl] at hstep2 hidx
      refine ⟨(ArenaStep.append_entry _ entry hshape).step_trans hstep2, ?_⟩
      intro hacc
      apply hidx
      intro k hk
      simp only [List.length_append, List.length_singleton]
      rcases List.mem_append.mp hk with hk | hk
      · have := hacc k hk
        omega
      · simp only [List.mem_singleton] at hk
        omega

/-- A successful `parseRoutine` is a step of the arena and returns valid entry indexes. -/
theorem parseRoutine_arena (fuel : Nat) (p p1 : ParserPrivate) (root : QMXmlAdaptorElement)
    (r : ActionBuildRoutineMessage) (h : p.parseRoutine fuel root = .ok (r, p1)) :
    ArenaStep p.result.layouts p1.result.layouts ∧
      ∀ k ∈ r.entryIndexes, k < p1.result.layouts.length := by
  unfold parseRoutine at h
  repeat' split at h
  all_goals
    cases h
    try (rename_i hi
         obtain ⟨hstep, hidx⟩ := parseRoutine_items_arena fuel _ _ _ _ _ hi
         exact ⟨hstep, hidx (fun k hk => by cases hk)⟩)

/-- The loop "Parse build routines" is a step of the arena and appends build routines with
valid entry indexes. -/
theorem parseRoutines_arena (fuel : Nat) (items : List QMXmlAdaptorElement) :
    ∀ (p p' : ParserPrivate), parseRoutines fuel items p = .ok p' →
      ArenaStep p.result.layouts p'.result.layouts ∧
      p'.result.layoutRootIndexes = p.result.layoutRootIndexes ∧
      ((∀ r ∈ p.result.buildRoutines, ∀ k ∈ r.entryIndexes, k < p.result.layouts.length) →
        ∀ r ∈ p'.result.buildRoutines, ∀ k ∈ r.entryIndexes, k < p'.result.layouts.length) := by
  induction items with
  | nil =>
    intro p p' h
    simp only [parseRoutines, Except.ok.injEq] at h
    subst h
    exact ⟨ArenaStep.step_refl _, rfl, fun h => h⟩
  | cons item rest ih =>
    intro p p' h
    simp only [parseRoutines] at h
    cases hr : p.parseRoutine fuel item with
    | error f => simp [hr] at h
    | ok res =>
      obtain ⟨entity, p1⟩ := res
      simp only [hr] at h
      obtain ⟨hstep1, hidx1⟩ := parseRoutine_arena fuel p p1 item entity hr
      obtain ⟨_, _, _, hs⟩ := parseRoutine_spec fuel p p1 item entity hr
      obtain ⟨hstep2, hroots2, hall2⟩ := ih _ _ h
      refine ⟨hstep1.step_trans hstep2, hroots2.trans hs.layoutRootIndexes, ?_⟩
      intro hold
      apply hall2
      intro r hrm k hk
      simp only [List.mem_append, List.mem_singleton, hs.buildRoutines] at hrm
      rcases hrm with hrm | rfl
      · exact Nat.lt_of_lt_of_le (hold r hrm k hk) hstep1.length_le
      · exact hidx1 k hk

theorem ValidArena.of_nil : ValidArena [] := by
  rintro x ⟨i, e, hi, _⟩
  simp at hi

theorem Ranked.at_nil : Ranked [] (fun _ => 0) := by
  intro i e hi
  simp at hi

/-- A ranking excludes that an entry is reached from itself. -/
theorem Ranked.descendant_lt {layouts : List ActionLayoutEntryMessage} {h : Nat → Nat}
    (hr : Ranked layouts h) {i j : Nat} (hd : Descendant layouts i j) : h j < h i := by
  induction hd with
  | child he hc => exact hr _ _ he _ hc
  | deeper he hc _ ih => exact Nat.lt_trans ih (hr _ _ he _ hc)

/-- The array of a compiled record: its child indexes, its root indexes and the entry indexes
of its build routines are valid, and it has a ranking. -/
theorem parse_arena (fuel : Nat) (vars : List (String × String)) (hash : String)
    (root : QMXmlAdaptorElement) (record : ActionExtensionMessage)
    (h : Parser.parse fuel vars hash (some root) = .ok record) :
    ValidArena record.layouts ∧ (∃ rank, Ranked record.layouts rank) ∧
      (∀ r ∈ record.layoutRootIndexes, r < record.layouts.length) ∧
      (∀ r ∈ record.buildRoutines, ∀ k ∈ r.entryIndexes, k < record.layouts.length) := by
  simp only [Parser.parse, ParserPrivate.parse] at h
  split at h
  · cases h
  · cases hc : ParserPrivate.collected fuel vars root with
    | error f => simp [hc] at h
    | ok r =>
      obtain ⟨col, p0⟩ := r
      simp only [hc] at h
      have hres : p0.result = ⟨"", "", [], [], [], []⟩ := collect_result fuel _ _ _ _ _ hc
      cases ho : parseObjects fuel col.objElements
          { p0 with result := { p0.result with version := col.version, hash := hash } } with
      | error f => simp [ho] at h
      | ok p1 =>
        simp only [ho] at h
        obtain ⟨_, _, _, hr1⟩ := parseObjects_frame fuel _ _ _ ho
        have hl1 : p1.result.layouts = [] := by rw [hr1]; simp only [hres]
        have hroot1 : p1.result.layoutRootIndexes = [] := by rw [hr1]; simp only [hres]
        have hb1 : p1.result.buildRoutines = [] := by rw [hr1]; simp only [hres]
        cases hl : parseLayouts fuel col.layoutElements p1 with
        | error f => simp [hl] at h
        | ok p2 =>
          simp only [hl] at h
          obtain ⟨hstep2, hroots2⟩ := parseLayouts_arena fuel _ _ _ hl
          obtain ⟨_, _, hb2, _, _⟩ := parseLayouts_frame fuel _ _ _ hl
          cases hrt : parseRoutines fuel col.routineElements p2 with
          | error f => simp [hrt] at h
          | ok p3 =>
            simp only [hrt, Except.ok.injEq] at h
            subst h
            obtain ⟨hstep3, hroots3, hall3⟩ := parseRoutines_arena fuel _ _ _ hrt
            have hstep : ArenaStep [] p3.result.layouts := by
              rw [← hl1]
              exact hstep2.step_trans hstep3
            refine ⟨hstep.valid ValidArena.of_nil, hstep.rank ValidArena.of_nil ⟨_, Ranked.at_nil⟩, ?_,
              ?_⟩
            · intro r hr
              simp only [hroots3] at hr
              exact Nat.lt_of_lt_of_le
                (hroots2 (by rw [hroot1]; intro r hr; cases hr) r hr) hstep3.length_le
            · exact hall3 (by rw [hb2, hb1]; intro r hr; cases hr)

end Aec
namespace Aec
open Core (QMXmlAdaptorElement)
open ParserPrivate

/-- C24: in every compiled record every child index of every layout entry, every layout root
index and every entry index of a build routine is a valid index into the array of layout
entries, no entry is reached from itself by following child indexes, and the entries have a
ranking that decreases along child indexes, so a traversal from any entry terminates. -/
theorem flattened_arena_well_formed (fuel : Nat) (vars : List (String × String)) (hash : String)
    (root : QMXmlAdaptorElement) (record : ActionExtensionMessage)
    (h : Parser.parse fuel vars hash (some root) = .ok record) :
    (∀ (i : Nat) (entry : ActionLayoutEntryMessage), record.layouts[i]? = some entry →
      ∀ c ∈ entry.childIndexes, c < record.layouts.length) ∧
    (∀ r ∈ record.layoutRootIndexes, r < record.layouts.length) ∧
    (∀ r ∈ record.buildRoutines, ∀ k ∈ r.entryIndexes, k < record.layouts.length) ∧
    (∀ i, ¬ Descendant record.layouts i i) ∧
    (∃ rank : Nat → Nat, ∀ i j, Descendant record.layouts i j → rank j < rank i) := by
  obtain ⟨hvalid, ⟨rank, hrank⟩, hroots, hroutines⟩ := parse_arena fuel vars hash root record h
  refine ⟨fun i entry hi c hc => hvalid c ⟨i, entry, hi, hc⟩, hroots, hroutines, ?_,
    ⟨rank, fun i j hd => hrank.descendant_lt hd⟩⟩
  intro i hd
  exact Nat.lt_irrefl _ (hrank.descendant_lt hd)

/-- Witness of C24: the descriptor `plainChain` compiles to a record with a copied entry, and
the record is a well-formed arena. -/
theorem flattened_arena_well_formed_witness :
    Parser.parse 1 [] "h" (some Examples.plainChain) = .ok Examples.plainChainRecord ∧
    (∀ (i : Nat) (entry : ActionLayoutEntryMessage),
      Examples.plainChainRecord.layouts[i]? = some entry →
      ∀ c ∈ entry.childIndexes, c < Examples.plainChainRecord.layouts.length) ∧
    (∀ i, ¬ Descendant Examples.plainChainRecord.layouts i i) :=
  have h : Parser.parse 1 [] "h" (some Examples.plainChain) = .ok Examples.plainChainRecord :=
    Except.ok_of_toOption (by decide!)
  ⟨h, (flattened_arena_well_formed 1 [] "h" _ _ h).1,
    (flattened_arena_well_formed 1 [] "h" _ _ h).2.2.2.1⟩

end Aec
namespace Core
open ActionDomain ActionDomainPrivate

theorem QHash.lookup_insert {β : Type} (m : List (String × β)) (key : String) (v : β)
    (k : String) : (QHash.insert m key v).lookup k = if k = key then some v else m.lookup k :=
  Aec.QHash.lookup_after_set m key v k

theorem IconMap.find_set (m : IconMap) (theme id path : String) :
    (IconMap.set m theme id path).find theme id = some path := by
  simp only [IconMap.find, IconMap.set, QHash.lookup_insert, if_true, Option.getD_some]

theorem IconMap.path_eq_of_find (m : IconMap) (theme id path : String)
    (h : m.find theme id = some path) : m.path theme id = path := by
  simp only [IconMap.find] at h
  simp only [IconMap.path, h, Option.getD_some]

theorem flushIcons_changes_append (fs : IconFiles) (c : List String × IconChange) :
    ∀ (l : List (List String × IconChange)) (s : IconStorage),
      flushIcons.changes fs (l ++ [c]) s =
        (flushIcons.changes fs l s).bind (fun s1 => flushIcons.change fs s1 c.2) := by
  intro l
  induction l with
  | nil =>
    intro s
    simp only [List.nil_append, flushIcons.changes, Option.some_bind]
    cases flushIcons.change fs s c.2 <;> rfl
  | cons a l ih =>
    intro s
    simp only [List.cons_append, flushIcons.changes]
    cases flushIcons.change fs s a.2 with
    | none => rfl
    | some s1 => exact ih s1

/-- The loop over the changes returns when every configuration parser call returns. -/
theorem flushIcons_changes_total (fs : IconFiles) (hparse : ∀ f, fs.parse f ≠ none) :
    ∀ (l : List (List String × IconChange)) (s : IconStorage),
      ∃ s1, flushIcons.changes fs l s = some s1 := by
  intro l
  induction l with
  | nil => intro s; exact ⟨s, rfl⟩
  | cons a l ih =>
    intro s
    simp only [flushIcons.changes]
    have hc : ∃ s1, flushIcons.change fs s a.2 = some s1 := by
      cases a.2 with
      | single theme id fileName remove =>
        simp only [flushIcons.change]
        repeat' split
        all_goals exact ⟨_, rfl⟩
      | config fileName remove =>
        simp only [flushIcons.change]
        cases hp : fs.parse fileName with
        | none => exact absurd hp (hparse fileName)
        | some m =>
          simp only
          repeat' split
          all_goals exact ⟨_, rfl⟩
    obtain ⟨s1, h1⟩ := hc
    rw [h1]
    exact ih s1

/-- The single icon that the part "Build map" handles last is in the table, with the path that
`singles` holds for it. -/
theorem build_last_single (s : IconStorage) (l : List (List String)) (theme id : String)
    (h : s.items = l ++ [[theme, id]]) :
    (flushIcons.build s).find theme id = some (s.singles.path theme id) := by
  simp only [flushIcons.build, h, List.foldl_append, List.foldl_cons, List.foldl_nil]
  exact IconMap.find_set _ _ _ _

theorem lookup_filter_ne {β : Type} (m : List (String × β)) (key : String) :
    (m.filter (fun e => e.1 ≠ key)).lookup key = none := by
  induction m with
  | nil => rfl
  | cons a m ih =>
    obtain ⟨k, v⟩ := a
    by_cases hk : k = key
    · rw [List.filter_cons_of_neg (by simp [hk])]
      exact ih
    · rw [List.filter_cons_of_pos (by simp [hk]), lookup_cons_ite, if_neg (fun h => hk h.symm)]
      exact ih

/-- After the change of an accepted `addIcon` the single icon is in `singles` with the canonical
path and is the last of `items`. -/
theorem change_add (fs : IconFiles) (s s1 : IconStorage) (theme id fileName : String)
    (hfile : fs.isFile fileName = true)
    (h : flushIcons.change fs s (IconChange.single theme id fileName false) = some s1) :
    s1.singles.find theme id = some (fs.canonicalFilePath fileName) ∧
      ∃ l, s1.items = l ++ [[theme, id]] := by
  simp only [flushIcons.change, Bool.false_eq_true, if_false, hfile, if_true,
    Option.some.injEq] at h
  subst h
  exact ⟨IconMap.find_set _ _ _ _, ⟨_, rfl⟩⟩

/-- After the change of a `removeIcon` the single icon is not in `singles`. -/
theorem change_remove (fs : IconFiles) (s s1 : IconStorage) (theme id fileName : String)
    (h : flushIcons.change fs s (IconChange.single theme id fileName true) = some s1) :
    s1.singles.find theme id = none := by
  simp only [flushIcons.change, if_true] at h
  cases hl : List.lookup theme s.singles with
  | none =>
    simp only [hl, Option.some.injEq] at h
    subst h
    simp only [IconMap.find, hl, Option.getD_none, List.lookup_nil]
  | some map0 =>
    simp only [hl] at h
    split at h
    · simp only [Option.some.injEq] at h
      subst h
      simp only [IconMap.find]
      split
      · rw [lookup_filter_ne]
        rfl
      · simp only [QHash.lookup_insert, if_true, Option.getD_some]
        exact lookup_filter_ne _ _
    · rename_i hnone
      simp only [Option.some.injEq] at h
      subst h
      simp only [IconMap.find, hl, Option.getD_some]
      cases hx : map0.lookup id with
      | none => rfl
      | some x => simp [hx] at hnone

end Core
namespace Core
open ActionDomain ActionDomainPrivate

theorem lastAccepted_snoc (fs : IconFiles) (calls : List IconCall) (c : IconCall) :
    lastAccepted fs (calls ++ [c]) =
      if c.accepted fs = true then some c else lastAccepted fs calls := by
  unfold lastAccepted
  rw [List.filter_append]
  by_cases h : c.accepted fs = true
  · simp [h, List.filter_cons]
  · simp [h, List.filter_cons]

theorem runIconCalls_snoc (fs : IconFiles) (theme id : String) (calls : List IconCall)
    (c : IconCall) (d : Icons) :
    runIconCalls fs theme id (calls ++ [c]) d =
      IconCall.run fs theme id (runIconCalls fs theme id calls d) c := by
  simp [runIconCalls, List.foldl_append]

theorem IconCall.run_accepted (fs : IconFiles) (theme id : String) (d : Icons) (c : IconCall)
    (h : c.accepted fs = true) :
    IconCall.run fs theme id d c =
      { d with changes := IconChange.replace d.changes [theme, id] (c.change theme id) } := by
  cases c with
  | add fileName =>
    simp only [IconCall.accepted] at h
    simp only [IconCall.run, addIcon, h, not_true_eq_false, if_false, IconCall.change]
  | remove => rfl

theorem IconCall.run_rejected (fs : IconFiles) (theme id : String) (d : Icons) (c : IconCall)
    (h : ¬ c.accepted fs = true) : IconCall.run fs theme id d c = d := by
  cases c with
  | add fileName =>
    simp only [IconCall.accepted] at h
    simp only [IconCall.run, addIcon]
    rw [if_pos h]
  | remove => simp [IconCall.accepted] at h

/-- The change log after a sequence of calls for one key: the entries of the other keys, in
their order, followed by the entry of the last accepted call; the storage is untouched. -/
theorem runIconCalls_changes (fs : IconFiles) (theme id : String) (d : Icons) :
    ∀ (calls : List IconCall),
      (runIconCalls fs theme id calls d).iconStorage = d.iconStorage ∧
      (lastAccepted fs calls = none → (runIconCalls fs theme id calls d).changes = d.changes) ∧
      (∀ call, lastAccepted fs calls = some call →
        (runIconCalls fs theme id calls d).changes =
          d.changes.filter (fun c => c.1 ≠ [theme, id]) ++
            [([theme, id], call.change theme id)]) := by
  intro calls
  induction calls using List.reverseRecOn with
  | nil =>
    refine ⟨rfl, fun _ => rfl, ?_⟩
    intro call h
    simp [lastAccepted] at h
  | append_singleton l c ih =>
    obtain ⟨hs, hnone, hsome⟩ := ih
    rw [runIconCalls_snoc, lastAccepted_snoc]
    by_cases hacc : c.accepted fs = true
    · rw [IconCall.run_accepted fs theme id _ c hacc]
      simp only [hacc, if_true]
      refine ⟨hs, fun h => (by cases h), ?_⟩
      intro call hcall
      cases hcall
      simp only [IconChange.replace]
      congr 1
      cases hl : lastAccepted fs l with
      | none => rw [hnone hl]
      | some prev =>
        rw [hsome prev hl, List.filter_append, List.filter_filter]
        simp
    · rw [IconCall.run_rejected fs theme id _ c hacc]
      simp only [hacc, if_false]
      exact ⟨hs, hnone, hsome⟩

theorem filter_key_of_shape (l : List (List String × IconChange)) (key : List String)
    (item : IconChange) :
    (l.filter (fun c => c.1 ≠ key) ++ [(key, item)]).filter (fun c => c.1 = key) =
      [(key, item)] := by
  rw [List.filter_append, List.filter_filter]
  have h1 : l.filter (fun c => (decide (c.1 = key) && decide (c.1 ≠ key))) = [] := by
    apply List.filter_eq_nil_iff.mpr
    intro a _
    by_cases h : a.1 = key <;> simp [h]
  rw [h1]
  simp

/-- C29: buffered registration of a single icon is last-write-wins per key. For every state and
every sequence of calls of `addIcon` and `removeIcon` for one theme and id: (1) the change log
holds exactly one entry for the key, that of the last accepted call; (2) `addIcon` with a name
that is no file changes nothing; (3) when the next read returns, the icon table maps the key to
the canonical path of the last accepted call if that was an `addIcon`, and the single icons have
no entry for the key if it was a `removeIcon`; the log is empty afterwards; (4) the read returns
whenever every configuration parser call returns. -/
theorem single_icon_last_write_wins (fs : IconFiles) (theme id : String)
    (calls : List IconCall) (d : Icons) :
    (∀ call, lastAccepted fs calls = some call →
      (runIconCalls fs theme id calls d).changes.filter (fun c => c.1 = [theme, id]) =
        [([theme, id], call.change theme id)]) ∧
    (∀ fileName, fs.isFile fileName = false → addIcon fs d theme id fileName = d) ∧
    (∀ d1, flushIcons fs (runIconCalls fs theme id calls d) = some d1 →
      (∀ fileName, lastAccepted fs calls = some (IconCall.add fileName) →
        d1.iconStorage.storage.find theme id = some (fs.canonicalFilePath fileName) ∧
          d1.changes = []) ∧
      (lastAccepted fs calls = some IconCall.remove →
        d1.iconStorage.singles.find theme id = none ∧ d1.changes = [])) ∧
    ((∀ f, fs.parse f ≠ none) →
      ∃ d1, flushIcons fs (runIconCalls fs theme id calls d) = some d1) := by
  obtain ⟨hs, hnone, hsome⟩ := runIconCalls_changes fs theme id d calls
  refine ⟨?_, ?_, ?_, ?_⟩
  · intro call hcall
    rw [hsome call hcall]
    exact filter_key_of_shape _ _ _
  · intro fileName hfile
    simp [addIcon, hfile]
  · intro d1 hflush
    have key : ∀ call, lastAccepted fs calls = some call →
        ∃ s s1, flushIcons.change fs s (call.change theme id) = some s1 ∧
          d1 = { changes := [], iconStorage := { s1 with storage := flushIcons.build s1 } } := by
      intro call hcall
      unfold flushIcons at hflush
      rw [hsome call hcall] at hflush
      generalize d.changes.filter (fun c => c.1 ≠ [theme, id]) = others at hflush
      have hne : (others ++ [([theme, id], call.change theme id)]).isEmpty = false := by
        cases others <;> rfl
      rw [hne, flushIcons_changes_append] at hflush
      simp only [Bool.false_eq_true, if_false] at hflush
      cases h1 : flushIcons.changes fs others
          (runIconCalls fs theme id calls d).iconStorage with
      | none =>
        rw [h1] at hflush
        cases hflush
      | some s =>
        rw [h1] at hflush
        simp only [Option.some_bind] at hflush
        cases h2 : flushIcons.change fs s (call.change theme id) with
        | none =>
          rw [h2] at hflush
          cases hflush
        | some s1 =>
          rw [h2] at hflush
          simp only [Option.some.injEq] at hflush
          exact ⟨s, s1, h2, hflush.symm⟩
    constructor
    · intro fileName hlast
      obtain ⟨s, s1, hchange, rfl⟩ := key _ hlast
      have hacc : fs.isFile fileName = true := by
        have hmem : IconCall.add fileName ∈ calls.filter (IconCall.accepted fs) :=
          List.mem_of_getLast?_eq_some hlast
        have := (List.mem_filter.mp hmem).2
        simpa [IconCall.accepted] using this
      obtain ⟨hfind, l, hitems⟩ := change_add fs s s1 theme id fileName hacc hchange
      refine ⟨?_, rfl⟩
      have hb := build_last_single s1 l theme id hitems
      rw [IconMap.path_eq_of_find _ _ _ _ hfind] at hb
      exact hb
    · intro hlast
      obtain ⟨s, s1, hchange, rfl⟩ := key _ hlast
      exact ⟨change_remove fs s s1 theme id "" hchange, rfl⟩
  · intro hparse
    unfold flushIcons
    split
    · exact ⟨_, rfl⟩
    · obtain ⟨s1, h1⟩ := flushIcons_changes_total fs hparse
        (runIconCalls fs theme id calls d).changes (runIconCalls fs theme id calls d).iconStorage
      rw [h1]
      exact ⟨_, rfl⟩

end Core
namespace Core
open ActionDomain ActionDomainPrivate

theorem iconDisk_parse (f : String) : Examples.iconDisk.parse f ≠ none := by
  simp only [Examples.iconDisk]
  split <;> simp

/-- Witness of C29: on a disk where `/icons/a.svg` and `/icons/b.svg` are files and `/tmp/none`
is not, the calls add a, remove, add b, add `/tmp/none` for the key `(dark, open)` leave the
call add b as the last accepted one, the read returns, and the table maps the key to
`/icons/b.svg`. -/
theorem single_icon_last_write_wins_witness :
    lastAccepted Examples.iconDisk
        [IconCall.add "/icons/a.svg", IconCall.remove, IconCall.add "/icons/b.svg",
          IconCall.add "/tmp/none"] = some (IconCall.add "/icons/b.svg") ∧
    ∃ d1, flushIcons Examples.iconDisk (runIconCalls Examples.iconDisk "dark" "open"
        [IconCall.add "/icons/a.svg", IconCall.remove, IconCall.add "/icons/b.svg",
          IconCall.add "/tmp/none"] Icons.init) = some d1 ∧
      d1.iconStorage.storage.find "dark" "open" = some "/icons/b.svg" := by
  have hlast : lastAccepted Examples.iconDisk
      [IconCall.add "/icons/a.svg", IconCall.remove, IconCall.add "/icons/b.svg",
        IconCall.add "/tmp/none"] = some (IconCall.add "/icons/b.svg") := by decide
  obtain ⟨_, _, hread, hret⟩ := single_icon_last_write_wins Examples.iconDisk "dark" "open"
    [IconCall.add "/icons/a.svg", IconCall.remove, IconCall.add "/icons/b.svg",
      IconCall.add "/tmp/none"] Icons.init
  obtain ⟨d1, hd1⟩ := hret iconDisk_parse
  exact ⟨hlast, d1, hd1, ((hread d1 hd1).1 _ hlast).1⟩

end Core
namespace Core
open ActionDomain ActionDomainPrivate

/-- C27: what `icon(theme, iconId)` returns. When the icon table holds a path for exactly
`(theme, iconId)`, the icon made of it is not null and the function returns the default
constructed icon, not the icon of that path; when the table holds none, it returns the icon of
the path stored for the id under the empty theme. On the disk `iconDisk`, after
`addIcon("dark", "open", "/icons/dark/open.svg")`, the table holds that path for `(dark, open)`
and `icon("dark", "open")` is the default constructed icon. -/
theorem themed_icon_is_dropped :
    (∀ (fs : IconFiles) (d d1 : Icons) (theme iconId : String),
      flushIcons fs d = some d1 → d1.iconStorage.storage.path theme iconId ≠ "" →
      icon fs d theme iconId = some (⟨""⟩, d1)) ∧
    (∀ (fs : IconFiles) (d d1 : Icons) (theme iconId : String),
      flushIcons fs d = some d1 → d1.iconStorage.storage.path theme iconId = "" →
      icon fs d theme iconId = some (⟨d1.iconStorage.storage.path "" iconId⟩, d1)) ∧
    (flushIcons Examples.iconDisk
        (addIcon Examples.iconDisk Icons.init "dark" "open" "/icons/dark/open.svg")).map
      (fun d1 => d1.iconStorage.storage.find "dark" "open") =
        some (some "/icons/dark/open.svg") ∧
    (icon Examples.iconDisk
        (addIcon Examples.iconDisk Icons.init "dark" "open" "/icons/dark/open.svg")
        "dark" "open").map Prod.fst = some ⟨""⟩ := by
  refine ⟨?_, ?_, by decide, by decide⟩
  · intro fs d d1 theme iconId hflush hpath
    simp only [icon, hflush, QIcon.isNull, decide_eq_true_eq, hpath, not_false_eq_true, if_true]
  · intro fs d d1 theme iconId hflush hpath
    simp only [icon, hflush, QIcon.isNull, decide_eq_true_eq, hpath, not_true_eq_false,
      if_false]

theorem QHash.mem_keys_insert {β : Type} (m : List (String × β)) (key : String) (v : β)
    (k : String) : k ∈ (QHash.insert m key v).map Prod.fst ↔ k ∈ m.map Prod.fst ∨ k = key := by
  rw [QHash.insert_keys]
  split
  · rename_i h
    constructor
    · exact Or.inl
    · rintro (h1 | rfl)
      · exact h1
      · exact h
  · simp

/-- The rebuild loop lists every theme of the map of a configuration file, also a theme without
icons, and keeps the themes listed before. -/
theorem merge_themes (configMap : IconMap) :
    ∀ (map : IconMap) (theme : String),
      theme ∈ (flushIcons.merge map configMap).map Prod.fst ↔
        theme ∈ map.map Prod.fst ∨ theme ∈ configMap.map Prod.fst := by
  induction configMap with
  | nil => intro map theme; simp [flushIcons.merge]
  | cons t rest ih =>
    intro map theme
    have h := ih (QHash.insert map t.1
      (t.2.foldl (fun target icon => QHash.insert target icon.1 icon.2)
        ((List.lookup t.1 map).getD []))) theme
    unfold flushIcons.merge at h ⊢
    rw [List.foldl_cons, h, QHash.mem_keys_insert, List.map_cons, List.mem_cons]
    tauto

/-- C28 (the code departs from the claim): the map parsed from a configuration file does not
reach the icon table. For every disk on which `f` is a file whose parse returns a non-empty map,
`addIconConfiguration(f)` on a fresh domain followed by a read leaves the file registered with
an empty map and the icon table empty, so `iconThemes()` is empty; the rebuild loop itself,
given the parsed map under the file, lists every theme of the map. With the parser of the
source, the file `/icons/empty.xml`, whose `icons` element names the theme `dark` and has no
child, parses to the non-empty map that holds the theme `dark`, and `iconThemes()` after
`addIconConfiguration` of the file returns no theme. -/
theorem configuration_icons_are_not_merged :
    (∀ (fs : IconFiles) (f : String) (parsed : IconMap) (d1 : Icons),
      fs.isFile f = true → fs.parse f = some parsed → parsed ≠ [] →
      flushIcons fs (addIconConfiguration fs Icons.init f) = some d1 →
      d1.iconStorage.storage = [] ∧ d1.iconStorage.configFiles = [(f, [])] ∧
        iconThemes fs (addIconConfiguration fs Icons.init f) = some ([], d1)) ∧
    (∀ (f : String) (parsed : IconMap) (theme : String), theme ∈ parsed.map Prod.fst →
      theme ∈ (flushIcons.build ⟨[], [(f, parsed)], [[f]], []⟩).map Prod.fst) ∧
    (∀ rounds, IconConfigParser.parse Examples.iconDocuments 2 rounds ⟨"/icons/empty.xml", []⟩ =
      some [("dark", [])]) ∧
    (∀ rounds, (iconThemes (Examples.iconDocuments.files (fun _ => true) id 2 rounds)
        (addIconConfiguration (Examples.iconDocuments.files (fun _ => true) id 2 rounds)
          Icons.init "/icons/empty.xml")).map Prod.fst = some []) := by
  have hparse : ∀ rounds,
      IconConfigParser.parse Examples.iconDocuments 2 rounds ⟨"/icons/empty.xml", []⟩ =
        some [("dark", [])] := by
    intro rounds
    cases rounds <;> rfl
  have hgen : ∀ (fs : IconFiles) (f : String) (parsed : IconMap) (d1 : Icons),
      fs.isFile f = true → fs.parse f = some parsed → parsed ≠ [] →
      flushIcons fs (addIconConfiguration fs Icons.init f) = some d1 →
      d1.iconStorage.storage = [] ∧ d1.iconStorage.configFiles = [(f, [])] ∧
        iconThemes fs (addIconConfiguration fs Icons.init f) = some ([], d1) := by
    intro fs f parsed d1 hfile hparse hne hflush
    have hempty : parsed.isEmpty = false := by
      cases parsed with
      | nil => exact absurd rfl hne
      | cons a t => rfl
    have hd1 : d1 = ⟨[], ⟨[], [(f, [])], [[f]], []⟩⟩ := by
      simp only [addIconConfiguration, hfile, not_true_eq_false, if_false, flushIcons,
        IconChange.replace, Icons.init, List.filter_nil, List.nil_append, List.isEmpty_cons,
        Bool.false_eq_true, flushIcons.changes, flushIcons.change, hparse, hempty,
        not_false_eq_true, if_true, Option.some.injEq] at hflush
      rw [← hflush]
      simp [QHash.insert, QSet.remove, flushIcons.build, flushIcons.merge, List.lookup]
    subst hd1
    refine ⟨rfl, rfl, ?_⟩
    simp only [iconThemes, hflush]
    rfl
  refine ⟨hgen, ?_, hparse, ?_⟩
  · intro f parsed theme hmem
    have hl : ([(f, parsed)] : List (String × IconMap)).lookup f = some parsed := by
      simp [List.lookup]
    simp only [flushIcons.build, List.foldl_cons, List.foldl_nil, hl, Option.getD_some]
    exact (merge_themes parsed [] theme).2 (Or.inr hmem)
  · intro rounds
    cases hf : flushIcons (Examples.iconDocuments.files (fun _ => true) id 2 rounds)
        (addIconConfiguration (Examples.iconDocuments.files (fun _ => true) id 2 rounds)
          Icons.init "/icons/empty.xml") with
    | none =>
      exfalso
      simp [addIconConfiguration, flushIcons, IconChange.replace, Icons.init,
        flushIcons.changes, flushIcons.change, IconDocuments.files, hparse rounds] at hf
    | some d1 =>
      have h := (hgen (Examples.iconDocuments.files (fun _ => true) id 2 rounds)
        "/icons/empty.xml" [("dark", [])] d1 rfl (hparse rounds) (List.cons_ne_nil _ _) hf).2.2
      rw [h]
      rfl

end Core
namespace Core
open ActionDomainPrivate

theorem lookup_filter_other {β : Type} (m : List (Widget × β)) (key k : Widget)
    (h : k ≠ key) : (m.filter (fun p => p.1 ≠ key)).lookup k = m.lookup k := by
  induction m with
  | nil => rfl
  | cons a m ih =>
    obtain ⟨k0, v0⟩ := a
    by_cases h0 : k0 = key
    · rw [List.filter_cons_of_neg (by simp [h0])]
      have hb : (k == k0) = false := by
        rw [h0]
        simpa using h
      simp only [List.lookup_cons, hb]
      exact ih
    · rw [List.filter_cons_of_pos (by simp [h0])]
      simp only [List.lookup_cons]
      cases k == k0 with
      | true => rfl
      | false => exact ih

theorem BuildState.lookup_put {β : Type} (m : List (Widget × β)) (key : Widget) (v : β)
    (k : Widget) :
    (BuildState.put m key v).lookup k = if k = key then some v else m.lookup k := by
  unfold BuildState.put
  by_cases h : k = key
  · subst h
    simp [List.lookup_cons]
  · have hb : (k == key) = false := by simpa using h
    simp only [List.lookup_cons, hb, h, if_false]
    exact lookup_filter_other m key k h

theorem noAdjacent_dropLast (entries : List MenuEntry) (h : NoAdjacentSeparators entries) :
    NoAdjacentSeparators entries.dropLast := by
  unfold NoAdjacentSeparators at h ⊢
  rw [List.dropLast_eq_take]
  exact h.take _

theorem noAdjacent_snoc (l : List MenuEntry) (a : MenuEntry) (h : NoAdjacentSeparators l)
    (ha : a ≠ MenuEntry.separator ∨ l.getLast? ≠ some MenuEntry.separator) :
    NoAdjacentSeparators (l ++ [a]) := by
  unfold NoAdjacentSeparators at h ⊢
  rw [List.chain'_append]
  refine ⟨h, List.chain'_singleton a, ?_⟩
  intro x hx y hy
  simp only [List.head?_cons, Option.mem_def, Option.some.injEq] at hy
  subst hy
  rintro ⟨rfl, rfl⟩
  rcases ha with ha | ha
  · exact ha rfl
  · exact ha hx

/-- Writing the actions and the last item of one control keeps the invariant when the new
actions obey it. -/
theorem BuildState.separatorsKept_put (st : BuildState) (w : Widget) (entries : List MenuEntry)
    (last : Nat) (h : st.SeparatorsKept) (hn : NoAdjacentSeparators entries)
    (hl : last = LastMenuItem.Action → entries.getLast? ≠ some MenuEntry.separator)
    (st1 : BuildState)
    (ha : st1.actions = BuildState.put st.actions w entries)
    (hm : st1.lastMenuItems = BuildState.put st.lastMenuItems w last) :
    st1.SeparatorsKept := by
  intro k
  by_cases hk : k = w
  · subst hk
    simp only [BuildState.actionsOf, BuildState.lastMenuItem, ha, hm, BuildState.lookup_put,
      if_true, Option.getD_some]
    exact ⟨hn, hl⟩
  · have := h k
    simp only [BuildState.actionsOf, BuildState.lastMenuItem, ha, hm, BuildState.lookup_put,
      hk, if_false] at this ⊢
    exact this

theorem BuildState.separatorsKept_of_eq (st st1 : BuildState) (h : st.SeparatorsKept)
    (ha : st1.actions = st.actions) (hm : st1.lastMenuItems = st.lastMenuItems) :
    st1.SeparatorsKept := by
  intro k
  have := h k
  simp only [BuildState.actionsOf, BuildState.lastMenuItem, ha, hm] at this ⊢
  exact this

theorem BuildState.separatorsKept_addAction (st : BuildState) (w : Widget) (a : MenuEntry)
    (h : st.SeparatorsKept) (ha : a ≠ MenuEntry.separator) :
    (st.addAction w a).SeparatorsKept := by
  refine BuildState.separatorsKept_put st w _ _ h
    (noAdjacent_snoc _ a (h w).1 (Or.inl ha)) ?_ _ rfl rfl
  intro _
  rw [List.getLast?_concat]
  intro hx
  cases hx
  exact ha rfl

theorem BuildState.separatorsKept_addSeparator (st : BuildState) (w : Widget)
    (h : st.SeparatorsKept) : (st.addSeparator w).SeparatorsKept := by
  unfold BuildState.addSeparator
  split
  · rename_i hlast
    refine BuildState.separatorsKept_put st w _ _ h
      (noAdjacent_snoc _ _ (h w).1 (Or.inr ((h w).2 hlast))) ?_ _ rfl rfl
    intro hx
    cases hx
  · exact h

theorem BuildState.separatorsKept_addStretch (st : BuildState) (w : Widget)
    (h : st.SeparatorsKept) : (st.addStretch w).SeparatorsKept := by
  unfold BuildState.addStretch
  split
  · refine BuildState.separatorsKept_put st w _ _ h
      (noAdjacent_snoc _ _ (h w).1 (Or.inl (by decide))) ?_ _ rfl rfl
    intro hx
    cases hx
  · split
    · refine BuildState.separatorsKept_put st w _ _ h
        (noAdjacent_snoc _ _ (noAdjacent_dropLast _ (h w).1) (Or.inl (by decide))) ?_
        _ rfl rfl
      intro hx
      cases hx
    · exact h

theorem BuildState.separatorsKept_init : BuildState.init.SeparatorsKept := by
  intro w
  exact ⟨List.chain'_nil, fun _ h => by cases h⟩

end Core
namespace Core
open ActionDomainPrivate

theorem BuildState.separatorsKept_layouts (st : BuildState)
    (m : List (String × ActionLayout)) (h : st.SeparatorsKept) :
    BuildState.SeparatorsKept { st with standaloneLayouts := m } :=
  BuildState.separatorsKept_of_eq st _ h rfl rfl

/-- A function on build states keeps the invariant. -/
theorem children_kept
    (recurse : ActionLayout → Option Widget → BuildState → Option BuildState)
    (hrec : ∀ c p s s1, s.SeparatorsKept → recurse c p s = some s1 → s1.SeparatorsKept)
    (parent : Option Widget) :
    ∀ (cs : List ActionLayout) (st st1 : BuildState), st.SeparatorsKept →
      buildLayoutsRecursively.children recurse parent cs st = some st1 →
      st1.SeparatorsKept := by
  intro cs
  induction cs with
  | nil =>
    intro st st1 h hc
    simp only [buildLayoutsRecursively.children, Option.some.injEq] at hc
    subst hc
    exact h
  | cons c cs ih =>
    intro st st1 h hc
    simp only [buildLayoutsRecursively.children] at hc
    cases hr : recurse c parent st with
    | none => simp [hr] at hc
    | some s =>
      simp only [hr] at hc
      exact ih s st1 (hrec c parent st s h hr) hc

theorem action_kept (ctx : BuildContext) (layout : ActionLayout) (parent : Option Widget)
    (st st1 : BuildState) (h : st.SeparatorsKept)
    (hc : buildLayoutsRecursively.action ctx layout parent st = some st1) :
    st1.SeparatorsKept := by
  unfold buildLayoutsRecursively.action at hc
  repeat' split at hc
  all_goals
    simp only [Option.some.injEq] at hc
    subst hc
    first
      | exact h
      | exact BuildState.separatorsKept_addAction _ _ _ h (by simp)

theorem group_kept (ctx : BuildContext)
    (recurse : ActionLayout → Option Widget → BuildState → Option BuildState)
    (hrec : ∀ c p s s1, s.SeparatorsKept → recurse c p s = some s1 → s1.SeparatorsKept)
    (layout : ActionLayout) (parent : Option Widget)
    (st st1 : BuildState) (h : st.SeparatorsKept)
    (hc : buildLayoutsRecursively.group ctx recurse layout parent st = some st1) :
    st1.SeparatorsKept := by
  unfold buildLayoutsRecursively.group at hc
  repeat' split at hc
  all_goals first
    | (simp only [Option.some.injEq] at hc
       subst hc
       exact h)
    | exact children_kept recurse hrec _ _ _ _ h hc
    | exact children_kept recurse hrec _ _ _ _ (BuildState.separatorsKept_layouts _ _ h) hc

theorem expandedMenu_kept (ctx : BuildContext)
    (recurse : ActionLayout → Option Widget → BuildState → Option BuildState)
    (hrec : ∀ c p s s1, s.SeparatorsKept → recurse c p s = some s1 → s1.SeparatorsKept)
    (layout : ActionLayout) (parent : Option Widget)
    (st st1 : BuildState) (h : st.SeparatorsKept)
    (hc : buildLayoutsRecursively.expandedMenu ctx recurse layout parent st = some st1) :
    st1.SeparatorsKept := by
  unfold buildLayoutsRecursively.expandedMenu at hc
  repeat' split at hc
  all_goals first
    | (simp only [Option.some.injEq] at hc
       subst hc
       exact h)
    | cases hc
    | exact children_kept recurse hrec _ _ _ _ h hc
    | exact children_kept recurse hrec _ _ _ _ (BuildState.separatorsKept_layouts _ _ h) hc
    | (rename_i s2 hs2
       exact children_kept recurse hrec _ _ _ _
         (BuildState.separatorsKept_layouts _ _
           (children_kept recurse hrec _ _ _ _ h hs2)) hc)
    | (rename_i s2 hs2
       refine children_kept recurse hrec _ _ _ _
         (BuildState.separatorsKept_layouts _ _
           (children_kept recurse hrec _ _ _ _ ?_ hs2)) hc
       exact BuildState.separatorsKept_of_eq st _ h rfl rfl)

theorem menu_stop_kept (ctx : BuildContext) (layout : ActionLayout) (parent : Option Widget)
    (st st1 : BuildState) (h : st.SeparatorsKept)
    (hc : buildLayoutsRecursively.menu ctx layout parent st = MenuCase.stop st1) :
    st1.SeparatorsKept := by
  unfold buildLayoutsRecursively.menu at hc
  repeat' split at hc
  all_goals
    try beta_reduce at hc
  repeat' split at hc
  all_goals
    cases hc
  all_goals first
    | exact h
    | exact BuildState.separatorsKept_addAction _ _ _ h (by simp)

theorem menu_descend_kept (ctx : BuildContext) (layout : ActionLayout)
    (parent : Option Widget) (st st1 : BuildState) (w : Widget) (h : st.SeparatorsKept)
    (hc : buildLayoutsRecursively.menu ctx layout parent st = MenuCase.descend w st1) :
    st1.SeparatorsKept := by
  unfold buildLayoutsRecursively.menu at hc
  repeat' split at hc
  all_goals
    try beta_reduce at hc
  repeat' split at hc
  all_goals
    cases hc
  all_goals first
    | exact h
    | exact BuildState.separatorsKept_addAction _ _ _ h (by simp)

/-- The build keeps the invariant of the separators. -/
theorem buildLayoutsRecursively_kept (ctx : BuildContext) :
    ∀ (fuel : Nat) (layout : ActionLayout) (parent : Option Widget) (st st1 : BuildState),
      st.SeparatorsKept → buildLayoutsRecursively ctx fuel layout parent st = some st1 →
      st1.SeparatorsKept := by
  intro fuel
  induction fuel with
  | zero =>
    intro layout parent st st1 _ hc
    simp [buildLayoutsRecursively] at hc
  | succ k ih =>
    intro layout parent st st1 h hc
    simp only [buildLayoutsRecursively, buildLayoutsRecursively.step] at hc
    split at hc
    · exact action_kept ctx layout parent st st1 h hc
    · exact expandedMenu_kept ctx _ ih layout parent st st1 h hc
    · exact group_kept ctx _ ih layout parent st st1 h hc
    · split at hc
      · rename_i s hs
        simp only [Option.some.injEq] at hc
        subst hc
        exact menu_stop_kept ctx layout parent st _ h hs
      · rename_i w s hs
        exact children_kept _ ih _ _ _ _ (menu_descend_kept ctx layout parent st _ w h hs) hc
    · split at hc
      · cases hc
      · simp only [Option.some.injEq] at hc
        subst hc
        exact BuildState.separatorsKept_addSeparator _ _ h
    · split at hc
      · cases hc
      · simp only [Option.some.injEq] at hc
        subst hc
        exact BuildState.separatorsKept_addStretch _ _ h

end Core
namespace Core
open ActionDomainPrivate

theorem children_mono
    (r1 r2 : ActionLayout → Option Widget → BuildState → Option BuildState)
    (hr : ∀ c p s s1, r1 c p s = some s1 → r2 c p s = some s1) (parent : Option Widget) :
    ∀ (cs : List ActionLayout) (st st1 : BuildState),
      buildLayoutsRecursively.children r1 parent cs st = some st1 →
      buildLayoutsRecursively.children r2 parent cs st = some st1 := by
  intro cs
  induction cs with
  | nil =>
    intro st st1 hc
    exact hc
  | cons c cs ih =>
    intro st st1 hc
    simp only [buildLayoutsRecursively.children] at hc ⊢
    cases h1 : r1 c parent st with
    | none => simp [h1] at hc
    | some s =>
      simp only [h1] at hc
      simp only [hr c parent st s h1]
      exact ih s st1 hc

theorem group_mono (ctx : BuildContext)
    (r1 r2 : ActionLayout → Option Widget → BuildState → Option BuildState)
    (hr : ∀ c p s s1, r1 c p s = some s1 → r2 c p s = some s1)
    (layout : ActionLayout) (parent : Option Widget) (st st1 : BuildState)
    (hc : buildLayoutsRecursively.group ctx r1 layout parent st = some st1) :
    buildLayoutsRecursively.group ctx r2 layout parent st = some st1 := by
  unfold buildLayoutsRecursively.group at hc ⊢
  repeat' split at hc
  all_goals
    simp only [*, if_true, if_false, ite_true, ite_false, not_true_eq_false, not_false_eq_true,
      ne_eq]
  all_goals first
    | exact hc
    | exact children_mono r1 r2 hr _ _ _ _ hc

theorem expandedMenu_mono (ctx : BuildContext)
    (r1 r2 : ActionLayout → Option Widget → BuildState → Option BuildState)
    (hr : ∀ c p s s1, r1 c p s = some s1 → r2 c p s = some s1)
    (layout : ActionLayout) (parent : Option Widget) (st st1 : BuildState)
    (hc : buildLayoutsRecursively.expandedMenu ctx r1 layout parent st = some st1) :
    buildLayoutsRecursively.expandedMenu ctx r2 layout parent st = some st1 := by
  unfold buildLayoutsRecursively.expandedMenu at hc ⊢
  repeat' split at hc
  all_goals
    simp only [*, if_true, if_false, ite_true, ite_false, not_true_eq_false, not_false_eq_true,
      ne_eq]
  all_goals first
    | exact hc
    | cases hc
    | exact children_mono r1 r2 hr _ _ _ _ hc
    | (rename_i s2 hs2
       rw [children_mono r1 r2 hr _ _ _ _ hs2]
       exact children_mono r1 r2 hr _ _ _ _ hc)

theorem step_mono (ctx : BuildContext)
    (r1 r2 : ActionLayout → Option Widget → BuildState → Option BuildState)
    (hr : ∀ c p s s1, r1 c p s = some s1 → r2 c p s = some s1)
    (layout : ActionLayout) (parent : Option Widget) (st st1 : BuildState)
    (hc : buildLayoutsRecursively.step ctx r1 layout parent st = some st1) :
    buildLayoutsRecursively.step ctx r2 layout parent st = some st1 := by
  unfold buildLayoutsRecursively.step at hc ⊢
  cases ht : layout.type <;> simp only [ht] at hc ⊢
  all_goals first
    | exact hc
    | exact expandedMenu_mono ctx r1 r2 hr _ _ _ _ hc
    | exact group_mono ctx r1 r2 hr _ _ _ _ hc
    | (cases hm : buildLayoutsRecursively.menu ctx layout parent st with
       | stop s =>
         simp only [hm] at hc ⊢
         exact hc
       | descend w s =>
         simp only [hm] at hc ⊢
         exact children_mono r1 r2 hr _ _ _ _ hc)

/-- More fuel does not change a result of the build. -/
theorem buildLayoutsRecursively_mono (ctx : BuildContext) :
    ∀ (fuel k : Nat) (layout : ActionLayout) (parent : Option Widget) (st st1 : BuildState),
      buildLayoutsRecursively ctx fuel layout parent st = some st1 →
      buildLayoutsRecursively ctx (fuel + k) layout parent st = some st1 := by
  intro fuel
  induction fuel with
  | zero =>
    intro k layout parent st st1 hc
    simp [buildLayoutsRecursively] at hc
  | succ n ih =>
    intro k layout parent st st1 hc
    rw [show n + 1 + k = (n + k) + 1 by omega]
    simp only [buildLayoutsRecursively] at hc ⊢
    exact step_mono ctx _ _ (fun c p s s1 h => ih k c p s s1 h) _ _ _ _ hc

end Core
namespace Core
open ActionDomainPrivate

/-- C30 (the code departs from the claim): the separator rule of `buildLayoutsRecursively` holds
in one half only. A control that has received nothing yet reads as `LastMenuItem.Action`, the
value `0` that a missing key of `lastMenuItems` yields, so a separator that comes first in a
sibling list is emitted: building the standalone tool bar `tb` from the siblings separator,
action `a`, separator, separator, action `a` fills the control with separator, `a`, separator,
`a`. The other half holds for every input: whatever the context, the layout, the parent and
the depth, a run that starts from controls without two adjacent separators, and in particular
from the empty state, leaves no control with two adjacent separators. -/
theorem separator_emitted_first :
    (∀ w, BuildState.init.lastMenuItem w = LastMenuItem.Action) ∧
    (buildLayoutsRecursively Examples.toolBarContext 3 Examples.toolBarLayout none
        BuildState.init).map (fun st => st.actionsOf (Widget.standalone "tb")) =
      some [MenuEntry.separator, MenuEntry.action "a", MenuEntry.separator,
        MenuEntry.action "a"] ∧
    (∀ fuel, 3 ≤ fuel →
      (buildLayoutsRecursively Examples.toolBarContext fuel Examples.toolBarLayout none
          BuildState.init).map
        (fun st => (st.actionsOf (Widget.standalone "tb")).head?) =
        some (some MenuEntry.separator)) ∧
    BuildState.init.SeparatorsKept ∧
    (∀ (ctx : BuildContext) (fuel : Nat) (layout : ActionLayout) (parent : Option Widget)
        (st st1 : BuildState),
      st.SeparatorsKept → buildLayoutsRecursively ctx fuel layout parent st = some st1 →
      st1.SeparatorsKept ∧ ∀ w, NoAdjacentSeparators (st1.actionsOf w)) := by
  refine ⟨fun w => rfl, by decide, ?_, BuildState.separatorsKept_init, ?_⟩
  · intro fuel hf
    obtain ⟨st1, h1, h2⟩ : ∃ st1,
        buildLayoutsRecursively Examples.toolBarContext 3 Examples.toolBarLayout none
          BuildState.init = some st1 ∧
        (st1.actionsOf (Widget.standalone "tb")).head? = some MenuEntry.separator := by
      have h3 : (buildLayoutsRecursively Examples.toolBarContext 3 Examples.toolBarLayout
          none BuildState.init).map
            (fun st => (st.actionsOf (Widget.standalone "tb")).head?) =
          some (some MenuEntry.separator) := by decide
      cases h : buildLayoutsRecursively Examples.toolBarContext 3 Examples.toolBarLayout none
          BuildState.init with
      | none =>
        rw [h] at h3
        cases h3
      | some st1 =>
        rw [h] at h3
        exact ⟨st1, rfl, by simpa using h3⟩
    have h4 := buildLayoutsRecursively_mono Examples.toolBarContext 3 (fuel - 3)
      Examples.toolBarLayout none BuildState.init st1 h1
    rw [show 3 + (fuel - 3) = fuel by omega] at h4
    rw [h4]
    simp [h2]
  · intro ctx fuel layout parent st st1 h hc
    have h1 := buildLayoutsRecursively_kept ctx fuel layout parent st st1 h hc
    exact ⟨h1, fun w => (h1 w).1⟩

end Core
namespace Core
open LayoutsHelper

theorem mem_of_allSome {α : Type} (l : List (Option α)) (r : List α) (h : allSome l = some r)
    (a : α) (ha : a ∈ r) : some a ∈ l := by
  rw [(allSome_eq_some l r).1 h]
  exact List.mem_map_of_mem some ha

theorem sharedEnds_of_children (id : String) (type : ActionLayoutType)
    (cs : List ActionLayout) (h1 : type ≠ ActionLayoutType.Separator)
    (h2 : type ≠ ActionLayoutType.Stretch) (hcs : ∀ c ∈ cs, c.SharedEnds) :
    (ActionLayout.mk id type cs).SharedEnds := by
  have hlist : ∀ (l : List ActionLayout), (∀ c ∈ l, c.SharedEnds) →
      ∀ n ∈ ActionLayout.nodes.nodesList l,
        (n.type = ActionLayoutType.Separator → n = sharedSeparator) ∧
        (n.type = ActionLayoutType.Stretch → n = sharedStretch) := by
    intro l
    induction l with
    | nil =>
      intro _ n hn
      simp [ActionLayout.nodes.nodesList] at hn
    | cons c l ih =>
      intro hl n hn
      simp only [ActionLayout.nodes.nodesList, List.mem_append] at hn
      rcases hn with hn | hn
      · exact hl c (List.mem_cons_self _ _) n hn
      · exact ih (fun c hc => hl c (List.mem_cons_of_mem _ hc)) n hn
  intro n hn
  simp only [ActionLayout.nodes, List.mem_cons] at hn
  rcases hn with hn | hn
  · subst hn
    exact ⟨fun h => absurd h h1, fun h => absurd h h2⟩
  · exact hlist cs hcs n hn

theorem sharedEnds_shared : sharedSeparator.SharedEnds ∧ sharedStretch.SharedEnds := by
  constructor <;>
  · intro n hn
    simp only [sharedSeparator, sharedStretch, ActionLayout.nodes,
      ActionLayout.nodes.nodesList, List.mem_singleton] at hn
    subst hn
    exact ⟨by simp [sharedSeparator, ActionLayout.type],
      by simp [sharedStretch, ActionLayout.type]⟩

/-- Every tree that `toLayout` returns holds the shared values only. -/
theorem toLayout_sharedEnds (heap : List TreeNode) :
    ∀ (fuel idx : Nat) (t : ActionLayout), toLayout heap fuel idx = some t → t.SharedEnds := by
  intro fuel
  induction fuel with
  | zero =>
    intro idx t h
    simp [toLayout] at h
  | succ fuel ih =>
    intro idx t h
    cases hn : heap[idx]? with
    | none => simp [toLayout, hn] at h
    | some node =>
      by_cases h1 : node.type = ActionLayoutType.Separator
      · rw [(toLayout_shared heap fuel idx node hn).1 h1] at h
        cases h
        exact sharedEnds_shared.1
      · by_cases h2 : node.type = ActionLayoutType.Stretch
        · rw [(toLayout_shared heap fuel idx node hn).2 h2] at h
          cases h
          exact sharedEnds_shared.2
        · rw [toLayout_succ heap fuel idx node hn h1 h2] at h
          cases hc : allSome (node.children.map (toLayout heap fuel)) with
          | none => simp [hc] at h
          | some cs =>
            simp only [hc, Option.map_some', Option.some.injEq] at h
            subst h
            refine sharedEnds_of_children _ _ _ h1 h2 ?_
            intro c hcmem
            have hm := mem_of_allSome _ _ hc c hcmem
            obtain ⟨i, _, hi⟩ := List.mem_map.1 hm
            exact ih i c hi

theorem applyBuildRoutines_sharedEnds (om : ObjectInfoMap) (exts : List ActionExtension)
    (heap : List TreeNode) (idx : IdIndexes) (roots : List Nat) (forest : List ActionLayout)
    (h : applyBuildRoutines om exts heap idx roots = some forest) :
    ∀ t ∈ forest, t.SharedEnds := by
  unfold applyBuildRoutines at h
  intro t ht
  have hm := mem_of_allSome _ _ h t ht
  obtain ⟨i, _, hi⟩ := List.mem_map.1 hm
  exact toLayout_sharedEnds _ _ i t hi

/-- C31: Separator and Stretch carry no identity. In every forest that `build` returns and in
every forest that `restore` returns, every node of type Separator is the one value
`sharedSeparator` (empty id, no children) and every node of type Stretch is the one value
`sharedStretch`, at the roots and at every depth, whatever the declared entry or the persisted
element carried. Two runs show it: a declared separator and a declared stretch that carry an
id and a child are built as the two shared values, and so are persisted `separator` and
`stretch` elements with an `id` attribute and a child. -/
theorem separator_and_stretch_carry_no_identity :
    sharedSeparator = ActionLayout.mk "" ActionLayoutType.Separator [] ∧
    sharedStretch = ActionLayout.mk "" ActionLayoutType.Stretch [] ∧
    (∀ (extensions : List ActionExtension) (objectInfoMap : ObjectInfoMap)
        (forest : List ActionLayout),
      build extensions objectInfoMap = some forest → ∀ t ∈ forest, t.SharedEnds) ∧
    (∀ (extensions : List ActionExtension) (objectInfoMap : ObjectInfoMap)
        (data : Option QMXmlAdaptorElement) (forest : List ActionLayout) (ok : Bool),
      restore extensions objectInfoMap data = some (forest, ok) →
        ∀ t ∈ forest, t.SharedEnds) ∧
    build [Examples.decoratedExt] Examples.registry =
      some [.mk "file" ActionLayoutType.Menu
        [.mk "open" ActionLayoutType.Action [], sharedSeparator, sharedStretch]] ∧
    restore [Examples.decoratedExt] Examples.registry (some Examples.decoratedDocument) =
      some ([.mk "file" ActionLayoutType.Menu
        [.mk "open" ActionLayoutType.Action [], sharedSeparator, sharedStretch]], true) := by
  refine ⟨rfl, rfl, ?_, ?_, by decide, by decide⟩
  · intro extensions objectInfoMap forest h
    unfold build at h
    split at h
    · cases h
    · exact applyBuildRoutines_sharedEnds _ _ _ _ _ _ h
  · intro extensions objectInfoMap data forest ok h
    unfold restore at h
    split at h
    · cases h
      intro t ht
      cases ht
    · split at h
      · cases h
        intro t ht
        cases ht
      · split at h
        split at h
        · cases h
        · cases h
          rename_i hl
          exact applyBuildRoutines_sharedEnds _ _ _ _ _ _ hl

end Core
namespace Core
open TopologicalSorter

theorem addEdges_snoc (edges : List (String × String)) (e : String × String) :
    addEdges (edges ++ [e]) = (addEdges edges).addEdge e.1 e.2 := by
  simp [addEdges, List.foldl_append]

theorem graphInv_addEdges (edges : List (String × String)) : GraphInv (addEdges edges) := by
  induction edges using List.reverseRecOn with
  | nil => exact graphInv_empty
  | append_singleton l e ih =>
    rw [addEdges_snoc]
    exact graphInv_addEdge _ _ _ ih

theorem addEdge_value_iff (s : TopologicalSorter) (u v u' v' : String) :
    v' ∈ QMap.value (s.addEdge u v).graph u' [] ↔
      v' ∈ QMap.value s.graph u' [] ∨ (u' = u ∧ v' = v) := by
  unfold addEdge
  by_cases hv : v ∈ QMap.value s.graph u []
  · simp only [hv, if_true, QMap.value_touch]
    constructor
    · exact Or.inl
    · rintro (h | ⟨rfl, rfl⟩)
      · exact h
      · exact hv
  · simp only [hv, if_false, QMap.value_set]
    by_cases hu : u' = u
    · subst hu
      simp
    · simp [hu]

theorem addEdges_value_iff (edges : List (String × String)) (u v : String) :
    v ∈ QMap.value (addEdges edges).graph u [] ↔ (u, v) ∈ edges := by
  induction edges using List.reverseRecOn with
  | nil => simp [addEdges, TopologicalSorter.empty, QMap.value]
  | append_singleton l e ih =>
    rw [addEdges_snoc, addEdge_value_iff, ih]
    obtain ⟨a, b⟩ := e
    simp only [List.mem_append, List.mem_singleton, Prod.mk.injEq]

theorem addEdge_graph_keys (s : TopologicalSorter) (u v x : String) :
    x ∈ (s.addEdge u v).graph.map Prod.fst ↔ x = u ∨ x ∈ s.graph.map Prod.fst := by
  unfold addEdge
  by_cases hv : v ∈ QMap.value s.graph u []
  · simp only [hv, if_true, QMap.mem_keys_touch]
  · simp only [hv, if_false, QMap.mem_keys_set]

theorem addEdges_graph_keys (edges : List (String × String)) (x : String) :
    x ∈ (addEdges edges).graph.map Prod.fst ↔ ∃ e ∈ edges, x = e.1 := by
  induction edges using List.reverseRecOn with
  | nil => simp [addEdges, TopologicalSorter.empty]
  | append_singleton l e ih =>
    rw [addEdges_snoc, addEdge_graph_keys, ih]
    simp only [List.mem_append, List.mem_singleton]
    constructor
    · rintro (h | ⟨e', he', h⟩)
      · exact ⟨e, Or.inr rfl, h⟩
      · exact ⟨e', Or.inl he', h⟩
    · rintro ⟨e', he' | he', h⟩
      · exact Or.inr ⟨e', he', h⟩
      · exact Or.inl (he' ▸ h)

theorem addEdges_degree_keys (edges : List (String × String)) (x : String) :
    x ∈ (addEdges edges).inDegree.map Prod.fst ↔ ∃ e ∈ edges, x = e.1 ∨ x = e.2 := by
  induction edges using List.reverseRecOn with
  | nil => simp [addEdges, TopologicalSorter.empty]
  | append_singleton l e ih =>
    rw [addEdges_snoc]
    obtain ⟨u, v⟩ := e
    have hold : (∃ e ∈ l ++ [(u, v)], x = e.1 ∨ x = e.2) ↔
        (x = u ∨ x = v) ∨ ∃ e ∈ l, x = e.1 ∨ x = e.2 := by
      simp only [List.mem_append, List.mem_singleton]
      constructor
      · rintro ⟨e', he' | he', h⟩
        · exact Or.inr ⟨e', he', h⟩
        · subst he'
          exact Or.inl h
      · rintro (h | ⟨e', he', h⟩)
        · exact ⟨(u, v), Or.inr rfl, h⟩
        · exact ⟨e', Or.inl he', h⟩
    rw [hold, ← ih]
    unfold addEdge
    by_cases hv : v ∈ QMap.value (addEdges l).graph u []
    · simp only [hv, if_true]
      have huv : (u, v) ∈ l := (addEdges_value_iff l u v).1 hv
      constructor
      · exact Or.inr
      · rintro (h | h)
        · rw [ih]
          exact ⟨(u, v), huv, h⟩
        · exact h
    · simp only [hv, if_false, QMap.mem_keys_set, QMap.mem_keys_touch]
      tauto

theorem pending_pos (g : List (String × List String)) (s : List String) (v : String)
    (h : pending g s v ≠ 0) : ∃ e ∈ g, e.1 ∉ s ∧ v ∈ e.2 := by
  induction g with
  | nil => simp [pending] at h
  | cons e g ih =>
    obtain ⟨k, succ⟩ := e
    rw [pending_cons] at h
    by_cases hk : k ∈ s
    · simp only [hk, if_true, zero_add] at h
      obtain ⟨e, he, h1⟩ := ih h
      exact ⟨e, List.mem_cons_of_mem _ he, h1⟩
    · simp only [hk, if_false] at h
      by_cases hc : succ.count v = 0
      · rw [hc, zero_add] at h
        obtain ⟨e, he, h1⟩ := ih h
        exact ⟨e, List.mem_cons_of_mem _ he, h1⟩
      · exact ⟨(k, succ), List.mem_cons_self _ _, hk, List.count_pos_iff.1 (Nat.pos_of_ne_zero hc)⟩

/-- In a finite non-empty set of nodes each of which has an edge from a node of the set, some
node reaches itself. -/
theorem exists_cycle_of_blocked {α : Type} [DecidableEq α] (R : α → α → Prop) (c : List α)
    (hne : c ≠ []) (h : ∀ v ∈ c, ∃ u ∈ c, R u v) : ∃ x, Relation.TransGen R x x := by
  by_contra hno
  push_neg at hno
  haveI : IsTrans { x // x ∈ c } (fun a b => Relation.TransGen R a.1 b.1) :=
    ⟨fun _ _ _ h1 h2 => Relation.TransGen.trans h1 h2⟩
  haveI : IsIrrefl { x // x ∈ c } (fun a b => Relation.TransGen R a.1 b.1) :=
    ⟨fun a ha => hno a.1 ha⟩
  have hwf : WellFounded (fun (a b : { x // x ∈ c }) => Relation.TransGen R a.1 b.1) :=
    Finite.wellFounded_of_trans_of_irrefl _
  obtain ⟨x, hx⟩ := List.exists_mem_of_ne_nil c hne
  obtain ⟨m, -, hmin⟩ := hwf.has_min Set.univ ⟨⟨x, hx⟩, trivial⟩
  obtain ⟨u, hu, hr⟩ := h m.1 m.2
  exact hmin ⟨u, hu⟩ trivial (Relation.TransGen.single hr)

end Core
namespace Core
open TopologicalSorter

theorem orderInv_step (n : Nat) (u : String) (q : List String)
    (g : List (String × List String)) (d : List (String × Int)) (s : List String)
    (h : LoopInv n (u :: q) (g, d, s)) (ho : OrderInv (u :: q) (g, d, s)) :
    OrderInv (relax (QMap.value g u []) (d, q)).2
      (QMap.touch g u [], (relax (QMap.value g u []) (d, q)).1, s ++ [u]) := by
  have hsn : (QMap.value g u []).Nodup := value_nodup_of_graph g u h.succNodup
  have hst : ∀ v ∈ QMap.value g u [], v ∈ d.map Prod.fst :=
    fun v hv => value_targets_of_graph g u v _ h.targets hv
  obtain ⟨hq, hval, hkeys⟩ := relax_spec (QMap.value g u []) d q hsn hst
  have hnd := h.nodup
  simp only [List.cons_append, List.nodup_cons, List.mem_append, not_or] at hnd
  have hdeg : ∀ w, QMap.value d w 0 = (pending g s w : Int) := h.degree
  refine ⟨?_, ?_, ?_⟩
  · intro v hv h0
    simp only [hkeys] at hv
    simp only [hq, List.mem_append, List.mem_singleton, List.mem_filter, decide_eq_true_eq]
    rw [hval v] at h0
    by_cases hw : v ∈ QMap.value g u []
    · simp only [hw, if_true] at h0
      exact Or.inl (Or.inr ⟨hw, by omega⟩)
    · simp only [hw, if_false, sub_zero] at h0
      have := ho.complete v hv h0
      simp only [List.cons_append, List.mem_cons, List.mem_append] at this
      tauto
  · intro s1 v s2 hs x hx
    rw [QMap.value_touch] at hx
    rcases List.eq_nil_or_concat s2 with h2 | ⟨s2', b, h2⟩
    · subst h2
      have h3 := List.append_inj' hs (by simp)
      obtain ⟨h4, h5⟩ := h3
      simp only [List.cons.injEq, and_true] at h5
      subst h4 h5
      by_contra hxs
      have h1 := pending_ge_one g s x u h.graphKeys h.succNodup hxs hx
      have h0 : QMap.value d u 0 = 0 := h.zero u (by simp)
      have := hdeg u
      omega
    · subst h2
      have h3 : s ++ [u] = (s1 ++ v :: s2') ++ [b] := by
        simpa using hs
      have h4 := List.append_inj' h3 (by simp)
      exact ho.ordered s1 v s2' h4.1 x hx
  · intro x hx
    simp only [hkeys]
    rcases (QMap.mem_keys_touch g u [] x).1 hx with h1 | h1
    · rw [h1]
      exact h.inKeys u (by simp)
    · exact ho.covered x h1

theorem sortLoop_order (n : Nat) (g0 : List (String × List String)) (keys : List String) :
    ∀ (fuel : Nat) (q : List String) (g : List (String × List String))
      (d : List (String × Int)) (s : List String),
      LoopInv n q (g, d, s) → n ≤ fuel + s.length → OrderInv q (g, d, s) →
      (∀ u, QMap.value g u [] = QMap.value g0 u []) → d.map Prod.fst = keys →
      ∃ g' d' s', sortLoop fuel q (g, d, s) = some (g', d', s') ∧ LoopInv n [] (g', d', s') ∧
        OrderInv [] (g', d', s') ∧ (∀ u, QMap.value g' u [] = QMap.value g0 u []) ∧
        d'.map Prod.fst = keys := by
  intro fuel
  induction fuel with
  | zero =>
    intro q g d s h hfuel ho hg hk
    cases q with
    | nil => exact ⟨g, d, s, by simp [sortLoop], h, ho, hg, hk⟩
    | cons u q =>
      exfalso
      have hsub : (u :: q ++ s) ⊆ d.map Prod.fst := fun v hv => h.inKeys v hv
      have hlen := (List.subperm_of_subset h.nodup hsub).length_le
      have hsz : d.length = n := h.size
      simp only [List.length_append, List.length_cons, List.length_map] at hlen
      omega
  | succ fuel ih =>
    intro q g d s h hfuel ho hg hk
    cases q with
    | nil => exact ⟨g, d, s, by simp [sortLoop], h, ho, hg, hk⟩
    | cons u q =>
      have hstep := loopInv_step n u q g d s h
      have hostep := orderInv_step n u q g d s h ho
      have hsn : (QMap.value g u []).Nodup := value_nodup_of_graph g u h.succNodup
      have hst : ∀ v ∈ QMap.value g u [], v ∈ d.map Prod.fst :=
        fun v hv => value_targets_of_graph g u v _ h.targets hv
      obtain ⟨-, -, hkeys⟩ := relax_spec (QMap.value g u []) d q hsn hst
      obtain ⟨g', d', s', h1, h2, h3, h4, h5⟩ := ih _ _ _ _ hstep
        (by simp only [List.length_append, List.length_singleton]; omega) hostep
        (fun x => by rw [QMap.value_touch]; exact hg x) (hkeys.trans hk)
      exact ⟨g', d', s', by simpa [sortLoop] using h1, h2, h3, h4, h5⟩

theorem orderInv_initial (s : TopologicalSorter) (hc : ∀ u ∈ s.graph.map Prod.fst,
    u ∈ s.inDegree.map Prod.fst) (hd : (s.inDegree.map Prod.fst).Nodup) :
    OrderInv (initialQueue s.inDegree) (s.graph, s.inDegree, []) := by
  refine ⟨?_, ?_, hc⟩
  · intro v hv h0
    simp only [List.append_nil, initialQueue, List.mem_map, List.mem_filter, decide_eq_true_eq]
    obtain ⟨e, he, h1⟩ := List.mem_map.1 hv
    have h2 := value_of_mem s.inDegree e 0 hd he
    rw [h1, h0] at h2
    exact ⟨e, ⟨he, h2.symm⟩, h1⟩
  · intro s1 v s2 hs
    simp at hs

/-- What the loop of `sort` leaves behind on a sorter filled by `addEdge`. -/
theorem sort_run (edges : List (String × String)) :
    ∃ g' d' s', sortLoop (addEdges edges).inDegree.length
        (initialQueue (addEdges edges).inDegree)
        ((addEdges edges).graph, (addEdges edges).inDegree, []) = some (g', d', s') ∧
      LoopInv (addEdges edges).inDegree.length [] (g', d', s') ∧ OrderInv [] (g', d', s') ∧
      (∀ u v, v ∈ QMap.value g' u [] ↔ (u, v) ∈ edges) ∧
      (∀ x, x ∈ d'.map Prod.fst ↔ ∃ e ∈ edges, x = e.1 ∨ x = e.2) := by
  have hinv := graphInv_addEdges edges
  have hcov : ∀ u ∈ (addEdges edges).graph.map Prod.fst,
      u ∈ (addEdges edges).inDegree.map Prod.fst := by
    intro u hu
    obtain ⟨e, he, h1⟩ := (addEdges_graph_keys edges u).1 hu
    exact (addEdges_degree_keys edges u).2 ⟨e, he, Or.inl h1⟩
  obtain ⟨g', d', s', h1, h2, h3, h4, h5⟩ := sortLoop_order (addEdges edges).inDegree.length
    (addEdges edges).graph ((addEdges edges).inDegree.map Prod.fst)
    (addEdges edges).inDegree.length (initialQueue (addEdges edges).inDegree)
    (addEdges edges).graph (addEdges edges).inDegree [] (loopInv_initial _ hinv) (by simp)
    (orderInv_initial _ hcov hinv.degreeKeys) (fun _ => rfl) rfl
  refine ⟨g', d', s', h1, h2, h3, ?_, ?_⟩
  · intro u v
    rw [h4 u, addEdges_value_iff]
  · intro x
    rw [h5, addEdges_degree_keys]

end Core
namespace Core
open TopologicalSorter

theorem sort_false_of_cycle (edges : List (String × String)) (h : HasCycle edges) :
    ∃ r, (addEdges edges).sort = some r ∧ r.1 = false := by
  classical
  obtain ⟨x, hx⟩ := h
  have hsrc : ∀ y, Relation.TransGen (fun a b => (a, b) ∈ edges) y y →
      y ∈ (addEdges edges).graph.map Prod.fst := by
    intro y hy
    obtain ⟨b, hb, -⟩ := Relation.TransGen.head'_iff.1 hy
    exact (addEdges_graph_keys edges y).2 ⟨(y, b), hb, rfl⟩
  have hblocked : Blocked (addEdges edges).graph
      (((addEdges edges).graph.map Prod.fst).filter
        (fun y => decide (Relation.TransGen (fun a b => (a, b) ∈ edges) y y))) := by
    intro v hv
    simp only [List.mem_filter, decide_eq_true_eq] at hv
    obtain ⟨b, hvb, hbv⟩ := Relation.TransGen.tail'_iff.1 hv.2
    have hb : Relation.TransGen (fun a b => (a, b) ∈ edges) b b :=
      Relation.TransGen.head' hbv hvb
    refine ⟨b, ?_, (addEdges_value_iff edges b v).2 hbv⟩
    simp only [List.mem_filter, decide_eq_true_eq]
    exact ⟨hsrc b hb, hb⟩
  obtain ⟨r, hr, hfalse⟩ := sort_spec (addEdges edges) _ (graphInv_addEdges edges) hblocked
  refine ⟨r, hr, hfalse ?_⟩
  intro hnil
  have hmem : x ∈ ((addEdges edges).graph.map Prod.fst).filter
      (fun y => decide (Relation.TransGen (fun a b => (a, b) ∈ edges) y y)) := by
    simp only [List.mem_filter, decide_eq_true_eq]
    exact ⟨hsrc x hx, hx⟩
  rw [hnil] at hmem
  cases hmem

/-- C32: the dependency sorter is correct. For every finite list of edges added with `addEdge`
to a fresh sorter, `sort` returns, and it returns false exactly when the directed graph of the
edges contains a cycle (a self-loop included). When it returns true, `result` has no
repetition, holds exactly the nodes that appear in some edge (so each of them exactly once),
and for every edge `(u, v)` the node `u` occurs before `v`. -/
theorem dependency_sorter_correct (edges : List (String × String)) :
    ∃ r, (addEdges edges).sort = some r ∧
      (r.1 = false ↔ HasCycle edges) ∧
      (r.1 = true →
        r.2.result.Nodup ∧
        (∀ x, x ∈ r.2.result ↔ ∃ e ∈ edges, x = e.1 ∨ x = e.2) ∧
        (∀ x, (∃ e ∈ edges, x = e.1 ∨ x = e.2) → r.2.result.count x = 1) ∧
        (∀ e ∈ edges, OccursBefore r.2.result e.1 e.2)) := by
  obtain ⟨g', d', s', hrun, hl, ho, hedge, hkeys⟩ := sort_run edges
  have hnd : s'.Nodup := by simpa using hl.nodup
  have hgk : (g'.map Prod.fst).Nodup := hl.graphKeys
  have hsk : ∀ u ∈ s', u ∈ g'.map Prod.fst := hl.sortedKeys
  -- a node that is not sorted has an edge from a key of the graph that is not sorted
  have hpred : ∀ v, v ∈ d'.map Prod.fst → v ∉ s' →
      ∃ u, u ∈ g'.map Prod.fst ∧ u ∉ s' ∧ (u, v) ∈ edges := by
    intro v hv hvs
    have hne : QMap.value d' v 0 ≠ 0 := fun h0 => hvs (by simpa using ho.complete v hv h0)
    have hdeg : QMap.value d' v 0 = (pending g' s' v : Int) := hl.degree v
    have hp : pending g' s' v ≠ 0 := by
      intro hp0
      rw [hp0] at hdeg
      exact hne (by simpa using hdeg)
    obtain ⟨e, he, hes, hve⟩ := pending_pos g' s' v hp
    refine ⟨e.1, List.mem_map_of_mem Prod.fst he, hes, (hedge e.1 v).1 ?_⟩
    rw [value_of_mem g' e [] hgk he]
    exact hve
  unfold TopologicalSorter.sort
  rw [hrun]
  by_cases hlen : s'.length ≠ g'.length
  · refine ⟨(false, { addEdges edges with graph := g', inDegree := d' }),
      by simp only [hlen, if_true, not_false_eq_true, ne_eq], ?_, fun h => by cases h⟩
    refine ⟨fun _ => ?_, fun _ => rfl⟩
    -- the keys of the graph that are not sorted block each other
    have hex : ∃ k, k ∈ g'.map Prod.fst ∧ k ∉ s' := by
      by_contra hall
      push_neg at hall
      have h1 := (List.subperm_of_subset hgk (fun k hk => hall k hk)).length_le
      have h2 := (List.subperm_of_subset hnd hsk).length_le
      simp only [List.length_map] at h1 h2
      omega
    obtain ⟨k, hk, hks⟩ := hex
    have hc := exists_cycle_of_blocked (fun a b => (a, b) ∈ edges)
      ((g'.map Prod.fst).filter (fun y => decide (y ∉ s')))
      (List.ne_nil_of_mem (List.mem_filter.2 ⟨hk, by simpa using hks⟩)) (by
        intro v hv
        simp only [List.mem_filter, decide_eq_true_eq] at hv
        obtain ⟨u, hu, hus, huv⟩ := hpred v (ho.covered v hv.1) hv.2
        exact ⟨u, List.mem_filter.2 ⟨hu, by simpa using hus⟩, huv⟩)
    exact hc
  · have heq : s'.length = g'.length := by
      by_contra hne
      exact hlen hne
    have hall : ∀ k, k ∈ g'.map Prod.fst → k ∈ s' := by
      have hperm := (List.subperm_of_subset hnd hsk).perm_of_length_le
        (by simp only [List.length_map]; omega)
      exact fun k hk => hperm.mem_iff.2 hk
    have hmem : ∀ x, x ∈ s' ↔ ∃ e ∈ edges, x = e.1 ∨ x = e.2 := by
      intro x
      rw [← hkeys x]
      constructor
      · exact fun hx => hl.inKeys x (by simpa using hx)
      · intro hx
        by_contra hxs
        obtain ⟨u, hu, hus, -⟩ := hpred x hx hxs
        exact hus (hall u hu)
    refine ⟨(true, ⟨g', d', s'⟩), by simp only [hlen, if_false], ?_, fun _ => ⟨hnd, hmem, ?_, ?_⟩⟩
    · constructor
      · intro h
        cases h
      · intro hcyc
        obtain ⟨r, hr, hfalse⟩ := sort_false_of_cycle edges hcyc
        unfold TopologicalSorter.sort at hr
        rw [hrun] at hr
        simp only [hlen, if_false, Option.some.injEq] at hr
        rw [← hr] at hfalse
        cases hfalse
    · intro x hx
      exact List.count_eq_one_of_mem hnd ((hmem x).2 hx)
    · intro e he
      have hv : e.2 ∈ s' := (hmem e.2).2 ⟨e, he, Or.inr rfl⟩
      obtain ⟨s1, s2, hs⟩ := List.append_of_mem hv
      have hu : e.1 ∈ s1 := ho.ordered s1 e.2 s2 hs e.1 ((hedge e.1 e.2).2 he)
      obtain ⟨a, b, hab⟩ := List.append_of_mem hu
      exact ⟨a, b, s2, by rw [hs, hab]⟩

/-- Two runs of C32: the edges `a -> b`, `b -> c`, `a -> b`, `a -> c` sort to `a`, `b`, `c`; the
edges `a -> b`, `b -> a`, `c -> d` are rejected and hold a cycle. -/
theorem dependency_sorter_correct_witness :
    ((addEdges Examples.chainEdges).sort).map (fun r => (r.1, r.2.result)) =
      some (true, ["a", "b", "c"]) ∧
    ((addEdges Examples.loopEdges).sort).map Prod.fst = some false ∧
    HasCycle Examples.loopEdges := by
  refine ⟨by decide, by decide, ?_⟩
  obtain ⟨r, hr, hiff, -⟩ := dependency_sorter_correct Examples.loopEdges
  have h2 : ((addEdges Examples.loopEdges).sort).map Prod.fst = some false := by decide
  rw [hr] at h2
  simp only [Option.map_some', Option.some.injEq] at h2
  exact hiff.1 h2

end Core
namespace Core
open TopologicalSorter ActionDomainPrivate

theorem scanChildren_edges (om : ObjectInfoMap) (id : String) (Q : String → Prop)
    (hid : Q id) (items : List ActionLayout) :
    ∀ (stack : List ActionLayout) (sorter : TopologicalSorter),
      (∀ u v, v ∈ QMap.value sorter.graph u [] → StandaloneMenu om u ∧ Q v) →
      ∀ u v, v ∈ QMap.value (scanChildren om id items (stack, sorter)).2.graph u [] →
        StandaloneMenu om u ∧ Q v := by
  induction items with
  | nil =>
    intro stack sorter h
    simpa [scanChildren] using h
  | cons item rest ih =>
    intro stack sorter h
    by_cases he : item.id = ""
    · simp only [scanChildren, he, if_true]
      exact ih stack sorter h
    · cases hl : om.lookup item.id with
      | none =>
        simp only [scanChildren, he, if_false, hl]
        exact ih stack sorter h
      | some info2 =>
        simp only [scanChildren, he, if_false, hl]
        apply ih
        by_cases hm : info2.type = ActionObjectType.Menu ∧ info2.mode ≠ ActionObjectMode.Plain
        · rw [if_pos hm]
          intro u v huv
          rcases (addEdge_value_iff sorter item.id id u v).1 huv with h1 | ⟨h1, h2⟩
          · exact h u v h1
          · subst h1 h2
            exact ⟨⟨info2, hl, hm.1, hm.2⟩, hid⟩
        · rw [if_neg hm]
          exact h

theorem collectEdges_edges (om : ObjectInfoMap) (id : String) (Q : String → Prop)
    (hid : Q id) :
    ∀ (fuel : Nat) (stack : List ActionLayout) (sorter s' : TopologicalSorter),
      (∀ u v, v ∈ QMap.value sorter.graph u [] → StandaloneMenu om u ∧ Q v) →
      collectEdges om id fuel stack sorter = some s' →
      ∀ u v, v ∈ QMap.value s'.graph u [] → StandaloneMenu om u ∧ Q v := by
  intro fuel
  induction fuel with
  | zero =>
    intro stack sorter s' h hc
    cases stack with
    | nil =>
      simp only [collectEdges, Option.some.injEq] at hc
      subst hc
      exact h
    | cons t stack => simp [collectEdges] at hc
  | succ fuel ih =>
    intro stack sorter s' h hc
    cases stack with
    | nil =>
      simp only [collectEdges, Option.some.injEq] at hc
      subst hc
      exact h
    | cons t stack =>
      simp only [collectEdges] at hc
      exact ih _ _ s' (scanChildren_edges om id Q hid t.children stack sorter h) hc

theorem collectRoots_edges (om : ObjectInfoMap) (Q : String → Prop) :
    ∀ (layouts : List ActionLayout) (layoutMap : List String) (sorter s' : TopologicalSorter),
      (∀ t ∈ layouts, (om.lookup t.id).isSome = true → Q t.id) →
      (∀ u v, v ∈ QMap.value sorter.graph u [] → StandaloneMenu om u ∧ Q v) →
      collectRoots om layouts layoutMap sorter = some (some s') →
      ∀ u v, v ∈ QMap.value s'.graph u [] → StandaloneMenu om u ∧ Q v := by
  intro layouts
  induction layouts with
  | nil =>
    intro layoutMap sorter s' _ h hc
    simp only [collectRoots, Option.some.injEq] at hc
    subst hc
    exact h
  | cons t rest ih =>
    intro layoutMap sorter s' hq h hc
    have hq' : ∀ x ∈ rest, (om.lookup x.id).isSome = true → Q x.id :=
      fun x hx => hq x (List.mem_cons_of_mem _ hx)
    cases hl : om.lookup t.id with
    | none =>
      simp only [collectRoots, hl] at hc
      exact ih layoutMap sorter s' hq' h hc
    | some info =>
      by_cases hmem : t.id ∈ layoutMap
      · simp [collectRoots, hl, hmem] at hc
      · simp only [collectRoots, hl, hmem, if_false] at hc
        cases he : collectEdges om t.id t.size [t] sorter with
        | none => simp [he] at hc
        | some s1 =>
          simp only [he] at hc
          exact ih _ s1 s' hq'
            (collectEdges_edges om t.id Q (hq t (List.mem_cons_self _ _) (by simp [hl])) _ _ _ _
              h he) hc

end Core
namespace Core
open TopologicalSorter ActionDomainPrivate LayoutsHelper

/-- C33 (as amended). The dependency edges cover the standalone menus. For every registry and
every forest the edge collection of `setLayouts_helper` returns; unless it stops at a repeated
root id, the sorter it hands to `sort` holds the edge `A -> B` for every registered root `B`
and every registered menu `A` other than Plain that is carried by a node below `B` which the
walk reaches, and it holds no other edge: the source of every edge is a registered menu other
than Plain and its target is the id of a registered root. Groups never get an edge. Two
standalone menu roots that nest each other are therefore rejected. -/
theorem dependency_edges_cover_standalone_menus (om : ObjectInfoMap)
    (layouts : List ActionLayout) :
    (∃ r, collectRoots om layouts [] TopologicalSorter.empty = some r ∧
      ∀ sorter, r = some sorter →
        (∀ t ∈ layouts, (om.lookup t.id).isSome = true → ∀ target, NestedIn om t target →
          StandaloneMenu om target → t.id ∈ QMap.value sorter.graph target []) ∧
        (∀ u v, v ∈ QMap.value sorter.graph u [] →
          StandaloneMenu om u ∧ ∃ t ∈ layouts, (om.lookup t.id).isSome = true ∧ t.id = v)) ∧
    (∀ (d : ActionDomainPrivate) (a b : ActionLayout), d.objectInfoMap = om →
      a ∈ layouts → b ∈ layouts → StandaloneMenu om a.id → StandaloneMenu om b.id →
      NestedIn om a b.id → NestedIn om b a.id →
      d.setLayouts_helper layouts = some (false, d)) := by
  constructor
  · obtain ⟨r, hr, hspec⟩ := collectRoots_spec om layouts [] TopologicalSorter.empty
    refine ⟨r, hr, ?_⟩
    intro sorter hs
    obtain ⟨-, -, hedges, -, -⟩ := hspec sorter hs
    refine ⟨hedges, ?_⟩
    rw [hs] at hr
    exact collectRoots_edges om
      (fun v => ∃ t ∈ layouts, (om.lookup t.id).isSome = true ∧ t.id = v) layouts []
      TopologicalSorter.empty sorter (fun t ht hreg => ⟨t, ht, hreg, rfl⟩)
      (fun u v huv => by simp [TopologicalSorter.empty, QMap.value] at huv) hr
  · intro d a b hd ha hb hA hB hab hba
    subst hd
    exact setLayouts_helper_cycle d layouts a b ha hb hA hB hab hba

/-- Witness of C33 (as amended): in the forest `file[export]`, `export[file]` of two standalone
menus the sorter gets the edges `export -> file` and `file -> export`. -/
theorem dependency_edges_cover_standalone_menus_witness :
    ∃ sorter, collectRoots Examples.menuRegistry Examples.cycleForest []
        TopologicalSorter.empty = some (some sorter) ∧
      "file" ∈ QMap.value sorter.graph "export" [] ∧
      "export" ∈ QMap.value sorter.graph "file" [] := by
  obtain ⟨⟨r, hr, hspec⟩, -⟩ :=
    dependency_edges_cover_standalone_menus Examples.menuRegistry Examples.cycleForest
  have hsome : (collectRoots Examples.menuRegistry Examples.cycleForest []
      TopologicalSorter.empty).map Option.isSome = some true := by decide
  rw [hr] at hsome
  cases r with
  | none => simp at hsome
  | some sorter =>
    obtain ⟨hedges, -⟩ := hspec sorter rfl
    refine ⟨sorter, hr, ?_, ?_⟩
    · exact hedges (.mk "file" ActionLayoutType.Menu [.mk "export" ActionLayoutType.Menu []])
        (by simp [Examples.cycleForest]) (by decide) "export"
        (NestedIn.child _ (.mk "export" ActionLayoutType.Menu [])
          (by simp [ActionLayout.children]) (by decide) (by decide))
        ⟨Examples.exportInfo, rfl, rfl, by decide⟩
    · exact hedges (.mk "export" ActionLayoutType.Menu [.mk "file" ActionLayoutType.Menu []])
        (by simp [Examples.cycleForest]) (by decide) "file"
        (NestedIn.child _ (.mk "file" ActionLayoutType.Menu [])
          (by simp [ActionLayout.children]) (by decide) (by decide))
        ⟨Examples.fileInfo, rfl, rfl, by decide⟩

/-- Counterexample to C33 as stated: `recentFiles` and `pinnedFiles` are registered groups
other than Plain, hence standalone, and each occurs below the other in the forest
`recentFiles[pinnedFiles]`, `pinnedFiles[recentFiles]`. The edge collection adds no edge,
`setLayouts_helper` reports success, and `layouts()` returns the forest that `build` made of the
two declarations, while the same shape with two standalone menus gives the empty list. -/
theorem standalone_groups_nesting_each_other_are_accepted :
    (Examples.groupRegistry.lookup "recentFiles" = some Examples.recentFilesInfo ∧
      Examples.groupRegistry.lookup "pinnedFiles" = some Examples.pinnedFilesInfo ∧
      Examples.recentFilesInfo.standalone = true ∧
      Examples.pinnedFilesInfo.standalone = true ∧
      Examples.groupCycleForest.map ActionLayout.id = ["recentFiles", "pinnedFiles"] ∧
      Examples.groupCycleForest.map (ActionLayout.occursBelow "pinnedFiles") = [true, false] ∧
      Examples.groupCycleForest.map (ActionLayout.occursBelow "recentFiles") =
        [false, true]) ∧
    collectRoots Examples.groupRegistry Examples.groupCycleForest [] TopologicalSorter.empty =
      some (some TopologicalSorter.empty) ∧
    ((Examples.domain [] Examples.groupRegistry).setLayouts_helper
        Examples.groupCycleForest).map Prod.fst = some true ∧
    build [Examples.groupCycleExt] Examples.groupRegistry = some Examples.groupCycleForest ∧
    (ActionDomain.layouts (Examples.domain [Examples.groupCycleExt]
        Examples.groupRegistry)).map Prod.fst = some Examples.groupCycleForest ∧
    (ActionDomain.layouts (Examples.domain [Examples.cycleExt]
        Examples.menuRegistry)).map Prod.fst = some [] := by
  refine ⟨by decide, by decide, by decide, by decide, by decide, by decide⟩

end Core
namespace Core
open LayoutsHelper ActionDomainPrivate

/-- C34 (the code departs from the claim): a routine whose item carries the id of its own Plain
parent makes an arena node its own child, and the composition does not return. For the
extension that declares `file[history]` with the Plain menu `history` and the routine that
appends an entry `history` to the parent `history`: the entry copied for the item is recorded
in `idIndexes` before the parents are selected, so it is a parent too and receives its own
index as a child; `toLayout` of the root then returns for no depth of recursion, and neither
`build` nor `layouts()` returns. The same extension with a routine that appends an action is
composed. -/
theorem routine_with_own_parent_never_returns :
    (buildExtensions Examples.historyRegistry [Examples.selfRoutineExt] ([], [], [])).map
        (fun st => (st.1, (applyRoutines Examples.historyRegistry [Examples.selfRoutineExt]
          (st.2.1, st.2.2)).1)) = some ([1], Examples.selfRoutineHeap) ∧
    Examples.selfRoutineHeap[2]? = some ⟨"history", ActionLayoutType.Menu, [2]⟩ ∧
    (∀ fuel, toLayout Examples.selfRoutineHeap fuel 1 = none) ∧
    build [Examples.selfRoutineExt] Examples.historyRegistry = none ∧
    (ActionDomain.layouts
      (Examples.domain [Examples.selfRoutineExt] Examples.historyRegistry)).isNone = true ∧
    build [Examples.plainRoutineExt] Examples.historyRegistry =
      some [.mk "file" ActionLayoutType.Menu
        [.mk "history" ActionLayoutType.Menu [.mk "open" ActionLayoutType.Action []]]] := by
  refine ⟨by decide, by decide, ?_, by decide, by decide, by decide⟩
  exact toLayout_none_of_out_of_fuel Examples.selfRoutineHeap 1 (by decide)

end Core
namespace Core
open ActionDomain ActionDomainPrivate

theorem QSet.mem_insert {α : Type} [DecidableEq α] (s : List α) (a x : α) :
    x ∈ QSet.insert s a ↔ x ∈ s ∨ x = a := by
  unfold QSet.insert
  split
  · rename_i h
    constructor
    · exact Or.inl
    · rintro (h1 | rfl)
      · exact h1
      · exact h
  · simp

theorem QSet.mem_unite {α : Type} [DecidableEq α] (other : List α) :
    ∀ (s : List α) (x : α), x ∈ QSet.unite s other ↔ x ∈ s ∨ x ∈ other := by
  induction other with
  | nil => intro s x; simp [QSet.unite]
  | cons a rest ih =>
    intro s x
    have h := ih (QSet.insert s a) x
    unfold QSet.unite at h ⊢
    rw [List.foldl_cons, h, QSet.mem_insert, List.mem_cons]
    tauto

/-- What a successful `checkDuplication` collects: the keys of the temporary map are the keys it
started with and the ids of the objects, the temporary set holds the paths it started with and
the paths of the objects, and no id and no path of the objects is in the registry. -/
theorem checkDuplication_members (d : ActionDomainPrivate) (objs : List ActionObjectInfo) :
    ∀ temp cats temp1 cats1,
      addExtension.checkDuplication d objs temp cats = some (temp1, cats1) →
      (∀ id, id ∈ temp1.map Prod.fst ↔ id ∈ temp.map Prod.fst ∨ ∃ o ∈ objs, o.id = id) ∧
      (∀ path, path ∈ cats1 ↔ path ∈ cats ∨ ∃ o ∈ objs, o.categories = path) ∧
      (∀ o ∈ objs, o.id ∉ d.objectInfoMap.map Prod.fst ∧ o.categories ∉ d.objectCategories) := by
  induction objs with
  | nil =>
    intro temp cats temp1 cats1 h
    simp only [addExtension.checkDuplication, Option.some.injEq, Prod.mk.injEq] at h
    obtain ⟨rfl, rfl⟩ := h
    simp
  | cons o rest ih =>
    intro temp cats temp1 cats1 h
    unfold addExtension.checkDuplication at h
    by_cases h1 : (d.objectInfoMap.lookup o.id).isSome
    · simp [h1] at h
    · by_cases h2 : o.categories ∈ d.objectCategories
      · simp [h2] at h
      · simp only [h1, h2, if_false, Bool.false_eq_true] at h
        obtain ⟨hids, hpaths, hfresh⟩ := ih _ _ _ _ h
        refine ⟨?_, ?_, ?_⟩
        · intro id
          rw [hids id, QHash.insert_keys]
          split
          · rename_i hk
            simp only [List.mem_cons, exists_eq_or_imp]
            constructor
            · rintro (h3 | h3)
              · exact Or.inl h3
              · exact Or.inr (Or.inr h3)
            · rintro (h3 | h3 | h3)
              · exact Or.inl h3
              · exact Or.inl (h3 ▸ hk)
              · exact Or.inr h3
          · simp only [List.mem_append, List.mem_cons, List.not_mem_nil, or_false,
              exists_eq_or_imp]
            constructor
            · rintro ((h3 | h3) | h3)
              · exact Or.inl h3
              · exact Or.inr (Or.inl h3.symm)
              · exact Or.inr (Or.inr h3)
            · rintro (h3 | h3 | h3)
              · exact Or.inl (Or.inl h3)
              · exact Or.inl (Or.inr h3.symm)
              · exact Or.inr h3
        · intro path
          rw [hpaths path, QSet.mem_insert]
          simp only [List.mem_cons, exists_eq_or_imp]
          constructor
          · rintro ((h3 | h3) | h3)
            · exact Or.inl h3
            · exact Or.inr (Or.inl h3.symm)
            · exact Or.inr (Or.inr h3)
          · rintro (h3 | h3 | h3)
            · exact Or.inl (Or.inl h3)
            · exact Or.inl (Or.inr h3.symm)
            · exact Or.inr h3
        · intro o1 ho1
          rcases List.mem_cons.1 ho1 with rfl | ho1
          · exact ⟨fun hk => h1 ((lookup_isSome_iff_mem_keys _ _).2 hk), h2⟩
          · exact hfresh o1 ho1

/-- What the loop of `removeExtension` leaves: the keys and the paths that no object of the
record carries. -/
theorem removeExtension_loop_members (objs : List ActionObjectInfo) :
    ∀ (m : ObjectInfoMap) (cats : List (List String)),
      (∀ id, id ∈ (removeExtension.loop objs (m, cats)).1.map Prod.fst ↔
        id ∈ m.map Prod.fst ∧ ∀ o ∈ objs, o.id ≠ id) ∧
      (∀ path, path ∈ (removeExtension.loop objs (m, cats)).2 ↔
        path ∈ cats ∧ ∀ o ∈ objs, o.categories ≠ path) := by
  induction objs with
  | nil =>
    intro m cats
    simp [removeExtension.loop]
  | cons o rest ih =>
    intro m cats
    obtain ⟨hids, hpaths⟩ := ih (QMChronoMap.remove m o.id) (QSet.remove cats o.categories)
    unfold removeExtension.loop
    refine ⟨?_, ?_⟩
    · intro id
      rw [hids id]
      simp only [QMChronoMap.remove, List.mem_map, List.mem_filter, List.mem_cons,
        forall_eq_or_imp, decide_eq_true_eq, ne_eq]
      constructor
      · rintro ⟨⟨p, ⟨hp, hne⟩, rfl⟩, hrest⟩
        exact ⟨⟨p, hp, rfl⟩, fun h => hne h.symm, hrest⟩
      · rintro ⟨⟨p, hp, rfl⟩, hne, hrest⟩
        exact ⟨⟨p, ⟨hp, fun h => hne h.symm⟩, rfl⟩, hrest⟩
    · intro path
      rw [hpaths path]
      simp only [QSet.remove, List.mem_filter, List.mem_cons, forall_eq_or_imp,
        decide_eq_true_eq, ne_eq]
      constructor
      · rintro ⟨⟨hp, hne⟩, hrest⟩
        exact ⟨hp, fun h => hne h.symm, hrest⟩
      · rintro ⟨hp, hne, hrest⟩
        exact ⟨⟨hp, fun h => hne h.symm⟩, hrest⟩

/-- The registry invariant is kept by `addExtension`. -/
theorem registryInv_addExtension (order : QHashOrder) (d : ActionDomainPrivate)
    (extension : ActionExtension) (h : RegistryInv d) :
    RegistryInv (addExtension order d extension) := by
  unfold addExtension
  split
  · exact h
  · rename_i hhash
    cases hc : addExtension.checkDuplication d extension.objects [] [] with
    | none => exact h
    | some r =>
      obtain ⟨temp, cats⟩ := r
      obtain ⟨hids, hpaths, hfresh⟩ := checkDuplication_members d _ _ _ _ _ hc
      have hnew : ∀ e ∈ d.extensions, e.hash ≠ extension.hash := by
        intro e he heq
        apply hhash
        rw [List.any_eq_true]
        exact ⟨e, he, by simpa using heq⟩
      have hmem : ∀ e, e ∈ d.extensions ++ [extension] ↔ e ∈ d.extensions ∨ e = extension := by
        intro e
        simp
      refine ⟨?_, ⟨?_, ?_⟩, ?_, ?_⟩
      · intro e1 h1 e2 h2 heq
        have g1 := (hmem e1).1 h1
        have g2 := (hmem e2).1 h2
        clear h1 h2
        rcases g1 with h1 | rfl <;> rcases g2 with h2 | rfl
        · exact h.hashes e1 h1 e2 h2 heq
        · exact absurd heq (hnew e1 h1)
        · exact absurd heq.symm (hnew e2 h2)
        · rfl
      · intro id
        show id ∈ (d.objectInfoMap ++ order.iterate temp).map Prod.fst ↔
          ∃ ext ∈ d.extensions ++ [extension], ∃ obj ∈ ext.objects, obj.id = id
        rw [List.map_append, List.mem_append, ((order.perm temp).map Prod.fst).mem_iff, hids id,
          h.consistent.1 id]
        simp only [List.map_nil, List.not_mem_nil, false_or, List.mem_append,
          List.mem_singleton]
        constructor
        · rintro (⟨e, he, ho⟩ | ho)
          · exact ⟨e, Or.inl he, ho⟩
          · exact ⟨extension, Or.inr rfl, ho⟩
        · rintro ⟨e, he | rfl, ho⟩
          · exact Or.inl ⟨e, he, ho⟩
          · exact Or.inr ho
      · intro path
        show path ∈ QSet.unite d.objectCategories cats ↔
          ∃ ext ∈ d.extensions ++ [extension], ∃ obj ∈ ext.objects, obj.categories = path
        rw [QSet.mem_unite, hpaths path, h.consistent.2 path]
        simp only [List.not_mem_nil, false_or, List.mem_append, List.mem_singleton]
        constructor
        · rintro (⟨e, he, ho⟩ | ho)
          · exact ⟨e, Or.inl he, ho⟩
          · exact ⟨extension, Or.inr rfl, ho⟩
        · rintro ⟨e, he | rfl, ho⟩
          · exact Or.inl ⟨e, he, ho⟩
          · exact Or.inr ho
      · intro e1 h1 e2 h2 hne o1 ho1 o2 ho2 heq
        have g1 := (hmem e1).1 h1
        have g2 := (hmem e2).1 h2
        clear h1 h2
        rcases g1 with h1 | rfl <;> rcases g2 with h2 | rfl
        · exact h.ids e1 h1 e2 h2 hne o1 ho1 o2 ho2 heq
        · exact (hfresh o2 ho2).1 ((h.consistent.1 o2.id).2 ⟨e1, h1, o1, ho1, heq⟩)
        · exact (hfresh o1 ho1).1 ((h.consistent.1 o1.id).2 ⟨e2, h2, o2, ho2, heq.symm⟩)
        · exact hne rfl
      · intro e1 h1 e2 h2 hne o1 ho1 o2 ho2 heq
        have g1 := (hmem e1).1 h1
        have g2 := (hmem e2).1 h2
        clear h1 h2
        rcases g1 with h1 | rfl <;> rcases g2 with h2 | rfl
        · exact h.paths e1 h1 e2 h2 hne o1 ho1 o2 ho2 heq
        · exact (hfresh o2 ho2).2 ((h.consistent.2 o2.categories).2 ⟨e1, h1, o1, ho1, heq⟩)
        · exact (hfresh o1 ho1).2
            ((h.consistent.2 o1.categories).2 ⟨e2, h2, o2, ho2, heq.symm⟩)
        · exact hne rfl

/-- The registry invariant is kept by `removeExtension` of a registered record. -/
theorem registryInv_removeExtension (d : ActionDomainPrivate) (extension : ActionExtension)
    (h : RegistryInv d) (hreg : extension ∈ d.extensions) :
    RegistryInv (removeExtension d extension) := by
  obtain ⟨hids, hpaths⟩ :=
    removeExtension_loop_members extension.objects d.objectInfoMap d.objectCategories
  have hmem : ∀ e, e ∈ d.extensions.filter (fun e => e.hash ≠ extension.hash) ↔
      e ∈ d.extensions ∧ e ≠ extension := by
    intro e
    simp only [List.mem_filter, decide_eq_true_eq, ne_eq]
    constructor
    · rintro ⟨he, hne⟩
      exact ⟨he, fun heq => hne (heq ▸ rfl)⟩
    · rintro ⟨he, hne⟩
      exact ⟨he, fun heq => hne (h.hashes e he extension hreg heq)⟩
  unfold removeExtension
  refine ⟨?_, ⟨?_, ?_⟩, ?_, ?_⟩
  · intro e1 h1 e2 h2 heq
    exact h.hashes e1 ((hmem e1).1 h1).1 e2 ((hmem e2).1 h2).1 heq
  · intro id
    show id ∈ (removeExtension.loop extension.objects
        (d.objectInfoMap, d.objectCategories)).1.map Prod.fst ↔
      ∃ ext ∈ d.extensions.filter (fun e => e.hash ≠ extension.hash),
        ∃ obj ∈ ext.objects, obj.id = id
    rw [hids id, h.consistent.1 id]
    constructor
    · rintro ⟨⟨e, he, o, ho, hid⟩, hnot⟩
      refine ⟨e, (hmem e).2 ⟨he, ?_⟩, o, ho, hid⟩
      rintro rfl
      exact hnot o ho hid
    · rintro ⟨e, he, o, ho, hid⟩
      obtain ⟨he1, hne⟩ := (hmem e).1 he
      refine ⟨⟨e, he1, o, ho, hid⟩, ?_⟩
      intro o2 ho2 heq
      exact h.ids e he1 extension hreg hne o ho o2 ho2 (hid.trans heq.symm)
  · intro path
    show path ∈ (removeExtension.loop extension.objects
        (d.objectInfoMap, d.objectCategories)).2 ↔
      ∃ ext ∈ d.extensions.filter (fun e => e.hash ≠ extension.hash),
        ∃ obj ∈ ext.objects, obj.categories = path
    rw [hpaths path, h.consistent.2 path]
    constructor
    · rintro ⟨⟨e, he, o, ho, hid⟩, hnot⟩
      refine ⟨e, (hmem e).2 ⟨he, ?_⟩, o, ho, hid⟩
      rintro rfl
      exact hnot o ho hid
    · rintro ⟨e, he, o, ho, hid⟩
      obtain ⟨he1, hne⟩ := (hmem e).1 he
      refine ⟨⟨e, he1, o, ho, hid⟩, ?_⟩
      intro o2 ho2 heq
      exact h.paths e he1 extension hreg hne o ho o2 ho2 (hid.trans heq.symm)
  · intro e1 h1 e2 h2 hne
    exact h.ids e1 ((hmem e1).1 h1).1 e2 ((hmem e2).1 h2).1 hne
  · intro e1 h1 e2 h2 hne
    exact h.paths e1 ((hmem e1).1 h1).1 e2 ((hmem e2).1 h2).1 hne

theorem runCalls_snoc (calls : List RegistryCall) (c : RegistryCall) :
    runCalls (calls ++ [c]) = RegistryCall.apply (runCalls calls) c := by
  simp [runCalls, List.foldl_append]

/-- After calls that remove registered records only, the registry invariant holds. -/
theorem registryInv_runCalls (calls : List RegistryCall) (h : RemovesRegistered calls) :
    RegistryInv (runCalls calls) := by
  induction calls using List.reverseRecOn with
  | nil =>
    refine ⟨?_, ⟨?_, ?_⟩, ?_, ?_⟩ <;> simp [runCalls, ActionDomainPrivate.init]
  | append_singleton calls c ih =>
    have hprev : RemovesRegistered calls := by
      intro before extension after heq
      exact h before extension (after ++ [c]) (by rw [heq]; simp)
    rw [runCalls_snoc]
    cases c with
    | add order e => exact registryInv_addExtension order _ e (ih hprev)
    | remove e => exact registryInv_removeExtension _ e (ih hprev) (h calls e [] rfl)

end Core
namespace Core
open ActionDomain

/-- C35 (the code departs from the claim): `removeExtension` does not test whether the record
is registered. After every sequence of calls in which each `removeExtension` is given a record
that is registered at that moment, the registry is consistent. But from the empty registry,
extension B (which declares `save`) is registered, a second record that declares `save` again
is rejected and the registry keeps its state, and `removeExtension` of that second record then
removes the object `save` of extension B: extension B is still registered, the object map is
empty, and the registry is no longer consistent. -/
theorem removal_of_unregistered_record_breaks_registry :
    (∀ calls, RemovesRegistered calls → RegistryConsistent (runCalls calls)) ∧
    ((runCalls (Examples.rejectedThenRemoved.take 2)).extensions =
        [Examples.extB Anchor.Last ""] ∧
      (runCalls (Examples.rejectedThenRemoved.take 2)).objectInfoMap =
        [("save", Examples.saveInfo)] ∧
      RegistryConsistent (runCalls (Examples.rejectedThenRemoved.take 1))) ∧
    (runCalls Examples.rejectedThenRemoved).extensions = [Examples.extB Anchor.Last ""] ∧
    (runCalls Examples.rejectedThenRemoved).objectInfoMap = [] ∧
    (runCalls Examples.rejectedThenRemoved).objectCategories = [["File", "Save"]] ∧
    ¬ RegistryConsistent (runCalls Examples.rejectedThenRemoved) := by
  have h1 : (runCalls Examples.rejectedThenRemoved).extensions =
      [Examples.extB Anchor.Last ""] := by rfl
  have h2 : (runCalls Examples.rejectedThenRemoved).objectInfoMap = [] := by decide
  refine ⟨fun calls hcalls => (registryInv_runCalls calls hcalls).consistent,
    ⟨by rfl, by decide, ?_⟩, h1, h2, by decide, ?_⟩
  · have e1 : (runCalls (Examples.rejectedThenRemoved.take 1)).extensions =
        [Examples.extB Anchor.Last ""] := by rfl
    have e2 : (runCalls (Examples.rejectedThenRemoved.take 1)).objectInfoMap =
        [("save", Examples.saveInfo)] := by decide
    have e3 : (runCalls (Examples.rejectedThenRemoved.take 1)).objectCategories =
        [["File", "Save"]] := by decide
    constructor
    · intro id
      rw [e1, e2]
      simp [Examples.extB, Examples.saveInfo]
      exact eq_comm
    · intro path
      rw [e1, e3]
      simp [Examples.extB, Examples.saveInfo]
      exact eq_comm
  · intro hc
    have := (hc.1 "save").2 (by
      rw [h1]
      exact ⟨Examples.extB Anchor.Last "", List.mem_singleton.2 rfl, Examples.saveInfo,
        by simp [Examples.extB], rfl⟩)
    rw [h2] at this
    cases this

end Core
namespace Core
open ActionDomain ActionDomainPrivate

/-- C12 (the code departs from the claim): `addExtension` tests the category paths of a record
against the set `objectCategories`, not against the registered objects. (1) `addExtension(r)`
leaves the registry exactly as it was (registered extensions, object map, category set, cached
layouts and cached catalog) when the hash of `r` is the hash of a registered extension, or an
object id of `r` is a key of the object map, or a category path of an object of `r` is in the
category set. (2) After calls that remove registered records only, the map and the set hold
what the registered extensions declare, and the call is rejected in the three cases of the
claim. (3) After `removeExtension` of a record that was never registered the set has lost a
path of a registered object: extension B declares `save` under `[File, Save]`, the record that
declares `store` under the same path is rejected, removed, and then accepted, although its path
is still the path of the registered object `save`. -/
theorem duplicate_rejection_atomic :
    (∀ (order : QHashOrder) (d : ActionDomainPrivate) (r : ActionExtension),
      ((∃ e ∈ d.extensions, e.hash = r.hash) ∨
        (∃ obj ∈ r.objects, obj.id ∈ d.objectInfoMap.map Prod.fst) ∨
        (∃ obj ∈ r.objects, obj.categories ∈ d.objectCategories)) →
      addExtension order d r = d) ∧
    (∀ (calls : List RegistryCall), RemovesRegistered calls →
      ∀ (order : QHashOrder) (r : ActionExtension),
        ((∃ e ∈ (runCalls calls).extensions, e.hash = r.hash) ∨
          (∃ obj ∈ r.objects, ∃ e ∈ (runCalls calls).extensions, ∃ o ∈ e.objects,
            o.id = obj.id) ∨
          (∃ obj ∈ r.objects, ∃ e ∈ (runCalls calls).extensions, ∃ o ∈ e.objects,
            o.categories = obj.categories)) →
        addExtension order (runCalls calls) r = runCalls calls) ∧
    (runCalls (Examples.rejectedRemovedAdded.take 2) =
        runCalls (Examples.rejectedRemovedAdded.take 1) ∧
      (runCalls (Examples.rejectedRemovedAdded.take 3)).extensions =
        [Examples.extB Anchor.Last ""] ∧
      (runCalls (Examples.rejectedRemovedAdded.take 3)).objectInfoMap =
        [("save", Examples.saveInfo)] ∧
      (runCalls (Examples.rejectedRemovedAdded.take 3)).objectCategories = [] ∧
      (∃ obj ∈ Examples.pathTwinExt.objects,
        ∃ e ∈ (runCalls (Examples.rejectedRemovedAdded.take 3)).extensions,
          ∃ o ∈ e.objects, o.categories = obj.categories) ∧
      (runCalls Examples.rejectedRemovedAdded).extensions =
        [Examples.extB Anchor.Last "", Examples.pathTwinExt] ∧
      (runCalls Examples.rejectedRemovedAdded).objectInfoMap.map
          (fun x => (x.1, x.2.categories)) =
        [("save", ["File", "Save"]), ("store", ["File", "Save"])]) := by
  have hcode : ∀ (order : QHashOrder) (d : ActionDomainPrivate) (r : ActionExtension),
      ((∃ e ∈ d.extensions, e.hash = r.hash) ∨
        (∃ obj ∈ r.objects, obj.id ∈ d.objectInfoMap.map Prod.fst) ∨
        (∃ obj ∈ r.objects, obj.categories ∈ d.objectCategories)) →
      addExtension order d r = d := by
    intro order d r h
    unfold addExtension
    by_cases hh : d.extensions.any (fun e => e.hash = r.hash) = true
    · simp [hh]
    · rw [if_neg hh]
      have hnone : addExtension.checkDuplication d r.objects [] [] = none := by
        apply checkDuplication_none
        rcases h with ⟨e, he, heq⟩ | ⟨obj, ho, hid⟩ | ⟨obj, ho, hc⟩
        · exfalso
          apply hh
          simp only [List.any_eq_true, decide_eq_true_eq]
          exact ⟨e, he, heq⟩
        · exact ⟨obj, ho, Or.inl hid⟩
        · exact ⟨obj, ho, Or.inr hc⟩
      rw [hnone]
  refine ⟨hcode, ?_, ?_⟩
  · intro calls hcalls order r h
    have hinv := (registryInv_runCalls calls hcalls).consistent
    apply hcode
    rcases h with h | ⟨obj, ho, hdecl⟩ | ⟨obj, ho, hdecl⟩
    · exact Or.inl h
    · exact Or.inr (Or.inl ⟨obj, ho, (hinv.1 obj.id).2 hdecl⟩)
    · exact Or.inr (Or.inr ⟨obj, ho, (hinv.2 obj.categories).2 hdecl⟩)
  · have h3 : (runCalls (Examples.rejectedRemovedAdded.take 3)).extensions =
        [Examples.extB Anchor.Last ""] := by rfl
    refine ⟨by rfl, h3, by decide, by decide, ?_, by rfl, by decide⟩
    rw [h3]
    exact ⟨_, List.mem_singleton.2 rfl, Examples.extB Anchor.Last "", List.mem_singleton.2 rfl,
      Examples.saveInfo, List.mem_singleton.2 rfl, rfl⟩

/-- C12 at a concrete input: the registry holds `save`, and a second extension that declares the
id `save` again is rejected without any change. -/
theorem duplicate_rejection_atomic_witness :
    (∃ obj ∈ Examples.secondSaveExt.objects,
        obj.id ∈ Examples.saveDomain.objectInfoMap.map Prod.fst) ∧
      addExtension QHashOrder.reversed Examples.saveDomain Examples.secondSaveExt =
        Examples.saveDomain :=
  ⟨⟨_, List.mem_singleton.mpr rfl, by decide⟩,
    duplicate_rejection_atomic.1 QHashOrder.reversed Examples.saveDomain Examples.secondSaveExt
      (Or.inr (Or.inl ⟨_, List.mem_singleton.mpr rfl, by decide⟩))⟩

end Core
namespace Aec
open reg

theorem indexOf_escaped_token (n rest : List Char) (hne : n ≠ [])
    (h : ∀ c ∈ n, isWord c = true) :
    indexOf none ('$' :: '$' :: '$' :: '{' :: (n ++ '}' :: rest)) = some ([], n, rest) := by
  have h1 : pairsThenToken ('$' :: '$' :: '$' :: '{' :: (n ++ '}' :: rest)) =
      some (n, rest) := by
    rw [pairsThenToken]
    simp only [and_self, if_true]
    rw [pairsThenToken_name n rest hne h]
  simp [indexOf, matchAt, h1]

theorem substitute_succ (vars : List (String × String)) (fuel : Nat) (prev : Option Char)
    (s : List Char) (hasMatch : Bool) (result : List Char) :
    parseExpression.substitute vars (fuel + 1) prev s hasMatch result =
      match reg.indexOf prev s with
      | none => (hasMatch, result ++ s)
      | some (skipped, name, rest) =>
        parseExpression.substitute vars fuel (some '}') rest true
          (result ++ skipped ++
            (match vars.lookup (String.mk name) with
              | none => name
              | some val => val.data)) := rfl

/-- C37 (the code departs from the claim): an escaped dollar in front of a token is lost. For
every name `a` that the variable map defines with a value `v` without `$`, `parseExpression`
applied to `$$` immediately followed by the token of `a` returns `v` alone, given fuel for two
passes: the match of the pattern starts at the pairs `$$` in front of the token, and the whole
match is replaced by the value. This holds for the function of `parser.cpp` and for its copy
in `actiondomain.cpp`. -/
theorem escaped_dollar_before_token_is_lost (vars : List (String × String)) (a v : String)
    (ha : IsName a) (hv : vars.lookup a = some v) (hd : ¬ '$' ∈ v.data)
    (fuel : Nat) (hfuel : 2 ≤ fuel) :
    Aec.parseExpression fuel ("$$$\x7b" ++ a ++ "\x7d") vars = some v ∧
      Core.parseExpression fuel ("$$$\x7b" ++ a ++ "\x7d") vars = some v := by
  have hdata : ("$$$\x7b" ++ a ++ "\x7d").data =
      '$' :: '$' :: '$' :: '{' :: (a.data ++ '}' :: []) := by
    simp [String.data_append]
  obtain ⟨k, rfl⟩ : ∃ k, fuel = k + 2 := ⟨fuel - 2, by omega⟩
  have hidx := indexOf_escaped_token a.data [] ha.1 ha.2
  have hpass1 : parseExpression.substitute vars
      ('$' :: '$' :: '$' :: '{' :: (a.data ++ '}' :: [])).length none
      ('$' :: '$' :: '$' :: '{' :: (a.data ++ '}' :: [])) false [] = (true, v.data) := by
    rw [List.length_cons, substitute_succ, hidx]
    simp only
    rw [substitute_of_no_match vars _ _ [] true _ (indexOf_nil _)]
    simp [hv]
  have hpass2 : parseExpression.substitute vars v.data.length none v.data false [] =
      (false, v.data) := by
    rw [substitute_of_no_match vars _ none _ false [] (indexOf_of_no_dollar _ hd none)]
    simp
  have hloop : parseExpression.loop vars (k + 2)
      ('$' :: '$' :: '$' :: '{' :: (a.data ++ '}' :: [])) = some v.data := by
    rw [parseExpression.loop, hpass1]
    simp only
    rw [parseExpression.loop, hpass2]
  rw [Core.parseExpression_eq]
  have : Aec.parseExpression (k + 2) ("$$$\x7b" ++ a ++ "\x7d") vars = some v := by
    simp only [Aec.parseExpression, hdata, hloop, QString.replaceEscapes_of_no_dollar _ hd]
  exact ⟨this, this⟩

/-- The failing input of C37: `$$${dir}` with `dir = assets` gives `assets`, not `$assets`. -/
theorem escaped_dollar_before_token_is_lost_witness :
    Aec.parseExpression 2 "$$${dir}" [("dir", "assets")] = some "assets" ∧
      Core.parseExpression 2 "$$${dir}" [("dir", "assets")] = some "assets" :=
  escaped_dollar_before_token_is_lost [("dir", "assets")] "dir" "assets"
    ⟨by decide, by decide⟩ rfl (by decide) 2 (by decide)

end Aec
namespace Aec
open Core (QMXmlAdaptorElement)
open ParserPrivate

/-- C39 (the code departs from the claim): `fixCategories` drops the last element of an
explicit category path when it is not empty. The loop of the function stops before the last
element, and the last element is only looked at to decide whether the simplified label is
appended. For every object: with a non-empty last element the path becomes the non-empty
elements before it; with an empty last element it becomes those elements followed by the
simplified label. Compiled: `categories="File;Open"` gives the path `[File]`, `categories="File;"`
gives `[File, save]` (the label of `save` is `save`), and `category="Quit"` gives the empty path. -/
theorem explicit_category_path_loses_last_element :
    (∀ (info : ActionObjectInfoMessage) (front : List String) (last : String),
      info.categories = front ++ [last] → last ≠ "" →
      (fixCategories info).categories = front.filter (fun c => c ≠ "")) ∧
    (∀ (info : ActionObjectInfoMessage) (front : List String),
      info.categories = front ++ [""] →
      (fixCategories info).categories =
        front.filter (fun c => c ≠ "") ++ [simplifyActionText info.text]) ∧
    parseStringList "File;Open" = ["File", "Open"] ∧
    (Parser.parse 1 [] "h" (some Examples.explicitPaths)).toOption.map
        (fun r => r.objects.map (fun o => (o.id, o.text, o.categories))) =
      some [("open", "open", ["File"]), ("save", "save", ["File", "save"]),
        ("quit", "quit", [])] := by
  refine ⟨?_, ?_, by decide, by decide!⟩
  · intro info front last hc hl
    simp [fixCategories, hc, List.getLast?_append, hl]
  · intro info front hc
    simp [fixCategories, hc, List.getLast?_append]

end Aec
namespace Core
open IconConfigParser ActionDomain ActionDomainPrivate

/-- The work-list loop does not end once the list is not empty and the `icons` element has a
child: every round takes one element and pushes the children of the `icons` element again. -/
theorem parse_loop_never_ends (fuel : Nat) (p : IconConfigParser) (baseDirectory theme : String)
    (item : QMXmlAdaptorElement) (hc : item.children ≠ []) :
    ∀ (rounds : Nat) (stack : List QMXmlAdaptorElement) (result : IconMap), stack ≠ [] →
      parse.loop fuel p baseDirectory theme item rounds stack result = none := by
  intro rounds
  induction rounds with
  | zero =>
    intro stack result hs
    cases stack with
    | nil => exact absurd rfl hs
    | cons e stack => rfl
  | succ rounds ih =>
    intro stack result hs
    cases stack with
    | nil => exact absurd rfl hs
    | cons e stack =>
      simp only [parse.loop]
      cases parse.read fuel p baseDirectory theme e result with
      | none => rfl
      | some result1 =>
        simp only
        exact ih _ _ (by
          intro h
          exact hc (List.append_eq_nil.1 h).2)

theorem parse_icons_never_ends (fuel rounds : Nat) (p : IconConfigParser)
    (baseDirectory : String) :
    ∀ (elements : List QMXmlAdaptorElement) (result : IconMap),
      (∃ item ∈ elements, item.children ≠ []) →
      parse.icons fuel rounds p baseDirectory elements result = none := by
  intro elements
  induction elements with
  | nil =>
    intro result h
    obtain ⟨item, hi, -⟩ := h
    cases hi
  | cons item rest ih =>
    intro result h
    simp only [parse.icons]
    by_cases hc : item.children = []
    · cases hl : parse.loop fuel p baseDirectory (item.property "theme") item rounds
          item.children (QHash.insert result (item.property "theme")
            ((List.lookup (item.property "theme") result).getD [])) with
      | none => rfl
      | some result1 =>
        simp only
        apply ih
        obtain ⟨x, hx, hxc⟩ := h
        rcases List.mem_cons.1 hx with h1 | h1
        · exact absurd (h1 ▸ hc) hxc
        · exact ⟨x, h1, hxc⟩
    · rw [parse_loop_never_ends fuel p baseDirectory _ item hc rounds _ _ hc]

theorem gather_spec (fuel : Nat) :
    ∀ (children : List QMXmlAdaptorElement) (g : Gathered) (p : IconConfigParser),
      (children.filter (fun c => decide (c.name = "parserConfig"))).length +
        (if g.hasParserConfig = true then 1 else 0) ≤ 1 →
      parse.gather fuel children g p = none ∨
        ∃ g1 p1, parse.gather fuel children g p = some (some (g1, p1)) ∧
          g1.iconsElements =
            g.iconsElements ++ children.filter (fun c => decide (c.name = "icons")) := by
  intro children
  induction children with
  | nil =>
    intro g p _
    exact Or.inr ⟨g, p, rfl, by simp⟩
  | cons item rest ih =>
    intro g p h
    by_cases h1 : item.name = "icons"
    · have hne : item.name ≠ "parserConfig" := by
        rw [h1]
        decide
      simp only [parse.gather, h1, if_true]
      rcases ih { g with iconsElements := g.iconsElements ++ [item] } p
          (by simpa [List.filter_cons, hne] using h) with hn | ⟨g1, p1, hg, hi⟩
      · exact Or.inl hn
      · refine Or.inr ⟨g1, p1, hg, ?_⟩
        rw [hi]
        simp [List.filter_cons, h1]
    · by_cases h2 : item.name = "parserConfig"
      · simp only [List.filter_cons, h2, decide_True, if_true, List.length_cons] at h
        have hg : g.hasParserConfig = false := by
          cases hp : g.hasParserConfig
          · rfl
          · rw [hp] at h
            simp at h
        simp only [parse.gather, h1, if_false, h2, if_true, hg, Bool.false_eq_true]
        cases parseParserConfig fuel item.children "" p with
        | none => exact Or.inl rfl
        | some r =>
          obtain ⟨baseDirectory, p1⟩ := r
          simp only
          rcases ih { g with hasParserConfig := true, baseDirectory := baseDirectory } p1
              (by
                rw [hg] at h
                simp only [Bool.false_eq_true, if_false, if_true] at h ⊢
                omega) with hn | ⟨g1, p2, hg1, hi⟩
          · exact Or.inl hn
          · refine Or.inr ⟨g1, p2, hg1, ?_⟩
            rw [hi]
            simp [List.filter_cons, h1]
      · simp only [parse.gather, h1, if_false, h2]
        rcases ih g p (by simpa [List.filter_cons, h2] using h) with hn | ⟨g1, p1, hg, hi⟩
        · exact Or.inl hn
        · refine Or.inr ⟨g1, p1, hg, ?_⟩
          rw [hi]
          simp [List.filter_cons, h1]

/-- C40 (the code departs from the claim): `IconConfigParser::parse` does not return on a
document whose `icons` element has a child. For every file whose document has the root
`iconConfiguration`, at most one `parserConfig` element and an `icons` element with at least
one child, the call returns for no number of rounds of the work-list loop: the loop pushes the
children of the `icons` element, not those of the element it has just read, so the work list
never gets empty. A read of the icons after `addIconConfiguration` of such a file does not
return either. -/
theorem icon_configuration_parse_never_returns (disk : IconDocuments) (fuel rounds : Nat)
    (p : IconConfigParser) (root : QMXmlAdaptorElement)
    (hload : disk.load p.fileName = some root) (hname : root.name = "iconConfiguration")
    (hconfig : (root.children.filter (fun c => decide (c.name = "parserConfig"))).length ≤ 1)
    (hicons : ∃ item ∈ root.children, item.name = "icons" ∧ item.children ≠ []) :
    parse disk fuel rounds p = none ∧
    (∀ (isFile : String → Bool) (canonicalFilePath : String → String) (d : Icons),
      isFile p.fileName = true →
      iconThemes (disk.files isFile canonicalFilePath fuel rounds)
        (addIconConfiguration (disk.files isFile canonicalFilePath fuel rounds) d
          p.fileName) = none) := by
  have hparse : ∀ q : IconConfigParser, q.fileName = p.fileName →
      parse disk fuel rounds q = none := by
    intro q hq
    simp only [parse, hq, hload, hname, ne_eq, not_true_eq_false, if_false]
    rcases gather_spec fuel root.children ⟨[], false, disk.absolutePath p.fileName⟩ q
        (by simpa using hconfig) with hn | ⟨g1, p1, hg, hi⟩
    · rw [hn]
    · rw [hg]
      simp only
      apply parse_icons_never_ends
      obtain ⟨item, hmem, hn, hc⟩ := hicons
      refine ⟨item, ?_, hc⟩
      rw [hi]
      simp [hmem, hn]
  refine ⟨hparse p rfl, ?_⟩
  intro isFile canonicalFilePath d hfile
  have hnone : ∀ (before : List (List String × IconChange)) (s : IconStorage),
      flushIcons.changes (disk.files isFile canonicalFilePath fuel rounds)
        (before ++ [([p.fileName], IconChange.config p.fileName false)]) s = none := by
    intro before
    induction before with
    | nil =>
      intro s
      simp only [List.nil_append, flushIcons.changes, flushIcons.change, Bool.false_eq_true,
        if_false, IconDocuments.files, hparse ⟨p.fileName, []⟩ rfl]
    | cons c rest ih =>
      intro s
      simp only [List.cons_append, flushIcons.changes]
      cases flushIcons.change (disk.files isFile canonicalFilePath fuel rounds) s c.2 with
      | none => rfl
      | some s1 => exact ih s1
  have hadd : (addIconConfiguration (disk.files isFile canonicalFilePath fuel rounds) d
      p.fileName).changes =
        d.changes.filter (fun c => c.1 ≠ [p.fileName]) ++
          [([p.fileName], IconChange.config p.fileName false)] := by
    simp [addIconConfiguration, IconDocuments.files, hfile, IconChange.replace]
  have hstore : (addIconConfiguration (disk.files isFile canonicalFilePath fuel rounds) d
      p.fileName).iconStorage = d.iconStorage := by
    simp [addIconConfiguration, IconDocuments.files, hfile]
  simp only [iconThemes, flushIcons, hadd, hstore, hnone]
  cases d.changes.filter (fun c => c.1 ≠ [p.fileName]) <;> rfl

/-- The failing input of C40: the configuration `/icons/dark.xml` with one `icons` element that
holds one icon. The parser does not return on it, and neither does a read of the themes after
the file was registered; the configuration whose `icons` element is empty is parsed. -/
theorem icon_configuration_parse_never_returns_witness :
    (∀ rounds, parse Examples.iconDocuments 2 rounds ⟨"/icons/dark.xml", []⟩ = none) ∧
    (∀ rounds, iconThemes (Examples.iconDocuments.files (fun _ => true) id 2 rounds)
      (addIconConfiguration (Examples.iconDocuments.files (fun _ => true) id 2 rounds)
        Icons.init "/icons/dark.xml") = none) ∧
    parse Examples.iconDocuments 2 0 ⟨"/icons/empty.xml", []⟩ = some [("dark", [])] :=
  ⟨fun rounds => (icon_configuration_parse_never_returns Examples.iconDocuments 2 rounds
      ⟨"/icons/dark.xml", []⟩ Examples.darkConfiguration rfl rfl (by decide)
      ⟨_, List.mem_singleton.2 rfl, rfl, List.cons_ne_nil _ _⟩).1,
    fun rounds => (icon_configuration_parse_never_returns Examples.iconDocuments 2 rounds
      ⟨"/icons/dark.xml", []⟩ Examples.darkConfiguration rfl rfl (by decide)
      ⟨_, List.mem_singleton.2 rfl, rfl, List.cons_ne_nil _ _⟩).2 (fun _ => true) id Icons.init rfl,
    by decide⟩

end Core
namespace reg

theorem token_dollars (s name rest : List Char) (h : token s = some (name, rest)) :
    rest.count '$' + 1 ≤ s.count '$' ∧ ∀ c ∈ name, isWord c = true := by
  match s, h with
  | c1 :: c2 :: t, h =>
    simp only [token] at h
    split at h
    · next hc =>
      split at h
      · next c3 r hd =>
        split at h
        · simp only [Option.some.injEq, Prod.mk.injEq] at h
          obtain ⟨rfl, rfl⟩ := h
          have hsub : (r.count '$') ≤ t.count '$' := by
            have h1 : (c3 :: r).Sublist t := hd ▸ List.dropWhile_sublist isWord
            have h2 : r.Sublist t := (List.sublist_cons_self c3 r).trans h1
            exact h2.count_le _
          refine ⟨?_, fun c hc1 => ?_⟩
          · rw [hc.1]
            simp only [List.count_cons_self]
            have : (c2 :: t).count '$' = t.count '$' := by
              rw [hc.2]
              simp
            omega
          · exact (List.mem_takeWhile_imp hc1)
        · cases h
      · cases h
    · cases h

theorem pairsThenToken_dollars :
    ∀ (n : Nat) (s name rest : List Char), s.length ≤ n →
      pairsThenToken s = some (name, rest) →
      rest.count '$' + 1 ≤ s.count '$' ∧ ∀ c ∈ name, isWord c = true := by
  intro n
  induction n with
  | zero =>
    intro s name rest hn h
    have hs : s = [] := List.length_eq_zero.mp (by omega)
    subst hs
    simp [pairsThenToken, token] at h
  | succ k ih =>
    intro s name rest hn h
    match s, h with
    | [], h => simp [pairsThenToken, token] at h
    | [c], h => simp [pairsThenToken, token] at h
    | c1 :: c2 :: t, h =>
      simp only [pairsThenToken] at h
      split at h
      · cases hp : pairsThenToken t with
        | some r =>
          obtain ⟨a, b⟩ := r
          simp only [hp, Option.some.injEq, Prod.mk.injEq] at h
          obtain ⟨rfl, rfl⟩ := h
          obtain ⟨h1, h2⟩ := ih t _ _ (by simp only [List.length_cons] at hn; omega) hp
          refine ⟨?_, h2⟩
          simp only [List.count_cons]
          omega
        | none =>
          simp only [hp] at h
          exact token_dollars _ _ _ h
      · exact token_dollars _ _ _ h

/-- A match takes at least one dollar out of the text, and the captured name holds none. -/
theorem indexOf_dollars (s : List Char) :
    ∀ (prev : Option Char) (skipped name rest : List Char),
      indexOf prev s = some (skipped, name, rest) →
      skipped.count '$' + rest.count '$' + 1 ≤ s.count '$' ∧ ¬ '$' ∈ name := by
  induction s with
  | nil =>
    intro prev skipped name rest h
    rw [indexOf_nil] at h
    cases h
  | cons c t ih =>
    intro prev skipped name rest h
    simp only [indexOf] at h
    cases hm : matchAt prev (c :: t) with
    | some r =>
      obtain ⟨a, b⟩ := r
      simp only [hm, Option.some.injEq, Prod.mk.injEq] at h
      obtain ⟨rfl, rfl, rfl⟩ := h
      unfold matchAt at hm
      split at hm
      · cases hm
      · obtain ⟨h1, h2⟩ := pairsThenToken_dollars _ _ _ _ (Nat.le_refl _) hm
        refine ⟨by simpa using h1, fun hd => ?_⟩
        exact isWord_not_dollar (h2 _ hd) rfl
    | none =>
      simp only [hm] at h
      cases hi : indexOf (some c) t with
      | none => simp [hi] at h
      | some r =>
        obtain ⟨a, b, d⟩ := r
        simp only [hi, Option.some.injEq, Prod.mk.injEq] at h
        obtain ⟨rfl, rfl, rfl⟩ := h
        obtain ⟨h1, h2⟩ := ih _ _ _ _ hi
        refine ⟨?_, h2⟩
        simp only [List.count_cons]
        omega

end reg

namespace Aec
open reg

theorem substitute_some (vars : List (String × String)) (fuel : Nat) (prev : Option Char)
    (s : List Char) (hasMatch : Bool) (result skipped name rest : List Char)
    (h : indexOf prev s = some (skipped, name, rest)) :
    parseExpression.substitute vars (fuel + 1) prev s hasMatch result =
      parseExpression.substitute vars fuel (some '}') rest true
        (result ++ skipped ++ Segment.value vars (Segment.token (String.mk name))) := by
  rw [substitute_succ, h]
  rfl

/-- A pass does not add dollars when no value holds one, and a pass that substitutes takes at
least one away. -/
theorem substitute_dollars (vars : List (String × String))
    (hvals : ∀ k v, vars.lookup k = some v → ¬ '$' ∈ v.data) :
    ∀ (fuel : Nat) (prev : Option Char) (s : List Char) (hasMatch : Bool) (result : List Char),
      (parseExpression.substitute vars fuel prev s hasMatch result).2.count '$' ≤
          result.count '$' + s.count '$' ∧
        ((parseExpression.substitute vars fuel prev s hasMatch result).1 = true →
          hasMatch = false →
          (parseExpression.substitute vars fuel prev s hasMatch result).2.count '$' + 1 ≤
            result.count '$' + s.count '$') := by
  intro fuel
  induction fuel with
  | zero =>
    intro prev s hasMatch result
    simp only [parseExpression.substitute, List.count_append, le_refl, true_and]
    intro h1 h2
    rw [h1] at h2
    cases h2
  | succ fuel ih =>
    intro prev s hasMatch result
    cases hi : indexOf prev s with
    | none =>
      rw [substitute_of_no_match vars _ prev s hasMatch result hi]
      simp only [List.count_append, le_refl, true_and]
      intro h1 h2
      rw [h1] at h2
      cases h2
    | some r =>
      obtain ⟨skipped, name, rest⟩ := r
      rw [substitute_some vars fuel prev s hasMatch result skipped name rest hi]
      obtain ⟨hd, hname⟩ := indexOf_dollars s prev skipped name rest hi
      have hval : (Segment.value vars (Segment.token (String.mk name))).count '$' = 0 := by
        apply List.count_eq_zero_of_not_mem
        simp only [Segment.value]
        cases hl : vars.lookup (String.mk name) with
        | none => exact hname
        | some val => exact hvals _ val hl
      obtain ⟨h1, -⟩ := ih (some '}') rest true
        (result ++ skipped ++ Segment.value vars (Segment.token (String.mk name)))
      simp only [List.count_append, hval] at h1
      constructor
      · omega
      · intro _ _
        omega

/-- The loop of passes returns when it is given one pass more than the text has dollars. -/
theorem loop_returns (vars : List (String × String))
    (hvals : ∀ k v, vars.lookup k = some v → ¬ '$' ∈ v.data) :
    ∀ (fuel : Nat) (s : List Char), s.count '$' + 1 ≤ fuel →
      ∃ r, parseExpression.loop vars fuel s = some r := by
  intro fuel
  induction fuel with
  | zero =>
    intro s h
    omega
  | succ fuel ih =>
    intro s h
    rw [parseExpression.loop]
    obtain ⟨h1, h2⟩ := substitute_dollars vars hvals s.length none s false []
    cases hs : parseExpression.substitute vars s.length none s false [] with
    | mk b r =>
      rw [hs] at h1 h2
      cases b with
      | false => exact ⟨r, rfl⟩
      | true =>
        simp only
        have := h2 rfl rfl
        simp only [List.count_nil, zero_add] at this
        exact ih r (by omega)

end Aec
namespace Aec
open reg

theorem loop_fuel_mono (vars : List (String × String)) :
    ∀ (fuel : Nat) (s r : List Char), parseExpression.loop vars fuel s = some r →
      ∀ k, parseExpression.loop vars (fuel + k) s = some r := by
  intro fuel
  induction fuel with
  | zero =>
    intro s r h
    simp [parseExpression.loop] at h
  | succ fuel ih =>
    intro s r h k
    rw [show fuel + 1 + k = (fuel + k) + 1 by omega]
    rw [parseExpression.loop] at h ⊢
    cases hs : parseExpression.substitute vars s.length none s false [] with
    | mk b t =>
      rw [hs] at h
      cases b with
      | false => exact h
      | true => exact ih t r h k

/-- C38: variable expansion terminates when no value of the variable map holds a `$`. For every
input text there is a result that `parseExpression` returns whenever it is given at least one
pass more than the text has `$` characters, so at most that many passes are made; and every
pass that substitutes leaves a text with strictly fewer `$` characters than it was given. This
holds for the function of `parser.cpp` and for its copy in `actiondomain.cpp`. -/
theorem expansion_terminates (vars : List (String × String))
    (hvals : ∀ k v, vars.lookup k = some v → ¬ '$' ∈ v.data) (s : String) :
    (∃ r, ∀ fuel, s.data.count '$' + 1 ≤ fuel →
      Aec.parseExpression fuel s vars = some r ∧ Core.parseExpression fuel s vars = some r) ∧
    (∀ t r : List Char,
      Aec.parseExpression.substitute vars t.length none t false [] = (true, r) →
        r.count '$' < t.count '$') ∧
    (∀ t r : List Char,
      Core.parseExpression.substitute vars t.length none t false [] = (true, r) →
        r.count '$' < t.count '$') := by
  have hpass : ∀ t r : List Char,
      Aec.parseExpression.substitute vars t.length none t false [] = (true, r) →
        r.count '$' < t.count '$' := by
    intro t r h
    obtain ⟨-, h2⟩ := substitute_dollars vars hvals t.length none t false []
    rw [h] at h2
    have := h2 rfl rfl
    simp only [List.count_nil, zero_add] at this
    omega
  refine ⟨?_, hpass, ?_⟩
  · obtain ⟨r, hr⟩ := loop_returns vars hvals (s.data.count '$' + 1) s.data (le_refl _)
    refine ⟨String.mk (QString.replaceEscapes r), ?_⟩
    intro fuel hfuel
    have hloop : parseExpression.loop vars fuel s.data = some r := by
      have := loop_fuel_mono vars _ s.data r hr (fuel - (s.data.count '$' + 1))
      rwa [show s.data.count '$' + 1 + (fuel - (s.data.count '$' + 1)) = fuel by omega] at this
    rw [Core.parseExpression_eq]
    have : Aec.parseExpression fuel s vars = some (String.mk (QString.replaceEscapes r)) := by
      simp only [Aec.parseExpression, hloop]
    exact ⟨this, this⟩
  · intro t r h
    rw [Core.parseExpression.substitute_eq] at h
    exact hpass t r h

/-- Witness of C38: `${${a}}` with `a = b` and `b = v` holds two `$` and is expanded in three
passes, the last of which finds nothing to substitute. -/
theorem expansion_terminates_witness :
    ("${${a}}".data.count '$' = 2) ∧
    ∃ r, ∀ fuel, 3 ≤ fuel →
      Aec.parseExpression fuel "${${a}}" [("a", "b"), ("b", "v")] = some r ∧
        Core.parseExpression fuel "${${a}}" [("a", "b"), ("b", "v")] = some r := by
  refine ⟨by decide, ?_⟩
  have h := (expansion_terminates [("a", "b"), ("b", "v")] (by
    intro k v hl
    simp only [List.lookup] at hl
    split at hl
    · cases hl
      decide
    · split at hl
      · cases hl
        decide
      · cases hl) "${${a}}").1
  exact h

end Aec
namespace Aec

open Core (QMXmlAdaptorElement)
open ParserPrivate

/-! ### Consistency of the compiled record -/

theorem mem_of_lookup_some {β : Type} (m : List (String × β)) (k : String) (v : β)
    (h : m.lookup k = some v) : (k, v) ∈ m := by
  induction m with
  | nil => cases h
  | cons e m ih =>
    obtain ⟨k0, v0⟩ := e
    rw [Core.lookup_cons_ite] at h
    split at h
    · rename_i hk
      cases h
      subst hk
      exact List.mem_cons_self _ _
    · exact List.mem_cons_of_mem _ (ih h)

theorem QHash.set_keys {β : Type} (m : List (String × β)) (key : String) (v : β)
    (h : (m.lookup key).isSome = true) :
    (QHash.set m key v).map Prod.fst = m.map Prod.fst := by
  unfold QHash.set
  rw [if_pos h, List.map_map]
  apply List.map_congr_left
  intro x _
  simp only [Function.comp]
  split
  · rename_i hx
    exact hx.symm
  · rfl

theorem QHash.mem_after_set {β : Type} (m : List (String × β)) (key : String) (v : β)
    (x : String × β) (h : x ∈ QHash.set m key v) : x ∈ m ∨ x = (key, v) := by
  unfold QHash.set at h
  split at h
  · rw [List.mem_map] at h
    obtain ⟨y, hy, hxy⟩ := h
    split at hxy
    · exact Or.inr hxy.symm
    · subst hxy
      exact Or.inl hy
  · rw [List.mem_append, List.mem_singleton] at h
    exact h

theorem TypesKept.types_refl (m : List (String × ActionObjectInfoMessage)) : TypesKept m m :=
  fun _ info h => ⟨info, h, rfl⟩

theorem TypesKept.types_trans {m m1 m2 : List (String × ActionObjectInfoMessage)}
    (h : TypesKept m m1) (h1 : TypesKept m1 m2) : TypesKept m m2 := by
  intro k info hk
  obtain ⟨i1, h1k, ht⟩ := h k info hk
  obtain ⟨i2, h2k, ht2⟩ := h1 k i1 h1k
  exact ⟨i2, h2k, ht2.trans ht⟩

theorem EntryOk.of_typesKept {m m1 : List (String × ActionObjectInfoMessage)}
    (h : TypesKept m m1) {entry : ActionLayoutEntryMessage} (he : EntryOk m entry) :
    EntryOk m1 entry := by
  rcases he with he | ⟨hne, info, hl, ha, hc⟩
  · exact Or.inl he
  · obtain ⟨i1, h1, ht⟩ := h _ _ hl
    exact Or.inr ⟨hne, i1, h1, by rw [ht]; exact ha, hc⟩

/-- The type that `determineObjectType` sets is Action, Group or Menu. -/
theorem determineObjectType_type (fuel : Nat) (p : ParserPrivate) (e : QMXmlAdaptorElement)
    (info info1 : ActionObjectInfoMessage) (h : p.determineObjectType fuel e info = .ok info1) :
    info1.type = MessageType.Action ∨ info1.type = MessageType.Group ∨
      info1.type = MessageType.Menu := by
  unfold determineObjectType at h
  repeat' split at h
  all_goals
    cases h
    try simp

/-- The object that `parseObject` returns has the resolved id of the element, which is not
empty, and is an Action, a Group or a Menu. -/
theorem parseObject_type (fuel : Nat) (p : ParserPrivate) (e : QMXmlAdaptorElement)
    (entity : ActionObjectInfoMessage) (h : p.parseObject fuel e = .ok entity) :
    entity.id ≠ "" ∧ (entity.type = MessageType.Action ∨ entity.type = MessageType.Group ∨
      entity.type = MessageType.Menu) := by
  unfold parseObject at h
  cases hid : p.resolve fuel (e.property "id") with
  | error f => simp [hid] at h
  | ok id =>
    simp only [hid] at h
    split at h
    · cases h
    · rename_i hne
      cases hd : p.determineObjectType fuel e ⟨id, MessageType.Action, MessageMode.Plain, "", "",
          [], [], ""⟩ with
      | error f => simp [hd] at h
      | ok info1 =>
        simp only [hd] at h
        have hi := determineObjectType_id fuel p e _ _ hd
        have ht := determineObjectType_type fuel p e _ _ hd
        simp only at hi
        repeat' split at h
        all_goals
          cases h
          try exact ⟨by rw [hi]; exact hne, ht⟩

/-- The type that `entryType` gives agrees with the type of the object, and it is Action only
for an Action. -/
theorem entryType_agrees (fuel : Nat) (p : ParserPrivate) (e : QMXmlAdaptorElement)
    (info : ActionObjectInfoMessage) (type : MessageType)
    (ht : info.type = MessageType.Action ∨ info.type = MessageType.Group ∨
      info.type = MessageType.Menu)
    (h : p.entryType fuel e info = .ok type) :
    typeAgrees info.type type = true ∧ (type = MessageType.Action ↔ info.type = MessageType.Action) ∧
      type ≠ MessageType.Separator ∧ type ≠ MessageType.Stretch := by
  unfold entryType at h
  split at h
  · rename_i ha
    cases h
    rw [ha]
    decide
  · rename_i hna
    split at h
    · rename_i hm
      split at h
      · cases h
      · simp only [Except.ok.injEq] at h
        subst h
        rw [hm]
        split <;> decide
    · rename_i hnm
      cases h
      rcases ht with ht | ht | ht
      · exact absurd ht hna
      · rw [ht]
        decide
      · exact absurd ht hnm

/-- What `findOrInsertObjectInfo` does to `objInfoMap`: objects stay under their keys with their
types, the keys stay distinct, and the object returned is stored under its id. -/
theorem findOrInsertObjectInfo_objects (fuel : Nat) (p p1 : ParserPrivate)
    (e : QMXmlAdaptorElement) (categories : List String) (info : ActionObjectInfoMessage)
    (h : p.findOrInsertObjectInfo fuel e categories = .ok (info, p1))
    (hk : (p.objInfoMap.map Prod.fst).Nodup)
    (ho : ∀ x ∈ p.objInfoMap, x.2.id = x.1 ∧ x.1 ≠ "" ∧
      (x.2.type = MessageType.Action ∨ x.2.type = MessageType.Group ∨
        x.2.type = MessageType.Menu)) :
    TypesKept p.objInfoMap p1.objInfoMap ∧ (p1.objInfoMap.map Prod.fst).Nodup ∧
      (∀ x ∈ p1.objInfoMap, x.2.id = x.1 ∧ x.1 ≠ "" ∧
        (x.2.type = MessageType.Action ∨ x.2.type = MessageType.Group ∨
          x.2.type = MessageType.Menu)) ∧
      p1.objInfoMap.lookup info.id = some info ∧ info.id ≠ "" ∧
      (info.type = MessageType.Action ∨ info.type = MessageType.Group ∨
        info.type = MessageType.Menu) := by
  unfold findOrInsertObjectInfo at h
  cases hid : p.resolve fuel (e.property "id") with
  | error f => simp [hid] at h
  | ok id =>
    simp only [hid] at h
    split at h
    · cases h
    · rename_i hne
      cases hcat : p.resolve fuel (e.property "_cat") with
      | error f => simp [hcat] at h
      | ok cat =>
        simp only [hcat] at h
        cases hl : p.objInfoMap.lookup id with
        | some found =>
          simp only [hl] at h
          have hmem := mem_of_lookup_some _ _ _ hl
          obtain ⟨hfid, _, hft⟩ := ho _ hmem
          simp only at hfid hft
          split at h
          · cases h
          · split at h
            · cases h
              refine ⟨?_, ?_, ?_, ?_, ?_, hft⟩
              · intro k i hki
                simp only [QHash.lookup_after_set]
                split
                · rename_i hkid
                  subst hkid
                  rw [hl] at hki
                  cases hki
                  exact ⟨_, rfl, rfl⟩
                · exact ⟨i, hki, rfl⟩
              · simp only
                rw [QHash.set_keys _ _ _ (by rw [hl]; rfl)]
                exact hk
              · intro x hx
                rcases QHash.mem_after_set _ _ _ _ hx with hx | hx
                · exact ho x hx
                · subst hx
                  exact ⟨hfid, hne, hft⟩
              · simp only [QHash.lookup_after_set, hfid, if_true]
              · simp only [hfid]
                exact hne
            · cases h
              refine ⟨TypesKept.types_refl _, hk, ho, ?_, ?_, hft⟩
              · rw [hfid]
                exact hl
              · rw [hfid]
                exact hne
        | none =>
          simp only [hl] at h
          cases hd : p.determineObjectType fuel e ⟨id, MessageType.Action, MessageMode.Plain, "",
              "", [], [], ""⟩ with
          | error f => simp [hd] at h
          | ok info1 =>
            simp only [hd, Except.ok.injEq, Prod.mk.injEq] at h
            obtain ⟨rfl, rfl⟩ := h
            have hi := determineObjectType_id fuel p e _ _ hd
            have ht := determineObjectType_type fuel p e _ _ hd
            simp only at hi
            refine ⟨?_, ?_, ?_, ?_, ?_, ht⟩
            · intro k i hki
              refine ⟨i, ?_, rfl⟩
              simp only [Core.lookup_append_map, hki]
            · simp only [List.map_append, List.map_cons, List.map_nil]
              rw [List.nodup_append]
              refine ⟨hk, List.nodup_singleton _, ?_⟩
              intro a ha hb
              rw [List.mem_singleton] at hb
              subst hb
              exact (Core.lookup_eq_none_iff_not_mem_keys _ _).1 hl ha
            · intro x hx
              simp only [List.mem_append, List.mem_singleton] at hx
              rcases hx with hx | hx
              · exact ho x hx
              · subst hx
                exact ⟨hi, hne, ht⟩
            · simp only [hi]
              rw [Core.lookup_append_map, hl]
              simp [Core.lookup_cons_ite]
            · simp only [hi]
              exact hne

end Aec
namespace Aec

open Core (QMXmlAdaptorElement)
open ParserPrivate

theorem getElem?_append_some {α : Type} (l t : List α) (i : Nat) (a : α) (h : l[i]? = some a) :
    (l ++ t)[i]? = some a := by
  have hlt : i < l.length := by
    by_contra hge
    rw [List.getElem?_eq_none (by omega)] at h
    cases h
  rw [List.getElem?_append_left hlt]
  exact h

theorem getElem?_append_length {α : Type} (l t : List α) (a : α) :
    (l ++ a :: t)[l.length]? = some a := by
  rw [List.getElem?_append_right (Nat.le_refl _), Nat.sub_self, List.getElem?_cons_zero]

theorem lookup_of_getD_cons {β : Type} (m : List (String × List β)) (k : String) (first : β)
    (others : List β) (h : (m.lookup k).getD [] = first :: others) :
    m.lookup k = some (first :: others) := by
  cases hl : m.lookup k with
  | none => rw [hl] at h; cases h
  | some v => rw [hl] at h; exact congrArg some h

namespace ParserPrivate.Consistent

/-- A change of `objInfoMap` alone that keeps the objects under their keys with their types
keeps the state consistent. -/
theorem after_lookup {p p1 : ParserPrivate} (h : p.Consistent)
    (hs : p1.objSeqMap = p.objSeqMap) (hr : p1.result = p.result)
    (ht : TypesKept p.objInfoMap p1.objInfoMap) (hk : (p1.objInfoMap.map Prod.fst).Nodup)
    (ho : ∀ x ∈ p1.objInfoMap, x.2.id = x.1 ∧ x.1 ≠ "" ∧
      (x.2.type = MessageType.Action ∨ x.2.type = MessageType.Group ∨
        x.2.type = MessageType.Menu)) : p1.Consistent := by
  refine ⟨hk, ho, ?_, ?_⟩
  · intro entry he
    rw [hr] at he
    exact EntryOk.of_typesKept ht (h.entries entry he)
  · intro id seqs hl s hs1
    rw [hs] at hl
    obtain ⟨entry, info, he, hid, hi, hna⟩ := h.seqs id seqs hl s hs1
    obtain ⟨info1, hi1, ht1⟩ := ht _ _ hi
    exact ⟨entry, info1, by rw [hr]; exact he, hid, hi1, by rw [ht1]; exact hna⟩

/-- Appending a well-formed entry keeps the state consistent. -/
theorem after_appendEntry {p : ParserPrivate} (h : p.Consistent)
    (entry : ActionLayoutEntryMessage) (he : EntryOk p.objInfoMap entry) :
    (p.appendEntry entry).Consistent := by
  refine ⟨h.keys, h.objects, ?_, ?_⟩
  · intro x hx
    simp only [appendEntry, List.mem_append, List.mem_singleton] at hx
    rcases hx with hx | hx
    · exact h.entries x hx
    · subst hx
      exact he
  · intro id seqs hl s hs1
    obtain ⟨x, info, hx, hid, hi, hna⟩ := h.seqs id seqs hl s hs1
    exact ⟨x, info, getElem?_append_some _ _ _ _ hx, hid, hi, hna⟩

/-- Recording a sequence key for the entry that is appended next keeps the state consistent. -/
theorem after_placeholder {p : ParserPrivate} (h : p.Consistent)
    (info : ActionObjectInfoMessage) (type : MessageType) (seq : String)
    (hi : p.objInfoMap.lookup info.id = some info) (hid : info.id ≠ "")
    (hna : info.type ≠ MessageType.Action) (hta : typeAgrees info.type type = true)
    (htna : type ≠ MessageType.Action) :
    ((p.appendSeq info.id seq p.result.layouts.length).appendEntry
      ⟨info.id, type, []⟩).Consistent := by
  refine ⟨h.keys, h.objects, ?_, ?_⟩
  · intro x hx
    simp only [appendEntry, appendSeq, List.mem_append, List.mem_singleton] at hx
    rcases hx with hx | hx
    · exact h.entries x hx
    · subst hx
      exact Or.inr ⟨hid, info, hi, hta, fun ha => absurd ha htna⟩
  · intro id seqs hl s hs1
    simp only [appendEntry, appendSeq, QHash.lookup_after_set] at hl
    simp only [appendEntry, appendSeq]
    split at hl
    · rename_i hidk
      subst hidk
      simp only [Option.some.injEq] at hl
      subst hl
      rw [List.mem_append, List.mem_singleton] at hs1
      rcases hs1 with hs1 | hs1
      · cases hq : p.objSeqMap.lookup info.id with
        | none =>
          rw [hq] at hs1
          cases hs1
        | some old =>
          rw [hq] at hs1
          obtain ⟨x, info1, hx, hxid, hi1, hna1⟩ := h.seqs _ old hq s hs1
          exact ⟨x, info1, getElem?_append_some _ _ _ _ hx, hxid, hi1, hna1⟩
      · subst hs1
        exact ⟨⟨info.id, type, []⟩, info, getElem?_append_length _ _ _, rfl, hi, hna⟩
    · obtain ⟨x, info1, hx, hxid, hi1, hna1⟩ := h.seqs id seqs hl s hs1
      exact ⟨x, info1, getElem?_append_some _ _ _ _ hx, hxid, hi1, hna1⟩

/-- Setting the children of an entry with an id that is not an Action keeps the state
consistent. -/
theorem after_setChildIndexes {p : ParserPrivate} (h : p.Consistent) (i : Nat)
    (childIndexes : List Nat)
    (hentry : ∀ entry, p.result.layouts[i]? = some entry →
      entry.type ≠ MessageType.Action ∧ entry.id ≠ "") :
    (p.setChildIndexes i childIndexes).Consistent := by
  refine ⟨h.keys, h.objects, ?_, ?_⟩
  · intro x hx
    simp only [setChildIndexes] at hx
    obtain ⟨j, hj⟩ := List.mem_iff_getElem?.1 hx
    rw [List.getElem?_modify] at hj
    cases ho : p.result.layouts[j]? with
    | none => rw [ho] at hj; cases hj
    | some old =>
      rw [ho] at hj
      simp only [Option.map_eq_map, Option.map_some', Option.some.injEq] at hj
      have hold := h.entries old (List.mem_iff_getElem?.2 ⟨j, ho⟩)
      split at hj
      · rename_i hij
        subst hij
        subst hj
        obtain ⟨hna, hne⟩ := hentry old ho
        rcases hold with ⟨he, _⟩ | ⟨_, info, hl, hta, _⟩
        · exact absurd he hne
        · exact Or.inr ⟨hne, info, hl, hta, fun ha => absurd ha hna⟩
      · subst hj
        exact hold
  · intro id seqs hl s hs1
    obtain ⟨x, info, hx, hxid, hi, hna⟩ := h.seqs id seqs hl s hs1
    simp only [setChildIndexes, List.getElem?_modify, hx, Option.map_eq_map, Option.map_some']
    split
    · exact ⟨_, info, rfl, hxid, hi, hna⟩
    · exact ⟨_, info, rfl, hxid, hi, hna⟩

end ParserPrivate.Consistent

/-- A successful `findOrInsertObjectInfo` keeps the state consistent and returns an object that
is stored under its id. -/
theorem findOrInsertObjectInfo_consistent (fuel : Nat) (p p1 : ParserPrivate)
    (e : QMXmlAdaptorElement) (categories : List String) (info : ActionObjectInfoMessage)
    (hc : p.Consistent) (h : p.findOrInsertObjectInfo fuel e categories = .ok (info, p1)) :
    p1.Consistent ∧ p1.objInfoMap.lookup info.id = some info ∧ info.id ≠ "" ∧
      (info.type = MessageType.Action ∨ info.type = MessageType.Group ∨
        info.type = MessageType.Menu) := by
  obtain ⟨_, _, hs, hr⟩ := findOrInsertObjectInfo_frame fuel p p1 e categories info h
  obtain ⟨ht, hk, ho, hl, hid, hty⟩ :=
    findOrInsertObjectInfo_objects fuel p p1 e categories info h hc.keys hc.objects
  exact ⟨hc.after_lookup hs hr ht hk ho, hl, hid, hty⟩

/-- A successful `declare` for an object that is not an Action keeps the state consistent; a
placeholder is an entry with the id of the object and the given type. -/
theorem declare_consistent (p : ParserPrivate) (e : QMXmlAdaptorElement)
    (info : ActionObjectInfoMessage) (type : MessageType) (seq : String) (d : Declared)
    (hc : p.Consistent) (hi : p.objInfoMap.lookup info.id = some info) (hid : info.id ≠ "")
    (hna : info.type ≠ MessageType.Action) (hta : typeAgrees info.type type = true)
    (htna : type ≠ MessageType.Action)
    (h : p.declare e info type seq = .ok d) :
    (∀ p2, d = Declared.finished p2 → p2.Consistent) ∧
    (∀ p2, d = Declared.placeholder p2 →
      p2.Consistent ∧ p2.result.layouts = p.result.layouts ++ [⟨info.id, type, []⟩]) := by
  have hfresh : EntryOk p.objInfoMap ⟨info.id, type, []⟩ :=
    Or.inr ⟨hid, info, hi, hta, fun ha => absurd ha htna⟩
  unfold declare at h
  split at h
  · cases h
    refine ⟨fun _ hd => ?_, fun _ hd => ?_⟩ <;> cases hd
    exact ⟨hc.after_placeholder info type seq hi hid hna hta htna, rfl⟩
  · rename_i first others hseqs
    split at h
    · split at h
      · split at h
        · cases h
          refine ⟨fun _ hd => ?_, fun _ hd => ?_⟩ <;> cases hd
          exact hc.after_appendEntry _ hfresh
        · cases h
      · cases h
        refine ⟨fun _ hd => ?_, fun _ hd => ?_⟩ <;> cases hd
        exact ⟨hc.after_placeholder info type seq hi hid hna hta htna, rfl⟩
    · rename_i idx hidx
      split at h
      · cases h
      · rename_i entry hentry
        cases h
        refine ⟨fun _ hd => ?_, fun _ hd => ?_⟩ <;> cases hd
        obtain ⟨x, info1, hx, hxid, _, _⟩ :=
          hc.seqs info.id _ (lookup_of_getD_cons _ _ _ _ hseqs) (seq, idx)
            (mem_of_lookup_some _ _ _ hidx)
        simp only at hx
        rw [hentry] at hx
        cases hx
        refine hc.after_appendEntry _ (Or.inr ⟨?_, info, ?_, hta, fun ha => absurd ha htna⟩)
        · simp only [hxid]
          exact hid
        · simp only [hxid]
          exact hi

/-- A successful `enter` keeps the state consistent; when the children are parsed next, the
entry appended has an id and is not an Action. -/
theorem enter_consistent (fuel : Nat) (p : ParserPrivate) (e : QMXmlAdaptorElement)
    (categories path : List String) (d : Entered) (hc : p.Consistent)
    (h : parseLayoutRecursively.enter fuel p e categories path = .ok d) :
    (∀ idx p2, d = Entered.finished idx p2 → p2.Consistent) ∧
    (∀ info p2, d = Entered.descend info p2 →
      p2.Consistent ∧ ∃ entry, p2.result.layouts = p.result.layouts ++ [entry] ∧
        entry.type ≠ MessageType.Action ∧ entry.id ≠ "") := by
  unfold parseLayoutRecursively.enter at h
  split at h
  · split at h
    · cases h
    · cases h
      refine ⟨fun _ _ hd => ?_, fun _ _ hd => ?_⟩ <;> cases hd
      exact hc.after_appendEntry _ (Or.inl ⟨rfl, Or.inl rfl, rfl⟩)
  · split at h
    · split at h
      · cases h
      · cases h
        refine ⟨fun _ _ hd => ?_, fun _ _ hd => ?_⟩ <;> cases hd
        exact hc.after_appendEntry _ (Or.inl ⟨rfl, Or.inr rfl, rfl⟩)
    · cases hf : p.findOrInsertObjectInfo fuel e categories with
      | error f => simp [hf] at h
      | ok r =>
        obtain ⟨info, p1⟩ := r
        simp only [hf] at h
        obtain ⟨_, _, _, hr1⟩ := findOrInsertObjectInfo_frame fuel p p1 _ categories info hf
        obtain ⟨hc1, hi, hid, hty⟩ :=
          findOrInsertObjectInfo_consistent fuel p p1 e categories info hc hf
        split at h
        · cases h
        · split at h
          · rename_i haction
            split at h
            · cases h
            · cases h
              refine ⟨fun _ _ hd => ?_, fun _ _ hd => ?_⟩ <;> cases hd
              exact hc1.after_appendEntry _
                (Or.inr ⟨hid, info, hi, by rw [haction]; rfl, fun _ => rfl⟩)
          · rename_i hna
            cases ht : p1.entryType fuel e info with
            | error f => simp [ht] at h
            | ok type =>
              simp only [ht] at h
              obtain ⟨hta, hiff, _, _⟩ := entryType_agrees fuel p1 e info type hty ht
              have htna : type ≠ MessageType.Action := fun ha => hna (hiff.1 ha)
              cases hs : p1.sequenceKey fuel e ((p1.objSeqMap.lookup info.id).getD []) with
              | error f => simp [hs] at h
              | ok seq =>
                simp only [hs] at h
                cases hdc : p1.declare e info type seq with
                | error f => simp [hdc] at h
                | ok dd =>
                  obtain ⟨hfin, hph⟩ :=
                    declare_consistent p1 e info type seq dd hc1 hi hid hna hta htna hdc
                  rw [hr1] at hph
                  cases dd with
                  | finished p3 =>
                    simp only [hdc] at h
                    cases h
                    refine ⟨fun _ _ hd => ?_, fun _ _ hd => ?_⟩ <;> cases hd
                    exact hfin _ rfl
                  | placeholder p3 =>
                    simp only [hdc] at h
                    split at h
                    · cases h
                      refine ⟨fun _ _ hd => ?_, fun _ _ hd => ?_⟩ <;> cases hd
                      exact (hph _ rfl).1
                    · cases h
                      refine ⟨fun _ _ hd => ?_, fun _ _ hd => ?_⟩ <;> cases hd
                      exact ⟨(hph _ rfl).1, _, (hph _ rfl).2, htna, hid⟩

mutual

/-- A successful `parseLayoutRecursively` keeps the state consistent. -/
theorem parseLayoutRecursively_consistent (fuel : Nat) :
    ∀ (e : QMXmlAdaptorElement) (p : ParserPrivate) (categories path : List String) (idx : Nat)
      (p' : ParserPrivate), p.Consistent →
      parseLayoutRecursively fuel e p categories path = .ok (idx, p') → p'.Consistent
  | .mk name properties value children, p, categories, path, idx, p', hc, h => by
    simp only [parseLayoutRecursively] at h
    cases he : parseLayoutRecursively.enter fuel p (.mk name properties value children)
        categories path with
    | error f => simp [he] at h
    | ok d =>
      obtain ⟨hfin, hdesc⟩ := enter_consistent fuel p _ categories path d hc he
      cases d with
      | finished idx2 p2 =>
        simp only [he, Except.ok.injEq, Prod.mk.injEq] at h
        obtain ⟨rfl, rfl⟩ := h
        exact hfin _ _ rfl
      | descend info p2 =>
        simp only [he] at h
        obtain ⟨hc2, entry, hl2, htna, hid⟩ := hdesc info p2 rfl
        cases hch : parseLayoutRecursively.parseChildren fuel children p2 info.categories
            (path ++ [info.id]) with
        | error f => simp [hch] at h
        | ok r3 =>
          obtain ⟨childIndexes, p3⟩ := r3
          simp only [hch, Except.ok.injEq, Prod.mk.injEq] at h
          obtain ⟨rfl, rfl⟩ := h
          have hc3 := parseChildren_consistent fuel children p2 info.categories
            (path ++ [info.id]) childIndexes p3 hc2 hch
          obtain ⟨hstep3, _⟩ := parseChildren_arena fuel children p2
            info.categories (path ++ [info.id]) childIndexes p3 hch
          obtain ⟨new, hnew⟩ := hstep3.grow
          rw [hl2, List.append_assoc, List.singleton_append] at hnew
          refine hc3.after_setChildIndexes _ _ ?_
          intro x hx
          rw [hnew, getElem?_append_length] at hx
          cases hx
          exact ⟨htna, hid⟩

/-- A successful loop over the children keeps the state consistent. -/
theorem parseChildren_consistent (fuel : Nat) :
    ∀ (cs : List QMXmlAdaptorElement) (p : ParserPrivate) (categories path : List String)
      (idxs : List Nat) (p' : ParserPrivate), p.Consistent →
      parseLayoutRecursively.parseChildren fuel cs p categories path = .ok (idxs, p') →
      p'.Consistent
  | [], p, categories, path, idxs, p', hc, h => by
    simp only [parseLayoutRecursively.parseChildren, Except.ok.injEq, Prod.mk.injEq] at h
    obtain ⟨rfl, rfl⟩ := h
    exact hc
  | c :: cs, p, categories, path, idxs, p', hc, h => by
    simp only [parseLayoutRecursively.parseChildren] at h
    cases h1 : parseLayoutRecursively fuel c p categories path with
    | error f => simp [h1] at h
    | ok r1 =>
      obtain ⟨idx, p1⟩ := r1
      simp only [h1] at h
      have hc1 := parseLayoutRecursively_consistent fuel c p categories path idx p1 hc h1
      cases h2 : parseLayoutRecursively.parseChildren fuel cs p1 categories path with
      | error f => simp [h2] at h
      | ok r2 =>
        obtain ⟨idxs2, p2⟩ := r2
        simp only [h2, Except.ok.injEq, Prod.mk.injEq] at h
        obtain ⟨rfl, rfl⟩ := h
        exact parseChildren_consistent fuel cs p1 categories path idxs2 p2 hc1 h2

end

end Aec
namespace Aec

open Core (QMXmlAdaptorElement)
open ParserPrivate

/-- A successful loop "Parse layouts" keeps the state consistent. -/
theorem parseLayouts_consistent (fuel : Nat) (items : List QMXmlAdaptorElement) :
    ∀ (p p1 : ParserPrivate), p.Consistent → parseLayouts fuel items p = .ok p1 →
      p1.Consistent := by
  induction items with
  | nil =>
    intro p p1 hc h
    simp only [parseLayouts, Except.ok.injEq] at h
    subst h
    exact hc
  | cons item rest ih =>
    intro p p1 hc h
    simp only [parseLayouts] at h
    cases h1 : p.parseLayoutRecursively fuel item p.defaultCategory [] with
    | error f => simp [h1] at h
    | ok r =>
      obtain ⟨idx, p2⟩ := r
      simp only [h1] at h
      have hc2 := parseLayoutRecursively_consistent fuel item p p.defaultCategory [] idx p2 hc h1
      refine ih _ p1 ?_ h
      exact ⟨hc2.keys, hc2.objects, hc2.entries, hc2.seqs⟩

/-- The entry that `parseRoutine.item` makes is well formed, and the state stays consistent. -/
theorem parseRoutine_item_consistent (fuel : Nat) (p p1 : ParserPrivate)
    (e : QMXmlAdaptorElement) (entry : ActionLayoutEntryMessage) (hc : p.Consistent)
    (h : parseRoutine.item fuel p e = .ok (entry, p1)) :
    p1.Consistent ∧ EntryOk p1.objInfoMap entry := by
  unfold parseRoutine.item at h
  split at h
  · simp only [Except.ok.injEq, Prod.mk.injEq] at h
    obtain ⟨rfl, rfl⟩ := h
    exact ⟨hc, Or.inl ⟨rfl, Or.inl rfl, rfl⟩⟩
  · split at h
    · simp only [Except.ok.injEq, Prod.mk.injEq] at h
      obtain ⟨rfl, rfl⟩ := h
      exact ⟨hc, Or.inl ⟨rfl, Or.inr rfl, rfl⟩⟩
    · cases hf : p.findOrInsertObjectInfo fuel e p.defaultCategory with
      | error f => simp [hf] at h
      | ok r =>
        obtain ⟨info, p2⟩ := r
        simp only [hf] at h
        obtain ⟨hc2, hi, hid, hty⟩ :=
          findOrInsertObjectInfo_consistent fuel p p2 e p.defaultCategory info hc hf
        split at h
        · cases h
        · cases ht : p2.entryType fuel e info with
          | error f => simp [ht] at h
          | ok type =>
            simp only [ht] at h
            obtain ⟨hta, hiff, _, _⟩ := entryType_agrees fuel p2 e info type hty ht
            have hfresh : EntryOk p2.objInfoMap ⟨info.id, type, []⟩ :=
              Or.inr ⟨hid, info, hi, hta, fun _ => rfl⟩
            have hcopy : ∀ (seqs : List (String × Nat)) (s : String × Nat)
                (old : ActionLayoutEntryMessage),
                p2.objSeqMap.lookup info.id = some seqs → s ∈ seqs →
                p2.result.layouts[s.2]? = some old →
                EntryOk p2.objInfoMap { old with type := type } := by
              intro seqs s old hl hs ho
              obtain ⟨x, info1, hx, hxid, hi1, hna1⟩ := hc2.seqs info.id seqs hl s hs
              rw [ho] at hx
              cases hx
              rw [hi] at hi1
              cases hi1
              refine Or.inr ⟨?_, info, ?_, hta, fun ha => absurd (hiff.1 ha) hna1⟩
              · simp only [hxid]
                exact hid
              · simp only [hxid]
                exact hi
            split at h
            · simp only [Except.ok.injEq, Prod.mk.injEq] at h
              obtain ⟨rfl, rfl⟩ := h
              exact ⟨hc2, hfresh⟩
            · rename_i first others hseqs
              have hl := lookup_of_getD_cons _ _ _ _ hseqs
              split at h
              · split at h
                · cases h
                · rename_i old hold
                  simp only [Except.ok.injEq, Prod.mk.injEq] at h
                  obtain ⟨rfl, rfl⟩ := h
                  exact ⟨hc2, hcopy _ first old hl (List.mem_cons_self _ _) hold⟩
              · split at h
                · cases h
                · split at h
                  · simp only [Except.ok.injEq, Prod.mk.injEq] at h
                    obtain ⟨rfl, rfl⟩ := h
                    exact ⟨hc2, hfresh⟩
                  · rename_i idx hidx
                    split at h
                    · cases h
                    · rename_i old hold
                      simp only [Except.ok.injEq, Prod.mk.injEq] at h
                      obtain ⟨rfl, rfl⟩ := h
                      exact ⟨hc2, hcopy _ (_, idx) old hl (mem_of_lookup_some _ _ _ hidx) hold⟩

/-- A successful loop over the items of a routine keeps the state consistent. -/
theorem parseRoutine_items_consistent (fuel : Nat) (items : List QMXmlAdaptorElement) :
    ∀ (p p1 : ParserPrivate) (acc idxs : List Nat), p.Consistent →
      parseRoutine.items fuel items p acc = .ok (idxs, p1) → p1.Consistent := by
  induction items with
  | nil =>
    intro p p1 acc idxs hc h
    simp only [parseRoutine.items, Except.ok.injEq, Prod.mk.injEq] at h
    obtain ⟨_, rfl⟩ := h
    exact hc
  | cons item rest ih =>
    intro p p1 acc idxs hc h
    simp only [parseRoutine.items] at h
    cases h1 : parseRoutine.item fuel p item with
    | error f => simp [h1] at h
    | ok r =>
      obtain ⟨entry, p2⟩ := r
      simp only [h1] at h
      obtain ⟨hc2, he⟩ := parseRoutine_item_consistent fuel p p2 item entry hc h1
      exact ih _ p1 _ idxs (hc2.after_appendEntry entry he) h

/-- A successful `parseRoutine` keeps the state consistent. -/
theorem parseRoutine_consistent (fuel : Nat) (p p1 : ParserPrivate) (root : QMXmlAdaptorElement)
    (routine : ActionBuildRoutineMessage) (hc : p.Consistent)
    (h : p.parseRoutine fuel root = .ok (routine, p1)) : p1.Consistent := by
  unfold parseRoutine at h
  repeat' split at h
  all_goals try cases h
  rename_i hitems
  exact parseRoutine_items_consistent fuel _ p p1 [] _ hc hitems

/-- A successful loop "Parse build routines" keeps the state consistent. -/
theorem parseRoutines_consistent (fuel : Nat) (items : List QMXmlAdaptorElement) :
    ∀ (p p1 : ParserPrivate), p.Consistent → parseRoutines fuel items p = .ok p1 →
      p1.Consistent := by
  induction items with
  | nil =>
    intro p p1 hc h
    simp only [parseRoutines, Except.ok.injEq] at h
    subst h
    exact hc
  | cons item rest ih =>
    intro p p1 hc h
    simp only [parseRoutines] at h
    cases h1 : p.parseRoutine fuel item with
    | error f => simp [h1] at h
    | ok r =>
      obtain ⟨routine, p2⟩ := r
      simp only [h1] at h
      have hc2 := parseRoutine_consistent fuel p p2 item routine hc h1
      refine ih _ p1 ?_ h
      exact ⟨hc2.keys, hc2.objects, hc2.entries, hc2.seqs⟩

/-- A successful loop "Parse objects" keeps the state consistent. -/
theorem parseObjects_consistent (fuel : Nat) (items : List QMXmlAdaptorElement) :
    ∀ (p p1 : ParserPrivate), p.Consistent → parseObjects fuel items p = .ok p1 →
      p1.Consistent := by
  induction items with
  | nil =>
    intro p p1 hc h
    simp only [parseObjects, Except.ok.injEq] at h
    subst h
    exact hc
  | cons item rest ih =>
    intro p p1 hc h
    simp only [parseObjects] at h
    cases h1 : p.parseObject fuel item with
    | error f => simp [h1] at h
    | ok entity =>
      simp only [h1] at h
      obtain ⟨hid, hty⟩ := parseObject_type fuel p item entity h1
      split at h
      · cases h
      · rename_i hnone
        have hl : p.objInfoMap.lookup entity.id = none := by
          cases hq : p.objInfoMap.lookup entity.id with
          | none => rfl
          | some v => rw [hq] at hnone; exact absurd rfl hnone
        refine ih _ p1 ?_ h
        refine hc.after_lookup rfl rfl ?_ ?_ ?_
        · intro k i hki
          refine ⟨i, ?_, rfl⟩
          simp only [Core.lookup_append_map, hki]
        · simp only [List.map_append, List.map_cons, List.map_nil]
          rw [List.nodup_append]
          refine ⟨hc.keys, List.nodup_singleton _, ?_⟩
          intro a ha hb
          rw [List.mem_singleton] at hb
          subst hb
          exact (Core.lookup_eq_none_iff_not_mem_keys _ _).1 hl ha
        · intro x hx
          simp only [List.mem_append, List.mem_singleton] at hx
          rcases hx with hx | hx
          · exact hc.objects x hx
          · subst hx
            exact ⟨rfl, hid, hty⟩

/-- The record made from a consistent state is consistent. -/
theorem recordConsistent_of_consistent (p : ParserPrivate) (hc : p.Consistent) :
    RecordConsistent { p.result with objects := (p.objInfoMap.map (fun item => item.2)) } := by
  refine ⟨?_, ?_⟩
  · have hmap : (p.objInfoMap.map (fun item => item.2)).map (fun obj => obj.id) =
        p.objInfoMap.map Prod.fst := by
      rw [List.map_map]
      apply List.map_congr_left
      intro x hx
      exact (hc.objects x hx).1
    simp only [hmap]
    exact hc.keys
  · intro entry he
    have hok := hc.entries entry he
    refine ⟨?_, ?_, ?_⟩
    · intro hne
      rcases hok with ⟨he0, _⟩ | ⟨_, info, hl, hta, _⟩
      · exact absurd he0 hne
      · have hmem := mem_of_lookup_some _ _ _ hl
        refine ⟨info, List.mem_map.2 ⟨_, hmem, rfl⟩, (hc.objects _ hmem).1, hta⟩
    · intro ht
      rcases hok with ⟨_, _, hch⟩ | ⟨_, info, hl, hta, hch⟩
      · exact hch
      · rcases ht with ht | ht | ht
        · exact hch ht
        · rw [ht] at hta
          cases hi : info.type <;> rw [hi] at hta <;> cases hta
        · rw [ht] at hta
          cases hi : info.type <;> rw [hi] at hta <;> cases hta
    · intro ht
      rcases hok with ⟨he0, _, _⟩ | ⟨_, info, hl, hta, hch⟩
      · exact he0
      · rcases ht with ht | ht
        · rw [ht] at hta
          cases hi : info.type <;> rw [hi] at hta <;> cases hta
        · rw [ht] at hta
          cases hi : info.type <;> rw [hi] at hta <;> cases hta

end Aec
namespace Aec

open Core (QMXmlAdaptorElement)
open ParserPrivate

/-- C36: every record that `Parser.parse` produces is consistent. The ids of its objects are
pairwise distinct; every entry of its array with a non-empty id names an object of the
record whose type agrees with the type of the entry (an Action entry for an Action, a Menu or
ExpandedMenu entry for a Menu, a Group entry for a Group); an Action, Separator or Stretch entry
has no children; and a Separator or Stretch entry has an empty id. -/
theorem compiled_record_is_consistent (fuel : Nat) (vars : List (String × String))
    (hash : String) (data : Option QMXmlAdaptorElement) (record : ActionExtensionMessage)
    (h : Parser.parse fuel vars hash data = .ok record) : RecordConsistent record := by
  simp only [Parser.parse, ParserPrivate.parse] at h
  split at h
  · cases h
  · rename_i root
    split at h
    · cases h
    · cases hcol : collected fuel vars root with
      | error f => simp [hcol] at h
      | ok r =>
        obtain ⟨c, p0⟩ := r
        simp only [hcol] at h
        have hmaps := collect_maps fuel root.children _ c _ p0 hcol
        have hres := collect_result fuel root.children _ c _ p0 hcol
        simp only at hmaps hres
        have hc0 : ParserPrivate.Consistent
            { p0 with result := { p0.result with version := c.version, hash := hash } } := by
          refine ⟨?_, ?_, ?_, ?_⟩
          · simp only [hmaps.1]
            exact List.nodup_nil
          · intro x hx
            simp only [hmaps.1] at hx
            cases hx
          · intro entry he
            simp only [hres] at he
            cases he
          · intro id seqs hl
            simp only [hmaps.2] at hl
            cases hl
        cases h1 : parseObjects fuel c.objElements
            { p0 with result := { p0.result with version := c.version, hash := hash } } with
        | error f => simp [h1] at h
        | ok p1 =>
          simp only [h1] at h
          have hc1 := parseObjects_consistent fuel _ _ p1 hc0 h1
          cases h2 : parseLayouts fuel c.layoutElements p1 with
          | error f => simp [h2] at h
          | ok p2 =>
            simp only [h2] at h
            have hc2 := parseLayouts_consistent fuel _ _ p2 hc1 h2
            cases h3 : parseRoutines fuel c.routineElements p2 with
            | error f => simp [h3] at h
            | ok p3 =>
              simp only [h3, Except.ok.injEq] at h
              have hc3 := parseRoutines_consistent fuel _ _ p3 hc2 h3
              subst h
              exact recordConsistent_of_consistent p3 hc3

/-- Witness of C36: the descriptor `mixedDescriptor` compiles, with a separator, a stretch, a
flat copy of the menu `file` and a routine, and the record is consistent. -/
theorem compiled_record_is_consistent_witness :
    ∃ record, Parser.parse 1 [] "h" (some Examples.mixedDescriptor) = .ok record ∧
      record.layouts =
        [⟨"bar", MessageType.Menu, [1, 6, 7]⟩, ⟨"file", MessageType.Menu, [2, 3, 4]⟩,
         ⟨"open", MessageType.Action, []⟩, ⟨"", MessageType.Separator, []⟩,
         ⟨"recent", MessageType.Group, [5]⟩, ⟨"clear", MessageType.Action, []⟩,
         ⟨"", MessageType.Stretch, []⟩, ⟨"file", MessageType.ExpandedMenu, [2, 3, 4]⟩,
         ⟨"file", MessageType.Menu, [2, 3, 4]⟩, ⟨"quit", MessageType.Action, []⟩,
         ⟨"", MessageType.Separator, []⟩] ∧
      record.objects.map (fun obj => (obj.id, obj.type)) =
        [("open", MessageType.Action), ("file", MessageType.Menu), ("bar", MessageType.Menu),
         ("recent", MessageType.Group), ("clear", MessageType.Action),
         ("quit", MessageType.Action)] ∧
      RecordConsistent record := by
  have hl : (Parser.parse 1 [] "h" (some Examples.mixedDescriptor)).toOption.map
      (fun r => (r.layouts, r.objects.map (fun obj => (obj.id, obj.type)))) =
      some ([⟨"bar", MessageType.Menu, [1, 6, 7]⟩, ⟨"file", MessageType.Menu, [2, 3, 4]⟩,
         ⟨"open", MessageType.Action, []⟩, ⟨"", MessageType.Separator, []⟩,
         ⟨"recent", MessageType.Group, [5]⟩, ⟨"clear", MessageType.Action, []⟩,
         ⟨"", MessageType.Stretch, []⟩, ⟨"file", MessageType.ExpandedMenu, [2, 3, 4]⟩,
         ⟨"file", MessageType.Menu, [2, 3, 4]⟩, ⟨"quit", MessageType.Action, []⟩,
         ⟨"", MessageType.Separator, []⟩],
        [("open", MessageType.Action), ("file", MessageType.Menu), ("bar", MessageType.Menu),
         ("recent", MessageType.Group), ("clear", MessageType.Action),
         ("quit", MessageType.Action)]) := by
    decide!
  cases h : Parser.parse 1 [] "h" (some Examples.mixedDescriptor) with
  | error f =>
    rw [h] at hl
    cases hl
  | ok record =>
    rw [h] at hl
    simp only [Except.toOption, Option.map_some', Option.some.injEq, Prod.mk.injEq] at hl
    exact ⟨record, rfl, hl.1, hl.2, compiled_record_is_consistent 1 [] "h" _ record h⟩

end Aec
